import Mathlib


/-!
# ImageGraph: a shallow embedding of the execution core

Definitions are translated from the C++ sources of the repository
(`include/internal/LRUCache.hpp`, `include/internal/Cache.hpp`, `include/internal/ProtoCache.hpp`,
`include/core/Rectangle.hpp`, `include/core/Tile.hpp`, the generators and tilers, the task
adaptors).  Unsigned machine integers (`std::size_t`) are natural numbers and `long` is `Int`;
an `assert` that fails, or a loop that does not end, is the result `none`.
-/

namespace ImageGraph

/-! ## `LRUCache.hpp` -/

/-- The loop of `remove_over(limit)`: `while (size() > limit) pop_front()`, on the recency
list (front = least recently used). -/
def remove_overList {α : Type} : List α → Nat → List α
  | [], _ => []
  | x :: xs, limit => if (x :: xs).length > limit then remove_overList xs limit else x :: xs

/-- `LRUMap<K, V>`.  `values_` is the `std::list` of pairs, front = least recently used.
`lookup_` maps each key of `values_` to its list node; every member keeps the two in step
(`size()` asserts it), so the lookup is read off `values_`. -/
structure LRUMap (K V : Type) where
  values_ : List (K × V)
  capacity_ : Nat
  deriving DecidableEq

namespace LRUMap
variable {K V : Type} [DecidableEq K]

/-- `LRUMap(std::size_t capacity)`. -/
def new (capacity : Nat) : LRUMap K V := ⟨[], capacity⟩

def size (m : LRUMap K V) : Nat := m.values_.length

def capacity (m : LRUMap K V) : Nat := m.capacity_

def remove_over (m : LRUMap K V) (limit : Nat) : LRUMap K V :=
  { m with values_ := remove_overList m.values_ limit }

/-- `lookup_.find(key) != lookup_.end()`. -/
def found (m : LRUMap K V) (key : K) : Bool := m.values_.any fun e => decide (e.1 = key)

def recapacitate (m : LRUMap K V) (capacity : Nat) : LRUMap K V :=
  if m.capacity_ = capacity then m
  else if capacity = 0 then { values_ := [], capacity_ := capacity }
  else remove_over { m with capacity_ := capacity } capacity

/-- `insert(key, value)`; `none` is a failed `assert`. -/
def insert (m : LRUMap K V) (key : K) (value : V) : Option (LRUMap K V) :=
  if m.found key then none
  else if m.capacity_ = 0 then
    if m.values_.isEmpty then some m else none
  else
    some { remove_over m (m.capacity_ - 1) with
      values_ := (remove_over m (m.capacity_ - 1)).values_ ++ [(key, value)] }

/-- `at(key)`: on a hit the node is spliced to the end of `values_` and its value returned. -/
def at_ (m : LRUMap K V) (key : K) : Option V × LRUMap K V :=
  match m.values_.find? fun e => decide (e.1 = key) with
  | some e => (some e.2, { m with values_ := (m.values_.eraseP fun e => decide (e.1 = key)) ++ [e] })
  | none => (none, m)

end LRUMap

/-- `LRUSet<V>`: the key-only variant of `LRUMap`. -/
structure LRUSet (E : Type) where
  values_ : List E
  capacity_ : Nat
  deriving DecidableEq

namespace LRUSet
variable {E : Type} [DecidableEq E]

def new (capacity : Nat) : LRUSet E := ⟨[], capacity⟩

def size (s : LRUSet E) : Nat := s.values_.length

def capacity (s : LRUSet E) : Nat := s.capacity_

def remove_over (s : LRUSet E) (limit : Nat) : LRUSet E :=
  { s with values_ := remove_overList s.values_ limit }

def found (s : LRUSet E) (value : E) : Bool := s.values_.any fun e => decide (e = value)

def recapacitate (s : LRUSet E) (capacity : Nat) : LRUSet E :=
  if s.capacity_ = capacity then s
  else if capacity = 0 then { values_ := [], capacity_ := capacity }
  else remove_over { s with capacity_ := capacity } capacity

/-- `insert(value)`; `none` is a failed `assert`. -/
def insert (s : LRUSet E) (value : E) : Option (LRUSet E) :=
  if s.found value then none
  else if s.capacity_ = 0 then
    if s.values_.isEmpty then some s else none
  else
    some { remove_over s (s.capacity_ - 1) with
      values_ := (remove_over s (s.capacity_ - 1)).values_ ++ [value] }

/-- `exists(value)`: on a hit the node is spliced to the end of `values_`. -/
def exists_ (s : LRUSet E) (value : E) : Bool × LRUSet E :=
  if s.found value then (true, { s with values_ := s.values_.erase value ++ [value] })
  else (false, s)

end LRUSet

/-! ## `ProtoCache.hpp` and `Cache.hpp` -/

/-- `OrderedMapProtoCache<E>`: a wrapper of `LRUSet<E>`. -/
structure OrderedMapProtoCache (E : Type) where
  set_ : LRUSet E
  deriving DecidableEq

namespace OrderedMapProtoCache
variable {E : Type} [DecidableEq E]

def new (capacity : Nat) : OrderedMapProtoCache E := ⟨LRUSet.new capacity⟩
def capacity (c : OrderedMapProtoCache E) : Nat := c.set_.capacity
def size (c : OrderedMapProtoCache E) : Nat := c.set_.size
def resize (c : OrderedMapProtoCache E) (capacity : Nat) : OrderedMapProtoCache E :=
  ⟨c.set_.recapacitate capacity⟩
def contains (c : OrderedMapProtoCache E) (element : E) : Bool × OrderedMapProtoCache E :=
  ((c.set_.exists_ element).1, ⟨(c.set_.exists_ element).2⟩)
def put (c : OrderedMapProtoCache E) (element : E) : Option (OrderedMapProtoCache E) :=
  (c.set_.insert element).map fun s => ⟨s⟩

end OrderedMapProtoCache

/-- `Cache<K, V, LRUMap<K, V>, OrderedMapProtoCache<K>>` (`OrderedMapCache`); the mutex of the
synchronized variants guards the same calls and is not part of the state. -/
structure Cache (K V : Type) where
  data_ : LRUMap K V
  deriving DecidableEq

namespace Cache
variable {K V : Type} [DecidableEq K]

def new (capacity : Nat) : Cache K V := ⟨LRUMap.new capacity⟩
def capacity (c : Cache K V) : Nat := c.data_.capacity
def size (c : Cache K V) : Nat := c.data_.size
def resize (c : Cache K V) (capacity : Nat) : Cache K V := ⟨c.data_.recapacitate capacity⟩
def get (c : Cache K V) (key : K) : Option V × Cache K V :=
  ((c.data_.at_ key).1, ⟨(c.data_.at_ key).2⟩)
def put (c : Cache K V) (key : K) (value : V) : Option (Cache K V) :=
  (c.data_.insert key value).map fun d => ⟨d⟩

end Cache

/-- One call on a `Cache`. -/
inductive CacheOp (K V : Type) where
  | put (key : K) (value : V)
  | get (key : K)
  | resize (capacity : Nat)

/-- One call on an `OrderedMapProtoCache`. -/
inductive ProtoCacheOp (E : Type) where
  | put (element : E)
  | contains (element : E)
  | resize (capacity : Nat)

/-- The cache after one call (`none`: an `assert` of `insert` failed). -/
def Cache.step {K V : Type} [DecidableEq K] (c : Cache K V) : CacheOp K V → Option (Cache K V)
  | .put k v => c.put k v
  | .get k => some (c.get k).2
  | .resize n => some (c.resize n)

/-- The cache after a sequence of calls. -/
def Cache.run {K V : Type} [DecidableEq K] : Cache K V → List (CacheOp K V) → Option (Cache K V)
  | c, [] => some c
  | c, op :: ops =>
    match c.step op with
    | none => none
    | some c1 => Cache.run c1 ops

def OrderedMapProtoCache.step {E : Type} [DecidableEq E] (c : OrderedMapProtoCache E) :
    ProtoCacheOp E → Option (OrderedMapProtoCache E)
  | .put e => c.put e
  | .contains e => some (c.contains e).2
  | .resize n => some (c.resize n)

def OrderedMapProtoCache.run {E : Type} [DecidableEq E] :
    OrderedMapProtoCache E → List (ProtoCacheOp E) → Option (OrderedMapProtoCache E)
  | c, [] => some c
  | c, op :: ops =>
    match c.step op with
    | none => none
    | some c1 => OrderedMapProtoCache.run c1 ops

/-- The stamp of key `j` in a log of `(key, time)` pairs, newest first; 0 when `j` is not in it. -/
def stampOf {K : Type} [DecidableEq K] : List (K × Nat) → K → Nat
  | [], _ => 0
  | (k, t) :: rest, j => if j = k then t else stampOf rest j

/-- A cache together with the bookkeeping of when each key was last used: `clock` counts the
calls made so far and `stamps` logs, newest first, the number of each `put` and of each
successful `get` under its key.  The cache itself is driven by `Cache.step` unchanged. -/
structure StampedCache (K V : Type) where
  cache : Cache K V
  clock : Nat
  stamps : List (K × Nat)
  deriving DecidableEq

/-- The number of the last `put` or successful `get` of `k` (0 when there was none). -/
def StampedCache.stamp {K V : Type} [DecidableEq K] (s : StampedCache K V) (k : K) : Nat :=
  stampOf s.stamps k

def StampedCache.step {K V : Type} [DecidableEq K] (s : StampedCache K V) :
    CacheOp K V → Option (StampedCache K V)
  | .put k v =>
    (s.cache.put k v).map fun c =>
      { cache := c, clock := s.clock + 1, stamps := (k, s.clock + 1) :: s.stamps }
  | .get k =>
    some { cache := (s.cache.get k).2, clock := s.clock + 1,
           stamps := if (s.cache.get k).1.isSome then (k, s.clock + 1) :: s.stamps else s.stamps }
  | .resize n => some { cache := s.cache.resize n, clock := s.clock + 1, stamps := s.stamps }

def StampedCache.run {K V : Type} [DecidableEq K] :
    StampedCache K V → List (CacheOp K V) → Option (StampedCache K V)
  | s, [] => some s
  | s, op :: ops =>
    match s.step op with
    | none => none
    | some s1 => StampedCache.run s1 ops

/-- The values returned by the `get` calls of a sequence of calls, in order. -/
def Cache.runGets {K V : Type} [DecidableEq K] :
    Cache K V → List (CacheOp K V) → Option (List (Option V))
  | _, [] => some []
  | c, .get k :: ops => (Cache.runGets (c.get k).2 ops).map fun r => (c.get k).1 :: r
  | c, op :: ops =>
    match c.step op with
    | none => none
    | some c1 => Cache.runGets c1 ops

/-- The recency invariant of a stamped cache: the list is within capacity, it is ordered by
strictly increasing stamp from front to back, and no stamp is ahead of the clock. -/
def StampedCache.Ordered {K V : Type} [DecidableEq K] (s : StampedCache K V) : Prop :=
  s.cache.data_.values_.length ≤ s.cache.data_.capacity_ ∧
  List.Pairwise (fun a b => s.stamp a.1 < s.stamp b.1) s.cache.data_.values_ ∧
  ∀ e ∈ s.cache.data_.values_, s.stamp e.1 ≤ s.clock

end ImageGraph


namespace ImageGraph

/-! ## `Rectangle.hpp` (instantiated at `std::size_t`) -/

/-- `RectangleDimensions<std::size_t>`. -/
structure RectangleDimensions where
  width : Nat
  height : Nat
  deriving DecidableEq, Repr

namespace RectangleDimensions
def size (d : RectangleDimensions) : Nat := d.width * d.height
def empty (d : RectangleDimensions) : Bool := d.size == 0
end RectangleDimensions

/-- `Rectangle<std::size_t>`: counts from the top left corner. -/
structure Rectangle where
  left : Nat
  top : Nat
  width : Nat
  height : Nat
  deriving DecidableEq, Repr

namespace Rectangle

/-- `Rectangle(point, dimensions)`. -/
def ofPoint (x y : Nat) (d : RectangleDimensions) : Rectangle := ⟨x, y, d.width, d.height⟩
/-- `Rectangle(dimensions)`: the rectangle at the origin. -/
def ofDimensions (d : RectangleDimensions) : Rectangle := ⟨0, 0, d.width, d.height⟩
def dimensions (r : Rectangle) : RectangleDimensions := ⟨r.width, r.height⟩
def size (r : Rectangle) : Nat := r.dimensions.size
def empty (r : Rectangle) : Bool := r.dimensions.empty

/-- `clip(RectangleDimensions)`; `removeNegative` does nothing for an unsigned type. -/
def clipDimensions (r : Rectangle) (d : RectangleDimensions) : Rectangle :=
  let r1 : Rectangle :=
    if r.left > d.width then { r with left := d.width, width := 0 }
    else if r.left + r.width > d.width then { r with width := d.width - r.left }
    else r
  if r1.top > d.height then { r1 with top := d.height, height := 0 }
  else if r1.top + r1.height > d.height then { r1 with height := d.height - r1.top }
  else r1

/-- `overlap(other)`: the area of the intersection. -/
def overlap (r o : Rectangle) : Nat :=
  let min_right := min (r.left + r.width) (o.left + o.width)
  let max_left := max r.left o.left
  let min_bottom := min (r.top + r.height) (o.top + o.height)
  let max_top := max r.top o.top
  (if min_right > max_left then min_right - max_left else 0) *
    (if min_bottom > max_top then min_bottom - max_top else 0)

/-- The pixel `(x, y)` lies in the rectangle. -/
def covers (r : Rectangle) (x y : Nat) : Prop :=
  r.left ≤ x ∧ x < r.left + r.width ∧ r.top ≤ y ∧ y < r.top + r.height

instance (r : Rectangle) (x y : Nat) : Decidable (r.covers x y) := by
  unfold covers; exact inferInstance

end Rectangle

/-! ## `Mathematics.hpp` -/

/-- `math::sign`. -/
def sign (val : Int) : Int := (if 0 < val then 1 else 0) - (if val < 0 then 1 else 0)

/-- `math::abs_u`: the absolute value as an unsigned number. -/
def abs_u (val : Int) : Nat := (if val ≥ 0 then val else -val).toNat

/-- `math::clamped_dif`. -/
def clamped_dif (minuend subtrahend mn mx : Int) : Int :=
  if minuend ≥ mn + subtrahend then min (minuend - subtrahend) mx else mn

/-! ## `generators/GeneralizedHilbert.hpp` -/

/-- `Point<long>`. -/
abbrev Point := Int × Int

inductive Direction where
  | X
  | Y
  deriving DecidableEq, Repr

/-- `operator!` on `Direction`. -/
def Direction.flip : Direction → Direction
  | .X => .Y
  | .Y => .X

/-- The points a row or column fill passes to the functor:
`for (i = 0; i < dim; ++i, v += step) functor(Point(x, y))`, `v` being `x` when `alongX`. -/
def lineFill (alongX : Bool) (x y : Int) (dim : Nat) (step : Int) : List Point :=
  (List.range dim).map fun (i : Nat) =>
    if alongX then (x + (i : Int) * step, y) else (x, y + (i : Int) * step)

/-- `gilbert2d_inner<major_dir>(x, y, major, minor, functor)`: the points passed to the functor,
in order.  The recursion of the source is bounded here by `fuel`; `none` means that the fuel
did not suffice. `/ 2` on `long` truncates towards zero (`Int.tdiv`). -/
def gilbert2d_inner : Nat → Direction → Int → Int → Int → Int → Option (List Point)
  | 0, _, _, _, _, _ => none
  | fuel + 1, major_dir, x, y, major, minor =>
    let major_dim := abs_u major
    let minor_dim := abs_u minor
    let major_step := sign major
    let minor_step := sign minor
    if minor_dim = 1 then
      some (lineFill (major_dir = .X) x y major_dim major_step)
    else if major_dim = 1 then
      some (lineFill (major_dir = .Y) x y minor_dim minor_step)
    else
      let major2 := Int.tdiv major 2
      let minor2 := Int.tdiv minor 2
      if 2 * major_dim > 3 * minor_dim then
        let major2 := if major2.natAbs % 2 ≠ 0 ∧ major_dim > 2 then major2 + major_step else major2
        match gilbert2d_inner fuel major_dir x y major2 minor with
        | none => none
        | some a =>
          let x1 := if major_dir = .X then x + major2 else x
          let y1 := if major_dir = .X then y else y + major2
          match gilbert2d_inner fuel major_dir x1 y1 (major - major2) minor with
          | none => none
          | some b => some (a ++ b)
      else
        let minor2 := if minor2.natAbs % 2 ≠ 0 ∧ minor_dim > 2 then minor2 + minor_step else minor2
        match gilbert2d_inner fuel major_dir.flip x y minor2 major2 with
        | none => none
        | some a =>
          let x1 := if major_dir = .X then x else x + minor2
          let y1 := if major_dir = .X then y + minor2 else y
          match gilbert2d_inner fuel major_dir x1 y1 major (minor - minor2) with
          | none => none
          | some b =>
            let x2 := if major_dir = .X then x1 + (major - major_step) else x1 - minor_step
            let y2 := if major_dir = .X then y1 - minor_step else y1 + (major - major_step)
            match gilbert2d_inner fuel major_dir.flip x2 y2 (-minor2) (major2 - major) with
            | none => none
            | some c => some (a ++ b ++ c)

/-- `gilbert2d(x, y, width, height, functor, direction)`. -/
def gilbert2d (fuel : Nat) (x y width height : Int) (direction : Option Direction) :
    Option (List Point) :=
  match (match direction with
         | some d => d
         | none => if width ≥ height then Direction.X else Direction.Y) with
  | .X => gilbert2d_inner fuel .X x y width height
  | .Y => gilbert2d_inner fuel .Y x y height width

/-- The offset `d` lies in the span of a signed extent `k`: `d = i * sign k` for some
`0 <= i < |k|`. -/
def inSpan (d k : Int) : Prop := (0 ≤ d ∧ d < k) ∨ (k < d ∧ d ≤ 0)

/-- The point `p` lies in the rectangle that starts at `(x, y)` and spans the signed extents
`major` (along the axis `major_dir`) and `minor` (along the other axis). -/
def inBox (major_dir : Direction) (x y major minor : Int) (p : Point) : Prop :=
  match major_dir with
  | .X => inSpan (p.1 - x) major ∧ inSpan (p.2 - y) minor
  | .Y => inSpan (p.2 - y) major ∧ inSpan (p.1 - x) minor

/-! ## `generators/Spiral.hpp` -/

inductive SpiralSide where
  | RIGHT
  | BOTTOM
  | LEFT
  | TOP
  deriving DecidableEq, Repr

structure SpiralInfo where
  side : SpiralSide
  x : Int
  y : Int
  deriving DecidableEq, Repr

/-- The values of `v` in `for (v = a; v <= b; ++v)`. -/
def upLoop (a b : Int) : List Int := (List.range (b + 1 - a).toNat).map fun (k : Nat) => a + (k : Int)

/-- The values of `v` in `for (v = a; v < b; ++v)`. -/
def upLoopLt (a b : Int) : List Int := (List.range (b - a).toNat).map fun (k : Nat) => a + (k : Int)

/-- The values of `v` in `for (v = a;; --v) { ...; if (v == b) break; }`; the loop does not
end when it starts below `b` (`none`). -/
def downLoop (a b : Int) : Option (List Int) :=
  if b ≤ a then some ((List.range (a + 1 - b).toNat).map fun (k : Nat) => a - (k : Int)) else none

/-- A `bool` used as an integer. -/
def boolToInt (b : Bool) : Int := if b then 1 else 0

/-- The body of the loop over `i` in `simple_spiral`: one ring of the spiral. -/
def spiralRing (x_start y_start x_min y_min x_max y_max i : Int) : Option (List SpiralInfo) :=
  let x2 := x_start + i
  let y2 := y_start + i
  let right1 : Bool := x2 ≤ x_max
  let bottom : Bool := y2 ≤ y_max
  let left : Bool := x_start ≥ x_min + i
  let top : Bool := y_start ≥ y_min + i
  let right2 : Bool := x2 + 1 ≤ x_max
  let x1c := clamped_dif (x_start + boolToInt left) i x_min x_max
  let y1c := if y_start ≥ y_min + i then y_start - i else y_min
  let y2c := min y2 y_max
  let partRight1 : List SpiralInfo :=
    if right1 then (upLoop y_start y2c).map fun y => ⟨.RIGHT, x2, y⟩ else []
  let partBottom : Option (List SpiralInfo) :=
    if bottom then
      (downLoop (clamped_dif x2 (boolToInt right1) x_min x_max) x1c).map
        fun xs => xs.map fun x => ⟨.BOTTOM, x, y2⟩
    else some []
  let partLeft : Option (List SpiralInfo) :=
    if left then (downLoop y2c y1c).map fun ys => ys.map fun y => ⟨.LEFT, x_start - i, y⟩
    else some []
  let partTop : List SpiralInfo :=
    if top then
      (upLoop x1c (min (x2 + 1 - boolToInt right2) x_max)).map fun x => ⟨.TOP, x, y_start - i⟩
    else []
  let partRight2 : List SpiralInfo :=
    if right2 then (upLoopLt y1c y_start).map fun y => ⟨.RIGHT, x2 + 1, y⟩ else []
  match partBottom with
  | none => none
  | some pb =>
    match partLeft with
    | none => none
    | some pl => some (partRight1 ++ pb ++ pl ++ partTop ++ partRight2)

/-- The rings `i, i + 1, ..., i + n - 1` of the spiral, in order. -/
def spiralRings (x_start y_start x_min y_min x_max y_max : Int) : Int → Nat → Option (List SpiralInfo)
  | _, 0 => some []
  | i, n + 1 =>
    match spiralRing x_start y_start x_min y_min x_max y_max i with
    | none => none
    | some r =>
      match spiralRings x_start y_start x_min y_min x_max y_max (i + 1) n with
      | none => none
      | some rest => some (r ++ rest)

/-- `simple_spiral(x_start, y_start, x_min, y_min, x_max, y_max, functor)`: the values passed to
the functor, in order; `none` when an `assert` fails or a loop does not end. -/
def simple_spiral (x_start y_start x_min y_min x_max y_max : Int) : Option (List SpiralInfo) :=
  if ¬ (x_min ≤ x_start ∧ x_start ≤ x_max) then none
  else if ¬ (y_min ≤ y_start ∧ y_start ≤ y_max) then none
  else
    let maximum := max (max (max (x_start - x_min) (x_max - x_start)) 0)
                       (max (max (y_start - y_min) (y_max - y_start)) 0)
    match spiralRings x_start y_start x_min y_min x_max y_max 1 maximum.toNat with
    | none => none
    | some rest => some (⟨.TOP, x_start, y_start⟩ :: rest)

/-- The list `l` passes every point that satisfies `P` exactly once, and no other point. -/
def Enumerates (l : List Point) (P : Point → Prop) : Prop := l.Nodup ∧ ∀ p, p ∈ l ↔ P p

/-- The cell of the grid a spiral step is at. -/
def SpiralInfo.cell (s : SpiralInfo) : Point := (s.x, s.y)

/-- The cells of ring `i` of the spiral around `(x_start, y_start)` inside the grid
`[x_min, x_max] x [y_min, y_max]`: the cells at distance `i` (maximum norm) except the upper
part of the right column, which ring `i - 1` has passed already, and the upper part of the
right column of ring `i + 1`. -/
def inRing (x_start y_start x_min y_min x_max y_max i : Int) (p : Point) : Prop :=
  (x_min ≤ p.1 ∧ p.1 ≤ x_max ∧ y_min ≤ p.2 ∧ p.2 ≤ y_max) ∧
  ((((-i ≤ p.1 - x_start ∧ p.1 - x_start ≤ i ∧ -i ≤ p.2 - y_start ∧ p.2 - y_start ≤ i) ∧
      (p.1 - x_start = i ∨ p.1 - x_start = -i ∨ p.2 - y_start = i ∨ p.2 - y_start = -i)) ∧
      ¬ (p.1 = x_start + i ∧ y_start - i + 1 ≤ p.2 ∧ p.2 < y_start)) ∨
    (p.1 = x_start + i + 1 ∧ y_start - i ≤ p.2 ∧ p.2 < y_start))

/-! ## `generators/HilbertSpiral.hpp` -/

/-- The functor that `gilbert_spiral` hands to `simple_spiral`: the curve through one block. -/
def spiralBlock (fuel : Nat) (x_min y_min : Int) (width height tile_width tile_height : Nat)
    (info : SpiralInfo) : Option (List Point) :=
  let current_width : Int := min ((info.x + 1) * tile_width) width - info.x * tile_width
  let current_height : Int := min ((info.y + 1) * tile_height) height - info.y * tile_height
  match info.side with
  | .RIGHT =>
    gilbert2d fuel (x_min + info.x * tile_width) (y_min + info.y * tile_height)
      current_width current_height (some .Y)
  | .TOP =>
    gilbert2d fuel (x_min + info.x * tile_width) (y_min + info.y * tile_height)
      current_width current_height (some .X)
  | .BOTTOM =>
    gilbert2d fuel (x_min + info.x * tile_width + current_width - 1)
      (y_min + info.y * tile_height + current_height - 1) (-current_width) (-current_height)
      (some .X)
  | .LEFT =>
    gilbert2d fuel (x_min + info.x * tile_width + current_width - 1)
      (y_min + info.y * tile_height + current_height - 1) (-current_width) (-current_height)
      (some .Y)

/-- The concatenation of the results of `f` over a list; `none` as soon as one call fails. -/
def concatMapOption {α β : Type} (f : α → Option (List β)) : List α → Option (List β)
  | [] => some []
  | a :: rest =>
    match f a with
    | none => none
    | some l =>
      match concatMapOption f rest with
      | none => none
      | some ls => some (l ++ ls)

/-- `gilbert_spiral(x_start, y_start, x_min, y_min, x_max, y_max, tile_width, tile_height,
functor)`: the points passed to the functor, in order.  A zero tile extent is a division by
zero (`none`). -/
def gilbert_spiral (fuel : Nat) (x_start y_start x_min y_min x_max y_max : Int)
    (tile_width tile_height : Nat) : Option (List Point) :=
  if x_max < x_min ∨ y_max < y_min then some []
  else if ¬ (x_min ≤ x_start ∧ x_start ≤ x_max) then none
  else if ¬ (y_min ≤ y_start ∧ y_start ≤ y_max) then none
  else if tile_width = 0 ∨ tile_height = 0 then none
  else
    let x_max0 : Nat := (x_max - x_min).toNat
    let y_max0 : Nat := (y_max - y_min).toNat
    let width := x_max0 + 1
    let height := y_max0 + 1
    match simple_spiral (((x_start - x_min).toNat / tile_width : Nat) : Int)
        (((y_start - y_min).toNat / tile_height : Nat) : Int) 0 0
        ((x_max0 / tile_width : Nat) : Int) ((y_max0 / tile_height : Nat) : Int) with
    | none => none
    | some infos =>
      concatMapOption (spiralBlock fuel x_min y_min width height tile_width tile_height) infos

/-! ## `tilers/Hilbert.hpp` and `tilers/HilbertSpiral.hpp` -/

/-- The rectangle a tiler makes of a curve point:
`rectangle_t(Point<std::size_t>(p.x() * tile.width(), p.y() * tile.height()), tile).clip(node)`. -/
def tileAt (node tile : RectangleDimensions) (p : Point) : Rectangle :=
  (Rectangle.ofPoint (p.1 * tile.width).toNat (p.2 * tile.height).toNat tile).clipDimensions node

namespace HilbertRegion

/-- `generateGenerator(rect, tile)`: the curve points, `some []` for `std::nullopt`. -/
def generateGenerator (fuel : Nat) (rect : Rectangle) (tile : RectangleDimensions) :
    Option (List Point) :=
  if rect.empty ∨ tile.empty then some []
  else
    let left := rect.left / tile.width
    let right := (rect.left + rect.width - 1) / tile.width
    let top := rect.top / tile.height
    let bottom := (rect.top + rect.height - 1) / tile.height
    gilbert2d fuel left top ((right - left + 1 : Nat) : Int) ((bottom - top + 1 : Nat) : Int) none

/-- The rectangles returned by the successive calls of `next()` while `remaining()`. -/
def next (fuel : Nat) (rectangle : Rectangle) (node tile : RectangleDimensions) :
    Option (List Rectangle) :=
  (generateGenerator fuel rectangle tile).map fun ps => ps.map (tileAt node tile)

/-- The rectangles that `perform(rect, node, tile, functor)` passes to the functor, in order. -/
def perform (fuel : Nat) (rect : Rectangle) (node tile : RectangleDimensions) :
    Option (List Rectangle) :=
  if rect.empty ∨ tile.empty then some []
  else
    let left := rect.left / tile.width
    let right := (rect.left + rect.width - 1) / tile.width
    let top := rect.top / tile.height
    let bottom := (rect.top + rect.height - 1) / tile.height
    (gilbert2d fuel left top ((right - left + 1 : Nat) : Int) ((bottom - top + 1 : Nat) : Int)
      none).map fun ps => ps.map (tileAt node tile)

end HilbertRegion

namespace HilbertSpiralRegion

/-- `generateCurve(rect, tile, region, centre)`: the curve points, `some []` for `std::nullopt`. -/
def generateCurve (fuel : Nat) (rect : Rectangle) (tile region : RectangleDimensions)
    (centre : Nat × Nat) : Option (List Point) :=
  if rect.empty ∨ tile.empty ∨ region.empty then some []
  else
    let right := rect.left + rect.width - 1
    let bottom := rect.top + rect.height - 1
    gilbert_spiral fuel ((centre.1 / tile.width : Nat) : Int) ((centre.2 / tile.height : Nat) : Int)
      ((rect.left / tile.width : Nat) : Int) ((rect.top / tile.height : Nat) : Int)
      ((right / tile.width : Nat) : Int) ((bottom / tile.height : Nat) : Int)
      region.width region.height

/-- The rectangles returned by the successive calls of `next()` while `remaining()`. -/
def next (fuel : Nat) (rectangle : Rectangle) (centre : Nat × Nat)
    (node tile region : RectangleDimensions) : Option (List Rectangle) :=
  (generateCurve fuel rectangle tile region centre).map fun ps => ps.map (tileAt node tile)

end HilbertSpiralRegion

/-- Fuel that suffices for the curve of a `HilbertRegion`: the extents of its tile grid. -/
def HilbertRegion.fuelBound (rect : Rectangle) (tile : RectangleDimensions) : Nat :=
  ((rect.left + rect.width - 1) / tile.width - rect.left / tile.width + 1) +
  ((rect.top + rect.height - 1) / tile.height - rect.top / tile.height + 1)

/-- The centre lies in the tile grid of the rectangle (the `assert`s of `gilbert_spiral`). -/
def HilbertSpiralRegion.centreInside (rect : Rectangle) (tile : RectangleDimensions)
    (centre : Nat × Nat) : Prop :=
  rect.left / tile.width ≤ centre.1 / tile.width ∧
  centre.1 / tile.width ≤ (rect.left + rect.width - 1) / tile.width ∧
  rect.top / tile.height ≤ centre.2 / tile.height ∧
  centre.2 / tile.height ≤ (rect.top + rect.height - 1) / tile.height

/-! ## `Tile.hpp` -/

/-- `Tile<T>`: a rectangle, a channel count and the channel-interleaved, row-major buffer. -/
structure Tile (α : Type) where
  rectangle_ : Rectangle
  channels_ : Nat
  data_ : List α

namespace Tile
variable {α : Type}

def left (t : Tile α) : Nat := t.rectangle_.left
def top (t : Tile α) : Nat := t.rectangle_.top
def width (t : Tile α) : Nat := t.rectangle_.width
def height (t : Tile α) : Nat := t.rectangle_.height

/-- The buffer has the size the constructor gives it (or asserts). -/
def WellSized (t : Tile α) : Prop := t.data_.length = t.rectangle_.size * t.channels_

/-- `operator()(x, y, c)`, with `x`, `y` relative to the tile (`none` outside the buffer). -/
def get (t : Tile α) (x y c : Nat) : Option α := t.data_[t.channels_ * (x + t.width * y) + c]?

/-- The buffer index that `copyOverlap` uses for the pixel `(x, y)` (absolute coordinates) and
channel `c`: `channels * ((y - top()) * width() + x - left()) + channel`. -/
def index (t : Tile α) (x y c : Nat) : Nat :=
  t.channels_ * ((y - t.top) * t.width + x - t.left) + c

/-- One assignment of `copyOverlap`: the element of pixel `(x, y)`, channel `channel`;
`none` when it reads or writes outside a buffer. -/
def copyElement (other : Tile α) (data : List α) (left top width : Nat) (channels : Nat)
    (y x channel : Nat) : Option (List α) :=
  match other.data_[channels * ((y - other.top) * other.width + x - other.left) + channel]? with
  | none => none
  | some v =>
    if channels * ((y - top) * width + x - left) + channel < data.length then
      some (data.set (channels * ((y - top) * width + x - left) + channel) v)
    else none

/-- A `for (v = lo; v < hi; ++v)` loop over a state that may fail. -/
def forRange {σ : Type} (lo hi : Nat) (body : Nat → σ → Option σ) (init : σ) : Option σ :=
  (List.range (hi - lo)).foldlM (fun s k => body (lo + k) s) init

/-- `copyOverlap(other)`; `none` when the channel counts differ (the debug assertion) or an
access leaves a buffer. -/
def copyOverlap (t other : Tile α) : Option (Tile α) :=
  if t.channels_ ≠ other.channels_ then none
  else
    let channels := t.channels_
    let x_begin := max t.left other.left
    let y_begin := max t.top other.top
    let x_end := min (t.left + t.width) (other.left + other.width)
    let y_end := min (t.top + t.height) (other.top + other.height)
    (forRange y_begin y_end (fun y d =>
      forRange x_begin x_end (fun x d =>
        forRange 0 channels (fun channel d =>
          copyElement other d t.left t.top t.width channels y x channel) d) d) t.data_).map
      fun d => { t with data_ := d }

end Tile

/-- While a merge has copied the pixels in `P` from `other` into the buffer `d` of `t`: the
buffer keeps its length, holds the element of `other` at every pixel and channel in `P` and the
element of `t` at every other one. -/
def Tile.Copied {α : Type} (t other : Tile α) (P : Nat → Nat → Nat → Prop) (d : List α) : Prop :=
  d.length = t.data_.length ∧
  ∀ x y c, t.rectangle_.covers x y → c < t.channels_ →
    (P x y c → d[t.index x y c]? = other.data_[other.index x y c]?) ∧
    (¬ P x y c → d[t.index x y c]? = t.data_[t.index x y c]?)

/-- The output of a merge task (`MergeTileTask::performSingleImpl`, `TilingTask` alike) after
the tiles have arrived in the given order: `output_->copyOverlap(*tile)` for each. -/
def mergeTiles {α : Type} (output : Tile α) : List (Tile α) → Option (Tile α)
  | [] => some output
  | tile :: rest =>
    match output.copyOverlap tile with
    | none => none
    | some o => mergeTiles o rest

/-- The rectangles a sink's merge task requests, in order (`FileSinkNode::task`,
`SimpleSinkNode::task`): a `HilbertSpiralRegion` over the whole node with 32x32 tiles, 2x2
regions and the centre `centralPoint() = (width / 2, height / 2)`. -/
def MergeTileTask.requests (fuel : Nat) (node : RectangleDimensions) : Option (List Rectangle) :=
  HilbertSpiralRegion.next fuel (Rectangle.ofDimensions node) (node.width / 2, node.height / 2)
    node ⟨32, 32⟩ ⟨2, 2⟩

end ImageGraph


namespace ImageGraph

/-! ## `generators/RelevanceChoice.hpp`

`relevance_t` is `float` in the source; relevances and the quotients `generations / relevance`
are exact rationals here. -/

/-- `RelevanceChoiceGenerator::OutputInfo`; `T` identifies the task. -/
structure OutputInfo (T : Type) where
  task_ : T
  relevance : ℚ
  generations : Nat
  relative_count : ℚ
  deriving DecidableEq

namespace OutputInfo
variable {T : Type}

/-- `OutputInfo(task, relevance)`. -/
def new (task : T) (relevance : ℚ) : OutputInfo T := ⟨task, relevance, 0, 0⟩

/-- `operator++`: `relative_count = ++generations / relevance`. -/
def increment (i : OutputInfo T) : OutputInfo T :=
  { i with generations := i.generations + 1,
           relative_count := ((i.generations + 1 : Nat) : ℚ) / i.relevance }

/-- `operator<`. -/
def lt (a b : OutputInfo T) : Prop :=
  a.relative_count < b.relative_count ∨
    (a.relative_count = b.relative_count ∧ a.relevance < b.relevance)

instance (a b : OutputInfo T) : Decidable (a.lt b) := by
  unfold lt; exact inferInstance

end OutputInfo

/-- The scan of `std::min_element` after its first element: `smallest` (at index `best`) is
replaced by each later element that is `<` it. Returns the index and the element found. -/
def minElementFrom {T : Type} (best : Nat) (smallest : OutputInfo T) :
    Nat → List (OutputInfo T) → Nat × OutputInfo T
  | _, [] => (best, smallest)
  | idx, e :: rest =>
    if e.lt smallest then minElementFrom idx e (idx + 1) rest
    else minElementFrom best smallest (idx + 1) rest

/-- `std::min_element(info_.begin(), info_.end())`: `none` is `info_.end()`. -/
def minElement {T : Type} : List (OutputInfo T) → Option (Nat × OutputInfo T)
  | [] => none
  | e :: rest => some (minElementFrom 0 e 1 rest)

/-- `RelevanceChoiceGenerator<T, Op>`. -/
structure RelevanceChoiceGenerator (T : Type) where
  info_ : List (OutputInfo T)
  deriving DecidableEq

namespace RelevanceChoiceGenerator
variable {T : Type} [DecidableEq T]

def new : RelevanceChoiceGenerator T := ⟨[]⟩

/-- `addSinkTask(task, relevance)`; `allGenerated` is `task.allGenerated()`. -/
def addSinkTask (g : RelevanceChoiceGenerator T) (task : T) (relevance : ℚ)
    (allGenerated : Bool) : RelevanceChoiceGenerator T :=
  if allGenerated then g else ⟨g.info_ ++ [OutputInfo.new task relevance]⟩

def contains (g : RelevanceChoiceGenerator T) (task : T) : Bool :=
  g.info_.any fun i => decide (i.task_ = task)

/-- `eraseSinkTask(task)`: erases the first entry of the task (`none`: there is none, and the
source erases `end()`). -/
def eraseSinkTask (g : RelevanceChoiceGenerator T) (task : T) :
    Option (RelevanceChoiceGenerator T) :=
  if g.contains task then some ⟨g.info_.eraseP fun i => decide (i.task_ = task)⟩ else none

/-- `generate()`: the chosen task and the generator after the call.  `none` when a task of the
generator has generated all its dependencies (`DEBUG_PREVENT`) or when there is no minimum
(`DEBUG_ASSERT`). -/
def generate (g : RelevanceChoiceGenerator T) (allGenerated : T → Bool) :
    Option (T × RelevanceChoiceGenerator T) :=
  if g.info_.any (fun i => allGenerated i.task_) then none
  else
    match minElement g.info_ with
    | none => none
    | some (k, info) => some (info.task_, ⟨g.info_.set k info.increment⟩)

def empty (g : RelevanceChoiceGenerator T) : Bool := g.info_.isEmpty

end RelevanceChoiceGenerator

/-- One call on a `RelevanceChoiceGenerator`; the flags are what `allGenerated()` of the tasks
returns at the call. -/
inductive ChooserOp (T : Type) where
  | addSinkTask (task : T) (relevance : ℚ) (allGenerated : Bool)
  | eraseSinkTask (task : T)
  | generate (allGenerated : T → Bool)

/-- The relevance a sink is added with is positive (the data model of the sinks). -/
def ChooserOp.PositiveRelevance {T : Type} : ChooserOp T → Prop
  | .addSinkTask _ relevance _ => 0 < relevance
  | _ => True

def RelevanceChoiceGenerator.step {T : Type} [DecidableEq T] (g : RelevanceChoiceGenerator T) :
    ChooserOp T → Option (RelevanceChoiceGenerator T)
  | .addSinkTask task relevance allGenerated => some (g.addSinkTask task relevance allGenerated)
  | .eraseSinkTask task => g.eraseSinkTask task
  | .generate allGenerated => (g.generate allGenerated).map Prod.snd

def RelevanceChoiceGenerator.run {T : Type} [DecidableEq T] :
    RelevanceChoiceGenerator T → List (ChooserOp T) → Option (RelevanceChoiceGenerator T)
  | g, [] => some g
  | g, op :: ops =>
    match g.step op with
    | none => none
    | some g1 => RelevanceChoiceGenerator.run g1 ops

/-- The quotient `generations / relevance` of an entry. -/
def OutputInfo.quotient {T : Type} (i : OutputInfo T) : ℚ := (i.generations : ℚ) / i.relevance

end ImageGraph


namespace ImageGraph

/-! ## `ProtoGraphAdaptor.hpp`, `ProtoGraphAdaptor.cpp`: the simulator

Out nodes and sinks are numbered; durations (`double` in the source) are exact rationals.
The chooser of this section is the one with exact quotients; the section on the simulator
with the chooser of `float` quotients has the same simulator with the chooser as the source
computes it. -/

inductive MemoryMode where
  | NO_MEMORY
  | ANY_MEMORY
  | FULL_MEMORY
  deriving DecidableEq, Repr

/-- What the simulator reads of the nodes. -/
structure ProtoGraph where
  /-- `node.memoryMode()` of an out node. -/
  memoryMode : Nat → MemoryMode
  /-- `node.isCacheable(region)`. -/
  isCacheable : Nat → Rectangle → Bool
  /-- The `(node, region)` pairs that `node.protoTask(region)->performRequiredTasks` passes to
  the performer, in order. -/
  requiredTasks : Nat → Rectangle → List (Nat × Rectangle)
  /-- `singleTime()` of `node.protoTask(region)`. -/
  singleTime : Nat → Rectangle → ℚ
  /-- `fullTime()` of `node.protoTask(region)`. -/
  fullTime : Nat → Rectangle → ℚ
  /-- `node.createProtoCache()`. -/
  createProtoCache : Nat → OrderedMapProtoCache Rectangle
  /-- `relevance()` of a sink. -/
  relevance : Nat → ℚ
  /-- The `(node, region)` pairs that the successive `nextRequiredTask()` calls of the sink's
  proto-task return, until `allGenerated()`. -/
  sinkRequired : Nat → List (Nat × Rectangle)
  /-- `fullTime()` of the sink's proto-task. -/
  sinkFullTime : Nat → ℚ

/-- `ProtoGraphAdaptor::OutData`. -/
structure OutData where
  cache : OrderedMapProtoCache Rectangle
  computations : Nat
  requests : Nat
  duration : ℚ

/-- `ProtoGraphAdaptor::SinkData`. -/
structure SinkData where
  duration : ℚ
  relevance : ℚ

/-- `ProtoGraphAdaptor`. `sink_tasks_` holds the live proto sink tasks, each with the requests
its tiler has not returned yet; the maps are functions, `none` where `at` would throw. -/
structure ProtoGraphAdaptor where
  sink_tasks_ : List (Nat × List (Nat × Rectangle))
  chooser_ : RelevanceChoiceGenerator Nat
  out_data_ : Nat → Option OutData
  sink_data_ : Nat → Option SinkData

namespace ProtoGraphAdaptor

def new : ProtoGraphAdaptor := ⟨[], RelevanceChoiceGenerator.new, fun _ => none, fun _ => none⟩

def empty (a : ProtoGraphAdaptor) : Bool := a.sink_tasks_.isEmpty

/-- The requests a live sink task has left. -/
def remaining (a : ProtoGraphAdaptor) (sink : Nat) : Option (List (Nat × Rectangle)) :=
  (a.sink_tasks_.find? fun e => decide (e.1 = sink)).map Prod.snd

def setOutData (a : ProtoGraphAdaptor) (node : Nat) (data : OutData) : ProtoGraphAdaptor :=
  { a with out_data_ := fun n => if n = node then some data else a.out_data_ n }

def setSinkData (a : ProtoGraphAdaptor) (sink : Nat) (data : SinkData) : ProtoGraphAdaptor :=
  { a with sink_data_ := fun n => if n = sink then some data else a.sink_data_ n }

/-- The statements that `sinkRequest` and the performer of `outRequest` share: count the
request of `(node, region)`; on a miss count a computation and simulate the task (`recur` is
`outRequest`), on a hit nothing else than the touch of the cache entry by `contains`. -/
def request (g : ProtoGraph)
    (recur : Nat → Rectangle → ProtoGraphAdaptor → Option (ℚ × ProtoGraphAdaptor))
    (node : Nat) (region : Rectangle) (a : ProtoGraphAdaptor) : Option (ℚ × ProtoGraphAdaptor) :=
  match a.out_data_ node with
  | none => none
  | some data =>
    if g.memoryMode node ≠ MemoryMode.ANY_MEMORY ∨ (data.cache.contains region).1 = false then
      recur node region
        (a.setOutData node { data with requests := data.requests + 1,
                                       computations := data.computations + 1 })
    else
      some (0, a.setOutData node { data with requests := data.requests + 1,
                                             cache := (data.cache.contains region).2 })

/-- The loop of `task.performRequiredTasks(...)` in `outRequest`: returns `own_time`,
`dep_time` and the adaptor. -/
def performRequiredTasks (g : ProtoGraph)
    (recur : Nat → Rectangle → ProtoGraphAdaptor → Option (ℚ × ProtoGraphAdaptor))
    (single_time : ℚ) :
    List (Nat × Rectangle) → ProtoGraphAdaptor → ℚ → ℚ → Option (ℚ × ℚ × ProtoGraphAdaptor)
  | [], a, own_time, dep_time => some (own_time, dep_time, a)
  | (node, region) :: rest, a, own_time, dep_time =>
    match request g recur node region a with
    | none => none
    | some (t, a1) =>
      performRequiredTasks g recur single_time rest a1 (own_time + single_time) (dep_time + t)

/-- `outRequest(task, data)` for the proto-task of `(node, region)`; the recursion of the
source is bounded by `fuel` (`none`: the fuel did not suffice, `at` threw, or the `assert` of
the cache's `put` failed). -/
def outRequest (g : ProtoGraph) :
    Nat → Nat → Rectangle → ProtoGraphAdaptor → Option (ℚ × ProtoGraphAdaptor)
  | 0, _, _, _ => none
  | fuel + 1, node, region, a =>
    match performRequiredTasks g (outRequest g fuel) (g.singleTime node region)
        (g.requiredTasks node region) a 0 0 with
    | none => none
    | some (own_time, dep_time, a1) =>
      match a1.out_data_ node with
      | none => none
      | some data =>
        match (if g.memoryMode node = MemoryMode.ANY_MEMORY ∧ g.isCacheable node region = true
               then data.cache.put region else some data.cache) with
        | none => none
        | some cache =>
          some (own_time + g.fullTime node region + dep_time,
            a1.setOutData node { data with
              cache := cache, duration := data.duration + (own_time + g.fullTime node region) })

/-- `sinkPerformable(task)`. -/
def sinkPerformable (g : ProtoGraph) (a : ProtoGraphAdaptor) (sink : Nat) :
    Option (ℚ × ProtoGraphAdaptor) :=
  if a.chooser_.contains sink then none
  else some (g.sinkFullTime sink,
    { a with sink_tasks_ := a.sink_tasks_.eraseP fun e => decide (e.1 = sink) })

/-- `sinkRequest(task)` for the live proto-task of `sink`. -/
def sinkRequest (g : ProtoGraph) (fuel : Nat) (a : ProtoGraphAdaptor) (sink : Nat) :
    Option (ℚ × ProtoGraphAdaptor) :=
  match a.remaining sink with
  | none => none
  | some [] => none
  | some ((node, region) :: rest) =>
    let a0 := { a with sink_tasks_ :=
      a.sink_tasks_.map fun e => if e.1 = sink then (sink, rest) else e }
    match request g (outRequest g fuel) node region a0 with
    | none => none
    | some (time, a1) =>
      match a1.sink_data_ sink with
      | none => none
      | some sink_datum =>
        if rest.isEmpty then
          match a1.chooser_.eraseSinkTask sink with
          | none => none
          | some chooser =>
            match sinkPerformable g { a1 with chooser_ := chooser } sink with
            | none => none
            | some (t, a2) =>
              some (time + t,
                a2.setSinkData sink { sink_datum with duration := sink_datum.duration + (time + t) })
        else
          some (time, a1.setSinkData sink { sink_datum with duration := sink_datum.duration + time })

/-- `frontRequestableNextRequiredTask()`; `none` also for the `Invalid request!` exception. -/
def frontRequestableNextRequiredTask (g : ProtoGraph) (fuel : Nat) (a : ProtoGraphAdaptor) :
    Option (ℚ × ProtoGraphAdaptor) :=
  if a.chooser_.empty then none
  else
    match a.chooser_.generate (fun sink => decide (a.remaining sink = some [])) with
    | none => none
    | some (sink, chooser) => sinkRequest g fuel { a with chooser_ := chooser } sink

/-- `addOutNode(node, capacity)`. -/
def addOutNode (g : ProtoGraph) (a : ProtoGraphAdaptor) (node capacity : Nat) :
    ProtoGraphAdaptor :=
  let proto_cache :=
    if g.memoryMode node = MemoryMode.ANY_MEMORY then (g.createProtoCache node).resize capacity
    else g.createProtoCache node
  match a.out_data_ node with
  | some _ => a
  | none => a.setOutData node ⟨proto_cache, 0, 0, 0⟩

/-- `addSinkTask(node)`; `none` when the sink already has a task (the source then uses a
destroyed task). -/
def addSinkTask (g : ProtoGraph) (a : ProtoGraphAdaptor) (sink : Nat) :
    Option (ℚ × ProtoGraphAdaptor) :=
  match a.remaining sink with
  | some _ => none
  | none =>
    let a0 : ProtoGraphAdaptor :=
      { a with sink_tasks_ := a.sink_tasks_ ++ [(sink, g.sinkRequired sink)] }
    let a1 : ProtoGraphAdaptor :=
      match a.sink_data_ sink with
      | some _ => a0
      | none => a0.setSinkData sink ⟨0, g.relevance sink⟩
    if (g.sinkRequired sink).isEmpty then
      match sinkPerformable g a1 sink, a1.sink_data_ sink with
      | some (t, a2), some datum =>
        some (t, a2.setSinkData sink { datum with duration := datum.duration + t })
      | _, _ => none
    else
      some (0, { a1 with chooser_ := a1.chooser_.addSinkTask sink (g.relevance sink) false })

/-- The loop `while (not adaptor.empty()) time += adaptor.frontRequestableNextRequiredTask()`
of `computationDuration` and `MemoryDistribution::cost`, bounded by `steps`. -/
def simulate (g : ProtoGraph) (fuel : Nat) :
    Nat → ProtoGraphAdaptor → ℚ → Option (ℚ × ProtoGraphAdaptor)
  | 0, a, time => if a.empty then some (time, a) else none
  | steps + 1, a, time =>
    if a.empty then some (time, a)
    else
      match frontRequestableNextRequiredTask g fuel a with
      | none => none
      | some (t, a1) => simulate g fuel steps a1 (time + t)

end ProtoGraphAdaptor

/-- One call on a `ProtoGraphAdaptor`. -/
inductive SimulatorOp where
  | addSinkTask (sink : Nat)
  | addOutNode (node capacity : Nat)
  | frontRequestableNextRequiredTask (fuel : Nat)

def ProtoGraphAdaptor.step (g : ProtoGraph) (a : ProtoGraphAdaptor) :
    SimulatorOp → Option ProtoGraphAdaptor
  | .addSinkTask sink => (a.addSinkTask g sink).map Prod.snd
  | .addOutNode node capacity => some (a.addOutNode g node capacity)
  | .frontRequestableNextRequiredTask fuel =>
    (a.frontRequestableNextRequiredTask g fuel).map Prod.snd

def ProtoGraphAdaptor.run (g : ProtoGraph) :
    ProtoGraphAdaptor → List SimulatorOp → Option ProtoGraphAdaptor
  | a, [] => some a
  | a, op :: ops =>
    match a.step g op with
    | none => none
    | some a1 => ProtoGraphAdaptor.run g a1 ops

/-- The calls of `NodeGraph::computationDuration(size)` on a fresh adaptor (also those of
`MemoryDistribution::generateAdaptor`, with the caches' capacities): `addSinkTask` for the
sinks, `addOutNode` for the out nodes with their capacities, and then `steps` calls of
`frontRequestableNextRequiredTask`. -/
def computationCalls (sinks : List Nat) (outs : List (Nat × Nat)) (fuel steps : Nat) :
    List SimulatorOp :=
  sinks.map SimulatorOp.addSinkTask ++ outs.map (fun p => SimulatorOp.addOutNode p.1 p.2) ++
    List.replicate steps (SimulatorOp.frontRequestableNextRequiredTask fuel)

/-- The tiles of a 64x64 node in the order a sink's merge task requests them. -/
def tiles64 : List Rectangle := (MergeTileTask.requests 4 ⟨64, 64⟩).getD []

/-- A shared subgraph: out node 0 is a source without inputs, out node 1 an `ANY_MEMORY`
node of 64x64 that reads each of its tiles from node 0, and the sinks 1 and 2, of relevances
`r1` and `r2`, both read node 1. -/
def sharedExample (r1 r2 : ℚ) : ProtoGraph where
  memoryMode := fun node => if node = 1 then MemoryMode.ANY_MEMORY else MemoryMode.NO_MEMORY
  isCacheable := fun _ _ => true
  requiredTasks := fun node region => if node = 1 then [(0, region)] else []
  singleTime := fun _ _ => 1
  fullTime := fun _ _ => 2
  createProtoCache := fun _ => OrderedMapProtoCache.new 0
  relevance := fun sink => if sink = 1 then r1 else r2
  sinkRequired := fun _ => tiles64.map fun region => (1, region)
  sinkFullTime := fun _ => 0

/-- Every out node has been computed at most as often as it has been requested. -/
def ProtoGraphAdaptor.CountsOrdered (a : ProtoGraphAdaptor) : Prop :=
  ∀ node data, a.out_data_ node = some data → data.computations ≤ data.requests

/-- A cache of capacity 0 is empty (what `resize` and `put` establish). -/
def OutData.CacheOk (data : OutData) : Prop :=
  data.cache.set_.capacity_ = 0 → data.cache.set_.values_ = []

/-- Every out node up to `k` has been added, with a cache that is `CacheOk`. -/
def ProtoGraphAdaptor.ReadyUpTo (a : ProtoGraphAdaptor) (k : Nat) : Prop :=
  ∀ n, n ≤ k → ∃ data, a.out_data_ n = some data ∧ data.CacheOk

/-- From `a` to `b` only the data of out nodes below `k` changed, and no node was lost. -/
def ProtoGraphAdaptor.FrameBelow (k : Nat) (a b : ProtoGraphAdaptor) : Prop :=
  (∀ n, k ≤ n → b.out_data_ n = a.out_data_ n) ∧ (∀ j, a.ReadyUpTo j → b.ReadyUpTo j) ∧
    b.sink_tasks_ = a.sink_tasks_ ∧ b.chooser_ = a.chooser_ ∧ b.sink_data_ = a.sink_data_

end ImageGraph


namespace ImageGraph

/-! ## `Task.hpp`, `Task.cpp`, `GraphAdaptor.hpp`, `GraphAdaptor.cpp` and the loop of
`NodeGraph::compute`

Nodes are numbered, sinks and out nodes alike; the numbers stand for the addresses of the node
objects.  A task is known by `ptr`, which stands for its address: the queues of the adaptor hold
addresses, while `set_` compares tasks by node and region (`Task::operator==`; there is one
adaptor).  Each task created gets a fresh `ptr`. -/

/-- What the adaptor and the tasks read of the nodes. -/
structure TaskGraph where
  /-- `node.memoryMode()` of an out node. -/
  memoryMode : Nat → MemoryMode
  /-- Whether `performFullImpl` of the task of `(node, region)` puts its tile into the cache of
  the node (`ComputeTileTask` of a `CachedOutputNode`). -/
  isCacheable : Nat → Rectangle → Bool
  /-- The `(node, region)` pairs of the `generateRegion` calls that the successive
  `generateRequiredTaskImpl()` calls of `node.typedTask(adaptor, region)` make. -/
  requiredTasks : Nat → Rectangle → List (Nat × Rectangle)
  /-- The region of the task of a sink, `{{}, node.dimensions()}`. -/
  sinkRegion : Nat → Rectangle
  /-- The same for `node.task(adaptor)` of a sink. -/
  sinkRequired : Nat → List (Nat × Rectangle)
  /-- `relevance()` of a sink. -/
  relevance : Nat → ℚ

/-- `Task`; `remaining` lists the `generateRegion` calls the task has still to make, so
`allGenerated()` is `remaining = []`.  The increments of `task_counter_` are not wrapped. -/
structure Task where
  ptr : Nat
  node : Nat
  region : Rectangle
  remaining : List (Nat × Rectangle)
  task_counter_ : Nat
  dependants_ : List Nat
  deriving DecidableEq

namespace Task

def allGenerated (t : Task) : Bool := t.remaining.isEmpty

def allSinglePerformed (t : Task) : Bool := t.allGenerated && decide (t.task_counter_ = 0)

def addDependant (t : Task) (task : Nat) : Task := { t with dependants_ := t.dependants_ ++ [task] }

/-- `singlePerformed()`: `--task_counter_` on a `std::size_t`. -/
def singlePerformed (t : Task) : Task :=
  { t with task_counter_ := if t.task_counter_ = 0 then 2 ^ 64 - 1 else t.task_counter_ - 1 }

/-- `generateRequiredTaskImpl()` moves on to the calls `rest`. -/
def generated (t : Task) (rest : List (Nat × Rectangle)) : Task := { t with remaining := rest }

/-- `++task_counter_`. -/
def counted (t : Task) : Task := { t with task_counter_ := t.task_counter_ + 1 }

/-- The key of `TaskSet`: `operator==` compares the region and the node. -/
def key (t : Task) : Nat × Rectangle := (t.node, t.region)

end Task

/-- The first task that satisfies `p` is replaced by its image under `f`. -/
def modifyFirst (p : Task → Bool) (f : Task → Task) : List Task → List Task
  | [] => []
  | t :: ts => if p t then f t :: ts else t :: modifyFirst p f ts

/-- `GraphAdaptor`.  `finished_` keeps the task of each `TaskDependency`; its `dependency` and
`rectangle`, which only `performSingle` reads, are left out.  The chooser holds the `ptr` of
the sink tasks. -/
structure GraphAdaptor where
  set_ : List Task
  out_requestable_ : List Nat
  requested_ : List Nat
  performable_ : List Nat
  finished_ : List Nat
  chooser_ : RelevanceChoiceGenerator Nat

/-- `NodeGraph::PoolID`: a job of the thread pool, `performFull` of the task
(`dependency = false`) or a `performSingle` of it. -/
structure PoolID where
  task : Nat
  dependency : Bool
  deriving DecidableEq

/-- `GraphAdaptor::GeneratedTile`: `future_tile` is `some p` for the future of the task `p` and
`none` for the future of a promise that was fulfilled from the cache. -/
structure GeneratedTile where
  future_tile : Option Nat
  finished : Bool
  deriving DecidableEq

/-- The state of a run of `NodeGraph::compute`: the adaptor, the caches of the nodes, the jobs
handed to the pool that have not ended (`running`), the `finished_` deque of the pool, and the
next fresh task address. -/
structure ComputeState where
  adaptor : GraphAdaptor
  caches : Nat → Cache Rectangle Unit
  running : List PoolID
  pool_finished_ : List PoolID
  next_ : Nat

namespace GraphAdaptor

def new : GraphAdaptor := ⟨[], [], [], [], [], RelevanceChoiceGenerator.new⟩

/-- The task at address `p`. -/
def task (a : GraphAdaptor) (p : Nat) : Option Task := a.set_.find? fun t => decide (t.ptr = p)

/-- The task at address `p` is replaced by its image under `f`. -/
def modify (a : GraphAdaptor) (p : Nat) (f : Task → Task) : GraphAdaptor :=
  { a with set_ := modifyFirst (fun t => decide (t.ptr = p)) f a.set_ }

def empty (a : GraphAdaptor) : Bool := a.set_.isEmpty
def emptyPerformable (a : GraphAdaptor) : Bool := a.performable_.isEmpty
def emptyRequestable (a : GraphAdaptor) : Bool := a.out_requestable_.isEmpty && a.chooser_.empty

/-- `taskModified(task, OUT_REQUESTABLE)`; `none` is a failed `assert`. -/
def taskModifiedOut (a : GraphAdaptor) (p : Nat) : Option GraphAdaptor :=
  match a.task p with
  | none => none
  | some t =>
    if p ∈ a.out_requestable_ then
      let a1 := if t.allSinglePerformed || t.allGenerated
        then { a with out_requestable_ := a.out_requestable_.erase p } else a
      if t.allSinglePerformed then some { a1 with performable_ := a1.performable_ ++ [p] }
      else if t.allGenerated then some { a1 with requested_ := a1.requested_ ++ [p] }
      else some a1
    else none

/-- `taskModified(task, SINK_REQUESTABLE)`; `none` is a failed `assert`. -/
def taskModifiedSink (a : GraphAdaptor) (p : Nat) : Option GraphAdaptor :=
  match a.task p with
  | none => none
  | some t =>
    if a.chooser_.contains p then
      match (if t.allSinglePerformed || t.allGenerated then a.chooser_.eraseSinkTask p
             else some a.chooser_) with
      | none => none
      | some chooser =>
        let a1 := { a with chooser_ := chooser }
        if t.allSinglePerformed then some { a1 with performable_ := a1.performable_ ++ [p] }
        else if t.allGenerated then some { a1 with requested_ := a1.requested_ ++ [p] }
        else some a1
    else none

/-- `singlePerformed(task)`; `none` is a failed `assert`. -/
def singlePerformed (a : GraphAdaptor) (p : Nat) : Option GraphAdaptor :=
  match a.task p with
  | none => none
  | some t =>
    if p ∈ a.performable_ then none
    else
      let a1 := a.modify p Task.singlePerformed
      if t.singlePerformed.allSinglePerformed then
        if p ∈ a1.out_requestable_ then none
        else if p ∈ a1.requested_ then
          some { a1 with requested_ := a1.requested_.erase p,
                         performable_ := a1.performable_ ++ [p] }
        else none
      else some a1

/-- `finished(task)`; `none` is a failed `assert`. -/
def finished (a : GraphAdaptor) (p : Nat) : Option GraphAdaptor :=
  match a.task p with
  | none => none
  | some t =>
    if p ∈ a.out_requestable_ ∨ p ∈ a.requested_ ∨ p ∈ a.performable_ then none
    else some { a with set_ := a.set_.eraseP fun u => decide (u.key = t.key) }

def addSingleFinished (a : GraphAdaptor) (p : Nat) : GraphAdaptor :=
  { a with finished_ := a.finished_ ++ [p] }

end GraphAdaptor

namespace ComputeState

/-- The state `compute` starts its loop from, before the `addSinkTask` calls. -/
def init (caches : Nat → Cache Rectangle Unit) : ComputeState :=
  ⟨GraphAdaptor.new, caches, [], [], 0⟩

/-- `generateRegion(caller, node, region)`. -/
def generateRegion (g : TaskGraph) (s : ComputeState) (caller node : Nat) (region : Rectangle) :
    GeneratedTile × ComputeState :=
  if g.memoryMode node = MemoryMode.ANY_MEMORY ∧ ((s.caches node).get region).1.isSome = true then
    (⟨none, true⟩,
      { s with caches := fun n => if n = node then ((s.caches node).get region).2 else s.caches n })
  else
    match s.adaptor.set_.find? fun t => decide (t.key = (node, region)) with
    | none =>
      let task : Task := ⟨s.next_, node, region, g.requiredTasks node region, 0, [caller]⟩
      let a := { s.adaptor with set_ := s.adaptor.set_ ++ [task] }
      (⟨some task.ptr, false⟩,
        { s with next_ := s.next_ + 1,
                 adaptor := if task.allGenerated
                   then { a with performable_ := a.performable_ ++ [task.ptr] }
                   else { a with out_requestable_ := task.ptr :: a.out_requestable_ } })
    | some old =>
      let set := modifyFirst (fun t => decide (t.key = (node, region)))
        (fun t => t.addDependant caller) s.adaptor.set_
      (⟨some old.ptr, false⟩, { s with adaptor := { s.adaptor with set_ := set } })

/-- `addSinkTask(node)`; `none` when the sink already has a live task (the source then uses
the destroyed task). -/
def addSinkTask (g : TaskGraph) (s : ComputeState) (sink : Nat) : Option ComputeState :=
  let task : Task := ⟨s.next_, sink, g.sinkRegion sink, g.sinkRequired sink, 0, []⟩
  if s.adaptor.set_.any (fun t => decide (t.key = task.key)) then none
  else
    let a := { s.adaptor with set_ := s.adaptor.set_ ++ [task] }
    some { s with next_ := s.next_ + 1,
                  adaptor := if task.allGenerated
                    then { a with performable_ := a.performable_ ++ [task.ptr] }
                    else { a with chooser_ :=
                      a.chooser_.addSinkTask task.ptr (g.relevance sink) false } }

/-- `Task::nextRequiredTask()` of the task at `p`; `none` for the exception of
`DEBUG_PREVENT`. -/
def nextRequiredTask (g : TaskGraph) (s : ComputeState) (p : Nat) : Option ComputeState :=
  match s.adaptor.task p with
  | none => none
  | some t =>
    match t.remaining with
    | [] => none
    | (node, region) :: rest =>
      let s1 := { s with adaptor := s.adaptor.modify p (fun u => u.generated rest) }
      let r := s1.generateRegion g p node region
      let a2 := r.2.adaptor.modify p Task.counted
      let s2 := { r.2 with adaptor := a2 }
      some (if r.1.finished then { s2 with adaptor := s2.adaptor.addSingleFinished p } else s2)

/-- `adaptor.frontRequestable().nextRequiredTask()`, with the `taskModified` of the wrapper's
destructor; `none` for a failed `assert` and for the exceptions. -/
def requestNext (g : TaskGraph) (s : ComputeState) : Option ComputeState :=
  match s.adaptor.out_requestable_ with
  | p :: _ =>
    match s.nextRequiredTask g p with
    | none => none
    | some s1 => (s1.adaptor.taskModifiedOut p).map fun a => { s1 with adaptor := a }
  | [] =>
    if s.adaptor.chooser_.empty then none
    else
      match s.adaptor.chooser_.generate
          (fun p => (s.adaptor.task p).any Task.allGenerated) with
      | none => none
      | some (p, chooser) =>
        match nextRequiredTask g ({ s with adaptor := { s.adaptor with chooser_ := chooser } }) p with
        | none => none
        | some s1 => (s1.adaptor.taskModifiedSink p).map fun a => { s1 with adaptor := a }

/-- `pool.execute({task, false}, performFull)` for `adaptor.extractPerformable()`; `none` when
there is no performable task. -/
def extractPerformable (s : ComputeState) : Option ComputeState :=
  match s.adaptor.performable_ with
  | [] => none
  | p :: rest =>
    some { s with adaptor := { s.adaptor with performable_ := rest },
                  running := s.running ++ [⟨p, false⟩] }

/-- `NodeGraph::performSingle(adaptor.getSingleFinished(), pool)`. -/
def performSingle (s : ComputeState) : ComputeState :=
  { s with adaptor := { s.adaptor with finished_ := [] },
           running := s.running ++ s.adaptor.finished_.map (fun p => ⟨p, true⟩) }

/-- The job at index `k` of `running` ends: a `performFull` job checks `allSinglePerformed()`
(`DEBUG_ASSERT`) and puts the tile of a cacheable region into the cache of the node; then the
thread pushes the job's id to the `finished_` deque of the pool.  `none` for the exception and
for a failed `assert` of the cache. -/
def poolEnd (g : TaskGraph) (s : ComputeState) (k : Nat) : Option ComputeState :=
  match s.running[k]? with
  | none => none
  | some id =>
    let s1 := { s with running := s.running.eraseIdx k,
                       pool_finished_ := s.pool_finished_ ++ [id] }
    if id.dependency then some s1
    else
      match s.adaptor.task id.task with
      | none => none
      | some t =>
        if t.allSinglePerformed then
          if g.isCacheable t.node t.region then
            match (s.caches t.node).put t.region () with
            | none => none
            | some cache =>
              some { s1 with caches := fun n => if n = t.node then cache else s.caches n }
          else some s1
        else none

/-- One round of the loop of `NodeGraph::handleFinished` for the front of the `finished_` deque
of the pool. -/
def handleFinished (s : ComputeState) : Option ComputeState :=
  match s.pool_finished_ with
  | [] => some s
  | id :: rest =>
    if id.dependency then
      (s.adaptor.singlePerformed id.task).map fun a => { s with adaptor := a, pool_finished_ := rest }
    else
      match s.adaptor.task id.task with
      | none => none
      | some t =>
        (s.adaptor.finished id.task).map fun a =>
          { s with adaptor := a, pool_finished_ := rest,
                   running := s.running ++ t.dependants_.map (fun d => ⟨d, true⟩) }

end ComputeState

/-- A step of a run: the steps of the loop of `compute` and of the pool threads, and direct
calls of `generateRegion` and `finished` on the adaptor. -/
inductive ComputeOp where
  | addSinkTask (sink : Nat)
  | requestNext
  | extractPerformable
  | performSingle
  | poolEnd (k : Nat)
  | handleFinished
  | generateRegion (caller node : Nat) (region : Rectangle)
  | finished (task : Nat)

/-- The steps that `compute` and its pool make. -/
def ComputeOp.OfCompute : ComputeOp → Prop
  | .generateRegion _ _ _ => False
  | .finished _ => False
  | _ => True

def ComputeState.step (g : TaskGraph) (s : ComputeState) : ComputeOp → Option ComputeState
  | .addSinkTask sink => s.addSinkTask g sink
  | .requestNext => s.requestNext g
  | .extractPerformable => s.extractPerformable
  | .performSingle => some s.performSingle
  | .poolEnd k => s.poolEnd g k
  | .handleFinished => s.handleFinished
  | .generateRegion caller node region => some (s.generateRegion g caller node region).2
  | .finished task => (s.adaptor.finished task).map fun a => { s with adaptor := a }

def ComputeState.run (g : TaskGraph) : ComputeState → List ComputeOp → Option ComputeState
  | s, [] => some s
  | s, op :: ops =>
    match s.step g op with
    | none => none
    | some s1 => ComputeState.run g s1 ops

/-- Two sinks, the nodes 1 and 2, that read the tile `(0, 0, 32, 32)` of node 0, a cached
`ANY_MEMORY` node without inputs. -/
def sharedTileExample : TaskGraph where
  memoryMode := fun _ => MemoryMode.ANY_MEMORY
  isCacheable := fun _ _ => true
  requiredTasks := fun _ _ => []
  sinkRegion := fun _ => ⟨0, 0, 32, 32⟩
  sinkRequired := fun _ => [(0, ⟨0, 0, 32, 32⟩)]
  relevance := fun _ => 1

/-- The task is replaced by its image under `f` when it is at address `p`. -/
def Task.update (p : Nat) (f : Task → Task) (t : Task) : Task := if t.ptr = p then f t else t

/-- What `nextRequiredTask()` of the task at `p` makes of a task: the task at `p` is left with
the calls `rest` and counts one more, and the task at `o`, if there is one, has `p` as one more
dependant. -/
def Task.afterRequest (p : Nat) (rest : List (Nat × Rectangle)) (o : Option Nat) (u : Task) :
    Task :=
  Task.update p Task.counted
    (match o with
      | none => Task.update p (fun v => v.generated rest) u
      | some q => Task.update q (fun v => v.addDependant p)
          (Task.update p (fun v => v.generated rest) u))

/-- The sink tasks the chooser holds. -/
def GraphAdaptor.chooserTasks (a : GraphAdaptor) : List Nat := a.chooser_.info_.map fun i => i.task_

/-- The tasks whose `performFull` job is in the pool, running or ended and not yet handled. -/
def ComputeState.fullJobs (s : ComputeState) : List Nat :=
  ((s.running ++ s.pool_finished_).filter fun j => !j.dependency).map fun j => j.task

/-- The places a live task can be at: one of the queues of the adaptor, the chooser, or the
pool with its `performFull` job. -/
def ComputeState.places (s : ComputeState) : List Nat :=
  s.adaptor.out_requestable_ ++ s.adaptor.chooserTasks ++ s.adaptor.requested_ ++
    s.adaptor.performable_ ++ s.fullJobs

/-- The notifications the task at `p` has still to get: its entries of `finished_`, its
`performSingle` jobs in the pool, and its entries in the dependants of live tasks. -/
def ComputeState.pending (s : ComputeState) (p : Nat) : Nat :=
  s.adaptor.finished_.count p + (s.running ++ s.pool_finished_).count ⟨p, true⟩ +
    (s.adaptor.set_.map fun t => t.dependants_.count p).sum

/-- Addresses and keys of the live tasks are unique, and the addresses have been handed out. -/
structure ComputeState.Basic (s : ComputeState) : Prop where
  nodup_ptr : (s.adaptor.set_.map Task.ptr).Nodup
  nodup_key : (s.adaptor.set_.map Task.key).Nodup
  fresh : ∀ p ∈ s.adaptor.set_.map Task.ptr, p < s.next_

/-- The invariant of the loop of `compute`.  `ex` is the task between its `nextRequiredTask()`
and the `taskModified` that follows, if there is one. -/
structure ComputeState.Inv (s : ComputeState) (ex : Option Nat) : Prop where
  basic : s.Basic
  places : ∀ p, s.places.count p = (s.adaptor.set_.map Task.ptr).count p
  requestable : ∀ t ∈ s.adaptor.set_, some t.ptr ≠ ex →
    t.ptr ∈ s.adaptor.out_requestable_ ∨ t.ptr ∈ s.adaptor.chooserTasks → t.allGenerated = false
  inflight : ∀ t ∈ s.adaptor.set_, some t.ptr = ex →
    (t.ptr ∈ s.adaptor.out_requestable_ ∨ t.ptr ∈ s.adaptor.chooserTasks) ∧ t.task_counter_ ≠ 0
  requested : ∀ t ∈ s.adaptor.set_, t.ptr ∈ s.adaptor.requested_ →
    t.allGenerated = true ∧ t.task_counter_ ≠ 0
  performable : ∀ t ∈ s.adaptor.set_, t.ptr ∈ s.adaptor.performable_ ∨ t.ptr ∈ s.fullJobs →
    t.allGenerated = true ∧ t.task_counter_ = 0
  counter : ∀ t ∈ s.adaptor.set_, t.task_counter_ = s.pending t.ptr
  dangling : ∀ p, p ∉ s.adaptor.set_.map Task.ptr → s.pending p = 0

end ImageGraph


namespace ImageGraph

/-! ## `core/nodes/TiledInputOutputNode.hpp`: `TiledCachedOutputNode::cacheSizeFromBytes`

Byte counts and tile counts are `std::size_t` in the source and natural numbers here; the
sums and products of the source are taken exactly (the sizes of images are far below `2^64`). -/

/-- A division of two `std::size_t`; `none` for a zero divisor. -/
def sizeDiv (a b : Nat) : Option Nat := if b = 0 then none else some (a / b)

namespace TiledOutputNode

/-- `tile_dimensions_{32, 32}`. -/
def tileDimensions : RectangleDimensions := ⟨32, 32⟩

end TiledOutputNode

namespace TiledCachedOutputNode

/-- `cacheSizeFromBytes(byte_num)` of a node of dimensions `node_dim` with `node_channels`
channels of `node_bytes` bytes each.  `none`: the `DEBUG_ASSERT_D` fails, or a divisor is
zero. -/
def cacheSizeFromBytes (node_dim : RectangleDimensions) (node_channels node_bytes byte_num : Nat) :
    Option Nat :=
  let tile_dim := TiledOutputNode.tileDimensions
  let node_width := node_dim.width
  let tile_width := tile_dim.width
  let node_height := node_dim.height
  let tile_height := tile_dim.height
  let tile_num_x := node_width / tile_width
  let tile_num_y := node_height / tile_height
  let num_of_full_tiles := tile_num_x * tile_num_y
  let bytes_per_pixel := node_bytes * node_channels
  let bytes_per_full_tile := bytes_per_pixel * tile_dim.size
  if byte_num ≤ num_of_full_tiles * bytes_per_full_tile then sizeDiv byte_num bytes_per_full_tile
  else
    let byte_num1 := byte_num - num_of_full_tiles * bytes_per_full_tile
    let tile_num := num_of_full_tiles
    let larger : Nat × Nat × Nat × Nat × Nat × Nat :=
      if node_width % tile_width ≥ node_height % tile_height then
        (node_width % tile_width, node_height, node_height / tile_height,
          node_height % tile_height, node_width, node_width / tile_width)
      else
        (node_height % tile_height, node_width, node_width / tile_width,
          node_width % tile_width, node_height, node_height / tile_height)
    let larger_add := larger.1
    let larger_other := larger.2.1
    let larger_other_num := larger.2.2.1
    let smaller_add := larger.2.2.2.1
    let smaller_other := larger.2.2.2.2.1
    let smaller_other_num := larger.2.2.2.2.2
    if byte_num1 ≤ larger_add * larger_other * larger_other_num * bytes_per_pixel then
      (sizeDiv byte_num1 (larger_add * larger_other * bytes_per_pixel)).map fun q => tile_num + q
    else
      let byte_num2 := byte_num1 - larger_add * larger_other * larger_other_num * bytes_per_pixel
      let tile_num2 := tile_num + larger_other_num
      if byte_num2 <
          (smaller_add * smaller_other * smaller_other_num + larger_add * smaller_add) *
            bytes_per_pixel then
        (sizeDiv byte_num2 (smaller_add * smaller_other * bytes_per_pixel)).map fun q =>
          tile_num2 + q
      else none

end TiledCachedOutputNode

/-! ## `core/MemoryDistribution.hpp`, `core/MemoryDistribution.cpp`

Probabilities and costs (`double`, `long double` in the source) are exact rationals.  The
unordered containers of the source are lists in the order of their iteration. -/

/-- What `MemoryDistribution` reads of the nodes, besides what the simulator reads. -/
structure NodeData extends ProtoGraph where
  /-- `node.inputNode(i)` for `i < node.inputCount()`. -/
  inputNodes : Nat → List Nat
  /-- `node.changeProbability()`. -/
  changeProbability : Nat → ℚ
  /-- `node.fullByteNumber()`. -/
  fullByteNumber : Nat → Nat
  /-- `node.isCacheImportant()`. -/
  isCacheImportant : Nat → Bool
  /-- `node.cacheSizeFromBytes(byte_num)`; `none` when it throws. -/
  cacheSizeFromBytes : Nat → Nat → Option Nat

inductive MemoryAmount where
  | ENOUGH_FOR_ALL
  | SUFFICIENT
  | TOO_LITTLE
  deriving DecidableEq, Repr

/-- `MemoryDistribution::NodeInformation`. -/
structure NodeInformation where
  node : Nat
  byte_num : Nat
  max_byte_num : Nat
  own_removal_prob : ℚ
  cum_removal_prob : ℚ
  deriving DecidableEq

/-- `Probs` of `MemoryDistribution.cpp`. -/
structure Probs where
  own_prob : ℚ
  cum_prob : ℚ
  deriving DecidableEq

/-- The loop of `inputs(node, input_set)` over the inputs of the node; `recur` is `inputs`. -/
def inputsLoop (recur : Nat → List Nat → Option (List Nat)) :
    List Nat → List Nat → Option (List Nat)
  | [], input_set => some input_set
  | input :: rest, input_set =>
    if input ∈ input_set then inputsLoop recur rest input_set
    else
      match recur input (input_set ++ [input]) with
      | none => none
      | some input_set1 => inputsLoop recur rest input_set1

/-- `inputs(node, input_set)`: adds the transitive inputs of the node to the set.  The
recursion of the source is bounded by `fuel` (`none`: the fuel did not suffice). -/
def inputs (g : NodeData) : Nat → Nat → List Nat → Option (List Nat)
  | 0, _, _ => none
  | fuel + 1, node, input_set => inputsLoop (inputs g fuel) (g.inputNodes node) input_set

/-- The loop of `computeProbs` over `input_set`; `recur` is `computeProbs`. -/
def probsLoop (recur : Nat → List (Nat × Probs) → Option (Probs × List (Nat × Probs))) :
    List Nat → ℚ → List (Nat × Probs) → Option (ℚ × List (Nat × Probs))
  | [], prob, probabilities => some (prob, probabilities)
  | input :: rest, prob, probabilities =>
    match recur input probabilities with
    | none => none
    | some (probs, probabilities1) =>
      probsLoop recur rest (prob * (1 - probs.own_prob)) probabilities1

/-- `computeProbs(node, probabilities)`: the probabilities of the node and the table after the
call.  `none`: the `assert` on `changeProbability()` fails, or the fuel did not suffice. -/
def computeProbs (g : NodeData) :
    Nat → Nat → List (Nat × Probs) → Option (Probs × List (Nat × Probs))
  | 0, _, _ => none
  | fuel + 1, node, probabilities =>
    match probabilities.find? fun e => decide (e.1 = node) with
    | some e => some (e.2, probabilities)
    | none =>
      let base := g.changeProbability node
      if 0 ≤ base ∧ base ≤ 1 then
        match inputs g (fuel + 1) node [] with
        | none => none
        | some input_set =>
          match probsLoop (computeProbs g fuel) input_set (1 - base) probabilities with
          | none => none
          | some (prob, probabilities1) =>
            let probs : Probs := ⟨base, 1 - prob⟩
            some (probs,
              if probabilities1.any (fun e => decide (e.1 = node)) then probabilities1
              else probabilities1 ++ [(node, probs)])
      else none

/-- The variables of the first loop of `generate_members`. -/
structure Members where
  cache_nodes : List NodeInformation
  non_cache_nodes : List Nat
  important_bytes : Nat
  unimportant_bytes : Nat
  enough_bytes : Bool
  memory_limit : Nat
  probabilities : List (Nat × Probs)

/-- The body of the first loop of `generate_members`, for one out node. -/
def Members.add (g : NodeData) (fuel : Nat) (m : Members) (node : Nat) : Option Members :=
  match g.memoryMode node with
  | MemoryMode.NO_MEMORY => some { m with non_cache_nodes := m.non_cache_nodes ++ [node] }
  | MemoryMode.ANY_MEMORY =>
    let bytes := g.fullByteNumber node
    match computeProbs g fuel node m.probabilities with
    | none => none
    | some (probs, probabilities) =>
      let cache_nodes := m.cache_nodes ++ [⟨node, 0, bytes, probs.own_prob, probs.cum_prob⟩]
      if g.isCacheImportant node then
        some { m with cache_nodes := cache_nodes, probabilities := probabilities,
                      important_bytes := m.important_bytes + bytes }
      else
        some { m with cache_nodes := cache_nodes, probabilities := probabilities,
                      unimportant_bytes := m.unimportant_bytes + bytes }
  | MemoryMode.FULL_MEMORY =>
    let bytes := g.fullByteNumber node
    if bytes ≤ m.memory_limit then
      some { m with memory_limit := m.memory_limit - bytes,
                    non_cache_nodes := m.non_cache_nodes ++ [node] }
    else
      some { m with memory_limit := 0, enough_bytes := false,
                    non_cache_nodes := m.non_cache_nodes ++ [node] }

/-- The first loop of `generate_members`. -/
def Members.addAll (g : NodeData) (fuel : Nat) : Members → List Nat → Option Members
  | m, [] => some m
  | m, node :: rest =>
    match m.add g fuel node with
    | none => none
    | some m1 => Members.addAll g fuel m1 rest

/-- The loop of `generate_members` for `memory_limit >= important_bytes`: the important nodes
get their full size, the others share `remaining_unimportant`.  `none`: the portion is a
quotient by zero, or the `assert` fails. -/
def shareUnimportant (g : NodeData) :
    List NodeInformation → Nat → Nat → Option (List NodeInformation)
  | [], _, _ => some []
  | information :: rest, unimportant_bytes, remaining_unimportant =>
    if g.isCacheImportant information.node then
      (shareUnimportant g rest unimportant_bytes remaining_unimportant).map fun l =>
        { information with byte_num := information.max_byte_num } :: l
    else
      let max_byte_num := information.max_byte_num
      if unimportant_bytes = 0 then none
      else
        let portion : ℚ := (max_byte_num : ℚ) / (unimportant_bytes : ℚ)
        let byte_num := ⌊portion * (remaining_unimportant : ℚ)⌋₊
        if byte_num ≤ remaining_unimportant then
          (shareUnimportant g rest (unimportant_bytes - max_byte_num)
            (remaining_unimportant - byte_num)).map fun l =>
              { information with byte_num := byte_num } :: l
        else none

/-- The loop of `generate_members` for `0 < memory_limit < important_bytes`: the important
nodes share `remaining_important`, the others keep 0 bytes.  `none`: the portion is a quotient
by zero, or the `assert` fails. -/
def shareImportant (g : NodeData) :
    List NodeInformation → Nat → Nat → Option (List NodeInformation)
  | [], _, _ => some []
  | information :: rest, important_bytes, remaining_important =>
    if g.isCacheImportant information.node then
      let max_byte_num := information.max_byte_num
      if important_bytes = 0 then none
      else
        let portion : ℚ := (max_byte_num : ℚ) / (important_bytes : ℚ)
        let byte_num := ⌊portion * (remaining_important : ℚ)⌋₊
        if byte_num ≤ remaining_important then
          (shareImportant g rest (important_bytes - max_byte_num)
            (remaining_important - byte_num)).map fun l =>
              { information with byte_num := byte_num } :: l
        else none
    else (shareImportant g rest important_bytes remaining_important).map fun l => information :: l

/-- `MemoryDistribution::argument_tuple_t`. -/
structure ArgumentTuple where
  memory_limit : Nat
  sink_nodes : List Nat
  cache_nodes : List NodeInformation
  non_cache_nodes : List Nat
  memory_amount : MemoryAmount
  deriving DecidableEq

/-- `amount` of `generate_members`. -/
def Members.amount (m : Members) : MemoryAmount :=
  if m.enough_bytes then
    if m.memory_limit ≥ m.important_bytes + m.unimportant_bytes then MemoryAmount.ENOUGH_FOR_ALL
    else MemoryAmount.SUFFICIENT
  else MemoryAmount.TOO_LITTLE

/-- The byte numbers that `generate_members` assigns after its first loop. -/
def Members.assign (g : NodeData) (m : Members) : Option (List NodeInformation) :=
  if m.amount = MemoryAmount.ENOUGH_FOR_ALL then
    some (m.cache_nodes.map fun information =>
      { information with byte_num := information.max_byte_num })
  else if m.memory_limit ≥ m.important_bytes then
    shareUnimportant g m.cache_nodes m.unimportant_bytes (m.memory_limit - m.important_bytes)
  else if m.memory_limit > 0 then
    shareImportant g m.cache_nodes m.important_bytes m.memory_limit
  else some m.cache_nodes

/-- `MemoryDistribution::generate_members(memory_limit, out_nodes, sink_nodes)`; `fuel` bounds
the recursion of `computeProbs`. -/
def generate_members (g : NodeData) (fuel : Nat) (memory_limit : Nat)
    (out_nodes sink_nodes : List Nat) : Option ArgumentTuple :=
  match Members.addAll g fuel ⟨[], [], 0, 0, true, memory_limit, []⟩ out_nodes with
  | none => none
  | some m =>
    match m.assign g with
    | none => none
    | some cache_nodes =>
      some ⟨m.memory_limit, sink_nodes, cache_nodes, m.non_cache_nodes, m.amount⟩

end ImageGraph


namespace ImageGraph

/-- The random numbers of `MemoryDistribution`, whose generator type is not part of the
sources read here: `G` is the state of the generator. -/
structure RandomSource (G : Type) where
  /-- The state of a default-constructed generator (`generator_{}`). -/
  default : G
  /-- `random_real(generator, min, max)`: the number drawn and the generator after the call. -/
  random_real : G → ℚ → ℚ → ℚ × G
  /-- `boost::random::beta_distribution(2., 4.)(generator)`. -/
  beta_distribution : G → ℚ × G

/-- `MemoryDistribution`; `G` is the state of `generator_`. -/
structure MemoryDistribution (G : Type) where
  adaptor_ : ProtoGraphAdaptor
  memory_limit_ : Nat
  sink_nodes_ : List Nat
  cache_nodes_ : List NodeInformation
  non_cache_nodes_ : List Nat
  memory_amount_ : MemoryAmount
  generator_ : G

/-- `NodeProbability` of `random_neighbour`. -/
structure NodeProbability where
  probability : ℚ
  index : Nat
  deriving DecidableEq

namespace MemoryDistribution

/-- The loop `for (auto& sink : sink_nodes) adaptor.addSinkTask(*sink)`. -/
def addSinkTasks (g : NodeData) : ProtoGraphAdaptor → List Nat → Option ProtoGraphAdaptor
  | a, [] => some a
  | a, sink :: rest =>
    match a.addSinkTask g.toProtoGraph sink with
    | none => none
    | some (_, a1) => addSinkTasks g a1 rest

/-- The loop `for (auto& out : cache_nodes) adaptor.addOutNode(out.node,
out.node.cacheSizeFromBytes(out.byte_num))`. -/
def addCacheNodes (g : NodeData) :
    ProtoGraphAdaptor → List NodeInformation → Option ProtoGraphAdaptor
  | a, [] => some a
  | a, out :: rest =>
    match g.cacheSizeFromBytes out.node out.byte_num with
    | none => none
    | some capacity => addCacheNodes g (a.addOutNode g.toProtoGraph out.node capacity) rest

/-- `generateAdaptor(sink_nodes, cache_nodes, non_cache_nodes)`. -/
def generateAdaptor (g : NodeData) (sink_nodes : List Nat) (cache_nodes : List NodeInformation)
    (non_cache_nodes : List Nat) : Option ProtoGraphAdaptor :=
  match addSinkTasks g ProtoGraphAdaptor.new sink_nodes with
  | none => none
  | some a =>
    match addCacheNodes g a cache_nodes with
    | none => none
    | some a1 =>
      some (non_cache_nodes.foldl (fun a2 out => a2.addOutNode g.toProtoGraph out 0) a1)

variable {G : Type}

/-- The constructor `MemoryDistribution(memory_limit, sink_nodes, cache_nodes,
non_cache_nodes, memory_amount)`. -/
def ofMembers (g : NodeData) (rs : RandomSource G) (memory_limit : Nat) (sink_nodes : List Nat)
    (cache_nodes : List NodeInformation) (non_cache_nodes : List Nat)
    (memory_amount : MemoryAmount) : Option (MemoryDistribution G) :=
  match generateAdaptor g sink_nodes cache_nodes non_cache_nodes with
  | none => none
  | some adaptor =>
    some ⟨adaptor, memory_limit, sink_nodes, cache_nodes, non_cache_nodes, memory_amount,
      rs.default⟩

/-- The constructor `MemoryDistribution(memory_limit, out_nodes, sink_nodes)`. -/
def new (g : NodeData) (rs : RandomSource G) (fuel : Nat) (memory_limit : Nat)
    (out_nodes sink_nodes : List Nat) : Option (MemoryDistribution G) :=
  match generate_members g fuel memory_limit out_nodes sink_nodes with
  | none => none
  | some t =>
    ofMembers g rs t.memory_limit t.sink_nodes t.cache_nodes t.non_cache_nodes t.memory_amount

/-- The data that `cost` reads from `adaptor_.sinkData()`.  The keys of that map are the sinks
of `sink_nodes_`, which `generateAdaptor` added. -/
def sinkData (d : MemoryDistribution G) (adaptor : ProtoGraphAdaptor) : List SinkData :=
  d.sink_nodes_.filterMap adaptor.sink_data_

/-- `wasted` of `cost()` before the division by `full`. -/
def wastedBytes (d : MemoryDistribution G) : ℚ :=
  (d.cache_nodes_.map fun info => info.cum_removal_prob * (info.byte_num : ℚ)).sum

/-- `full` of `cost()`. -/
def fullBytes (d : MemoryDistribution G) : ℚ :=
  (d.cache_nodes_.map fun info => (info.byte_num : ℚ)).sum

/-- `cost()`: the cost and the distribution after the call, whose adaptor has performed the
simulation; `fuel` and `steps` bound the simulation.  `none`: an `assert` fails (also the one
on `wasted` when it is the quotient 0/0), or the simulation fails. -/
def cost (g : NodeData) (fuel steps : Nat) (d : MemoryDistribution G) :
    Option (ℚ × MemoryDistribution G) :=
  match ProtoGraphAdaptor.simulate g.toProtoGraph fuel steps d.adaptor_ 0 with
  | none => none
  | some (raw_cost, adaptor) =>
    if raw_cost < 0 then none
    else
      let sink_data := d.sinkData adaptor
      if sink_data.any (fun datum => decide (datum.relevance < 0)) then none
      else
        let cumulative := (sink_data.map fun datum => datum.relevance).sum
        let cost := (sink_data.map fun datum => datum.relevance * datum.duration).sum
        if d.cache_nodes_.any
            (fun info => decide (¬ (0 ≤ info.cum_removal_prob ∧ info.cum_removal_prob ≤ 1))) then
          none
        else if cumulative = 0 then some (0, { d with adaptor_ := adaptor })
        else if d.fullBytes = 0 then none
        else
          let wasted := d.wastedBytes / d.fullBytes
          let cost1 := cost * ((sink_data.length : ℚ) / cumulative)
          if 0 ≤ wasted ∧ wasted ≤ 1 then
            some ((1 + wasted) * cost1, { d with adaptor_ := adaptor })
          else none

/-- The probability of a node to give bytes away: `prob` of the first loop of
`random_neighbour`. -/
def donorProb (info : NodeInformation) (out_datum : OutData) : ℚ :=
  let eps : ℚ := 1 / 100
  let one_eps : ℚ := 1 - eps
  let memory_portion : ℚ := (info.byte_num : ℚ) / (info.max_byte_num : ℚ)
  let non_hit_portion : ℚ := (out_datum.computations : ℚ) / (out_datum.requests : ℚ)
  memory_portion * (eps + one_eps * non_hit_portion)

/-- The probability of a node to receive bytes: `prob` of the second loop of
`random_neighbour`. -/
def receiverProb (info : NodeInformation) (out_datum : OutData) : ℚ :=
  let eps : ℚ := 1 / 100
  let one_eps : ℚ := 1 - eps
  let memory_portion : ℚ :=
    ((info.max_byte_num - info.byte_num : Nat) : ℚ) / (info.max_byte_num : ℚ)
  let hit_portion : ℚ :=
    ((out_datum.requests - out_datum.computations : Nat) : ℚ) / (out_datum.requests : ℚ)
  memory_portion * (eps + one_eps * hit_portion)

/-- The two loops of `random_neighbour` that fill `choices`, from index `i` on: `prob` is
the probability of the loop and `skip` the index that the second loop leaves out.  Returns
`cumulative` and `choices`.  `none`: an `assert` fails, `out_data.at` throws, or a requested
node has `max_byte_num` 0 (its portion is the quotient 0/0). -/
def choicesLoop (out_data : Nat → Option OutData) (prob : NodeInformation → OutData → ℚ)
    (skip : Option Nat) :
    Nat → List NodeInformation → ℚ → List NodeProbability → Option (ℚ × List NodeProbability)
  | _, [], cumulative, choices => some (cumulative, choices)
  | i, info :: rest, cumulative, choices =>
    if skip = some i then choicesLoop out_data prob skip (i + 1) rest cumulative choices
    else if info.max_byte_num < info.byte_num then none
    else
      match out_data info.node with
      | none => none
      | some out_datum =>
        if out_datum.requests < out_datum.computations then none
        else if out_datum.requests = 0 then
          choicesLoop out_data prob skip (i + 1) rest cumulative choices
        else if info.max_byte_num = 0 then none
        else if prob info out_datum ≠ 0 then
          choicesLoop out_data prob skip (i + 1) rest (cumulative + prob info out_datum)
            (choices ++ [⟨cumulative + prob info out_datum, i⟩])
        else choicesLoop out_data prob skip (i + 1) rest cumulative choices

/-- `std::upper_bound(choices.begin(), choices.end(), p, comp)` with `comp(p, np)` being
`p < np.probability`: the first choice that `p` is less than (the probabilities of `choices`
increase); `none` is `choices.end()`. -/
def upperBound (choices : List NodeProbability) (p : ℚ) : Option NodeProbability :=
  choices.find? fun np => decide (p < np.probability)

/-- The cache nodes of the neighbour: `moved_bytes` go from the node at `from_index` to the
one at `to_index`. -/
def moveBytes (cache_nodes : List NodeInformation) (from_index to_index moved_bytes : Nat)
    (from_info to_info : NodeInformation) : List NodeInformation :=
  (cache_nodes.set from_index { from_info with byte_num := from_info.byte_num - moved_bytes }).set
    to_index { to_info with byte_num := to_info.byte_num + moved_bytes }

/-- `random_neighbour()`: the neighbour, and the distribution after the call (its generator
has advanced).  `none`: an `assert` fails, or `at` or a callee throws. -/
def random_neighbour (g : NodeData) (rs : RandomSource G) (d : MemoryDistribution G) :
    Option (MemoryDistribution G × MemoryDistribution G) :=
  if d.adaptor_.empty = false then none
  else
    match choicesLoop d.adaptor_.out_data_ donorProb none 0 d.cache_nodes_ 0 [] with
    | none => none
    | some (cumulative, choices) =>
      let r1 := rs.random_real d.generator_ 0 cumulative
      match upperBound choices r1.1 with
      | none => none
      | some donor =>
        match choicesLoop d.adaptor_.out_data_ receiverProb (some donor.index) 0
            d.cache_nodes_ 0 [] with
        | none => none
        | some (cumulative2, choices2) =>
          let r2 := rs.random_real r1.2 0 cumulative2
          match upperBound choices2 r2.1 with
          | none => none
          | some receiver =>
            match d.cache_nodes_[donor.index]?, d.cache_nodes_[receiver.index]? with
            | some from_info, some to_info =>
              let max_bytes := min from_info.byte_num (to_info.max_byte_num - to_info.byte_num)
              if max_bytes < 1 then none
              else
                let b := rs.beta_distribution r2.2
                let moved_bytes := ⌈b.1 * (max_bytes : ℚ)⌉₊
                let new_cache_nodes :=
                  moveBytes d.cache_nodes_ donor.index receiver.index moved_bytes from_info to_info
                match ofMembers g rs d.memory_limit_ d.sink_nodes_ new_cache_nodes
                    d.non_cache_nodes_ d.memory_amount_ with
                | none => none
                | some y => some (y, { d with generator_ := b.2 })
            | _, _ => none

end MemoryDistribution

end ImageGraph


namespace ImageGraph

/-! ## `internal/Annealer.hpp` and `NodeGraph::optimizeMemoryDistribution`

`cost_t` (`double` in the source) is a linearly ordered field `K`; `std::exp` and the random
number generator of the annealer are parameters. -/

/-- What `Annealer<Solution>` calls on a `Solution`.  Both functions are `const` in the source
but change `mutable` members of the solution, so they return the solution after the call
too; `none` when they throw or fail an `assert`. -/
structure SolutionOps (S K : Type) where
  /-- `solution.cost()`. -/
  cost : S → Option (K × S)
  /-- `solution.random_neighbour()`: the neighbour and the solution after the call. -/
  random_neighbour : S → Option (S × S)

namespace Annealer

/-- `Annealer::SolutionInfo`. -/
structure SolutionInfo (S K : Type) where
  solution : S
  cost : K

variable {S K A : Type}

/-- `metropolis(cost_x, cost_y, temperature)`; `exp` is `std::exp`. -/
def metropolis [LinearOrderedField K] (exp : K → K) (cost_x cost_y temperature : K) : K :=
  if cost_y ≤ cost_x then 1 else exp (-(cost_y - cost_x) / temperature)

/-- One line that the loop of `perform` prints: `y cost <cost_y>: accepted!` or
`rejected!`. -/
structure Line (K : Type) where
  cost_y : K
  accepted : Bool
  deriving DecidableEq

/-- The variables of `perform`.  `x` and `optimum` are shared pointers: `optimum` is `none`
while it points to the object that `x` points to. -/
structure State (S K A : Type) where
  x : S
  cost_x : K
  optimum : Option S
  cost_optimum : K
  t : K
  optimum_kept_counter : Nat
  random_number_generator_ : A
  /-- The lines printed by the loop so far. -/
  output : List (Line K)

/-- `*optimum`. -/
def State.optimumSolution (st : State S K A) : S :=
  match st.optimum with
  | none => st.x
  | some o => o

/-- The body of the loop of `perform`; `random_norm` is `random_norm<cost_t>` on the generator
of the annealer. -/
def iteration [LinearOrderedField K] (ops : SolutionOps S K) (exp : K → K)
    (random_norm : A → K × A) (beta : K) (st : State S K A) : Option (State S K A) :=
  match ops.random_neighbour st.x with
  | none => none
  | some (y0, x1) =>
    match ops.cost y0 with
    | none => none
    | some (cost_y, y) =>
      let metropolis_value := metropolis exp st.cost_x cost_y st.t
      let random_value := random_norm st.random_number_generator_
      let accepted : Bool := decide (metropolis_value ≥ random_value.1)
      let x2 := if accepted then y else x1
      let cost_x2 := if accepted then cost_y else st.cost_x
      let optimum2 : Option S :=
        if accepted then
          (match st.optimum with
           | none => some x1
           | some o => some o)
        else st.optimum
      let t2 := st.t * beta
      let output2 := st.output ++ [⟨cost_y, accepted⟩]
      if st.cost_optimum > cost_x2 then
        some ⟨x2, cost_x2, none, cost_x2, t2, 0, random_value.2, output2⟩
      else
        some ⟨x2, cost_x2, optimum2, st.cost_optimum, t2, st.optimum_kept_counter + 1,
          random_value.2, output2⟩

/-- The loop `while (optimum_kept_counter <= end_iterations)` of `perform`, bounded by `fuel`
iterations: the states at the end of each iteration (`none`: the fuel did not suffice, or an
iteration failed). -/
def loop [LinearOrderedField K] (ops : SolutionOps S K) (exp : K → K) (random_norm : A → K × A)
    (end_iterations : Nat) (beta : K) : Nat → State S K A → Option (List (State S K A))
  | 0, st => if st.optimum_kept_counter ≤ end_iterations then none else some []
  | fuel + 1, st =>
    if st.optimum_kept_counter ≤ end_iterations then
      match iteration ops exp random_norm beta st with
      | none => none
      | some st1 => (loop ops exp random_norm end_iterations beta fuel st1).map fun l => st1 :: l
    else some []

/-- The state of `perform` before its loop. -/
def start (ops : SolutionOps S K) (init : S) (initial_temp : K) (generator : A) :
    Option (State S K A) :=
  match ops.cost init with
  | none => none
  | some (cost_x, x) => some ⟨x, cost_x, none, cost_x, initial_temp, 0, generator, []⟩

/-- `perform(init, end_iterations, initial_temp, beta, _)`; `generator` is the state of
`random_number_generator_` at the call, `fuel` bounds the iterations. -/
def perform [LinearOrderedField K] (ops : SolutionOps S K) (exp : K → K)
    (random_norm : A → K × A) (generator : A) (fuel : Nat) (init : S) (end_iterations : Nat)
    (initial_temp beta : K) : Option (SolutionInfo S K) :=
  match start ops init initial_temp generator with
  | none => none
  | some st =>
    match loop ops exp random_norm end_iterations beta fuel st with
    | none => none
    | some states =>
      let final := states.getLastD st
      some ⟨final.optimumSolution, final.cost_optimum⟩

end Annealer

/-- `NodeGraph` with what `optimizeMemoryDistribution` reads of it. -/
structure NodeGraph where
  nodes : NodeData
  out_nodes_ : List Nat
  sink_nodes_ : List Nat

/-- What the model of `optimizeMemoryDistribution` takes besides the graph: the random
sources, `std::exp`, and the bounds of the recursions and loops. -/
structure AnnealerSetting (G A : Type) where
  source : RandomSource G
  exp : ℚ → ℚ
  random_norm : A → ℚ × A
  /-- The state of the generator of the `Annealer` at its construction. -/
  generator : A
  /-- The bound of the recursions over the nodes. -/
  fuel : Nat
  /-- The bound of the steps of a simulation. -/
  steps : Nat
  /-- The bound of the iterations of the annealer. -/
  iterations : Nat

/-- `MemoryDistribution` as the `Solution` of the annealer. -/
def MemoryDistribution.ops {G A : Type} (g : NodeData) (e : AnnealerSetting G A) :
    SolutionOps (MemoryDistribution G) ℚ :=
  ⟨MemoryDistribution.cost g e.fuel e.steps, MemoryDistribution.random_neighbour g e.source⟩

/-- `NodeGraph::optimizeMemoryDistribution(memory_limit)`, without its printing. -/
def NodeGraph.optimizeMemoryDistribution {G A : Type} (graph : NodeGraph)
    (e : AnnealerSetting G A) (memory_limit : Nat) : Option (MemoryDistribution G) :=
  match MemoryDistribution.new graph.nodes e.source e.fuel memory_limit graph.out_nodes_
      graph.sink_nodes_ with
  | none => none
  | some distribution =>
    match distribution.memory_amount_ with
    | MemoryAmount.ENOUGH_FOR_ALL => some distribution
    | MemoryAmount.SUFFICIENT =>
      if distribution.memory_limit_ = 0 then some distribution
      else if distribution.cache_nodes_.length ≤ 1 then some distribution
      else
        (Annealer.perform (MemoryDistribution.ops graph.nodes e) e.exp e.random_norm e.generator
          e.iterations distribution 4 (1 / 2) (95 / 100)).map fun result => result.solution
    | MemoryAmount.TOO_LITTLE => some distribution

end ImageGraph


namespace ImageGraph

/-! ## Notions of the statements about the memory distribution and the annealer -/

namespace NodeData

/-- The sum of the full byte numbers of the nodes of `out_nodes` that satisfy `p`. -/
def byteSum (g : NodeData) (p : Nat → Bool) (out_nodes : List Nat) : Nat :=
  ((out_nodes.filter p).map g.fullByteNumber).sum

def isFull (g : NodeData) (node : Nat) : Bool :=
  decide (g.memoryMode node = MemoryMode.FULL_MEMORY)

def isCache (g : NodeData) (node : Nat) : Bool :=
  decide (g.memoryMode node = MemoryMode.ANY_MEMORY)

def isImportantCache (g : NodeData) (node : Nat) : Bool :=
  g.isCache node && g.isCacheImportant node

def isUnimportantCache (g : NodeData) (node : Nat) : Bool :=
  g.isCache node && !g.isCacheImportant node

/-- The sum of the full byte numbers of the `FULL_MEMORY` nodes. -/
def fullBytes (g : NodeData) (out_nodes : List Nat) : Nat := g.byteSum g.isFull out_nodes

/-- The sum of the full byte numbers of the important `ANY_MEMORY` nodes. -/
def importantBytes (g : NodeData) (out_nodes : List Nat) : Nat :=
  g.byteSum g.isImportantCache out_nodes

/-- The sum of the full byte numbers of the unimportant `ANY_MEMORY` nodes. -/
def unimportantBytes (g : NodeData) (out_nodes : List Nat) : Nat :=
  g.byteSum g.isUnimportantCache out_nodes

/-- The out nodes are numbered so that each has inputs of lower numbers only. -/
def InputsLayered (g : NodeData) : Prop := ∀ node input, input ∈ g.inputNodes node → input < node

/-- Every change probability is a probability (what `computeProbs` asserts). -/
def ValidProbabilities (g : NodeData) : Prop :=
  ∀ node, 0 ≤ g.changeProbability node ∧ g.changeProbability node ≤ 1

end NodeData

/-- The sum of `max_byte_num` over the cache nodes whose importance is `important`. -/
def maxSum (g : NodeData) (important : Bool) (cache_nodes : List NodeInformation) : Nat :=
  ((cache_nodes.filter fun info => g.isCacheImportant info.node == important).map
    fun info => info.max_byte_num).sum

/-- The sum of `byte_num` over the cache nodes whose importance is `important`. -/
def byteNumSum (g : NodeData) (important : Bool) (cache_nodes : List NodeInformation) : Nat :=
  ((cache_nodes.filter fun info => g.isCacheImportant info.node == important).map
    fun info => info.byte_num).sum

/-- The cache node `info` as `generate_members` creates it, before it assigns the bytes. -/
def NodeInformation.Fresh (g : NodeData) (info : NodeInformation) : Prop :=
  info.byte_num = 0 ∧ info.max_byte_num = g.fullByteNumber info.node ∧
    g.memoryMode info.node = MemoryMode.ANY_MEMORY

/-- The cache node `b` is the cache node `a` after a proportional share among the nodes
whose importance is `kind`, which started with `remaining0` bytes for nodes of `bytes0` bytes
in all: a node of that kind has at least its proportion, rounded down, and at most its full
size. -/
def NodeInformation.Shared (g : NodeData) (kind : Bool) (remaining0 bytes0 : Nat)
    (a b : NodeInformation) : Prop :=
  b = { a with byte_num := b.byte_num } ∧
    (g.isCacheImportant a.node = !kind →
      b.byte_num = if kind then a.byte_num else a.max_byte_num) ∧
    (g.isCacheImportant a.node = kind →
      remaining0 * a.max_byte_num / bytes0 ≤ b.byte_num ∧ b.byte_num ≤ a.max_byte_num)

/-- What the first loop of `generate_members` does to its variables `m` over the nodes
`out_nodes`, with result `m1`. -/
structure Members.Extends (g : NodeData) (m m1 : Members) (out_nodes : List Nat) : Prop where
  important : m1.important_bytes = m.important_bytes + g.importantBytes out_nodes
  unimportant : m1.unimportant_bytes = m.unimportant_bytes + g.unimportantBytes out_nodes
  limit : m1.memory_limit = m.memory_limit - g.fullBytes out_nodes
  enough : m1.enough_bytes = true ↔
    (m.enough_bytes = true ∧ g.fullBytes out_nodes ≤ m.memory_limit)
  non_cache : m1.non_cache_nodes = m.non_cache_nodes ++ out_nodes.filter fun n => !g.isCache n
  nodes : m1.cache_nodes.map NodeInformation.node =
    m.cache_nodes.map NodeInformation.node ++ out_nodes.filter g.isCache
  fresh : ∀ info ∈ m1.cache_nodes, info ∈ m.cache_nodes ∨ (info.Fresh g ∧ info.node ∈ out_nodes)
  importantMax : maxSum g true m1.cache_nodes =
    maxSum g true m.cache_nodes + g.importantBytes out_nodes
  unimportantMax : maxSum g false m1.cache_nodes =
    maxSum g false m.cache_nodes + g.unimportantBytes out_nodes

/-- An example: out node 0 is a `FULL_MEMORY` source of 100 bytes, and the out nodes 1, 2 and 3
are `ANY_MEMORY` nodes of 100, 200 and 400 bytes, each reading the node before it; node 1
is important for caching. -/
def memoryExample : NodeData where
  memoryMode := fun node =>
    if node = 0 then MemoryMode.FULL_MEMORY
    else if node ≤ 3 then MemoryMode.ANY_MEMORY else MemoryMode.NO_MEMORY
  isCacheable := fun _ _ => true
  requiredTasks := fun node region => if node = 0 then [] else [(node - 1, region)]
  singleTime := fun _ _ => 1
  fullTime := fun _ _ => 2
  createProtoCache := fun _ => OrderedMapProtoCache.new 0
  relevance := fun _ => 1
  sinkRequired := fun _ => [(3, ⟨0, 0, 32, 32⟩)]
  sinkFullTime := fun _ => 0
  inputNodes := fun node => if node = 0 then [] else [node - 1]
  changeProbability := fun _ => 1 / 4
  fullByteNumber := fun node => if node ≤ 1 then 100 else if node = 2 then 200 else 400
  isCacheImportant := fun node => decide (node = 1)
  cacheSizeFromBytes := fun _ byte_num => some (byte_num / 100)

/-- The `weighted_time` of the cost: the sum of `relevance * duration` over the sinks divided by
the sum of the relevances. -/
def weightedTime (sink_data : List SinkData) : ℚ :=
  (sink_data.map fun datum => datum.relevance * datum.duration).sum /
    (sink_data.map fun datum => datum.relevance).sum

/-- The `wasted` of the cost: the sum of `cum_removal_prob * byte_num` over the cache nodes
divided by the sum of `byte_num`. -/
def MemoryDistribution.wasted {G : Type} (d : MemoryDistribution G) : ℚ :=
  d.wastedBytes / d.fullBytes

/-- A random source without state that always draws `value`. -/
def constantSource (value : ℚ) : RandomSource Unit :=
  ⟨(), fun _ _ _ => (value, ()), fun _ => (value, ())⟩

/-- A random source that counts its draws: `random_real` draws the middle of its range, the
beta distribution draws 1/2. -/
def middleSource : RandomSource Nat :=
  ⟨0, fun generator min max => (min + (max - min) / 2, generator + 1),
    fun generator => (1 / 2, generator + 1)⟩

/-- The shared subgraph `sharedExample r1 r2` as nodes of a memory distribution: the nodes have
64x64 pixels of one byte, node 1 reads node 0, every change probability is 1/4, and no node
is important for caching. -/
def sharedNodes (r1 r2 : ℚ) : NodeData where
  toProtoGraph := sharedExample r1 r2
  inputNodes := fun node => if node = 1 then [0] else []
  changeProbability := fun _ => 1 / 4
  fullByteNumber := fun _ => 1 * (64 * 64) * 1
  isCacheImportant := fun _ => false
  cacheSizeFromBytes := fun _ byte_num =>
    TiledCachedOutputNode.cacheSizeFromBytes ⟨64, 64⟩ 1 1 byte_num

namespace Annealer

/-- The cost `c` was computed for the solution `s`: `s` is the solution after the call of
`cost()` that returned `c`, or after later calls of `random_neighbour()` on it. -/
inductive Evaluated {S K : Type} (ops : SolutionOps S K) : S → K → Prop where
  | cost {s0 s : S} {c : K} : ops.cost s0 = some (c, s) → Evaluated ops s c
  | neighbour {s y s1 : S} {c : K} :
    Evaluated ops s c → ops.random_neighbour s = some (y, s1) → Evaluated ops s1 c

/-- What the loop of `perform` keeps: the best cost seen is at most the current cost, and
`cost_x` and `cost_optimum` are the costs computed for `x` and `*optimum`. -/
def State.Valid {S K A : Type} [LinearOrderedField K] (ops : SolutionOps S K)
    (st : State S K A) : Prop :=
  st.cost_optimum ≤ st.cost_x ∧ Evaluated ops st.x st.cost_x ∧
    Evaluated ops st.optimumSolution st.cost_optimum ∧
    (st.optimum = none → st.cost_optimum = st.cost_x)

/-- Solutions that are numbers: the neighbour of `s` is `s + 1`, and `cost` gives the costs. -/
def lineOps (cost : Nat → ℚ) : SolutionOps Nat ℚ :=
  ⟨fun s => some (cost s, s), fun s => some (s + 1, s)⟩

/-- A generator that counts its draws and always draws `value`. -/
def constantNorm (value : ℚ) : Nat → ℚ × Nat := fun generator => (value, generator + 1)

/-- A rational stand-in for `std::exp`, with `exp 0 = 1`, values above 1 for positive and
below 1 for negative arguments. -/
def rationalExp (z : ℚ) : ℚ := if 0 ≤ z then 1 + z else 1 / (1 - z)

end Annealer

/-- A setting of the annealer for the examples; its bound of 0 iterations lets every call of
`perform` fail. -/
def exampleSetting : AnnealerSetting Nat Nat :=
  ⟨middleSource, Annealer.rationalExp, Annealer.constantNorm (1 / 2), 0, 4, 10, 0⟩

end ImageGraph


namespace ImageGraph

/-! ## `Rectangle.hpp`: `clip`, `subsetOf`, `bound`; `OutNode.hpp`; `Cache::toProtoCache` -/

/-- `std::clamp(v, lo, hi)`: `(v < lo) ? lo : (hi < v) ? hi : v`. -/
def clamp (v lo hi : Nat) : Nat := if v < lo then lo else if hi < v then hi else v

namespace Rectangle

/-- `clip(const Rectangle& clipper)`.  The four assignments of the source are one comma
expression, evaluated from left to right: `left()` and `top()` already hold `new_left` and
`new_top` when the new width and the new height are computed from `left() + width()` and
`top() + height()`. -/
def clip (r clipper : Rectangle) : Rectangle :=
  let clipper_right := clipper.left + clipper.width
  let clipper_bottom := clipper.top + clipper.height
  let new_left := clamp r.left clipper.left clipper_right
  let new_top := clamp r.top clipper.top clipper_bottom
  let r1 : Rectangle := { r with left := new_left }
  let r2 : Rectangle := { r1 with top := new_top }
  let r3 : Rectangle :=
    { r2 with width := clamp (r2.left + r2.width) clipper.left clipper_right - new_left }
  { r3 with height := clamp (r3.top + r3.height) clipper.top clipper_bottom - new_top }

/-- `subsetOf(other)`, the branch of an unsigned type. -/
def subsetOf (r other : Rectangle) : Bool :=
  decide (r.left ≥ other.left) && decide (r.top ≥ other.top) &&
    decide (r.left + r.width ≤ other.left + other.width) &&
    decide (r.top + r.height ≤ other.top + other.height)

/-- The braced list `{min_left, min_top, max_right - min_left, max_bottom - min_top}` that the
body of `bound(other)` returns.  `Rectangle` has the constructors
`Rectangle(point_t, dimensions_t)` and `Rectangle(dimensions_t)` only, none for four scalars:
the member is ill-formed once it is instantiated, and the source never calls it.  The list is
what its body computes. -/
def bound (r other : Rectangle) : List Nat :=
  let min_left := min r.left other.left
  let max_right := max (r.left + r.width) (other.left + other.width)
  let min_top := min r.top other.top
  let max_bottom := max (r.top + r.height) (other.top + other.height)
  [min_left, min_top, max_right - min_left, max_bottom - min_top]

/-- The right edge `left() + width()`. -/
def right (r : Rectangle) : Nat := r.left + r.width

/-- The bottom edge `top() + height()`. -/
def bottom (r : Rectangle) : Nat := r.top + r.height

end Rectangle

/-- `OutNode::ParentPair`; `parent` is the number of the `OptimizedOutNode` pointed to. -/
structure ParentPair where
  parent : Nat
  is_output : Bool
  deriving DecidableEq

/-- The node that `outputNode()` returns a reference to: `*this` or `*top_parent`. -/
inductive NodeRef where
  | this
  | parent (p : Nat)
  deriving DecidableEq

/-- What `OutNode.hpp` itself reads and writes of an `OutNode`. -/
structure OutNode where
  /-- `parents_`, a stack: the top is the head of the list. -/
  parents_ : List ParentPair
  /-- The virtual `rawInputRegion(input, output_rectangle)`. -/
  rawInputRegion : Nat → Rectangle → Rectangle
  /-- `inputNode(input).dimensions()`; `none` when `inputNode(input)` throws. -/
  inputDimensions : Nat → Option RectangleDimensions

namespace OutNode

/-- `inputRegion(input, output_rectangle)`, with the sums of `clip` not wrapping. -/
def inputRegion (n : OutNode) (input : Nat) (output_rectangle : Rectangle) : Option Rectangle :=
  match n.inputDimensions input with
  | none => none
  | some dimensions => some ((n.rawInputRegion input output_rectangle).clipDimensions dimensions)

/-- `outputNode()`; `none` is the `std::runtime_error` it throws. -/
def outputNode (n : OutNode) : Option NodeRef :=
  match n.parents_ with
  | [] => some NodeRef.this
  | top :: _ => if top.is_output then some (NodeRef.parent top.parent) else none

/-- `hasParents()`. -/
def hasParents (n : OutNode) : Bool := !n.parents_.isEmpty

/-- `addParent(parent)`. -/
def addParent (n : OutNode) (parent : Nat) : OutNode :=
  { n with parents_ := ⟨parent, false⟩ :: n.parents_ }

/-- `setParentOutput(parent)`; `none`: the stack is empty, or the assertion on the topmost
parent fails. -/
def setParentOutput (n : OutNode) (parent : Nat) : Option OutNode :=
  match n.parents_ with
  | [] => none
  | top_parent :: rest =>
    if top_parent.parent = parent then
      some { n with parents_ := { top_parent with is_output := true } :: rest }
    else none

/-- `removeLastParent(parent)`; `none`: the stack is empty, or the assertion on the topmost
parent fails. -/
def removeLastParent (n : OutNode) (parent : Nat) : Option OutNode :=
  match n.parents_ with
  | [] => none
  | top_parent :: rest =>
    if top_parent.parent = parent then some { n with parents_ := rest } else none

end OutNode

/-- One call of the functions of `OutNode` that change the parent stack. -/
inductive ParentOp where
  | addParent (parent : Nat)
  | setParentOutput (parent : Nat)
  | removeLastParent (parent : Nat)

/-- The node after one call. -/
def OutNode.step (n : OutNode) : ParentOp → Option OutNode
  | .addParent p => some (n.addParent p)
  | .setParentOutput p => n.setParentOutput p
  | .removeLastParent p => n.removeLastParent p

/-- The node after a sequence of calls. -/
def OutNode.run : OutNode → List ParentOp → Option OutNode
  | n, [] => some n
  | n, op :: ops =>
    match n.step op with
    | none => none
    | some n1 => OutNode.run n1 ops

/-- The topmost parent of the stack that is marked as output, and the node itself when there
is none. -/
def OutNode.topmostOutputParent (n : OutNode) : NodeRef :=
  match n.parents_.find? fun pair => pair.is_output with
  | some pair => NodeRef.parent pair.parent
  | none => NodeRef.this

/-- `Cache::toProtoCache()`: the range-for over `data_` runs from `values_.rbegin()` to
`values_.rend()`, from the most to the least recently used entry; `none` is a failed `assert`
of `LRUSet::insert`. -/
def Cache.toProtoCache {K V : Type} [DecidableEq K] (c : Cache K V) :
    Option (OrderedMapProtoCache K) :=
  c.data_.values_.reverse.foldlM (fun proto_cache e => proto_cache.put e.1)
    (OrderedMapProtoCache.new c.capacity)

end ImageGraph


namespace ImageGraph

/-! ## `Clipping.hpp`

The number type `T` of the points is a linearly ordered field here, so the arithmetic of this
section is exact; the section on `Clipping.hpp` with the arithmetic of the number type has
`clipRing` as the source computes it for `float` and `double`, every operation rounded. -/

namespace boost_geometry

/-- `point_t<T>`: `boost::geometry::model::d2::point_xy<T>`, `get<0>` is `x`, `get<1>` is
`y`. -/
structure point_t (T : Type) where
  x : T
  y : T
  deriving DecidableEq

/-- `box_t<T>`: `boost::geometry::model::box`, with its `min_corner` and `max_corner`. -/
structure box_t (T : Type) where
  min_corner : point_t T
  max_corner : point_t T
  deriving DecidableEq

/-- `ring_t<T>`: the points of the ring in order; a closed ring ends with its first point. -/
abbrev ring_t (T : Type) : Type := List (point_t T)

end boost_geometry

open boost_geometry

namespace detail

def INSIDE : Nat := 0
def LEFT : Nat := 1
def RIGHT : Nat := 2
def BOTTOM : Nat := 4
def TOP : Nat := 8

/-- `bitCode(p, rect)`. -/
def bitCode {T : Type} [LinearOrderedField T] (p : point_t T) (rect : box_t T) : Nat :=
  (if p.x < rect.min_corner.x then LEFT
    else (if p.x > rect.max_corner.x then RIGHT else INSIDE)) |||
  (if p.y < rect.min_corner.y then BOTTOM
    else (if p.y > rect.max_corner.y then TOP else INSIDE))

/-- `intersect(a, b, edge, bounding_box)`; `none` is the `std::invalid_argument` it
throws. -/
def intersect {T : Type} [LinearOrderedField T] (a b : point_t T) (edge : Nat)
    (bounding_box : box_t T) : Option (point_t T) :=
  if edge &&& TOP ≠ 0 then
    some ⟨a.x + (b.x - a.x) * (bounding_box.max_corner.y - a.y) / (b.y - a.y),
      bounding_box.max_corner.y⟩
  else if edge &&& BOTTOM ≠ 0 then
    some ⟨a.x + (b.x - a.x) * (bounding_box.min_corner.y - a.y) / (b.y - a.y),
      bounding_box.min_corner.y⟩
  else if edge &&& RIGHT ≠ 0 then
    some ⟨bounding_box.max_corner.x,
      a.y + (b.y - a.y) * (bounding_box.max_corner.x - a.x) / (b.x - a.x)⟩
  else if edge &&& LEFT ≠ 0 then
    some ⟨bounding_box.min_corner.x,
      a.y + (b.y - a.y) * (bounding_box.min_corner.x - a.x) / (b.x - a.x)⟩
  else none

end detail

/-- The variables of the inner loop of `clipRing`: `prev`, `prev_inside` and the deque
`inner` (its front is the head of the list). -/
structure ClipState (T : Type) where
  prev : point_t T
  prev_inside : Bool
  inner : List (point_t T)

/-- The body of the inner loop of `clipRing` for the side `edge`; `none`: the deque is empty
at `inner.front()`, or `intersect` throws. -/
def clipStep {T : Type} [LinearOrderedField T] (edge : Nat) (bounding_box : box_t T)
    (st : ClipState T) : Option (ClipState T) :=
  match st.inner with
  | [] => none
  | p :: rest =>
    let inside : Bool := (detail.bitCode p bounding_box &&& edge) == 0
    let pushed : Option (List (point_t T)) :=
      if inside != st.prev_inside then
        (detail.intersect st.prev p edge bounding_box).map fun i => rest ++ [i]
      else some rest
    match pushed with
    | none => none
    | some inner1 => some ⟨p, inside, if inside then inner1 ++ [p] else inner1⟩

/-- The inner loop `for (size_t i{0}; i < size; ++i)` of `clipRing`. -/
def clipLoop {T : Type} [LinearOrderedField T] (edge : Nat) (bounding_box : box_t T) :
    Nat → ClipState T → Option (ClipState T)
  | 0, st => some st
  | size + 1, st =>
    match clipStep edge bounding_box st with
    | none => none
    | some st1 => clipLoop edge bounding_box size st1

/-- One round of the outer loop of `clipRing`, up to its `break`: the deque after the clip
against the side `edge`; `none` also when the deque is empty at `inner.back()`. -/
def clipEdge {T : Type} [LinearOrderedField T] (edge : Nat) (bounding_box : box_t T)
    (inner : List (point_t T)) : Option (List (point_t T)) :=
  match inner.getLast? with
  | none => none
  | some prev =>
    (clipLoop edge bounding_box inner.length
      ⟨prev, (detail.bitCode prev bounding_box &&& edge) == 0, inner⟩).map fun st => st.inner

/-- The outer loop of `clipRing` over the sides `edges` (1, 2, 4, 8 in the source), with its
`break` when the deque is empty. -/
def clipEdges {T : Type} [LinearOrderedField T] (bounding_box : box_t T) :
    List Nat → List (point_t T) → Option (List (point_t T))
  | [], inner => some inner
  | edge :: edges, inner =>
    match clipEdge edge bounding_box inner with
    | none => none
    | some inner1 => if inner1.isEmpty then some inner1 else clipEdges bounding_box edges inner1

/-- The end of `clipRing`: `if (inner.size() > 1) inner.push_back(inner.front())`. -/
def closeRing {T : Type} (inner : List (point_t T)) : ring_t T :=
  match inner with
  | front :: _ :: _ => inner ++ [front]
  | _ => inner

/-- The segments from `prev` through the points of `l`. -/
def edgesFrom {T : Type} : point_t T → List (point_t T) → List (point_t T × point_t T)
  | _, [] => []
  | prev, p :: rest => (prev, p) :: edgesFrom p rest

/-- The segments of a ring: each point with the next one. -/
def segments {T : Type} (ring : ring_t T) : List (point_t T × point_t T) :=
  match ring with
  | [] => []
  | p :: rest => edgesFrom p rest

/-- The sum of `f` over a list of segments. -/
def sumOver {T : Type} [LinearOrderedField T] (f : point_t T → point_t T → T)
    (l : List (point_t T × point_t T)) : T :=
  (l.map fun e => f e.1 e.2).sum

/-- A box with `min_corner` at most `max_corner`. -/
def boost_geometry.box_t.Valid {T : Type} [LinearOrderedField T] (box : box_t T) : Prop :=
  box.min_corner.x ≤ box.max_corner.x ∧ box.min_corner.y ≤ box.max_corner.y

/-- A closed ring: at least two points, the last one being the first. -/
def Closed {T : Type} (ring : ring_t T) : Prop :=
  ∃ p inner, ring = p :: inner ∧ inner.getLast? = some p

/-- Twice the signed area of the triangle `a`, `b`, `c`: at most 0 iff `c` lies on the
segment from `a` to `b`, on its line, or to the right of it (the side of the inside of a
clockwise ring). -/
def cross3 {T : Type} [LinearOrderedField T] (a b c : point_t T) : T :=
  (b.x - a.x) * (c.y - a.y) - (b.y - a.y) * (c.x - a.x)

/-- The point `c` lies to the right of, or on, every segment of the list. -/
def RightOfAll {T : Type} [LinearOrderedField T] (l : List (point_t T × point_t T))
    (c : point_t T) : Prop :=
  ∀ e ∈ l, cross3 e.1 e.2 c ≤ 0

/-- A convex ring in clockwise order: every point of the ring lies to the right of, or on,
every segment of the ring. -/
def ConvexClockwise {T : Type} [LinearOrderedField T] (ring : ring_t T) : Prop :=
  ∀ c ∈ ring, RightOfAll (segments ring) c

/-- The value `v` limited to the interval from `s` to `t`. -/
def limit {T : Type} [LinearOrderedField T] (s t v : T) : T := max s (min v t)

/-- The step to the right (`sign = 1`) or to the left (`sign = -1`) of a segment inside the
vertical strip from `s` to `t`. -/
def stride {T : Type} [LinearOrderedField T] (sign s t : T) (u v : point_t T) : T :=
  max 0 (sign * (limit s t v.x - limit s t u.x))

/-- The half-plane of the points `p` with `0 ≤ a * p.x + b * p.y + c`. -/
structure HalfPlane (T : Type) where
  a : T
  b : T
  c : T

/-- The point `a + t * (b - a)` of the line through `a` and `b`. -/
def lerp {T : Type} [LinearOrderedField T] (a b : point_t T) (t : T) : point_t T :=
  ⟨a.x + t * (b.x - a.x), a.y + t * (b.y - a.y)⟩

namespace HalfPlane

variable {T : Type} [LinearOrderedField T]

def g (h : HalfPlane T) (p : point_t T) : T := h.a * p.x + h.b * p.y + h.c

def inside (h : HalfPlane T) (p : point_t T) : Bool := decide (0 ≤ h.g p)

/-- The point of the line through `a` and `b` on the border of the half-plane. -/
def cut (h : HalfPlane T) (a b : point_t T) : point_t T := lerp a b (h.g a / (h.g a - h.g b))

/-- What one step of the inner loop pushes for the segment from `prev` to `p`. -/
def chunk (h : HalfPlane T) (prev p : point_t T) : List (point_t T) :=
  (if h.inside p != h.inside prev then [h.cut prev p] else []) ++
    (if h.inside p then [p] else [])

/-- What the steps of the inner loop push for the points of `l`, coming from `prev`. -/
def pass (h : HalfPlane T) : point_t T → List (point_t T) → List (point_t T)
  | _, [] => []
  | prev, p :: rest => h.chunk prev p ++ h.pass p rest

/-- The clip of the cyclic list of points `l` against the half-plane. -/
def clip (h : HalfPlane T) (l : List (point_t T)) : List (point_t T) :=
  match l.getLast? with
  | none => []
  | some prev => h.pass prev l

end HalfPlane

/-- The segments of a cyclic list of points: from the last point to the first and on through
the list. -/
def cyclicSegments {T : Type} (l : List (point_t T)) : List (point_t T × point_t T) :=
  match l.getLast? with
  | none => []
  | some prev => edgesFrom prev l

/-- How far `v` lies from `u` along the border of the half-plane, in the direction that has
the half-plane on its right. -/
def HalfPlane.along {T : Type} [LinearOrderedField T] (h : HalfPlane T) (u v : point_t T) : T :=
  h.a * (v.y - u.y) - h.b * (v.x - u.x)

/-- A point `u` of the border of the half-plane, to the right of all segments of `l`, from
which every other such point lies in the direction of the border that has the half-plane on
its right. -/
def HalfPlane.Border {T : Type} [LinearOrderedField T] (h : HalfPlane T)
    (l : List (point_t T × point_t T)) (u : point_t T) : Prop :=
  h.g u = 0 ∧ RightOfAll l u ∧ ∀ v, RightOfAll l v → h.g v = 0 → 0 ≤ h.along u v

/-- The invariant of the inner loop, between the point `last` pushed last and `prev`: `last`
is `prev` when `prev` is inside, and a point where the ring has left the half-plane when
`prev` is outside. -/
def HalfPlane.Inv {T : Type} [LinearOrderedField T] (h : HalfPlane T)
    (l : List (point_t T × point_t T)) (last prev : point_t T) : Prop :=
  (h.inside prev = true → last = prev) ∧ (h.inside prev = false → h.Border l last)

/-- A convex cyclic list of points in clockwise order: every point lies to the right of, or
on, every segment, the one from the last point to the first included. -/
def ConvexCyclic {T : Type} [LinearOrderedField T] (l : List (point_t T)) : Prop :=
  ∀ c ∈ l, RightOfAll (cyclicSegments l) c

/-- The last of the points pushed so far: the last point of `l`, or `last` when `l` is
empty. -/
def lastFrom {T : Type} (last : point_t T) (l : List (point_t T)) : point_t T :=
  l.getLastD last

end ImageGraph


namespace ImageGraph

/-! ## `tilers/Hilbert.hpp`: the `HilbertRegion` object; `core/nodes/InputOutputNode.hpp`: the
tasks and the proto tasks; `core/nodes/TiledInputOutputNode.hpp` -/

/-- A `HilbertRegion` object: `rectangle_` (of `TileRegion`), `node_`, `tile_` and `curve_`.
The pull coroutine in `curve_` is the list of the points it has yet to yield; the empty list
stands for `std::nullopt` and for a coroutine that has ended. -/
structure HilbertRegion.Tiler where
  rectangle_ : Rectangle
  node_ : RectangleDimensions
  tile_ : RectangleDimensions
  curve_ : List Point
  deriving DecidableEq

namespace HilbertRegion.Tiler

/-- `HilbertRegion(rectangle, node, tile)`; `none`: the recursion bound of the curve did not
suffice. -/
def new (fuel : Nat) (rectangle : Rectangle) (node tile : RectangleDimensions) :
    Option HilbertRegion.Tiler :=
  (HilbertRegion.generateGenerator fuel rectangle tile).map fun curve =>
    ⟨rectangle, node, tile, curve⟩

/-- `rectangle()`. -/
def rectangle (t : HilbertRegion.Tiler) : Rectangle := t.rectangle_

/-- `remaining()`: `bool(curve_) and bool(*curve_)`. -/
def remaining (t : HilbertRegion.Tiler) : Bool := !t.curve_.isEmpty

/-- `next()`: the rectangle returned and the object after the call; `none` when there is no
point left (`curve_.value()` throws, or `get()` is called on a coroutine that has ended). -/
def next (t : HilbertRegion.Tiler) : Option (Rectangle × HilbertRegion.Tiler) :=
  match t.curve_ with
  | [] => none
  | p :: rest => some (tileAt t.node_ t.tile_ p, { t with curve_ := rest })

/-- The rectangles that `next()` returns when it is called as long as `remaining()` is true;
`calls` bounds the number of calls (`none`: the bound did not suffice, or a call fails). -/
def drain : Nat → HilbertRegion.Tiler → Option (List Rectangle)
  | 0, t => if t.remaining then none else some []
  | calls + 1, t =>
    if t.remaining then
      match t.next with
      | none => none
      | some (rect, t1) => (drain calls t1).map fun rest => rect :: rest
    else some []

end HilbertRegion.Tiler

/-- A request of a task: the number of the node and the region, as they are passed to
`generateRegion` by a task and to the performer by a proto task. -/
abbrev Request := Nat × Rectangle

/-- The requests of a task that is driven to its end: `Task::nextRequiredTask()`, which throws
when `allGenerated()`, is called as long as `allGenerated()` is false.  `fuel` bounds the number
of calls; `none`: a call throws, or the bound did not suffice. -/
def requiredTasks {σ : Type} (allGenerated : σ → Option Bool)
    (generateRequiredTaskImpl : σ → Option (Request × σ)) : Nat → σ → Option (List Request)
  | 0, t =>
    match allGenerated t with
    | some true => some []
    | _ => none
  | fuel + 1, t =>
    match allGenerated t with
    | none => none
    | some true => some []
    | some false =>
      match generateRequiredTaskImpl t with
      | none => none
      | some (request, t1) =>
        (requiredTasks allGenerated generateRequiredTaskImpl fuel t1).map fun rest =>
          request :: rest

/-- What the tasks read of an `InputOutputNode<OutputType, InputTypes...>`: the `OutNode` with
its `inputRegion`, the number of the node itself, its dimensions, and the tuple `inputs_` (the
numbers of the input nodes, `sizeof...(InputTypes)` of them). -/
structure InputOutputNode extends OutNode where
  self : Nat
  dimensions : RectangleDimensions
  inputs_ : List Nat

namespace InputOutputNode

/-- `inputCount()`: `sizeof...(InputTypes)`. -/
def inputCount (n : InputOutputNode) : Nat := n.inputs_.length

/-- `inputNode(index)`; `none`: it throws. -/
def inputNode (n : InputOutputNode) (index : Nat) : Option Nat := n.inputs_[index]?

/-- `typedInputNode<index>()`: `*std::get<index>(inputs_)`. -/
def typedInputNode (n : InputOutputNode) (index : Nat) : Option Nat := n.inputs_[index]?

end InputOutputNode

/-- A `ComputeTileTask`: `node_`, `region_` and `counter_`. -/
structure ComputeTileTask where
  node_ : InputOutputNode
  region_ : Rectangle
  counter_ : Nat

namespace ComputeTileTask

/-- `ComputeTileTask(node, adaptor, region)`. -/
def new (node : InputOutputNode) (region : Rectangle) : ComputeTileTask := ⟨node, region, 0⟩

/-- `allGenerated()`; `none`: the `DEBUG_ASSERT` on the counter fails. -/
def allGenerated (t : ComputeTileTask) : Option Bool :=
  if t.counter_ ≤ t.node_.inputCount then some (t.counter_ == t.node_.inputCount) else none

/-- `generateRequiredTaskImpl()`: `template_find` calls `RequiredTaskGenerator<Index>` for
`Index = counter_++`, which requests `inputRegion(Index, region)` of `typedInputNode<Index>()`;
for an index that is not below the input count the optional is empty and `value()` throws. -/
def generateRequiredTaskImpl (t : ComputeTileTask) : Option (Request × ComputeTileTask) :=
  if t.counter_ < t.node_.inputCount then
    match t.node_.typedInputNode t.counter_, t.node_.inputRegion t.counter_ t.region_ with
    | some input, some region => some ((input, region), { t with counter_ := t.counter_ + 1 })
    | _, _ => none
  else none

/-- The requests of the task, in order. -/
def requests (fuel : Nat) (node : InputOutputNode) (region : Rectangle) : Option (List Request) :=
  requiredTasks allGenerated generateRequiredTaskImpl fuel (new node region)

end ComputeTileTask

/-- The loop of `ComputeTileProtoTask::performRequiredTasks` from `i` on, with `n` iterations
to go: the arguments of the calls of `action`, in order; `none`: a call of `inputNode` or
`inputRegion` throws. -/
def ComputeTileProtoTask.loop (node_ : InputOutputNode) (region_ : Rectangle) :
    Nat → Nat → Option (List Request)
  | _, 0 => some []
  | i, n + 1 =>
    match node_.inputNode i, node_.inputRegion i region_ with
    | some input, some region =>
      (ComputeTileProtoTask.loop node_ region_ (i + 1) n).map fun rest => (input, region) :: rest
    | _, _ => none

/-- `ComputeTileProtoTask::performRequiredTasks(action)`: the arguments of the calls of
`action`, in order: `for (i = 0; i < sizeof...(InputTypes); ++i)
action(node_.inputNode(i), node_.inputRegion(i, region_))`. -/
def ComputeTileProtoTask.performRequiredTasks (node_ : InputOutputNode) (region_ : Rectangle) :
    Option (List Request) :=
  ComputeTileProtoTask.loop node_ region_ 0 node_.inputCount

/-- A `TilingTask<HilbertRegion>`: `node_` and `tiler_`. -/
structure TilingTask where
  node_ : InputOutputNode
  tiler_ : HilbertRegion.Tiler

namespace TilingTask

/-- `TilingTask(node, adaptor, region, tile)`: the tiler is
`HilbertRegion(region, node.dimensions(), tile)`. -/
def new (fuel : Nat) (node : InputOutputNode) (region : Rectangle) (tile : RectangleDimensions) :
    Option TilingTask :=
  (HilbertRegion.Tiler.new fuel region node.dimensions tile).map fun tiler => ⟨node, tiler⟩

/-- `allGenerated()`: `not tiler_.remaining()`. -/
def allGenerated (t : TilingTask) : Option Bool := some (!t.tiler_.remaining)

/-- `generateRequiredTaskImpl()`: requests the rectangle `tiler_.next()` of the node itself. -/
def generateRequiredTaskImpl (t : TilingTask) : Option (Request × TilingTask) :=
  match t.tiler_.next with
  | none => none
  | some (rect, tiler) => some ((t.node_.self, rect), { t with tiler_ := tiler })

/-- The requests of the task, in order; `fuel` bounds the recursion of the curve and `calls`
the number of calls. -/
def requests (fuel calls : Nat) (node : InputOutputNode) (region : Rectangle)
    (tile : RectangleDimensions) : Option (List Request) :=
  match new fuel node region tile with
  | none => none
  | some t => requiredTasks allGenerated generateRequiredTaskImpl calls t

end TilingTask

/-- `TilingProtoTask<HilbertRegion>::performRequiredTasks(action)`: the arguments of the calls
of `action`, in order: `HilbertRegion::perform` with the functor `action(node_, r)`. -/
def TilingProtoTask.performRequiredTasks (fuel : Nat) (node_ : InputOutputNode)
    (region_ : Rectangle) (tile_dimensions_ : RectangleDimensions) : Option (List Request) :=
  (HilbertRegion.perform fuel region_ node_.dimensions tile_dimensions_).map fun rs =>
    rs.map fun r => (node_.self, r)

/-- `TiledOutputNode::isTile(region)` of a node of the given dimensions. -/
def TiledOutputNode.isTile (dimensions : RectangleDimensions) (region : Rectangle) : Bool :=
  if region.left % TiledOutputNode.tileDimensions.width ≠ 0 ∨
      region.top % TiledOutputNode.tileDimensions.height ≠ 0 then false
  else
    decide (region =
      (Rectangle.ofPoint region.left region.top TiledOutputNode.tileDimensions).clipDimensions
        dimensions)

/-- The class of the task that `typedTask` or `protoTask` makes. -/
inductive TaskKind where
  | ComputeTile (region : Rectangle)
  | Tiling (region : Rectangle) (tile : RectangleDimensions)
  deriving DecidableEq

namespace TiledInputOutputNode

/-- `typedTask(adaptor, region)`: a `ComputeTileTask` for a tile and a
`TilingTask<HilbertRegion>` with `tileDimensions()` otherwise. -/
def typedTask (dimensions : RectangleDimensions) (region : Rectangle) : TaskKind :=
  if TiledOutputNode.isTile dimensions region then TaskKind.ComputeTile region
  else TaskKind.Tiling region TiledOutputNode.tileDimensions

/-- `protoTask(region)`: a `ComputeTileProtoTask` for a tile and a
`TilingProtoTask<HilbertRegion>` with `tileDimensions()` otherwise. -/
def protoTask (dimensions : RectangleDimensions) (region : Rectangle) : TaskKind :=
  if TiledOutputNode.isTile dimensions region then TaskKind.ComputeTile region
  else TaskKind.Tiling region TiledOutputNode.tileDimensions

end TiledInputOutputNode

/-- The rectangle `r` lies in a node of the given dimensions. -/
def Rectangle.within (r : Rectangle) (dimensions : RectangleDimensions) : Prop :=
  r.left + r.width ≤ dimensions.width ∧ r.top + r.height ≤ dimensions.height

end ImageGraph


namespace ImageGraph

/-! ## `OutNode::fullByteNumber` and the number of tiles of a tiled node -/

/-- `OutNode::fullByteNumber()`: `elementBytes() * dimensions().size() * channels()`. -/
def TiledCachedOutputNode.fullByteNumber (node_dim : RectangleDimensions)
    (node_channels node_bytes : Nat) : Nat :=
  node_bytes * node_dim.size * node_channels

/-- `setCacheBytes(bytes)` hands `cacheSizeFromBytes(bytes)` to `setCacheSize`: the cache size
a node is set to when it is given its full byte number. -/
def TiledCachedOutputNode.fullCacheSize (node_dim : RectangleDimensions)
    (node_channels node_bytes : Nat) : Option Nat :=
  TiledCachedOutputNode.cacheSizeFromBytes node_dim node_channels node_bytes
    (TiledCachedOutputNode.fullByteNumber node_dim node_channels node_bytes)

/-- The number of tiles of a node: `ceil(width / 32) * ceil(height / 32)`. -/
def TiledOutputNode.tileNumber (node_dim : RectangleDimensions) : Nat :=
  ((node_dim.width + (TiledOutputNode.tileDimensions.width - 1)) /
      TiledOutputNode.tileDimensions.width) *
    ((node_dim.height + (TiledOutputNode.tileDimensions.height - 1)) /
      TiledOutputNode.tileDimensions.height)

/-! ## The calls on a cache and on its proto-cache side by side -/

/-- The call on the proto-cache that goes with a call on the cache: `put(key)` with
`put(key, value)`, `contains(key)` with `get(key)`, `resize` with `resize`. -/
def CacheOp.toProto {K V : Type} : CacheOp K V → ProtoCacheOp K
  | .put key _ => .put key
  | .get key => .contains key
  | .resize capacity => .resize capacity

/-- The results of the `contains` calls of a sequence of calls, in order. -/
def OrderedMapProtoCache.runContains {E : Type} [DecidableEq E] :
    OrderedMapProtoCache E → List (ProtoCacheOp E) → Option (List Bool)
  | _, [] => some []
  | c, .contains e :: ops =>
    (OrderedMapProtoCache.runContains (c.contains e).2 ops).map fun r => (c.contains e).1 :: r
  | c, .put e :: ops =>
    match c.put e with
    | none => none
    | some c1 => OrderedMapProtoCache.runContains c1 ops
  | c, .resize n :: ops => OrderedMapProtoCache.runContains (c.resize n) ops

/-- Whether the `get` calls of a sequence of calls hit, in order. -/
def Cache.runHits {K V : Type} [DecidableEq K] (c : Cache K V) (ops : List (CacheOp K V)) :
    Option (List Bool) :=
  (c.runGets ops).map fun r => r.map Option.isSome

/-- The proto-cache that holds the keys of a cache in the recency order of the cache. -/
def Cache.keys {K V : Type} (c : Cache K V) : OrderedMapProtoCache K :=
  ⟨⟨c.data_.values_.map Prod.fst, c.data_.capacity_⟩⟩

/-- The cache with its recency order reversed: the most recently used entry becomes the least
recently used one. -/
def Cache.reversed {K V : Type} (c : Cache K V) : Cache K V :=
  ⟨⟨c.data_.values_.reverse, c.data_.capacity_⟩⟩

/-! ## Examples and notions for the memory distribution -/

/-- The nodes of `memoryExample` with an empty last node: the out node 3 has no bytes. -/
def emptyNodeExample : NodeData :=
  { memoryExample with
    fullByteNumber := fun node => if node ≤ 1 then 100 else if node = 2 then 200 else 0 }

/-- Two cache nodes: the out node 0 is an important `ANY_MEMORY` source of 100 bytes and the
out node 1 an `ANY_MEMORY` node of 200 bytes that reads it and is not important; every sink
requests one tile of node 1. -/
def pairExample : NodeData :=
  { memoryExample with
    memoryMode := fun node =>
      if node ≤ 1 then MemoryMode.ANY_MEMORY else MemoryMode.NO_MEMORY
    sinkRequired := fun _ => [(1, ⟨0, 0, 32, 32⟩)]
    fullByteNumber := fun node => if node = 0 then 100 else 200
    isCacheImportant := fun node => decide (node = 0) }

/-- A random source that counts its draws: `random_real` draws the point at nine tenths of
its range, the beta distribution draws 1/2. -/
def highSource : RandomSource Nat :=
  ⟨0, fun generator min max => (min + (max - min) * (9 / 10), generator + 1),
    fun generator => (1 / 2, generator + 1)⟩

/-- `random_real(generator, min, max)` draws from `[min, max)`. -/
def RandomSource.InRange {G : Type} (rs : RandomSource G) : Prop :=
  ∀ generator min max, min < max →
    min ≤ (rs.random_real generator min max).1 ∧ (rs.random_real generator min max).1 < max

/-- The state in which `random_neighbour` is called on a distribution whose cache nodes were
all requested: the simulation has ended, every cache node has a positive full size, holds at
most that, and has data with at least one request and no more computations than requests. -/
def MemoryDistribution.AllRequested {G : Type} (d : MemoryDistribution G) : Prop :=
  d.adaptor_.empty = true ∧
  ∀ info ∈ d.cache_nodes_, info.byte_num ≤ info.max_byte_num ∧ 0 < info.max_byte_num ∧
    ∃ out_datum, d.adaptor_.out_data_ info.node = some out_datum ∧ 0 < out_datum.requests ∧
      out_datum.computations ≤ out_datum.requests

/-- A distribution over two cache nodes after a simulation in which each was requested and
computed once: node 0 holds 100 of 100 bytes and node 1 holds 50 of 200 bytes. -/
def requestedPair : MemoryDistribution Nat :=
  ⟨⟨[], RelevanceChoiceGenerator.new, fun _ => some ⟨OrderedMapProtoCache.new 0, 1, 1, 0⟩,
      fun _ => none⟩,
    150, [5], [⟨0, 100, 100, 1 / 4, 1 / 4⟩, ⟨1, 50, 200, 1 / 4, 7 / 16⟩], [],
    MemoryAmount.SUFFICIENT, 0⟩

end ImageGraph


namespace ImageGraph

/-! ## `NodeGraph::compute` and `NodeGraph::finish`: the run state

`run_` is read and written under `mutex_` only, so every critical section is one step of the
thread that runs it.  What the adaptor and the pool answer in the loop of `compute()` comes
with the step as `answer`; the steps of the bookkeeping itself (the calls on the adaptor and
the pool, the destructors of the pool and the adaptor) are taken to end. -/

namespace NodeGraph

/-- `NodeGraph::RunState`. -/
inductive RunState where
  | NOT_RUNNING
  | STOP_RUNNING
  | RUNNING
  deriving DecidableEq, Repr

/-- Where a thread stands in `compute()`. -/
inductive ComputePlace where
  /-- Before the constructor of `RunManager`. -/
  | entry
  /-- At `while (not adaptor.empty() and finish.check())`. -/
  | outerCondition
  /-- At `while (adaptor.emptyPerformable() and finish.check())`. -/
  | firstCondition
  /-- In the body of the first inner loop. -/
  | firstBody
  /-- At `while (not adaptor.emptyPerformable() and finish.check())`. -/
  | secondCondition
  /-- In the body of the second inner loop. -/
  | secondBody
  /-- At `if (finish.check())`. -/
  | lastCondition
  /-- In the body of that `if`. -/
  | lastBody
  /-- After the outer loop, before the destructors of `pool` and `adaptor`. -/
  | draining
  /-- Before the destructor of `RunManager`. -/
  | closing
  /-- In the destructor of `RunManager`, before `cond.notify_all()`. -/
  | notifying
  | returned
  deriving DecidableEq, Repr

/-- The thread is in a body of the loops: at a step of the bookkeeping. -/
def ComputePlace.isBody : ComputePlace → Bool
  | .firstBody => true
  | .secondBody => true
  | .lastBody => true
  | _ => false

/-- The thread is inside `compute()`, after the constructor of `RunManager` and before the
critical section of its destructor. -/
def ComputePlace.isActive : ComputePlace → Bool
  | .entry => false
  | .notifying => false
  | .returned => false
  | _ => true

/-- Where a thread stands in `finish()`. -/
inductive FinishPlace where
  /-- Before `std::unique_lock lock{mutex_}`. -/
  | entry
  /-- Blocked in `compute_finished_.wait`. -/
  | waiting
  /-- Woken in `compute_finished_.wait`, before it tests the predicate. -/
  | woken
  | returned
  deriving DecidableEq, Repr

/-- `RunManager::check()`; `none`: its `assert` fails. -/
def check (run : RunState) : Option Bool :=
  if run = RunState.NOT_RUNNING then none else some (decide (run = RunState.RUNNING))

/-- One step of a thread in `compute()`: the run state and the place after the step; `none`:
an `assert` fails.  `answer` is `adaptor.empty()` at `outerCondition`,
`adaptor.emptyPerformable()` at `firstCondition` and `secondCondition`, and at `firstBody`
whether the body ends in `continue` (and not in `break`).  A condition calls `check()` only
when its first operand is true. -/
def computeStep (run : RunState) (answer : Bool) :
    ComputePlace → Option (RunState × ComputePlace)
  | .entry =>
    if run = RunState.NOT_RUNNING then some (RunState.RUNNING, .outerCondition) else none
  | .outerCondition =>
    if answer then some (run, .draining)
    else (check run).map fun running => (run, if running then .firstCondition else .draining)
  | .firstCondition =>
    if answer then
      (check run).map fun running => (run, if running then .firstBody else .secondCondition)
    else some (run, .secondCondition)
  | .firstBody => some (run, if answer then .firstCondition else .secondCondition)
  | .secondCondition =>
    if answer then some (run, .lastCondition)
    else (check run).map fun running => (run, if running then .secondBody else .lastCondition)
  | .secondBody => some (run, .secondCondition)
  | .lastCondition =>
    (check run).map fun running => (run, if running then .lastBody else .outerCondition)
  | .lastBody => some (run, .outerCondition)
  | .draining => some (run, .closing)
  | .closing =>
    if run = RunState.NOT_RUNNING then none else some (RunState.NOT_RUNNING, .notifying)
  | .notifying => some (run, .returned)
  | .returned => some (run, .returned)

/-- One step of a thread in `finish()`; `none`: its `assert` fails.  A thread that waits stays
where it is until it is woken; a woken thread tests the predicate of the wait. -/
def finishStep (run : RunState) : FinishPlace → Option (RunState × FinishPlace)
  | .entry =>
    if run = RunState.STOP_RUNNING then none
    else if run = RunState.RUNNING then some (RunState.STOP_RUNNING, .waiting)
    else some (run, .returned)
  | .waiting => some (run, .waiting)
  | .woken => some (run, if run = RunState.NOT_RUNNING then .returned else .waiting)
  | .returned => some (run, .returned)

/-- Where the second thread of `example/Car.cpp` stands: it calls `finish()` and then
`compute()`. -/
inductive FinisherPlace where
  | finish (place : FinishPlace)
  | compute (place : ComputePlace)
  deriving DecidableEq, Repr

/-- A wake-up of the thread in `finish()`, by `notify_all()` or a spurious one. -/
def FinisherPlace.wake : FinisherPlace → FinisherPlace
  | .finish .waiting => .finish .woken
  | place => place

/-- A step of the two threads: of the thread that called `compute()` first, of the thread
that calls `finish()` and then `compute()`, or a spurious wake-up. -/
inductive ThreadEvent where
  | main (answer : Bool)
  | finisher (answer : Bool)
  | spurious
  deriving DecidableEq, Repr

/-- `run_` and the places of the two threads. -/
structure Run where
  run_ : RunState
  main : ComputePlace
  finisher : FinisherPlace
  deriving DecidableEq, Repr

/-- One step; `none`: an `assert` fails. -/
def Run.step (c : Run) : ThreadEvent → Option Run
  | .main answer =>
    match computeStep c.run_ answer c.main with
    | none => none
    | some (run, place) =>
      some ⟨run, place,
        if c.main = ComputePlace.notifying then c.finisher.wake else c.finisher⟩
  | .finisher answer =>
    match c.finisher with
    | .finish .returned => some { c with finisher := .compute .entry }
    | .finish place =>
      match finishStep c.run_ place with
      | none => none
      | some (run, place1) => some ⟨run, c.main, .finish place1⟩
    | .compute place =>
      match computeStep c.run_ answer place with
      | none => none
      | some (run, place1) => some ⟨run, c.main, .compute place1⟩
  | .spurious => some { c with finisher := c.finisher.wake }

/-- The two threads with a record of the run: `history` holds the values that `run_` has
taken, oldest first, and `begun` counts the bodies of the loops that the first `compute()`
has begun. -/
structure Traced extends Run where
  history : List RunState
  begun : Nat
  deriving DecidableEq

/-- One step, recorded. -/
def Traced.step (s : Traced) (ev : ThreadEvent) : Option Traced :=
  (s.toRun.step ev).map fun c =>
    ⟨c, s.history ++ (if c.run_ = s.run_ then [] else [c.run_]),
      s.begun + (if c.main.isBody && !s.main.isBody then 1 else 0)⟩

/-- A sequence of steps. -/
def Traced.run : Traced → List ThreadEvent → Option Traced
  | s, [] => some s
  | s, ev :: evs =>
    match s.step ev with
    | none => none
    | some s1 => Traced.run s1 evs

/-- The number of steps of the first thread among the steps. -/
def mainSteps (evs : List ThreadEvent) : Nat :=
  evs.countP fun ev =>
    match ev with
    | .main _ => true
    | _ => false

/-- The number of its own steps within which a thread in `compute()` returns once every
`check()` tells it to stop. -/
def ComputePlace.rank : ComputePlace → Nat
  | .entry => 9
  | .firstBody => 8
  | .firstCondition => 7
  | .secondBody => 7
  | .secondCondition => 6
  | .lastCondition => 5
  | .lastBody => 5
  | .outerCondition => 4
  | .draining => 3
  | .closing => 2
  | .notifying => 1
  | .returned => 0

/-- The states after `finish()` has stopped a running `compute()`: until the first
`compute()` has closed, the run state is `STOP_RUNNING` and `finish()` waits; then the run
state is `NOT_RUNNING`, and `finish()` waits only as long as the notification is to come;
the `compute()` that follows `finish()` runs with `RUNNING` until it closes. -/
def Run.Stopped (c : Run) : Bool :=
  match c.run_, c.finisher with
  | .STOP_RUNNING, .finish place =>
    c.main.isActive && (decide (place = .waiting) || decide (place = .woken))
  | .NOT_RUNNING, .finish place =>
    (decide (c.main = .notifying) &&
        (decide (place = .waiting) || decide (place = .woken) || decide (place = .returned))) ||
      (decide (c.main = .returned) && (decide (place = .woken) || decide (place = .returned)))
  | .NOT_RUNNING, .compute place =>
    (decide (c.main = .notifying) || decide (c.main = .returned)) &&
      (decide (place = .entry) || decide (place = .notifying) || decide (place = .returned))
  | .RUNNING, .compute place =>
    (decide (c.main = .notifying) || decide (c.main = .returned)) && place.isActive
  | _, _ => false

/-- The values that `run_` has taken since `finish()` set it to `STOP_RUNNING`. -/
def Run.later (c : Run) : List RunState :=
  match c.run_, c.finisher with
  | .STOP_RUNNING, _ => []
  | .NOT_RUNNING, .finish _ => [.NOT_RUNNING]
  | .NOT_RUNNING, .compute .entry => [.NOT_RUNNING]
  | .NOT_RUNNING, .compute _ => [.NOT_RUNNING, .RUNNING, .NOT_RUNNING]
  | .RUNNING, _ => [.NOT_RUNNING, .RUNNING]

/-- Every run state. -/
def runStates : List RunState := [.NOT_RUNNING, .STOP_RUNNING, .RUNNING]

/-- Every place in `compute()`. -/
def computePlaces : List ComputePlace :=
  [.entry, .outerCondition, .firstCondition, .firstBody, .secondCondition, .secondBody,
    .lastCondition, .lastBody, .draining, .closing, .notifying, .returned]

/-- Every place in `finish()`. -/
def finishPlaces : List FinishPlace := [.entry, .waiting, .woken, .returned]

/-- Every place of the second thread. -/
def finisherPlaces : List FinisherPlace :=
  finishPlaces.map FinisherPlace.finish ++ computePlaces.map FinisherPlace.compute

/-- Every state of `run_` and the two threads. -/
def runs : List Run :=
  runStates.flatMap fun run =>
    computePlaces.flatMap fun main => finisherPlaces.map fun finisher => ⟨run, main, finisher⟩

/-- Every step. -/
def threadEvents : List ThreadEvent :=
  [.main false, .main true, .finisher false, .finisher true, .spurious]

/-- What a step from a state after the stop keeps: no `assert` fails, the state after the step
is a state after the stop again, the values of `run_` go on as `later` tells, the first thread
begins no body, and each of its steps brings it nearer to its return. -/
def stepKeeps (c : Run) (ev : ThreadEvent) : Bool :=
  match c.step ev with
  | none => false
  | some c1 =>
    c1.Stopped &&
      decide (c1.later = c.later ++ (if c1.run_ = c.run_ then [] else [c1.run_])) &&
      !(c1.main.isBody && !c.main.isBody) &&
      (match ev with
        | .main _ =>
          decide (c1.main.rank + 1 ≤ c.main.rank) ||
            (decide (c.main = .returned) && decide (c1.main = .returned))
        | _ => decide (c1.main = c.main))

/-- The next step of the second thread ends its `finish()`. -/
def finisherLeaves (c : Run) : Bool :=
  [false, true].all fun answer =>
    match c.step (.finisher answer) with
    | none => false
    | some c1 =>
      decide (c1.finisher = .finish .returned) || decide (c1.finisher = .compute .entry)

/-- The next step of the second thread passes the entry of `compute()`. -/
def finisherEnters (c : Run) : Bool :=
  [false, true].all fun answer =>
    match c.step (.finisher answer) with
    | none => false
    | some c1 =>
      decide (c1.run_ = .RUNNING) && decide (c1.finisher = .compute .outerCondition) &&
        decide (c1.main = c.main)

/-- What holds in a state after the stop. -/
def stateKeeps (c : Run) : Bool :=
  decide (c.later <+: [.NOT_RUNNING, .RUNNING, .NOT_RUNNING]) &&
    decide ((RunState.STOP_RUNNING :: c.later).getLast? = some c.run_) &&
    (decide (c.finisher = .compute .entry) → finisherEnters c) &&
    (match c.finisher with
      | .finish _ =>
        decide (c.later <+: [.NOT_RUNNING]) && (decide (c.main = .returned) → finisherLeaves c)
      | .compute _ => true) &&
    (decide (c.main.rank ≤ 8)) &&
  (decide (c.finisher = .finish .returned) → decide (c.run_ = .NOT_RUNNING)) &&
    (decide (c.finisher = .compute .entry) → decide (c.run_ = .NOT_RUNNING)) &&
    (decide (c.main = .returned) → !decide (c.finisher = .finish .waiting)) &&
    (decide (c.run_ = .STOP_RUNNING) → c.main.isActive) &&
    (match c.finisher with
      | .compute place => place.isActive → decide (c.run_ = .RUNNING)
      | .finish _ => !decide (c.run_ = .RUNNING))

/-- The states after the stop with their record: the values of `run_` since the record
`history1`, and the bodies begun. -/
def Traced.After (history1 : List RunState) (begun1 : Nat) (s : Traced) : Prop :=
  s.toRun.Stopped = true ∧ s.history = history1 ++ s.toRun.later ∧ s.begun = begun1

/-- A running `compute()` in the body of its first inner loop, and `finish()` called. -/
def stopExample : Traced :=
  ⟨⟨.RUNNING, .firstBody, .finish .entry⟩, [.NOT_RUNNING, .RUNNING], 1⟩

/-- Steps of the two threads after the stop: the first thread goes from the body to the end of
`compute()`, then the second thread leaves `finish()` and calls `compute()`. -/
def stopSchedule : List ThreadEvent :=
  [.main true, .spurious, .finisher false, .main true, .main false, .main false, .main false,
    .main false, .finisher false, .main false, .finisher false, .main false, .finisher true,
    .finisher false, .finisher false, .finisher false, .finisher true]

end NodeGraph

end ImageGraph


namespace ImageGraph

/-! ## The arithmetic of the machine types

`float`, `double` and `long double` are binary floating-point formats: a finite value is a
multiple `m * 2^e` of a power of two with `|m| < 2^p`, and the result of an operation is the
exact result rounded to the nearest value of the format, to the one with the even `m` when
two are equally near, and to an infinity when it is too large.  Values are exact rationals
here, with the two infinities and NaN beside them; the sign of a zero is not kept. -/

/-- A value of a binary floating-point type. -/
inductive FloatValue where
  | nan
  | negInf
  | finite (q : ℚ)
  | posInf
  deriving DecidableEq

namespace FloatValue

/-- `operator<` of the floating-point types: false when an operand is NaN. -/
def lt : FloatValue → FloatValue → Bool
  | .finite a, .finite b => decide (a < b)
  | .negInf, .finite _ => true
  | .negInf, .posInf => true
  | .finite _, .posInf => true
  | _, _ => false

/-- `operator==` of the floating-point types: false when an operand is NaN. -/
def eq : FloatValue → FloatValue → Bool
  | .finite a, .finite b => decide (a = b)
  | .negInf, .negInf => true
  | .posInf, .posInf => true
  | _, _ => false

/-- `operator<=` of the floating-point types. -/
def le (a b : FloatValue) : Bool := a.lt b || a.eq b

end FloatValue

/-- A binary floating-point format: the number of bits of the significand, the exponent of
the lowest bit of the smallest values, and the exponent of the largest values. -/
structure BinaryFormat where
  precision : Nat
  emin : Int
  emax : Int
  deriving DecidableEq

/-- `float` (IEEE 754 binary32). -/
def float32 : BinaryFormat := ⟨24, -149, 127⟩

/-- `long double` of x86-64: the 80-bit format with a significand of 64 bits. -/
def longDouble : BinaryFormat := ⟨64, -16445, 16383⟩

/-- The power of two `2^k`. -/
def pow2 (k : Int) : ℚ :=
  if 0 ≤ k then ((2 ^ k.toNat : Nat) : ℚ) else 1 / ((2 ^ (-k).toNat : Nat) : ℚ)

/-- The number of times `n` can be halved before it is below 2, at most `fuel` times. -/
def log2Floor : Nat → Nat → Nat
  | 0, _ => 0
  | fuel + 1, n => if 2 ≤ n then log2Floor fuel (n / 2) + 1 else 0

/-- `⌊log₂ n⌋` for `1 ≤ n`. -/
def bitLog (n : Nat) : Nat := log2Floor n n

/-- `⌊log₂ q⌋` for `0 < q`. -/
def ilog2 (q : ℚ) : Int :=
  let k : Int := (bitLog q.num.natAbs : Int) - (bitLog q.den : Int)
  if pow2 k ≤ q then k else k - 1

/-- The integer nearest to `x`, the even one of two that are equally near. -/
def roundHalfEven (x : ℚ) : Int :=
  let f := ⌊x⌋
  let r := x - f
  if r < 1 / 2 then f
  else if 1 / 2 < r then f + 1
  else if f % 2 = 0 then f else f + 1

namespace BinaryFormat

/-- The exponent of the lowest bit of the values of the format next to `q ≠ 0`. -/
def exponent (f : BinaryFormat) (q : ℚ) : Int :=
  max (ilog2 |q| - (f.precision - 1 : Nat)) f.emin

/-- The value of the format nearest to `q`, were the exponent not bounded above. -/
def nearest (f : BinaryFormat) (q : ℚ) : ℚ :=
  if q = 0 then 0 else roundHalfEven (q / pow2 (f.exponent q)) * pow2 (f.exponent q)

/-- The rounding of an exact result `q` to the format. -/
def round (f : BinaryFormat) (q : ℚ) : FloatValue :=
  if pow2 (f.emax + 1) ≤ f.nearest q then FloatValue.posInf
  else if f.nearest q ≤ -pow2 (f.emax + 1) then FloatValue.negInf
  else FloatValue.finite (f.nearest q)

/-- The conversion of a `std::size_t` to the format. -/
def ofNat (f : BinaryFormat) (n : Nat) : FloatValue := f.round n

/-- The sum `x + y` of two values of the format. -/
def add (f : BinaryFormat) : FloatValue → FloatValue → FloatValue
  | .finite x, .finite y => f.round (x + y)
  | .finite _, .posInf => FloatValue.posInf
  | .finite _, .negInf => FloatValue.negInf
  | .posInf, .finite _ => FloatValue.posInf
  | .negInf, .finite _ => FloatValue.negInf
  | .posInf, .posInf => FloatValue.posInf
  | .negInf, .negInf => FloatValue.negInf
  | _, _ => FloatValue.nan

/-- The difference `x - y` of two values of the format. -/
def sub (f : BinaryFormat) : FloatValue → FloatValue → FloatValue
  | .finite x, .finite y => f.round (x - y)
  | .finite _, .posInf => FloatValue.negInf
  | .finite _, .negInf => FloatValue.posInf
  | .posInf, .finite _ => FloatValue.posInf
  | .negInf, .finite _ => FloatValue.negInf
  | .posInf, .negInf => FloatValue.posInf
  | .negInf, .posInf => FloatValue.negInf
  | _, _ => FloatValue.nan

/-- The quotient `x / y` of two values of the format. -/
def div (f : BinaryFormat) : FloatValue → FloatValue → FloatValue
  | .finite x, .finite y =>
    if y = 0 then
      if 0 < x then FloatValue.posInf else if x < 0 then FloatValue.negInf else FloatValue.nan
    else f.round (x / y)
  | .finite _, .posInf => FloatValue.finite 0
  | .finite _, .negInf => FloatValue.finite 0
  | .posInf, .finite y => if 0 ≤ y then FloatValue.posInf else FloatValue.negInf
  | .negInf, .finite y => if 0 ≤ y then FloatValue.negInf else FloatValue.posInf
  | _, _ => FloatValue.nan

/-- The product `x * y` of two values of the format. -/
def mul (f : BinaryFormat) : FloatValue → FloatValue → FloatValue
  | .finite x, .finite y => f.round (x * y)
  | .finite x, .posInf =>
    if 0 < x then FloatValue.posInf else if x < 0 then FloatValue.negInf else FloatValue.nan
  | .finite x, .negInf =>
    if 0 < x then FloatValue.negInf else if x < 0 then FloatValue.posInf else FloatValue.nan
  | .posInf, .finite y =>
    if 0 < y then FloatValue.posInf else if y < 0 then FloatValue.negInf else FloatValue.nan
  | .negInf, .finite y =>
    if 0 < y then FloatValue.negInf else if y < 0 then FloatValue.posInf else FloatValue.nan
  | .posInf, .posInf => FloatValue.posInf
  | .negInf, .negInf => FloatValue.posInf
  | .posInf, .negInf => FloatValue.negInf
  | .negInf, .posInf => FloatValue.negInf
  | _, _ => FloatValue.nan

end BinaryFormat

/-- The conversion of a floating-point value to `std::size_t`: the value is truncated; `none`
where the conversion is undefined (the truncated value is not a `std::size_t`). -/
def FloatValue.toSize : FloatValue → Option Nat
  | .finite q => if 0 ≤ q ∧ ⌊q⌋ < 2 ^ 64 then some ⌊q⌋.toNat
    else if -1 < q ∧ q < 0 then some 0 else none
  | _ => none

end ImageGraph


namespace ImageGraph

/-! ## `generators/RelevanceChoice.hpp` with the arithmetic of `float`

`relevance_t` is `float` in the source: `++generations / relevance` converts the
`std::size_t` to `float`, divides and rounds to `float`, and `operator<` compares the rounded
quotients.  The definitions of this section compute as the source does; a relevance is a
finite `float`, given by its exact value.  (The section on `RelevanceChoice.hpp` above holds
the same generator with the quotients computed exactly.) -/

namespace Machine

/-- `RelevanceChoiceGenerator::OutputInfo`; `T` identifies the task. -/
structure OutputInfo (T : Type) where
  task_ : T
  relevance : ℚ
  generations : Nat
  relative_count : FloatValue
  deriving DecidableEq

namespace OutputInfo
variable {T : Type}

/-- `OutputInfo(task, relevance)`: `generations{0}`, `relative_count{0}`. -/
def new (task : T) (relevance : ℚ) : OutputInfo T := ⟨task, relevance, 0, FloatValue.finite 0⟩

/-- The `float` quotient `n / relevance` of a `std::size_t n`. -/
def floatQuotient (n : Nat) (relevance : ℚ) : FloatValue :=
  float32.div (float32.ofNat n) (FloatValue.finite relevance)

/-- `operator++`: `relative_count = ++generations / relevance`. -/
def increment (i : OutputInfo T) : OutputInfo T :=
  { i with generations := i.generations + 1,
           relative_count := floatQuotient (i.generations + 1) i.relevance }

/-- `operator<`. -/
def lt (a b : OutputInfo T) : Bool :=
  a.relative_count.lt b.relative_count ||
    (a.relative_count.eq b.relative_count && decide (a.relevance < b.relevance))

/-- The quotient `generations / relevance` of an entry, computed exactly. -/
def quotient (i : OutputInfo T) : ℚ := (i.generations : ℚ) / i.relevance

end OutputInfo

/-- The scan of `std::min_element` after its first element: `smallest` (at index `best`) is
replaced by each later element that is `<` it. Returns the index and the element found. -/
def minElementFrom {T : Type} (best : Nat) (smallest : OutputInfo T) :
    Nat → List (OutputInfo T) → Nat × OutputInfo T
  | _, [] => (best, smallest)
  | idx, e :: rest =>
    if e.lt smallest then minElementFrom idx e (idx + 1) rest
    else minElementFrom best smallest (idx + 1) rest

/-- `std::min_element(info_.begin(), info_.end())`: `none` is `info_.end()`. -/
def minElement {T : Type} : List (OutputInfo T) → Option (Nat × OutputInfo T)
  | [] => none
  | e :: rest => some (minElementFrom 0 e 1 rest)

/-- `RelevanceChoiceGenerator<T, Op>`. -/
structure RelevanceChoiceGenerator (T : Type) where
  info_ : List (OutputInfo T)
  deriving DecidableEq

namespace RelevanceChoiceGenerator
variable {T : Type} [DecidableEq T]

def new : RelevanceChoiceGenerator T := ⟨[]⟩

/-- `addSinkTask(task, relevance)`; `allGenerated` is `task.allGenerated()`. -/
def addSinkTask (g : RelevanceChoiceGenerator T) (task : T) (relevance : ℚ)
    (allGenerated : Bool) : RelevanceChoiceGenerator T :=
  if allGenerated then g else ⟨g.info_ ++ [OutputInfo.new task relevance]⟩

def contains (g : RelevanceChoiceGenerator T) (task : T) : Bool :=
  g.info_.any fun i => decide (i.task_ = task)

/-- `eraseSinkTask(task)`: erases the first entry of the task (`none`: there is none, and the
source erases `end()`). -/
def eraseSinkTask (g : RelevanceChoiceGenerator T) (task : T) :
    Option (RelevanceChoiceGenerator T) :=
  if g.contains task then some ⟨g.info_.eraseP fun i => decide (i.task_ = task)⟩ else none

/-- `generate()`: the chosen task and the generator after the call.  `none` when a task of the
generator has generated all its dependencies (`DEBUG_PREVENT`) or when there is no minimum
(`DEBUG_ASSERT`). -/
def generate (g : RelevanceChoiceGenerator T) (allGenerated : T → Bool) :
    Option (T × RelevanceChoiceGenerator T) :=
  if g.info_.any (fun i => allGenerated i.task_) then none
  else
    match minElement g.info_ with
    | none => none
    | some (k, info) => some (info.task_, ⟨g.info_.set k info.increment⟩)

def empty (g : RelevanceChoiceGenerator T) : Bool := g.info_.isEmpty

def step (g : RelevanceChoiceGenerator T) : ChooserOp T → Option (RelevanceChoiceGenerator T)
  | .addSinkTask task relevance allGenerated => some (g.addSinkTask task relevance allGenerated)
  | .eraseSinkTask task => g.eraseSinkTask task
  | .generate allGenerated => (g.generate allGenerated).map Prod.snd

def run : RelevanceChoiceGenerator T → List (ChooserOp T) → Option (RelevanceChoiceGenerator T)
  | g, [] => some g
  | g, op :: ops =>
    match g.step op with
    | none => none
    | some g1 => run g1 ops

end RelevanceChoiceGenerator

/-- The `float` nearest to 0.1: `0.1f`. -/
def tenth : ℚ := 13421773 / 134217728

/-- The `float` nearest to 0.3: `0.3f`. -/
def threeTenths : ℚ := 5033165 / 16777216

/-- Two sinks, 1 and 2, of relevances `0.1f` and `0.3f` are added and `generate()` is called
`calls` times. -/
def tenthsCalls (calls : Nat) : List (ChooserOp Nat) :=
  [.addSinkTask 1 tenth false, .addSinkTask 2 threeTenths false] ++
    List.replicate calls (.generate fun _ => false)

end Machine

end ImageGraph


namespace ImageGraph

/-! ## `MemoryDistribution::generate_members` with the arithmetic of `long double`

`portion_t` is `long double` in the source: the portion `max_byte_num / bytes` is a rounded
quotient, its product with the remaining bytes is rounded again, and the conversion to
`std::size_t` truncates the product.  The definitions of this section compute as the source
does (on x86-64, where the significand of a `long double` has 64 bits); the section on
`MemoryDistribution.cpp` above holds the same loops with the portions computed exactly. -/

namespace Machine

/-- `std::size_t byte_num(portion * remaining)` with
`portion{portion_t(max_byte_num) / portion_t(bytes)}`; `none` where the conversion to
`std::size_t` is undefined (the product is NaN, infinite or too large). -/
def byteShare (max_byte_num bytes remaining : Nat) : Option Nat :=
  (longDouble.mul (longDouble.div (longDouble.ofNat max_byte_num) (longDouble.ofNat bytes))
    (longDouble.ofNat remaining)).toSize

/-- The loop of `generate_members` for `memory_limit >= important_bytes`: the important nodes
get their full size, the others share `remaining_unimportant`.  `none`: the conversion of the
product is undefined, or the `assert` fails. -/
def shareUnimportant (g : NodeData) :
    List NodeInformation → Nat → Nat → Option (List NodeInformation)
  | [], _, _ => some []
  | information :: rest, unimportant_bytes, remaining_unimportant =>
    if g.isCacheImportant information.node then
      (shareUnimportant g rest unimportant_bytes remaining_unimportant).map fun l =>
        { information with byte_num := information.max_byte_num } :: l
    else
      let max_byte_num := information.max_byte_num
      match byteShare max_byte_num unimportant_bytes remaining_unimportant with
      | none => none
      | some byte_num =>
        if byte_num ≤ remaining_unimportant then
          (shareUnimportant g rest (unimportant_bytes - max_byte_num)
            (remaining_unimportant - byte_num)).map fun l =>
              { information with byte_num := byte_num } :: l
        else none

/-- The loop of `generate_members` for `0 < memory_limit < important_bytes`: the important
nodes share `remaining_important`, the others keep 0 bytes.  `none`: the conversion of the
product is undefined, or the `assert` fails. -/
def shareImportant (g : NodeData) :
    List NodeInformation → Nat → Nat → Option (List NodeInformation)
  | [], _, _ => some []
  | information :: rest, important_bytes, remaining_important =>
    if g.isCacheImportant information.node then
      let max_byte_num := information.max_byte_num
      match byteShare max_byte_num important_bytes remaining_important with
      | none => none
      | some byte_num =>
        if byte_num ≤ remaining_important then
          (shareImportant g rest (important_bytes - max_byte_num)
            (remaining_important - byte_num)).map fun l =>
              { information with byte_num := byte_num } :: l
        else none
    else (shareImportant g rest important_bytes remaining_important).map fun l => information :: l

/-- The byte numbers that `generate_members` assigns after its first loop. -/
def assign (g : NodeData) (m : Members) : Option (List NodeInformation) :=
  if m.amount = MemoryAmount.ENOUGH_FOR_ALL then
    some (m.cache_nodes.map fun information =>
      { information with byte_num := information.max_byte_num })
  else if m.memory_limit ≥ m.important_bytes then
    shareUnimportant g m.cache_nodes m.unimportant_bytes (m.memory_limit - m.important_bytes)
  else if m.memory_limit > 0 then
    shareImportant g m.cache_nodes m.important_bytes m.memory_limit
  else some m.cache_nodes

/-- `MemoryDistribution::generate_members(memory_limit, out_nodes, sink_nodes)`; `fuel` bounds
the recursion of `computeProbs`. -/
def generate_members (g : NodeData) (fuel : Nat) (memory_limit : Nat)
    (out_nodes sink_nodes : List Nat) : Option ArgumentTuple :=
  match Members.addAll g fuel ⟨[], [], 0, 0, true, memory_limit, []⟩ out_nodes with
  | none => none
  | some m =>
    match assign g m with
    | none => none
    | some cache_nodes =>
      some ⟨m.memory_limit, sink_nodes, cache_nodes, m.non_cache_nodes, m.amount⟩

/-- The `assert(info.byte_num <= info.max_byte_num)` of `random_neighbour` holds for every
cache node. -/
def WithinMax (cache_nodes : List NodeInformation) : Bool :=
  cache_nodes.all fun info => decide (info.byte_num ≤ info.max_byte_num)

end Machine

/-- Three `ANY_MEMORY` sources of 1, 15 and 6 bytes, none important for caching. -/
def threeSources : NodeData :=
  { memoryExample with
    memoryMode := fun node => if node ≤ 2 then MemoryMode.ANY_MEMORY else MemoryMode.NO_MEMORY
    requiredTasks := fun _ _ => []
    inputNodes := fun _ => []
    fullByteNumber := fun node => if node = 0 then 1 else if node = 1 then 15 else 6
    isCacheImportant := fun _ => false }

/-- Two `ANY_MEMORY` sources of 20 and 8 bytes, none important for caching. -/
def twoSources : NodeData :=
  { threeSources with
    memoryMode := fun node => if node ≤ 1 then MemoryMode.ANY_MEMORY else MemoryMode.NO_MEMORY
    fullByteNumber := fun node => if node = 0 then 20 else 8 }

end ImageGraph


namespace ImageGraph

/-! ## `Rectangle<std::size_t>::clip(RectangleDimensions)` with the arithmetic of `std::size_t`

The sums `left() + width()` and `top() + height()` of `clip(RectangleDimensions)` are sums of
two `std::size_t` and wrap at `2^64`.  The definitions of this section compute as the source
does for rectangles of `std::size_t`; `Rectangle.clipDimensions` above is the same member
with sums that do not wrap. -/

namespace Machine

/-- The sum of two `std::size_t`. -/
def sizeAdd (a b : Nat) : Nat := (a + b) % 2 ^ 64

/-- `clip(RectangleDimensions)` of a `Rectangle<std::size_t>`; `removeNegative` does nothing
for an unsigned type. -/
def clipDimensions (r : Rectangle) (d : RectangleDimensions) : Rectangle :=
  let r1 : Rectangle :=
    if r.left > d.width then { r with left := d.width, width := 0 }
    else if sizeAdd r.left r.width > d.width then { r with width := d.width - r.left }
    else r
  if r1.top > d.height then { r1 with top := d.height, height := 0 }
  else if sizeAdd r1.top r1.height > d.height then { r1 with height := d.height - r1.top }
  else r1

/-- `OutNode::inputRegion(input, output_rectangle)`. -/
def inputRegion (n : OutNode) (input : Nat) (output_rectangle : Rectangle) : Option Rectangle :=
  match n.inputDimensions input with
  | none => none
  | some dimensions => some (clipDimensions (n.rawInputRegion input output_rectangle) dimensions)

/-- The fields of the rectangle are values of `std::size_t`. -/
def IsSize (r : Rectangle) : Prop :=
  r.left < 2 ^ 64 ∧ r.top < 2 ^ 64 ∧ r.width < 2 ^ 64 ∧ r.height < 2 ^ 64

end Machine

/-- A node with one input of 10x10 pixels whose `rawInputRegion` returns the rectangle at
`(5, 0)` of width `2^64 - 1` and height 1 for every output rectangle. -/
def wideRegionNode : OutNode :=
  ⟨[], fun _ _ => ⟨5, 0, 2 ^ 64 - 1, 1⟩, fun _ => some ⟨10, 10⟩⟩

end ImageGraph


namespace ImageGraph

/-! ## The order of the requests in the simulator

`TiledInputOutputNode::protoTask` gives a region that is not a tile a `TilingProtoTask`, whose
`performRequiredTasks` requests the tiles of the region from the node itself
(`action(node_, r)`); a tile gets a `ComputeTileProtoTask`, which requests the input regions
from the input nodes. -/

/-- The requests of the tasks are well-founded: the task of `(node, region)` requests regions
of lower-numbered nodes or of its own node, each of a lower `rank`. -/
def ProtoGraph.Ranked (g : ProtoGraph) (rank : Nat → Rectangle → Nat) : Prop :=
  ∀ node region p, p ∈ g.requiredTasks node region →
    p.1 ≤ node ∧ rank p.1 p.2 < rank node region

/-- From `a` to `b` no proto-cache has gained a region of rank `bound` or more. -/
def ProtoGraphAdaptor.KeysBelow (rank : Nat → Rectangle → Nat) (bound : Nat)
    (a b : ProtoGraphAdaptor) : Prop :=
  ∀ node region db, bound ≤ rank node region → b.out_data_ node = some db →
    db.cache.set_.found region = true →
    ∃ da, a.out_data_ node = some da ∧ da.cache.set_.found region = true

/-- A tiled node: out node 0 is a source without inputs, out node 1 a tiled `ANY_MEMORY` node
of 64x64 whose tiles are cacheable.  The task of a tile of node 1 reads the tile from node 0;
the task of any other region of node 1 requests the four tiles from node 1 itself.  Sink 1
reads the whole of node 1. -/
def tiledExample : ProtoGraph where
  memoryMode := fun node => if node = 1 then MemoryMode.ANY_MEMORY else MemoryMode.NO_MEMORY
  isCacheable := fun _ region => decide (region ∈ tiles64)
  requiredTasks := fun node region =>
    if node = 1 then
      if region ∈ tiles64 then [(0, region)] else tiles64.map fun tile => (1, tile)
    else []
  singleTime := fun _ _ => 0
  fullTime := fun node region => if node = 1 ∧ region ∈ tiles64 then 2 else 0
  createProtoCache := fun _ => OrderedMapProtoCache.new 0
  relevance := fun _ => 1
  sinkRequired := fun _ => [(1, ⟨0, 0, 64, 64⟩)]
  sinkFullTime := fun _ => 0

/-- A rank of the requests of `tiledExample`: the source, a tile of node 1, another region of
node 1. -/
def tiledRank (node : Nat) (region : Rectangle) : Nat :=
  if node = 0 then 0 else if region ∈ tiles64 then 1 else 2

/-- The adaptor of `tiledExample` after `addOutNode` of node 0 and of node 1, node 1 with a
cache for four tiles. -/
def tiledAdaptor : ProtoGraphAdaptor :=
  (ProtoGraphAdaptor.new.addOutNode tiledExample 0 0).addOutNode tiledExample 1 4

end ImageGraph


namespace ImageGraph

/-! ## The simulator with the chooser of `float` quotients

`ProtoGraphAdaptor` keeps a `RelevanceChoiceGenerator`, whose `relevance_t` is `float`:
`addSinkTask` passes the `double` relevance of the sink, which is converted to `float`, and
`generate()` compares the `float` quotients.  The definitions of this section are those of
the simulator above with that chooser; durations stay exact (no branch reads them). -/

namespace Machine

/-- The conversion of a `double` relevance to `relevance_t = float`; `none` when the value is
out of the range of `float`. -/
def toRelevance (relevance : ℚ) : Option ℚ :=
  match float32.round relevance with
  | .finite f => some f
  | _ => none

/-- `ProtoGraphAdaptor`. `sink_tasks_` holds the live proto sink tasks, each with the requests
its tiler has not returned yet; the maps are functions, `none` where `at` would throw. -/
structure ProtoGraphAdaptor where
  sink_tasks_ : List (Nat × List (Nat × Rectangle))
  chooser_ : RelevanceChoiceGenerator Nat
  out_data_ : Nat → Option OutData
  sink_data_ : Nat → Option SinkData

namespace ProtoGraphAdaptor

def new : ProtoGraphAdaptor := ⟨[], RelevanceChoiceGenerator.new, fun _ => none, fun _ => none⟩

def empty (a : ProtoGraphAdaptor) : Bool := a.sink_tasks_.isEmpty

/-- The requests a live sink task has left. -/
def remaining (a : ProtoGraphAdaptor) (sink : Nat) : Option (List (Nat × Rectangle)) :=
  (a.sink_tasks_.find? fun e => decide (e.1 = sink)).map Prod.snd

def setOutData (a : ProtoGraphAdaptor) (node : Nat) (data : OutData) : ProtoGraphAdaptor :=
  { a with out_data_ := fun n => if n = node then some data else a.out_data_ n }

def setSinkData (a : ProtoGraphAdaptor) (sink : Nat) (data : SinkData) : ProtoGraphAdaptor :=
  { a with sink_data_ := fun n => if n = sink then some data else a.sink_data_ n }

/-- The statements that `sinkRequest` and the performer of `outRequest` share: count the
request of `(node, region)`; on a miss count a computation and simulate the task (`recur` is
`outRequest`), on a hit nothing else than the touch of the cache entry by `contains`. -/
def request (g : ProtoGraph)
    (recur : Nat → Rectangle → ProtoGraphAdaptor → Option (ℚ × ProtoGraphAdaptor))
    (node : Nat) (region : Rectangle) (a : ProtoGraphAdaptor) : Option (ℚ × ProtoGraphAdaptor) :=
  match a.out_data_ node with
  | none => none
  | some data =>
    if g.memoryMode node ≠ MemoryMode.ANY_MEMORY ∨ (data.cache.contains region).1 = false then
      recur node region
        (a.setOutData node { data with requests := data.requests + 1,
                                       computations := data.computations + 1 })
    else
      some (0, a.setOutData node { data with requests := data.requests + 1,
                                             cache := (data.cache.contains region).2 })

/-- The loop of `task.performRequiredTasks(...)` in `outRequest`: returns `own_time`,
`dep_time` and the adaptor. -/
def performRequiredTasks (g : ProtoGraph)
    (recur : Nat → Rectangle → ProtoGraphAdaptor → Option (ℚ × ProtoGraphAdaptor))
    (single_time : ℚ) :
    List (Nat × Rectangle) → ProtoGraphAdaptor → ℚ → ℚ → Option (ℚ × ℚ × ProtoGraphAdaptor)
  | [], a, own_time, dep_time => some (own_time, dep_time, a)
  | (node, region) :: rest, a, own_time, dep_time =>
    match request g recur node region a with
    | none => none
    | some (t, a1) =>
      performRequiredTasks g recur single_time rest a1 (own_time + single_time) (dep_time + t)

/-- `outRequest(task, data)` for the proto-task of `(node, region)`; the recursion of the
source is bounded by `fuel` (`none`: the fuel did not suffice, `at` threw, or the `assert` of
the cache's `put` failed). -/
def outRequest (g : ProtoGraph) :
    Nat → Nat → Rectangle → ProtoGraphAdaptor → Option (ℚ × ProtoGraphAdaptor)
  | 0, _, _, _ => none
  | fuel + 1, node, region, a =>
    match performRequiredTasks g (outRequest g fuel) (g.singleTime node region)
        (g.requiredTasks node region) a 0 0 with
    | none => none
    | some (own_time, dep_time, a1) =>
      match a1.out_data_ node with
      | none => none
      | some data =>
        match (if g.memoryMode node = MemoryMode.ANY_MEMORY ∧ g.isCacheable node region = true
               then data.cache.put region else some data.cache) with
        | none => none
        | some cache =>
          some (own_time + g.fullTime node region + dep_time,
            a1.setOutData node { data with
              cache := cache, duration := data.duration + (own_time + g.fullTime node region) })

/-- `sinkPerformable(task)`. -/
def sinkPerformable (g : ProtoGraph) (a : ProtoGraphAdaptor) (sink : Nat) :
    Option (ℚ × ProtoGraphAdaptor) :=
  if a.chooser_.contains sink then none
  else some (g.sinkFullTime sink,
    { a with sink_tasks_ := a.sink_tasks_.eraseP fun e => decide (e.1 = sink) })

/-- `sinkRequest(task)` for the live proto-task of `sink`. -/
def sinkRequest (g : ProtoGraph) (fuel : Nat) (a : ProtoGraphAdaptor) (sink : Nat) :
    Option (ℚ × ProtoGraphAdaptor) :=
  match a.remaining sink with
  | none => none
  | some [] => none
  | some ((node, region) :: rest) =>
    let a0 := { a with sink_tasks_ :=
      a.sink_tasks_.map fun e => if e.1 = sink then (sink, rest) else e }
    match request g (outRequest g fuel) node region a0 with
    | none => none
    | some (time, a1) =>
      match a1.sink_data_ sink with
      | none => none
      | some sink_datum =>
        if rest.isEmpty then
          match a1.chooser_.eraseSinkTask sink with
          | none => none
          | some chooser =>
            match sinkPerformable g { a1 with chooser_ := chooser } sink with
            | none => none
            | some (t, a2) =>
              some (time + t,
                a2.setSinkData sink { sink_datum with duration := sink_datum.duration + (time + t) })
        else
          some (time, a1.setSinkData sink { sink_datum with duration := sink_datum.duration + time })

/-- `frontRequestableNextRequiredTask()`; `none` also for the `Invalid request!` exception. -/
def frontRequestableNextRequiredTask (g : ProtoGraph) (fuel : Nat) (a : ProtoGraphAdaptor) :
    Option (ℚ × ProtoGraphAdaptor) :=
  if a.chooser_.empty then none
  else
    match a.chooser_.generate (fun sink => decide (a.remaining sink = some [])) with
    | none => none
    | some (sink, chooser) => sinkRequest g fuel { a with chooser_ := chooser } sink

/-- `addOutNode(node, capacity)`. -/
def addOutNode (g : ProtoGraph) (a : ProtoGraphAdaptor) (node capacity : Nat) :
    ProtoGraphAdaptor :=
  let proto_cache :=
    if g.memoryMode node = MemoryMode.ANY_MEMORY then (g.createProtoCache node).resize capacity
    else g.createProtoCache node
  match a.out_data_ node with
  | some _ => a
  | none => a.setOutData node ⟨proto_cache, 0, 0, 0⟩

/-- `addSinkTask(node)`; `none` when the sink already has a task (the source then uses a
destroyed task) or its relevance is out of the range of `float`. -/
def addSinkTask (g : ProtoGraph) (a : ProtoGraphAdaptor) (sink : Nat) :
    Option (ℚ × ProtoGraphAdaptor) :=
  match a.remaining sink with
  | some _ => none
  | none =>
    let a0 : ProtoGraphAdaptor :=
      { a with sink_tasks_ := a.sink_tasks_ ++ [(sink, g.sinkRequired sink)] }
    let a1 : ProtoGraphAdaptor :=
      match a.sink_data_ sink with
      | some _ => a0
      | none => a0.setSinkData sink ⟨0, g.relevance sink⟩
    if (g.sinkRequired sink).isEmpty then
      match sinkPerformable g a1 sink, a1.sink_data_ sink with
      | some (t, a2), some datum =>
        some (t, a2.setSinkData sink { datum with duration := datum.duration + t })
      | _, _ => none
    else
      match toRelevance (g.relevance sink) with
      | none => none
      | some relevance =>
        some (0, { a1 with chooser_ := a1.chooser_.addSinkTask sink relevance false })

def step (g : ProtoGraph) (a : ProtoGraphAdaptor) : SimulatorOp → Option ProtoGraphAdaptor
  | .addSinkTask sink => (a.addSinkTask g sink).map Prod.snd
  | .addOutNode node capacity => some (a.addOutNode g node capacity)
  | .frontRequestableNextRequiredTask fuel =>
    (a.frontRequestableNextRequiredTask g fuel).map Prod.snd

def run (g : ProtoGraph) : ProtoGraphAdaptor → List SimulatorOp → Option ProtoGraphAdaptor
  | a, [] => some a
  | a, op :: ops =>
    match a.step g op with
    | none => none
    | some a1 => run g a1 ops

end ProtoGraphAdaptor

end Machine

end ImageGraph


namespace ImageGraph

open boost_geometry

/-! ## `Clipping.hpp` with the arithmetic of the number type

`clipRing<T>` is used with `T = float` and `T = double`: the coordinates of an intersection
point are computed with a subtraction, a product, a quotient and a sum, each rounded to `T`.
The definitions of this section compute as the source does. -/

namespace Machine

namespace detail

/-- `bitCode(p, rect)`. -/
def bitCode (p : point_t FloatValue) (rect : box_t FloatValue) : Nat :=
  (if p.x.lt rect.min_corner.x then ImageGraph.detail.LEFT
    else (if rect.max_corner.x.lt p.x then ImageGraph.detail.RIGHT
      else ImageGraph.detail.INSIDE)) |||
  (if p.y.lt rect.min_corner.y then ImageGraph.detail.BOTTOM
    else (if rect.max_corner.y.lt p.y then ImageGraph.detail.TOP
      else ImageGraph.detail.INSIDE))

/-- The coordinate `a + (b - a) * (c - d) / (e - d)` of an intersection point, as the source
evaluates it: the product before the quotient, each operation rounded. -/
def crossing (f : BinaryFormat) (a b c d e : FloatValue) : FloatValue :=
  f.add a (f.div (f.mul (f.sub b a) (f.sub c d)) (f.sub e d))

/-- `intersect(a, b, edge, bounding_box)`; `none` is the `std::invalid_argument` it
throws. -/
def intersect (f : BinaryFormat) (a b : point_t FloatValue) (edge : Nat)
    (bounding_box : box_t FloatValue) : Option (point_t FloatValue) :=
  if edge &&& ImageGraph.detail.TOP ≠ 0 then
    some ⟨crossing f a.x b.x bounding_box.max_corner.y a.y b.y, bounding_box.max_corner.y⟩
  else if edge &&& ImageGraph.detail.BOTTOM ≠ 0 then
    some ⟨crossing f a.x b.x bounding_box.min_corner.y a.y b.y, bounding_box.min_corner.y⟩
  else if edge &&& ImageGraph.detail.RIGHT ≠ 0 then
    some ⟨bounding_box.max_corner.x, crossing f a.y b.y bounding_box.max_corner.x a.x b.x⟩
  else if edge &&& ImageGraph.detail.LEFT ≠ 0 then
    some ⟨bounding_box.min_corner.x, crossing f a.y b.y bounding_box.min_corner.x a.x b.x⟩
  else none

end detail

/-- The body of the inner loop of `clipRing` for the side `edge`; `none`: the deque is empty
at `inner.front()`, or `intersect` throws. -/
def clipStep (f : BinaryFormat) (edge : Nat) (bounding_box : box_t FloatValue)
    (st : ClipState FloatValue) : Option (ClipState FloatValue) :=
  match st.inner with
  | [] => none
  | p :: rest =>
    let inside : Bool := (detail.bitCode p bounding_box &&& edge) == 0
    let pushed : Option (List (point_t FloatValue)) :=
      if inside != st.prev_inside then
        (detail.intersect f st.prev p edge bounding_box).map fun i => rest ++ [i]
      else some rest
    match pushed with
    | none => none
    | some inner1 => some ⟨p, inside, if inside then inner1 ++ [p] else inner1⟩

/-- The inner loop `for (size_t i{0}; i < size; ++i)` of `clipRing`. -/
def clipLoop (f : BinaryFormat) (edge : Nat) (bounding_box : box_t FloatValue) :
    Nat → ClipState FloatValue → Option (ClipState FloatValue)
  | 0, st => some st
  | size + 1, st =>
    match clipStep f edge bounding_box st with
    | none => none
    | some st1 => clipLoop f edge bounding_box size st1

/-- One round of the outer loop of `clipRing`, up to its `break`. -/
def clipEdge (f : BinaryFormat) (edge : Nat) (bounding_box : box_t FloatValue)
    (inner : List (point_t FloatValue)) : Option (List (point_t FloatValue)) :=
  match inner.getLast? with
  | none => none
  | some prev =>
    (clipLoop f edge bounding_box inner.length
      ⟨prev, (detail.bitCode prev bounding_box &&& edge) == 0, inner⟩).map fun st => st.inner

/-- The outer loop of `clipRing` over the sides `edges` (1, 2, 4, 8 in the source), with its
`break` when the deque is empty. -/
def clipEdges (f : BinaryFormat) (bounding_box : box_t FloatValue) :
    List Nat → List (point_t FloatValue) → Option (List (point_t FloatValue))
  | [], inner => some inner
  | edge :: edges, inner =>
    match clipEdge f edge bounding_box inner with
    | none => none
    | some inner1 =>
      if inner1.isEmpty then some inner1 else clipEdges f bounding_box edges inner1

/-- A point of finite coordinates as a point of the number type. -/
def ofPoint (p : point_t ℚ) : point_t FloatValue := ⟨FloatValue.finite p.x, FloatValue.finite p.y⟩

end Machine

/-! ### The area of a clipped ring as a sum over the segments of the ring -/

/-- A function of segments that changes sign with the direction of the segment and is additive
along a line. -/
def Additive {T : Type} [LinearOrderedField T] (F : point_t T → point_t T → T) : Prop :=
  (∀ u v, F v u = -F u v) ∧ ∀ a m b, cross3 a m b = 0 → F a b = F a m + F m b

namespace HalfPlane

variable {T : Type} [LinearOrderedField T]

end HalfPlane

/-- The total of the sums of `F` over the segments of the cyclic lists `pieces`. -/
def pieceSum {T : Type} [LinearOrderedField T] (F : point_t T → point_t T → T)
    (pieces : List (List (point_t T))) : T :=
  (pieces.map fun l => sumOver F (cyclicSegments l)).sum

/-- The ring is put together from the cyclic lists `pieces`: the segments of the pieces are
the segments of the ring, cut into parts along their lines, and segments that two pieces run
through in opposite directions.  Stated with the sums that respect just this: every function
of segments that changes sign with the direction and is additive along a line has the same
sum over the segments of the ring as over the segments of all the pieces. -/
def Dissected {T : Type} [LinearOrderedField T] (ring : ring_t T)
    (pieces : List (List (point_t T))) : Prop :=
  ∀ F : point_t T → point_t T → T, Additive F → sumOver F (segments ring) = pieceSum F pieces

/-- The triangles that the segments of a ring span with the point `c`, each from `c` along
the segment and back. -/
def fan {T : Type} (c : point_t T) (ring : ring_t T) : List (List (point_t T)) :=
  (segments ring).map fun e => [c, e.1, e.2]

/-! ### Examples -/

end ImageGraph


namespace ImageGraph

/-! ## The bounded cache -/

theorem remove_overList_eq_drop {α : Type} (l : List α) (limit : Nat) :
    remove_overList l limit = l.drop (l.length - limit) := by
  induction l with
  | nil => simp [remove_overList]
  | cons x xs ih =>
    unfold remove_overList
    split
    · rename_i h
      rw [ih]
      have h1 : (x :: xs).length - limit = (xs.length - limit) + 1 := by
        simp only [List.length_cons] at h ⊢; omega
      rw [h1, List.drop_succ_cons]
    · rename_i h
      have h1 : (x :: xs).length - limit = 0 := by omega
      rw [h1, List.drop_zero]

theorem remove_overList_length_le {α : Type} (l : List α) (limit : Nat) :
    (remove_overList l limit).length ≤ limit := by
  rw [remove_overList_eq_drop, List.length_drop]; omega

theorem remove_overList_of_le {α : Type} (l : List α) (limit : Nat) (h : l.length ≤ limit) :
    remove_overList l limit = l := by
  rw [remove_overList_eq_drop]
  have : l.length - limit = 0 := by omega
  rw [this, List.drop_zero]

theorem remove_overList_sublist {α : Type} (l : List α) (limit : Nat) :
    (remove_overList l limit).Sublist l := by
  rw [remove_overList_eq_drop]; exact List.drop_sublist _ _

theorem remove_overList_cons_full {α : Type} (x : α) (xs : List α) :
    remove_overList (x :: xs) ((x :: xs).length - 1) = xs := by
  unfold remove_overList
  simp only [List.length_cons, Nat.add_sub_cancel]
  rw [if_pos (by omega)]
  exact remove_overList_of_le xs _ (le_refl _)

theorem find_key_none {K V : Type} [DecidableEq K] (l : List (K × V)) (k : K)
    (h : ∀ e ∈ l, e.1 ≠ k) : l.find? (fun e => decide (e.1 = k)) = none := by
  rw [List.find?_eq_none]
  intro e he
  simpa using h e he

theorem find_key_append_last {K V : Type} [DecidableEq K] (l : List (K × V)) (k : K) (v : V)
    (h : ∀ e ∈ l, e.1 ≠ k) : (l ++ [(k, v)]).find? (fun e => decide (e.1 = k)) = some (k, v) := by
  rw [List.find?_append, find_key_none l k h]
  simp

theorem find_key_of_mem {K V : Type} [DecidableEq K] (l : List (K × V))
    (hnd : (l.map Prod.fst).Nodup) (e : K × V) (he : e ∈ l) :
    l.find? (fun x => decide (x.1 = e.1)) = some e := by
  induction l with
  | nil => cases he
  | cons x xs ih =>
    simp only [List.map_cons, List.nodup_cons] at hnd
    rcases List.mem_cons.1 he with h | h
    · subst h; simp
    · have hne : x.1 ≠ e.1 := by
        intro hx
        exact hnd.1 (hx ▸ List.mem_map_of_mem Prod.fst h)
      rw [List.find?_cons_of_neg _ (by simpa using hne)]
      exact ih hnd.2 h

theorem LRUMap_found_eq_false_iff {K V : Type} [DecidableEq K] (m : LRUMap K V) (k : K) :
    m.found k = false ↔ ∀ e ∈ m.values_, e.1 ≠ k := by
  simp [LRUMap.found]

theorem LRUSet_found_eq_false_iff {E : Type} [DecidableEq E] (s : LRUSet E) (k : E) :
    s.found k = false ↔ k ∉ s.values_ := by
  simp only [LRUSet.found, List.any_eq_false, decide_eq_true_eq]
  constructor
  · intro h hk; exact h k hk rfl
  · intro h e he hek; exact h (hek ▸ he)

theorem LRUMap_recapacitate_size_le {K V : Type} [DecidableEq K] (m : LRUMap K V) (n : Nat)
    (h : m.size ≤ m.capacity) : (m.recapacitate n).size ≤ (m.recapacitate n).capacity := by
  unfold LRUMap.recapacitate
  split
  · exact h
  · split
    · simp [LRUMap.size, LRUMap.capacity]
    · simpa [LRUMap.size, LRUMap.capacity, LRUMap.remove_over] using remove_overList_length_le _ _

theorem LRUMap_insert_size_le {K V : Type} [DecidableEq K] (m m1 : LRUMap K V) (k : K) (v : V)
    (h : m.size ≤ m.capacity) (hi : m.insert k v = some m1) : m1.size ≤ m1.capacity := by
  unfold LRUMap.insert at hi
  split at hi
  · cases hi
  · split at hi
    · split at hi
      · cases hi; exact h
      · cases hi
    · rename_i hc
      cases hi
      have := remove_overList_length_le m.values_ (m.capacity_ - 1)
      simp only [LRUMap.size, LRUMap.capacity, LRUMap.remove_over, List.length_append,
        List.length_singleton]
      omega

theorem LRUMap_at_size {K V : Type} [DecidableEq K] (m : LRUMap K V) (k : K) :
    (m.at_ k).2.size = m.size ∧ (m.at_ k).2.capacity = m.capacity := by
  unfold LRUMap.at_
  split
  · rename_i e he
    have hmem := List.mem_of_find?_eq_some he
    have hp := List.find?_some he
    have hlen : (m.values_.eraseP fun e => decide (e.1 = k)).length = m.values_.length - 1 :=
      List.length_eraseP_of_mem hmem hp
    have : 0 < m.values_.length := List.length_pos_of_mem hmem
    refine ⟨?_, rfl⟩
    simp only [LRUMap.size, List.length_append, List.length_singleton]
    rw [hlen]
    omega
  · exact ⟨rfl, rfl⟩

theorem Cache_step_size_le {K V : Type} [DecidableEq K] (c c1 : Cache K V) (op : CacheOp K V)
    (h : c.size ≤ c.capacity) (hs : c.step op = some c1) : c1.size ≤ c1.capacity := by
  cases op with
  | put k v =>
    simp only [Cache.step, Cache.put, Option.map_eq_some'] at hs
    obtain ⟨d, hd, rfl⟩ := hs
    exact LRUMap_insert_size_le c.data_ d k v h hd
  | get k =>
    simp only [Cache.step, Option.some.injEq] at hs
    subst hs
    have := LRUMap_at_size c.data_ k
    simp only [Cache.size, Cache.capacity, Cache.get] at h ⊢
    omega
  | resize n =>
    simp only [Cache.step, Option.some.injEq] at hs
    subst hs
    exact LRUMap_recapacitate_size_le c.data_ n h

theorem Cache_run_size_le {K V : Type} [DecidableEq K] (ops : List (CacheOp K V))
    (c c1 : Cache K V) (h : c.size ≤ c.capacity) (hr : c.run ops = some c1) :
    c1.size ≤ c1.capacity := by
  induction ops generalizing c with
  | nil => simp only [Cache.run, Option.some.injEq] at hr; subst hr; exact h
  | cons op ops ih =>
    simp only [Cache.run] at hr
    split at hr
    · cases hr
    · rename_i c2 hc2
      exact ih c2 (Cache_step_size_le c c2 op h hc2) hr

theorem LRUSet_recapacitate_size_le {E : Type} [DecidableEq E] (s : LRUSet E) (n : Nat)
    (h : s.size ≤ s.capacity) : (s.recapacitate n).size ≤ (s.recapacitate n).capacity := by
  unfold LRUSet.recapacitate
  split
  · exact h
  · split
    · simp [LRUSet.size, LRUSet.capacity]
    · simpa [LRUSet.size, LRUSet.capacity, LRUSet.remove_over] using remove_overList_length_le _ _

theorem LRUSet_insert_size_le {E : Type} [DecidableEq E] (s s1 : LRUSet E) (k : E)
    (h : s.size ≤ s.capacity) (hi : s.insert k = some s1) : s1.size ≤ s1.capacity := by
  unfold LRUSet.insert at hi
  split at hi
  · cases hi
  · split at hi
    · split at hi
      · cases hi; exact h
      · cases hi
    · rename_i hc
      cases hi
      have := remove_overList_length_le s.values_ (s.capacity_ - 1)
      simp only [LRUSet.size, LRUSet.capacity, LRUSet.remove_over, List.length_append,
        List.length_singleton]
      omega

theorem LRUSet_exists_size {E : Type} [DecidableEq E] (s : LRUSet E) (k : E) :
    (s.exists_ k).2.size = s.size ∧ (s.exists_ k).2.capacity = s.capacity := by
  unfold LRUSet.exists_
  split
  · rename_i hf
    have hmem : k ∈ s.values_ := by
      by_contra hk
      rw [(LRUSet_found_eq_false_iff s k).2 hk] at hf
      cases hf
    have hlen : (s.values_.erase k).length = s.values_.length - 1 :=
      List.length_erase_of_mem hmem
    have : 0 < s.values_.length := List.length_pos_of_mem hmem
    refine ⟨?_, rfl⟩
    simp only [LRUSet.size, List.length_append, List.length_singleton]
    rw [hlen]
    omega
  · exact ⟨rfl, rfl⟩

theorem OrderedMapProtoCache_step_size_le {E : Type} [DecidableEq E]
    (c c1 : OrderedMapProtoCache E) (op : ProtoCacheOp E)
    (h : c.size ≤ c.capacity) (hs : c.step op = some c1) : c1.size ≤ c1.capacity := by
  cases op with
  | put k =>
    simp only [OrderedMapProtoCache.step, OrderedMapProtoCache.put, Option.map_eq_some'] at hs
    obtain ⟨d, hd, rfl⟩ := hs
    exact LRUSet_insert_size_le c.set_ d k h hd
  | contains k =>
    simp only [OrderedMapProtoCache.step, Option.some.injEq] at hs
    subst hs
    have := LRUSet_exists_size c.set_ k
    simp only [OrderedMapProtoCache.size, OrderedMapProtoCache.capacity,
      OrderedMapProtoCache.contains] at h ⊢
    omega
  | resize n =>
    simp only [OrderedMapProtoCache.step, Option.some.injEq] at hs
    subst hs
    exact LRUSet_recapacitate_size_le c.set_ n h

theorem OrderedMapProtoCache_run_size_le {E : Type} [DecidableEq E] (ops : List (ProtoCacheOp E))
    (c c1 : OrderedMapProtoCache E) (h : c.size ≤ c.capacity) (hr : c.run ops = some c1) :
    c1.size ≤ c1.capacity := by
  induction ops generalizing c with
  | nil => simp only [OrderedMapProtoCache.run, Option.some.injEq] at hr; subst hr; exact h
  | cons op ops ih =>
    simp only [OrderedMapProtoCache.run] at hr
    split at hr
    · cases hr
    · rename_i c2 hc2
      exact ih c2 (OrderedMapProtoCache_step_size_le c c2 op h hc2) hr

/-- C3. Starting from an empty cache of any capacity, after every sequence of `put` (of keys
not present, the `assert` of `insert`), `get` and `resize` calls on a `Cache` over `LRUMap`,
and after every sequence of `put`, `contains` and `resize` calls on an `OrderedMapProtoCache`
over `LRUSet`, `size() <= capacity()`. -/
theorem cache_size_never_exceeds_capacity (K V : Type) [DecidableEq K] (n : Nat) :
    (∀ (ops : List (CacheOp K V)) (c : Cache K V),
        (Cache.new n).run ops = some c → c.size ≤ c.capacity) ∧
    (∀ (ops : List (ProtoCacheOp K)) (p : OrderedMapProtoCache K),
        (OrderedMapProtoCache.new n).run ops = some p → p.size ≤ p.capacity) := by
  constructor
  · intro ops c hr
    exact Cache_run_size_le ops (Cache.new n) c (Nat.zero_le _) hr
  · intro ops p hr
    exact OrderedMapProtoCache_run_size_le ops (OrderedMapProtoCache.new n) p (Nat.zero_le _) hr

theorem cache_size_never_exceeds_capacity_witness :
    ((Cache.new 1 : Cache Nat Nat).run [.put 0 5, .put 1 6, .get 1, .resize 3, .put 2 7]
        = some ⟨⟨[(1, 6), (2, 7)], 3⟩⟩ ∧
      (⟨⟨[(1, 6), (2, 7)], 3⟩⟩ : Cache Nat Nat).size ≤ (⟨⟨[(1, 6), (2, 7)], 3⟩⟩ : Cache Nat Nat).capacity) ∧
    ((OrderedMapProtoCache.new 1 : OrderedMapProtoCache Nat).run [.put 0, .put 1, .contains 1]
        = some ⟨⟨[1], 1⟩⟩ ∧
      (⟨⟨[1], 1⟩⟩ : OrderedMapProtoCache Nat).size ≤ (⟨⟨[1], 1⟩⟩ : OrderedMapProtoCache Nat).capacity) :=
  ⟨⟨by decide, (cache_size_never_exceeds_capacity Nat Nat 1).1
      [.put 0 5, .put 1 6, .get 1, .resize 3, .put 2 7] ⟨⟨[(1, 6), (2, 7)], 3⟩⟩ (by decide)⟩,
   ⟨by decide, (cache_size_never_exceeds_capacity Nat Nat 1).2
      [.put 0, .put 1, .contains 1] ⟨⟨[1], 1⟩⟩ (by decide)⟩⟩

theorem Cache_put_of_not_found {K V : Type} [DecidableEq K] (c : Cache K V) (k : K) (v : V)
    (h : c.size ≤ c.capacity) (hk : c.data_.found k = false) :
    ∃ c1, c.put k v = some c1 ∧
      (0 < c.capacity → c1.data_.values_ =
          remove_overList c.data_.values_ (c.data_.capacity_ - 1) ++ [(k, v)] ∧
          c1.data_.capacity_ = c.data_.capacity_) ∧
      (c.capacity = 0 → c1 = c ∧ c.data_.values_ = []) := by
  simp only [Cache.size, Cache.capacity, LRUMap.size, LRUMap.capacity] at h ⊢
  by_cases hc : c.data_.capacity_ = 0
  · have hnil : c.data_.values_ = [] := List.length_eq_zero.1 (by omega)
    refine ⟨c, ?_, ?_, ?_⟩
    · simp [Cache.put, LRUMap.insert, hk, hc, hnil]
    · intro h0; omega
    · intro _; exact ⟨rfl, hnil⟩
  · refine ⟨⟨{ values_ := remove_overList c.data_.values_ (c.data_.capacity_ - 1) ++ [(k, v)],
                capacity_ := c.data_.capacity_ }⟩, ?_, ?_, ?_⟩
    · simp [Cache.put, LRUMap.insert, LRUMap.remove_over, hk, hc]
    · intro _; exact ⟨rfl, rfl⟩
    · intro h0; exact absurd h0 hc

theorem Cache_get_fst {K V : Type} [DecidableEq K] (c : Cache K V) (k : K) :
    (c.get k).1 = (c.data_.values_.find? fun e => decide (e.1 = k)).map Prod.snd := by
  simp only [Cache.get, LRUMap.at_]
  split <;> rename_i h <;> simp [h]

/-- C5. In every state reached from an empty cache, `put(k, v)` of a key that is not present
succeeds; when `capacity > 0` the next `get(k)` returns `v`; when `capacity = 0` the `put` is a
no-op, the cache is (still) empty and `get(k)` returns none. -/
theorem put_then_get (K V : Type) [DecidableEq K] (n : Nat) (ops : List (CacheOp K V))
    (c : Cache K V) (k : K) (v : V)
    (hr : (Cache.new n).run ops = some c) (hk : c.data_.found k = false) :
    ∃ c1, c.put k v = some c1 ∧
      (0 < c.capacity → (c1.get k).1 = some v) ∧
      (c.capacity = 0 → c1 = c ∧ c1.size = 0 ∧ (c1.get k).1 = none) := by
  have hsz := Cache_run_size_le ops (Cache.new n) c (Nat.zero_le _) hr
  obtain ⟨c1, hput, hpos, hzero⟩ := Cache_put_of_not_found c k v hsz hk
  refine ⟨c1, hput, ?_, ?_⟩
  · intro h0
    obtain ⟨hv, _⟩ := hpos h0
    rw [Cache_get_fst, hv, find_key_append_last]
    · rfl
    · intro e he
      exact (LRUMap_found_eq_false_iff c.data_ k).1 hk e
        ((remove_overList_sublist _ _).subset he)
  · intro h0
    obtain ⟨hc, hnil⟩ := hzero h0
    subst hc
    refine ⟨rfl, ?_, ?_⟩
    · simp [Cache.size, LRUMap.size, hnil]
    · rw [Cache_get_fst, hnil]; rfl

theorem put_then_get_witness :
    ∃ c1, (⟨⟨[(0, 5)], 1⟩⟩ : Cache Nat Nat).put 7 9 = some c1 ∧
      (0 < (⟨⟨[(0, 5)], 1⟩⟩ : Cache Nat Nat).capacity → (c1.get 7).1 = some 9) ∧
      ((⟨⟨[(0, 5)], 1⟩⟩ : Cache Nat Nat).capacity = 0 →
        c1 = ⟨⟨[(0, 5)], 1⟩⟩ ∧ c1.size = 0 ∧ (c1.get 7).1 = none) :=
  put_then_get Nat Nat 1 [.put 0 5] ⟨⟨[(0, 5)], 1⟩⟩ 7 9 (by decide) (by decide)

theorem keys_nodup_of_stamp_pairwise {K V : Type} (stamp : K → Nat) (l : List (K × V))
    (h : List.Pairwise (fun a b => stamp a.1 < stamp b.1) l) : (l.map Prod.fst).Nodup := by
  rw [List.Nodup, List.pairwise_map]
  exact h.imp fun {a b} hab heq => by rw [heq] at hab; exact Nat.lt_irrefl _ hab

theorem eraseP_key_ne {K V : Type} [DecidableEq K] (l : List (K × V)) (k : K)
    (hnd : (l.map Prod.fst).Nodup) :
    ∀ x ∈ l.eraseP (fun e => decide (e.1 = k)), x.1 ≠ k := by
  induction l with
  | nil => intro x hx; cases hx
  | cons y ys ih =>
    simp only [List.map_cons, List.nodup_cons] at hnd
    intro x hx
    by_cases hy : y.1 = k
    · rw [List.eraseP_cons_of_pos (by simpa using hy)] at hx
      intro hxk
      exact hnd.1 (by rw [hy, ← hxk]; exact List.mem_map_of_mem Prod.fst hx)
    · rw [List.eraseP_cons_of_neg (by simpa using hy)] at hx
      rcases List.mem_cons.1 hx with h | h
      · rw [h]; exact hy
      · exact ih hnd.2 x h

theorem stampOf_cons {K : Type} [DecidableEq K] (k : K) (t : Nat) (l : List (K × Nat)) (j : K) :
    stampOf ((k, t) :: l) j = if j = k then t else stampOf l j := rfl

theorem StampedCache_touch_ordered {K V : Type} [DecidableEq K] (s : StampedCache K V)
    (old : List (K × V)) (k : K) (e0 : K × V) (cap : Nat)
    (hk : e0.1 = k) (hsub : old.Sublist s.cache.data_.values_) (hne : ∀ e ∈ old, e.1 ≠ k)
    (hlen : old.length + 1 ≤ cap) (h : s.Ordered) :
    StampedCache.Ordered
      ⟨⟨⟨old ++ [e0], cap⟩⟩, s.clock + 1, (k, s.clock + 1) :: s.stamps⟩ := by
  obtain ⟨_, hpw, hck⟩ := h
  refine ⟨?_, ?_, ?_⟩
  · show (old ++ [e0]).length ≤ cap
    rw [List.length_append, List.length_singleton]; exact hlen
  · show List.Pairwise _ (old ++ [e0])
    rw [List.pairwise_append]
    refine ⟨?_, List.pairwise_singleton _ _, ?_⟩
    · refine (hpw.sublist hsub).imp_of_mem ?_
      intro a b ha hb hab
      show stampOf ((k, s.clock + 1) :: s.stamps) a.1 < stampOf ((k, s.clock + 1) :: s.stamps) b.1
      rw [stampOf_cons, stampOf_cons, if_neg (hne a ha), if_neg (hne b hb)]
      exact hab
    · intro a ha b hb
      rw [List.mem_singleton] at hb
      subst hb
      show stampOf ((k, s.clock + 1) :: s.stamps) a.1 < stampOf ((k, s.clock + 1) :: s.stamps) b.1
      rw [stampOf_cons, stampOf_cons, if_neg (hne a ha), if_pos hk]
      exact Nat.lt_succ_of_le (hck a (hsub.subset ha))
  · intro e he
    show stampOf ((k, s.clock + 1) :: s.stamps) e.1 ≤ s.clock + 1
    rw [stampOf_cons]
    have he1 : e ∈ old ++ [e0] := he
    rw [List.mem_append, List.mem_singleton] at he1
    rcases he1 with he1 | he1
    · rw [if_neg (hne e he1)]
      exact Nat.le_succ_of_le (hck e (hsub.subset he1))
    · subst he1; rw [if_pos hk]

theorem StampedCache_step_ordered {K V : Type} [DecidableEq K] (s s1 : StampedCache K V)
    (op : CacheOp K V) (h : s.Ordered) (hs : s.step op = some s1) : s1.Ordered := by
  have h0 := h
  obtain ⟨hsz, hpw, hck⟩ := h
  cases op with
  | put k v =>
    simp only [StampedCache.step, Option.map_eq_some'] at hs
    obtain ⟨c1, hput, rfl⟩ := hs
    have hk : s.cache.data_.found k = false := by
      by_contra hf
      simp only [Cache.put, LRUMap.insert, Bool.not_eq_false] at hput hf
      simp [hf] at hput
    obtain ⟨c2, hput2, hpos, hzero⟩ := Cache_put_of_not_found s.cache k v hsz hk
    rw [hput] at hput2
    cases hput2
    by_cases hc : s.cache.data_.capacity_ = 0
    · obtain ⟨hc1, hnil⟩ := hzero hc
      subst hc1
      refine ⟨hsz, ?_, ?_⟩
      · show List.Pairwise _ s.cache.data_.values_
        rw [hnil]; exact List.Pairwise.nil
      · intro e he
        have he1 : e ∈ s.cache.data_.values_ := he
        rw [hnil] at he1; cases he1
    · obtain ⟨hv, hcap⟩ := hpos (Nat.pos_of_ne_zero hc)
      have hsub := remove_overList_sublist s.cache.data_.values_ (s.cache.data_.capacity_ - 1)
      have hlen := remove_overList_length_le s.cache.data_.values_ (s.cache.data_.capacity_ - 1)
      have hne : ∀ e ∈ remove_overList s.cache.data_.values_ (s.cache.data_.capacity_ - 1),
          e.1 ≠ k := fun e he =>
        (LRUMap_found_eq_false_iff s.cache.data_ k).1 hk e (hsub.subset he)
      have hc1 : c1 = ⟨⟨remove_overList s.cache.data_.values_ (s.cache.data_.capacity_ - 1) ++
          [(k, v)], s.cache.data_.capacity_⟩⟩ := by
        cases c1 with
        | mk d => cases d with
          | mk vals cap => simp only at hv hcap; rw [hv, hcap]
      rw [hc1]
      exact StampedCache_touch_ordered s _ k (k, v) _ rfl hsub hne (by omega) h0
  | get k =>
    simp only [StampedCache.step, Option.some.injEq] at hs
    subst hs
    have hnd := keys_nodup_of_stamp_pairwise s.stamp _ hpw
    cases hfind : s.cache.data_.values_.find? (fun e => decide (e.1 = k)) with
    | none =>
      have hget : s.cache.get k = (none, s.cache) := by
        simp [Cache.get, LRUMap.at_, hfind]
      simp only [hget, Option.isSome_none, Bool.false_eq_true, if_false]
      exact ⟨hsz, hpw, fun e he => Nat.le_succ_of_le (hck e he)⟩
    | some e0 =>
      have hmem := List.mem_of_find?_eq_some hfind
      have hp : e0.1 = k := by simpa using List.find?_some hfind
      have hget : s.cache.get k = (some e0.2,
          ⟨⟨(s.cache.data_.values_.eraseP fun e => decide (e.1 = k)) ++ [e0],
            s.cache.data_.capacity_⟩⟩) := by
        simp [Cache.get, LRUMap.at_, hfind]
      have hsub : (s.cache.data_.values_.eraseP fun e => decide (e.1 = k)).Sublist
          s.cache.data_.values_ := List.eraseP_sublist _
      have hne := eraseP_key_ne s.cache.data_.values_ k hnd
      have hlen : (s.cache.data_.values_.eraseP fun e => decide (e.1 = k)).length =
          s.cache.data_.values_.length - 1 := List.length_eraseP_of_mem hmem (by simpa using hp)
      have hpos : 0 < s.cache.data_.values_.length := List.length_pos_of_mem hmem
      simp only [hget, Option.isSome_some, if_true]
      exact StampedCache_touch_ordered s _ k e0 _ hp hsub hne (by omega) h0
  | resize n =>
    simp only [StampedCache.step, Option.some.injEq] at hs
    subst hs
    simp only [StampedCache.Ordered, Cache.resize, LRUMap.recapacitate]
    split
    · exact ⟨hsz, hpw, fun e he => Nat.le_succ_of_le (hck e he)⟩
    · split
      · exact ⟨Nat.zero_le _, List.Pairwise.nil, fun e he => by cases he⟩
      · have hsub := remove_overList_sublist s.cache.data_.values_ n
        refine ⟨?_, ?_, ?_⟩
        · simpa [LRUMap.remove_over] using remove_overList_length_le s.cache.data_.values_ n
        · simpa [LRUMap.remove_over] using hpw.sublist hsub
        · intro e he
          simp only [LRUMap.remove_over] at he
          exact Nat.le_succ_of_le (hck e (hsub.subset he))

theorem StampedCache_run_ordered {K V : Type} [DecidableEq K] (ops : List (CacheOp K V))
    (s s1 : StampedCache K V) (h : s.Ordered) (hr : s.run ops = some s1) : s1.Ordered := by
  induction ops generalizing s with
  | nil => simp only [StampedCache.run, Option.some.injEq] at hr; subst hr; exact h
  | cons op ops ih =>
    simp only [StampedCache.run] at hr
    split at hr
    · cases hr
    · rename_i s2 hs2
      exact ih s2 (StampedCache_step_ordered s s2 op h hs2) hr

/-- The stamps are bookkeeping only: the cache of a stamped run is the cache of the plain run. -/
theorem StampedCache_run_cache {K V : Type} [DecidableEq K] (ops : List (CacheOp K V))
    (s : StampedCache K V) : (s.run ops).map (fun t => t.cache) = s.cache.run ops := by
  induction ops generalizing s with
  | nil => rfl
  | cons op ops ih =>
    simp only [StampedCache.run, Cache.run]
    cases op with
    | put k v =>
      simp only [StampedCache.step, Cache.step]
      cases hput : s.cache.put k v with
      | none => rfl
      | some c1 => simpa using ih _
    | get k => simpa [StampedCache.step, Cache.step] using ih _
    | resize n => simpa [StampedCache.step, Cache.step] using ih _

/-- C4. Eviction is least-recently-used.  In every state reached from an empty cache, when the
cache is full (`size = capacity > 0`) and does not hold `k`, `put(k, v)` removes exactly the
front entry `victim`, whose last `put` or successful `get` is older than that of every other
entry (`stamp`), and keeps every other entry: afterwards `get(victim)` misses, every other
entry is returned with its value, and `get(k)` returns `v`.  With capacity 2: after
`put A, B, C`, `get(A)` misses and `get(B)`, `get(C)` hit; after `get(B); put(D)`, `get(C)`
misses and `get(B)`, `get(D)` hit. -/
theorem eviction_is_least_recently_used (K V : Type) [DecidableEq K] :
    (∀ (n : Nat) (ops : List (CacheOp K V)) (s : StampedCache K V) (k : K) (v : V),
      StampedCache.run ⟨Cache.new n, 0, []⟩ ops = some s →
      s.cache.size = s.cache.capacity → 0 < s.cache.capacity →
      s.cache.data_.found k = false →
      ∃ victim rest c1,
        s.cache.data_.values_ = victim :: rest ∧
        s.cache.put k v = some c1 ∧
        c1.data_.values_ = rest ++ [(k, v)] ∧
        (∀ e ∈ rest, s.stamp victim.1 < s.stamp e.1) ∧
        (c1.get victim.1).1 = none ∧
        (∀ e ∈ rest, (c1.get e.1).1 = some e.2) ∧
        (c1.get k).1 = some v) ∧
    (Cache.new 2 : Cache Nat Nat).runGets
        [.put 0 10, .put 1 11, .put 2 12, .get 0, .get 1, .get 2,
         .get 1, .put 3 13, .get 2, .get 1, .get 3]
      = some [none, some 11, some 12, some 11, none, some 11, some 13] := by
  refine ⟨?_, by decide⟩
  intro n ops s k v hr hfull hpos hk
  have hord : s.Ordered :=
    StampedCache_run_ordered ops ⟨Cache.new n, 0, []⟩ s
      ⟨Nat.zero_le _, List.Pairwise.nil, fun e he => by cases he⟩ hr
  obtain ⟨hsz, hpw, hck⟩ := hord
  obtain ⟨c1, hput, hp, _⟩ := Cache_put_of_not_found s.cache k v hsz hk
  obtain ⟨hv, hcap⟩ := hp hpos
  simp only [Cache.size, Cache.capacity, LRUMap.size, LRUMap.capacity] at hfull hpos
  cases hvals : s.cache.data_.values_ with
  | nil => rw [hvals] at hfull; simp at hfull; omega
  | cons victim rest =>
    have hrem : remove_overList s.cache.data_.values_ (s.cache.data_.capacity_ - 1) = rest := by
      rw [← hfull, hvals]; exact remove_overList_cons_full victim rest
    rw [hrem] at hv
    rw [hvals] at hpw
    have hpw2 := List.pairwise_cons.1 hpw
    have hnd := keys_nodup_of_stamp_pairwise s.stamp _ hpw
    have hkne : ∀ e ∈ victim :: rest, e.1 ≠ k := fun e he =>
      (LRUMap_found_eq_false_iff s.cache.data_ k).1 hk e (hvals ▸ he)
    have hnd1 : ((rest ++ [(k, v)]).map Prod.fst).Nodup := by
      simp only [List.map_cons, List.nodup_cons] at hnd
      rw [List.map_append, List.nodup_append]
      refine ⟨hnd.2, by simp, ?_⟩
      intro a ha hb
      simp only [List.map_cons, List.map_nil, List.mem_singleton] at hb
      obtain ⟨e, he, rfl⟩ := List.mem_map.1 ha
      exact hkne e (List.mem_cons_of_mem _ he) hb
    refine ⟨victim, rest, c1, rfl, hput, hv, fun e he => hpw2.1 e he, ?_, ?_, ?_⟩
    · rw [Cache_get_fst, hv, find_key_none]
      · rfl
      · intro e he
        rw [List.mem_append, List.mem_singleton] at he
        rcases he with he | he
        · intro heq
          have := hpw2.1 e he
          rw [heq] at this
          exact Nat.lt_irrefl _ this
        · subst he
          exact fun heq => hkne victim (List.mem_cons_self _ _) heq.symm
    · intro e he
      rw [Cache_get_fst, hv, find_key_of_mem _ hnd1 e (List.mem_append_left _ he)]
      rfl
    · rw [Cache_get_fst, hv, find_key_append_last]
      · rfl
      · exact fun e he => hkne e (List.mem_cons_of_mem _ he)

theorem eviction_is_least_recently_used_witness :
    ∃ victim rest c1,
      (⟨⟨⟨[(1, 11), (0, 10)], 2⟩⟩, 3, [(0, 3), (1, 2), (0, 1)]⟩ :
          StampedCache Nat Nat).cache.data_.values_ = victim :: rest ∧
      (⟨⟨[(1, 11), (0, 10)], 2⟩⟩ : Cache Nat Nat).put 2 12 = some c1 ∧
      c1.data_.values_ = rest ++ [(2, 12)] ∧
      (∀ e ∈ rest, stampOf [(0, 3), (1, 2), (0, 1)] victim.1 <
        stampOf [(0, 3), (1, 2), (0, 1)] e.1) ∧
      (c1.get victim.1).1 = none ∧
      (∀ e ∈ rest, (c1.get e.1).1 = some e.2) ∧
      (c1.get 2).1 = some 12 :=
  (eviction_is_least_recently_used Nat Nat).1 2 [.put 0 10, .put 1 11, .get 0]
    ⟨⟨⟨[(1, 11), (0, 10)], 2⟩⟩, 3, [(0, 3), (1, 2), (0, 1)]⟩ 2 12
    (by decide) (by decide) (by decide) (by decide)

end ImageGraph


namespace ImageGraph

/-! ## The generalized Hilbert curve -/

theorem abs_u_eq_natAbs (v : Int) : abs_u v = v.natAbs := by
  unfold abs_u; split <;> omega

theorem sign_cases (v : Int) :
    (0 < v ∧ sign v = 1) ∨ (v = 0 ∧ sign v = 0) ∨ (v < 0 ∧ sign v = -1) := by
  unfold sign
  rcases lt_trichotomy v 0 with h | h | h
  · right; right; refine ⟨h, ?_⟩; rw [if_neg (by omega), if_pos h]; rfl
  · right; left; refine ⟨h, ?_⟩; rw [if_neg (by omega), if_neg (by omega)]; rfl
  · left; refine ⟨h, ?_⟩; rw [if_pos h, if_neg (by omega)]; rfl

theorem tdiv_two_cases (v : Int) :
    (0 ≤ v ∧ Int.tdiv v 2 = v / 2) ∨ (v < 0 ∧ Int.tdiv v 2 = -((-v) / 2)) := by
  rcases le_or_lt 0 v with h | h
  · left; exact ⟨h, Int.tdiv_eq_ediv h (by decide)⟩
  · right; refine ⟨h, ?_⟩
    have h1 : Int.tdiv (-(-v)) 2 = -Int.tdiv (-v) 2 := Int.neg_tdiv (-v) 2
    rw [neg_neg] at h1
    rw [h1, Int.tdiv_eq_ediv (by omega) (by decide)]

theorem lineFill_mem_x (x y : Int) (k : Int) (p : Point) :
    p ∈ lineFill true x y (abs_u k) (sign k) ↔ inSpan (p.1 - x) k ∧ p.2 = y := by
  rw [abs_u_eq_natAbs]
  simp only [lineFill, List.mem_map, List.mem_range, if_true, inSpan]
  rcases sign_cases k with ⟨hk, hs⟩ | ⟨hk, hs⟩ | ⟨hk, hs⟩ <;> rw [hs]
  · constructor
    · rintro ⟨i, hi, rfl⟩; exact ⟨by simp only; omega, rfl⟩
    · rintro ⟨h1, h2⟩
      refine ⟨(p.1 - x).toNat, by omega, ?_⟩
      apply Prod.ext <;> simp only <;> omega
  · constructor
    · rintro ⟨i, hi, rfl⟩; exact ⟨by simp only; omega, rfl⟩
    · rintro ⟨h1, h2⟩; omega
  · constructor
    · rintro ⟨i, hi, rfl⟩; exact ⟨by simp only; omega, rfl⟩
    · rintro ⟨h1, h2⟩
      refine ⟨(x - p.1).toNat, by omega, ?_⟩
      apply Prod.ext <;> simp only <;> omega

theorem lineFill_mem_y (x y : Int) (k : Int) (p : Point) :
    p ∈ lineFill false x y (abs_u k) (sign k) ↔ inSpan (p.2 - y) k ∧ p.1 = x := by
  rw [abs_u_eq_natAbs]
  simp only [lineFill, List.mem_map, List.mem_range, Bool.false_eq_true, if_false, inSpan]
  rcases sign_cases k with ⟨hk, hs⟩ | ⟨hk, hs⟩ | ⟨hk, hs⟩ <;> rw [hs]
  · constructor
    · rintro ⟨i, hi, rfl⟩; exact ⟨by simp only; omega, rfl⟩
    · rintro ⟨h1, h2⟩
      refine ⟨(p.2 - y).toNat, by omega, ?_⟩
      apply Prod.ext <;> simp only <;> omega
  · constructor
    · rintro ⟨i, hi, rfl⟩; exact ⟨by simp only; omega, rfl⟩
    · rintro ⟨h1, h2⟩; omega
  · constructor
    · rintro ⟨i, hi, rfl⟩; exact ⟨by simp only; omega, rfl⟩
    · rintro ⟨h1, h2⟩
      refine ⟨(y - p.2).toNat, by omega, ?_⟩
      apply Prod.ext <;> simp only <;> omega

theorem lineFill_nodup (alongX : Bool) (x y : Int) (dim : Nat) (step : Int) (hs : step ≠ 0) :
    (lineFill alongX x y dim step).Nodup := by
  unfold lineFill
  refine List.Nodup.map_on ?_ (List.nodup_range dim)
  intro i _ j _ hij
  have key : (i : Int) * step = (j : Int) * step := by
    cases alongX
    · simp only [Bool.false_eq_true, if_false, Prod.mk.injEq, true_and] at hij; omega
    · simp only [if_true, Prod.mk.injEq, and_true] at hij; omega
  have := mul_right_cancel₀ hs key
  exact_mod_cast this

theorem nodup_append_of_boxes {a b : List Point} {A B : Point → Prop}
    (ha : a.Nodup) (hb : b.Nodup) (hA : ∀ p, p ∈ a ↔ A p) (hB : ∀ p, p ∈ b ↔ B p)
    (hdis : ∀ p, A p → B p → False) : (a ++ b).Nodup := by
  rw [List.nodup_append]
  refine ⟨ha, hb, ?_⟩
  intro p hpa hpb
  exact hdis p ((hA p).1 hpa) ((hB p).1 hpb)

/-- `a` has the sign of `v` and is strictly smaller in absolute value. -/
theorem half_proper (v V2 : Int) (hv : 2 ≤ v.natAbs)
    (hd : (0 ≤ v ∧ V2 = v / 2) ∨ (v < 0 ∧ V2 = -((-v) / 2))) :
    (0 < v ∧ 0 < V2 ∧ V2 < v) ∨ (v < 0 ∧ v < V2 ∧ V2 < 0) := by
  omega

theorem half_adjusted_proper (v s V2 A : Int) (hv : 2 ≤ v.natAbs)
    (hs : (0 < v ∧ s = 1) ∨ (v = 0 ∧ s = 0) ∨ (v < 0 ∧ s = -1))
    (hd : (0 ≤ v ∧ V2 = v / 2) ∨ (v < 0 ∧ V2 = -((-v) / 2)))
    (hA : (V2.natAbs % 2 ≠ 0 ∧ v.natAbs > 2 ∧ A = V2 + s) ∨
          (¬ (V2.natAbs % 2 ≠ 0 ∧ v.natAbs > 2) ∧ A = V2)) :
    (0 < v ∧ 0 < A ∧ A < v) ∨ (v < 0 ∧ v < A ∧ A < 0) := by
  omega

theorem sign_proper (v s : Int) (hv : v ≠ 0)
    (hs : (0 < v ∧ s = 1) ∨ (v = 0 ∧ s = 0) ∨ (v < 0 ∧ s = -1)) :
    (0 < v ∧ s = 1) ∨ (v < 0 ∧ s = -1) := by
  omega

/-- The curve of `gilbert2d_inner` over non-zero extents: with fuel for the extents it ends,
and it passes every point of the rectangle exactly once. -/
theorem gilbert2d_inner_spec (fuel : Nat) :
    ∀ (dir : Direction) (x y major minor : Int), major ≠ 0 → minor ≠ 0 →
      major.natAbs + minor.natAbs ≤ fuel →
      ∃ l, gilbert2d_inner fuel dir x y major minor = some l ∧ l.Nodup ∧
        ∀ p, p ∈ l ↔ inBox dir x y major minor p := by
  induction fuel with
  | zero => intro dir x y major minor hM hm hf; omega
  | succ fuel ih =>
    intro dir x y major minor hM hm hf
    rw [gilbert2d_inner]
    simp only [abs_u_eq_natAbs]
    by_cases h1 : minor.natAbs = 1
    · rw [if_pos h1]
      refine ⟨_, rfl, lineFill_nodup _ _ _ _ _ (by rcases sign_cases major with h | h | h <;> omega), ?_⟩
      intro p
      rw [← abs_u_eq_natAbs]
      cases dir
      · simp only [decide_True, lineFill_mem_x, inBox, inSpan]; omega
      · simp only [reduceCtorEq, decide_False, lineFill_mem_y, inBox, inSpan]; omega
    rw [if_neg h1]
    by_cases h2 : major.natAbs = 1
    · rw [if_pos h2]
      refine ⟨_, rfl, lineFill_nodup _ _ _ _ _ (by rcases sign_cases minor with h | h | h <;> omega), ?_⟩
      intro p
      rw [← abs_u_eq_natAbs]
      cases dir
      · simp only [reduceCtorEq, decide_False, lineFill_mem_y, inBox, inSpan]; omega
      · simp only [decide_True, lineFill_mem_x, inBox, inSpan]; omega
    rw [if_neg h2]
    have hM2 : 2 ≤ major.natAbs := by omega
    have hm2 : 2 ≤ minor.natAbs := by omega
    have hsM := sign_cases major
    have hsm := sign_cases minor
    have hdM := tdiv_two_cases major
    have hdm := tdiv_two_cases minor
    generalize sign major = sM at hsM ⊢
    generalize sign minor = sm at hsm ⊢
    generalize Int.tdiv major 2 = M2 at hdM ⊢
    generalize Int.tdiv minor 2 = m2 at hdm ⊢
    have hsM1 := sign_proper major sM hM hsM
    have hsm1 := sign_proper minor sm hm hsm
    have hM2p := half_proper major M2 hM2 hdM
    by_cases h3 : 2 * major.natAbs > 3 * minor.natAbs
    · rw [if_pos h3]
      try simp only []
      generalize hA : (if M2.natAbs % 2 ≠ 0 ∧ major.natAbs > 2 then M2 + sM else M2) = A
      have hA1 : (M2.natAbs % 2 ≠ 0 ∧ major.natAbs > 2 ∧ A = M2 + sM) ∨
          (¬ (M2.natAbs % 2 ≠ 0 ∧ major.natAbs > 2) ∧ A = M2) := by
        by_cases hc : M2.natAbs % 2 ≠ 0 ∧ major.natAbs > 2
        · rw [if_pos hc] at hA; exact Or.inl ⟨hc.1, hc.2, hA.symm⟩
        · rw [if_neg hc] at hA; exact Or.inr ⟨hc, hA.symm⟩
      have hAp := half_adjusted_proper major sM M2 A hM2 hsM hdM hA1
      clear hA hA1 hdM hdm hsM hsm hM2p h1 h2 h3 hM2 hm2
      obtain ⟨a, hae, hand, hamem⟩ := ih dir x y A minor (by omega) hm (by omega)
      rw [hae]
      try simp only []
      obtain ⟨b, hbe, hbnd, hbmem⟩ := ih dir (if dir = Direction.X then x + A else x)
        (if dir = Direction.X then y else y + A) (major - A) minor (by omega) hm (by omega)
      rw [hbe]
      try simp only []
      clear hae hbe ih hf
      refine ⟨_, rfl, nodup_append_of_boxes hand hbnd hamem hbmem ?_, ?_⟩
      · intro p
        rcases hsM1 with ⟨hM0, rfl⟩ | ⟨hM0, rfl⟩ <;> rcases hsm1 with ⟨hm0, rfl⟩ | ⟨hm0, rfl⟩ <;>
          cases dir <;> simp only [inBox, inSpan, if_true, reduceCtorEq, if_false] <;> omega
      · intro p
        rw [List.mem_append, hamem, hbmem]
        rcases hsM1 with ⟨hM0, rfl⟩ | ⟨hM0, rfl⟩ <;> rcases hsm1 with ⟨hm0, rfl⟩ | ⟨hm0, rfl⟩ <;>
          cases dir <;> simp only [inBox, inSpan, if_true, reduceCtorEq, if_false] <;> omega
    · rw [if_neg h3]
      try simp only []
      generalize hA : (if m2.natAbs % 2 ≠ 0 ∧ minor.natAbs > 2 then m2 + sm else m2) = A
      have hA1 : (m2.natAbs % 2 ≠ 0 ∧ minor.natAbs > 2 ∧ A = m2 + sm) ∨
          (¬ (m2.natAbs % 2 ≠ 0 ∧ minor.natAbs > 2) ∧ A = m2) := by
        by_cases hc : m2.natAbs % 2 ≠ 0 ∧ minor.natAbs > 2
        · rw [if_pos hc] at hA; exact Or.inl ⟨hc.1, hc.2, hA.symm⟩
        · rw [if_neg hc] at hA; exact Or.inr ⟨hc, hA.symm⟩
      have hAp := half_adjusted_proper minor sm m2 A hm2 hsm hdm hA1
      clear hA hA1 hdM hdm hsM hsm h1 h2 h3 hM2 hm2
      obtain ⟨a, hae, hand, hamem⟩ := ih dir.flip x y A M2 (by omega) (by omega) (by omega)
      rw [hae]
      try simp only []
      obtain ⟨b, hbe, hbnd, hbmem⟩ := ih dir (if dir = Direction.X then x else x + A)
        (if dir = Direction.X then y + A else y) major (minor - A) hM (by omega) (by omega)
      rw [hbe]
      try simp only []
      obtain ⟨c, hce, hcnd, hcmem⟩ := ih dir.flip
        (if dir = Direction.X then (if dir = Direction.X then x else x + A) + (major - sM)
          else (if dir = Direction.X then x else x + A) - sm)
        (if dir = Direction.X then (if dir = Direction.X then y + A else y) - sm
          else (if dir = Direction.X then y + A else y) + (major - sM))
        (-A) (M2 - major) (by omega) (by omega) (by omega)
      rw [hce]
      try simp only []
      clear hae hbe hce ih hf
      have hab : (a ++ b).Nodup := by
        refine nodup_append_of_boxes hand hbnd hamem hbmem ?_
        intro p
        rcases hsM1 with ⟨hM0, rfl⟩ | ⟨hM0, rfl⟩ <;> rcases hsm1 with ⟨hm0, rfl⟩ | ⟨hm0, rfl⟩ <;>
          cases dir <;>
          simp only [inBox, inSpan, Direction.flip, if_true, reduceCtorEq, if_false] <;> omega
      have habmem : ∀ p, p ∈ a ++ b ↔
          (inBox dir.flip x y A M2 p ∨ inBox dir (if dir = Direction.X then x else x + A)
            (if dir = Direction.X then y + A else y) major (minor - A) p) := by
        intro p; rw [List.mem_append, hamem, hbmem]
      refine ⟨_, rfl, nodup_append_of_boxes hab hcnd habmem hcmem ?_, ?_⟩
      · intro p
        rcases hsM1 with ⟨hM0, rfl⟩ | ⟨hM0, rfl⟩ <;> rcases hsm1 with ⟨hm0, rfl⟩ | ⟨hm0, rfl⟩ <;>
          cases dir <;>
          simp only [inBox, inSpan, Direction.flip, if_true, reduceCtorEq, if_false] <;> omega
      · intro p
        rw [List.mem_append, habmem, hcmem]
        rcases hsM1 with ⟨hM0, rfl⟩ | ⟨hM0, rfl⟩ <;> rcases hsm1 with ⟨hm0, rfl⟩ | ⟨hm0, rfl⟩ <;>
          cases dir <;>
          simp only [inBox, inSpan, Direction.flip, if_true, reduceCtorEq, if_false] <;> omega

/-- More fuel does not change a result of `gilbert2d_inner`. -/
theorem gilbert2d_inner_fuel_succ (fuel : Nat) :
    ∀ (dir : Direction) (x y major minor : Int) (l : List Point),
      gilbert2d_inner fuel dir x y major minor = some l →
      gilbert2d_inner (fuel + 1) dir x y major minor = some l := by
  induction fuel with
  | zero => intro dir x y major minor l h; simp [gilbert2d_inner] at h
  | succ n ih =>
    intro dir x y major minor l h
    rw [gilbert2d_inner] at h ⊢
    by_cases h1 : abs_u minor = 1
    · rw [if_pos h1] at h ⊢; exact h
    rw [if_neg h1] at h ⊢
    by_cases h2 : abs_u major = 1
    · rw [if_pos h2] at h ⊢; exact h
    rw [if_neg h2] at h ⊢
    by_cases h3 : 2 * abs_u major > 3 * abs_u minor
    · rw [if_pos h3] at h ⊢
      simp only [] at h ⊢
      generalize (if (Int.tdiv major 2).natAbs % 2 ≠ 0 ∧ abs_u major > 2
        then Int.tdiv major 2 + sign major else Int.tdiv major 2) = A at h ⊢
      cases ha : gilbert2d_inner n dir x y A minor with
      | none => rw [ha] at h; cases h
      | some a =>
        rw [ha] at h
        rw [ih _ _ _ _ _ _ ha]
        simp only [] at h ⊢
        cases hb : gilbert2d_inner n dir (if dir = Direction.X then x + A else x)
            (if dir = Direction.X then y else y + A) (major - A) minor with
        | none => rw [hb] at h; cases h
        | some b =>
          rw [hb] at h
          rw [ih _ _ _ _ _ _ hb]
          exact h
    · rw [if_neg h3] at h ⊢
      simp only [] at h ⊢
      generalize (if (Int.tdiv minor 2).natAbs % 2 ≠ 0 ∧ abs_u minor > 2
        then Int.tdiv minor 2 + sign minor else Int.tdiv minor 2) = A at h ⊢
      cases ha : gilbert2d_inner n dir.flip x y A (Int.tdiv major 2) with
      | none => rw [ha] at h; cases h
      | some a =>
        rw [ha] at h
        rw [ih _ _ _ _ _ _ ha]
        simp only [] at h ⊢
        cases hb : gilbert2d_inner n dir (if dir = Direction.X then x else x + A)
            (if dir = Direction.X then y + A else y) major (minor - A) with
        | none => rw [hb] at h; cases h
        | some b =>
          rw [hb] at h
          rw [ih _ _ _ _ _ _ hb]
          simp only [] at h ⊢
          cases hc : gilbert2d_inner n dir.flip
              (if dir = Direction.X then (if dir = Direction.X then x else x + A) + (major - sign major)
                else (if dir = Direction.X then x else x + A) - sign minor)
              (if dir = Direction.X then (if dir = Direction.X then y + A else y) - sign minor
                else (if dir = Direction.X then y + A else y) + (major - sign major))
              (-A) (Int.tdiv major 2 - major) with
          | none => rw [hc] at h; cases h
          | some c =>
            rw [hc] at h
            rw [ih _ _ _ _ _ _ hc]
            exact h

theorem gilbert2d_inner_fuel_mono (fuel extra : Nat) (dir : Direction) (x y major minor : Int)
    (l : List Point) (h : gilbert2d_inner fuel dir x y major minor = some l) :
    gilbert2d_inner (fuel + extra) dir x y major minor = some l := by
  induction extra with
  | zero => exact h
  | succ k ih => exact gilbert2d_inner_fuel_succ (fuel + k) dir x y major minor l ih

end ImageGraph


namespace ImageGraph

/-! ## The spiral -/

theorem enumerates_append {a b : List Point} {A B : Point → Prop}
    (ha : Enumerates a A) (hb : Enumerates b B) (hdis : ∀ p, A p → B p → False) :
    Enumerates (a ++ b) (fun p => A p ∨ B p) := by
  refine ⟨nodup_append_of_boxes ha.1 hb.1 ha.2 hb.2 hdis, ?_⟩
  intro p
  rw [List.mem_append, ha.2, hb.2]

theorem enumerates_congr {a : List Point} {A B : Point → Prop}
    (ha : Enumerates a A) (h : ∀ p, A p ↔ B p) : Enumerates a B :=
  ⟨ha.1, fun p => (ha.2 p).trans (h p)⟩

theorem enumerates_nil : Enumerates [] (fun _ => False) :=
  ⟨List.nodup_nil, fun p => by simp⟩

theorem upLoop_mem (a b v : Int) : v ∈ upLoop a b ↔ a ≤ v ∧ v ≤ b := by
  simp only [upLoop, List.mem_map, List.mem_range]
  constructor
  · rintro ⟨k, hk, rfl⟩; omega
  · intro h; exact ⟨(v - a).toNat, by omega, by omega⟩

theorem upLoopLt_mem (a b v : Int) : v ∈ upLoopLt a b ↔ a ≤ v ∧ v < b := by
  simp only [upLoopLt, List.mem_map, List.mem_range]
  constructor
  · rintro ⟨k, hk, rfl⟩; omega
  · intro h; exact ⟨(v - a).toNat, by omega, by omega⟩

theorem upLoop_nodup (a b : Int) : (upLoop a b).Nodup := by
  unfold upLoop
  refine List.Nodup.map_on ?_ (List.nodup_range _)
  intro i _ j _ h; omega

theorem upLoopLt_nodup (a b : Int) : (upLoopLt a b).Nodup := by
  unfold upLoopLt
  refine List.Nodup.map_on ?_ (List.nodup_range _)
  intro i _ j _ h; omega

/-- The values of a `downLoop` that ends, as a list. -/
theorem downLoop_of_le (a b : Int) (h : b ≤ a) :
    ∃ l, downLoop a b = some l ∧ l.Nodup ∧ ∀ v, v ∈ l ↔ b ≤ v ∧ v ≤ a := by
  refine ⟨_, if_pos h, ?_, ?_⟩
  · refine List.Nodup.map_on ?_ (List.nodup_range _)
    intro i _ j _ h; omega
  · intro v
    simp only [List.mem_map, List.mem_range]
    constructor
    · rintro ⟨k, hk, rfl⟩; omega
    · intro h; exact ⟨(a - v).toNat, by omega, by omega⟩

/-- A column of cells: `x` fixed, `y` from a list without repetition. -/
theorem enumerates_column (side : SpiralSide) (x : Int) (l : List Int) (P : Int → Prop)
    (hnd : l.Nodup) (hmem : ∀ v, v ∈ l ↔ P v) :
    Enumerates ((l.map fun y => (⟨side, x, y⟩ : SpiralInfo)).map SpiralInfo.cell)
      (fun p => p.1 = x ∧ P p.2) := by
  rw [List.map_map]
  refine ⟨List.Nodup.map_on ?_ hnd, ?_⟩
  · intro a _ b _ h
    simpa [SpiralInfo.cell] using h
  · intro p
    simp only [List.mem_map, Function.comp, SpiralInfo.cell]
    constructor
    · rintro ⟨v, hv, rfl⟩; exact ⟨rfl, (hmem v).1 hv⟩
    · rintro ⟨h1, h2⟩; exact ⟨p.2, (hmem _).2 h2, by rw [← h1]⟩

/-- A row of cells: `y` fixed, `x` from a list without repetition. -/
theorem enumerates_row (side : SpiralSide) (y : Int) (l : List Int) (P : Int → Prop)
    (hnd : l.Nodup) (hmem : ∀ v, v ∈ l ↔ P v) :
    Enumerates ((l.map fun x => (⟨side, x, y⟩ : SpiralInfo)).map SpiralInfo.cell)
      (fun p => p.2 = y ∧ P p.1) := by
  rw [List.map_map]
  refine ⟨List.Nodup.map_on ?_ hnd, ?_⟩
  · intro a _ b _ h
    simpa [SpiralInfo.cell] using h
  · intro p
    simp only [List.mem_map, Function.comp, SpiralInfo.cell]
    constructor
    · rintro ⟨v, hv, rfl⟩; exact ⟨rfl, (hmem v).1 hv⟩
    · rintro ⟨h1, h2⟩; exact ⟨p.1, (hmem _).2 h2, by rw [← h1]⟩

theorem enumerates_ite (c : Prop) [Decidable c] {a : List Point} {A : Point → Prop}
    (ha : Enumerates a A) : Enumerates (if c then a else []) (fun p => c ∧ A p) := by
  by_cases hc : c
  · rw [if_pos hc]; exact enumerates_congr ha fun p => by simp [hc]
  · rw [if_neg hc]; exact enumerates_congr enumerates_nil fun p => by simp [hc]

theorem map_ite_nil {α β : Type} (c : Prop) [Decidable c] (f : α → β) (l : List α) :
    (if c then l else []).map f = if c then l.map f else [] := by
  split <;> rfl

theorem ite_some_some {α : Type} (c : Prop) [Decidable c] (a b : α) :
    (if c then some a else some b) = some (if c then a else b) := by
  split <;> rfl

theorem spiralRing_spec (xs ys x_min y_min x_max y_max i : Int)
    (hx1 : x_min ≤ xs) (hx2 : xs ≤ x_max) (hy1 : y_min ≤ ys) (hy2 : ys ≤ y_max) (hi : 1 ≤ i) :
    ∃ l, spiralRing xs ys x_min y_min x_max y_max i = some l ∧
      Enumerates (l.map SpiralInfo.cell) (inRing xs ys x_min y_min x_max y_max i) := by
  have e1 : clamped_dif (xs + i) (boolToInt (decide (xs + i ≤ x_max))) x_min x_max =
      min (xs + i - 1) x_max := by
    simp only [clamped_dif, boolToInt, decide_eq_true_eq]; split_ifs <;> omega
  have e2 : clamped_dif (xs + boolToInt (decide (xs ≥ x_min + i))) i x_min x_max =
      max (xs - i + 1) x_min := by
    simp only [clamped_dif, boolToInt, decide_eq_true_eq]; split_ifs <;> omega
  have e3 : (if ys ≥ y_min + i then ys - i else y_min) = max (ys - i) y_min := by
    split_ifs <;> omega
  have e4 : min (xs + i + 1 - boolToInt (decide (xs + i + 1 ≤ x_max))) x_max =
      min (xs + i) x_max := by
    simp only [boolToInt, decide_eq_true_eq]; split_ifs <;> omega
  obtain ⟨pb, hpb, hpbnd, hpbmem⟩ := downLoop_of_le (min (xs + i - 1) x_max)
    (max (xs - i + 1) x_min) (by omega)
  obtain ⟨pl, hpl, hplnd, hplmem⟩ := downLoop_of_le (min (ys + i) y_max)
    (max (ys - i) y_min) (by omega)
  unfold spiralRing
  simp only [e1, e2, e3, e4, hpb, hpl, Option.map_some', ite_some_some, decide_eq_true_eq]
  refine ⟨_, rfl, ?_⟩
  simp only [List.map_append, map_ite_nil]
  have hR1 := enumerates_ite (xs + i ≤ x_max)
    (enumerates_column .RIGHT (xs + i) _
      (fun v => ys ≤ v ∧ v ≤ ys + i ∧ v ≤ y_max) (upLoop_nodup ys (min (ys + i) y_max))
      (fun v => by rw [upLoop_mem]; omega))
  have hB := enumerates_ite (ys + i ≤ y_max)
    (enumerates_row .BOTTOM (ys + i) pb
      (fun v => xs - i + 1 ≤ v ∧ x_min ≤ v ∧ v ≤ xs + i - 1 ∧ v ≤ x_max) hpbnd
      (fun v => by rw [hpbmem]; omega))
  have hL := enumerates_ite (xs ≥ x_min + i)
    (enumerates_column .LEFT (xs - i) pl
      (fun v => ys - i ≤ v ∧ y_min ≤ v ∧ v ≤ ys + i ∧ v ≤ y_max) hplnd
      (fun v => by rw [hplmem]; omega))
  have hT := enumerates_ite (ys ≥ y_min + i)
    (enumerates_row .TOP (ys - i) _
      (fun v => xs - i + 1 ≤ v ∧ x_min ≤ v ∧ v ≤ xs + i ∧ v ≤ x_max)
      (upLoop_nodup (max (xs - i + 1) x_min) (min (xs + i) x_max))
      (fun v => by rw [upLoop_mem]; omega))
  have hR2 := enumerates_ite (xs + i + 1 ≤ x_max)
    (enumerates_column .RIGHT (xs + i + 1) _
      (fun v => ys - i ≤ v ∧ y_min ≤ v ∧ v < ys)
      (upLoopLt_nodup (max (ys - i) y_min) ys) (fun v => by rw [upLoopLt_mem]; omega))
  have h1 := enumerates_append hR1 hB (by intro p; omega)
  have h2 := enumerates_append h1 hL (by intro p; omega)
  have h3 := enumerates_append h2 hT (by intro p; omega)
  have h4 := enumerates_append h3 hR2 (by intro p; omega)
  refine enumerates_congr h4 ?_
  intro p
  simp only [inRing]
  constructor
  · rintro ((((h | h) | h) | h) | h)
    · exact ⟨by omega, Or.inl ⟨⟨by omega, by omega⟩, by omega⟩⟩
    · exact ⟨by omega, Or.inl ⟨⟨by omega, by omega⟩, by omega⟩⟩
    · exact ⟨by omega, Or.inl ⟨⟨by omega, by omega⟩, by omega⟩⟩
    · exact ⟨by omega, Or.inl ⟨⟨by omega, by omega⟩, by omega⟩⟩
    · exact ⟨by omega, Or.inr (by omega)⟩
  · rintro ⟨hbox, ⟨⟨hb, hside⟩, hne⟩ | hB⟩
    · by_cases hT : p.2 = ys - i ∧ xs - i + 1 ≤ p.1
      · exact Or.inl (Or.inr (by omega))
      · by_cases hL : p.1 = xs - i
        · exact Or.inl (Or.inl (Or.inr (by omega)))
        · by_cases hR : p.1 = xs + i
          · exact Or.inl (Or.inl (Or.inl (Or.inl (by omega))))
          · exact Or.inl (Or.inl (Or.inl (Or.inr (by omega))))
    · exact Or.inr (by omega)

theorem inRing_disjoint (xs ys x_min y_min x_max y_max i j : Int) (_hi : 1 ≤ i) (hij : i < j)
    (p : Point) (h1 : inRing xs ys x_min y_min x_max y_max i p)
    (h2 : inRing xs ys x_min y_min x_max y_max j p) : False := by
  obtain ⟨_, ⟨⟨hb1, hs1⟩, hn1⟩ | hB1⟩ := h1 <;> obtain ⟨_, ⟨⟨hb2, hs2⟩, hn2⟩ | hB2⟩ := h2 <;> omega

theorem spiralRings_spec (xs ys x_min y_min x_max y_max : Int)
    (hx1 : x_min ≤ xs) (hx2 : xs ≤ x_max) (hy1 : y_min ≤ ys) (hy2 : ys ≤ y_max) (n : Nat) :
    ∀ i : Int, 1 ≤ i → ∃ l, spiralRings xs ys x_min y_min x_max y_max i n = some l ∧
      Enumerates (l.map SpiralInfo.cell)
        (fun p => ∃ k : Nat, k < n ∧ inRing xs ys x_min y_min x_max y_max (i + k) p) := by
  induction n with
  | zero =>
    intro i _
    refine ⟨[], rfl, enumerates_congr enumerates_nil ?_⟩
    intro p; simp
  | succ n ih =>
    intro i hi
    obtain ⟨r, hr, hrE⟩ := spiralRing_spec xs ys x_min y_min x_max y_max i hx1 hx2 hy1 hy2 hi
    obtain ⟨rest, hrest, hrestE⟩ := ih (i + 1) (by omega)
    refine ⟨r ++ rest, by simp only [spiralRings, hr, hrest], ?_⟩
    rw [List.map_append]
    refine enumerates_congr (enumerates_append hrE hrestE ?_) ?_
    · rintro p h1 ⟨k, _, h2⟩
      exact inRing_disjoint xs ys x_min y_min x_max y_max i (i + 1 + k) hi (by omega) p h1 h2
    · intro p
      constructor
      · rintro (h | ⟨k, hk, h⟩)
        · exact ⟨0, by omega, by simpa using h⟩
        · refine ⟨k + 1, by omega, ?_⟩
          have e : i + ((k + 1 : Nat) : Int) = i + 1 + (k : Int) := by push_cast; ring
          rw [e]; exact h
      · rintro ⟨k, hk, h⟩
        cases k with
        | zero => left; simpa using h
        | succ k =>
          right
          refine ⟨k, by omega, ?_⟩
          have e : i + ((k + 1 : Nat) : Int) = i + 1 + (k : Int) := by push_cast; ring
          rw [e] at h; exact h

theorem cheb_exists (a b : Int) :
    ∃ d : Int, 0 ≤ d ∧ -d ≤ a ∧ a ≤ d ∧ -d ≤ b ∧ b ≤ d ∧ (a = d ∨ a = -d ∨ b = d ∨ b = -d) :=
  ⟨max (max a (-a)) (max b (-b)), by omega, by omega, by omega, by omega, by omega, by omega⟩

/-- The spiral passes every cell of the grid exactly once, starting at the centre. -/
theorem simple_spiral_spec (xs ys x_min y_min x_max y_max : Int)
    (hx1 : x_min ≤ xs) (hx2 : xs ≤ x_max) (hy1 : y_min ≤ ys) (hy2 : ys ≤ y_max) :
    ∃ rest, simple_spiral xs ys x_min y_min x_max y_max = some (⟨.TOP, xs, ys⟩ :: rest) ∧
      Enumerates ((⟨.TOP, xs, ys⟩ :: rest : List SpiralInfo).map SpiralInfo.cell)
        (fun p => x_min ≤ p.1 ∧ p.1 ≤ x_max ∧ y_min ≤ p.2 ∧ p.2 ≤ y_max) := by
  have hM1 : xs - x_min ≤ max (max (max (xs - x_min) (x_max - xs)) 0)
      (max (max (ys - y_min) (y_max - ys)) 0) := by omega
  have hM2 : x_max - xs ≤ max (max (max (xs - x_min) (x_max - xs)) 0)
      (max (max (ys - y_min) (y_max - ys)) 0) := by omega
  have hM3 : ys - y_min ≤ max (max (max (xs - x_min) (x_max - xs)) 0)
      (max (max (ys - y_min) (y_max - ys)) 0) := by omega
  have hM4 : y_max - ys ≤ max (max (max (xs - x_min) (x_max - xs)) 0)
      (max (max (ys - y_min) (y_max - ys)) 0) := by omega
  unfold simple_spiral
  rw [if_neg (by omega), if_neg (by omega)]
  simp only []
  generalize max (max (max (xs - x_min) (x_max - xs)) 0)
      (max (max (ys - y_min) (y_max - ys)) 0) = M at hM1 hM2 hM3 hM4 ⊢
  obtain ⟨rest, hrest, hnd, hmem⟩ :=
    spiralRings_spec xs ys x_min y_min x_max y_max hx1 hx2 hy1 hy2 M.toNat 1 (le_refl _)
  refine ⟨rest, by rw [hrest], ?_, ?_⟩
  · rw [List.map_cons, List.nodup_cons]
    refine ⟨?_, hnd⟩
    rw [hmem]
    rintro ⟨k, _, _, ⟨⟨hb, hs⟩, hn⟩ | hB⟩ <;> simp only [SpiralInfo.cell] at * <;> omega
  · intro p
    rw [List.map_cons, List.mem_cons, hmem]
    constructor
    · rintro (h | ⟨k, _, hbox, _⟩)
      · rw [h]; simp only [SpiralInfo.cell]; omega
      · exact hbox
    · intro hbox
      by_cases hc : p = (xs, ys)
      · left; rw [hc]; rfl
      · right
        have hc1 : p.1 ≠ xs ∨ p.2 ≠ ys := by
          by_contra hcon
          push_neg at hcon
          exact hc (Prod.ext hcon.1 hcon.2)
        obtain ⟨d, hd0, hd1, hd2, hd3, hd4, hd5⟩ := cheb_exists (p.1 - xs) (p.2 - ys)
        by_cases hex : p.1 = xs + d ∧ ys - d + 1 ≤ p.2 ∧ p.2 < ys
        · refine ⟨(d - 2).toNat, by omega, hbox, Or.inr ?_⟩
          omega
        · refine ⟨(d - 1).toNat, by omega, hbox, Or.inl ⟨⟨?_, ?_⟩, ?_⟩⟩ <;> omega

end ImageGraph


namespace ImageGraph

/-! ## The curve through a rectangle and the spiral of curves -/

/-- `gilbert2d` over non-zero extents, in either direction: with fuel for the extents it ends
and passes every point of the rectangle exactly once. -/
theorem gilbert2d_spec (fuel : Nat) (x y width height : Int) (direction : Option Direction)
    (hw : width ≠ 0) (hh : height ≠ 0) (hf : width.natAbs + height.natAbs ≤ fuel) :
    ∃ l, gilbert2d fuel x y width height direction = some l ∧
      Enumerates l (fun p => inSpan (p.1 - x) width ∧ inSpan (p.2 - y) height) := by
  unfold gilbert2d
  split
  · obtain ⟨l, hl, hnd, hmem⟩ := gilbert2d_inner_spec fuel .X x y width height hw hh hf
    exact ⟨l, hl, hnd, hmem⟩
  · obtain ⟨l, hl, hnd, hmem⟩ :=
      gilbert2d_inner_spec fuel .Y x y height width hh hw (by omega)
    refine ⟨l, hl, hnd, fun p => (hmem p).trans ?_⟩
    simp only [inBox]
    exact And.comm

theorem ediv_eq_iff_block (q b t A : Int) (ht : 0 < t) (hA : A = b * t) :
    q / t = b ↔ A ≤ q ∧ q < A + t := by
  have h1 : b ≤ q / t ↔ b * t ≤ q := Int.le_ediv_iff_mul_le ht
  have h2 : q / t < b + 1 ↔ q < (b + 1) * t := Int.ediv_lt_iff_lt_mul ht
  have h3 : (b + 1) * t = A + t := by rw [hA]; ring
  rw [h3] at h2
  rw [← hA] at h1
  constructor
  · intro h; exact ⟨h1.1 (by omega), h2.1 (by omega)⟩
  · rintro ⟨ha, hb⟩
    have := h1.2 ha
    have := h2.2 hb
    omega

/-- The curve through one block of the spiral passes exactly the points of the grid
`[x_min, x_min + width) x [y_min, y_min + height)` that lie in the block of `info`. -/
theorem spiralBlock_spec (fuel : Nat) (x_min y_min : Int) (width height tw th : Nat)
    (info : SpiralInfo) (htw : 0 < tw) (hth : 0 < th) (hf : tw + th ≤ fuel)
    (hx0 : 0 ≤ info.x) (hx1 : info.x * tw < width) (hy0 : 0 ≤ info.y) (hy1 : info.y * th < height) :
    ∃ l, spiralBlock fuel x_min y_min width height tw th info = some l ∧
      Enumerates l (fun p =>
        (x_min ≤ p.1 ∧ p.1 < x_min + width ∧ y_min ≤ p.2 ∧ p.2 < y_min + height) ∧
        ((p.1 - x_min) / tw, (p.2 - y_min) / th) = info.cell) := by
  have hA : (info.x + 1) * (tw : Int) = info.x * tw + tw := by ring
  have hB : (info.y + 1) * (th : Int) = info.y * th + th := by ring
  have hAn : 0 ≤ info.x * (tw : Int) := mul_nonneg hx0 (by omega)
  have hBn : 0 ≤ info.y * (th : Int) := mul_nonneg hy0 (by omega)
  have key : ∀ p : Point,
      ((x_min ≤ p.1 ∧ p.1 < x_min + width ∧ y_min ≤ p.2 ∧ p.2 < y_min + height) ∧
        ((p.1 - x_min) / tw, (p.2 - y_min) / th) = info.cell) ↔
      ((x_min + info.x * tw ≤ p.1 ∧ p.1 < x_min + min (info.x * tw + tw) width) ∧
        (y_min + info.y * th ≤ p.2 ∧ p.2 < y_min + min (info.y * th + th) height)) := by
    intro p
    simp only [SpiralInfo.cell, Prod.mk.injEq]
    rw [ediv_eq_iff_block (p.1 - x_min) info.x tw (info.x * tw) (by omega) rfl,
      ediv_eq_iff_block (p.2 - y_min) info.y th (info.y * th) (by omega) rfl]
    omega
  unfold spiralBlock
  simp only [hA, hB]
  generalize info.x * (tw : Int) = A at hx1 hAn key ⊢
  generalize info.y * (th : Int) = B at hy1 hBn key ⊢
  cases info.side
  · obtain ⟨l, hl, hE⟩ := gilbert2d_spec fuel (x_min + A) (y_min + B)
      (min (A + tw) width - A) (min (B + th) height - B) (some .Y) (by omega) (by omega)
      (by omega)
    refine ⟨l, hl, enumerates_congr hE fun p => ?_⟩
    rw [key]; simp only [inSpan]; omega
  · obtain ⟨l, hl, hE⟩ := gilbert2d_spec fuel (x_min + A + (min (A + tw) width - A) - 1)
      (y_min + B + (min (B + th) height - B) - 1)
      (-(min (A + tw) width - A)) (-(min (B + th) height - B)) (some .X) (by omega) (by omega)
      (by omega)
    refine ⟨l, hl, enumerates_congr hE fun p => ?_⟩
    rw [key]; simp only [inSpan]; omega
  · obtain ⟨l, hl, hE⟩ := gilbert2d_spec fuel (x_min + A + (min (A + tw) width - A) - 1)
      (y_min + B + (min (B + th) height - B) - 1)
      (-(min (A + tw) width - A)) (-(min (B + th) height - B)) (some .Y) (by omega) (by omega)
      (by omega)
    refine ⟨l, hl, enumerates_congr hE fun p => ?_⟩
    rw [key]; simp only [inSpan]; omega
  · obtain ⟨l, hl, hE⟩ := gilbert2d_spec fuel (x_min + A) (y_min + B)
      (min (A + tw) width - A) (min (B + th) height - B) (some .X) (by omega) (by omega)
      (by omega)
    refine ⟨l, hl, enumerates_congr hE fun p => ?_⟩
    rw [key]; simp only [inSpan]; omega

/-- Curves through the blocks of a list of distinct cells, one after the other: together they
pass exactly the points whose block is a cell of the list, each once. -/
theorem concatMapOption_blocks (f : SpiralInfo → Option (List Point)) (Q : Point → Prop)
    (key : Point → Point) :
    ∀ infos : List SpiralInfo, (infos.map SpiralInfo.cell).Nodup →
      (∀ info ∈ infos, ∃ l, f info = some l ∧
        Enumerates l (fun p => Q p ∧ key p = info.cell)) →
      ∃ l, concatMapOption f infos = some l ∧
        Enumerates l (fun p => Q p ∧ key p ∈ infos.map SpiralInfo.cell) := by
  intro infos
  induction infos with
  | nil =>
    intro _ _
    exact ⟨[], rfl, enumerates_congr enumerates_nil fun p => by simp⟩
  | cons info rest ih =>
    intro hnd hf
    rw [List.map_cons, List.nodup_cons] at hnd
    obtain ⟨l, hl, hlE⟩ := hf info (List.mem_cons_self _ _)
    obtain ⟨ls, hls, hlsE⟩ := ih hnd.2 fun i hi => hf i (List.mem_cons_of_mem _ hi)
    refine ⟨l ++ ls, by simp only [concatMapOption, hl, hls], ?_⟩
    refine enumerates_congr (enumerates_append hlE hlsE ?_) ?_
    · rintro p ⟨_, h1⟩ ⟨_, h2⟩
      exact hnd.1 (h1 ▸ h2)
    · intro p
      rw [List.map_cons, List.mem_cons]
      constructor
      · rintro (⟨hq, h⟩ | ⟨hq, h⟩)
        · exact ⟨hq, Or.inl h⟩
        · exact ⟨hq, Or.inr h⟩
      · rintro ⟨hq, h | h⟩
        · exact Or.inl ⟨hq, h⟩
        · exact Or.inr ⟨hq, h⟩

/-- `gilbert_spiral` over a grid that holds its start, with non-empty blocks and fuel for one
block: it ends and passes every point of the grid exactly once. -/
theorem gilbert_spiral_spec (fuel : Nat) (xs ys x_min y_min x_max y_max : Int) (tw th : Nat)
    (hx1 : x_min ≤ xs) (hx2 : xs ≤ x_max) (hy1 : y_min ≤ ys) (hy2 : ys ≤ y_max)
    (htw : 0 < tw) (hth : 0 < th) (hf : tw + th ≤ fuel) :
    ∃ l, gilbert_spiral fuel xs ys x_min y_min x_max y_max tw th = some l ∧
      Enumerates l (fun p => x_min ≤ p.1 ∧ p.1 ≤ x_max ∧ y_min ≤ p.2 ∧ p.2 ≤ y_max) := by
  unfold gilbert_spiral
  rw [if_neg (by omega), if_neg (by omega), if_neg (by omega), if_neg (by omega)]
  simp only []
  have hX : ((x_max - x_min).toNat : Int) = x_max - x_min := by omega
  have hY : ((y_max - y_min).toNat : Int) = y_max - y_min := by omega
  have hXs : ((xs - x_min).toNat : Int) = xs - x_min := by omega
  have hYs : ((ys - y_min).toNat : Int) = ys - y_min := by omega
  have htw0 : (0 : Int) < tw := by omega
  have hth0 : (0 : Int) < th := by omega
  obtain ⟨rest, hsp, hspE⟩ := simple_spiral_spec
    (((xs - x_min).toNat / tw : Nat) : Int) (((ys - y_min).toNat / th : Nat) : Int) 0 0
    (((x_max - x_min).toNat / tw : Nat) : Int) (((y_max - y_min).toNat / th : Nat) : Int)
    (Int.natCast_nonneg _) (by
      have h : (xs - x_min).toNat / tw ≤ (x_max - x_min).toNat / tw :=
        Nat.div_le_div_right (show (xs - x_min).toNat ≤ (x_max - x_min).toNat by omega)
      exact_mod_cast h) (Int.natCast_nonneg _) (by
      have h : (ys - y_min).toNat / th ≤ (y_max - y_min).toNat / th :=
        Nat.div_le_div_right (show (ys - y_min).toNat ≤ (y_max - y_min).toNat by omega)
      exact_mod_cast h)
  rw [hsp]
  simp only []
  obtain ⟨l, hl, hlE⟩ := concatMapOption_blocks
    (spiralBlock fuel x_min y_min ((x_max - x_min).toNat + 1) ((y_max - y_min).toNat + 1) tw th)
    (fun p => x_min ≤ p.1 ∧ p.1 < x_min + ((x_max - x_min).toNat + 1 : Nat) ∧
      y_min ≤ p.2 ∧ p.2 < y_min + ((y_max - y_min).toNat + 1 : Nat))
    (fun p => ((p.1 - x_min) / tw, (p.2 - y_min) / th))
    (⟨.TOP, _, _⟩ :: rest) hspE.1 (by
      intro info hinfo
      have hin := (hspE.2 info.cell).1 (List.mem_map_of_mem _ hinfo)
      simp only [SpiralInfo.cell] at hin
      have h1 : info.x * (tw : Int) ≤ x_max - x_min := by
        have := (Int.le_ediv_iff_mul_le (show (0 : Int) < tw by omega)).1
          (show info.x ≤ (x_max - x_min) / (tw : Int) by
            have e : (((x_max - x_min).toNat / tw : Nat) : Int) = (x_max - x_min) / (tw : Int) := by
              rw [Int.natCast_div, hX]
            omega)
        exact this
      have h2 : info.y * (th : Int) ≤ y_max - y_min := by
        have := (Int.le_ediv_iff_mul_le (show (0 : Int) < th by omega)).1
          (show info.y ≤ (y_max - y_min) / (th : Int) by
            have e : (((y_max - y_min).toNat / th : Nat) : Int) = (y_max - y_min) / (th : Int) := by
              rw [Int.natCast_div, hY]
            omega)
        exact this
      exact spiralBlock_spec fuel x_min y_min _ _ tw th info htw hth hf hin.1 (by push_cast; omega)
        hin.2.2.1 (by push_cast; omega))
  refine ⟨l, hl, enumerates_congr hlE fun p => ?_⟩
  rw [hspE.2]
  simp only []
  push_cast
  constructor
  · rintro ⟨h, _⟩; omega
  · intro h
    refine ⟨by omega, ?_, ?_, ?_, ?_⟩
    · exact Int.ediv_nonneg (by omega) (by omega)
    · rw [hX]
      exact Int.ediv_le_ediv htw0 (by omega)
    · exact Int.ediv_nonneg (by omega) (by omega)
    · rw [hY]
      exact Int.ediv_le_ediv hth0 (by omega)

/-! ## Tiles of the curve points -/

theorem nat_div_eq_iff_block (q b t A : Nat) (ht : 0 < t) (hA : A = b * t) :
    q / t = b ↔ A ≤ q ∧ q < A + t := by
  have h1 : b ≤ q / t ↔ b * t ≤ q := Nat.le_div_iff_mul_le ht
  have h2 : q / t < b + 1 ↔ q < (b + 1) * t := Nat.div_lt_iff_lt_mul ht
  have h3 : (b + 1) * t = A + t := by rw [hA]; ring
  rw [h3] at h2
  rw [← hA] at h1
  constructor
  · intro h; exact ⟨h1.1 (by omega), h2.1 (by omega)⟩
  · rintro ⟨ha, hb⟩
    have := h1.2 ha
    have := h2.2 hb
    omega

/-- The tile of the curve point `(a, b)` covers exactly the pixels of the node that lie in
block `(a, b)` of the tile grid. -/
theorem tileAt_covers (node tile : RectangleDimensions) (a b x y : Nat)
    (htw : 0 < tile.width) (hth : 0 < tile.height) :
    (tileAt node tile ((a : Int), (b : Int))).covers x y ↔
      (x / tile.width = a ∧ y / tile.height = b) ∧ x < node.width ∧ y < node.height := by
  have e1 : ((a : Int) * (tile.width : Int)).toNat = a * tile.width := by
    rw [← Int.natCast_mul]; exact Int.toNat_natCast _
  have e2 : ((b : Int) * (tile.height : Int)).toNat = b * tile.height := by
    rw [← Int.natCast_mul]; exact Int.toNat_natCast _
  rw [nat_div_eq_iff_block x a tile.width (a * tile.width) htw rfl,
    nat_div_eq_iff_block y b tile.height (b * tile.height) hth rfl]
  simp only [tileAt, e1, e2, Rectangle.ofPoint, Rectangle.clipDimensions, Rectangle.covers]
  generalize a * tile.width = A
  generalize b * tile.height = B
  split_ifs <;> dsimp only at * <;> omega

theorem overlap_pos_covers (r o : Rectangle) (h : r.overlap o ≠ 0) :
    ∃ x y, r.covers x y ∧ o.covers x y := by
  unfold Rectangle.overlap at h
  simp only [] at h
  have h1 := Nat.pos_of_ne_zero h
  have h2 := Nat.pos_of_mul_pos_left h1  -- second factor
  have h3 := Nat.pos_of_mul_pos_right h1
  refine ⟨max r.left o.left, max r.top o.top, ?_, ?_⟩
  · simp only [Rectangle.covers]
    split_ifs at h2 h3 <;> omega
  · simp only [Rectangle.covers]
    split_ifs at h2 h3 <;> omega

/-- Tiles of distinct points of the tile grid do not overlap. -/
theorem tileAt_overlap_zero (node tile : RectangleDimensions) (p q : Point)
    (htw : 0 < tile.width) (hth : 0 < tile.height)
    (hp : 0 ≤ p.1 ∧ 0 ≤ p.2) (hq : 0 ≤ q.1 ∧ 0 ≤ q.2) (hpq : p ≠ q) :
    (tileAt node tile p).overlap (tileAt node tile q) = 0 := by
  by_contra h
  obtain ⟨x, y, h1, h2⟩ := overlap_pos_covers _ _ h
  have ep : p = ((p.1.toNat : Int), (p.2.toNat : Int)) := by
    apply Prod.ext <;> simp only <;> omega
  have eq : q = ((q.1.toNat : Int), (q.2.toNat : Int)) := by
    apply Prod.ext <;> simp only <;> omega
  rw [ep, tileAt_covers node tile _ _ x y htw hth] at h1
  rw [eq, tileAt_covers node tile _ _ x y htw hth] at h2
  apply hpq
  rw [ep, eq]
  apply Prod.ext <;> simp only <;> omega

theorem pairwise_tileAt (node tile : RectangleDimensions) (ps : List Point)
    (htw : 0 < tile.width) (hth : 0 < tile.height)
    (hnd : ps.Nodup) (hpos : ∀ p ∈ ps, 0 ≤ p.1 ∧ 0 ≤ p.2) :
    List.Pairwise (fun a b => a.overlap b = 0) (ps.map (tileAt node tile)) := by
  rw [List.pairwise_map]
  refine List.Pairwise.imp_of_mem ?_ hnd
  intro p q hp hq hpq
  exact tileAt_overlap_zero node tile p q htw hth (hpos p hp) (hpos q hq) hpq

theorem dimensions_nonempty (d : RectangleDimensions) (h : d.empty = false) :
    0 < d.width ∧ 0 < d.height := by
  simp only [RectangleDimensions.empty, RectangleDimensions.size, beq_eq_false_iff_ne, ne_eq,
    Nat.mul_eq_zero, not_or] at h
  omega

theorem rectangle_nonempty (r : Rectangle) (h : r.empty = false) :
    0 < r.width ∧ 0 < r.height :=
  dimensions_nonempty r.dimensions h

/-! ## More fuel does not change a result -/

theorem gilbert2d_fuel_mono (fuel extra : Nat) (x y width height : Int)
    (direction : Option Direction) (l : List Point)
    (h : gilbert2d fuel x y width height direction = some l) :
    gilbert2d (fuel + extra) x y width height direction = some l := by
  unfold gilbert2d at h ⊢
  split at h
  · exact gilbert2d_inner_fuel_mono fuel extra _ _ _ _ _ l h
  · exact gilbert2d_inner_fuel_mono fuel extra _ _ _ _ _ l h

theorem spiralBlock_fuel_mono (fuel extra : Nat) (x_min y_min : Int)
    (width height tw th : Nat) (info : SpiralInfo) (l : List Point)
    (h : spiralBlock fuel x_min y_min width height tw th info = some l) :
    spiralBlock (fuel + extra) x_min y_min width height tw th info = some l := by
  unfold spiralBlock at h ⊢
  simp only [] at h ⊢
  cases hs : info.side <;> rw [hs] at h <;> simp only [] at h ⊢ <;>
    exact gilbert2d_fuel_mono fuel extra _ _ _ _ _ l h

theorem concatMapOption_mono {α β : Type} (f g : α → Option (List β))
    (hfg : ∀ a l, f a = some l → g a = some l) :
    ∀ (as : List α) (l : List β), concatMapOption f as = some l → concatMapOption g as = some l := by
  intro as
  induction as with
  | nil => intro l h; exact h
  | cons a rest ih =>
    intro l h
    simp only [concatMapOption] at h ⊢
    cases ha : f a with
    | none => rw [ha] at h; cases h
    | some la =>
      rw [ha] at h
      rw [hfg a la ha]
      simp only [] at h ⊢
      cases hr : concatMapOption f rest with
      | none => rw [hr] at h; cases h
      | some lr =>
        rw [hr] at h
        rw [ih lr hr]
        exact h

theorem gilbert_spiral_fuel_mono (fuel extra : Nat) (xs ys x_min y_min x_max y_max : Int)
    (tw th : Nat) (l : List Point)
    (h : gilbert_spiral fuel xs ys x_min y_min x_max y_max tw th = some l) :
    gilbert_spiral (fuel + extra) xs ys x_min y_min x_max y_max tw th = some l := by
  unfold gilbert_spiral at h ⊢
  split_ifs at h ⊢
  · exact h
  · simp only [] at h ⊢
    split at h
    · cases h
    · rename_i infos hinfos
      exact concatMapOption_mono _ _
        (fun a la ha => spiralBlock_fuel_mono fuel extra _ _ _ _ _ _ a la ha) infos l h

/-! ## The tilers -/

theorem HilbertRegion_generateGenerator_spec (fuel : Nat) (rect : Rectangle)
    (tile : RectangleDimensions) (hr : rect.empty = false) (ht : tile.empty = false)
    (hf : HilbertRegion.fuelBound rect tile ≤ fuel) :
    ∃ ps, HilbertRegion.generateGenerator fuel rect tile = some ps ∧
      Enumerates ps (fun p =>
        ((rect.left / tile.width : Nat) : Int) ≤ p.1 ∧
        p.1 ≤ (((rect.left + rect.width - 1) / tile.width : Nat) : Int) ∧
        ((rect.top / tile.height : Nat) : Int) ≤ p.2 ∧
        p.2 ≤ (((rect.top + rect.height - 1) / tile.height : Nat) : Int)) := by
  obtain ⟨hrw, hrh⟩ := rectangle_nonempty rect hr
  obtain ⟨htw, hth⟩ := dimensions_nonempty tile ht
  have h1 : rect.left / tile.width ≤ (rect.left + rect.width - 1) / tile.width :=
    Nat.div_le_div_right (by omega)
  have h2 : rect.top / tile.height ≤ (rect.top + rect.height - 1) / tile.height :=
    Nat.div_le_div_right (by omega)
  unfold HilbertRegion.fuelBound at hf
  unfold HilbertRegion.generateGenerator
  rw [if_neg (by simp [hr, ht])]
  simp only []
  generalize rect.left / tile.width = L at h1 hf ⊢
  generalize (rect.left + rect.width - 1) / tile.width = R at h1 hf ⊢
  generalize rect.top / tile.height = T at h2 hf ⊢
  generalize (rect.top + rect.height - 1) / tile.height = B at h2 hf ⊢
  obtain ⟨l, hl, hE⟩ := gilbert2d_spec fuel L T ((R - L + 1 : Nat) : Int) ((B - T + 1 : Nat) : Int)
    none (by omega) (by omega) (by omega)
  refine ⟨l, hl, enumerates_congr hE fun p => ?_⟩
  simp only [inSpan]
  omega

theorem HilbertRegion_generateGenerator_sound (fuel : Nat) (rect : Rectangle)
    (tile : RectangleDimensions) (ps : List Point)
    (h : HilbertRegion.generateGenerator fuel rect tile = some ps) :
    ps.Nodup ∧ (∀ p ∈ ps, 0 ≤ p.1 ∧ 0 ≤ p.2) ∧ (ps ≠ [] → 0 < tile.width ∧ 0 < tile.height) := by
  by_cases he : rect.empty = true ∨ tile.empty = true
  · unfold HilbertRegion.generateGenerator at h
    rw [if_pos he] at h
    cases h
    exact ⟨List.nodup_nil, fun p hp => absurd hp (List.not_mem_nil p), fun hne => absurd rfl hne⟩
  · have hr : rect.empty = false := by
      cases hre : rect.empty
      · rfl
      · exact absurd (Or.inl hre) he
    have ht : tile.empty = false := by
      cases hte : tile.empty
      · rfl
      · exact absurd (Or.inr hte) he
    obtain ⟨ps1, hps1, hnd, hmem⟩ := HilbertRegion_generateGenerator_spec
      (fuel + HilbertRegion.fuelBound rect tile) rect tile hr ht (by omega)
    have hmono : HilbertRegion.generateGenerator (fuel + HilbertRegion.fuelBound rect tile)
        rect tile = some ps := by
      unfold HilbertRegion.generateGenerator at h ⊢
      rw [if_neg he] at h ⊢
      exact gilbert2d_fuel_mono fuel _ _ _ _ _ _ ps h
    rw [hmono] at hps1
    cases hps1
    refine ⟨hnd, ?_, fun _ => dimensions_nonempty tile ht⟩
    intro p hp
    have := (hmem p).1 hp
    have h0 : (0 : Int) ≤ ((rect.left / tile.width : Nat) : Int) := Int.natCast_nonneg _
    have h1 : (0 : Int) ≤ ((rect.top / tile.height : Nat) : Int) := Int.natCast_nonneg _
    omega

theorem HilbertSpiralRegion_generateCurve_spec (fuel : Nat) (rect : Rectangle)
    (tile region : RectangleDimensions) (centre : Nat × Nat)
    (hr : rect.empty = false) (ht : tile.empty = false) (hg : region.empty = false)
    (hc : HilbertSpiralRegion.centreInside rect tile centre)
    (hf : region.width + region.height ≤ fuel) :
    ∃ ps, HilbertSpiralRegion.generateCurve fuel rect tile region centre = some ps ∧
      Enumerates ps (fun p =>
        ((rect.left / tile.width : Nat) : Int) ≤ p.1 ∧
        p.1 ≤ (((rect.left + rect.width - 1) / tile.width : Nat) : Int) ∧
        ((rect.top / tile.height : Nat) : Int) ≤ p.2 ∧
        p.2 ≤ (((rect.top + rect.height - 1) / tile.height : Nat) : Int)) := by
  obtain ⟨hgw, hgh⟩ := dimensions_nonempty region hg
  obtain ⟨hc1, hc2, hc3, hc4⟩ := hc
  unfold HilbertSpiralRegion.generateCurve
  rw [if_neg (by simp [hr, ht, hg])]
  simp only []
  exact gilbert_spiral_spec fuel _ _ _ _ _ _ region.width region.height
    (by exact_mod_cast hc1) (by exact_mod_cast hc2) (by exact_mod_cast hc3)
    (by exact_mod_cast hc4) hgw hgh hf

theorem HilbertSpiralRegion_generateCurve_sound (fuel : Nat) (rect : Rectangle)
    (tile region : RectangleDimensions) (centre : Nat × Nat) (ps : List Point)
    (h : HilbertSpiralRegion.generateCurve fuel rect tile region centre = some ps) :
    ps.Nodup ∧ (∀ p ∈ ps, 0 ≤ p.1 ∧ 0 ≤ p.2) ∧ (ps ≠ [] → 0 < tile.width ∧ 0 < tile.height) := by
  by_cases he : rect.empty = true ∨ tile.empty = true ∨ region.empty = true
  · unfold HilbertSpiralRegion.generateCurve at h
    rw [if_pos he] at h
    cases h
    exact ⟨List.nodup_nil, fun p hp => absurd hp (List.not_mem_nil p), fun hne => absurd rfl hne⟩
  · have ht : tile.empty = false := by
      cases hte : tile.empty
      · rfl
      · exact absurd (Or.inr (Or.inl hte)) he
    unfold HilbertSpiralRegion.generateCurve at h
    rw [if_neg he] at h
    simp only [] at h
    have h0 := h
    unfold gilbert_spiral at h
    split_ifs at h with c1 c2 c3 c4
    · cases h
      exact ⟨List.nodup_nil, fun p hp => absurd hp (List.not_mem_nil p), fun hne => absurd rfl hne⟩
    · obtain ⟨ps1, hps1, hnd, hmem⟩ := gilbert_spiral_spec (fuel + (region.width + region.height))
        _ _ _ _ _ _ region.width region.height c2.1 c2.2 c3.1 c3.2 (by omega) (by omega)
        (by omega)
      rw [gilbert_spiral_fuel_mono fuel _ _ _ _ _ _ _ _ _ ps h0] at hps1
      cases hps1
      refine ⟨hnd, ?_, fun _ => dimensions_nonempty tile ht⟩
      intro p hp
      have := (hmem p).1 hp
      have h0 : (0 : Int) ≤ ((rect.left / tile.width : Nat) : Int) := Int.natCast_nonneg _
      have h1 : (0 : Int) ≤ ((rect.top / tile.height : Nat) : Int) := Int.natCast_nonneg _
      omega

/-- C6. Sub-rectangles produced by a tiler never overlap: in the sequence of rectangles that
`HilbertRegion` returns from `next()` or hands to the functor of `perform`, and in the sequence
that `HilbertSpiralRegion` returns from `next()`, any two entries have overlap 0, for every
rectangle, node dimensions, tile dimensions (region dimensions and centre); and with non-empty
tile dimensions (a non-empty region and a centre inside the rectangle, for the spiral) and
fuel for the curve the sequences exist. -/
theorem tiler_rectangles_never_overlap :
    (∀ (fuel : Nat) (rect : Rectangle) (node tile : RectangleDimensions) (rs : List Rectangle),
      (HilbertRegion.next fuel rect node tile = some rs ∨
        HilbertRegion.perform fuel rect node tile = some rs) →
      List.Pairwise (fun a b => a.overlap b = 0) rs) ∧
    (∀ (fuel : Nat) (rect : Rectangle) (centre : Nat × Nat)
      (node tile region : RectangleDimensions) (rs : List Rectangle),
      HilbertSpiralRegion.next fuel rect centre node tile region = some rs →
      List.Pairwise (fun a b => a.overlap b = 0) rs) ∧
    (∀ (fuel : Nat) (rect : Rectangle) (node tile : RectangleDimensions),
      tile.empty = false → HilbertRegion.fuelBound rect tile ≤ fuel →
      ∃ rs, HilbertRegion.next fuel rect node tile = some rs ∧
        HilbertRegion.perform fuel rect node tile = some rs) ∧
    (∀ (fuel : Nat) (rect : Rectangle) (centre : Nat × Nat)
      (node tile region : RectangleDimensions),
      tile.empty = false → region.empty = false →
      HilbertSpiralRegion.centreInside rect tile centre →
      region.width + region.height ≤ fuel →
      ∃ rs, HilbertSpiralRegion.next fuel rect centre node tile region = some rs) := by
  have hperform : ∀ fuel rect node tile,
      HilbertRegion.perform fuel rect node tile = HilbertRegion.next fuel rect node tile := by
    intro fuel rect node tile
    unfold HilbertRegion.perform HilbertRegion.next HilbertRegion.generateGenerator
    split_ifs <;> rfl
  refine ⟨?_, ?_, ?_, ?_⟩
  · intro fuel rect node tile rs h
    rw [hperform, or_self] at h
    simp only [HilbertRegion.next, Option.map_eq_some'] at h
    obtain ⟨ps, hps, rfl⟩ := h
    obtain ⟨hnd, hpos, hne⟩ := HilbertRegion_generateGenerator_sound fuel rect tile ps hps
    by_cases hnil : ps = []
    · subst hnil; exact List.Pairwise.nil
    · exact pairwise_tileAt node tile ps (hne hnil).1 (hne hnil).2 hnd hpos
  · intro fuel rect centre node tile region rs h
    simp only [HilbertSpiralRegion.next, Option.map_eq_some'] at h
    obtain ⟨ps, hps, rfl⟩ := h
    obtain ⟨hnd, hpos, hne⟩ :=
      HilbertSpiralRegion_generateCurve_sound fuel rect tile region centre ps hps
    by_cases hnil : ps = []
    · subst hnil; exact List.Pairwise.nil
    · exact pairwise_tileAt node tile ps (hne hnil).1 (hne hnil).2 hnd hpos
  · intro fuel rect node tile ht hf
    simp only [hperform, and_self]
    by_cases hr : rect.empty = true
    · refine ⟨[], ?_⟩
      simp [HilbertRegion.next, HilbertRegion.generateGenerator, hr]
    · obtain ⟨ps, hps, _⟩ := HilbertRegion_generateGenerator_spec fuel rect tile
        (by simpa using hr) ht hf
      exact ⟨ps.map (tileAt node tile), by simp only [HilbertRegion.next, hps, Option.map_some']⟩
  · intro fuel rect centre node tile region ht hg hc hf
    by_cases hr : rect.empty = true
    · refine ⟨[], ?_⟩
      simp [HilbertSpiralRegion.next, HilbertSpiralRegion.generateCurve, hr]
    · obtain ⟨ps, hps, _⟩ := HilbertSpiralRegion_generateCurve_spec fuel rect tile region centre
        (by simpa using hr) ht hg hc hf
      exact ⟨ps.map (tileAt node tile),
        by simp only [HilbertSpiralRegion.next, hps, Option.map_some']⟩

end ImageGraph


namespace ImageGraph

/-! ## Copying the overlap of two tiles -/

theorem forRange_invariant {σ : Type} (lo hi : Nat) (body : Nat → σ → Option σ) (init : σ)
    (Inv : Nat → σ → Prop) (hle : lo ≤ hi) (h0 : Inv lo init)
    (hstep : ∀ k s, lo ≤ k → k < hi → Inv k s → ∃ s1, body k s = some s1 ∧ Inv (k + 1) s1) :
    ∃ s, Tile.forRange lo hi body init = some s ∧ Inv hi s := by
  unfold Tile.forRange
  obtain ⟨n, rfl⟩ : ∃ n, hi = lo + n := ⟨hi - lo, by omega⟩
  rw [Nat.add_sub_cancel_left]
  clear hle
  induction n with
  | zero => exact ⟨init, rfl, h0⟩
  | succ n ih =>
    obtain ⟨s, hs, hinv⟩ := ih fun k s hk hlt hi => hstep k s hk (by omega) hi
    obtain ⟨s1, hs1, hinv1⟩ := hstep (lo + n) s (by omega) (by omega) hinv
    refine ⟨s1, ?_, hinv1⟩
    rw [List.range_succ, List.foldlM_append, hs]
    simp only [Option.bind_eq_bind, Option.some_bind, List.foldlM_cons, List.foldlM_nil, hs1]
    rfl

theorem forRange_empty {σ : Type} (lo hi : Nat) (body : Nat → σ → Option σ) (init : σ)
    (h : hi ≤ lo) : Tile.forRange lo hi body init = some init := by
  unfold Tile.forRange
  have : hi - lo = 0 := by omega
  rw [this]
  rfl

theorem mixed_radix_inj (n q r q1 r1 : Nat) (hr : r < n) (hr1 : r1 < n)
    (h : n * q + r = n * q1 + r1) : q = q1 ∧ r = r1 := by
  have hn : 0 < n := by omega
  have e1 : (n * q + r) / n = q := by
    rw [Nat.mul_add_div hn, Nat.div_eq_of_lt hr, Nat.add_zero]
  have e2 : (n * q1 + r1) / n = q1 := by
    rw [Nat.mul_add_div hn, Nat.div_eq_of_lt hr1, Nat.add_zero]
  have hq : q = q1 := by rw [← e1, ← e2, h]
  subst hq
  exact ⟨rfl, by omega⟩

theorem Tile_index_eq {α : Type} (t : Tile α) (x y c : Nat) (h : t.rectangle_.covers x y) :
    t.index x y c = t.channels_ * (t.rectangle_.width * (y - t.rectangle_.top) +
      (x - t.rectangle_.left)) + c := by
  obtain ⟨h1, h2, h3, h4⟩ := h
  unfold Tile.index Tile.top Tile.left Tile.width
  rw [Nat.mul_comm (y - t.rectangle_.top) t.rectangle_.width]
  generalize t.rectangle_.width * (y - t.rectangle_.top) = A
  congr 2
  omega

theorem Tile_index_lt {α : Type} (t : Tile α) (x y c : Nat) (hw : t.WellSized)
    (h : t.rectangle_.covers x y) (hc : c < t.channels_) : t.index x y c < t.data_.length := by
  rw [Tile_index_eq t x y c h, hw]
  obtain ⟨h1, h2, h3, h4⟩ := h
  unfold Rectangle.size RectangleDimensions.size Rectangle.dimensions
  simp only []
  have hy : y - t.rectangle_.top + 1 ≤ t.rectangle_.height := by omega
  have hx : x - t.rectangle_.left < t.rectangle_.width := by omega
  have e1 : t.rectangle_.width * (y - t.rectangle_.top) + (x - t.rectangle_.left) + 1 ≤
      t.rectangle_.width * t.rectangle_.height := by
    calc t.rectangle_.width * (y - t.rectangle_.top) + (x - t.rectangle_.left) + 1
        ≤ t.rectangle_.width * (y - t.rectangle_.top) + t.rectangle_.width := by omega
      _ = t.rectangle_.width * (y - t.rectangle_.top + 1) := by ring
      _ ≤ t.rectangle_.width * t.rectangle_.height := Nat.mul_le_mul_left _ hy
  calc t.channels_ * (t.rectangle_.width * (y - t.rectangle_.top) + (x - t.rectangle_.left)) + c
      < t.channels_ * (t.rectangle_.width * (y - t.rectangle_.top) + (x - t.rectangle_.left)) +
          t.channels_ := by omega
    _ = t.channels_ * (t.rectangle_.width * (y - t.rectangle_.top) + (x - t.rectangle_.left) + 1) := by
        ring
    _ ≤ t.channels_ * (t.rectangle_.width * t.rectangle_.height) := Nat.mul_le_mul_left _ e1
    _ = t.rectangle_.width * t.rectangle_.height * t.channels_ := by ring

theorem Tile_index_inj {α : Type} (t : Tile α) (x y c x1 y1 c1 : Nat)
    (h : t.rectangle_.covers x y) (h1 : t.rectangle_.covers x1 y1)
    (hc : c < t.channels_) (hc1 : c1 < t.channels_)
    (he : t.index x y c = t.index x1 y1 c1) : x = x1 ∧ y = y1 ∧ c = c1 := by
  rw [Tile_index_eq t x y c h, Tile_index_eq t x1 y1 c1 h1] at he
  obtain ⟨ha, hcc⟩ := mixed_radix_inj _ _ _ _ _ hc hc1 he
  obtain ⟨g1, g2, g3, g4⟩ := h
  obtain ⟨k1, k2, k3, k4⟩ := h1
  obtain ⟨hy, hx⟩ := mixed_radix_inj t.rectangle_.width _ _ _ _ (by omega) (by omega) ha
  omega

theorem copied_congr {α : Type} {t other : Tile α} {P Q : Nat → Nat → Nat → Prop} {d : List α}
    (h : t.Copied other P d)
    (hpq : ∀ x y c, t.rectangle_.covers x y → c < t.channels_ → (P x y c ↔ Q x y c)) :
    t.Copied other Q d := by
  refine ⟨h.1, fun x y c hcov hc => ?_⟩
  obtain ⟨h1, h2⟩ := h.2 x y c hcov hc
  exact ⟨fun hq => h1 ((hpq x y c hcov hc).2 hq), fun hq => h2 fun hp => hq ((hpq x y c hcov hc).1 hp)⟩

theorem copyElement_spec {α : Type} (t other : Tile α) (P : Nat → Nat → Nat → Prop)
    (d : List α) (x0 y0 c0 : Nat) (hw : t.WellSized) (how : other.WellSized)
    (hch : t.channels_ = other.channels_)
    (ht : t.rectangle_.covers x0 y0) (ho : other.rectangle_.covers x0 y0)
    (hc0 : c0 < t.channels_) (h : t.Copied other P d) :
    ∃ d1, Tile.copyElement other d t.left t.top t.width t.channels_ y0 x0 c0 = some d1 ∧
      t.Copied other (fun x y c => P x y c ∨ (x = x0 ∧ y = y0 ∧ c = c0)) d1 := by
  have hlt : other.index x0 y0 c0 < other.data_.length :=
    Tile_index_lt other x0 y0 c0 how ho (hch ▸ hc0)
  have hlt1 : t.index x0 y0 c0 < d.length := by
    rw [h.1]; exact Tile_index_lt t x0 y0 c0 hw ht hc0
  have e1 : t.channels_ * ((y0 - other.top) * other.width + x0 - other.left) + c0 =
      other.index x0 y0 c0 := by
    unfold Tile.index; rw [hch]
  have e2 : t.channels_ * ((y0 - t.top) * t.width + x0 - t.left) + c0 = t.index x0 y0 c0 := rfl
  unfold Tile.copyElement
  rw [e1, e2, List.getElem?_eq_getElem hlt]
  simp only []
  rw [if_pos hlt1]
  refine ⟨_, rfl, ?_, ?_⟩
  · rw [List.length_set]; exact h.1
  · intro x y c hcov hc
    obtain ⟨h1, h2⟩ := h.2 x y c hcov hc
    by_cases heq : x = x0 ∧ y = y0 ∧ c = c0
    · obtain ⟨rfl, rfl, rfl⟩ := heq
      refine ⟨fun _ => ?_, fun hn => absurd (Or.inr ⟨rfl, rfl, rfl⟩) hn⟩
      rw [List.getElem?_set_self hlt1, List.getElem?_eq_getElem hlt]
    · have hne : t.index x0 y0 c0 ≠ t.index x y c := by
        intro he
        obtain ⟨a, b, c⟩ := Tile_index_inj t x0 y0 c0 x y c ht hcov hc0 hc he
        exact heq ⟨a.symm, b.symm, c.symm⟩
      rw [List.getElem?_set_ne hne]
      constructor
      · rintro (hp | hp)
        · exact h1 hp
        · exact absurd hp heq
      · intro hn
        exact h2 fun hp => hn (Or.inl hp)

/-- `copyOverlap` copies exactly the intersection: it succeeds on well-sized tiles with equal
channel counts, keeps rectangle, channel count and buffer length, and afterwards holds the
element of `other` at every pixel of the intersection and the old element elsewhere. -/
theorem copyOverlap_spec {α : Type} (t other : Tile α) (hw : t.WellSized) (how : other.WellSized)
    (hch : t.channels_ = other.channels_) :
    ∃ t1, t.copyOverlap other = some t1 ∧ t1.rectangle_ = t.rectangle_ ∧
      t1.channels_ = t.channels_ ∧
      t.Copied other (fun x y _ => other.rectangle_.covers x y) t1.data_ := by
  unfold Tile.copyOverlap
  rw [if_neg (by simpa using hch)]
  simp only []
  have hrows : ∀ ye, max t.top other.top ≤ ye →
      ye ≤ max (max t.top other.top) (min (t.top + t.height) (other.top + other.height)) →
      ∃ d, Tile.forRange (max t.top other.top) ye (fun y d =>
        Tile.forRange (max t.left other.left) (min (t.left + t.width) (other.left + other.width))
          (fun x d => Tile.forRange 0 t.channels_ (fun channel d =>
            Tile.copyElement other d t.left t.top t.width t.channels_ y x channel) d) d)
          t.data_ = some d ∧
        t.Copied other (fun x y _ => other.rectangle_.covers x y ∧ y < ye) d := by
    intro ye hye1 hye2
    refine forRange_invariant _ _ _ _
      (fun k d => t.Copied other (fun x y _ => other.rectangle_.covers x y ∧ y < k) d) hye1 ?_ ?_
    · refine ⟨rfl, fun x y c hcov hc => ⟨?_, fun _ => rfl⟩⟩
      rintro ⟨ho, hlt⟩
      obtain ⟨_, _, h3, _⟩ := hcov
      obtain ⟨_, _, k3, _⟩ := ho
      simp only [Tile.top] at hlt
      omega
    · intro y d hy1 hy2 hinv
      by_cases hxe : min (t.left + t.width) (other.left + other.width) ≤ max t.left other.left
      · rw [forRange_empty _ _ _ _ hxe]
        refine ⟨d, rfl, copied_congr hinv ?_⟩
        intro x y1 c hcov _
        obtain ⟨g1, g2, _, _⟩ := hcov
        simp only [Rectangle.covers, Tile.left, Tile.width] at hxe ⊢
        constructor
        · rintro ⟨ho, hlt⟩; exact ⟨ho, by omega⟩
        · rintro ⟨ho, hlt⟩; omega
      · obtain ⟨d1, hd1, hinv1⟩ := forRange_invariant (max t.left other.left)
          (min (t.left + t.width) (other.left + other.width))
          (fun x d => Tile.forRange 0 t.channels_ (fun channel d =>
            Tile.copyElement other d t.left t.top t.width t.channels_ y x channel) d) d
          (fun k d => t.Copied other (fun x1 y1 _ =>
            (other.rectangle_.covers x1 y1 ∧ y1 < y) ∨ (y1 = y ∧ max t.left other.left ≤ x1 ∧ x1 < k)) d)
          (by omega)
          (copied_congr hinv fun x1 y1 c _ _ => by
            constructor
            · intro h; exact Or.inl h
            · rintro (h | h)
              · exact h
              · omega)
          (by
            intro x d2 hx1 hx2 hinv2
            have htc : t.rectangle_.covers x y := by
              simp only [Rectangle.covers, Tile.left, Tile.width, Tile.top, Tile.height] at *
              omega
            have hoc : other.rectangle_.covers x y := by
              simp only [Rectangle.covers, Tile.left, Tile.width, Tile.top, Tile.height] at *
              omega
            obtain ⟨d3, hd3, hinv3⟩ := forRange_invariant 0 t.channels_
              (fun channel d => Tile.copyElement other d t.left t.top t.width t.channels_ y x channel)
              d2
              (fun k d => t.Copied other (fun x1 y1 c1 =>
                ((other.rectangle_.covers x1 y1 ∧ y1 < y) ∨
                  (y1 = y ∧ max t.left other.left ≤ x1 ∧ x1 < x)) ∨
                (x1 = x ∧ y1 = y ∧ c1 < k)) d)
              (Nat.zero_le _)
              (copied_congr hinv2 fun x1 y1 c1 _ _ => by
                constructor
                · intro h; exact Or.inl h
                · rintro (h | h)
                  · exact h
                  · omega)
              (by
                intro c d4 _ hc2 hinv4
                obtain ⟨d5, hd5, hinv5⟩ :=
                  copyElement_spec t other _ d4 x y c hw how hch htc hoc hc2 hinv4
                refine ⟨d5, hd5, copied_congr hinv5 ?_⟩
                intro x1 y1 c1 _ _
                constructor
                · rintro ((h | h) | h)
                  · exact Or.inl h
                  · exact Or.inr ⟨h.1, h.2.1, by omega⟩
                  · exact Or.inr ⟨h.1, h.2.1, by omega⟩
                · rintro (h | h)
                  · exact Or.inl (Or.inl h)
                  · by_cases hcc : c1 = c
                    · exact Or.inr ⟨h.1, h.2.1, hcc⟩
                    · exact Or.inl (Or.inr ⟨h.1, h.2.1, by omega⟩))
            refine ⟨d3, hd3, copied_congr hinv3 ?_⟩
            intro x1 y1 c1 _ hc1
            constructor
            · rintro ((h | h) | h)
              · exact Or.inl h
              · exact Or.inr ⟨h.1, h.2.1, by omega⟩
              · exact Or.inr ⟨h.2.1, by omega, by omega⟩
            · rintro (h | h)
              · exact Or.inl (Or.inl h)
              · by_cases hxx : x1 = x
                · exact Or.inr ⟨hxx, h.1, hc1⟩
                · exact Or.inl (Or.inr ⟨h.1, h.2.1, by omega⟩))
        refine ⟨d1, hd1, copied_congr hinv1 ?_⟩
        intro x1 y1 c1 hcov _
        obtain ⟨g1, g2, g3, g4⟩ := hcov
        simp only [Rectangle.covers, Tile.left, Tile.width, Tile.top, Tile.height] at *
        constructor
        · rintro (h | h)
          · exact ⟨h.1, by omega⟩
          · omega
        · rintro ⟨h, hlt⟩
          by_cases hyy : y1 = y
          · right; omega
          · left; exact ⟨h, by omega⟩
  by_cases hye : min (t.top + t.height) (other.top + other.height) ≤ max t.top other.top
  · rw [forRange_empty _ _ _ _ hye]
    refine ⟨_, rfl, rfl, rfl, rfl, fun x y c hcov hc => ⟨?_, fun _ => rfl⟩⟩
    intro ho
    obtain ⟨_, _, g3, g4⟩ := hcov
    obtain ⟨_, _, k3, k4⟩ := ho
    simp only [Tile.top, Tile.height] at hye
    omega
  · obtain ⟨d, hd, hinv⟩ := hrows (min (t.top + t.height) (other.top + other.height))
      (by omega) (by omega)
    rw [hd]
    refine ⟨_, rfl, rfl, rfl, copied_congr hinv ?_⟩
    intro x y c hcov _
    obtain ⟨_, _, g3, g4⟩ := hcov
    simp only [Rectangle.covers, Tile.top, Tile.height]
    constructor
    · rintro ⟨h, _⟩; exact h
    · intro h; exact ⟨h, by omega⟩

theorem Tile_get_eq_index {α : Type} (t : Tile α) (x y c : Nat) (h : t.rectangle_.covers x y) :
    t.get (x - t.left) (y - t.top) c = t.data_[t.index x y c]? := by
  rw [Tile_index_eq t x y c h]
  unfold Tile.get Tile.left Tile.top Tile.width
  congr 2
  ring

theorem copyOverlap_wellSized {α : Type} (t other t1 : Tile α)
    (hr : t1.rectangle_ = t.rectangle_) (hc : t1.channels_ = t.channels_)
    (hcop : t.Copied other (fun x y _ => other.rectangle_.covers x y) t1.data_)
    (hw : t.WellSized) : t1.WellSized := by
  unfold Tile.WellSized at hw ⊢
  rw [hcop.1, hr, hc, hw]

theorem Tile_index_congr {α : Type} (t t1 : Tile α) (hr : t1.rectangle_ = t.rectangle_)
    (hc : t1.channels_ = t.channels_) (x y c : Nat) : t1.index x y c = t.index x y c := by
  unfold Tile.index Tile.top Tile.left Tile.width
  rw [hr, hc]

/-- Merging a list of tiles: the merge succeeds, keeps the output's rectangle and channel
count; a pixel that no tile covers keeps its element, and when no two tiles share a pixel, a
pixel that a tile covers holds that tile's element. -/
theorem mergeTiles_spec {α : Type} (tiles : List (Tile α)) :
    ∀ (output : Tile α), output.WellSized →
      (∀ t ∈ tiles, t.channels_ = output.channels_ ∧ t.WellSized) →
      ∃ merged, mergeTiles output tiles = some merged ∧
        merged.rectangle_ = output.rectangle_ ∧ merged.channels_ = output.channels_ ∧
        merged.WellSized ∧
        (∀ x y c, output.rectangle_.covers x y → c < output.channels_ →
          (∀ t ∈ tiles, ¬ t.rectangle_.covers x y) →
          merged.data_[merged.index x y c]? = output.data_[output.index x y c]?) ∧
        (List.Pairwise (fun a b : Tile α =>
            ∀ x y, ¬ (a.rectangle_.covers x y ∧ b.rectangle_.covers x y)) tiles →
          ∀ t ∈ tiles, ∀ x y c, output.rectangle_.covers x y → t.rectangle_.covers x y →
            c < output.channels_ →
            merged.data_[merged.index x y c]? = t.data_[t.index x y c]?) := by
  induction tiles with
  | nil =>
    intro output hw _
    exact ⟨output, rfl, rfl, rfl, hw, fun _ _ _ _ _ _ => rfl,
      fun _ t ht => absurd ht (List.not_mem_nil t)⟩
  | cons tile rest ih =>
    intro output hw hall
    obtain ⟨htc, htw⟩ := hall tile (List.mem_cons_self _ _)
    obtain ⟨o1, ho1, hr1, hc1, hcop⟩ := copyOverlap_spec output tile hw htw htc.symm
    have hw1 := copyOverlap_wellSized output tile o1 hr1 hc1 hcop hw
    obtain ⟨merged, hm, hmr, hmc, hmw, hkeep, hcov⟩ := ih o1 hw1 (fun t ht => by
      obtain ⟨a, b⟩ := hall t (List.mem_cons_of_mem _ ht)
      exact ⟨by rw [hc1]; exact a, b⟩)
    have hidx : ∀ x y c, o1.index x y c = output.index x y c :=
      Tile_index_congr output o1 hr1 hc1
    refine ⟨merged, by simp only [mergeTiles, ho1, hm], hmr.trans hr1, hmc.trans hc1, hmw,
      ?_, ?_⟩
    · intro x y c hcv hc hnone
      rw [hkeep x y c (hr1 ▸ hcv) (hc1 ▸ hc) fun t ht => hnone t (List.mem_cons_of_mem _ ht),
        hidx]
      exact (hcop.2 x y c hcv hc).2 (hnone tile (List.mem_cons_self _ _))
    · intro hpw t ht x y c hcv htcv hc
      rw [List.pairwise_cons] at hpw
      rcases List.mem_cons.1 ht with rfl | hin
      · rw [hkeep x y c (hr1 ▸ hcv) (hc1 ▸ hc) fun t1 ht1 hcv1 => hpw.1 t1 ht1 x y ⟨htcv, hcv1⟩,
          hidx]
        exact (hcop.2 x y c hcv hc).1 htcv
      · exact hcov hpw.2 t hin x y c (hr1 ▸ hcv) htcv (hc1 ▸ hc)

theorem overlap_zero_not_covers (r o : Rectangle) (h : r.overlap o = 0) (x y : Nat) :
    ¬ (r.covers x y ∧ o.covers x y) := by
  rintro ⟨⟨a1, a2, a3, a4⟩, ⟨b1, b2, b3, b4⟩⟩
  unfold Rectangle.overlap at h
  simp only [] at h
  rw [if_pos (by omega), if_pos (by omega)] at h
  rcases Nat.mul_eq_zero.1 h with h1 | h1 <;> omega

end ImageGraph


namespace ImageGraph

/-! ## The tiles of a sink -/

theorem tiler_rectangles_never_overlap_witness :
    (HilbertRegion.next 4 ⟨0, 0, 64, 64⟩ ⟨64, 64⟩ ⟨32, 32⟩ =
        some [⟨0, 0, 32, 32⟩, ⟨0, 32, 32, 32⟩, ⟨32, 32, 32, 32⟩, ⟨32, 0, 32, 32⟩] ∧
      List.Pairwise (fun a b : Rectangle => a.overlap b = 0)
        [⟨0, 0, 32, 32⟩, ⟨0, 32, 32, 32⟩, ⟨32, 32, 32, 32⟩, ⟨32, 0, 32, 32⟩]) ∧
    (HilbertSpiralRegion.next 4 ⟨0, 0, 70, 40⟩ (35, 20) ⟨70, 40⟩ ⟨32, 32⟩ ⟨2, 2⟩ =
        some [⟨0, 0, 32, 32⟩, ⟨0, 32, 32, 8⟩, ⟨32, 32, 32, 8⟩, ⟨32, 0, 32, 32⟩,
          ⟨64, 0, 6, 32⟩, ⟨64, 32, 6, 8⟩] ∧
      List.Pairwise (fun a b : Rectangle => a.overlap b = 0)
        [⟨0, 0, 32, 32⟩, ⟨0, 32, 32, 8⟩, ⟨32, 32, 32, 8⟩, ⟨32, 0, 32, 32⟩,
          ⟨64, 0, 6, 32⟩, ⟨64, 32, 6, 8⟩]) :=
  ⟨⟨by decide, tiler_rectangles_never_overlap.1 4 ⟨0, 0, 64, 64⟩ ⟨64, 64⟩ ⟨32, 32⟩ _
      (Or.inl (by decide))⟩,
   ⟨by decide, tiler_rectangles_never_overlap.2.1 4 ⟨0, 0, 70, 40⟩ (35, 20) ⟨70, 40⟩ ⟨32, 32⟩
      ⟨2, 2⟩ _ (by decide)⟩⟩

theorem countP_eq_one_of_nodup {β : Type} [DecidableEq β] (l : List β) (a : β)
    (hnd : l.Nodup) (ha : a ∈ l) : l.countP (fun q => decide (q = a)) = 1 := by
  induction l with
  | nil => cases ha
  | cons b rest ih =>
    rw [List.nodup_cons] at hnd
    by_cases hb : b = a
    · subst hb
      rw [List.countP_cons_of_pos _ _ (by simp)]
      have h0 : rest.countP (fun q => decide (q = b)) = 0 := by
        rw [List.countP_eq_zero]
        intro q hq
        simp only [decide_eq_true_eq]
        rintro rfl
        exact hnd.1 hq
      rw [h0]
    · rw [List.countP_cons_of_neg _ _ (by simpa using hb)]
      rcases List.mem_cons.1 ha with h | h
      · exact absurd h.symm hb
      · exact ih hnd.2 h

/-- C1. For a sink over a node of dimensions `w x h` with `w, h >= 1`, the rectangles its merge
task requests (`HilbertSpiralRegion`, 32x32 tiles, 2x2 regions, centre `(w / 2, h / 2)`) exist
and partition `[0, w) x [0, h)`: every pixel of the rectangle lies in exactly one of them and
they cover nothing else.  So when the tiles for these rectangles have arrived in any order and
the merge task has applied `copyOverlap` for each, the merge has succeeded and every element of
the output is the element of the one tile that contains its pixel. -/
theorem sink_tiles_partition_output (α : Type) (w h : Nat) (hw : 1 ≤ w) (hh : 1 ≤ h)
    (fuel : Nat) (hf : 4 ≤ fuel) :
    ∃ tiles, MergeTileTask.requests fuel ⟨w, h⟩ = some tiles ∧
      (∀ x y, x < w → y < h → tiles.countP (fun r => decide (r.covers x y)) = 1) ∧
      (∀ r ∈ tiles, ∀ x y, r.covers x y → x < w ∧ y < h) ∧
      (∀ (output : Tile α) (arrived : List (Tile α)),
        output.rectangle_ = Rectangle.ofDimensions ⟨w, h⟩ → output.WellSized →
        (arrived.map fun t => t.rectangle_).Perm tiles →
        (∀ t ∈ arrived, t.channels_ = output.channels_ ∧ t.WellSized) →
        ∃ merged, mergeTiles output arrived = some merged ∧
          merged.rectangle_ = output.rectangle_ ∧ merged.channels_ = output.channels_ ∧
          ∀ t ∈ arrived, ∀ x y c, t.rectangle_.covers x y → c < output.channels_ →
            merged.get x y c = t.get (x - t.left) (y - t.top) c) := by
  obtain ⟨ps, hps, hnd, hmem⟩ := HilbertSpiralRegion_generateCurve_spec fuel
    (Rectangle.ofDimensions ⟨w, h⟩) ⟨32, 32⟩ ⟨2, 2⟩ (w / 2, h / 2)
    (by
      simp only [Rectangle.empty, Rectangle.dimensions, Rectangle.ofDimensions,
        RectangleDimensions.empty, RectangleDimensions.size, beq_eq_false_iff_ne, ne_eq,
        Nat.mul_eq_zero, not_or]
      omega)
    (by decide) (by decide)
    (by
      simp only [HilbertSpiralRegion.centreInside, Rectangle.ofDimensions]
      omega)
    (by simpa using hf)
  simp only [Rectangle.ofDimensions] at hmem
  have hcov : ∀ q ∈ ps, ∀ x y,
      (tileAt ⟨w, h⟩ ⟨32, 32⟩ q).covers x y ↔
        (q = (((x / 32 : Nat) : Int), ((y / 32 : Nat) : Int)) ∧ x < w ∧ y < h) := by
    intro q hq x y
    have hq1 := (hmem q).1 hq
    have eq : q = ((q.1.toNat : Int), (q.2.toNat : Int)) := by
      apply Prod.ext <;> simp only <;> omega
    rw [eq, tileAt_covers ⟨w, h⟩ ⟨32, 32⟩ _ _ x y (by decide) (by decide)]
    simp only [Prod.mk.injEq]
    omega
  have htiles : MergeTileTask.requests fuel ⟨w, h⟩ = some (ps.map (tileAt ⟨w, h⟩ ⟨32, 32⟩)) := by
    simp only [MergeTileTask.requests, HilbertSpiralRegion.next, hps, Option.map_some']
  have hwithin : ∀ r ∈ ps.map (tileAt ⟨w, h⟩ ⟨32, 32⟩), ∀ x y, r.covers x y → x < w ∧ y < h := by
    intro r hr x y hc
    obtain ⟨q, hq, rfl⟩ := List.mem_map.1 hr
    exact ((hcov q hq x y).1 hc).2
  refine ⟨_, htiles, ?_, hwithin, ?_⟩
  · intro x y hx hy
    rw [List.countP_map]
    have hin : (((x / 32 : Nat) : Int), ((y / 32 : Nat) : Int)) ∈ ps := by
      rw [hmem]; simp only; omega
    rw [← countP_eq_one_of_nodup ps _ hnd hin]
    refine List.countP_congr ?_
    intro q hq
    simp only [Function.comp, decide_eq_true_eq]
    rw [hcov q hq x y]
    constructor
    · rintro ⟨h1, _⟩; exact h1
    · intro h1; exact ⟨h1, hx, hy⟩
  · intro output arrived hrect hwell hperm hall
    obtain ⟨merged, hm, hmr, hmc, _, _, hmcov⟩ := mergeTiles_spec arrived output hwell hall
    refine ⟨merged, hm, hmr, hmc, ?_⟩
    have hpw0 : List.Pairwise (fun a b : Rectangle => ∀ x y, ¬ (a.covers x y ∧ b.covers x y))
        (ps.map (tileAt ⟨w, h⟩ ⟨32, 32⟩)) := by
      rw [List.pairwise_map]
      refine List.Pairwise.imp_of_mem ?_ hnd
      intro p q hp hq hpq x y hboth
      apply hpq
      rw [((hcov p hp x y).1 hboth.1).1, ((hcov q hq x y).1 hboth.2).1]
    have hpw1 : List.Pairwise (fun a b : Rectangle => ∀ x y, ¬ (a.covers x y ∧ b.covers x y))
        (arrived.map fun t => t.rectangle_) :=
      (List.Perm.pairwise_iff (fun {a b} hab x y hc => hab x y ⟨hc.2, hc.1⟩) hperm).2 hpw0
    rw [List.pairwise_map] at hpw1
    intro t ht x y c htc hc
    have hxy : x < w ∧ y < h :=
      hwithin t.rectangle_ (hperm.subset (List.mem_map_of_mem _ ht)) x y htc
    have hoc : output.rectangle_.covers x y := by
      rw [hrect]; simp only [Rectangle.covers, Rectangle.ofDimensions]; omega
    have hmcv : merged.rectangle_.covers x y := hmr ▸ hoc
    have e := Tile_get_eq_index merged x y c hmcv
    have hml : merged.left = 0 := by
      unfold Tile.left; rw [hmr, hrect]; rfl
    have hmt : merged.top = 0 := by
      unfold Tile.top; rw [hmr, hrect]; rfl
    rw [hml, hmt, Nat.sub_zero, Nat.sub_zero] at e
    rw [e, Tile_get_eq_index t x y c htc]
    exact hmcov hpw1 t ht x y c hoc htc hc

theorem sink_tiles_partition_output_witness :
    ∃ tiles, MergeTileTask.requests 4 ⟨70, 40⟩ = some tiles ∧
      (∀ x y, x < 70 → y < 40 → tiles.countP (fun r => decide (r.covers x y)) = 1) ∧
      (∀ r ∈ tiles, ∀ x y, r.covers x y → x < 70 ∧ y < 40) ∧
      (∀ (output : Tile Nat) (arrived : List (Tile Nat)),
        output.rectangle_ = Rectangle.ofDimensions ⟨70, 40⟩ → output.WellSized →
        (arrived.map fun t => t.rectangle_).Perm tiles →
        (∀ t ∈ arrived, t.channels_ = output.channels_ ∧ t.WellSized) →
        ∃ merged, mergeTiles output arrived = some merged ∧
          merged.rectangle_ = output.rectangle_ ∧ merged.channels_ = output.channels_ ∧
          ∀ t ∈ arrived, ∀ x y c, t.rectangle_.covers x y → c < output.channels_ →
            merged.get x y c = t.get (x - t.left) (y - t.top) c) :=
  sink_tiles_partition_output Nat 70 40 (by decide) (by decide) 4 (by decide)

end ImageGraph


namespace ImageGraph

/-! ## The relevance chooser -/

theorem OutputInfo_lt_asymm {T : Type} (a b : OutputInfo T) (h : a.lt b) : ¬ b.lt a := by
  unfold OutputInfo.lt at *
  rintro (h1 | ⟨h1, h2⟩)
  · rcases h with h | ⟨h, _⟩
    · exact lt_asymm h h1
    · rw [h] at h1; exact lt_irrefl _ h1
  · rcases h with h | ⟨_, h⟩
    · rw [h1] at h; exact lt_irrefl _ h
    · exact lt_asymm h h2

theorem OutputInfo_lt_trans {T : Type} (a b c : OutputInfo T) (h1 : a.lt b) (h2 : b.lt c) :
    a.lt c := by
  unfold OutputInfo.lt at *
  rcases h1 with h1 | ⟨h1, h1r⟩
  · rcases h2 with h2 | ⟨h2, _⟩
    · exact Or.inl (lt_trans h1 h2)
    · exact Or.inl (h2 ▸ h1)
  · rcases h2 with h2 | ⟨h2, h2r⟩
    · exact Or.inl (h1 ▸ h2)
    · exact Or.inr ⟨h1.trans h2, lt_trans h1r h2r⟩

theorem OutputInfo_not_lt_trans {T : Type} (a b c : OutputInfo T) (h1 : ¬ b.lt a)
    (h2 : ¬ c.lt b) : ¬ c.lt a := by
  unfold OutputInfo.lt at *
  push_neg at *
  obtain ⟨h1a, h1b⟩ := h1
  obtain ⟨h2a, h2b⟩ := h2
  refine ⟨le_trans h1a h2a, ?_⟩
  intro heq
  have e1 : b.relative_count = a.relative_count := le_antisymm (heq ▸ h2a) h1a
  have e2 : c.relative_count = b.relative_count := heq.trans e1.symm
  exact le_trans (h1b e1) (h2b e2)

/-- `std::min_element` returns an element that no element of the range is smaller than. -/
theorem minElementFrom_spec {T : Type} (rest : List (OutputInfo T)) :
    ∀ (best : Nat) (smallest : OutputInfo T) (idx : Nat),
      ¬ smallest.lt (minElementFrom best smallest idx rest).2 ∧
      (∀ r ∈ rest, ¬ r.lt (minElementFrom best smallest idx rest).2) ∧
      ((minElementFrom best smallest idx rest = (best, smallest)) ∨
        ∃ j, rest[j]? = some (minElementFrom best smallest idx rest).2 ∧
          (minElementFrom best smallest idx rest).1 = idx + j) := by
  induction rest with
  | nil =>
    intro best smallest idx
    refine ⟨?_, fun r hr => absurd hr (List.not_mem_nil r), Or.inl rfl⟩
    intro h; exact OutputInfo_lt_asymm _ _ h h
  | cons e rest ih =>
    intro best smallest idx
    simp only [minElementFrom]
    by_cases he : e.lt smallest
    · rw [if_pos he]
      obtain ⟨h1, h2, h3⟩ := ih idx e (idx + 1)
      refine ⟨?_, ?_, ?_⟩
      · exact OutputInfo_not_lt_trans _ _ _ h1 (OutputInfo_lt_asymm _ _ he)
      · intro r hr
        rcases List.mem_cons.1 hr with rfl | hr
        · exact h1
        · exact h2 r hr
      · right
        rcases h3 with h3 | ⟨j, hj, hk⟩
        · exact ⟨0, by rw [h3]; simp, by rw [h3]; simp⟩
        · exact ⟨j + 1, by rw [List.getElem?_cons_succ]; exact hj, by rw [hk]; omega⟩
    · rw [if_neg he]
      obtain ⟨h1, h2, h3⟩ := ih best smallest (idx + 1)
      refine ⟨h1, ?_, ?_⟩
      · intro r hr
        rcases List.mem_cons.1 hr with rfl | hr
        · exact OutputInfo_not_lt_trans _ _ _ h1 he
        · exact h2 r hr
      · rcases h3 with h3 | ⟨j, hj, hk⟩
        · exact Or.inl h3
        · exact Or.inr ⟨j + 1, by rw [List.getElem?_cons_succ]; exact hj, by rw [hk]; omega⟩

theorem minElement_spec {T : Type} (l : List (OutputInfo T)) (hne : l ≠ []) :
    ∃ k e, minElement l = some (k, e) ∧ l[k]? = some e ∧ ∀ r ∈ l, ¬ r.lt e := by
  cases l with
  | nil => exact absurd rfl hne
  | cons a rest =>
    obtain ⟨h1, h2, h3⟩ := minElementFrom_spec rest 0 a 1
    refine ⟨(minElementFrom 0 a 1 rest).1, (minElementFrom 0 a 1 rest).2, rfl, ?_, ?_⟩
    · rcases h3 with h3 | ⟨j, hj, hk⟩
      · rw [h3]; simp
      · rw [hk, Nat.add_comm, List.getElem?_cons_succ]; exact hj
    · intro r hr
      rcases List.mem_cons.1 hr with rfl | hr
      · exact h1
      · exact h2 r hr

theorem mem_of_getElem?_eq_some {β : Type} (l : List β) (k : Nat) (e : β)
    (h : l[k]? = some e) : e ∈ l := by
  obtain ⟨hk, he⟩ := List.getElem?_eq_some.1 h
  exact he ▸ List.getElem_mem hk

end ImageGraph


namespace ImageGraph

theorem setOutData_out (a : ProtoGraphAdaptor) (node : Nat) (data : OutData) (n : Nat) :
    (a.setOutData node data).out_data_ n = if n = node then some data else a.out_data_ n := rfl

theorem frameBelow_refl (k : Nat) (a : ProtoGraphAdaptor) : ProtoGraphAdaptor.FrameBelow k a a :=
  ⟨fun _ _ => rfl, fun _ h => h, rfl, rfl, rfl⟩

theorem frameBelow_trans {k : Nat} {a b c : ProtoGraphAdaptor}
    (h1 : ProtoGraphAdaptor.FrameBelow k a b) (h2 : ProtoGraphAdaptor.FrameBelow k b c) :
    ProtoGraphAdaptor.FrameBelow k a c :=
  ⟨fun n hn => (h2.1 n hn).trans (h1.1 n hn), fun j hj => h2.2.1 j (h1.2.1 j hj),
    h2.2.2.1.trans h1.2.2.1, h2.2.2.2.1.trans h1.2.2.2.1, h2.2.2.2.2.trans h1.2.2.2.2⟩

theorem frameBelow_mono {k l : Nat} {a b : ProtoGraphAdaptor} (hkl : k ≤ l)
    (h : ProtoGraphAdaptor.FrameBelow k a b) : ProtoGraphAdaptor.FrameBelow l a b :=
  ⟨fun n hn => h.1 n (le_trans hkl hn), h.2⟩

theorem frameBelow_setOutData (a : ProtoGraphAdaptor) (node : Nat) (data : OutData)
    (hd : data.CacheOk) : ProtoGraphAdaptor.FrameBelow (node + 1) a (a.setOutData node data) := by
  refine ⟨fun n hn => ?_, fun j hj n hn => ?_, rfl, rfl, rfl⟩
  · rw [setOutData_out, if_neg (by omega)]
  · rw [setOutData_out]
    by_cases h : n = node
    · rw [if_pos h]; exact ⟨data, rfl, hd⟩
    · rw [if_neg h]; exact hj n hn

theorem contains_snd_cacheOk (data : OutData) (region : Rectangle) (hd : data.CacheOk)
    (d : OutData) (hc : d.cache = (data.cache.contains region).2) : d.CacheOk := by
  intro h0
  rw [hc] at h0 ⊢
  simp only [OrderedMapProtoCache.contains, LRUSet.exists_] at h0 ⊢
  split_ifs at h0 ⊢ with hf
  · have := hd h0
    simp [LRUSet.found, this] at hf
  · exact hd h0

theorem put_cacheOk (data : OutData) (region : Rectangle) (cache : OrderedMapProtoCache Rectangle)
    (hd : data.CacheOk) (hp : data.cache.put region = some cache)
    (d : OutData) (hc : d.cache = cache) : d.CacheOk := by
  intro h0
  rw [hc] at h0 ⊢
  simp only [OrderedMapProtoCache.put, LRUSet.insert, Option.map_eq_some'] at hp
  obtain ⟨s, hs, hs'⟩ := hp
  rw [← hs'] at h0 ⊢
  split_ifs at hs with h1 h2 h3
  · cases hs; exact hd h2
  · cases hs
    exact absurd h0 h2

theorem put_isSome (data : OutData) (region : Rectangle) (hd : data.CacheOk)
    (hf : (data.cache.contains region).1 = false) : ∃ cache, data.cache.put region = some cache := by
  simp only [OrderedMapProtoCache.contains, LRUSet.exists_] at hf
  have hf' : data.cache.set_.found region = false := by
    by_contra h
    simp only [Bool.not_eq_false] at h
    rw [if_pos h] at hf
    cases hf
  simp only [OrderedMapProtoCache.put, LRUSet.insert, hf']
  by_cases h0 : data.cache.set_.capacity_ = 0
  · simp [h0, hd h0]
  · simp [h0]

theorem request_hit (g : ProtoGraph)
    (recur : Nat → Rectangle → ProtoGraphAdaptor → Option (ℚ × ProtoGraphAdaptor))
    (node : Nat) (region : Rectangle) (a : ProtoGraphAdaptor) (data : OutData)
    (hdata : a.out_data_ node = some data) (hmode : g.memoryMode node = MemoryMode.ANY_MEMORY)
    (hhit : (data.cache.contains region).1 = true) :
    ProtoGraphAdaptor.request g recur node region a =
      some (0, a.setOutData node
        ⟨(data.cache.contains region).2, data.computations, data.requests + 1,
          data.duration⟩) := by
  simp only [ProtoGraphAdaptor.request, hdata]
  rw [if_neg]
  rintro (h | h)
  · exact h hmode
  · rw [hhit] at h; cases h

theorem countsOrdered_setOutData (a : ProtoGraphAdaptor) (node : Nat) (data : OutData)
    (ha : a.CountsOrdered) (hd : data.computations ≤ data.requests) :
    (a.setOutData node data).CountsOrdered := by
  intro n d hn
  rw [setOutData_out] at hn
  split_ifs at hn with h
  · cases hn; exact hd
  · exact ha n d hn

theorem countsOrdered_of_out_eq {a b : ProtoGraphAdaptor} (h : b.out_data_ = a.out_data_)
    (ha : a.CountsOrdered) : b.CountsOrdered := by
  intro n d hn
  rw [h] at hn
  exact ha n d hn

theorem request_countsOrdered (g : ProtoGraph)
    (recur : Nat → Rectangle → ProtoGraphAdaptor → Option (ℚ × ProtoGraphAdaptor))
    (hrec : ∀ node region a t b, a.CountsOrdered → recur node region a = some (t, b) →
      b.CountsOrdered)
    (node : Nat) (region : Rectangle) (a : ProtoGraphAdaptor) (t : ℚ) (b : ProtoGraphAdaptor)
    (ha : a.CountsOrdered) (h : ProtoGraphAdaptor.request g recur node region a = some (t, b)) :
    b.CountsOrdered := by
  simp only [ProtoGraphAdaptor.request] at h
  cases hdata : a.out_data_ node with
  | none => rw [hdata] at h; cases h
  | some data =>
    rw [hdata] at h
    have hle := ha node data hdata
    simp only at h
    split_ifs at h with hmiss
    · exact hrec node region _ t b
        (countsOrdered_setOutData a node _ ha (by simp only; omega)) h
    · cases h
      exact countsOrdered_setOutData a node _ ha (by simp only; omega)

theorem performRequiredTasks_countsOrdered (g : ProtoGraph)
    (recur : Nat → Rectangle → ProtoGraphAdaptor → Option (ℚ × ProtoGraphAdaptor))
    (hrec : ∀ node region a t b, a.CountsOrdered → recur node region a = some (t, b) →
      b.CountsOrdered)
    (single_time : ℚ) :
    ∀ (tasks : List (Nat × Rectangle)) (a : ProtoGraphAdaptor) (own_time dep_time : ℚ)
      (own dep : ℚ) (b : ProtoGraphAdaptor), a.CountsOrdered →
      ProtoGraphAdaptor.performRequiredTasks g recur single_time tasks a own_time dep_time
        = some (own, dep, b) → b.CountsOrdered := by
  intro tasks
  induction tasks with
  | nil =>
    intro a own_time dep_time own dep b ha h
    simp only [ProtoGraphAdaptor.performRequiredTasks, Option.some.injEq, Prod.mk.injEq] at h
    rw [← h.2.2]; exact ha
  | cons p rest ih =>
    intro a own_time dep_time own dep b ha h
    obtain ⟨node, region⟩ := p
    simp only [ProtoGraphAdaptor.performRequiredTasks] at h
    cases h1 : ProtoGraphAdaptor.request g recur node region a with
    | none => rw [h1] at h; cases h
    | some r =>
      obtain ⟨t, a1⟩ := r
      rw [h1] at h
      exact ih a1 _ _ own dep b (request_countsOrdered g recur hrec node region a t a1 ha h1) h

theorem outRequest_countsOrdered (g : ProtoGraph) :
    ∀ fuel node region a t b, a.CountsOrdered →
      ProtoGraphAdaptor.outRequest g fuel node region a = some (t, b) → b.CountsOrdered := by
  intro fuel
  induction fuel with
  | zero => intro node region a t b _ h; simp [ProtoGraphAdaptor.outRequest] at h
  | succ fuel ih =>
    intro node region a t b ha h
    simp only [ProtoGraphAdaptor.outRequest] at h
    cases h1 : ProtoGraphAdaptor.performRequiredTasks g (ProtoGraphAdaptor.outRequest g fuel)
        (g.singleTime node region) (g.requiredTasks node region) a 0 0 with
    | none => rw [h1] at h; cases h
    | some r =>
      obtain ⟨own, dep, a1⟩ := r
      rw [h1] at h
      simp only at h
      have ha1 := performRequiredTasks_countsOrdered g _ ih _ _ a 0 0 own dep a1 ha h1
      cases hdata : a1.out_data_ node with
      | none => rw [hdata] at h; cases h
      | some data =>
        rw [hdata] at h
        simp only at h
        have hle := ha1 node data hdata
        split at h
        · cases h
        · cases h
          exact countsOrdered_setOutData a1 node _ ha1 hle

theorem sinkRequest_countsOrdered (g : ProtoGraph) (fuel : Nat) (a : ProtoGraphAdaptor)
    (sink : Nat) (t : ℚ) (b : ProtoGraphAdaptor) (ha : a.CountsOrdered)
    (h : ProtoGraphAdaptor.sinkRequest g fuel a sink = some (t, b)) : b.CountsOrdered := by
  simp only [ProtoGraphAdaptor.sinkRequest] at h
  split at h
  · cases h
  · cases h
  · rename_i node region rest _
    split at h
    · cases h
    · rename_i time a1 hreq
      have ha1 : a1.CountsOrdered := by
        refine request_countsOrdered g _ (outRequest_countsOrdered g fuel) node region _ time a1
          ?_ hreq
        exact ha
      split at h
      · cases h
      · split_ifs at h
        · split at h
          · cases h
          · rename_i chooser _
            simp only [ProtoGraphAdaptor.sinkPerformable] at h
            split_ifs at h
            simp only [Option.some.injEq, Prod.mk.injEq] at h
            rw [← h.2]
            exact countsOrdered_of_out_eq rfl ha1
        · simp only [Option.some.injEq, Prod.mk.injEq] at h
          rw [← h.2]
          exact countsOrdered_of_out_eq rfl ha1

theorem front_countsOrdered (g : ProtoGraph) (fuel : Nat) (a : ProtoGraphAdaptor)
    (t : ℚ) (b : ProtoGraphAdaptor) (ha : a.CountsOrdered)
    (h : ProtoGraphAdaptor.frontRequestableNextRequiredTask g fuel a = some (t, b)) :
    b.CountsOrdered := by
  simp only [ProtoGraphAdaptor.frontRequestableNextRequiredTask] at h
  split_ifs at h
  split at h
  · cases h
  · refine sinkRequest_countsOrdered g fuel _ _ t b ?_ h
    exact ha

theorem addOutNode_countsOrdered (g : ProtoGraph) (a : ProtoGraphAdaptor) (node capacity : Nat)
    (ha : a.CountsOrdered) : (a.addOutNode g node capacity).CountsOrdered := by
  simp only [ProtoGraphAdaptor.addOutNode]
  split
  · exact ha
  · exact countsOrdered_setOutData a node _ ha le_rfl

theorem addSinkTask_countsOrdered (g : ProtoGraph) (a : ProtoGraphAdaptor) (sink : Nat)
    (t : ℚ) (b : ProtoGraphAdaptor) (ha : a.CountsOrdered)
    (h : ProtoGraphAdaptor.addSinkTask g a sink = some (t, b)) : b.CountsOrdered := by
  have hout : b.out_data_ = a.out_data_ := by
    simp only [ProtoGraphAdaptor.addSinkTask] at h
    split at h
    · cases h
    · split_ifs at h
      · split at h
        · rename_i t2 a2 datum hperf _
          simp only [ProtoGraphAdaptor.sinkPerformable] at hperf
          split_ifs at hperf
          simp only [Option.some.injEq, Prod.mk.injEq] at hperf h
          rw [← h.2, ← hperf.2]
          cases a.sink_data_ sink <;> rfl
        · cases h
      · simp only [Option.some.injEq, Prod.mk.injEq] at h
        rw [← h.2]
        cases a.sink_data_ sink <;> rfl
  exact countsOrdered_of_out_eq hout ha

theorem step_countsOrdered (g : ProtoGraph) (a b : ProtoGraphAdaptor) (op : SimulatorOp)
    (ha : a.CountsOrdered) (h : a.step g op = some b) : b.CountsOrdered := by
  cases op with
  | addSinkTask sink =>
    simp only [ProtoGraphAdaptor.step, Option.map_eq_some'] at h
    obtain ⟨⟨t, b'⟩, hb, rfl⟩ := h
    exact addSinkTask_countsOrdered g a sink t b' ha hb
  | addOutNode node capacity =>
    simp only [ProtoGraphAdaptor.step, Option.some.injEq] at h
    rw [← h]
    exact addOutNode_countsOrdered g a node capacity ha
  | frontRequestableNextRequiredTask fuel =>
    simp only [ProtoGraphAdaptor.step, Option.map_eq_some'] at h
    obtain ⟨⟨t, b'⟩, hb, rfl⟩ := h
    exact front_countsOrdered g fuel a t b' ha hb

theorem run_countsOrdered (g : ProtoGraph) :
    ∀ (ops : List SimulatorOp) (a b : ProtoGraphAdaptor), a.CountsOrdered →
      ProtoGraphAdaptor.run g a ops = some b → b.CountsOrdered := by
  intro ops
  induction ops with
  | nil =>
    intro a b ha h
    simp only [ProtoGraphAdaptor.run, Option.some.injEq] at h
    rw [← h]; exact ha
  | cons op ops ih =>
    intro a b ha h
    simp only [ProtoGraphAdaptor.run] at h
    cases h1 : a.step g op with
    | none => rw [h1] at h; cases h
    | some a1 =>
      rw [h1] at h
      exact ih a1 b (step_countsOrdered g a a1 op ha h1) h

end ImageGraph


namespace ImageGraph

end ImageGraph


namespace ImageGraph

theorem map_eq_self_of {α : Type} (f : α → α) (l : List α) (h : ∀ u ∈ l, f u = u) :
    l.map f = l :=
  (List.map_congr_left h).trans (List.map_id l)

theorem modifyFirst_eq_map (pr : Task → Bool) (f : Task → Task) :
    ∀ (l : List Task), l.Pairwise (fun t u => ¬(pr t = true ∧ pr u = true)) →
      modifyFirst pr f l = l.map fun t => if pr t then f t else t := by
  intro l
  induction l with
  | nil => intro _; rfl
  | cons t ts ih =>
    intro h
    rw [List.pairwise_cons] at h
    simp only [modifyFirst, List.map_cons]
    by_cases hp : pr t = true
    · rw [if_pos hp, if_pos hp]
      congr 1
      symm
      apply map_eq_self_of
      intro u hu
      have := h.1 u hu
      rw [if_neg]
      intro hu'
      exact this ⟨hp, hu'⟩
    · rw [if_neg hp, if_neg hp, ih h.2]

theorem pairwise_of_nodup_map {β : Type} (k : Task → β) (pr : Task → Bool) (b : β)
    (hpr : ∀ t, pr t = true → k t = b) (l : List Task) (h : (l.map k).Nodup) :
    l.Pairwise (fun t u => ¬(pr t = true ∧ pr u = true)) := by
  rw [List.Nodup, List.pairwise_map] at h
  refine h.imp ?_
  intro t u hne ⟨ht, hu⟩
  exact hne ((hpr t ht).trans (hpr u hu).symm)

theorem modifyFirst_ptr (p : Nat) (f : Task → Task) (l : List Task)
    (h : (l.map Task.ptr).Nodup) :
    modifyFirst (fun t => decide (t.ptr = p)) f l = l.map (Task.update p f) := by
  rw [modifyFirst_eq_map _ _ l
    (pairwise_of_nodup_map Task.ptr _ p (fun t ht => of_decide_eq_true ht) l h)]
  apply List.map_congr_left
  intro t _
  simp [Task.update]

theorem eq_of_mem_of_ptr_eq {l : List Task} (h : (l.map Task.ptr).Nodup) {t u : Task}
    (ht : t ∈ l) (hu : u ∈ l) (e : t.ptr = u.ptr) : t = u :=
  List.inj_on_of_nodup_map h ht hu e

theorem eq_of_mem_of_key_eq {l : List Task} (h : (l.map Task.key).Nodup) {t u : Task}
    (ht : t ∈ l) (hu : u ∈ l) (e : t.key = u.key) : t = u :=
  List.inj_on_of_nodup_map h ht hu e

theorem modifyFirst_key (k : Nat × Rectangle) (f : Task → Task) (l : List Task) (old : Task)
    (hp : (l.map Task.ptr).Nodup) (hk : (l.map Task.key).Nodup) (ho : old ∈ l)
    (hok : old.key = k) :
    modifyFirst (fun t => decide (t.key = k)) f l = l.map (Task.update old.ptr f) := by
  rw [modifyFirst_eq_map _ _ l
    (pairwise_of_nodup_map Task.key _ k (fun t ht => of_decide_eq_true ht) l hk)]
  apply List.map_congr_left
  intro t ht
  simp only [Task.update, decide_eq_true_eq]
  by_cases h : t.key = k
  · have : t = old := eq_of_mem_of_key_eq hk ht ho (h.trans hok.symm)
    rw [if_pos h, if_pos (by rw [this])]
  · rw [if_neg h, if_neg]
    intro e
    have : t = old := eq_of_mem_of_ptr_eq hp ht ho e
    exact h (by rw [this]; exact hok)

theorem map_ptr_update (p : Nat) (f : Task → Task) (hf : ∀ t, (f t).ptr = t.ptr) (l : List Task) :
    (l.map (Task.update p f)).map Task.ptr = l.map Task.ptr := by
  rw [List.map_map]
  apply List.map_congr_left
  intro t _
  simp only [Function.comp, Task.update]
  split_ifs
  · exact hf t
  · rfl

theorem map_key_update (p : Nat) (f : Task → Task) (hf : ∀ t, (f t).key = t.key) (l : List Task) :
    (l.map (Task.update p f)).map Task.key = l.map Task.key := by
  rw [List.map_map]
  apply List.map_congr_left
  intro t _
  simp only [Function.comp, Task.update]
  split_ifs
  · exact hf t
  · rfl

theorem map_key_modifyFirst (pr : Task → Bool) (f : Task → Task) (hf : ∀ t, (f t).key = t.key) :
    ∀ (l : List Task), (modifyFirst pr f l).map Task.key = l.map Task.key := by
  intro l
  induction l with
  | nil => rfl
  | cons t ts ih =>
    simp only [modifyFirst]
    split_ifs
    · simp [hf t]
    · simp [ih]

theorem map_ptr_modifyFirst (pr : Task → Bool) (f : Task → Task) (hf : ∀ t, (f t).ptr = t.ptr) :
    ∀ (l : List Task), (modifyFirst pr f l).map Task.ptr = l.map Task.ptr := by
  intro l
  induction l with
  | nil => rfl
  | cons t ts ih =>
    simp only [modifyFirst]
    split_ifs
    · simp [hf t]
    · simp [ih]

/-- The sum of a measure over the tasks after the update of the task at `p`. -/
theorem sum_map_update (F : Task → Nat) (p : Nat) (f : Task → Task) :
    ∀ (l : List Task) (t0 : Task), (l.map Task.ptr).Nodup → t0 ∈ l → t0.ptr = p →
      ((l.map (Task.update p f)).map F).sum + F t0 = (l.map F).sum + F (f t0) := by
  intro l
  induction l with
  | nil => intro t0 _ h; cases h
  | cons t ts ih =>
    intro t0 hn ht0 hp
    rw [List.map_cons, List.nodup_cons] at hn
    simp only [List.map_cons, List.sum_cons]
    rcases List.mem_cons.1 ht0 with rfl | hmem
    · have hts : ts.map (Task.update p f) = ts := by
        apply map_eq_self_of
        intro u hu
        simp only [Task.update]
        rw [if_neg]
        intro e
        exact hn.1 (by rw [hp, ← e]; exact List.mem_map_of_mem _ hu)
      rw [hts]
      simp only [Task.update, hp, if_true]
      omega
    · have hne : t.ptr ≠ p := by
        intro e
        exact hn.1 (by rw [e, ← hp]; exact List.mem_map_of_mem _ hmem)
      have := ih t0 hn.2 hmem hp
      simp only [Task.update, hne, if_false]
      simp only [Task.update] at this
      omega

theorem map_update_of_not_mem (p : Nat) (f : Task → Task) (l : List Task)
    (h : p ∉ l.map Task.ptr) : l.map (Task.update p f) = l := by
  apply map_eq_self_of
  intro u hu
  simp only [Task.update]
  rw [if_neg]
  intro e
  exact h (by rw [← e]; exact List.mem_map_of_mem _ hu)

theorem task_eq_some_iff (a : GraphAdaptor) (h : (a.set_.map Task.ptr).Nodup) (p : Nat) (t : Task) :
    a.task p = some t ↔ t ∈ a.set_ ∧ t.ptr = p := by
  constructor
  · intro ht
    exact ⟨List.mem_of_find?_eq_some ht, by simpa using List.find?_some ht⟩
  · rintro ⟨hm, hp⟩
    cases hf : a.task p with
    | none =>
      simp only [GraphAdaptor.task, List.find?_eq_none] at hf
      exact absurd (by simpa using hp) (hf t hm)
    | some u =>
      have hu := List.mem_of_find?_eq_some hf
      have hup : u.ptr = p := by simpa using List.find?_some hf
      rw [eq_of_mem_of_ptr_eq h hu hm (hup.trans hp.symm)]

theorem task_isSome_of_mem (a : GraphAdaptor) (p : Nat) (h : p ∈ a.set_.map Task.ptr) :
    ∃ t, a.task p = some t ∧ t ∈ a.set_ ∧ t.ptr = p := by
  cases hf : a.task p with
  | none =>
    simp only [GraphAdaptor.task, List.find?_eq_none] at hf
    obtain ⟨t, ht, hp⟩ := List.mem_map.1 h
    exact absurd (by simpa using hp) (hf t ht)
  | some u =>
    exact ⟨u, rfl, List.mem_of_find?_eq_some hf, by simpa using List.find?_some hf⟩

theorem task_mem (a : GraphAdaptor) (p : Nat) (t : Task) (h : a.task p = some t) :
    t ∈ a.set_ ∧ t.ptr = p :=
  ⟨List.mem_of_find?_eq_some h, by simpa using List.find?_some h⟩

end ImageGraph


namespace ImageGraph

theorem count_fullJobs_list (q : Nat) :
    ∀ (l : List PoolID),
      ((l.filter fun j => !j.dependency).map fun j => j.task).count q = l.count ⟨q, false⟩ := by
  intro l
  induction l with
  | nil => rfl
  | cons j l ih =>
    obtain ⟨p, d⟩ := j
    cases d
    · simp only [List.filter_cons, Bool.not_false, if_true, List.map_cons, List.count_cons, ih,
        beq_iff_eq, PoolID.mk.injEq, and_true]
    · simp [List.filter_cons, List.count_cons, ih]

theorem count_fullJobs (s : ComputeState) (q : Nat) :
    s.fullJobs.count q = (s.running ++ s.pool_finished_).count ⟨q, false⟩ :=
  count_fullJobs_list q _

theorem count_single_map (q : Nat) :
    ∀ (l : List Nat), (l.map fun d => (⟨d, true⟩ : PoolID)).count ⟨q, true⟩ = l.count q := by
  intro l
  induction l with
  | nil => rfl
  | cons d l ih =>
    simp only [List.map_cons, List.count_cons, ih, beq_iff_eq, PoolID.mk.injEq, and_true]

theorem count_full_map (q : Nat) :
    ∀ (l : List Nat), (l.map fun d => (⟨d, true⟩ : PoolID)).count ⟨q, false⟩ = 0 := by
  intro l
  induction l with
  | nil => rfl
  | cons d l ih =>
    simp only [List.map_cons, List.count_cons, ih, beq_iff_eq, PoolID.mk.injEq,
      Bool.true_eq_false, and_false, if_false, add_zero]

theorem perm_cons_eraseIdx {α : Type} :
    ∀ (l : List α) (k : Nat) (x : α), l[k]? = some x → l.Perm (x :: l.eraseIdx k) := by
  intro l
  induction l with
  | nil => intro k x h; simp at h
  | cons a l ih =>
    intro k x h
    cases k with
    | zero =>
      simp only [List.getElem?_cons_zero, Option.some.injEq] at h
      subst h
      exact List.Perm.refl _
    | succ k =>
      simp only [List.getElem?_cons_succ] at h
      simp only [List.eraseIdx_cons_succ]
      exact ((ih k x h).cons a).trans (List.Perm.swap x a _)

theorem mem_iff_count_pos (l : List Nat) (q : Nat) : q ∈ l ↔ 0 < l.count q :=
  List.count_pos_iff.symm

theorem basic_of_same {s s1 : ComputeState} (h : s.Basic)
    (hp : s1.adaptor.set_.map Task.ptr = s.adaptor.set_.map Task.ptr)
    (hk : s1.adaptor.set_.map Task.key = s.adaptor.set_.map Task.key)
    (hn : s.next_ ≤ s1.next_) : s1.Basic :=
  ⟨by rw [hp]; exact h.nodup_ptr, by rw [hk]; exact h.nodup_key,
    fun p hpm => lt_of_lt_of_le (h.fresh p (by rw [← hp]; exact hpm)) hn⟩

theorem basic_of_add {s s1 : ComputeState} (h : s.Basic) (k : Nat × Rectangle)
    (hp : s1.adaptor.set_.map Task.ptr = s.adaptor.set_.map Task.ptr ++ [s.next_])
    (hk : s1.adaptor.set_.map Task.key = s.adaptor.set_.map Task.key ++ [k])
    (hnew : k ∉ s.adaptor.set_.map Task.key) (hn : s1.next_ = s.next_ + 1) : s1.Basic := by
  refine ⟨?_, ?_, ?_⟩
  · rw [hp, List.nodup_append]
    refine ⟨h.nodup_ptr, List.nodup_singleton _, ?_⟩
    intro a ha hb
    rw [List.mem_singleton] at hb
    subst hb
    exact absurd (h.fresh _ ha) (lt_irrefl _)
  · rw [hk, List.nodup_append]
    refine ⟨h.nodup_key, List.nodup_singleton _, ?_⟩
    intro a ha hb
    rw [List.mem_singleton] at hb
    subst hb
    exact hnew ha
  · intro p hpm
    rw [hp, List.mem_append, List.mem_singleton] at hpm
    rcases hpm with hpm | rfl
    · rw [hn]; exact Nat.lt_succ_of_lt (h.fresh p hpm)
    · rw [hn]; exact Nat.lt_succ_self _

theorem basic_of_sublist {s s1 : ComputeState} (h : s.Basic)
    (hsub : s1.adaptor.set_.Sublist s.adaptor.set_) (hn : s.next_ ≤ s1.next_) : s1.Basic :=
  ⟨(hsub.map Task.ptr).nodup h.nodup_ptr, (hsub.map Task.key).nodup h.nodup_key,
    fun p hpm => lt_of_lt_of_le (h.fresh p ((hsub.map Task.ptr).subset hpm)) hn⟩

/-- The invariant is carried over to a state with the same tasks when the queues, the chooser
and the counts of the jobs agree. -/
theorem inv_of_same_tasks {s s1 : ComputeState} {ex : Option Nat} (h : s.Inv ex)
    (hset : s1.adaptor.set_ = s.adaptor.set_) (hn : s.next_ ≤ s1.next_)
    (hout : s1.adaptor.out_requestable_ = s.adaptor.out_requestable_)
    (hch : s1.adaptor.chooserTasks = s.adaptor.chooserTasks)
    (hreq : s1.adaptor.requested_ = s.adaptor.requested_)
    (hperf : ∀ q, s1.adaptor.performable_.count q + s1.fullJobs.count q
      = s.adaptor.performable_.count q + s.fullJobs.count q)
    (hpend : ∀ q, s1.adaptor.finished_.count q + (s1.running ++ s1.pool_finished_).count ⟨q, true⟩
      = s.adaptor.finished_.count q + (s.running ++ s.pool_finished_).count ⟨q, true⟩) :
    s1.Inv ex := by
  have hmem : ∀ q, (q ∈ s1.adaptor.performable_ ∨ q ∈ s1.fullJobs) ↔
      (q ∈ s.adaptor.performable_ ∨ q ∈ s.fullJobs) := by
    intro q
    simp only [mem_iff_count_pos]
    have := hperf q
    omega
  have hpending : ∀ q, s1.pending q = s.pending q := by
    intro q
    simp only [ComputeState.pending, hset]
    have := hpend q
    omega
  refine ⟨basic_of_same h.basic (by rw [hset]) (by rw [hset]) hn, ?_, ?_, ?_, ?_, ?_, ?_, ?_⟩
  · intro p
    have h1 := h.places p
    have h2 := hperf p
    simp only [ComputeState.places, List.count_append, hout, hch, hreq, hset] at h1 ⊢
    omega
  · intro t ht hne hq
    rw [hset] at ht
    rw [hout, hch] at hq
    exact h.requestable t ht hne hq
  · intro t ht he
    rw [hset] at ht
    rw [hout, hch]
    exact h.inflight t ht he
  · intro t ht hq
    rw [hset] at ht
    rw [hreq] at hq
    exact h.requested t ht hq
  · intro t ht hq
    rw [hset] at ht
    exact h.performable t ht ((hmem t.ptr).1 hq)
  · intro t ht
    rw [hset] at ht
    rw [hpending]
    exact h.counter t ht
  · intro p hp
    rw [hset] at hp
    rw [hpending]
    exact h.dangling p hp

theorem extractPerformable_inv {s s1 : ComputeState} (h : s.Inv none)
    (hs : s.extractPerformable = some s1) : s1.Inv none := by
  simp only [ComputeState.extractPerformable] at hs
  split at hs
  · cases hs
  · rename_i p rest hperf
    cases hs
    refine inv_of_same_tasks h rfl le_rfl rfl rfl rfl ?_ ?_
    · intro q
      simp only [count_fullJobs, hperf, List.count_append, List.count_cons, List.count_nil,
        beq_iff_eq, PoolID.mk.injEq, and_true]
      omega
    · intro q
      simp only [List.count_append, List.count_cons, List.count_nil, beq_iff_eq, PoolID.mk.injEq,
        Bool.false_eq_true, and_false, if_false]
      omega

theorem performSingle_inv {s : ComputeState} (h : s.Inv none) : s.performSingle.Inv none := by
  refine inv_of_same_tasks h rfl le_rfl rfl rfl rfl ?_ ?_
  · intro q
    simp only [count_fullJobs, ComputeState.performSingle, List.count_append, count_full_map]
    omega
  · intro q
    simp only [ComputeState.performSingle, List.count_append, count_single_map, List.count_nil]
    omega

theorem poolEnd_inv {g : TaskGraph} {s s1 : ComputeState} {k : Nat} (h : s.Inv none)
    (hs : s.poolEnd g k = some s1) : s1.Inv none := by
  simp only [ComputeState.poolEnd] at hs
  split at hs
  · cases hs
  · rename_i id hid
    have hperm := perm_cons_eraseIdx s.running k id hid
    have hcount : ∀ j, (s.running.eraseIdx k ++ (s.pool_finished_ ++ [id])).count j
        = (s.running ++ s.pool_finished_).count j := by
      intro j
      have := hperm.count_eq j
      simp only [List.count_append, List.count_cons, List.count_nil] at this ⊢
      omega
    have key : ∀ (c : Nat → Cache Rectangle Unit),
        ComputeState.Inv ⟨s.adaptor, c, s.running.eraseIdx k, s.pool_finished_ ++ [id], s.next_⟩
          none := by
      intro c
      refine inv_of_same_tasks h rfl le_rfl rfl rfl rfl ?_ ?_
      · intro q
        simp only [count_fullJobs, hcount]
      · intro q
        simp only [hcount]
    split_ifs at hs with hdep
    · cases hs; exact key _
    · split at hs
      · cases hs
      · split_ifs at hs
        · split at hs
          · cases hs
          · cases hs; exact key _
        · cases hs; exact key _

end ImageGraph


namespace ImageGraph

theorem count_ptr_le_one {s : ComputeState} (h : s.Basic) (p : Nat) :
    (s.adaptor.set_.map Task.ptr).count p ≤ 1 :=
  List.nodup_iff_count_le_one.1 h.nodup_ptr p

theorem count_ptr_eq_one {s : ComputeState} (h : s.Basic) {p : Nat}
    (hp : p ∈ s.adaptor.set_.map Task.ptr) : (s.adaptor.set_.map Task.ptr).count p = 1 :=
  List.count_eq_one_of_mem h.nodup_ptr hp

theorem count_ptr_eq_zero {s : ComputeState} {p : Nat}
    (hp : p ∉ s.adaptor.set_.map Task.ptr) : (s.adaptor.set_.map Task.ptr).count p = 0 :=
  List.count_eq_zero_of_not_mem hp

theorem places_count (s : ComputeState) (p : Nat) :
    s.places.count p = s.adaptor.out_requestable_.count p + s.adaptor.chooserTasks.count p +
      s.adaptor.requested_.count p + s.adaptor.performable_.count p + s.fullJobs.count p := by
  simp only [ComputeState.places, List.count_append]

theorem next_not_mem_ptrs {s : ComputeState} (h : s.Basic) :
    s.next_ ∉ s.adaptor.set_.map Task.ptr :=
  fun hm => lt_irrefl _ (h.fresh _ hm)

/-- A new task without dependants enters the set and one of the places that fits it. -/
theorem inv_add_task {s s1 : ComputeState} {ex : Option Nat} (h : s.Inv ex) (D : Task)
    (hptr : D.ptr = s.next_) (hcounter : D.task_counter_ = 0) (hdep : D.dependants_ = [])
    (hkey : D.key ∉ s.adaptor.set_.map Task.key) (hex : ex ≠ some s.next_)
    (hset : s1.adaptor.set_ = s.adaptor.set_ ++ [D]) (hn : s1.next_ = s.next_ + 1)
    (hfin : s1.adaptor.finished_ = s.adaptor.finished_)
    (hrun : s1.running = s.running) (hpf : s1.pool_finished_ = s.pool_finished_)
    (hreq : s1.adaptor.requested_ = s.adaptor.requested_)
    (hcr : ∀ q, s1.adaptor.out_requestable_.count q + s1.adaptor.chooserTasks.count q =
      s.adaptor.out_requestable_.count q + s.adaptor.chooserTasks.count q +
        if q = s.next_ ∧ D.allGenerated = false then 1 else 0)
    (hcp : ∀ q, s1.adaptor.performable_.count q =
      s.adaptor.performable_.count q + if q = s.next_ ∧ D.allGenerated = true then 1 else 0) :
    s1.Inv ex := by
  have hfresh := next_not_mem_ptrs h.basic
  have hzero := h.places s.next_
  rw [count_ptr_eq_zero hfresh, places_count] at hzero
  have hfull : ∀ q, s1.fullJobs.count q = s.fullJobs.count q := by
    intro q; simp only [count_fullJobs, hrun, hpf]
  have hpending : ∀ q, s1.pending q = s.pending q := by
    intro q
    simp only [ComputeState.pending, hset, hfin, hrun, hpf, List.map_append, List.sum_append,
      List.map_cons, List.map_nil, hdep, List.count_nil, List.sum_cons, List.sum_nil]
    omega
  have hmemr : ∀ q, q ≠ s.next_ → ((q ∈ s1.adaptor.out_requestable_ ∨ q ∈ s1.adaptor.chooserTasks) ↔
      (q ∈ s.adaptor.out_requestable_ ∨ q ∈ s.adaptor.chooserTasks)) := by
    intro q hq
    have := hcr q
    rw [if_neg (fun hh => hq hh.1)] at this
    simp only [mem_iff_count_pos]
    omega
  have hmemp : ∀ q, q ≠ s.next_ → ((q ∈ s1.adaptor.performable_ ∨ q ∈ s1.fullJobs) ↔
      (q ∈ s.adaptor.performable_ ∨ q ∈ s.fullJobs)) := by
    intro q hq
    have := hcp q
    rw [if_neg (fun hh => hq hh.1)] at this
    have := hfull q
    simp only [mem_iff_count_pos]
    omega
  have hold : ∀ t ∈ s.adaptor.set_, t.ptr ≠ s.next_ := by
    intro t ht e
    exact hfresh (by rw [← e]; exact List.mem_map_of_mem _ ht)
  refine ⟨basic_of_add h.basic D.key (by rw [hset, List.map_append, List.map_singleton, hptr])
      (by rw [hset, List.map_append, List.map_singleton]) hkey hn, ?_, ?_, ?_, ?_, ?_, ?_, ?_⟩
  · intro p
    have h1 := h.places p
    have h2 := hcr p
    have h3 := hcp p
    have h4 := hfull p
    rw [places_count] at h1 ⊢
    rw [hset, List.map_append, List.count_append, List.map_singleton, hptr, hreq,
      List.count_singleton]
    by_cases hp : p = s.next_
    · subst hp
      cases hg : D.allGenerated <;> simp [hg] at h2 h3 ⊢ <;> omega
    · rw [if_neg (fun hh => hp hh.1)] at h2 h3
      have : (s.next_ == p) = false := by
        rw [beq_eq_false_iff_ne]; exact fun e => hp e.symm
      simp only [this, Bool.false_eq_true, if_false]
      omega
  · intro t ht hne hq
    rw [hset, List.mem_append, List.mem_singleton] at ht
    rcases ht with ht | rfl
    · exact h.requestable t ht hne ((hmemr t.ptr (hold t ht)).1 hq)
    · by_contra hg
      have hg' : t.allGenerated = true := by simpa using hg
      have := hcr t.ptr
      rw [hptr, if_neg (by simp [hg'])] at this
      rw [hptr] at hq
      simp only [mem_iff_count_pos] at hq
      omega
  · intro t ht he
    rw [hset, List.mem_append, List.mem_singleton] at ht
    rcases ht with ht | rfl
    · have := h.inflight t ht he
      exact ⟨(hmemr t.ptr (hold t ht)).2 this.1, this.2⟩
    · exact absurd (by rw [← he, hptr]) hex
  · intro t ht hq
    rw [hset, List.mem_append, List.mem_singleton] at ht
    rw [hreq] at hq
    rcases ht with ht | rfl
    · exact h.requested t ht hq
    · rw [hptr] at hq
      simp only [mem_iff_count_pos] at hq
      omega
  · intro t ht hq
    rw [hset, List.mem_append, List.mem_singleton] at ht
    rcases ht with ht | rfl
    · exact h.performable t ht ((hmemp t.ptr (hold t ht)).1 hq)
    · refine ⟨?_, hcounter⟩
      by_contra hg
      have h1 := hcp t.ptr
      rw [hptr, if_neg (by simp [hg])] at h1
      have h2 := hfull t.ptr
      rw [hptr] at hq h2
      simp only [mem_iff_count_pos] at hq
      omega
  · intro t ht
    rw [hset, List.mem_append, List.mem_singleton] at ht
    rw [hpending]
    rcases ht with ht | rfl
    · exact h.counter t ht
    · rw [hcounter, hptr, h.dangling _ hfresh]
  · intro p hp
    rw [hpending]
    apply h.dangling
    intro hm
    exact hp (by rw [hset, List.map_append]; exact List.mem_append_left _ hm)

theorem sum_indicator (c : Prop) [Decidable c] (q0 : Nat) :
    ∀ (l : List Task),
      (l.map fun u => if c ∧ u.ptr = q0 then 1 else 0).sum
        = if c then (l.map Task.ptr).count q0 else 0 := by
  intro l
  induction l with
  | nil => simp
  | cons u l ih =>
    simp only [List.map_cons, List.sum_cons, ih, List.count_cons, beq_iff_eq]
    by_cases hc : c <;> by_cases hu : u.ptr = q0 <;> simp [hc, hu]
    omega

/-- The task at `p`, which is requestable, has made its next `generateRegion` call: its counter
went up by one and so did the notifications it has to get, through `finished_` (`o = none`) or
through the dependants of the task at `o`. -/
theorem inv_request_step {s s1 : ComputeState} (h : s.Inv none) (p : Nat) (t : Task)
    (ht : t ∈ s.adaptor.set_) (htp : t.ptr = p)
    (hplace : p ∈ s.adaptor.out_requestable_ ∨ p ∈ s.adaptor.chooserTasks)
    (F : Task → Task) (o : Option Nat)
    (ho : ∀ q0, o = some q0 → q0 ∈ s.adaptor.set_.map Task.ptr)
    (hset : s1.adaptor.set_ = s.adaptor.set_.map F)
    (hFptr : ∀ u, (F u).ptr = u.ptr) (hFkey : ∀ u, (F u).key = u.key)
    (hFother : ∀ u, u.ptr ≠ p →
      (F u).remaining = u.remaining ∧ (F u).task_counter_ = u.task_counter_)
    (hFp : ∀ u, u.ptr = p → (F u).task_counter_ = u.task_counter_ + 1)
    (hFdep : ∀ u q, (F u).dependants_.count q
      = u.dependants_.count q + if q = p ∧ some u.ptr = o then 1 else 0)
    (hfin : ∀ q, s1.adaptor.finished_.count q
      = s.adaptor.finished_.count q + if q = p ∧ o = none then 1 else 0)
    (hn : s.next_ ≤ s1.next_)
    (hout : s1.adaptor.out_requestable_ = s.adaptor.out_requestable_)
    (hch : s1.adaptor.chooserTasks = s.adaptor.chooserTasks)
    (hreq : s1.adaptor.requested_ = s.adaptor.requested_)
    (hperf : s1.adaptor.performable_ = s.adaptor.performable_)
    (hrun : s1.running = s.running) (hpf : s1.pool_finished_ = s.pool_finished_) :
    s1.Inv (some p) := by
  have hptrs : s1.adaptor.set_.map Task.ptr = s.adaptor.set_.map Task.ptr := by
    rw [hset, List.map_map]
    exact List.map_congr_left fun u _ => hFptr u
  have hkeys : s1.adaptor.set_.map Task.key = s.adaptor.set_.map Task.key := by
    rw [hset, List.map_map]
    exact List.map_congr_left fun u _ => hFkey u
  have hfull : s1.fullJobs = s.fullJobs := by
    simp only [ComputeState.fullJobs, hrun, hpf]
  have hpm : p ∈ s.adaptor.set_.map Task.ptr := by
    rw [← htp]; exact List.mem_map_of_mem _ ht
  have hone := h.places p
  rw [count_ptr_eq_one h.basic hpm, places_count] at hone
  have hpc : 0 < s.adaptor.out_requestable_.count p + s.adaptor.chooserTasks.count p := by
    simp only [mem_iff_count_pos] at hplace
    omega
  have hpending : ∀ q, s1.pending q = s.pending q + if q = p then 1 else 0 := by
    intro q
    have hsum : (s1.adaptor.set_.map fun u => u.dependants_.count q).sum
        = (s.adaptor.set_.map fun u => u.dependants_.count q).sum
          + if q = p ∧ o ≠ none then 1 else 0 := by
      rw [hset, List.map_map]
      have : ((fun u : Task => u.dependants_.count q) ∘ F)
          = fun u => u.dependants_.count q + if q = p ∧ some u.ptr = o then 1 else 0 := by
        funext u
        exact hFdep u q
      rw [this, List.sum_map_add]
      congr 1
      cases o with
      | none => simp
      | some q0 =>
        have := sum_indicator (q = p) q0 s.adaptor.set_
        simp only [Option.some.injEq, ne_eq, reduceCtorEq, not_false_eq_true, and_true]
        rw [this, count_ptr_eq_one h.basic (ho q0 rfl)]
    have hf := hfin q
    simp only [ComputeState.pending, hrun, hpf, hsum, hf]
    by_cases hq : q = p <;> cases o <;> simp [hq] <;> omega
  have hmem : ∀ u ∈ s1.adaptor.set_, ∃ v ∈ s.adaptor.set_, u = F v := by
    intro u hu
    rw [hset, List.mem_map] at hu
    obtain ⟨v, hv, rfl⟩ := hu
    exact ⟨v, hv, rfl⟩
  have hgen : ∀ v, v.ptr ≠ p → (F v).allGenerated = v.allGenerated := by
    intro v hv
    simp only [Task.allGenerated, (hFother v hv).1]
  refine ⟨basic_of_same h.basic hptrs hkeys hn, ?_, ?_, ?_, ?_, ?_, ?_, ?_⟩
  · intro q
    rw [places_count, hout, hch, hreq, hperf, hfull, hptrs, ← places_count]
    exact h.places q
  · intro u hu hne hq
    obtain ⟨v, hv, rfl⟩ := hmem u hu
    rw [hFptr] at hne hq
    have hvp : v.ptr ≠ p := fun e => hne (by rw [e])
    rw [hout, hch] at hq
    rw [hgen v hvp]
    exact h.requestable v hv (by simp) hq
  · intro u hu he
    obtain ⟨v, hv, rfl⟩ := hmem u hu
    rw [hFptr] at he ⊢
    have hvp : v.ptr = p := by simpa using he
    rw [hout, hch, hvp, hFp v hvp]
    exact ⟨hplace, Nat.succ_ne_zero _⟩
  · intro u hu hq
    obtain ⟨v, hv, rfl⟩ := hmem u hu
    rw [hFptr, hreq] at hq
    have hvp : v.ptr ≠ p := by
      intro e
      rw [e] at hq
      simp only [mem_iff_count_pos] at hq
      omega
    rw [hgen v hvp, (hFother v hvp).2]
    exact h.requested v hv hq
  · intro u hu hq
    obtain ⟨v, hv, rfl⟩ := hmem u hu
    rw [hFptr, hperf, hfull] at hq
    have hvp : v.ptr ≠ p := by
      intro e
      rw [e] at hq
      simp only [mem_iff_count_pos] at hq
      omega
    rw [hgen v hvp, (hFother v hvp).2]
    exact h.performable v hv hq
  · intro u hu
    obtain ⟨v, hv, rfl⟩ := hmem u hu
    rw [hFptr, hpending]
    by_cases hvp : v.ptr = p
    · rw [hFp v hvp, if_pos hvp, h.counter v hv]
    · rw [(hFother v hvp).2, if_neg hvp, h.counter v hv, add_zero]
  · intro q hq
    rw [hptrs] at hq
    rw [hpending, h.dangling q hq, if_neg]
    rintro rfl
    exact hq hpm

end ImageGraph


namespace ImageGraph

theorem chooserTasks_erase (l : List (OutputInfo Nat)) (p : Nat) :
    (l.eraseP fun i => decide (i.task_ = p)).map (fun i => i.task_)
      = (l.map fun i => i.task_).erase p := by
  induction l with
  | nil => rfl
  | cons i l ih =>
    by_cases hi : i.task_ = p
    · simp [List.eraseP_cons, hi]
    · have : (i.task_ == p) = false := by rw [beq_eq_false_iff_ne]; exact hi
      simp [List.eraseP_cons, hi, List.erase_cons, this, ih]

theorem chooser_contains_iff (ch : RelevanceChoiceGenerator Nat) (p : Nat) :
    ch.contains p = true ↔ p ∈ ch.info_.map fun i => i.task_ := by
  simp only [RelevanceChoiceGenerator.contains, List.any_eq_true, decide_eq_true_eq,
    List.mem_map]

theorem count_erase_add (l : List Nat) (p q : Nat) (hp : p ∈ l) :
    (l.erase p).count q + (if q = p then 1 else 0) = l.count q := by
  by_cases hq : q = p
  · subst hq
    rw [List.count_erase_self, if_pos rfl]
    have := List.count_pos_iff.2 hp
    omega
  · rw [List.count_erase_of_ne hq, if_neg hq, add_zero]

/-- The `taskModified` that follows `nextRequiredTask()`: the task, whose counter is not 0,
stays where it is when it has more to request and moves to `requested_` otherwise.  `out1` and
`ch1` are the out-requestable queue and the chooser's tasks afterwards. -/
theorem inv_task_modified {s s1 : ComputeState} {p : Nat} {t : Task} (h : s.Inv (some p))
    (ht : t ∈ s.adaptor.set_) (htp : t.ptr = p)
    (hset : s1.adaptor.set_ = s.adaptor.set_) (hn : s1.next_ = s.next_)
    (hfin : s1.adaptor.finished_ = s.adaptor.finished_)
    (hrun : s1.running = s.running) (hpf : s1.pool_finished_ = s.pool_finished_)
    (hperf : s1.adaptor.performable_ = s.adaptor.performable_)
    (hreq : s1.adaptor.requested_
      = if t.allGenerated then s.adaptor.requested_ ++ [p] else s.adaptor.requested_)
    (hcr : ∀ q, s1.adaptor.out_requestable_.count q + s1.adaptor.chooserTasks.count q
        + (if q = p ∧ t.allGenerated = true then 1 else 0)
      = s.adaptor.out_requestable_.count q + s.adaptor.chooserTasks.count q) :
    s1.Inv none := by
  have hfull : s1.fullJobs = s.fullJobs := by
    simp only [ComputeState.fullJobs, hrun, hpf]
  have hpending : ∀ q, s1.pending q = s.pending q := by
    intro q; simp only [ComputeState.pending, hset, hfin, hrun, hpf]
  have hpm : p ∈ s.adaptor.set_.map Task.ptr := by
    rw [← htp]; exact List.mem_map_of_mem _ ht
  have hone := h.places p
  rw [count_ptr_eq_one h.basic hpm, places_count] at hone
  have hin := h.inflight t ht (by rw [htp])
  have huniq : ∀ u ∈ s.adaptor.set_, u.ptr = p → u = t := fun u hu e =>
    eq_of_mem_of_ptr_eq h.basic.nodup_ptr hu ht (e.trans htp.symm)
  refine ⟨basic_of_same h.basic (by rw [hset]) (by rw [hset]) (le_of_eq hn.symm),
    ?_, ?_, ?_, ?_, ?_, ?_, ?_⟩
  · intro q
    have h1 := h.places q
    have h2 := hcr q
    rw [places_count] at h1 ⊢
    rw [hset, hperf, hfull, hreq]
    by_cases hg : t.allGenerated = true
    · simp only [hg, if_true, List.count_append, List.count_singleton, and_true] at h2 ⊢
      by_cases hq : q = p
      · subst hq; simp at h2 ⊢; omega
      · have : (p == q) = false := by rw [beq_eq_false_iff_ne]; exact fun e => hq e.symm
        simp [hq, this] at h2 ⊢; omega
    · simp only [hg, and_false, if_false, add_zero, Bool.false_eq_true] at h2 ⊢
      omega
  · intro u hu _ hq
    rw [hset] at hu
    by_cases hup : u.ptr = p
    · have hut := huniq u hu hup
      subst hut
      by_contra hg
      have hg' : u.allGenerated = true := by simpa using hg
      have := hcr p
      rw [if_pos ⟨rfl, hg'⟩] at this
      rw [hup] at hq
      simp only [mem_iff_count_pos] at hq
      omega
    · have hq' : u.ptr ∈ s.adaptor.out_requestable_ ∨ u.ptr ∈ s.adaptor.chooserTasks := by
        have := hcr u.ptr
        rw [if_neg (fun hh => hup hh.1)] at this
        simp only [mem_iff_count_pos] at hq ⊢
        omega
      exact h.requestable u hu (by simpa using hup) hq'
  · intro u _ he
    cases he
  · intro u hu hq
    rw [hset] at hu
    rw [hreq] at hq
    by_cases hup : u.ptr = p
    · have hut := huniq u hu hup
      subst hut
      by_cases hg : u.allGenerated = true
      · exact ⟨hg, hin.2⟩
      · have hin1 := hin.1
        rw [if_neg hg, hup] at hq
        rw [hup] at hin1
        simp only [mem_iff_count_pos] at hq hin1
        omega
    · have hq' : u.ptr ∈ s.adaptor.requested_ := by
        split_ifs at hq
        · rcases List.mem_append.1 hq with hq | hq
          · exact hq
          · exact absurd (List.mem_singleton.1 hq) hup
        · exact hq
      exact h.requested u hu hq'
  · intro u hu hq
    rw [hset] at hu
    rw [hperf, hfull] at hq
    exact h.performable u hu hq
  · intro u hu
    rw [hset] at hu
    rw [hpending]
    exact h.counter u hu
  · intro q hq
    rw [hset] at hq
    rw [hpending]
    exact h.dangling q hq

theorem taskModifiedOut_inv {s : ComputeState} {p : Nat} (h : s.Inv (some p))
    (hp : p ∈ s.adaptor.out_requestable_) (hlive : p ∈ s.adaptor.set_.map Task.ptr) :
    ∃ a, s.adaptor.taskModifiedOut p = some a ∧ ComputeState.Inv { s with adaptor := a } none := by
  obtain ⟨t, htask, ht, htp⟩ := task_isSome_of_mem s.adaptor p hlive
  have hin := h.inflight t ht (by rw [htp])
  have hnp : t.allSinglePerformed = false := by
    simp [Task.allSinglePerformed, hin.2]
  simp only [GraphAdaptor.taskModifiedOut, htask, hp, if_true, hnp, Bool.false_or,
    Bool.false_eq_true, if_false]
  by_cases hg : t.allGenerated = true
  · simp only [hg, if_true]
    refine ⟨_, rfl, inv_task_modified h ht htp rfl rfl rfl rfl rfl rfl (by simp [hg]) ?_⟩
    intro q
    have := count_erase_add s.adaptor.out_requestable_ p q hp
    simp only [hg, and_true]
    simp only [GraphAdaptor.chooserTasks]
    omega
  · simp only [hg, Bool.false_eq_true, if_false]
    refine ⟨_, rfl, inv_task_modified h ht htp rfl rfl rfl rfl rfl rfl (by simp [hg]) ?_⟩
    intro q
    simp [hg]

theorem taskModifiedSink_inv {s : ComputeState} {p : Nat} (h : s.Inv (some p))
    (hp : p ∈ s.adaptor.chooserTasks) (hlive : p ∈ s.adaptor.set_.map Task.ptr) :
    ∃ a, s.adaptor.taskModifiedSink p = some a ∧
      ComputeState.Inv { s with adaptor := a } none := by
  obtain ⟨t, htask, ht, htp⟩ := task_isSome_of_mem s.adaptor p hlive
  have hin := h.inflight t ht (by rw [htp])
  have hnp : t.allSinglePerformed = false := by
    simp [Task.allSinglePerformed, hin.2]
  have hc : s.adaptor.chooser_.contains p = true := (chooser_contains_iff _ _).2 hp
  simp only [GraphAdaptor.taskModifiedSink, htask, hc, if_true, hnp, Bool.false_or,
    Bool.false_eq_true, if_false]
  by_cases hg : t.allGenerated = true
  · simp only [hg, if_true, RelevanceChoiceGenerator.eraseSinkTask, hc]
    refine ⟨_, rfl, inv_task_modified h ht htp rfl rfl rfl rfl rfl rfl (by simp [hg]) ?_⟩
    intro q
    have := count_erase_add s.adaptor.chooserTasks p q hp
    simp only [hg, and_true]
    simp only [GraphAdaptor.chooserTasks, chooserTasks_erase] at this ⊢
    omega
  · simp only [hg, Bool.false_eq_true, if_false]
    refine ⟨_, rfl, inv_task_modified h ht htp rfl rfl rfl rfl rfl rfl (by simp [hg]) ?_⟩
    intro q
    simp [hg]

end ImageGraph


namespace ImageGraph

theorem afterRequest_ptr (p : Nat) (rest : List (Nat × Rectangle)) (o : Option Nat) (u : Task) :
    (Task.afterRequest p rest o u).ptr = u.ptr := by
  cases o <;> simp only [Task.afterRequest, Task.update, Task.addDependant, Task.counted, Task.generated] <;>
    split_ifs <;> rfl

theorem afterRequest_key (p : Nat) (rest : List (Nat × Rectangle)) (o : Option Nat) (u : Task) :
    (Task.afterRequest p rest o u).key = u.key := by
  cases o <;> simp only [Task.afterRequest, Task.update, Task.addDependant, Task.key, Task.counted, Task.generated] <;>
    split_ifs <;> rfl

theorem afterRequest_other (p : Nat) (rest : List (Nat × Rectangle)) (o : Option Nat) (u : Task)
    (hu : u.ptr ≠ p) :
    (Task.afterRequest p rest o u).remaining = u.remaining ∧
      (Task.afterRequest p rest o u).task_counter_ = u.task_counter_ := by
  cases o with
  | none => simp [Task.afterRequest, Task.update, hu, Task.counted, Task.generated]
  | some q =>
    simp only [Task.afterRequest, Task.update, Task.addDependant, hu, if_false, Task.counted, Task.generated]
    split_ifs <;> simp_all

theorem afterRequest_counter (p : Nat) (rest : List (Nat × Rectangle)) (o : Option Nat) (u : Task)
    (hu : u.ptr = p) :
    (Task.afterRequest p rest o u).task_counter_ = u.task_counter_ + 1 := by
  cases o <;>
    simp only [Task.afterRequest, Task.update, Task.addDependant, hu, if_true, Task.counted,
      Task.generated]
  split_ifs <;> simp_all

theorem afterRequest_remaining (p : Nat) (rest : List (Nat × Rectangle)) (o : Option Nat)
    (u : Task) (hu : u.ptr = p) : (Task.afterRequest p rest o u).remaining = rest := by
  cases o <;>
    simp only [Task.afterRequest, Task.update, Task.addDependant, hu, if_true, Task.counted,
      Task.generated]
  split_ifs <;> simp_all

theorem afterRequest_dependants (p : Nat) (rest : List (Nat × Rectangle)) (o : Option Nat)
    (u : Task) (q : Nat) :
    (Task.afterRequest p rest o u).dependants_.count q
      = u.dependants_.count q + if q = p ∧ some u.ptr = o then 1 else 0 := by
  cases o with
  | none =>
    simp only [Task.afterRequest, Task.update, reduceCtorEq, and_false, if_false, add_zero, Task.counted, Task.generated]
    split_ifs <;> rfl
  | some q0 =>
    simp only [Task.afterRequest, Task.update, Task.addDependant, Option.some.injEq, Task.counted, Task.generated]
    by_cases h1 : u.ptr = p <;> by_cases h2 : u.ptr = q0 <;> by_cases h3 : q = p <;>
      simp [h1, h2, h3, List.count_append, List.count_singleton] <;> simp_all

/-- The three ways `generateRegion` answers: from the cache, from the live task of the key, or
with a new task. -/
theorem generateRegion_cases (g : TaskGraph) (s : ComputeState) (caller node : Nat)
    (region : Rectangle) :
    (s.generateRegion g caller node region).2.running = s.running ∧
    (s.generateRegion g caller node region).2.pool_finished_ = s.pool_finished_ ∧
    (((g.memoryMode node = MemoryMode.ANY_MEMORY ∧ ((s.caches node).get region).1.isSome = true) ∧
        (s.generateRegion g caller node region).1 = ⟨none, true⟩ ∧
        (s.generateRegion g caller node region).2.adaptor = s.adaptor ∧
        (s.generateRegion g caller node region).2.next_ = s.next_) ∨
      (¬(g.memoryMode node = MemoryMode.ANY_MEMORY ∧
          ((s.caches node).get region).1.isSome = true) ∧
        ∃ old, old ∈ s.adaptor.set_ ∧ old.key = (node, region) ∧
        (s.generateRegion g caller node region).1 = ⟨some old.ptr, false⟩ ∧
        (s.generateRegion g caller node region).2.adaptor =
          ⟨modifyFirst (fun t => decide (t.key = (node, region)))
              (fun t => t.addDependant caller) s.adaptor.set_,
            s.adaptor.out_requestable_, s.adaptor.requested_, s.adaptor.performable_,
            s.adaptor.finished_, s.adaptor.chooser_⟩ ∧
        (s.generateRegion g caller node region).2.next_ = s.next_ ∧
        (s.generateRegion g caller node region).2.caches = s.caches) ∨
      (¬(g.memoryMode node = MemoryMode.ANY_MEMORY ∧
          ((s.caches node).get region).1.isSome = true) ∧
        (node, region) ∉ s.adaptor.set_.map Task.key ∧
        (s.generateRegion g caller node region).1 = ⟨some s.next_, false⟩ ∧
        (s.generateRegion g caller node region).2.adaptor.set_ = s.adaptor.set_ ++
          [⟨s.next_, node, region, g.requiredTasks node region, 0, [caller]⟩] ∧
        (s.generateRegion g caller node region).2.adaptor.out_requestable_ =
          (if (g.requiredTasks node region).isEmpty then s.adaptor.out_requestable_
            else s.next_ :: s.adaptor.out_requestable_) ∧
        (s.generateRegion g caller node region).2.adaptor.performable_ =
          (if (g.requiredTasks node region).isEmpty then s.adaptor.performable_ ++ [s.next_]
            else s.adaptor.performable_) ∧
        (s.generateRegion g caller node region).2.adaptor.requested_ = s.adaptor.requested_ ∧
        (s.generateRegion g caller node region).2.adaptor.finished_ = s.adaptor.finished_ ∧
        (s.generateRegion g caller node region).2.adaptor.chooser_ = s.adaptor.chooser_ ∧
        (s.generateRegion g caller node region).2.next_ = s.next_ + 1)) := by
  by_cases hhit : g.memoryMode node = MemoryMode.ANY_MEMORY ∧
      ((s.caches node).get region).1.isSome = true
  · have e : s.generateRegion g caller node region = (⟨none, true⟩,
        { s with caches := fun n =>
          if n = node then ((s.caches node).get region).2 else s.caches n }) := by
      simp only [ComputeState.generateRegion, if_pos hhit]
    rw [e]
    exact ⟨rfl, rfl, Or.inl ⟨hhit, rfl, rfl, rfl⟩⟩
  · cases hfind : s.adaptor.set_.find? fun t => decide (t.key = (node, region)) with
    | some old =>
      have e : s.generateRegion g caller node region = (⟨some old.ptr, false⟩,
          { s with adaptor := ⟨modifyFirst (fun t => decide (t.key = (node, region)))
              (fun t => t.addDependant caller) s.adaptor.set_,
            s.adaptor.out_requestable_, s.adaptor.requested_, s.adaptor.performable_,
            s.adaptor.finished_, s.adaptor.chooser_⟩ }) := by
        simp only [ComputeState.generateRegion, if_neg hhit, hfind]
      rw [e]
      refine ⟨rfl, rfl, Or.inr (Or.inl ⟨hhit, old, List.mem_of_find?_eq_some hfind, ?_,
        rfl, rfl, rfl, rfl⟩)⟩
      simpa using List.find?_some hfind
    | none =>
      have hnot : (node, region) ∉ s.adaptor.set_.map Task.key := by
        rw [List.find?_eq_none] at hfind
        intro hm
        obtain ⟨t, ht, hk⟩ := List.mem_map.1 hm
        exact hfind t ht (by simpa using hk)
      by_cases he : (g.requiredTasks node region).isEmpty = true
      · have e : s.generateRegion g caller node region = (⟨some s.next_, false⟩,
            { s with next_ := s.next_ + 1,
                     adaptor := ⟨s.adaptor.set_ ++
                        [⟨s.next_, node, region, g.requiredTasks node region, 0, [caller]⟩],
                      s.adaptor.out_requestable_, s.adaptor.requested_,
                      s.adaptor.performable_ ++ [s.next_], s.adaptor.finished_,
                      s.adaptor.chooser_⟩ }) := by
          simp only [ComputeState.generateRegion, if_neg hhit, hfind, Task.allGenerated, he,
            if_true]
        rw [e]
        refine ⟨rfl, rfl, Or.inr (Or.inr ⟨hhit, hnot, rfl, rfl, ?_, ?_, rfl, rfl, rfl, rfl⟩)⟩
        · simp only [he, if_true]
        · simp only [he, if_true]
      · have e : s.generateRegion g caller node region = (⟨some s.next_, false⟩,
            { s with next_ := s.next_ + 1,
                     adaptor := ⟨s.adaptor.set_ ++
                        [⟨s.next_, node, region, g.requiredTasks node region, 0, [caller]⟩],
                      s.next_ :: s.adaptor.out_requestable_, s.adaptor.requested_,
                      s.adaptor.performable_, s.adaptor.finished_,
                      s.adaptor.chooser_⟩ }) := by
          simp only [ComputeState.generateRegion, if_neg hhit, hfind, Task.allGenerated, he,
            Bool.false_eq_true, if_false]
        rw [e]
        refine ⟨rfl, rfl, Or.inr (Or.inr ⟨hhit, hnot, rfl, rfl, ?_, ?_, rfl, rfl, rfl, rfl⟩)⟩
        · simp only [he, Bool.false_eq_true, if_false]
        · simp only [he, Bool.false_eq_true, if_false]

end ImageGraph


namespace ImageGraph

theorem modify_set (a : GraphAdaptor) (p : Nat) (f : Task → Task)
    (h : (a.set_.map Task.ptr).Nodup) :
    (a.modify p f).set_ = a.set_.map (Task.update p f) :=
  modifyFirst_ptr p f a.set_ h

theorem update_ptr (p : Nat) (f : Task → Task) (hf : ∀ t, (f t).ptr = t.ptr) (u : Task) :
    (Task.update p f u).ptr = u.ptr := by
  simp only [Task.update]
  split_ifs
  · exact hf u
  · rfl

theorem update_of_ne (q : Nat) (f : Task → Task) (u : Task) (h : u.ptr ≠ q) :
    Task.update q f u = u := if_neg h

/-- `nextRequiredTask()` of a requestable task returns and leaves the invariant with the task
in flight. -/
theorem nextRequiredTask_inv {g : TaskGraph} {s : ComputeState} {p : Nat} (h : s.Inv none)
    (hplace : p ∈ s.adaptor.out_requestable_ ∨ p ∈ s.adaptor.chooserTasks) :
    ∃ s1, s.nextRequiredTask g p = some s1 ∧ s1.Inv (some p) ∧
      p ∈ s1.adaptor.set_.map Task.ptr ∧
      (p ∈ s.adaptor.out_requestable_ → p ∈ s1.adaptor.out_requestable_) ∧
      s1.adaptor.chooser_ = s.adaptor.chooser_ := by
  have hpc : 0 < s.places.count p := by
    rw [places_count]
    simp only [mem_iff_count_pos] at hplace
    omega
  have hlive : p ∈ s.adaptor.set_.map Task.ptr := by
    rw [h.places p] at hpc
    exact List.count_pos_iff.1 hpc
  obtain ⟨t, htask, ht, htp⟩ := task_isSome_of_mem s.adaptor p hlive
  have hgen : t.allGenerated = false :=
    h.requestable t ht (by simp) (by rw [htp]; exact hplace)
  obtain ⟨node, region, rest, hrem⟩ : ∃ node region rest, t.remaining = (node, region) :: rest := by
    cases hr : t.remaining with
    | nil => simp [Task.allGenerated, hr] at hgen
    | cons x rest => exact ⟨x.1, x.2, rest, rfl⟩
  have hnp := h.basic.nodup_ptr
  have hnk := h.basic.nodup_key
  have hset1 : (s.adaptor.modify p fun u => u.generated rest).set_
      = s.adaptor.set_.map (Task.update p fun u => u.generated rest) :=
    modify_set _ _ _ hnp
  have hptr1 : (s.adaptor.set_.map (Task.update p fun u => u.generated rest)).map
      Task.ptr = s.adaptor.set_.map Task.ptr :=
    map_ptr_update p (fun u => u.generated rest) (fun _ => rfl) _
  have hkey1 : (s.adaptor.set_.map (Task.update p fun u => u.generated rest)).map
      Task.key = s.adaptor.set_.map Task.key :=
    map_key_update p (fun u => u.generated rest) (fun _ => rfl) _
  have hcases := generateRegion_cases g
    { s with adaptor := s.adaptor.modify p fun u => u.generated rest } p node region
  simp only [ComputeState.nextRequiredTask, htask, hrem]
  generalize ComputeState.generateRegion g
    { s with adaptor := s.adaptor.modify p fun u => u.generated rest } p node region
    = r at hcases ⊢
  obtain ⟨hrun, hpf, hc⟩ := hcases
  simp only at hrun hpf hc
  rcases hc with ⟨_, h1, had, hnext⟩ | ⟨_, old, hold, hokey, h1, had, hnext, _⟩ |
    ⟨_, hnot, h1, hset, hout, hperf, hreq, hfin, hch, hnext⟩
  · -- answered from the cache
    rw [h1]
    simp only [if_true]
    refine ⟨_, rfl, ?_, ?_, ?_, ?_⟩
    · refine inv_request_step h p t ht htp hplace (Task.afterRequest p rest none) none
        (fun q0 hq => by cases hq) ?_ (afterRequest_ptr p rest none) (afterRequest_key p rest none)
        (afterRequest_other p rest none) (afterRequest_counter p rest none)
        (afterRequest_dependants p rest none) ?_ (le_of_eq hnext.symm) ?_ ?_ ?_ ?_ hrun hpf
      · simp only [GraphAdaptor.addSingleFinished]
        rw [modify_set _ _ _ (by rw [had, hset1, hptr1]; exact hnp), had, hset1, List.map_map]
        rfl
      · intro q
        simp only [GraphAdaptor.addSingleFinished, GraphAdaptor.modify, had, List.count_append,
          List.count_singleton, and_true]
        by_cases hq : q = p
        · subst hq; simp
        · have : (p == q) = false := by rw [beq_eq_false_iff_ne]; exact fun e => hq e.symm
          simp [hq, this]
      · simp only [GraphAdaptor.addSingleFinished, GraphAdaptor.modify, had]
      · simp only [GraphAdaptor.addSingleFinished, GraphAdaptor.modify, had,
          GraphAdaptor.chooserTasks]
      · simp only [GraphAdaptor.addSingleFinished, GraphAdaptor.modify, had]
      · simp only [GraphAdaptor.addSingleFinished, GraphAdaptor.modify, had]
    · simp only [GraphAdaptor.addSingleFinished]
      rw [modify_set _ _ _ (by rw [had, hset1, hptr1]; exact hnp), had, hset1,
        map_ptr_update p Task.counted (fun _ => rfl), hptr1]
      exact hlive
    · intro hp
      simp only [GraphAdaptor.addSingleFinished, GraphAdaptor.modify, had]
      exact hp
    · simp only [GraphAdaptor.addSingleFinished, GraphAdaptor.modify, had]
  · -- the live task of the key gets the caller as a dependant
    rw [h1]
    simp only [Bool.false_eq_true, if_false]
    rw [hset1] at hold
    have holdp : old.ptr ∈ s.adaptor.set_.map Task.ptr := by
      rw [← hptr1]; exact List.mem_map_of_mem _ hold
    have hset2 : r.2.adaptor.set_ = (s.adaptor.set_.map
        (Task.update p fun u => u.generated rest)).map
          (Task.update old.ptr fun v => v.addDependant p) := by
      rw [had]
      simp only [hset1]
      exact modifyFirst_key (node, region) _ _ old (by rw [hptr1]; exact hnp)
        (by rw [hkey1]; exact hnk) hold hokey
    have hptr2 : r.2.adaptor.set_.map Task.ptr = s.adaptor.set_.map Task.ptr := by
      rw [hset2, map_ptr_update old.ptr (fun v => v.addDependant p) (fun _ => rfl), hptr1]
    refine ⟨_, rfl, ?_, ?_, ?_, ?_⟩
    · refine inv_request_step h p t ht htp hplace (Task.afterRequest p rest (some old.ptr))
        (some old.ptr) (fun q0 hq => by cases hq; exact holdp) ?_
        (afterRequest_ptr p rest _) (afterRequest_key p rest _)
        (afterRequest_other p rest _) (afterRequest_counter p rest _)
        (afterRequest_dependants p rest _) ?_ (le_of_eq hnext.symm) ?_ ?_ ?_ ?_ hrun hpf
      · rw [modify_set _ _ _ (by rw [hptr2]; exact hnp), hset2, List.map_map, List.map_map]
        rfl
      · intro q
        simp only [GraphAdaptor.modify, had, reduceCtorEq, and_false, if_false, add_zero]
      · simp only [GraphAdaptor.modify, had]
      · simp only [GraphAdaptor.modify, had, GraphAdaptor.chooserTasks]
      · simp only [GraphAdaptor.modify, had]
      · simp only [GraphAdaptor.modify, had]
    · rw [modify_set _ _ _ (by rw [hptr2]; exact hnp), map_ptr_update p Task.counted (fun _ => rfl), hptr2]
      exact hlive
    · intro hp
      simp only [GraphAdaptor.modify, had]
      exact hp
    · simp only [GraphAdaptor.modify, had]
  · -- a new task
    rw [h1]
    simp only [Bool.false_eq_true, if_false]
    simp only [hset1, hkey1] at hset hnot
    simp only [GraphAdaptor.modify] at hout hperf hreq hfin hch
    have hfresh := next_not_mem_ptrs h.basic
    have hpne : p ≠ s.next_ := fun e => hfresh (e ▸ hlive)
    -- the state with the new task, before the caller is put among its dependants
    have hA : ComputeState.Inv
        ⟨⟨s.adaptor.set_ ++ [⟨s.next_, node, region, g.requiredTasks node region, 0, []⟩],
            r.2.adaptor.out_requestable_, s.adaptor.requested_, r.2.adaptor.performable_,
            s.adaptor.finished_, s.adaptor.chooser_⟩,
          s.caches, s.running, s.pool_finished_, s.next_ + 1⟩ none := by
      refine inv_add_task h ⟨s.next_, node, region, g.requiredTasks node region, 0, []⟩ rfl rfl rfl
        hnot (by simp) rfl rfl rfl rfl rfl rfl ?_ ?_
      · intro q
        simp only [hout, Task.allGenerated, GraphAdaptor.chooserTasks]
        by_cases he : (g.requiredTasks node region).isEmpty = true
        · simp [he]
        · simp only [he, Bool.false_eq_true, if_false, List.count_cons, beq_iff_eq]
          by_cases hq : q = s.next_
          · subst hq; simp; omega
          · have : ¬ s.next_ = q := fun e => hq e.symm
            simp [hq, this]
      · intro q
        simp only [hperf, Task.allGenerated]
        by_cases he : (g.requiredTasks node region).isEmpty = true
        · simp only [he, if_true, List.count_append, List.count_singleton, and_true]
          by_cases hq : q = s.next_
          · subst hq; simp
          · have : (s.next_ == q) = false := by rw [beq_eq_false_iff_ne]; exact fun e => hq e.symm
            simp [hq, this]
        · simp [he]
    have hplaceA : p ∈ r.2.adaptor.out_requestable_ ∨ p ∈ s.adaptor.chooserTasks := by
      rcases hplace with hp | hp
      · left
        rw [hout]
        split_ifs
        · exact hp
        · exact List.mem_cons_of_mem _ hp
      · exact Or.inr hp
    have hsetF : r.2.adaptor.set_.map
          (Task.update p Task.counted)
        = (s.adaptor.set_ ++
            [(⟨s.next_, node, region, g.requiredTasks node region, 0, []⟩ : Task)]).map
          (Task.afterRequest p rest (some s.next_)) := by
      rw [hset, List.map_append, List.map_append, List.map_map]
      congr 1
      · apply List.map_congr_left
        intro u hu
        have hune : u.ptr ≠ s.next_ := fun e =>
          hfresh (by rw [← e]; exact List.mem_map_of_mem _ hu)
        have : (Task.update p (fun v => v.generated rest) u).ptr ≠ s.next_ := by
          rw [update_ptr p (fun v => v.generated rest) (fun _ => rfl)]; exact hune
        simp only [Function.comp, Task.afterRequest]
        rw [update_of_ne s.next_ _ _ this]
      · simp [Task.afterRequest, Task.update, Task.addDependant, hpne, hpne.symm, Task.generated, Task.counted]
    have hptr2 : r.2.adaptor.set_.map Task.ptr = s.adaptor.set_.map Task.ptr ++ [s.next_] := by
      rw [hset, List.map_append, hptr1]
      rfl
    have hnp2 : (r.2.adaptor.set_.map Task.ptr).Nodup := by
      rw [hptr2]
      have := hA.basic.nodup_ptr
      simpa using this
    refine ⟨_, rfl, ?_, ?_, ?_, ?_⟩
    · refine inv_request_step hA p t (List.mem_append_left _ ht) htp hplaceA
        (Task.afterRequest p rest (some s.next_)) (some s.next_)
        (fun q0 hq => by cases hq; simp) ?_
        (afterRequest_ptr p rest _) (afterRequest_key p rest _)
        (afterRequest_other p rest _) (afterRequest_counter p rest _)
        (afterRequest_dependants p rest _) ?_ (le_of_eq hnext.symm) ?_ ?_ ?_ ?_ hrun hpf
      · rw [modify_set _ _ _ hnp2]
        exact hsetF
      · intro q
        simp only [GraphAdaptor.modify, hfin, reduceCtorEq, and_false, if_false, add_zero]
      · simp only [GraphAdaptor.modify]
      · simp only [GraphAdaptor.modify, GraphAdaptor.chooserTasks, hch]
      · simp only [GraphAdaptor.modify, hreq]
      · simp only [GraphAdaptor.modify]
    · rw [modify_set _ _ _ hnp2, map_ptr_update p Task.counted (fun _ => rfl), hptr2]
      exact List.mem_append_left _ hlive
    · intro hp
      simp only [GraphAdaptor.modify, hout]
      split_ifs
      · exact hp
      · exact List.mem_cons_of_mem _ hp
    · simp only [GraphAdaptor.modify, hch]

end ImageGraph


namespace ImageGraph

theorem map_set_task {T : Type} :
    ∀ (l : List (OutputInfo T)) (k : Nat) (e : OutputInfo T), l[k]? = some e →
      (l.set k e.increment).map (fun i => i.task_) = l.map fun i => i.task_ := by
  intro l
  induction l with
  | nil => intro k e h; simp at h
  | cons a l ih =>
    intro k e h
    cases k with
    | zero =>
      simp only [List.getElem?_cons_zero, Option.some.injEq] at h
      subst h
      simp [OutputInfo.increment]
    | succ k =>
      simp only [List.getElem?_cons_succ] at h
      simp only [List.set_cons_succ, List.map_cons, ih k e h]

/-- `generate()` of a chooser that holds a task, none of which has generated everything,
returns one of its tasks and keeps the tasks. -/
theorem chooser_generate (ch : RelevanceChoiceGenerator Nat) (allGenerated : Nat → Bool)
    (hne : ch.info_ ≠ []) (hgen : ∀ p ∈ ch.info_.map (fun i => i.task_), allGenerated p = false) :
    ∃ p ch1, ch.generate allGenerated = some (p, ch1) ∧ p ∈ ch.info_.map (fun i => i.task_) ∧
      ch1.info_.map (fun i => i.task_) = ch.info_.map fun i => i.task_ := by
  obtain ⟨k, e, hm, hget, _⟩ := minElement_spec ch.info_ hne
  have hany : (ch.info_.any fun i => allGenerated i.task_) = false := by
    rw [List.any_eq_false]
    intro i hi
    rw [hgen i.task_ (List.mem_map_of_mem _ hi)]
    exact Bool.false_ne_true
  refine ⟨e.task_, ⟨ch.info_.set k e.increment⟩, ?_, ?_, map_set_task _ k e hget⟩
  · simp only [RelevanceChoiceGenerator.generate, hany, hm]
    rfl
  · exact List.mem_map_of_mem _ (mem_of_getElem?_eq_some _ _ _ hget)

/-- With a requestable task, `frontRequestable().nextRequiredTask()` returns, with no failed
`assert` and no exception, and keeps the invariant. -/
theorem requestNext_spec {g : TaskGraph} {s : ComputeState} (h : s.Inv none)
    (hne : s.adaptor.emptyRequestable = false) :
    ∃ s1, s.requestNext g = some s1 ∧ s1.Inv none := by
  cases hout : s.adaptor.out_requestable_ with
  | cons p rest =>
    have hp : p ∈ s.adaptor.out_requestable_ := by rw [hout]; exact List.mem_cons_self _ _
    obtain ⟨s1, hs1, hinv, hlive, hpo, _⟩ := nextRequiredTask_inv (g := g) h (Or.inl hp)
    obtain ⟨a, ha, hinv2⟩ := taskModifiedOut_inv hinv (hpo hp) hlive
    refine ⟨_, ?_, hinv2⟩
    simp only [ComputeState.requestNext, hout, hs1, ha, Option.map_some']
  | nil =>
    have hche : s.adaptor.chooser_.empty = false := by
      simpa [GraphAdaptor.emptyRequestable, hout] using hne
    have hinfo : s.adaptor.chooser_.info_ ≠ [] := by
      intro e
      simp [RelevanceChoiceGenerator.empty, e] at hche
    have hgen : ∀ p ∈ s.adaptor.chooser_.info_.map (fun i => i.task_),
        (s.adaptor.task p).any Task.allGenerated = false := by
      intro p hp
      cases ht : s.adaptor.task p with
      | none => rfl
      | some t =>
        obtain ⟨hm, htp⟩ := task_mem s.adaptor p t ht
        simp only [Option.any_some]
        exact h.requestable t hm (by simp) (Or.inr (by rw [htp]; exact hp))
    obtain ⟨p, ch1, hg, hp, htasks⟩ := chooser_generate s.adaptor.chooser_ _ hinfo hgen
    have h0 : ComputeState.Inv { s with adaptor := { s.adaptor with chooser_ := ch1 } } none :=
      inv_of_same_tasks h rfl le_rfl rfl htasks rfl (fun _ => rfl) (fun _ => rfl)
    have hp0 : p ∈ GraphAdaptor.chooserTasks { s.adaptor with chooser_ := ch1 } := by
      simp only [GraphAdaptor.chooserTasks, htasks]
      exact hp
    obtain ⟨s1, hs1, hinv, hlive, _, hch⟩ := nextRequiredTask_inv (g := g) h0 (Or.inr hp0)
    have hp1 : p ∈ s1.adaptor.chooserTasks := by
      simp only [GraphAdaptor.chooserTasks, hch]
      exact hp0
    obtain ⟨a, ha, hinv2⟩ := taskModifiedSink_inv hinv hp1 hlive
    refine ⟨_, ?_, hinv2⟩
    simp only [ComputeState.requestNext]
    split
    · rename_i heq
      rw [hout] at heq
      cases heq
    · simp only [hche, Bool.false_eq_true, if_false, hg, hs1, ha, Option.map_some']

theorem requestNext_inv {g : TaskGraph} {s s1 : ComputeState} (h : s.Inv none)
    (hs : s.requestNext g = some s1) : s1.Inv none := by
  by_cases hne : s.adaptor.emptyRequestable = false
  · obtain ⟨s2, hs2, hinv⟩ := requestNext_spec (g := g) h hne
    rw [hs] at hs2
    cases hs2
    exact hinv
  · exfalso
    simp only [Bool.not_eq_false, GraphAdaptor.emptyRequestable, Bool.and_eq_true,
      List.isEmpty_iff] at hne
    simp only [ComputeState.requestNext, hne.1, hne.2, if_true] at hs
    cases hs

theorem addSinkTask_inv {g : TaskGraph} {s s1 : ComputeState} {sink : Nat} (h : s.Inv none)
    (hs : s.addSinkTask g sink = some s1) : s1.Inv none := by
  simp only [ComputeState.addSinkTask] at hs
  split_ifs at hs with hany he
  · have hkey : Task.key ⟨s.next_, sink, g.sinkRegion sink, g.sinkRequired sink, 0, []⟩
        ∉ s.adaptor.set_.map Task.key := by
      intro hm
      obtain ⟨t, ht, hk⟩ := List.mem_map.1 hm
      apply hany
      rw [List.any_eq_true]
      exact ⟨t, ht, by simpa using hk⟩
    simp only [Option.some.injEq] at hs
    subst hs
    refine inv_add_task h ⟨s.next_, sink, g.sinkRegion sink, g.sinkRequired sink, 0, []⟩
      rfl rfl rfl hkey (by simp) rfl rfl rfl rfl rfl rfl ?_ ?_
    · intro q
      simp [he, GraphAdaptor.chooserTasks]
    · intro q
      simp only [he, List.count_append, List.count_singleton, and_true]
      by_cases hq : q = s.next_
      · subst hq; simp
      · have : (s.next_ == q) = false := by rw [beq_eq_false_iff_ne]; exact fun e => hq e.symm
        simp [hq, this]
  · have hkey : Task.key ⟨s.next_, sink, g.sinkRegion sink, g.sinkRequired sink, 0, []⟩
        ∉ s.adaptor.set_.map Task.key := by
      intro hm
      obtain ⟨t, ht, hk⟩ := List.mem_map.1 hm
      apply hany
      rw [List.any_eq_true]
      exact ⟨t, ht, by simpa using hk⟩
    simp only [Option.some.injEq] at hs
    subst hs
    refine inv_add_task h ⟨s.next_, sink, g.sinkRegion sink, g.sinkRequired sink, 0, []⟩
      rfl rfl rfl hkey (by simp) rfl rfl rfl rfl rfl rfl ?_ ?_
    · intro q
      simp only [GraphAdaptor.chooserTasks, RelevanceChoiceGenerator.addSinkTask,
        List.map_append, List.map_cons, List.map_nil, OutputInfo.new, List.count_append,
        List.count_singleton, Bool.false_eq_true, if_false]
      by_cases hq : q = s.next_
      · subst hq
        simp only [beq_self_eq_true, if_true, true_and]
        rw [if_pos (by simpa using he)]
        omega
      · have : (s.next_ == q) = false := by rw [beq_eq_false_iff_ne]; exact fun e => hq e.symm
        simp [hq, this]
    · intro q
      simp [he]

end ImageGraph


namespace ImageGraph

theorem pending_pos_of_job {s : ComputeState} {p : Nat}
    (hj : (⟨p, true⟩ : PoolID) ∈ s.running ++ s.pool_finished_) : 0 < s.pending p := by
  have := List.count_pos_iff.2 hj
  simp only [ComputeState.pending]
  omega

/-- `singlePerformed(task)` for a `performSingle` job that has ended: no `assert` fails and the
invariant is kept. -/
theorem singlePerformed_inv {s : ComputeState} {p : Nat} {rest : List PoolID} (h : s.Inv none)
    (hpf : s.pool_finished_ = ⟨p, true⟩ :: rest) :
    ∃ a, s.adaptor.singlePerformed p = some a ∧
      ComputeState.Inv { s with adaptor := a, pool_finished_ := rest } none := by
  have hpos : 0 < s.pending p :=
    pending_pos_of_job (by rw [hpf]; exact List.mem_append_right _ (List.mem_cons_self _ _))
  have hlive : p ∈ s.adaptor.set_.map Task.ptr := by
    by_contra hn
    have := h.dangling p hn
    omega
  obtain ⟨t, htask, ht, htp⟩ := task_isSome_of_mem s.adaptor p hlive
  have hcnt : t.task_counter_ = s.pending p := by rw [← htp]; exact h.counter t ht
  have hc0 : t.task_counter_ ≠ 0 := by omega
  have hone := h.places p
  rw [count_ptr_eq_one h.basic hlive, places_count] at hone
  have hnperf : p ∉ s.adaptor.performable_ ∧ p ∉ s.fullJobs := by
    constructor
    · intro hm
      exact hc0 (h.performable t ht (Or.inl (by rw [htp]; exact hm))).2
    · intro hm
      exact hc0 (h.performable t ht (Or.inr (by rw [htp]; exact hm))).2
  have huniq : ∀ u ∈ s.adaptor.set_, u.ptr = p → u = t := fun u hu e =>
    eq_of_mem_of_ptr_eq h.basic.nodup_ptr hu ht (e.trans htp.symm)
  have hset : (s.adaptor.modify p Task.singlePerformed).set_
      = s.adaptor.set_.map (Task.update p Task.singlePerformed) :=
    modify_set _ _ _ h.basic.nodup_ptr
  have hptrs : (s.adaptor.set_.map (Task.update p Task.singlePerformed)).map Task.ptr
      = s.adaptor.set_.map Task.ptr := map_ptr_update p Task.singlePerformed (fun _ => rfl) _
  have hkeys : (s.adaptor.set_.map (Task.update p Task.singlePerformed)).map Task.key
      = s.adaptor.set_.map Task.key := map_key_update p Task.singlePerformed (fun _ => rfl) _
  have hsp : t.singlePerformed.task_counter_ = t.task_counter_ - 1 := by
    simp only [Task.singlePerformed, hc0, if_false]
  have hspg : t.singlePerformed.allGenerated = t.allGenerated := rfl
  -- what the states after the call share
  have hmem : ∀ u ∈ s.adaptor.set_.map (Task.update p Task.singlePerformed),
      (u ∈ s.adaptor.set_ ∧ u.ptr ≠ p) ∨ u = t.singlePerformed := by
    intro u hu
    obtain ⟨v, hv, rfl⟩ := List.mem_map.1 hu
    by_cases hvp : v.ptr = p
    · right
      rw [huniq v hv hvp]
      simp only [Task.update, htp, if_true]
    · left
      rw [update_of_ne p _ v hvp]
      exact ⟨hv, hvp⟩
  have hsum : ∀ q, ((s.adaptor.set_.map (Task.update p Task.singlePerformed)).map
      fun u => u.dependants_.count q).sum = (s.adaptor.set_.map fun u => u.dependants_.count q).sum := by
    intro q
    have := sum_map_update (fun u => u.dependants_.count q) p Task.singlePerformed s.adaptor.set_ t
      h.basic.nodup_ptr ht htp
    simp only [Task.singlePerformed] at this
    omega
  have hjobs : ∀ j, (s.running ++ rest).count j + (if j = ⟨p, true⟩ then 1 else 0)
      = (s.running ++ s.pool_finished_).count j := by
    intro j
    rw [hpf]
    simp only [List.count_append, List.count_cons, beq_iff_eq]
    by_cases hj : j = ⟨p, true⟩
    · subst hj; simp; omega
    · have : ¬ (⟨p, true⟩ : PoolID) = j := fun e => hj e.symm
      simp [hj, this]
  have hfullc : ∀ q (c : GraphAdaptor),
      (ComputeState.fullJobs { s with adaptor := c, pool_finished_ := rest }).count q
        = s.fullJobs.count q := by
    intro q c
    have := hjobs ⟨q, false⟩
    simp only [count_fullJobs]
    simpa using this
  have hfullm : ∀ q (c : GraphAdaptor),
      q ∈ ComputeState.fullJobs { s with adaptor := c, pool_finished_ := rest } ↔ q ∈ s.fullJobs := by
    intro q c
    simp only [mem_iff_count_pos, hfullc]
  have hpend : ∀ q (c : GraphAdaptor),
      c.set_ = s.adaptor.set_.map (Task.update p Task.singlePerformed) →
      c.finished_ = s.adaptor.finished_ →
      ComputeState.pending { s with adaptor := c, pool_finished_ := rest } q
          + (if q = p then 1 else 0) = s.pending q := by
    intro q c hc1 hc2
    have := hjobs ⟨q, true⟩
    simp only [ComputeState.pending, hc1, hc2, hsum]
    simp only [PoolID.mk.injEq, and_true] at this
    omega
  simp only [GraphAdaptor.singlePerformed, htask, hnperf.1, if_false]
  by_cases hall : t.singlePerformed.allSinglePerformed = true
  · -- the last notification: the task goes from `requested_` to `performable_`
    have hg : t.allGenerated = true := by
      simp only [Task.allSinglePerformed, Bool.and_eq_true] at hall
      exact hall.1
    have hc1 : t.task_counter_ = 1 := by
      simp only [Task.allSinglePerformed, Bool.and_eq_true, decide_eq_true_eq] at hall
      omega
    have hnout : p ∉ s.adaptor.out_requestable_ ∧ p ∉ s.adaptor.chooserTasks := by
      constructor
      · intro hm
        have := h.requestable t ht (by simp) (Or.inl (by rw [htp]; exact hm))
        rw [hg] at this; cases this
      · intro hm
        have := h.requestable t ht (by simp) (Or.inr (by rw [htp]; exact hm))
        rw [hg] at this; cases this
    have hreq : p ∈ s.adaptor.requested_ := by
      have h1 := List.count_eq_zero_of_not_mem hnout.1
      have h2 := List.count_eq_zero_of_not_mem hnout.2
      have h3 := List.count_eq_zero_of_not_mem hnperf.1
      have h4 := List.count_eq_zero_of_not_mem hnperf.2
      rw [mem_iff_count_pos]
      omega
    have hreq1 : s.adaptor.requested_.count p = 1 := by
      have := List.count_pos_iff.2 hreq
      omega
    simp only [hall, if_true, GraphAdaptor.modify, hnout.1, if_false, hreq]
    refine ⟨_, rfl, ?_⟩
    refine ⟨basic_of_same h.basic (by rw [← hptrs, ← hset]; rfl) (by rw [← hkeys, ← hset]; rfl)
      le_rfl, ?_, ?_, ?_, ?_, ?_, ?_, ?_⟩
    · intro q
      have h1 := h.places q
      have h2 := count_erase_add s.adaptor.requested_ p q hreq
      have h3 := hfullc q
        ⟨modifyFirst (fun t => decide (t.ptr = p)) Task.singlePerformed s.adaptor.set_,
          s.adaptor.out_requestable_, s.adaptor.requested_.erase p,
          s.adaptor.performable_ ++ [p], s.adaptor.finished_, s.adaptor.chooser_⟩
      rw [places_count] at h1 ⊢
      simp only [GraphAdaptor.chooserTasks] at h1 ⊢
      rw [h3]
      have h4 : (modifyFirst (fun t => decide (t.ptr = p)) Task.singlePerformed
          s.adaptor.set_).map Task.ptr = s.adaptor.set_.map Task.ptr :=
        map_ptr_modifyFirst _ Task.singlePerformed (fun _ => rfl) _
      simp only [h4, List.count_append, List.count_singleton]
      by_cases hq : q = p
      · subst hq; simp at h2 ⊢; omega
      · have : (p == q) = false := by rw [beq_eq_false_iff_ne]; exact fun e => hq e.symm
        simp [hq, this] at h2 ⊢; omega
    · intro u hu _ hq
      have hu' : u ∈ s.adaptor.set_.map (Task.update p Task.singlePerformed) := by
        rw [← hset]; exact hu
      rcases hmem u hu' with ⟨hm, _⟩ | rfl
      · exact h.requestable u hm (by simp) hq
      · exfalso
        rcases hq with hq | hq
        · exact hnout.1 (by simpa [Task.singlePerformed, htp] using hq)
        · exact hnout.2 (by simpa [Task.singlePerformed, htp] using hq)
    · intro u _ he
      cases he
    · intro u hu hq
      have hu' : u ∈ s.adaptor.set_.map (Task.update p Task.singlePerformed) := by
        rw [← hset]; exact hu
      rcases hmem u hu' with ⟨hm, _⟩ | rfl
      · exact h.requested u hm (List.mem_of_mem_erase hq)
      · exfalso
        have hq' : p ∈ s.adaptor.requested_.erase p := by
          simpa [Task.singlePerformed, htp] using hq
        have := List.count_pos_iff.2 hq'
        rw [List.count_erase_self] at this
        omega
    · intro u hu hq
      have hu' : u ∈ s.adaptor.set_.map (Task.update p Task.singlePerformed) := by
        rw [← hset]; exact hu
      rcases hmem u hu' with ⟨hm, hne⟩ | rfl
      · apply h.performable u hm
        rcases hq with hq | hq
        · left
          rcases List.mem_append.1 hq with hq | hq
          · exact hq
          · exact absurd (List.mem_singleton.1 hq) hne
        · right
          exact (hfullm u.ptr _).1 hq
      · simp only [Task.allSinglePerformed, Bool.and_eq_true, decide_eq_true_eq] at hall
        exact hall
    · intro u hu
      have hu' : u ∈ s.adaptor.set_.map (Task.update p Task.singlePerformed) := by
        rw [← hset]; exact hu
      have hp := hpend u.ptr
        ⟨modifyFirst (fun t => decide (t.ptr = p)) Task.singlePerformed s.adaptor.set_,
          s.adaptor.out_requestable_, s.adaptor.requested_.erase p,
          s.adaptor.performable_ ++ [p], s.adaptor.finished_, s.adaptor.chooser_⟩ hset rfl
      rcases hmem u hu' with ⟨hm, hne⟩ | rfl
      · rw [if_neg hne] at hp
        have := h.counter u hm
        omega
      · have hptr : t.singlePerformed.ptr = p := htp
        rw [hptr] at hp ⊢
        rw [if_pos rfl] at hp
        omega
    · intro q hq
      have hq' : q ∉ s.adaptor.set_.map Task.ptr := by
        rw [← hptrs, ← hset]; exact hq
      have hp := hpend q
        ⟨modifyFirst (fun t => decide (t.ptr = p)) Task.singlePerformed s.adaptor.set_,
          s.adaptor.out_requestable_, s.adaptor.requested_.erase p,
          s.adaptor.performable_ ++ [p], s.adaptor.finished_, s.adaptor.chooser_⟩ hset rfl
      have := h.dangling q hq'
      omega
  · -- more notifications are to come, or more calls to make
    simp only [hall, Bool.false_eq_true, if_false]
    refine ⟨_, rfl, ?_⟩
    refine ⟨basic_of_same h.basic (by rw [← hptrs, ← hset]) (by rw [← hkeys, ← hset])
      le_rfl, ?_, ?_, ?_, ?_, ?_, ?_, ?_⟩
    · intro q
      have h1 := h.places q
      have h3 := hfullc q (s.adaptor.modify p Task.singlePerformed)
      rw [places_count] at h1 ⊢
      simp only [GraphAdaptor.chooserTasks] at h1 ⊢
      rw [h3]
      simp only [hset, hptrs]
      exact h1
    · intro u hu _ hq
      have hu' : u ∈ s.adaptor.set_.map (Task.update p Task.singlePerformed) := by
        rw [← hset]; exact hu
      rcases hmem u hu' with ⟨hm, _⟩ | rfl
      · exact h.requestable u hm (by simp) hq
      · rw [hspg]
        exact h.requestable t ht (by simp) (by simpa [Task.singlePerformed] using hq)
    · intro u _ he
      cases he
    · intro u hu hq
      have hu' : u ∈ s.adaptor.set_.map (Task.update p Task.singlePerformed) := by
        rw [← hset]; exact hu
      rcases hmem u hu' with ⟨hm, _⟩ | rfl
      · exact h.requested u hm hq
      · have := h.requested t ht (by simpa [Task.singlePerformed] using hq)
        refine ⟨this.1, ?_⟩
        intro hz
        apply hall
        simp only [Task.allSinglePerformed, Bool.and_eq_true, decide_eq_true_eq]
        exact ⟨this.1, hz⟩
    · intro u hu hq
      have hu' : u ∈ s.adaptor.set_.map (Task.update p Task.singlePerformed) := by
        rw [← hset]; exact hu
      rw [hfullm] at hq
      rcases hmem u hu' with ⟨hm, _⟩ | rfl
      · exact h.performable u hm hq
      · exfalso
        have hptr : t.singlePerformed.ptr = p := htp
        rw [hptr] at hq
        rcases hq with hq | hq
        · exact hnperf.1 hq
        · exact hnperf.2 hq
    · intro u hu
      have hu' : u ∈ s.adaptor.set_.map (Task.update p Task.singlePerformed) := by
        rw [← hset]; exact hu
      have hp := hpend u.ptr (s.adaptor.modify p Task.singlePerformed) hset rfl
      rcases hmem u hu' with ⟨hm, hne⟩ | rfl
      · rw [if_neg hne] at hp
        have := h.counter u hm
        omega
      · have hptr : t.singlePerformed.ptr = p := htp
        rw [hptr] at hp ⊢
        rw [if_pos rfl] at hp
        omega
    · intro q hq
      have hq' : q ∉ s.adaptor.set_.map Task.ptr := by
        rw [← hptrs, ← hset]; exact hq
      have hp := hpend q (s.adaptor.modify p Task.singlePerformed) hset rfl
      have := h.dangling q hq'
      omega

end ImageGraph


namespace ImageGraph

theorem eraseP_key_split (l : List Task) (t : Task) (ht : t ∈ l) (hk : (l.map Task.key).Nodup) :
    ∃ l1 l2, l = l1 ++ t :: l2 ∧ l.eraseP (fun u => decide (u.key = t.key)) = l1 ++ l2 := by
  obtain ⟨a, l1, l2, _, ha, hl, he⟩ :=
    List.exists_of_eraseP (p := fun u => decide (u.key = t.key)) ht (by simp)
  have ham : a ∈ l := by rw [hl]; simp
  have : a = t := eq_of_mem_of_key_eq hk ham ht (by simpa using ha)
  subst this
  exact ⟨l1, l2, hl, he⟩

/-- `finished(task)` for a `performFull` job that has ended, with the `performSingle` jobs of
the dependants handed to the pool: no `assert` fails and the invariant is kept. -/
theorem finished_inv {s : ComputeState} {p : Nat} {rest : List PoolID} (h : s.Inv none)
    (hpf : s.pool_finished_ = ⟨p, false⟩ :: rest) :
    ∃ t a, s.adaptor.task p = some t ∧ s.adaptor.finished p = some a ∧
      ComputeState.Inv { s with adaptor := a, pool_finished_ := rest,
                                running := s.running ++ t.dependants_.map fun d => ⟨d, true⟩ }
        none := by
  have hfj : 0 < s.fullJobs.count p := by
    rw [count_fullJobs, hpf]
    simp [List.count_append, List.count_cons]
  have hlive : p ∈ s.adaptor.set_.map Task.ptr := by
    have := h.places p
    rw [places_count] at this
    rw [mem_iff_count_pos]
    omega
  obtain ⟨t, htask, ht, htp⟩ := task_isSome_of_mem s.adaptor p hlive
  have hone := h.places p
  rw [count_ptr_eq_one h.basic hlive, places_count] at hone
  have hst := h.performable t ht (Or.inr (by rw [htp, mem_iff_count_pos]; exact hfj))
  have hpend0 : s.pending p = 0 := by
    have := h.counter t ht
    rw [htp] at this
    omega
  have hnq : ¬(p ∈ s.adaptor.out_requestable_ ∨ p ∈ s.adaptor.requested_ ∨
      p ∈ s.adaptor.performable_) := by
    simp only [mem_iff_count_pos]
    omega
  obtain ⟨l1, l2, hl, he⟩ := eraseP_key_split s.adaptor.set_ t ht h.basic.nodup_key
  have hnp := h.basic.nodup_ptr
  rw [hl, List.map_append, List.map_cons, List.nodup_append] at hnp
  have hnm1 : ∀ u ∈ l1, u.ptr ≠ p := by
    intro u hu e
    exact hnp.2.2 (List.mem_map_of_mem _ hu) (by rw [e, ← htp]; exact List.mem_cons_self _ _)
  have hnm2 : ∀ u ∈ l2, u.ptr ≠ p := by
    intro u hu e
    have := (List.nodup_cons.1 hnp.2.1).1
    exact this (by rw [htp, ← e]; exact List.mem_map_of_mem _ hu)
  have hmem : ∀ u ∈ l1 ++ l2, u ∈ s.adaptor.set_ ∧ u.ptr ≠ p := by
    intro u hu
    rcases List.mem_append.1 hu with hu | hu
    · exact ⟨by rw [hl]; exact List.mem_append_left _ hu, hnm1 u hu⟩
    · exact ⟨by rw [hl]; exact List.mem_append_right _ (List.mem_cons_of_mem _ hu), hnm2 u hu⟩
  have hjobs : ∀ j, (s.running ++ (t.dependants_.map fun d => (⟨d, true⟩ : PoolID)) ++ rest).count j
        + (if j = ⟨p, false⟩ then 1 else 0)
      = (s.running ++ s.pool_finished_).count j
        + (t.dependants_.map fun d => (⟨d, true⟩ : PoolID)).count j := by
    intro j
    rw [hpf]
    simp only [List.count_append, List.count_cons, beq_iff_eq]
    by_cases hj : j = ⟨p, false⟩
    · subst hj; simp; omega
    · have : ¬ (⟨p, false⟩ : PoolID) = j := fun e => hj e.symm
      simp [hj, this]; omega
  have hfullc : ∀ q (c : GraphAdaptor),
      (ComputeState.fullJobs ⟨c, s.caches, s.running ++ t.dependants_.map fun d => ⟨d, true⟩, rest, s.next_⟩).count q
        + (if q = p then 1 else 0) = s.fullJobs.count q := by
    intro q c
    have := hjobs ⟨q, false⟩
    simp only [count_fullJobs, count_full_map, PoolID.mk.injEq, and_true, add_zero] at this ⊢
    exact this
  have hfullm : ∀ q (c : GraphAdaptor),
      q ∈ ComputeState.fullJobs ⟨c, s.caches, s.running ++ t.dependants_.map fun d => ⟨d, true⟩, rest, s.next_⟩ → q ∈ s.fullJobs := by
    intro q c hq
    have := hfullc q c
    simp only [mem_iff_count_pos] at hq ⊢
    omega
  have hpend : ∀ q (c : GraphAdaptor), c.set_ = l1 ++ l2 → c.finished_ = s.adaptor.finished_ →
      ComputeState.pending ⟨c, s.caches, s.running ++ t.dependants_.map fun d => ⟨d, true⟩, rest, s.next_⟩ q = s.pending q := by
    intro q c hc1 hc2
    have := hjobs ⟨q, true⟩
    simp only [ComputeState.pending, hc1, hc2, hl, List.map_append, List.map_cons,
      List.sum_append, List.sum_cons]
    simp only [count_single_map, PoolID.mk.injEq, Bool.true_eq_false, and_false, if_false,
      add_zero] at this
    omega
  simp only [GraphAdaptor.finished, htask, hnq, if_false]
  refine ⟨t, _, rfl, rfl, ?_⟩
  have hsub : (s.adaptor.set_.eraseP fun u => decide (u.key = t.key)).Sublist s.adaptor.set_ :=
    List.eraseP_sublist _
  refine ⟨basic_of_sublist h.basic hsub le_rfl, ?_, ?_, ?_, ?_, ?_, ?_, ?_⟩
  · intro q
    have h1 := h.places q
    have h3 := hjobs ⟨q, false⟩
    rw [places_count, count_fullJobs] at h1 ⊢
    simp only [GraphAdaptor.chooserTasks] at h1 ⊢
    simp only [he]
    rw [hl] at h1
    simp only [List.map_append, List.map_cons, List.count_append, List.count_cons, htp,
      beq_iff_eq, count_full_map, PoolID.mk.injEq, and_true, add_zero] at h1 h3 ⊢
    by_cases hq : q = p
    · subst hq; simp at h1 h3 ⊢; omega
    · have : ¬ p = q := fun e => hq e.symm
      simp [hq, this] at h1 h3 ⊢; omega
  · intro u hu _ hq
    simp only [he] at hu
    exact h.requestable u (hmem u hu).1 (by simp) hq
  · intro u _ hx
    cases hx
  · intro u hu hq
    simp only [he] at hu
    exact h.requested u (hmem u hu).1 hq
  · intro u hu hq
    simp only [he] at hu
    apply h.performable u (hmem u hu).1
    rcases hq with hq | hq
    · exact Or.inl hq
    · exact Or.inr (hfullm _ _ hq)
  · intro u hu
    simp only [he] at hu
    exact (h.counter u (hmem u hu).1).trans (hpend u.ptr
      ⟨s.adaptor.set_.eraseP fun u => decide (u.key = t.key), s.adaptor.out_requestable_,
        s.adaptor.requested_, s.adaptor.performable_, s.adaptor.finished_, s.adaptor.chooser_⟩
      he rfl).symm
  · intro q hq
    refine (hpend q
      ⟨s.adaptor.set_.eraseP fun u => decide (u.key = t.key), s.adaptor.out_requestable_,
        s.adaptor.requested_, s.adaptor.performable_, s.adaptor.finished_, s.adaptor.chooser_⟩
      he rfl).trans ?_
    by_cases hqp : q = p
    · rw [hqp]; exact hpend0
    · apply h.dangling
      intro hm
      apply hq
      simp only [he]
      rw [hl] at hm
      simp only [List.map_append, List.map_cons, List.mem_append, List.mem_cons, htp] at hm ⊢
      rcases hm with hm | hm | hm
      · exact Or.inl hm
      · exact absurd hm hqp
      · exact Or.inr hm

/-- One round of `handleFinished` returns, with no failed `assert`, and keeps the invariant. -/
theorem handleFinished_spec {s : ComputeState} (h : s.Inv none) :
    ∃ s1, s.handleFinished = some s1 ∧ s1.Inv none := by
  cases hpf : s.pool_finished_ with
  | nil => exact ⟨s, by simp only [ComputeState.handleFinished, hpf], h⟩
  | cons id rest =>
    obtain ⟨p, d⟩ := id
    cases d
    · obtain ⟨t, a, ht, ha, hinv⟩ := finished_inv h hpf
      exact ⟨_, by simp only [ComputeState.handleFinished, hpf, Bool.false_eq_true, if_false, ht,
        ha, Option.map_some'], hinv⟩
    · obtain ⟨a, ha, hinv⟩ := singlePerformed_inv h hpf
      exact ⟨_, by simp only [ComputeState.handleFinished, hpf, if_true, ha, Option.map_some'],
        hinv⟩

theorem handleFinished_inv {s s1 : ComputeState} (h : s.Inv none)
    (hs : s.handleFinished = some s1) : s1.Inv none := by
  obtain ⟨s2, hs2, hinv⟩ := handleFinished_spec h
  rw [hs] at hs2
  cases hs2
  exact hinv

end ImageGraph


namespace ImageGraph

theorem modify_basic {s : ComputeState} (p : Nat) (f : Task → Task)
    (hfp : ∀ t, (f t).ptr = t.ptr) (hfk : ∀ t, (f t).key = t.key) (h : s.Basic) :
    ComputeState.Basic { s with adaptor := s.adaptor.modify p f } :=
  basic_of_same h (map_ptr_modifyFirst _ f hfp _) (map_key_modifyFirst _ f hfk _) le_rfl

theorem generateRegion_basic {g : TaskGraph} {s : ComputeState} (caller node : Nat)
    (region : Rectangle) (h : s.Basic) : (s.generateRegion g caller node region).2.Basic := by
  obtain ⟨_, _, hc⟩ := generateRegion_cases g s caller node region
  rcases hc with ⟨_, _, had, hnext⟩ | ⟨_, old, _, _, _, had, hnext, _⟩ |
    ⟨_, hnot, _, hset, _, _, _, _, _, hnext⟩
  · exact basic_of_same h (by rw [had]) (by rw [had]) (le_of_eq hnext.symm)
  · refine basic_of_same h ?_ ?_ (le_of_eq hnext.symm)
    · rw [had]
      exact map_ptr_modifyFirst _ (fun t => t.addDependant caller) (fun _ => rfl) _
    · rw [had]
      exact map_key_modifyFirst _ (fun t => t.addDependant caller) (fun _ => rfl) _
  · exact basic_of_add h (node, region) (by rw [hset, List.map_append]; rfl)
      (by rw [hset, List.map_append]; rfl) hnot hnext

theorem nextRequiredTask_basic {g : TaskGraph} {s s1 : ComputeState} {p : Nat} (h : s.Basic)
    (hs : s.nextRequiredTask g p = some s1) : s1.Basic := by
  simp only [ComputeState.nextRequiredTask] at hs
  split at hs
  · cases hs
  · split at hs
    · cases hs
    · rename_i t _ node region rest _
      have h1 := modify_basic p (fun u => u.generated rest) (fun _ => rfl) (fun _ => rfl) h
      have h2 := generateRegion_basic (g := g) p node region h1
      have h3 := modify_basic p Task.counted (fun _ => rfl) (fun _ => rfl) h2
      simp only [Option.some.injEq] at hs
      subst hs
      split_ifs
      · exact basic_of_same h3 rfl rfl le_rfl
      · exact h3

theorem taskModifiedOut_set {a a1 : GraphAdaptor} {p : Nat}
    (h : a.taskModifiedOut p = some a1) : a1.set_ = a.set_ := by
  simp only [GraphAdaptor.taskModifiedOut] at h
  split at h
  · cases h
  · split_ifs at h <;> cases h <;> rfl

theorem taskModifiedSink_set {a a1 : GraphAdaptor} {p : Nat}
    (h : a.taskModifiedSink p = some a1) : a1.set_ = a.set_ := by
  simp only [GraphAdaptor.taskModifiedSink] at h
  repeat' split at h
  all_goals first | (cases h; done) | (cases h; rfl)

theorem singlePerformed_set {a a1 : GraphAdaptor} {p : Nat}
    (h : a.singlePerformed p = some a1) :
    a1.set_ = modifyFirst (fun t => decide (t.ptr = p)) Task.singlePerformed a.set_ := by
  simp only [GraphAdaptor.singlePerformed] at h
  split at h
  · cases h
  · split_ifs at h <;> cases h <;> rfl

theorem finished_sublist {a a1 : GraphAdaptor} {p : Nat}
    (h : a.finished p = some a1) : a1.set_.Sublist a.set_ := by
  simp only [GraphAdaptor.finished] at h
  split at h
  · cases h
  · split_ifs at h
    cases h
    exact List.eraseP_sublist _

/-- Every step keeps the addresses and the keys of the live tasks unique. -/
theorem step_basic {g : TaskGraph} {s s1 : ComputeState} (op : ComputeOp) (h : s.Basic)
    (hs : s.step g op = some s1) : s1.Basic := by
  cases op with
  | addSinkTask sink =>
    simp only [ComputeState.step, ComputeState.addSinkTask] at hs
    split_ifs at hs with hany he
    · cases hs
      refine basic_of_add h (sink, g.sinkRegion sink) (by simp) (by simp [Task.key]) ?_ rfl
      intro hm
      obtain ⟨t, ht, hk⟩ := List.mem_map.1 hm
      apply hany
      rw [List.any_eq_true]
      exact ⟨t, ht, by simpa [Task.key] using hk⟩
    · cases hs
      refine basic_of_add h (sink, g.sinkRegion sink) (by simp) (by simp [Task.key]) ?_ rfl
      intro hm
      obtain ⟨t, ht, hk⟩ := List.mem_map.1 hm
      apply hany
      rw [List.any_eq_true]
      exact ⟨t, ht, by simpa [Task.key] using hk⟩
  | requestNext =>
    simp only [ComputeState.step, ComputeState.requestNext] at hs
    split at hs
    · split at hs
      · cases hs
      · rename_i s2 hs2
        have h2 := nextRequiredTask_basic h hs2
        simp only [Option.map_eq_some'] at hs
        obtain ⟨a, ha, rfl⟩ := hs
        have := taskModifiedOut_set ha
        exact basic_of_same h2 (by simp only [this]) (by simp only [this]) le_rfl
    · split_ifs at hs
      split at hs
      · cases hs
      · split at hs
        · cases hs
        · rename_i s2 hs2
          have h0 : ComputeState.Basic
              { s with adaptor := { s.adaptor with chooser_ := ‹RelevanceChoiceGenerator Nat› } } :=
            basic_of_same h rfl rfl le_rfl
          have h2 := nextRequiredTask_basic h0 hs2
          simp only [Option.map_eq_some'] at hs
          obtain ⟨a, ha, rfl⟩ := hs
          have := taskModifiedSink_set ha
          exact basic_of_same h2 (by simp only [this]) (by simp only [this]) le_rfl
  | extractPerformable =>
    simp only [ComputeState.step, ComputeState.extractPerformable] at hs
    split at hs
    · cases hs
    · cases hs
      exact basic_of_same h rfl rfl le_rfl
  | performSingle =>
    simp only [ComputeState.step, Option.some.injEq] at hs
    subst hs
    exact basic_of_same h rfl rfl le_rfl
  | poolEnd k =>
    simp only [ComputeState.step, ComputeState.poolEnd] at hs
    split at hs
    · cases hs
    · split_ifs at hs
      · cases hs; exact basic_of_same h rfl rfl le_rfl
      · split at hs
        · cases hs
        · split_ifs at hs
          · split at hs
            · cases hs
            · cases hs; exact basic_of_same h rfl rfl le_rfl
          · cases hs; exact basic_of_same h rfl rfl le_rfl
  | handleFinished =>
    simp only [ComputeState.step, ComputeState.handleFinished] at hs
    split at hs
    · cases hs; exact h
    · split_ifs at hs
      · simp only [Option.map_eq_some'] at hs
        obtain ⟨a, ha, rfl⟩ := hs
        have := singlePerformed_set ha
        exact basic_of_same h
          (by simp only [this]; exact map_ptr_modifyFirst _ Task.singlePerformed (fun _ => rfl) _)
          (by simp only [this]; exact map_key_modifyFirst _ Task.singlePerformed (fun _ => rfl) _)
          le_rfl
      · split at hs
        · cases hs
        · simp only [Option.map_eq_some'] at hs
          obtain ⟨a, ha, rfl⟩ := hs
          exact basic_of_sublist h (finished_sublist ha) le_rfl
  | generateRegion caller node region =>
    simp only [ComputeState.step, Option.some.injEq] at hs
    subst hs
    exact generateRegion_basic caller node region h
  | finished task =>
    simp only [ComputeState.step, Option.map_eq_some'] at hs
    obtain ⟨a, ha, rfl⟩ := hs
    exact basic_of_sublist h (finished_sublist ha) le_rfl

theorem init_basic (caches : Nat → Cache Rectangle Unit) : (ComputeState.init caches).Basic :=
  ⟨List.nodup_nil, List.nodup_nil, fun p hp => absurd hp (List.not_mem_nil p)⟩

theorem init_inv (caches : Nat → Cache Rectangle Unit) : (ComputeState.init caches).Inv none :=
  ⟨init_basic caches, fun _ => rfl, fun t ht => absurd ht (List.not_mem_nil t),
    fun t ht => absurd ht (List.not_mem_nil t), fun t ht => absurd ht (List.not_mem_nil t),
    fun t ht => absurd ht (List.not_mem_nil t), fun t ht => absurd ht (List.not_mem_nil t),
    fun _ _ => rfl⟩

theorem run_basic {g : TaskGraph} :
    ∀ (ops : List ComputeOp) (s s1 : ComputeState), s.Basic →
      ComputeState.run g s ops = some s1 → s1.Basic := by
  intro ops
  induction ops with
  | nil =>
    intro s s1 h hs
    simp only [ComputeState.run, Option.some.injEq] at hs
    rw [← hs]; exact h
  | cons op ops ih =>
    intro s s1 h hs
    simp only [ComputeState.run] at hs
    cases h1 : s.step g op with
    | none => rw [h1] at hs; cases hs
    | some s2 =>
      rw [h1] at hs
      exact ih s2 s1 (step_basic op h h1) hs

theorem step_inv {g : TaskGraph} {s s1 : ComputeState} (op : ComputeOp) (hop : op.OfCompute)
    (h : s.Inv none) (hs : s.step g op = some s1) : s1.Inv none := by
  cases op with
  | addSinkTask sink => exact addSinkTask_inv h hs
  | requestNext => exact requestNext_inv h hs
  | extractPerformable => exact extractPerformable_inv h hs
  | performSingle =>
    simp only [ComputeState.step, Option.some.injEq] at hs
    subst hs
    exact performSingle_inv h
  | poolEnd k => exact poolEnd_inv h hs
  | handleFinished => exact handleFinished_inv h hs
  | generateRegion caller node region => exact absurd hop id
  | finished task => exact absurd hop id

theorem run_inv {g : TaskGraph} :
    ∀ (ops : List ComputeOp) (s s1 : ComputeState), (∀ op ∈ ops, op.OfCompute) → s.Inv none →
      ComputeState.run g s ops = some s1 → s1.Inv none := by
  intro ops
  induction ops with
  | nil =>
    intro s s1 _ h hs
    simp only [ComputeState.run, Option.some.injEq] at hs
    rw [← hs]; exact h
  | cons op ops ih =>
    intro s s1 hops h hs
    simp only [ComputeState.run] at hs
    cases h1 : s.step g op with
    | none => rw [h1] at hs; cases hs
    | some s2 =>
      rw [h1] at hs
      exact ih s2 s1 (fun o ho => hops o (List.mem_cons_of_mem _ ho))
        (step_inv op (hops op (List.mem_cons_self _ _)) h h1) hs

end ImageGraph


namespace ImageGraph

theorem mem_fullJobs_iff (s : ComputeState) (p : Nat) :
    p ∈ s.fullJobs ↔ (⟨p, false⟩ : PoolID) ∈ s.running ++ s.pool_finished_ := by
  rw [mem_iff_count_pos, count_fullJobs, List.count_pos_iff]

theorem allSinglePerformed_iff (t : Task) :
    t.allSinglePerformed = true ↔ t.allGenerated = true ∧ t.task_counter_ = 0 := by
  simp only [Task.allSinglePerformed, Bool.and_eq_true, decide_eq_true_eq]

/-- C7: in every state that the steps of `compute` and of its pool reach from the empty
adaptor, the tasks of `performable_` are live tasks with `allSinglePerformed()`, and so is the
task of every `performFull` job in the pool, so the `DEBUG_ASSERT` of `performFull` holds; a
live task is in `performable_` or has its `performFull` job in the pool exactly when
`allSinglePerformed()` holds, that is `allGenerated()` with the counter at 0; such a task is not
in `out_requestable_`, the chooser or `requested_`; no task is twice in the queues and the
chooser or in two of them, and they hold live tasks only.  With something requestable,
`frontRequestable().nextRequiredTask()` returns without a failed `assert`, and so does a round
of `handleFinished`. -/
theorem performable_iff_all_single_performed (g : TaskGraph)
    (caches : Nat → Cache Rectangle Unit) (ops : List ComputeOp) (s : ComputeState)
    (hops : ∀ op ∈ ops, op.OfCompute)
    (hrun : ComputeState.run g (ComputeState.init caches) ops = some s) :
    (∀ p ∈ s.adaptor.performable_,
      ∃ t, s.adaptor.task p = some t ∧ t.allSinglePerformed = true) ∧
    (∀ j ∈ s.running ++ s.pool_finished_, j.dependency = false →
      ∃ t, s.adaptor.task j.task = some t ∧ t.allSinglePerformed = true) ∧
    (∀ t ∈ s.adaptor.set_,
      (t.ptr ∈ s.adaptor.performable_ ∨ (⟨t.ptr, false⟩ : PoolID) ∈ s.running ++ s.pool_finished_)
        ↔ (t.allGenerated = true ∧ t.task_counter_ = 0)) ∧
    (∀ t ∈ s.adaptor.set_, t.allGenerated = true → t.task_counter_ = 0 →
      t.ptr ∉ s.adaptor.out_requestable_ ∧ s.adaptor.chooser_.contains t.ptr = false ∧
        t.ptr ∉ s.adaptor.requested_) ∧
    (∀ p, (s.adaptor.out_requestable_ ++ s.adaptor.chooserTasks ++ s.adaptor.requested_ ++
      s.adaptor.performable_).count p ≤ 1) ∧
    (∀ p ∈ s.adaptor.out_requestable_ ++ s.adaptor.chooserTasks ++ s.adaptor.requested_ ++
      s.adaptor.performable_, ∃ t, s.adaptor.task p = some t) ∧
    (s.adaptor.emptyRequestable = false → ∃ s1, s.requestNext g = some s1) ∧
    (∃ s1, s.handleFinished = some s1) := by
  have h := run_inv ops _ s hops (init_inv caches) hrun
  have hlive : ∀ p, 0 < s.places.count p → ∃ t, s.adaptor.task p = some t ∧ t ∈ s.adaptor.set_ ∧
      t.ptr = p := by
    intro p hp
    rw [h.places p] at hp
    exact task_isSome_of_mem s.adaptor p (List.count_pos_iff.1 hp)
  have hnot : ∀ t ∈ s.adaptor.set_, t.allGenerated = true → t.task_counter_ = 0 →
      t.ptr ∉ s.adaptor.out_requestable_ ∧ t.ptr ∉ s.adaptor.chooserTasks ∧
        t.ptr ∉ s.adaptor.requested_ := by
    intro t ht hg hc
    refine ⟨fun hm => ?_, fun hm => ?_, fun hm => ?_⟩
    · have := h.requestable t ht (by simp) (Or.inl hm)
      rw [hg] at this; cases this
    · have := h.requestable t ht (by simp) (Or.inr hm)
      rw [hg] at this; cases this
    · exact (h.requested t ht hm).2 hc
  refine ⟨?_, ?_, ?_, ?_, ?_, ?_, fun hne => ?_, ?_⟩
  · intro p hp
    obtain ⟨t, ht, hm, htp⟩ := hlive p (by
      rw [places_count]
      have := List.count_pos_iff.2 hp
      omega)
    exact ⟨t, ht, (allSinglePerformed_iff t).2
      (h.performable t hm (Or.inl (by rw [htp]; exact hp)))⟩
  · intro j hj hd
    have hj' : (⟨j.task, false⟩ : PoolID) ∈ s.running ++ s.pool_finished_ := by
      rw [← hd]; exact hj
    have hf : j.task ∈ s.fullJobs := (mem_fullJobs_iff s j.task).2 hj'
    obtain ⟨t, ht, hm, htp⟩ := hlive j.task (by
      rw [places_count]
      have := List.count_pos_iff.2 hf
      omega)
    exact ⟨t, ht, (allSinglePerformed_iff t).2
      (h.performable t hm (Or.inr (by rw [htp]; exact hf)))⟩
  · intro t ht
    rw [← mem_fullJobs_iff]
    constructor
    · exact h.performable t ht
    · rintro ⟨hg, hc⟩
      obtain ⟨h1, h2, h3⟩ := hnot t ht hg hc
      have := h.places t.ptr
      rw [count_ptr_eq_one h.basic (List.mem_map_of_mem _ ht), places_count,
        List.count_eq_zero_of_not_mem h1, List.count_eq_zero_of_not_mem h2,
        List.count_eq_zero_of_not_mem h3] at this
      simp only [mem_iff_count_pos]
      omega
  · intro t ht hg hc
    obtain ⟨h1, h2, h3⟩ := hnot t ht hg hc
    refine ⟨h1, ?_, h3⟩
    cases hcon : s.adaptor.chooser_.contains t.ptr with
    | false => rfl
    | true => exact absurd ((chooser_contains_iff _ _).1 hcon) h2
  · intro p
    have := h.places p
    have hle := count_ptr_le_one h.basic p
    rw [places_count] at this
    simp only [List.count_append]
    omega
  · intro p hp
    obtain ⟨t, ht, _, _⟩ := hlive p (by
      have := List.count_pos_iff.2 hp
      rw [places_count]
      simp only [List.count_append] at this
      omega)
    exact ⟨t, ht⟩
  · obtain ⟨s1, hs1, _⟩ := requestNext_spec (g := g) h hne
    exact ⟨s1, hs1⟩
  · obtain ⟨s1, hs1, _⟩ := handleFinished_spec h
    exact ⟨s1, hs1⟩

theorem performable_iff_all_single_performed_witness :
    ∃ s, ComputeState.run sharedTileExample (ComputeState.init fun _ => Cache.new 1)
        [.addSinkTask 1, .addSinkTask 2, .requestNext, .extractPerformable, .poolEnd 0,
          .requestNext, .performSingle, .handleFinished] = some s ∧
      (∀ p ∈ s.adaptor.performable_,
        ∃ t, s.adaptor.task p = some t ∧ t.allSinglePerformed = true) ∧
      (∀ j ∈ s.running ++ s.pool_finished_, j.dependency = false →
        ∃ t, s.adaptor.task j.task = some t ∧ t.allSinglePerformed = true) ∧
      (∀ t ∈ s.adaptor.set_,
        (t.ptr ∈ s.adaptor.performable_ ∨
            (⟨t.ptr, false⟩ : PoolID) ∈ s.running ++ s.pool_finished_)
          ↔ (t.allGenerated = true ∧ t.task_counter_ = 0)) ∧
      (∀ t ∈ s.adaptor.set_, t.allGenerated = true → t.task_counter_ = 0 →
        t.ptr ∉ s.adaptor.out_requestable_ ∧ s.adaptor.chooser_.contains t.ptr = false ∧
          t.ptr ∉ s.adaptor.requested_) ∧
      (∀ p, (s.adaptor.out_requestable_ ++ s.adaptor.chooserTasks ++ s.adaptor.requested_ ++
        s.adaptor.performable_).count p ≤ 1) ∧
      (∀ p ∈ s.adaptor.out_requestable_ ++ s.adaptor.chooserTasks ++ s.adaptor.requested_ ++
        s.adaptor.performable_, ∃ t, s.adaptor.task p = some t) ∧
      (s.adaptor.emptyRequestable = false → ∃ s1, s.requestNext sharedTileExample = some s1) ∧
      (∃ s1, s.handleFinished = some s1) := by
  have hsome : (ComputeState.run sharedTileExample (ComputeState.init fun _ => Cache.new 1)
      [.addSinkTask 1, .addSinkTask 2, .requestNext, .extractPerformable, .poolEnd 0,
        .requestNext, .performSingle, .handleFinished]).isSome = true := by
    with_unfolding_all decide
  cases hrun : ComputeState.run sharedTileExample (ComputeState.init fun _ => Cache.new 1)
      [.addSinkTask 1, .addSinkTask 2, .requestNext, .extractPerformable, .poolEnd 0,
        .requestNext, .performSingle, .handleFinished] with
  | none => rw [hrun] at hsome; cases hsome
  | some s =>
    refine ⟨s, rfl, performable_iff_all_single_performed sharedTileExample
      (fun _ => Cache.new 1) _ s ?_ hrun⟩
    intro op hop
    simp only [List.mem_cons, List.mem_singleton, List.not_mem_nil, or_false] at hop
    rcases hop with rfl | rfl | rfl | rfl | rfl | rfl | rfl | rfl <;> exact trivial

end ImageGraph


namespace ImageGraph

/-- C2 (amended): in every state reached from the empty adaptor by steps of `compute`, of its
pool, and by direct `generateRegion` and `finished` calls, no two live tasks agree in node and
region.  When `generateRegion` is called for a node and region that have a live task and the
cache does not answer (the node is not `ANY_MEMORY` or its cache does not hold the region), it
returns the future of that task with `finished = false`, appends the caller to the dependants
of that task and changes nothing else: no task is added and the queues are as before.  When
the cache of an `ANY_MEMORY` node holds the region, the future of the cached tile is returned
with `finished = true` and the adaptor is left as it is, whether or not a task is live. -/
theorem one_live_task_per_key (g : TaskGraph) (caches : Nat → Cache Rectangle Unit)
    (ops : List ComputeOp) (s : ComputeState)
    (hrun : ComputeState.run g (ComputeState.init caches) ops = some s) :
    (∀ t ∈ s.adaptor.set_, ∀ u ∈ s.adaptor.set_, t.node = u.node → t.region = u.region → t = u) ∧
    (∀ (caller node : Nat) (region : Rectangle) (old : Task), old ∈ s.adaptor.set_ →
      old.node = node → old.region = region →
      ¬(g.memoryMode node = MemoryMode.ANY_MEMORY ∧
        ((s.caches node).get region).1.isSome = true) →
      s.generateRegion g caller node region =
        (⟨some old.ptr, false⟩,
          ⟨⟨s.adaptor.set_.map (Task.update old.ptr fun t => t.addDependant caller),
              s.adaptor.out_requestable_, s.adaptor.requested_, s.adaptor.performable_,
              s.adaptor.finished_, s.adaptor.chooser_⟩,
            s.caches, s.running, s.pool_finished_, s.next_⟩)) ∧
    (∀ (caller node : Nat) (region : Rectangle),
      g.memoryMode node = MemoryMode.ANY_MEMORY →
      ((s.caches node).get region).1.isSome = true →
      (s.generateRegion g caller node region).1 = ⟨none, true⟩ ∧
        (s.generateRegion g caller node region).2.adaptor = s.adaptor) := by
  have h := run_basic ops _ s (init_basic caches) hrun
  refine ⟨?_, ?_, ?_⟩
  · intro t ht u hu hn hr
    exact eq_of_mem_of_key_eq h.nodup_key ht hu (by simp only [Task.key, hn, hr])
  · intro caller node region old hold hon hor hmiss
    have hkey : old.key = (node, region) := by simp only [Task.key, hon, hor]
    obtain ⟨hrun', hpf, hc⟩ := generateRegion_cases g s caller node region
    rcases hc with ⟨hhit, _⟩ | ⟨_, old', hold', hkey', h1, had, hnext, hcaches⟩ |
      ⟨_, hnot, _⟩
    · exact absurd hhit hmiss
    · have he : old' = old := eq_of_mem_of_key_eq h.nodup_key hold' hold (hkey'.trans hkey.symm)
      subst he
      rw [modifyFirst_key (node, region) _ _ old' h.nodup_ptr h.nodup_key hold hkey] at had
      generalize s.generateRegion g caller node region = r at h1 had hnext hcaches hrun' hpf
      obtain ⟨r1, r2⟩ := r
      obtain ⟨a, c, ru, pf, n⟩ := r2
      simp only at h1 had hnext hcaches hrun' hpf
      rw [h1, had, hnext, hcaches, hrun', hpf]
    · exact absurd (List.mem_map.2 ⟨old, hold, hkey⟩) hnot
  · intro caller node region hmode hget
    obtain ⟨_, _, hc⟩ := generateRegion_cases g s caller node region
    rcases hc with ⟨_, h1, had, _⟩ | ⟨hmiss, _⟩ | ⟨hmiss, _⟩
    · exact ⟨h1, had⟩
    · exact absurd ⟨hmode, hget⟩ hmiss
    · exact absurd ⟨hmode, hget⟩ hmiss

theorem one_live_task_per_key_witness :
    ∃ s, ComputeState.run sharedTileExample (ComputeState.init fun _ => Cache.new 1)
        [.addSinkTask 1, .addSinkTask 2, .requestNext] = some s ∧
      (∀ t ∈ s.adaptor.set_, ∀ u ∈ s.adaptor.set_,
        t.node = u.node → t.region = u.region → t = u) ∧
      (⟨2, 0, ⟨0, 0, 32, 32⟩, [], 0, [0]⟩ : Task) ∈ s.adaptor.set_ ∧
      s.generateRegion sharedTileExample 1 0 ⟨0, 0, 32, 32⟩ =
        (⟨some 2, false⟩,
          ⟨⟨s.adaptor.set_.map (Task.update 2 fun t => t.addDependant 1),
              s.adaptor.out_requestable_, s.adaptor.requested_, s.adaptor.performable_,
              s.adaptor.finished_, s.adaptor.chooser_⟩,
            s.caches, s.running, s.pool_finished_, s.next_⟩) := by
  have hsum : (ComputeState.run sharedTileExample (ComputeState.init fun _ => Cache.new 1)
      [.addSinkTask 1, .addSinkTask 2, .requestNext]).map
        (fun s => (s.adaptor.set_, ((s.caches 0).get ⟨0, 0, 32, 32⟩).1.isSome))
      = some ([⟨0, 1, ⟨0, 0, 32, 32⟩, [], 1, []⟩, ⟨1, 2, ⟨0, 0, 32, 32⟩, [(0, ⟨0, 0, 32, 32⟩)], 0, []⟩,
          ⟨2, 0, ⟨0, 0, 32, 32⟩, [], 0, [0]⟩], false) := by
    with_unfolding_all decide
  cases hrun : ComputeState.run sharedTileExample (ComputeState.init fun _ => Cache.new 1)
      [.addSinkTask 1, .addSinkTask 2, .requestNext] with
  | none => rw [hrun] at hsum; cases hsum
  | some s =>
    rw [hrun] at hsum
    simp only [Option.map_some', Option.some.injEq, Prod.mk.injEq] at hsum
    have hmem : (⟨2, 0, ⟨0, 0, 32, 32⟩, [], 0, [0]⟩ : Task) ∈ s.adaptor.set_ := by
      rw [hsum.1]; simp
    have hthm := one_live_task_per_key sharedTileExample (fun _ => Cache.new 1) _ s hrun
    exact ⟨s, rfl, hthm.1, hmem,
      hthm.2.1 1 0 ⟨0, 0, 32, 32⟩ ⟨2, 0, ⟨0, 0, 32, 32⟩, [], 0, [0]⟩ hmem rfl rfl
        (by rw [hsum.2]; simp)⟩

/-- C2, as stated, fails: after the two sinks have been added, the first sink has requested
the tile of node 0, and the task of the tile has been extracted and performed (its
`performFull` has put the tile into the cache of the node) but not yet handed to `finished`,
the task of the tile is live; `generateRegion` for the second sink's task and the same tile
returns the future of the cached tile with `finished = true`, not the future of the live task,
and the caller is not among the dependants of the live task afterwards. -/
theorem live_task_bypassed_by_cache :
    ∃ s old, ComputeState.run sharedTileExample (ComputeState.init fun _ => Cache.new 1)
        [.addSinkTask 1, .addSinkTask 2, .requestNext, .extractPerformable, .poolEnd 0]
        = some s ∧
      old ∈ s.adaptor.set_ ∧ old.node = 0 ∧ old.region = ⟨0, 0, 32, 32⟩ ∧
      (s.generateRegion sharedTileExample 1 0 ⟨0, 0, 32, 32⟩).1 = ⟨none, true⟩ ∧
      (s.generateRegion sharedTileExample 1 0 ⟨0, 0, 32, 32⟩).1.future_tile ≠ some old.ptr ∧
      (s.generateRegion sharedTileExample 1 0 ⟨0, 0, 32, 32⟩).2.adaptor.set_ = s.adaptor.set_ ∧
      1 ∉ old.dependants_ := by
  have hsum : (ComputeState.run sharedTileExample (ComputeState.init fun _ => Cache.new 1)
      [.addSinkTask 1, .addSinkTask 2, .requestNext, .extractPerformable, .poolEnd 0]).map
        (fun s => (s.adaptor.set_, (s.generateRegion sharedTileExample 1 0 ⟨0, 0, 32, 32⟩).1,
          (s.generateRegion sharedTileExample 1 0 ⟨0, 0, 32, 32⟩).2.adaptor.set_))
      = some ([⟨0, 1, ⟨0, 0, 32, 32⟩, [], 1, []⟩, ⟨1, 2, ⟨0, 0, 32, 32⟩, [(0, ⟨0, 0, 32, 32⟩)], 0, []⟩,
          ⟨2, 0, ⟨0, 0, 32, 32⟩, [], 0, [0]⟩], ⟨none, true⟩,
        [⟨0, 1, ⟨0, 0, 32, 32⟩, [], 1, []⟩, ⟨1, 2, ⟨0, 0, 32, 32⟩, [(0, ⟨0, 0, 32, 32⟩)], 0, []⟩,
          ⟨2, 0, ⟨0, 0, 32, 32⟩, [], 0, [0]⟩]) := by
    with_unfolding_all decide
  cases hrun : ComputeState.run sharedTileExample (ComputeState.init fun _ => Cache.new 1)
      [.addSinkTask 1, .addSinkTask 2, .requestNext, .extractPerformable, .poolEnd 0] with
  | none => rw [hrun] at hsum; cases hsum
  | some s =>
    rw [hrun] at hsum
    simp only [Option.map_some', Option.some.injEq, Prod.mk.injEq] at hsum
    refine ⟨s, ⟨2, 0, ⟨0, 0, 32, 32⟩, [], 0, [0]⟩, rfl, by rw [hsum.1]; simp, rfl, rfl,
      hsum.2.1, by rw [hsum.2.1]; simp, by rw [hsum.2.2, hsum.1], by simp⟩

end ImageGraph


namespace ImageGraph

/-! ## `cacheSizeFromBytes` -/

theorem sizeDiv_eq_some {a b q : Nat} : sizeDiv a b = some q ↔ b ≠ 0 ∧ q = a / b := by
  unfold sizeDiv
  split_ifs with h
  · simp [h]
  · simp [h, eq_comm]

theorem sizeDiv_of_pos {a b : Nat} (h : 0 < b) : sizeDiv a b = some (a / b) := by
  unfold sizeDiv
  rw [if_neg (by omega)]

/-- The three stages of `cacheSizeFromBytes` written with thresholds `b1`, `b2`, `b3`, steps
`d1`, `d2`, `d3` and tile counts `n1`, `n2`: the function increases along the accepted byte
numbers. -/
theorem three_stage_mono (b1 b2 b3 d1 d2 d3 n1 n2 : Nat) (f : Nat → Option Nat)
    (hf : ∀ n, f n =
      if n ≤ b1 then sizeDiv n d1
      else if n - b1 ≤ b2 then (sizeDiv (n - b1) d2).map fun q => n1 + q
      else if n - b1 - b2 < b3 then (sizeDiv (n - b1 - b2) d3).map fun q => n1 + n2 + q
      else none)
    (h1 : 0 < d1) (hb1 : b1 = n1 * d1) (h2 : 0 < b2 → 0 < d2) (hb2 : b2 = d2 * n2)
    (h3 : 0 < b3 → 0 < d3) (a b y : Nat) (hab : a ≤ b) (hy : f b = some y) :
    ∃ x, f a = some x ∧ x ≤ y := by
  have stage1 : ∀ n, n ≤ b1 → n / d1 ≤ n1 := by
    intro n hn
    rw [hb1] at hn
    exact (Nat.div_le_div_right hn).trans (by rw [Nat.mul_div_cancel _ h1])
  have stage2 : ∀ n, n ≤ b2 → 0 < d2 → n / d2 ≤ n2 := by
    intro n hn hd
    rw [hb2] at hn
    exact (Nat.div_le_div_right hn).trans (by rw [Nat.mul_div_cancel_left _ hd])
  rw [hf] at hy
  rw [hf]
  by_cases hb : b ≤ b1
  · rw [if_pos hb, sizeDiv_of_pos h1] at hy
    rw [if_pos (hab.trans hb), sizeDiv_of_pos h1]
    cases hy
    exact ⟨_, rfl, Nat.div_le_div_right hab⟩
  · rw [if_neg hb] at hy
    by_cases hb' : b - b1 ≤ b2
    · have hd2 : 0 < d2 := h2 (by omega)
      rw [if_pos hb', sizeDiv_of_pos hd2] at hy
      cases hy
      by_cases ha : a ≤ b1
      · rw [if_pos ha, sizeDiv_of_pos h1]
        exact ⟨_, rfl, (stage1 a ha).trans (Nat.le_add_right _ _)⟩
      · rw [if_neg ha, if_pos (by omega), sizeDiv_of_pos hd2]
        exact ⟨_, rfl, Nat.add_le_add_left (Nat.div_le_div_right (by omega)) _⟩
    · rw [if_neg hb'] at hy
      by_cases hb'' : b - b1 - b2 < b3
      · have hd3 : 0 < d3 := h3 (by omega)
        rw [if_pos hb'', sizeDiv_of_pos hd3] at hy
        cases hy
        by_cases ha : a ≤ b1
        · rw [if_pos ha, sizeDiv_of_pos h1]
          refine ⟨_, rfl, (stage1 a ha).trans ?_⟩
          simp only [Option.map]
          generalize (b - b1 - b2) / d3 = q
          omega
        · rw [if_neg ha]
          by_cases ha' : a - b1 ≤ b2
          · have hd2 : 0 < d2 := h2 (by omega)
            rw [if_pos ha', sizeDiv_of_pos hd2]
            have := stage2 _ ha' hd2
            refine ⟨_, rfl, ?_⟩
            simp only [Option.map]
            generalize (b - b1 - b2) / d3 = q
            generalize (a - b1) / d2 = p at this
            omega
          · rw [if_neg ha', if_pos (by omega), sizeDiv_of_pos hd3]
            have : (a - b1 - b2) / d3 ≤ (b - b1 - b2) / d3 := Nat.div_le_div_right (by omega)
            refine ⟨_, rfl, ?_⟩
            simp only [Option.map]
            generalize (b - b1 - b2) / d3 = q at this
            generalize (a - b1 - b2) / d3 = p at this
            omega
      · rw [if_neg hb''] at hy
        cases hy

/-- The form of `three_stage_mono` that `cacheSizeFromBytes` has, for both orders of the
remainders. -/
theorem cacheSizeFromBytes_stages (node_dim : RectangleDimensions) (ch eb : Nat) :
    ∃ b1 b2 b3 d1 d2 d3 n1 n2 : Nat,
      (∀ n, TiledCachedOutputNode.cacheSizeFromBytes node_dim ch eb n =
        if n ≤ b1 then sizeDiv n d1
        else if n - b1 ≤ b2 then (sizeDiv (n - b1) d2).map fun q => n1 + q
        else if n - b1 - b2 < b3 then (sizeDiv (n - b1 - b2) d3).map fun q => n1 + n2 + q
        else none) ∧
      d1 = eb * ch * (32 * 32) ∧ b1 = n1 * d1 ∧ b2 = d2 * n2 ∧
      (0 < eb * ch → 0 < b3 → 0 < d3) ∧ eb * node_dim.size * ch ≤ b1 + b2 + b3 := by
  have hW := Nat.div_add_mod node_dim.width 32
  have hH := Nat.div_add_mod node_dim.height 32
  have hWr := Nat.mod_lt node_dim.width (by decide : 32 > 0)
  have hHr := Nat.mod_lt node_dim.height (by decide : 32 > 0)
  have hWn : 32 * (node_dim.width / 32) ≤ node_dim.width * (node_dim.width / 32) := by
    rcases Nat.eq_zero_or_pos (node_dim.width / 32) with h | h
    · rw [h]; simp
    · exact Nat.mul_le_mul_right _ (by omega)
  have hHn : 32 * (node_dim.height / 32) ≤ node_dim.height * (node_dim.height / 32) := by
    rcases Nat.eq_zero_or_pos (node_dim.height / 32) with h | h
    · rw [h]; simp
    · exact Nat.mul_le_mul_right _ (by omega)
  generalize hnx : node_dim.width / 32 = nx at *
  generalize hny : node_dim.height / 32 = ny at *
  generalize hwr : node_dim.width % 32 = wr at *
  generalize hhr : node_dim.height % 32 = hr at *
  by_cases hc : wr ≥ hr
  · refine ⟨nx * ny * (eb * ch * (32 * 32)), wr * node_dim.height * ny * (eb * ch),
      (hr * node_dim.width * nx + wr * hr) * (eb * ch), eb * ch * (32 * 32),
      wr * node_dim.height * (eb * ch), hr * node_dim.width * (eb * ch), nx * ny, ny,
      ?_, rfl, rfl, by ring, ?_, ?_⟩
    · intro n
      simp only [TiledCachedOutputNode.cacheSizeFromBytes, TiledOutputNode.tileDimensions,
        RectangleDimensions.size, hnx, hny, hwr, hhr, if_pos hc]
    · intro hbpp h
      have hs : 0 < hr := by
        rcases Nat.eq_zero_or_pos hr with h0 | h0
        · rw [h0] at h; simp at h
        · exact h0
      have hw : 0 < node_dim.width := by omega
      positivity
    · have e : eb * node_dim.size * ch =
          (32 * nx + wr) * (32 * ny + hr) * (eb * ch) := by
        rw [RectangleDimensions.size, hW, hH]; ring
      rw [e]
      have h1 : wr * (32 * ny) ≤ wr * (node_dim.height * ny) := Nat.mul_le_mul_left _ hHn
      have h2 : hr * (32 * nx) ≤ hr * (node_dim.width * nx) := Nat.mul_le_mul_left _ hWn
      have : (32 * nx + wr) * (32 * ny + hr) ≤
          nx * ny * (32 * 32) + wr * node_dim.height * ny +
            (hr * node_dim.width * nx + wr * hr) := by nlinarith
      calc (32 * nx + wr) * (32 * ny + hr) * (eb * ch)
          ≤ (nx * ny * (32 * 32) + wr * node_dim.height * ny +
              (hr * node_dim.width * nx + wr * hr)) * (eb * ch) := Nat.mul_le_mul_right _ this
        _ = _ := by ring
  · refine ⟨nx * ny * (eb * ch * (32 * 32)), hr * node_dim.width * nx * (eb * ch),
      (wr * node_dim.height * ny + hr * wr) * (eb * ch), eb * ch * (32 * 32),
      hr * node_dim.width * (eb * ch), wr * node_dim.height * (eb * ch), nx * ny, nx,
      ?_, rfl, rfl, by ring, ?_, ?_⟩
    · intro n
      simp only [TiledCachedOutputNode.cacheSizeFromBytes, TiledOutputNode.tileDimensions,
        RectangleDimensions.size, hnx, hny, hwr, hhr, if_neg hc]
    · intro hbpp h
      have hs : 0 < wr := by
        rcases Nat.eq_zero_or_pos wr with h0 | h0
        · rw [h0] at h; simp at h
        · exact h0
      have hw : 0 < node_dim.height := by omega
      positivity
    · have e : eb * node_dim.size * ch =
          (32 * nx + wr) * (32 * ny + hr) * (eb * ch) := by
        rw [RectangleDimensions.size, hW, hH]; ring
      rw [e]
      have h1 : wr * (32 * ny) ≤ wr * (node_dim.height * ny) := Nat.mul_le_mul_left _ hHn
      have h2 : hr * (32 * nx) ≤ hr * (node_dim.width * nx) := Nat.mul_le_mul_left _ hWn
      have : (32 * nx + wr) * (32 * ny + hr) ≤
          nx * ny * (32 * 32) + hr * node_dim.width * nx +
            (wr * node_dim.height * ny + hr * wr) := by nlinarith
      calc (32 * nx + wr) * (32 * ny + hr) * (eb * ch)
          ≤ (nx * ny * (32 * 32) + hr * node_dim.width * nx +
              (wr * node_dim.height * ny + hr * wr)) * (eb * ch) := Nat.mul_le_mul_right _ this
        _ = _ := by ring

/-- C20 as stated fails: a node of 40x32 pixels with one channel of one byte per element turns
1280 bytes into 2 tiles, but for 1281 bytes the assertion of `cacheSizeFromBytes` fails (and the
divisor of the quotient after it is zero), so that there is no result to compare. -/
theorem cacheSizeFromBytes_rejects_large_byte_number :
    TiledCachedOutputNode.cacheSizeFromBytes ⟨40, 32⟩ 1 1 1280 = some 2 ∧
    TiledCachedOutputNode.cacheSizeFromBytes ⟨40, 32⟩ 1 1 1281 = none ∧
    sizeDiv (1281 - 1024 - 256) (32 % 32 * 40 * (1 * 1)) = none ∧
    ¬ ∀ (node_dim : RectangleDimensions) (ch eb a b : Nat), 1 ≤ ch → 1 ≤ eb → a ≤ b →
      ∃ x y, TiledCachedOutputNode.cacheSizeFromBytes node_dim ch eb a = some x ∧
        TiledCachedOutputNode.cacheSizeFromBytes node_dim ch eb b = some y ∧ x ≤ y := by
  have hnone : TiledCachedOutputNode.cacheSizeFromBytes ⟨40, 32⟩ 1 1 1281 = none := by decide
  refine ⟨by decide, hnone, by decide, fun h => ?_⟩
  obtain ⟨x, y, -, hy, -⟩ := h ⟨40, 32⟩ 1 1 1280 1281 (by decide) (by decide) (by decide)
  rw [hnone] at hy
  cases hy

/-- C20, amended: for a tiled cached node with at least one channel and at least one byte per
element, `cacheSizeFromBytes` is monotone on the byte numbers it accepts: when it returns for
`b` (no assertion fails, no divisor is zero), it returns for every `a ≤ b`, with a result that
is not larger; and it accepts every byte number below the full byte number of the node. -/
theorem cacheSizeFromBytes_monotone (node_dim : RectangleDimensions) (ch eb : Nat)
    (hch : 1 ≤ ch) (heb : 1 ≤ eb) :
    (∀ a b y, a ≤ b → TiledCachedOutputNode.cacheSizeFromBytes node_dim ch eb b = some y →
      ∃ x, TiledCachedOutputNode.cacheSizeFromBytes node_dim ch eb a = some x ∧ x ≤ y) ∧
    (∀ b, b < eb * node_dim.size * ch →
      (TiledCachedOutputNode.cacheSizeFromBytes node_dim ch eb b).isSome = true) := by
  have hbpp : 0 < eb * ch := Nat.mul_pos heb hch
  obtain ⟨b1, b2, b3, d1, d2, d3, n1, n2, hf, hd1, hb1, hb2, h3, hfull⟩ :=
    cacheSizeFromBytes_stages node_dim ch eb
  have h1 : 0 < d1 := by rw [hd1]; positivity
  have h2 : 0 < b2 → 0 < d2 := fun h => by
    rw [hb2] at h
    exact Nat.pos_of_mul_pos_right h
  constructor
  · intro a b y hab hy
    exact three_stage_mono b1 b2 b3 d1 d2 d3 n1 n2 _ hf h1 hb1 h2 hb2 (h3 hbpp) a b y hab hy
  · intro b hb
    rw [hf]
    by_cases c1 : b ≤ b1
    · rw [if_pos c1, sizeDiv_of_pos h1]; rfl
    · rw [if_neg c1]
      by_cases c2 : b - b1 ≤ b2
      · rw [if_pos c2, sizeDiv_of_pos (h2 (by omega))]; rfl
      · rw [if_neg c2, if_pos (by omega), sizeDiv_of_pos (h3 hbpp (by omega))]; rfl

theorem cacheSizeFromBytes_monotone_witness :
    ∃ x, TiledCachedOutputNode.cacheSizeFromBytes ⟨40, 32⟩ 1 1 1000 = some x ∧ x ≤ 2 :=
  (cacheSizeFromBytes_monotone ⟨40, 32⟩ 1 1 (by decide) (by decide)).1 1000 1280 2 (by decide)
    (by decide)

end ImageGraph


namespace ImageGraph

/-! ## `generate_members` -/

theorem inputsLoop_ok (recur : Nat → List Nat → Option (List Nat)) (node : Nat)
    (hrecur : ∀ input set, input < node → ∃ set1, recur input set = some set1 ∧
      ∀ x ∈ set1, x ∈ set ∨ x < node) :
    ∀ (l : List Nat) (set : List Nat), (∀ input ∈ l, input < node) →
      ∃ set1, inputsLoop recur l set = some set1 ∧ ∀ x ∈ set1, x ∈ set ∨ x < node := by
  intro l
  induction l with
  | nil => intro set _; exact ⟨set, rfl, fun x hx => Or.inl hx⟩
  | cons input rest ih =>
    intro set hl
    have hin : input < node := hl input (List.mem_cons_self _ _)
    have hrest : ∀ i ∈ rest, i < node := fun i hi => hl i (List.mem_cons_of_mem _ hi)
    simp only [inputsLoop]
    split_ifs with hmem
    · exact ih set hrest
    · obtain ⟨set1, h1, hs1⟩ := hrecur input (set ++ [input]) hin
      rw [h1]
      obtain ⟨set2, h2, hs2⟩ := ih set1 hrest
      refine ⟨set2, h2, fun x hx => ?_⟩
      rcases hs2 x hx with h | h
      · rcases hs1 x h with h' | h'
        · rcases List.mem_append.1 h' with h'' | h''
          · exact Or.inl h''
          · rw [List.mem_singleton.1 h'']; exact Or.inr hin
        · exact Or.inr h'
      · exact Or.inr h

theorem inputs_ok (g : NodeData) (hg : g.InputsLayered) :
    ∀ (fuel node : Nat) (set : List Nat), node < fuel →
      ∃ set1, inputs g fuel node set = some set1 ∧ ∀ x ∈ set1, x ∈ set ∨ x < node := by
  intro fuel
  induction fuel with
  | zero => intro node set h; omega
  | succ fuel ih =>
    intro node set hnode
    simp only [inputs]
    refine inputsLoop_ok (inputs g fuel) node (fun input set0 hin => ?_) _ set
      (fun input hi => hg node input hi)
    obtain ⟨set1, h1, hs1⟩ := ih input set0 (by omega)
    exact ⟨set1, h1, fun x hx => (hs1 x hx).imp id fun h => by omega⟩

theorem probsLoop_ok (recur : Nat → List (Nat × Probs) → Option (Probs × List (Nat × Probs)))
    (node : Nat) (hrecur : ∀ input table, input < node → (recur input table).isSome = true) :
    ∀ (l : List Nat) (prob : ℚ) (table : List (Nat × Probs)), (∀ input ∈ l, input < node) →
      (probsLoop recur l prob table).isSome = true := by
  intro l
  induction l with
  | nil => intro prob table _; rfl
  | cons input rest ih =>
    intro prob table hl
    simp only [probsLoop]
    have h := hrecur input table (hl input (List.mem_cons_self _ _))
    cases hr : recur input table with
    | none => rw [hr] at h; cases h
    | some r => exact ih _ _ fun i hi => hl i (List.mem_cons_of_mem _ hi)

theorem computeProbs_ok (g : NodeData) (hg : g.InputsLayered) (hp : g.ValidProbabilities) :
    ∀ (fuel node : Nat) (table : List (Nat × Probs)), node < fuel →
      (computeProbs g fuel node table).isSome = true := by
  intro fuel
  induction fuel with
  | zero => intro node table h; omega
  | succ fuel ih =>
    intro node table hnode
    simp only [computeProbs]
    split
    · rfl
    · rw [if_pos (hp node)]
      obtain ⟨set1, h1, hs1⟩ := inputs_ok g hg (fuel + 1) node [] hnode
      rw [h1]
      have hlt : ∀ input ∈ set1, input < node := fun x hx => by
        rcases hs1 x hx with h | h
        · cases h
        · exact h
      have h := probsLoop_ok (computeProbs g fuel) node
        (fun input tbl hin => ih input tbl (by omega)) set1 (1 - g.changeProbability node) table
        hlt
      cases hr : probsLoop (computeProbs g fuel) set1 (1 - g.changeProbability node) table with
      | none => rw [hr] at h; cases h
      | some r => simp only [hr]; rfl

end ImageGraph


namespace ImageGraph

theorem byteSum_cons (g : NodeData) (p : Nat → Bool) (node : Nat) (rest : List Nat) :
    g.byteSum p (node :: rest) = (if p node then g.fullByteNumber node else 0) + g.byteSum p rest := by
  unfold NodeData.byteSum
  by_cases h : p node = true
  · simp [List.filter_cons, h]
  · simp [List.filter_cons, h]

theorem maxSum_append (g : NodeData) (important : Bool) (l l' : List NodeInformation) :
    maxSum g important (l ++ l') = maxSum g important l + maxSum g important l' := by
  simp [maxSum]

theorem maxSum_singleton (g : NodeData) (important : Bool) (info : NodeInformation) :
    maxSum g important [info] =
      if g.isCacheImportant info.node = important then info.max_byte_num else 0 := by
  unfold maxSum
  by_cases h : g.isCacheImportant info.node = important
  · simp [List.filter_cons, h]
  · simp [List.filter_cons, h]

theorem byteSum_nil (g : NodeData) (p : Nat → Bool) : g.byteSum p [] = 0 := rfl

theorem byteSum_append (g : NodeData) (p : Nat → Bool) (l l' : List Nat) :
    g.byteSum p (l ++ l') = g.byteSum p l + g.byteSum p l' := by
  simp [NodeData.byteSum]

theorem extends_refl (g : NodeData) (m : Members) : m.Extends g m [] := by
  constructor <;> simp [NodeData.importantBytes, NodeData.unimportantBytes, NodeData.fullBytes,
    byteSum_nil]

theorem extends_trans (g : NodeData) {m m1 m2 : Members} {l1 l2 : List Nat}
    (h1 : m.Extends g m1 l1) (h2 : m1.Extends g m2 l2) : m.Extends g m2 (l1 ++ l2) := by
  obtain ⟨a1, a2, a3, a4, a5, a6, a7, a8, a9⟩ := h1
  obtain ⟨b1, b2, b3, b4, b5, b6, b7, b8, b9⟩ := h2
  simp only [NodeData.importantBytes, NodeData.unimportantBytes, NodeData.fullBytes] at *
  constructor <;>
    try simp only [NodeData.importantBytes, NodeData.unimportantBytes, NodeData.fullBytes,
      byteSum_append]
  · omega
  · omega
  · omega
  · rw [b4, a4, a3]
    constructor
    · rintro ⟨⟨a, b⟩, c⟩; exact ⟨a, by omega⟩
    · rintro ⟨a, b⟩; exact ⟨⟨a, by omega⟩, by omega⟩
  · rw [b5, a5, List.filter_append, List.append_assoc]
  · rw [b6, a6, List.filter_append, List.append_assoc]
  · intro info hi
    rcases b7 info hi with h | ⟨h, hm⟩
    · rcases a7 info h with h' | ⟨h', hm'⟩
      · exact Or.inl h'
      · exact Or.inr ⟨h', List.mem_append_left _ hm'⟩
    · exact Or.inr ⟨h, List.mem_append_right _ hm⟩
  · omega
  · omega

theorem add_extends (g : NodeData) (fuel : Nat) (m m1 : Members) (node : Nat)
    (h : m.add g fuel node = some m1) : m.Extends g m1 [node] := by
  unfold Members.add at h
  cases hmode : g.memoryMode node with
  | NO_MEMORY =>
    rw [hmode] at h
    simp only [Option.some.injEq] at h
    subst h
    refine ⟨?_, ?_, ?_, ?_, ?_, ?_, fun info hi => Or.inl hi, ?_, ?_⟩
    all_goals
      simp [NodeData.importantBytes, NodeData.unimportantBytes, NodeData.fullBytes, byteSum_cons,
        byteSum_nil, NodeData.isImportantCache, NodeData.isUnimportantCache, NodeData.isCache,
        NodeData.isFull, hmode]
  | ANY_MEMORY =>
    rw [hmode] at h
    simp only at h
    cases hp : computeProbs g fuel node m.probabilities with
    | none => rw [hp] at h; cases h
    | some r =>
      rw [hp] at h
      simp only at h
      have hfresh : ∀ info ∈ m.cache_nodes ++
          [(⟨node, 0, g.fullByteNumber node, r.1.own_prob, r.1.cum_prob⟩ : NodeInformation)],
          info ∈ m.cache_nodes ∨ (info.Fresh g ∧ info.node ∈ [node]) := by
        intro info hi
        rcases List.mem_append.1 hi with hi | hi
        · exact Or.inl hi
        · rw [List.mem_singleton.1 hi]
          exact Or.inr ⟨⟨rfl, rfl, hmode⟩, List.mem_singleton.2 rfl⟩
      by_cases himp : g.isCacheImportant node = true
      · rw [if_pos himp] at h
        simp only [Option.some.injEq] at h
        subst h
        refine ⟨?_, ?_, ?_, ?_, ?_, ?_, hfresh, ?_, ?_⟩
        all_goals
          simp [NodeData.importantBytes, NodeData.unimportantBytes, NodeData.fullBytes,
            byteSum_cons, byteSum_nil, NodeData.isImportantCache, NodeData.isUnimportantCache,
            NodeData.isCache, NodeData.isFull, hmode, himp, maxSum_append, maxSum_singleton]
      · rw [if_neg himp] at h
        simp only [Option.some.injEq] at h
        subst h
        refine ⟨?_, ?_, ?_, ?_, ?_, ?_, hfresh, ?_, ?_⟩
        all_goals
          simp [NodeData.importantBytes, NodeData.unimportantBytes, NodeData.fullBytes,
            byteSum_cons, byteSum_nil, NodeData.isImportantCache, NodeData.isUnimportantCache,
            NodeData.isCache, NodeData.isFull, hmode, himp, maxSum_append, maxSum_singleton]
  | FULL_MEMORY =>
    rw [hmode] at h
    simp only at h
    by_cases hfit : g.fullByteNumber node ≤ m.memory_limit
    · rw [if_pos hfit] at h
      simp only [Option.some.injEq] at h
      subst h
      refine ⟨?_, ?_, ?_, ?_, ?_, ?_, fun info hi => Or.inl hi, ?_, ?_⟩
      all_goals
        simp [NodeData.importantBytes, NodeData.unimportantBytes, NodeData.fullBytes,
          byteSum_cons, byteSum_nil, NodeData.isImportantCache, NodeData.isUnimportantCache,
          NodeData.isCache, NodeData.isFull, hmode, hfit]
    · rw [if_neg hfit] at h
      simp only [Option.some.injEq] at h
      subst h
      refine ⟨?_, ?_, ?_, ?_, ?_, ?_, fun info hi => Or.inl hi, ?_, ?_⟩
      all_goals
        simp [NodeData.importantBytes, NodeData.unimportantBytes, NodeData.fullBytes,
          byteSum_cons, byteSum_nil, NodeData.isImportantCache, NodeData.isUnimportantCache,
          NodeData.isCache, NodeData.isFull, hmode, hfit]
      all_goals omega

theorem addAll_extends (g : NodeData) (fuel : Nat) :
    ∀ (out_nodes : List Nat) (m m1 : Members), Members.addAll g fuel m out_nodes = some m1 →
      m.Extends g m1 out_nodes := by
  intro out_nodes
  induction out_nodes with
  | nil =>
    intro m m1 h
    simp only [Members.addAll, Option.some.injEq] at h
    subst h
    exact extends_refl g m
  | cons node rest ih =>
    intro m m1 h
    simp only [Members.addAll] at h
    cases ha : m.add g fuel node with
    | none => rw [ha] at h; cases h
    | some m0 =>
      rw [ha] at h
      exact extends_trans g (add_extends g fuel m m0 node ha) (ih m0 m1 h)

end ImageGraph


namespace ImageGraph

theorem portion_floor (max_byte_num bytes remaining : Nat) :
    ⌊((max_byte_num : ℚ) / (bytes : ℚ)) * (remaining : ℚ)⌋₊ = max_byte_num * remaining / bytes := by
  rw [div_mul_eq_mul_div, ← Nat.cast_mul, Nat.floor_div_eq_div]

theorem maxSum_cons (g : NodeData) (important : Bool) (info : NodeInformation)
    (rest : List NodeInformation) :
    maxSum g important (info :: rest) =
      (if g.isCacheImportant info.node = important then info.max_byte_num else 0) +
        maxSum g important rest := by
  have := maxSum_append g important [info] rest
  rw [List.singleton_append, maxSum_singleton] at this
  exact this

theorem byteNumSum_cons (g : NodeData) (important : Bool) (info : NodeInformation)
    (rest : List NodeInformation) :
    byteNumSum g important (info :: rest) =
      (if g.isCacheImportant info.node = important then info.byte_num else 0) +
        byteNumSum g important rest := by
  unfold byteNumSum
  by_cases h : g.isCacheImportant info.node = important
  · simp [List.filter_cons, h]
  · simp [List.filter_cons, h]

/-- The arithmetic of one proportional share: `q` bytes out of `remaining` for a node of
`m` bytes among `m + s` bytes. -/
theorem share_step (m s remaining remaining0 bytes0 : Nat) (hm : 0 < m) (hle : remaining ≤ m + s)
    (hratio : remaining0 * (m + s) ≤ remaining * bytes0) :
    m * remaining / (m + s) ≤ remaining ∧ m * remaining / (m + s) ≤ m ∧
    remaining - m * remaining / (m + s) ≤ s ∧
    remaining0 * m / bytes0 ≤ m * remaining / (m + s) ∧
    remaining0 * s ≤ (remaining - m * remaining / (m + s)) * bytes0 := by
  have hub : 0 < m + s := by omega
  have hq := Nat.div_mul_le_self (m * remaining) (m + s)
  have hq' := Nat.lt_div_mul_add (a := m * remaining) hub
  generalize m * remaining / (m + s) = q at *
  have h1 : q ≤ remaining := by
    by_contra hc
    have : remaining + 1 ≤ q := by omega
    have := Nat.mul_le_mul_right (m + s) this
    nlinarith
  have h2 : q ≤ m := by
    by_contra hc
    have : m + 1 ≤ q := by omega
    have := Nat.mul_le_mul_right (m + s) this
    nlinarith
  have h3 : remaining - q ≤ s := by
    by_contra hc
    have h : q + s + 1 ≤ remaining := by omega
    nlinarith
  have h5 : remaining0 * s ≤ (remaining - q) * bytes0 := by
    have e : (remaining - q) * (m + s) ≥ remaining * s := by
      zify [h1]
      nlinarith
    have : remaining0 * s * (m + s) ≤ (remaining - q) * bytes0 * (m + s) := by
      calc remaining0 * s * (m + s) = remaining0 * (m + s) * s := by ring
        _ ≤ remaining * bytes0 * s := Nat.mul_le_mul_right _ hratio
        _ = remaining * s * bytes0 := by ring
        _ ≤ (remaining - q) * (m + s) * bytes0 := Nat.mul_le_mul_right _ e
        _ = _ := by ring
    exact Nat.le_of_mul_le_mul_right this hub
  refine ⟨h1, h2, h3, ?_, h5⟩
  rcases Nat.eq_zero_or_pos bytes0 with hb0 | hb0
  · rw [hb0, Nat.div_zero]; exact Nat.zero_le _
  have hp := Nat.div_mul_le_self (remaining0 * m) bytes0
  generalize remaining0 * m / bytes0 = p at *
  by_contra hc
  have h : q + 1 ≤ p := by omega
  have h6 : (q + 1) * bytes0 ≤ remaining0 * m := (Nat.mul_le_mul_right _ h).trans hp
  have h7 : (q + 1) * bytes0 * (m + s) ≤ m * remaining * bytes0 := by
    calc (q + 1) * bytes0 * (m + s) ≤ remaining0 * m * (m + s) := Nat.mul_le_mul_right _ h6
      _ = remaining0 * (m + s) * m := by ring
      _ ≤ remaining * bytes0 * m := Nat.mul_le_mul_right _ hratio
      _ = _ := by ring
  have h8 : (q + 1) * (m + s) ≤ m * remaining := by
    have : (q + 1) * (m + s) * bytes0 ≤ m * remaining * bytes0 := by
      calc (q + 1) * (m + s) * bytes0 = (q + 1) * bytes0 * (m + s) := by ring
        _ ≤ _ := h7
    exact Nat.le_of_mul_le_mul_right this hb0
  nlinarith

theorem shareUnimportant_spec (g : NodeData) (remaining0 bytes0 : Nat) :
    ∀ (l : List NodeInformation) (bytes remaining : Nat), bytes = maxSum g false l →
      (∀ info ∈ l, g.isCacheImportant info.node = false → 0 < info.max_byte_num) →
      remaining ≤ bytes → remaining0 * bytes ≤ remaining * bytes0 →
      ∃ l', shareUnimportant g l bytes remaining = some l' ∧
        List.Forall₂ (NodeInformation.Shared g false remaining0 bytes0) l l' ∧
        byteNumSum g false l' = remaining := by
  intro l
  induction l with
  | nil =>
    intro bytes remaining hb _ hle _
    refine ⟨[], rfl, List.Forall₂.nil, ?_⟩
    have : bytes = 0 := hb
    simp only [byteNumSum, List.filter_nil, List.map_nil, List.sum_nil]
    omega
  | cons info rest ih =>
    intro bytes remaining hb hpos hle hratio
    have hposr : ∀ i ∈ rest, g.isCacheImportant i.node = false → 0 < i.max_byte_num :=
      fun i hi => hpos i (List.mem_cons_of_mem _ hi)
    rw [maxSum_cons] at hb
    simp only [shareUnimportant]
    by_cases himp : g.isCacheImportant info.node = true
    · rw [if_pos himp]
      rw [if_neg (by rw [himp]; decide), Nat.zero_add] at hb
      obtain ⟨l', h1, h2, h3⟩ := ih bytes remaining hb hposr hle hratio
      rw [h1]
      refine ⟨_, rfl, List.Forall₂.cons ⟨rfl, fun _ => rfl, fun h => ?_⟩ h2, ?_⟩
      · rw [himp] at h; cases h
      · rw [byteNumSum_cons, if_neg (by simp [himp]), Nat.zero_add, h3]
    · have himp' : g.isCacheImportant info.node = false := by
        cases h : g.isCacheImportant info.node
        · rfl
        · exact absurd h himp
      rw [if_neg himp]
      rw [if_pos himp'] at hb
      have hm := hpos info (List.mem_cons_self _ _) himp'
      rw [if_neg (by omega), portion_floor]
      subst hb
      obtain ⟨s1, s2, s3, s4, s5⟩ :=
        share_step info.max_byte_num (maxSum g false rest) remaining remaining0 bytes0 hm hle hratio
      rw [if_pos s1]
      obtain ⟨l', h1, h2, h3⟩ := ih (info.max_byte_num + maxSum g false rest - info.max_byte_num)
        (remaining - info.max_byte_num * remaining / (info.max_byte_num + maxSum g false rest))
        (by omega) hposr (by omega) (by rw [Nat.add_sub_cancel_left]; exact s5)
      rw [h1]
      refine ⟨_, rfl, List.Forall₂.cons ⟨rfl, fun h => ?_, fun _ => ⟨s4, s2⟩⟩ h2, ?_⟩
      · rw [himp'] at h; cases h
      · rw [byteNumSum_cons, if_pos himp', h3]
        simp only
        omega

theorem shareImportant_spec (g : NodeData) (remaining0 bytes0 : Nat) :
    ∀ (l : List NodeInformation) (bytes remaining : Nat), bytes = maxSum g true l →
      (∀ info ∈ l, g.isCacheImportant info.node = true → 0 < info.max_byte_num) →
      remaining ≤ bytes → remaining0 * bytes ≤ remaining * bytes0 →
      ∃ l', shareImportant g l bytes remaining = some l' ∧
        List.Forall₂ (NodeInformation.Shared g true remaining0 bytes0) l l' ∧
        byteNumSum g true l' = remaining := by
  intro l
  induction l with
  | nil =>
    intro bytes remaining hb _ hle _
    refine ⟨[], rfl, List.Forall₂.nil, ?_⟩
    have : bytes = 0 := hb
    simp only [byteNumSum, List.filter_nil, List.map_nil, List.sum_nil]
    omega
  | cons info rest ih =>
    intro bytes remaining hb hpos hle hratio
    have hposr : ∀ i ∈ rest, g.isCacheImportant i.node = true → 0 < i.max_byte_num :=
      fun i hi => hpos i (List.mem_cons_of_mem _ hi)
    rw [maxSum_cons] at hb
    simp only [shareImportant]
    by_cases himp : g.isCacheImportant info.node = true
    · rw [if_pos himp]
      rw [if_pos himp] at hb
      have hm := hpos info (List.mem_cons_self _ _) himp
      rw [if_neg (by omega), portion_floor]
      subst hb
      obtain ⟨s1, s2, s3, s4, s5⟩ :=
        share_step info.max_byte_num (maxSum g true rest) remaining remaining0 bytes0 hm hle hratio
      rw [if_pos s1]
      obtain ⟨l', h1, h2, h3⟩ := ih (info.max_byte_num + maxSum g true rest - info.max_byte_num)
        (remaining - info.max_byte_num * remaining / (info.max_byte_num + maxSum g true rest))
        (by omega) hposr (by omega) (by rw [Nat.add_sub_cancel_left]; exact s5)
      rw [h1]
      refine ⟨_, rfl, List.Forall₂.cons ⟨rfl, fun h => ?_, fun _ => ⟨s4, s2⟩⟩ h2, ?_⟩
      · rw [himp] at h; cases h
      · rw [byteNumSum_cons, if_pos himp, h3]
        simp only
        omega
    · have himp' : g.isCacheImportant info.node = false := by
        cases h : g.isCacheImportant info.node
        · rfl
        · exact absurd h himp
      rw [if_neg himp]
      rw [if_neg himp, Nat.zero_add] at hb
      obtain ⟨l', h1, h2, h3⟩ := ih bytes remaining hb hposr hle hratio
      rw [h1]
      refine ⟨_, rfl, List.Forall₂.cons ⟨rfl, fun _ => rfl, fun h => ?_⟩ h2, ?_⟩
      · exact absurd h himp
      · rw [byteNumSum_cons, if_neg himp, Nat.zero_add, h3]

end ImageGraph


namespace ImageGraph

theorem add_ok (g : NodeData) (hg : g.InputsLayered) (hp : g.ValidProbabilities) (fuel : Nat)
    (m : Members) (node : Nat) (hnode : node < fuel) : (m.add g fuel node).isSome = true := by
  unfold Members.add
  cases hmode : g.memoryMode node with
  | NO_MEMORY => rfl
  | ANY_MEMORY =>
    have h := computeProbs_ok g hg hp fuel node m.probabilities hnode
    cases hc : computeProbs g fuel node m.probabilities with
    | none => rw [hc] at h; cases h
    | some r =>
      simp only
      split_ifs <;> rfl
  | FULL_MEMORY =>
    simp only
    split_ifs <;> rfl

theorem addAll_ok (g : NodeData) (hg : g.InputsLayered) (hp : g.ValidProbabilities) (fuel : Nat) :
    ∀ (out_nodes : List Nat) (m : Members), (∀ node ∈ out_nodes, node < fuel) →
      (Members.addAll g fuel m out_nodes).isSome = true := by
  intro out_nodes
  induction out_nodes with
  | nil => intro m _; rfl
  | cons node rest ih =>
    intro m h
    simp only [Members.addAll]
    have ha := add_ok g hg hp fuel m node (h node (List.mem_cons_self _ _))
    cases hc : m.add g fuel node with
    | none => rw [hc] at ha; cases ha
    | some m1 => exact ih m1 fun n hn => h n (List.mem_cons_of_mem _ hn)

/-- The variables of `generate_members` before its first loop. -/
theorem generate_members_some (g : NodeData) (fuel memory_limit : Nat)
    (out_nodes sink_nodes : List Nat) (t : ArgumentTuple)
    (h : generate_members g fuel memory_limit out_nodes sink_nodes = some t) :
    ∃ m : Members, Members.addAll g fuel ⟨[], [], 0, 0, true, memory_limit, []⟩ out_nodes = some m ∧
      m.assign g = some t.cache_nodes ∧ t.memory_limit = m.memory_limit ∧
      t.sink_nodes = sink_nodes ∧ t.non_cache_nodes = m.non_cache_nodes ∧
      t.memory_amount = m.amount ∧
      m.important_bytes = g.importantBytes out_nodes ∧
      m.unimportant_bytes = g.unimportantBytes out_nodes ∧
      m.memory_limit = memory_limit - g.fullBytes out_nodes ∧
      (m.enough_bytes = true ↔ g.fullBytes out_nodes ≤ memory_limit) ∧
      m.non_cache_nodes = out_nodes.filter (fun n => !g.isCache n) ∧
      m.cache_nodes.map NodeInformation.node = out_nodes.filter g.isCache ∧
      (∀ info ∈ m.cache_nodes, info.Fresh g ∧ info.node ∈ out_nodes) ∧
      maxSum g true m.cache_nodes = g.importantBytes out_nodes ∧
      maxSum g false m.cache_nodes = g.unimportantBytes out_nodes := by
  unfold generate_members at h
  cases ha : Members.addAll g fuel ⟨[], [], 0, 0, true, memory_limit, []⟩ out_nodes with
  | none => rw [ha] at h; cases h
  | some m =>
    rw [ha] at h
    simp only at h
    cases hs : m.assign g with
    | none => rw [hs] at h; cases h
    | some cache_nodes =>
      rw [hs] at h
      simp only [Option.some.injEq] at h
      subst h
      obtain ⟨a1, a2, a3, a4, a5, a6, a7, a8, a9⟩ := addAll_extends g fuel out_nodes _ m ha
      refine ⟨m, rfl, hs, rfl, rfl, rfl, rfl, ?_, ?_, ?_, ?_, ?_, ?_, ?_, ?_, ?_⟩
      · simpa using a1
      · simpa using a2
      · simpa using a3
      · simpa using a4
      · simpa using a5
      · simpa using a6
      · intro info hi
        rcases a7 info hi with h | h
        · cases h
        · exact h
      · simpa [maxSum] using a8
      · simpa [maxSum] using a9

end ImageGraph


namespace ImageGraph

theorem amount_cases (m : Members) :
    (m.amount = MemoryAmount.TOO_LITTLE ↔ m.enough_bytes = false) ∧
    (m.amount = MemoryAmount.ENOUGH_FOR_ALL ↔
      m.enough_bytes = true ∧ m.important_bytes + m.unimportant_bytes ≤ m.memory_limit) ∧
    (m.amount = MemoryAmount.SUFFICIENT ↔
      m.enough_bytes = true ∧ m.memory_limit < m.important_bytes + m.unimportant_bytes) := by
  unfold Members.amount
  cases m.enough_bytes <;>
    by_cases h : m.important_bytes + m.unimportant_bytes ≤ m.memory_limit <;>
    simp [h]
  omega

/-- The branch of `generate_members` for `memory_limit >= important_bytes`. -/
theorem assign_unimportant (g : NodeData) (m : Members)
    (hU : maxSum g false m.cache_nodes = m.unimportant_bytes)
    (hnot : m.amount ≠ MemoryAmount.ENOUGH_FOR_ALL) (hle : m.important_bytes ≤ m.memory_limit)
    (hrem : m.memory_limit - m.important_bytes ≤ m.unimportant_bytes)
    (hpos : ∀ info ∈ m.cache_nodes, g.isCacheImportant info.node = false →
      0 < info.max_byte_num) :
    ∃ l', m.assign g = some l' ∧
      List.Forall₂ (NodeInformation.Shared g false (m.memory_limit - m.important_bytes)
        m.unimportant_bytes) m.cache_nodes l' ∧
      byteNumSum g false l' = m.memory_limit - m.important_bytes := by
  unfold Members.assign
  rw [if_neg hnot, if_pos hle]
  exact shareUnimportant_spec g _ _ m.cache_nodes _ _ hU.symm hpos hrem (le_refl _)

theorem byteNumSum_zero (g : NodeData) (kind : Bool) :
    ∀ l : List NodeInformation, (∀ info ∈ l, info.byte_num = 0) → byteNumSum g kind l = 0 := by
  intro l
  induction l with
  | nil => intro _; rfl
  | cons a l ih =>
    intro h
    rw [byteNumSum_cons, ih fun i hi => h i (List.mem_cons_of_mem _ hi),
      h a (List.mem_cons_self _ _)]
    simp

theorem shared_self (g : NodeData) (bytes0 : Nat) :
    ∀ l : List NodeInformation, (∀ info ∈ l, info.byte_num = 0) →
      List.Forall₂ (NodeInformation.Shared g true 0 bytes0) l l := by
  intro l
  induction l with
  | nil => intro _; exact List.Forall₂.nil
  | cons a l ih =>
    intro h
    refine List.Forall₂.cons ⟨rfl, fun _ => rfl, fun _ => ?_⟩
      (ih fun i hi => h i (List.mem_cons_of_mem _ hi))
    rw [h a (List.mem_cons_self _ _)]
    simp

/-- The branches of `generate_members` for `memory_limit < important_bytes`. -/
theorem assign_important (g : NodeData) (m : Members)
    (hI : maxSum g true m.cache_nodes = m.important_bytes)
    (hnot : m.amount ≠ MemoryAmount.ENOUGH_FOR_ALL) (hlt : m.memory_limit < m.important_bytes)
    (hzero : ∀ info ∈ m.cache_nodes, info.byte_num = 0)
    (hpos : ∀ info ∈ m.cache_nodes, g.isCacheImportant info.node = true →
      0 < info.max_byte_num) :
    ∃ l', m.assign g = some l' ∧
      List.Forall₂ (NodeInformation.Shared g true m.memory_limit m.important_bytes)
        m.cache_nodes l' ∧
      byteNumSum g true l' = m.memory_limit := by
  unfold Members.assign
  rw [if_neg hnot, if_neg (by omega)]
  by_cases h0 : m.memory_limit > 0
  · rw [if_pos h0]
    exact shareImportant_spec g _ _ m.cache_nodes _ _ hI.symm hpos (le_of_lt hlt) (le_refl _)
  · rw [if_neg h0]
    have h0' : m.memory_limit = 0 := by omega
    refine ⟨_, rfl, ?_, ?_⟩
    · rw [h0']
      exact shared_self g _ _ hzero
    · rw [h0']
      exact byteNumSum_zero g true _ hzero

/-- With probabilities that are valid, inputs of lower numbers, enough fuel and cache nodes of
positive size, `generate_members` returns. -/
theorem generate_members_ok (g : NodeData) (fuel memory_limit : Nat)
    (out_nodes sink_nodes : List Nat) (hg : g.InputsLayered) (hp : g.ValidProbabilities)
    (hfuel : ∀ node ∈ out_nodes, node < fuel)
    (hpos : ∀ node ∈ out_nodes, g.isCache node = true → 0 < g.fullByteNumber node) :
    (generate_members g fuel memory_limit out_nodes sink_nodes).isSome = true := by
  have ha := addAll_ok g hg hp fuel out_nodes ⟨[], [], 0, 0, true, memory_limit, []⟩ hfuel
  unfold generate_members
  cases hm : Members.addAll g fuel ⟨[], [], 0, 0, true, memory_limit, []⟩ out_nodes with
  | none => rw [hm] at ha; cases ha
  | some m =>
    simp only
    obtain ⟨a1, a2, a3, a4, a5, a6, a7, a8, a9⟩ := addAll_extends g fuel out_nodes _ m hm
    simp only [maxSum, List.filter_nil, List.map_nil, List.sum_nil, Nat.zero_add,
      List.not_mem_nil, false_or, true_and, List.nil_append] at a1 a2 a3 a4 a7 a8 a9
    have hmax : ∀ info ∈ m.cache_nodes, 0 < info.max_byte_num := by
      intro info hi
      obtain ⟨⟨-, h2, h3⟩, h4⟩ := a7 info hi
      rw [h2]
      exact hpos _ h4 (by simpa [NodeData.isCache] using h3)
    have hzero : ∀ info ∈ m.cache_nodes, info.byte_num = 0 := fun info hi => (a7 info hi).1.1
    have : (m.assign g).isSome = true := by
      by_cases he : m.amount = MemoryAmount.ENOUGH_FOR_ALL
      · unfold Members.assign
        rw [if_pos he]; rfl
      · by_cases hle : m.important_bytes ≤ m.memory_limit
        · have hrem : m.memory_limit - m.important_bytes ≤ m.unimportant_bytes := by
            have hc := amount_cases m
            cases hen : m.enough_bytes with
            | true =>
              have := (not_congr hc.2.1).1 he
              rw [hen] at this
              simp only [true_and, not_le] at this
              omega
            | false =>
              have := (not_congr a4).1 (by rw [hen]; simp)
              omega
          obtain ⟨l', h, -, -⟩ := assign_unimportant g m (by rw [maxSum]; exact a9.trans a2.symm)
            he hle hrem fun info hi _ => hmax info hi
          rw [h]; rfl
        · obtain ⟨l', h, -, -⟩ := assign_important g m (by rw [maxSum]; exact a8.trans a1.symm)
            he (by omega) hzero fun info hi _ => hmax info hi
          rw [h]; rfl
    cases hs : m.assign g with
    | none => rw [hs] at this; cases this
    | some l => rfl

end ImageGraph


namespace ImageGraph

/-- C11 as stated fails. With a budget of 50 bytes and the single out node 1 of
`memoryExample`, an important `ANY_MEMORY` node of 100 bytes, the remaining budget 50 is below
the important sum 100, yet `SUFFICIENT` is reported (and the node gets the whole budget); with
the single out node 0, a `FULL_MEMORY` node of 100 bytes, the remaining budget is 0, which is
not below the sum 0 of the `ANY_MEMORY` nodes, yet `TOO_LITTLE` is reported. -/
theorem sufficient_reported_below_important_sum :
    (generate_members memoryExample 2 50 [1] [] =
        some ⟨50, [], [⟨1, 50, 100, 1 / 4, 7 / 16⟩], [], MemoryAmount.SUFFICIENT⟩ ∧
      50 < memoryExample.importantBytes [1]) ∧
    (generate_members memoryExample 2 50 [0] [] =
        some ⟨0, [], [], [0], MemoryAmount.TOO_LITTLE⟩ ∧
      memoryExample.importantBytes [0] + memoryExample.unimportantBytes [0] ≤ 0) := by
  refine ⟨⟨?_, ?_⟩, ?_, ?_⟩ <;> with_unfolding_all decide

/-- C11, amended: with `F`, `I` and `U` the sums of the full byte counts of the `FULL_MEMORY`
nodes, of the important and of the unimportant `ANY_MEMORY` nodes, `generate_members` leaves
the budget `R = memory_limit - F` (0 when `memory_limit < F`) and reports `TOO_LITTLE` iff
`memory_limit < F`, that is iff a `FULL_MEMORY` node did not fit; otherwise it reports
`ENOUGH_FOR_ALL` iff `R >= I + U` and `SUFFICIENT` iff `R < I + U`, also when `R < I`.  It
returns whenever the change probabilities are probabilities, the nodes are numbered after their
inputs and below the fuel, and the `ANY_MEMORY` nodes have a positive full byte count. -/
theorem memory_amount_classification (g : NodeData) (fuel memory_limit : Nat)
    (out_nodes sink_nodes : List Nat) :
    (∀ t, generate_members g fuel memory_limit out_nodes sink_nodes = some t →
      t.memory_limit = memory_limit - g.fullBytes out_nodes ∧
      (t.memory_amount = MemoryAmount.TOO_LITTLE ↔ memory_limit < g.fullBytes out_nodes) ∧
      (t.memory_amount = MemoryAmount.ENOUGH_FOR_ALL ↔
        g.fullBytes out_nodes ≤ memory_limit ∧
          g.importantBytes out_nodes + g.unimportantBytes out_nodes ≤ t.memory_limit) ∧
      (t.memory_amount = MemoryAmount.SUFFICIENT ↔
        g.fullBytes out_nodes ≤ memory_limit ∧
          t.memory_limit < g.importantBytes out_nodes + g.unimportantBytes out_nodes)) ∧
    (g.InputsLayered → g.ValidProbabilities → (∀ node ∈ out_nodes, node < fuel) →
      (∀ node ∈ out_nodes, g.isCache node = true → 0 < g.fullByteNumber node) →
      (generate_members g fuel memory_limit out_nodes sink_nodes).isSome = true) := by
  refine ⟨fun t ht => ?_, generate_members_ok g fuel memory_limit out_nodes sink_nodes⟩
  obtain ⟨m, -, -, h1, -, -, h2, h3, h4, h5, h6, -⟩ :=
    generate_members_some g fuel memory_limit out_nodes sink_nodes t ht
  obtain ⟨c1, c2, c3⟩ := amount_cases m
  rw [h1, h2, c1, c2, c3, h3, h4, h5]
  refine ⟨rfl, ?_, ?_, ?_⟩
  · cases hen : m.enough_bytes with
    | true => rw [hen] at h6; simp only [true_iff] at h6; simp; omega
    | false => rw [hen] at h6; simp only [false_iff, Bool.false_eq_true] at h6; simp; omega
  · rw [h6]
  · rw [h6]

theorem memory_amount_classification_witness :
    ∃ t, generate_members memoryExample 4 350 [0, 1, 2, 3] [] = some t ∧
      (t.memory_amount = MemoryAmount.SUFFICIENT ↔
        memoryExample.fullBytes [0, 1, 2, 3] ≤ 350 ∧
          t.memory_limit < memoryExample.importantBytes [0, 1, 2, 3] +
            memoryExample.unimportantBytes [0, 1, 2, 3]) := by
  have hsome : (generate_members memoryExample 4 350 [0, 1, 2, 3] []).isSome = true :=
    (memory_amount_classification memoryExample 4 350 [0, 1, 2, 3] []).2
      (by intro node input h; simp only [memoryExample] at h; split_ifs at h with h0
          · cases h
          · rw [List.mem_singleton.1 h]; omega)
      (fun _ => by simp only [memoryExample]; norm_num)
      (by decide) (by decide)
  cases ht : generate_members memoryExample 4 350 [0, 1, 2, 3] [] with
  | none => rw [ht] at hsome; cases hsome
  | some t =>
    exact ⟨t, rfl, ((memory_amount_classification memoryExample 4 350 [0, 1, 2, 3] []).1 t ht).2.2.2⟩

end ImageGraph


namespace ImageGraph

theorem forall2_mem_right {α β : Type} {R : α → β → Prop} :
    ∀ {l : List α} {l' : List β}, List.Forall₂ R l l' → ∀ b ∈ l', ∃ a ∈ l, R a b := by
  intro l l' h
  induction h with
  | nil => intro b hb; cases hb
  | cons hab _ ih =>
    intro b hb
    rcases List.mem_cons.1 hb with rfl | hb
    · exact ⟨_, List.mem_cons_self _ _, hab⟩
    · obtain ⟨a, ha, hr⟩ := ih b hb
      exact ⟨a, List.mem_cons_of_mem _ ha, hr⟩

theorem shared_map_node (g : NodeData) (kind : Bool) (remaining0 bytes0 : Nat) :
    ∀ {l l' : List NodeInformation},
      List.Forall₂ (NodeInformation.Shared g kind remaining0 bytes0) l l' →
      l'.map NodeInformation.node = l.map NodeInformation.node := by
  intro l l' h
  induction h with
  | nil => rfl
  | cons hab _ ih =>
    rw [List.map_cons, List.map_cons, ih, hab.1]

/-- With the portions computed exactly: when the budget `R = memory_limit - F` left by the
`FULL_MEMORY` nodes satisfies `I <= R < I + U` and every unimportant `ANY_MEMORY` node has a
positive full byte count, `generate_members` creates one cache node for each `ANY_MEMORY`
node, gives every important node its full byte count and every unimportant node `u` at least
`floor((R - I) * max_u / U)` and at most `max_u` bytes, and the bytes of the unimportant nodes
sum to exactly `R - I`; it returns whenever the change probabilities are probabilities and the
nodes are numbered after their inputs and below the fuel. -/
theorem exact_portions_share_remainder (g : NodeData) (fuel memory_limit : Nat)
    (out_nodes sink_nodes : List Nat)
    (hlo : g.importantBytes out_nodes ≤ memory_limit - g.fullBytes out_nodes)
    (hhi : memory_limit - g.fullBytes out_nodes <
      g.importantBytes out_nodes + g.unimportantBytes out_nodes)
    (hpos : ∀ node ∈ out_nodes, g.isUnimportantCache node = true → 0 < g.fullByteNumber node) :
    (∀ t, generate_members g fuel memory_limit out_nodes sink_nodes = some t →
      t.cache_nodes.map NodeInformation.node = out_nodes.filter g.isCache ∧
      (∀ info ∈ t.cache_nodes, info.max_byte_num = g.fullByteNumber info.node ∧
        (g.isCacheImportant info.node = true → info.byte_num = g.fullByteNumber info.node) ∧
        (g.isCacheImportant info.node = false →
          (memory_limit - g.fullBytes out_nodes - g.importantBytes out_nodes) *
              g.fullByteNumber info.node / g.unimportantBytes out_nodes ≤ info.byte_num ∧
            info.byte_num ≤ g.fullByteNumber info.node)) ∧
      byteNumSum g false t.cache_nodes =
        memory_limit - g.fullBytes out_nodes - g.importantBytes out_nodes) ∧
    (g.InputsLayered → g.ValidProbabilities → (∀ node ∈ out_nodes, node < fuel) →
      (generate_members g fuel memory_limit out_nodes sink_nodes).isSome = true) := by
  have key : ∀ m : Members,
      Members.addAll g fuel ⟨[], [], 0, 0, true, memory_limit, []⟩ out_nodes = some m →
      ∃ l', m.assign g = some l' ∧
        List.Forall₂ (NodeInformation.Shared g false
          (memory_limit - g.fullBytes out_nodes - g.importantBytes out_nodes)
          (g.unimportantBytes out_nodes)) m.cache_nodes l' ∧
        byteNumSum g false l' =
          memory_limit - g.fullBytes out_nodes - g.importantBytes out_nodes ∧
        m.cache_nodes.map NodeInformation.node = out_nodes.filter g.isCache ∧
        ∀ info ∈ m.cache_nodes, info.Fresh g ∧ info.node ∈ out_nodes := by
    intro m hm
    obtain ⟨a1, a2, a3, a4, a5, a6, a7, a8, a9⟩ := addAll_extends g fuel out_nodes _ m hm
    simp only [maxSum, List.filter_nil, List.map_nil, List.sum_nil, Nat.zero_add,
      List.not_mem_nil, false_or, true_and, List.nil_append] at a1 a2 a3 a4 a6 a7 a8 a9
    have hnot : m.amount ≠ MemoryAmount.ENOUGH_FOR_ALL := by
      intro he
      have := ((amount_cases m).2.1.1 he).2
      omega
    have hposi : ∀ info ∈ m.cache_nodes, g.isCacheImportant info.node = false →
        0 < info.max_byte_num := by
      intro info hi himp
      obtain ⟨⟨-, h2, h3⟩, h4⟩ := a7 info hi
      rw [h2]
      exact hpos _ h4 (by simp [NodeData.isUnimportantCache, NodeData.isCache, h3, himp])
    obtain ⟨l', h1, h2, h3⟩ := assign_unimportant g m (by rw [maxSum]; exact a9.trans a2.symm)
      hnot (by omega) (by omega) hposi
    rw [a1, a3] at h3
    rw [a1, a2, a3] at h2
    exact ⟨l', h1, h2, h3, a6, a7⟩
  constructor
  · intro t ht
    obtain ⟨m, hm, hs, -⟩ := generate_members_some g fuel memory_limit out_nodes sink_nodes t ht
    obtain ⟨l', h1, h2, h3, h4, h5⟩ := key m hm
    rw [hs] at h1
    cases h1
    refine ⟨(shared_map_node g _ _ _ h2).trans h4, fun info hi => ?_, h3⟩
    obtain ⟨a, ha, hb, hc, hd⟩ := forall2_mem_right h2 info hi
    obtain ⟨⟨-, f2, -⟩, -⟩ := h5 a ha
    have hnode : info.node = a.node := by rw [hb]
    have hmax : info.max_byte_num = a.max_byte_num := by rw [hb]
    rw [hnode, hmax, ← f2]
    refine ⟨rfl, fun himp => ?_, fun himp => hd himp⟩
    have := hc (by rw [himp]; rfl)
    simpa using this
  · intro hg hp hfuel
    have ha := addAll_ok g hg hp fuel out_nodes ⟨[], [], 0, 0, true, memory_limit, []⟩ hfuel
    unfold generate_members
    cases hm : Members.addAll g fuel ⟨[], [], 0, 0, true, memory_limit, []⟩ out_nodes with
    | none => rw [hm] at ha; cases ha
    | some m =>
      obtain ⟨l', h1, -⟩ := key m hm
      simp only [h1]
      rfl

end ImageGraph


namespace ImageGraph

/-! ## `MemoryDistribution::cost` -/

theorem wastedBytes_bounds (l : List NodeInformation)
    (h : ∀ info ∈ l, 0 ≤ info.cum_removal_prob ∧ info.cum_removal_prob ≤ 1) :
    0 ≤ (l.map fun info => info.cum_removal_prob * (info.byte_num : ℚ)).sum ∧
    (l.map fun info => info.cum_removal_prob * (info.byte_num : ℚ)).sum ≤
      (l.map fun info => (info.byte_num : ℚ)).sum := by
  induction l with
  | nil => simp
  | cons a l ih =>
    obtain ⟨h1, h2⟩ := ih fun i hi => h i (List.mem_cons_of_mem _ hi)
    obtain ⟨p0, p1⟩ := h a (List.mem_cons_self _ _)
    have hb : (0 : ℚ) ≤ (a.byte_num : ℚ) := Nat.cast_nonneg _
    simp only [List.map_cons, List.sum_cons]
    constructor
    · have := mul_nonneg p0 hb
      linarith
    · have := mul_le_of_le_one_left hb p1
      linarith

/-- C14, amended: when the simulation ends with a non-negative time, the relevances are
non-negative with a positive sum, the removal probabilities are probabilities and the cache
nodes have bytes, `cost` returns `(1 + wasted) * n * weighted_time`, where `n` is the number of
sinks: the claimed value for one sink, and `n` times the claimed value in general. -/
theorem cost_is_weighted_time_per_sink {G : Type} (g : NodeData) (fuel steps : Nat)
    (d : MemoryDistribution G) (raw_cost : ℚ) (adaptor : ProtoGraphAdaptor)
    (hsim : ProtoGraphAdaptor.simulate g.toProtoGraph fuel steps d.adaptor_ 0 =
      some (raw_cost, adaptor))
    (hraw : 0 ≤ raw_cost)
    (hrel : ∀ datum ∈ d.sinkData adaptor, 0 ≤ datum.relevance)
    (hcum : 0 < ((d.sinkData adaptor).map fun datum => datum.relevance).sum)
    (hprob : ∀ info ∈ d.cache_nodes_, 0 ≤ info.cum_removal_prob ∧ info.cum_removal_prob ≤ 1)
    (hfull : 0 < d.fullBytes) :
    d.cost g fuel steps =
      some ((1 + d.wasted) * (((d.sinkData adaptor).length : ℚ) *
        weightedTime (d.sinkData adaptor)), { d with adaptor_ := adaptor }) := by
  unfold MemoryDistribution.cost
  rw [hsim]
  simp only
  rw [if_neg (not_lt.2 hraw)]
  have h1 : (d.sinkData adaptor).any (fun datum => decide (datum.relevance < 0)) = false := by
    rw [List.any_eq_false]
    intro datum hd
    simpa using hrel datum hd
  have h2 : d.cache_nodes_.any
      (fun info => decide (¬ (0 ≤ info.cum_removal_prob ∧ info.cum_removal_prob ≤ 1))) =
      false := by
    rw [List.any_eq_false]
    intro info hi
    simpa using hprob info hi
  rw [h1, h2]
  simp only [Bool.false_eq_true, if_false]
  rw [if_neg (ne_of_gt hcum), if_neg (ne_of_gt hfull)]
  obtain ⟨w0, w1⟩ := wastedBytes_bounds d.cache_nodes_ hprob
  have hw : 0 ≤ d.wastedBytes / d.fullBytes ∧ d.wastedBytes / d.fullBytes ≤ 1 :=
    ⟨div_nonneg w0 (le_of_lt hfull), (div_le_one hfull).2 w1⟩
  rw [if_pos hw]
  simp only [MemoryDistribution.wasted, weightedTime]
  congr 2
  ring

theorem cost_is_weighted_time_per_sink_witness :
    ∃ d r, MemoryDistribution.new (sharedNodes 1 1) (constantSource 0) 2 4096 [0, 1] [1, 2] =
        some d ∧
      d.cost (sharedNodes 1 1) 2 8 = some r ∧ r.1 = (1 + 7 / 16) * (2 * 10) := by
  have hsome : ((MemoryDistribution.new (sharedNodes 1 1) (constantSource 0) 2 4096 [0, 1]
      [1, 2]).bind fun d =>
        (ProtoGraphAdaptor.simulate (sharedNodes 1 1).toProtoGraph 2 8 d.adaptor_ 0).map
          fun p => (p.1, (d.sinkData p.2).map (fun s => (s.relevance, s.duration)),
            d.cache_nodes_)) =
      some (20, [(1, 20), (1, 0)], [⟨1, 4096, 4096, 1 / 4, 7 / 16⟩]) := by
    decide!
  cases hd : MemoryDistribution.new (sharedNodes 1 1) (constantSource 0) 2 4096 [0, 1]
      [1, 2] with
  | none => rw [hd] at hsome; cases hsome
  | some d =>
    rw [hd] at hsome
    simp only [Option.some_bind] at hsome
    cases hsim : ProtoGraphAdaptor.simulate (sharedNodes 1 1).toProtoGraph 2 8 d.adaptor_ 0 with
    | none => rw [hsim] at hsome; cases hsome
    | some p =>
      rw [hsim] at hsome
      simp only [Option.map_some', Option.some.injEq, Prod.mk.injEq] at hsome
      obtain ⟨h1, h2, h3⟩ := hsome
      have hrelevance : (d.sinkData p.2).map (fun s => s.relevance) = [1, 1] := by
        have := congrArg (List.map Prod.fst) h2
        simpa [List.map_map, Function.comp_def] using this
      have hproduct : (d.sinkData p.2).map (fun s => s.relevance * s.duration) = [20, 0] := by
        have := congrArg (List.map fun q : ℚ × ℚ => q.1 * q.2) h2
        simpa [List.map_map, Function.comp_def] using this
      have hlength : (d.sinkData p.2).length = 2 := by
        have := congrArg List.length h2
        simpa using this
      have hformula := cost_is_weighted_time_per_sink (sharedNodes 1 1) 2 8 d p.1 p.2 hsim
        (by rw [h1]; norm_num)
        (by
          intro datum hdatum
          have : datum.relevance ∈ (d.sinkData p.2).map (fun s => s.relevance) :=
            List.mem_map_of_mem _ hdatum
          rw [hrelevance] at this
          simp only [List.mem_cons, List.mem_singleton, List.not_mem_nil, or_false,
            or_self] at this
          rw [this]; norm_num)
        (by rw [hrelevance]; norm_num)
        (by rw [h3]; intro info hi; rw [List.mem_singleton.1 hi]; norm_num)
        (by simp only [MemoryDistribution.fullBytes, h3]; norm_num)
      refine ⟨d, _, rfl, hformula, ?_⟩
      simp only [MemoryDistribution.wasted, MemoryDistribution.wastedBytes,
        MemoryDistribution.fullBytes, weightedTime, h3, hrelevance, hproduct, hlength]
      norm_num

/-- C14 as stated fails for two sinks. On the shared subgraph with a budget of 4096 bytes the
two sinks, both of relevance 1, end with the durations 20 and 0, and the cache node has the
removal probability 7/16: the claimed cost is `(1 + 7/16) * (20 / 2) = 115/8`, but `cost`
returns `115/4`, twice as much, as it multiplies by the number of sinks. -/
theorem cost_counts_every_sink :
    ((MemoryDistribution.new (sharedNodes 1 1) (constantSource 0) 2 4096 [0, 1] [1, 2]).bind
      fun d => (d.cost (sharedNodes 1 1) 2 8).map fun r =>
        (r.1, (1 + r.2.wasted) * weightedTime (r.2.sinkData r.2.adaptor_),
          (r.2.sinkData r.2.adaptor_).map (fun s => (s.relevance, s.duration)), r.2.wasted)) =
      some (115 / 4, 115 / 8, [(1, 20), (1, 0)], 7 / 16) := by
  decide!

end ImageGraph


namespace ImageGraph

/-! ## `MemoryDistribution::random_neighbour` -/

/-- What a run of a loop of `random_neighbour` over `l` tells: the nodes that are not skipped
hold at most their full size, and each new choice is a requested node of the list with a
probability that is not zero. -/
theorem choicesLoop_spec (out_data : Nat → Option OutData)
    (prob : NodeInformation → OutData → ℚ) (skip : Option Nat) :
    ∀ (l : List NodeInformation) (i : Nat) (cumulative : ℚ) (choices : List NodeProbability)
      (r : ℚ × List NodeProbability),
      MemoryDistribution.choicesLoop out_data prob skip i l cumulative choices = some r →
      (∀ k info, l[k]? = some info → skip ≠ some (i + k) →
        info.byte_num ≤ info.max_byte_num) ∧
      (∀ np ∈ r.2, np ∈ choices ∨ ∃ k info out_datum, np.index = i + k ∧ l[k]? = some info ∧
        skip ≠ some (i + k) ∧ out_data info.node = some out_datum ∧
        prob info out_datum ≠ 0) := by
  intro l
  induction l with
  | nil =>
    intro i cumulative choices r h
    simp only [MemoryDistribution.choicesLoop, Option.some.injEq] at h
    subst h
    exact ⟨fun k info hk => by simp at hk, fun np hnp => Or.inl hnp⟩
  | cons info rest ih =>
    intro i cumulative choices r h
    have shift : ∀ (cumulative1 : ℚ) (choices1 : List NodeProbability),
        MemoryDistribution.choicesLoop out_data prob skip (i + 1) rest cumulative1 choices1 =
          some r →
        (skip = some i ∨ info.byte_num ≤ info.max_byte_num) →
        (∀ np ∈ choices1, np ∈ choices ∨ (np.index = i ∧ skip ≠ some i ∧
          ∃ out_datum, out_data info.node = some out_datum ∧ prob info out_datum ≠ 0)) →
        (∀ k info', (info :: rest)[k]? = some info' → skip ≠ some (i + k) →
          info'.byte_num ≤ info'.max_byte_num) ∧
        (∀ np ∈ r.2, np ∈ choices ∨ ∃ k info' out_datum, np.index = i + k ∧
          (info :: rest)[k]? = some info' ∧ skip ≠ some (i + k) ∧
          out_data info'.node = some out_datum ∧ prob info' out_datum ≠ 0) := by
      intro cumulative1 choices1 h1 hhere hch
      obtain ⟨a, b⟩ := ih (i + 1) cumulative1 choices1 r h1
      constructor
      · intro k info' hk hs
        cases k with
        | zero =>
          simp only [List.getElem?_cons_zero, Option.some.injEq] at hk
          subst hk
          rcases hhere with h0 | h0
          · exact absurd h0 hs
          · exact h0
        | succ k =>
          simp only [List.getElem?_cons_succ] at hk
          exact a k info' hk (by rw [Nat.add_assoc, Nat.add_comm 1 k]; exact hs)
      · intro np hnp
        rcases b np hnp with h0 | ⟨k, info', out_datum, e1, e2, e3, e4, e5⟩
        · rcases hch np h0 with h2 | ⟨h2, h3, out_datum, h4, h5⟩
          · exact Or.inl h2
          · exact Or.inr ⟨0, info, out_datum, h2, by simp, h3, h4, h5⟩
        · refine Or.inr ⟨k + 1, info', out_datum, ?_, ?_, ?_, e4, e5⟩
          · rw [e1]; omega
          · simpa using e2
          · rw [← Nat.add_assoc, Nat.add_right_comm]; exact e3
    simp only [MemoryDistribution.choicesLoop] at h
    by_cases h1 : skip = some i
    · rw [if_pos h1] at h
      exact shift _ _ h (Or.inl h1) fun np hnp => Or.inl hnp
    · rw [if_neg h1] at h
      by_cases h2 : info.max_byte_num < info.byte_num
      · rw [if_pos h2] at h; cases h
      · rw [if_neg h2] at h
        cases hd : out_data info.node with
        | none => rw [hd] at h; cases h
        | some out_datum =>
          rw [hd] at h
          simp only at h
          by_cases h3 : out_datum.requests < out_datum.computations
          · rw [if_pos h3] at h; cases h
          · rw [if_neg h3] at h
            by_cases h4 : out_datum.requests = 0
            · rw [if_pos h4] at h
              exact shift _ _ h (Or.inr (by omega)) fun np hnp => Or.inl hnp
            · rw [if_neg h4] at h
              by_cases h5 : info.max_byte_num = 0
              · rw [if_pos h5] at h; cases h
              · rw [if_neg h5] at h
                by_cases h6 : prob info out_datum ≠ 0
                · rw [if_pos h6] at h
                  refine shift _ _ h (Or.inr (by omega)) fun np hnp => ?_
                  rcases List.mem_append.1 hnp with h7 | h7
                  · exact Or.inl h7
                  · rw [List.mem_singleton.1 h7]
                    exact Or.inr ⟨rfl, h1, out_datum, hd, h6⟩
                · rw [if_neg h6] at h
                  exact shift _ _ h (Or.inr (by omega)) fun np hnp => Or.inl hnp

theorem upperBound_mem {choices : List NodeProbability} {p : ℚ} {np : NodeProbability}
    (h : MemoryDistribution.upperBound choices p = some np) :
    np ∈ choices ∧ p < np.probability := by
  unfold MemoryDistribution.upperBound at h
  exact ⟨List.mem_of_find?_eq_some h, by simpa using List.find?_some h⟩

theorem donorProb_ne_zero {info : NodeInformation} {out_datum : OutData}
    (h : MemoryDistribution.donorProb info out_datum ≠ 0) : 1 ≤ info.byte_num := by
  by_contra hc
  have h0 : info.byte_num = 0 := by omega
  apply h
  simp [MemoryDistribution.donorProb, h0]

theorem receiverProb_ne_zero {info : NodeInformation} {out_datum : OutData}
    (h : MemoryDistribution.receiverProb info out_datum ≠ 0) :
    1 ≤ info.max_byte_num - info.byte_num := by
  by_contra hc
  have h0 : info.max_byte_num - info.byte_num = 0 := by omega
  apply h
  simp [MemoryDistribution.receiverProb, h0]

end ImageGraph


namespace ImageGraph

end ImageGraph


namespace ImageGraph

end ImageGraph


namespace ImageGraph

/-! ## `Annealer::perform` -/

namespace Annealer

variable {S K A : Type} [LinearOrderedField K]

/-- One iteration in terms of its neighbour, the cost of the neighbour and the draw. -/
theorem iteration_eq (ops : SolutionOps S K) (exp : K → K) (random_norm : A → K × A)
    (beta : K) (st : State S K A) (y0 x1 y : S) (cost_y : K)
    (hn : ops.random_neighbour st.x = some (y0, x1)) (hc : ops.cost y0 = some (cost_y, y)) :
    iteration ops exp random_norm beta st =
      some (
        if st.cost_optimum >
            (if metropolis exp st.cost_x cost_y st.t ≥
              (random_norm st.random_number_generator_).1 then cost_y else st.cost_x) then
          ⟨if metropolis exp st.cost_x cost_y st.t ≥
              (random_norm st.random_number_generator_).1 then y else x1,
            if metropolis exp st.cost_x cost_y st.t ≥
              (random_norm st.random_number_generator_).1 then cost_y else st.cost_x,
            none,
            if metropolis exp st.cost_x cost_y st.t ≥
              (random_norm st.random_number_generator_).1 then cost_y else st.cost_x,
            st.t * beta, 0, (random_norm st.random_number_generator_).2,
            st.output ++ [⟨cost_y, decide (metropolis exp st.cost_x cost_y st.t ≥
              (random_norm st.random_number_generator_).1)⟩]⟩
        else
          ⟨if metropolis exp st.cost_x cost_y st.t ≥
              (random_norm st.random_number_generator_).1 then y else x1,
            if metropolis exp st.cost_x cost_y st.t ≥
              (random_norm st.random_number_generator_).1 then cost_y else st.cost_x,
            if metropolis exp st.cost_x cost_y st.t ≥
              (random_norm st.random_number_generator_).1 then
              (match st.optimum with
               | none => some x1
               | some o => some o)
            else st.optimum,
            st.cost_optimum, st.t * beta, st.optimum_kept_counter + 1,
            (random_norm st.random_number_generator_).2,
            st.output ++ [⟨cost_y, decide (metropolis exp st.cost_x cost_y st.t ≥
              (random_norm st.random_number_generator_).1)⟩]⟩) := by
  unfold iteration
  rw [hn]
  simp only
  rw [hc]
  simp only [decide_eq_true_eq]
  split_ifs <;> rfl

theorem iteration_some (ops : SolutionOps S K) (exp : K → K) (random_norm : A → K × A)
    (beta : K) (st st1 : State S K A) (h : iteration ops exp random_norm beta st = some st1) :
    ∃ y0 x1 y cost_y, ops.random_neighbour st.x = some (y0, x1) ∧
      ops.cost y0 = some (cost_y, y) := by
  unfold iteration at h
  cases hn : ops.random_neighbour st.x with
  | none => rw [hn] at h; cases h
  | some p =>
    rw [hn] at h
    simp only at h
    cases hc : ops.cost p.1 with
    | none => rw [hc] at h; cases h
    | some q => exact ⟨p.1, p.2, q.2, q.1, rfl, hc⟩

/-- An iteration keeps `State.Valid` and does not raise the best cost seen. -/
theorem iteration_valid (ops : SolutionOps S K) (exp : K → K) (random_norm : A → K × A)
    (beta : K) (st st1 : State S K A) (hv : st.Valid ops)
    (h : iteration ops exp random_norm beta st = some st1) :
    st1.Valid ops ∧ st1.cost_optimum ≤ st.cost_optimum := by
  obtain ⟨y0, x1, y, cost_y, hn, hc⟩ := iteration_some ops exp random_norm beta st st1 h
  rw [iteration_eq ops exp random_norm beta st y0 x1 y cost_y hn hc] at h
  obtain ⟨v1, v2, v3, v4⟩ := hv
  have hy : Evaluated ops y cost_y := Evaluated.cost hc
  have hx1 : Evaluated ops x1 st.cost_x := Evaluated.neighbour v2 hn
  simp only [Option.some.injEq] at h
  by_cases hacc : metropolis exp st.cost_x cost_y st.t ≥ (random_norm st.random_number_generator_).1
  · simp only [hacc, if_true] at h
    by_cases himp : st.cost_optimum > cost_y
    · rw [if_pos himp] at h
      subst h
      exact ⟨⟨le_refl _, hy, hy, fun _ => rfl⟩, le_of_lt himp⟩
    · rw [if_neg himp] at h
      subst h
      refine ⟨⟨not_lt.1 himp, hy, ?_, ?_⟩, le_refl _⟩
      · cases ho : st.optimum with
        | none =>
          simp only [State.optimumSolution]
          rw [v4 ho]
          exact hx1
        | some o =>
          simp only [State.optimumSolution, ho] at v3 ⊢
          exact v3
      · intro hnone
        cases ho : st.optimum with
        | none => simp only [ho] at hnone; cases hnone
        | some o => simp only [ho] at hnone; cases hnone
  · simp only [hacc, if_false] at h
    by_cases himp : st.cost_optimum > st.cost_x
    · exact absurd v1 (not_le.2 himp)
    · rw [if_neg himp] at h
      subst h
      refine ⟨⟨v1, hx1, ?_, v4⟩, le_refl _⟩
      cases ho : st.optimum with
      | none =>
        simp only [State.optimumSolution, ho]
        rw [v4 ho]
        exact hx1
      | some o =>
        simp only [State.optimumSolution, ho] at v3 ⊢
        exact v3

theorem start_valid (ops : SolutionOps S K) (init : S) (initial_temp : K) (generator : A)
    (st : State S K A) (h : start ops init initial_temp generator = some st) :
    st.Valid ops ∧ ops.cost init = some (st.cost_x, st.x) ∧ st.optimum_kept_counter = 0 ∧
      st.cost_optimum = st.cost_x ∧ st.t = initial_temp ∧ st.output = [] := by
  unfold start at h
  cases hc : ops.cost init with
  | none => rw [hc] at h; cases h
  | some p =>
    rw [hc] at h
    simp only [Option.some.injEq] at h
    subst h
    exact ⟨⟨le_refl _, Evaluated.cost hc, Evaluated.cost hc, fun _ => rfl⟩, rfl, rfl, rfl, rfl, rfl⟩

/-- One step of the loop: either the loop has ended, or it performs an iteration and goes on
with less fuel. -/
theorem loop_cases (ops : SolutionOps S K) (exp : K → K) (random_norm : A → K × A)
    (end_iterations : Nat) (beta : K) (fuel : Nat) (st : State S K A)
    (states : List (State S K A))
    (h : loop ops exp random_norm end_iterations beta fuel st = some states) :
    (end_iterations < st.optimum_kept_counter ∧ states = []) ∨
    (st.optimum_kept_counter ≤ end_iterations ∧ ∃ fuel1 st1 rest, fuel = fuel1 + 1 ∧
      iteration ops exp random_norm beta st = some st1 ∧
      loop ops exp random_norm end_iterations beta fuel1 st1 = some rest ∧
      states = st1 :: rest) := by
  cases fuel with
  | zero =>
    simp only [loop] at h
    split_ifs at h with hc
    simp only [Option.some.injEq] at h
    exact Or.inl ⟨by omega, h.symm⟩
  | succ fuel =>
    simp only [loop] at h
    split_ifs at h with hc
    · cases hi : iteration ops exp random_norm beta st with
      | none => rw [hi] at h; cases h
      | some st1 =>
        rw [hi] at h
        simp only at h
        cases hl : loop ops exp random_norm end_iterations beta fuel st1 with
        | none => rw [hl] at h; cases h
        | some rest =>
          rw [hl] at h
          simp only [Option.map_some', Option.some.injEq] at h
          exact Or.inr ⟨hc, fuel, st1, rest, rfl, rfl, hl, h.symm⟩
    · simp only [Option.some.injEq] at h
      exact Or.inl ⟨by omega, h.symm⟩

end Annealer

end ImageGraph


namespace ImageGraph

namespace Annealer

variable {S K A : Type} [LinearOrderedField K]

/-- The states of the loop form a chain of iterations along which the best cost seen does not
increase, and all of them are valid. -/
theorem loop_chain (ops : SolutionOps S K) (exp : K → K) (random_norm : A → K × A)
    (end_iterations : Nat) (beta : K) :
    ∀ (fuel : Nat) (st : State S K A) (states : List (State S K A)), st.Valid ops →
      loop ops exp random_norm end_iterations beta fuel st = some states →
      List.Chain (fun s s1 => iteration ops exp random_norm beta s = some s1 ∧
        s1.cost_optimum ≤ s.cost_optimum) st states ∧
      (∀ s ∈ states, s.Valid ops) := by
  intro fuel
  induction fuel with
  | zero =>
    intro st states _ h
    rcases loop_cases ops exp random_norm end_iterations beta 0 st states h with
      ⟨-, rfl⟩ | ⟨-, fuel1, -, -, hf, -⟩
    · exact ⟨List.Chain.nil, fun s hs => by cases hs⟩
    · omega
  | succ fuel ih =>
    intro st states hv h
    rcases loop_cases ops exp random_norm end_iterations beta (fuel + 1) st states h with
      ⟨-, rfl⟩ | ⟨-, fuel1, st1, rest, hf, hi, hl, rfl⟩
    · exact ⟨List.Chain.nil, fun s hs => by cases hs⟩
    · obtain ⟨hv1, hle⟩ := iteration_valid ops exp random_norm beta st st1 hv hi
      have hf' : fuel1 = fuel := by omega
      subst hf'
      obtain ⟨c, v⟩ := ih st1 rest hv1 hl
      refine ⟨List.Chain.cons ⟨hi, hle⟩ c, fun s hs => ?_⟩
      rcases List.mem_cons.1 hs with rfl | hs
      · exact hv1
      · exact v s hs

theorem getLastD_mem {α : Type} : ∀ (l : List α) (a : α), l.getLastD a ∈ a :: l := by
  intro l
  induction l with
  | nil => intro a; exact List.mem_cons_self _ _
  | cons b l ih =>
    intro a
    have : (b :: l).getLastD a = l.getLastD b := by cases l <;> rfl
    rw [this]
    exact List.mem_cons_of_mem _ (ih b)

/-- Along a chain that does not increase the best cost, the last state has the least one. -/
theorem chain_last_le {R : State S K A → State S K A → Prop}
    (hR : ∀ s s1, R s s1 → s1.cost_optimum ≤ s.cost_optimum) :
    ∀ (states : List (State S K A)) (st : State S K A), List.Chain R st states →
      ∀ s ∈ st :: states, (states.getLastD st).cost_optimum ≤ s.cost_optimum := by
  intro states
  induction states with
  | nil =>
    intro st _ s hs
    rw [List.mem_singleton.1 hs]
    exact le_refl _
  | cons st1 rest ih =>
    intro st hc s hs
    rw [List.chain_cons] at hc
    have hlast : (st1 :: rest).getLastD st = rest.getLastD st1 := by
      cases rest <;> rfl
    rw [hlast]
    rcases List.mem_cons.1 hs with rfl | hs
    · exact (ih st1 hc.2 st1 (List.mem_cons_self _ _)).trans (hR _ _ hc.1)
    · exact ih st1 hc.2 s hs

/-- C15: when `perform` returns, the states at the ends of its iterations form a chain along
which the best cost seen (`cost_optimum`) never increases; the cost returned is the best cost of
the last state, it is at most the cost computed for the initial solution and at most the cost
of the solution that is current at the end of any iteration, and it is the cost that `cost()`
computed for the solution returned. -/
theorem best_cost_is_non_increasing (ops : SolutionOps S K) (exp : K → K)
    (random_norm : A → K × A) (generator : A) (fuel : Nat) (init : S) (end_iterations : Nat)
    (initial_temp beta : K) (result : SolutionInfo S K)
    (h : perform ops exp random_norm generator fuel init end_iterations initial_temp beta =
      some result) :
    ∃ st0 states, start ops init initial_temp generator = some st0 ∧
      loop ops exp random_norm end_iterations beta fuel st0 = some states ∧
      ops.cost init = some (st0.cost_x, st0.x) ∧ st0.cost_optimum = st0.cost_x ∧
      List.Chain (fun s s1 => iteration ops exp random_norm beta s = some s1 ∧
        s1.cost_optimum ≤ s.cost_optimum) st0 states ∧
      result.cost = (states.getLastD st0).cost_optimum ∧
      result.solution = (states.getLastD st0).optimumSolution ∧
      result.cost ≤ st0.cost_x ∧ (∀ s ∈ states, result.cost ≤ s.cost_x) ∧
      Evaluated ops result.solution result.cost := by
  unfold perform at h
  cases hs : start ops init initial_temp generator with
  | none => rw [hs] at h; cases h
  | some st0 =>
    rw [hs] at h
    simp only at h
    cases hl : loop ops exp random_norm end_iterations beta fuel st0 with
    | none => rw [hl] at h; cases h
    | some states =>
      rw [hl] at h
      simp only [Option.some.injEq] at h
      subst h
      obtain ⟨hv0, hc0, -, ho0, -, -⟩ := start_valid ops init initial_temp generator st0 hs
      obtain ⟨hchain, hvalid⟩ := loop_chain ops exp random_norm end_iterations beta fuel st0
        states hv0 hl
      have hlast := chain_last_le (fun s s1 (hr : iteration ops exp random_norm beta s = some s1 ∧
        s1.cost_optimum ≤ s.cost_optimum) => hr.2) states st0 hchain
      have hfinal : (states.getLastD st0).Valid ops := by
        rcases List.mem_cons.1 (getLastD_mem states st0) with h | h
        · rw [h]; exact hv0
        · exact hvalid _ h
      refine ⟨st0, states, rfl, hl, hc0, ho0, hchain, rfl, rfl, ?_, fun s hs => ?_, hfinal.2.2.1⟩
      · exact (hlast st0 (List.mem_cons_self _ _)).trans (le_of_eq ho0)
      · exact (hlast s (List.mem_cons_of_mem _ hs)).trans (hvalid s hs).1

end Annealer

end ImageGraph


namespace ImageGraph

namespace Annealer

variable {S K A : Type} [LinearOrderedField K]

theorem best_cost_is_non_increasing_witness :
    ∃ result, perform (lineOps fun s => max (10 - (s : ℚ)) 7) rationalExp (constantNorm (1 / 2)) 0
        20 0 4 (1 / 2) (95 / 100) = some result ∧
      Evaluated (lineOps fun s => max (10 - (s : ℚ)) 7) result.solution result.cost := by
  have hsome : (perform (lineOps fun s => max (10 - (s : ℚ)) 7) rationalExp
      (constantNorm (1 / 2)) 0 20 0 4 (1 / 2) (95 / 100)).isSome = true := by decide!
  cases h : perform (lineOps fun s => max (10 - (s : ℚ)) 7) rationalExp (constantNorm (1 / 2)) 0
      20 0 4 (1 / 2) (95 / 100) with
  | none => rw [h] at hsome; cases hsome
  | some result =>
    obtain ⟨-, -, -, -, -, -, -, -, -, -, -, hev⟩ := best_cost_is_non_increasing _ _ _ _ _ _ _ _ _ _ h
    exact ⟨result, rfl, hev⟩

/-- C16: for a temperature `T > 0` (and an `exp` that is at least 1 on non-negative and at most
1 on non-positive arguments, as the exponential function is), `metropolis(cx, cy, T)` is
`min(1, exp(-(cy - cx) / T))`; and an iteration of `perform` whose neighbour has the cost `cy`
prints `accepted!` and goes on with the neighbour exactly when this value is at least the
number drawn, and otherwise prints `rejected!` and keeps the current solution. -/
theorem metropolis_is_min_one_exp (exp : K → K) (hpos : ∀ z, 0 ≤ z → 1 ≤ exp z)
    (hneg : ∀ z, z ≤ 0 → exp z ≤ 1) (cost_x cost_y temperature : K) (hT : 0 < temperature) :
    metropolis exp cost_x cost_y temperature =
      min 1 (exp (-(cost_y - cost_x) / temperature)) ∧
    ∀ (ops : SolutionOps S K) (random_norm : A → K × A) (beta : K) (st : State S K A)
      (y0 x1 y : S), st.cost_x = cost_x → st.t = temperature →
      ops.random_neighbour st.x = some (y0, x1) → ops.cost y0 = some (cost_y, y) →
      ∃ st1, iteration ops exp random_norm beta st = some st1 ∧
        st1.output = st.output ++ [⟨cost_y, decide
          (min 1 (exp (-(cost_y - cost_x) / temperature)) ≥
            (random_norm st.random_number_generator_).1)⟩] ∧
        (min 1 (exp (-(cost_y - cost_x) / temperature)) ≥
            (random_norm st.random_number_generator_).1 →
          st1.x = y ∧ st1.cost_x = cost_y) ∧
        (¬ min 1 (exp (-(cost_y - cost_x) / temperature)) ≥
            (random_norm st.random_number_generator_).1 →
          st1.x = x1 ∧ st1.cost_x = cost_x) := by
  have hm : metropolis exp cost_x cost_y temperature =
      min 1 (exp (-(cost_y - cost_x) / temperature)) := by
    unfold metropolis
    split_ifs with h
    · have : 0 ≤ -(cost_y - cost_x) / temperature :=
        div_nonneg (by linarith) (le_of_lt hT)
      rw [min_eq_left (hpos _ this)]
    · have : -(cost_y - cost_x) / temperature ≤ 0 :=
        div_nonpos_of_nonpos_of_nonneg (by linarith [not_le.1 h]) (le_of_lt hT)
      rw [min_eq_right (hneg _ this)]
  refine ⟨hm, fun ops random_norm beta st y0 x1 y hx ht hn hc => ?_⟩
  rw [iteration_eq ops exp random_norm beta st y0 x1 y cost_y hn hc, hx, ht, hm]
  refine ⟨_, rfl, ?_, ?_, ?_⟩
  · split_ifs <;> rfl
  · intro hacc
    split_ifs <;> simp [hacc]
  · intro hacc
    split_ifs <;> simp [hacc]

theorem metropolis_is_min_one_exp_witness :
    metropolis Real.exp 1 2 (1 / 2) = min 1 (Real.exp (-(2 - 1) / (1 / 2))) :=
  (metropolis_is_min_one_exp (S := Nat) (A := Nat) Real.exp (fun _ hz => Real.one_le_exp hz)
    (fun _ hz => Real.exp_le_one_iff.2 hz) 1 2 (1 / 2) (by norm_num)).1

end Annealer

end ImageGraph


namespace ImageGraph

namespace Annealer

variable {S K A : Type} [LinearOrderedField K]

/-- An iteration whose neighbour does not cost less than the best cost seen, which the current
cost does not undercut either, keeps the best cost and counts one more kept optimum. -/
theorem iteration_without_improvement (ops : SolutionOps S K) (exp : K → K)
    (random_norm : A → K × A) (beta : K) (st : State S K A) (c0 : K)
    (hn : ∀ s, (ops.random_neighbour s).isSome = true)
    (hc : ∀ y, ∃ c y1, ops.cost y = some (c, y1) ∧ c0 ≤ c)
    (hopt : st.cost_optimum = c0) (hx : c0 ≤ st.cost_x) :
    ∃ st1, iteration ops exp random_norm beta st = some st1 ∧ st1.cost_optimum = c0 ∧
      c0 ≤ st1.cost_x ∧ st1.optimum_kept_counter = st.optimum_kept_counter + 1 ∧
      st1.output.length = st.output.length + 1 := by
  have h1 := hn st.x
  cases hnb : ops.random_neighbour st.x with
  | none => rw [hnb] at h1; cases h1
  | some p =>
    obtain ⟨cost_y, y, hcost, hle⟩ := hc p.1
    rw [iteration_eq ops exp random_norm beta st p.1 p.2 y cost_y hnb hcost]
    have hnot : ¬ st.cost_optimum >
        (if metropolis exp st.cost_x cost_y st.t ≥ (random_norm st.random_number_generator_).1
          then cost_y else st.cost_x) := by
      rw [hopt]
      split_ifs
      · exact not_lt.2 hle
      · exact not_lt.2 hx
    rw [if_neg hnot]
    refine ⟨_, rfl, hopt, ?_, rfl, by simp⟩
    simp only
    split_ifs
    · exact hle
    · exact hx

/-- Without an improvement the loop performs exactly as many iterations as the counter lacks to
exceed `end_iterations`. -/
theorem loop_without_improvement (ops : SolutionOps S K) (exp : K → K)
    (random_norm : A → K × A) (end_iterations : Nat) (beta : K) (c0 : K)
    (hn : ∀ s, (ops.random_neighbour s).isSome = true)
    (hc : ∀ y, ∃ c y1, ops.cost y = some (c, y1) ∧ c0 ≤ c) :
    ∀ (n fuel : Nat) (st : State S K A), st.cost_optimum = c0 → c0 ≤ st.cost_x →
      st.optimum_kept_counter + n = end_iterations + 1 →
      (fuel < n → loop ops exp random_norm end_iterations beta fuel st = none) ∧
      (n ≤ fuel → ∃ states, loop ops exp random_norm end_iterations beta fuel st = some states ∧
        states.length = n ∧
        (states.getLastD st).output.length = st.output.length + n ∧
        (states.getLastD st).optimum_kept_counter = end_iterations + 1) := by
  intro n
  induction n with
  | zero =>
    intro fuel st _ _ hcount
    refine ⟨fun h => by omega, fun _ => ⟨[], ?_, rfl, rfl, by simpa using hcount⟩⟩
    cases fuel <;> simp only [loop] <;> rw [if_neg (by omega)]
  | succ n ih =>
    intro fuel st hopt hx hcount
    obtain ⟨st1, hi, h1, h2, h3, h4⟩ :=
      iteration_without_improvement ops exp random_norm beta st c0 hn hc hopt hx
    obtain ⟨ih1, ih2⟩ := ih (fuel - 1) st1 h1 h2 (by omega)
    cases fuel with
    | zero =>
      refine ⟨fun _ => ?_, fun h => by omega⟩
      simp only [loop]
      rw [if_pos (by omega)]
    | succ fuel =>
      simp only [loop]
      rw [if_pos (by omega), hi]
      simp only [Nat.add_sub_cancel] at ih1 ih2 ⊢
      constructor
      · intro h
        rw [ih1 (by omega)]
        rfl
      · intro h
        obtain ⟨states, e1, e2, e3, e4⟩ := ih2 (by omega)
        rw [e1]
        refine ⟨st1 :: states, rfl, by simp [e2], ?_, ?_⟩
        · have : (st1 :: states).getLastD st = states.getLastD st1 := by cases states <;> rfl
          rw [this, e3, h4]
          omega
        · have : (st1 :: states).getLastD st = states.getLastD st1 := by cases states <;> rfl
          rw [this, e4]

/-- The counter after an iteration: 0 when the iteration lowered the best cost seen, and one
more than before otherwise. -/
theorem iteration_counter (ops : SolutionOps S K) (exp : K → K) (random_norm : A → K × A)
    (beta : K) (st st1 : State S K A) (h : iteration ops exp random_norm beta st = some st1) :
    st1.optimum_kept_counter =
      if st.cost_optimum > st1.cost_x then 0 else st.optimum_kept_counter + 1 := by
  obtain ⟨y0, x1, y, cost_y, hn, hc⟩ := iteration_some ops exp random_norm beta st st1 h
  rw [iteration_eq ops exp random_norm beta st y0 x1 y cost_y hn hc] at h
  simp only [Option.some.injEq] at h
  by_cases hacc : metropolis exp st.cost_x cost_y st.t ≥ (random_norm st.random_number_generator_).1
  · simp only [hacc, if_true] at h
    by_cases himp : st.cost_optimum > cost_y
    · rw [if_pos himp] at h
      subst h
      simp only
      rw [if_pos himp]
    · rw [if_neg himp] at h
      subst h
      simp only
      rw [if_neg himp]
  · simp only [hacc, if_false] at h
    by_cases himp : st.cost_optimum > st.cost_x
    · rw [if_pos himp] at h
      subst h
      simp only
      rw [if_pos himp]
    · rw [if_neg himp] at h
      subst h
      simp only
      rw [if_neg himp]

/-- The loop ends with the first state whose counter exceeds `end_iterations`, and this
counter is `end_iterations + 1`. -/
theorem loop_exit_counter (ops : SolutionOps S K) (exp : K → K) (random_norm : A → K × A)
    (end_iterations : Nat) (beta : K) :
    ∀ (fuel : Nat) (st : State S K A) (states : List (State S K A)),
      loop ops exp random_norm end_iterations beta fuel st = some states →
      (st.optimum_kept_counter ≤ end_iterations →
        states ≠ [] ∧ (states.getLastD st).optimum_kept_counter = end_iterations + 1) ∧
      (∀ s ∈ states.dropLast, s.optimum_kept_counter ≤ end_iterations) ∧
      List.Chain (fun s s1 => s1.optimum_kept_counter =
        if s.cost_optimum > s1.cost_x then 0 else s.optimum_kept_counter + 1) st states := by
  intro fuel
  induction fuel with
  | zero =>
    intro st states h
    rcases loop_cases ops exp random_norm end_iterations beta 0 st states h with
      ⟨h1, rfl⟩ | ⟨-, fuel1, -, -, hf, -⟩
    · exact ⟨fun h2 => by omega, fun s hs => (by cases hs), List.Chain.nil⟩
    · omega
  | succ fuel ih =>
    intro st states h
    rcases loop_cases ops exp random_norm end_iterations beta (fuel + 1) st states h with
      ⟨h1, rfl⟩ | ⟨h1, fuel1, st1, rest, hf, hi, hl, rfl⟩
    · exact ⟨fun h2 => by omega, fun s hs => (by cases hs), List.Chain.nil⟩
    · have hf' : fuel1 = fuel := by omega
      subst hf'
      obtain ⟨a, b, c⟩ := ih st1 rest hl
      have hcount := iteration_counter ops exp random_norm beta st st1 hi
      have hlast : (st1 :: rest).getLastD st = rest.getLastD st1 := by cases rest <;> rfl
      refine ⟨fun _ => ⟨by simp, ?_⟩, ?_, List.Chain.cons hcount c⟩
      · rw [hlast]
        by_cases h2 : st1.optimum_kept_counter ≤ end_iterations
        · exact (a h2).2
        · rcases loop_cases ops exp random_norm end_iterations beta fuel1 st1 rest hl with
            ⟨-, rfl⟩ | ⟨h3, -⟩
          · simp only [List.getLastD_nil]
            split_ifs at hcount <;> omega
          · omega
      · intro s hs
        cases rest with
        | nil => simp at hs
        | cons r rest' =>
          rw [List.dropLast_cons₂] at hs
          rcases List.mem_cons.1 hs with rfl | hs
          · rcases loop_cases ops exp random_norm end_iterations beta fuel1 s (r :: rest') hl with
              ⟨-, h4⟩ | ⟨h3, -⟩
            · cases h4
            · exact h3
          · exact b s hs

/-- C17, as the code has it: `perform` leaves its loop when `end_iterations + 1` consecutive
iterations have not lowered the best cost seen, one more than the claim states.  The counter
of a state is 0 after an iteration that lowered the best cost and one more than before after
any other, the loop goes on while the counter is at most `end_iterations`, and so it ends with
a counter of `end_iterations + 1`.  In a run in which no neighbour costs less than the initial
solution the loop performs exactly `end_iterations + 1` iterations (each of which evaluates
one neighbour and prints one line): with less fuel it has not ended, with more it ends after
`end_iterations + 1` iterations. -/
theorem loop_ends_after_one_more_iteration (ops : SolutionOps S K) (exp : K → K)
    (random_norm : A → K × A) (generator : A) (init : S) (end_iterations : Nat)
    (initial_temp beta : K) (st : State S K A)
    (hstart : start ops init initial_temp generator = some st) :
    (∀ fuel states, loop ops exp random_norm end_iterations beta fuel st = some states →
      states ≠ [] ∧ (states.getLastD st).optimum_kept_counter = end_iterations + 1 ∧
      (∀ s ∈ states.dropLast, s.optimum_kept_counter ≤ end_iterations) ∧
      List.Chain (fun s s1 => s1.optimum_kept_counter =
        if s.cost_optimum > s1.cost_x then 0 else s.optimum_kept_counter + 1) st states) ∧
    ((∀ s, (ops.random_neighbour s).isSome = true) →
      (∀ y, ∃ c y1, ops.cost y = some (c, y1) ∧ st.cost_x ≤ c) →
      ∀ fuel,
        (fuel ≤ end_iterations → loop ops exp random_norm end_iterations beta fuel st = none) ∧
        (end_iterations + 1 ≤ fuel →
          ∃ states, loop ops exp random_norm end_iterations beta fuel st = some states ∧
            states.length = end_iterations + 1 ∧
            (states.getLastD st).output.length = end_iterations + 1 ∧
            (states.getLastD st).optimum_kept_counter = end_iterations + 1)) := by
  obtain ⟨-, -, h0, ho, -, hout⟩ := start_valid ops init initial_temp generator st hstart
  constructor
  · intro fuel states hl
    obtain ⟨a, b, c⟩ := loop_exit_counter ops exp random_norm end_iterations beta fuel st states hl
    exact ⟨(a (by omega)).1, (a (by omega)).2, b, c⟩
  · intro hn hc fuel
    obtain ⟨a, b⟩ := loop_without_improvement ops exp random_norm end_iterations beta st.cost_x
      hn hc (end_iterations + 1) fuel st ho (le_refl _) (by omega)
    refine ⟨fun h => a (by omega), fun h => ?_⟩
    obtain ⟨states, e1, e2, e3, e4⟩ := b h
    exact ⟨states, e1, e2, by rw [e3, hout]; simp, e4⟩

theorem loop_ends_after_one_more_iteration_witness :
    ∃ st states, start (lineOps fun _ => 1) 0 (1 / 2 : ℚ) 0 = some st ∧
      loop (lineOps fun _ => 1) rationalExp (constantNorm (1 / 2)) 4 (95 / 100) 10 st =
        some states ∧
      states.length = 4 + 1 ∧ (states.getLastD st).output.length = 4 + 1 := by
  obtain ⟨states, e1, e2, e3, -⟩ := ((loop_ends_after_one_more_iteration (lineOps fun _ => 1)
    rationalExp (constantNorm (1 / 2)) 0 0 4 (1 / 2 : ℚ) (95 / 100)
    ⟨0, 1, none, 1, 1 / 2, 0, 0, []⟩ rfl).2 (fun _ => rfl)
    (fun y => ⟨1, y, rfl, le_refl _⟩) 10).2 (by decide)
  exact ⟨_, states, rfl, e1, e2, e3⟩

end Annealer

end ImageGraph


namespace ImageGraph

/-! ## `generateAdaptor` and `NodeGraph::optimizeMemoryDistribution` -/

/-- The live sink tasks and the tasks of the chooser belong to the sinks `seen`. -/
theorem addSinkTask_ok (g : ProtoGraph) (a : ProtoGraphAdaptor) (sink : Nat) (seen : List Nat)
    (h1 : ∀ e ∈ a.sink_tasks_, e.1 ∈ seen) (h2 : ∀ i ∈ a.chooser_.info_, i.task_ ∈ seen)
    (hnew : sink ∉ seen) :
    ∃ r, a.addSinkTask g sink = some r ∧ (∀ e ∈ r.2.sink_tasks_, e.1 ∈ sink :: seen) ∧
      (∀ i ∈ r.2.chooser_.info_, i.task_ ∈ sink :: seen) := by
  have hrem : a.remaining sink = none := by
    unfold ProtoGraphAdaptor.remaining
    rw [Option.map_eq_none', List.find?_eq_none]
    intro e he
    simp only [decide_eq_true_eq]
    intro h
    exact hnew (h ▸ h1 e he)
  have hcont : a.chooser_.contains sink = false := by
    unfold RelevanceChoiceGenerator.contains
    rw [List.any_eq_false]
    intro i hi
    simp only [decide_eq_true_eq]
    intro h
    exact hnew (h ▸ h2 i hi)
  have hsub : ∀ e ∈ a.sink_tasks_ ++ [(sink, g.sinkRequired sink)], e.1 ∈ sink :: seen := by
    intro e he
    rcases List.mem_append.1 he with he | he
    · exact List.mem_cons_of_mem _ (h1 e he)
    · rw [List.mem_singleton.1 he]; exact List.mem_cons_self _ _
  unfold ProtoGraphAdaptor.addSinkTask
  rw [hrem]
  simp only
  cases hdata : a.sink_data_ sink with
  | none =>
    simp only
    split_ifs with hempty
    · simp only [ProtoGraphAdaptor.sinkPerformable, ProtoGraphAdaptor.setSinkData, hcont,
        Bool.false_eq_true, if_false, if_true]
      refine ⟨_, rfl, ?_, ?_⟩
      · intro e he
        exact hsub e (List.mem_of_mem_eraseP he)
      · intro i hi
        exact List.mem_cons_of_mem _ (h2 i hi)
    · refine ⟨_, rfl, ?_, ?_⟩
      · intro e he
        exact hsub e he
      · intro i hi
        simp only [RelevanceChoiceGenerator.addSinkTask, ProtoGraphAdaptor.setSinkData,
          Bool.false_eq_true, if_false] at hi
        rcases List.mem_append.1 hi with hi | hi
        · exact List.mem_cons_of_mem _ (h2 i hi)
        · rw [List.mem_singleton.1 hi]; exact List.mem_cons_self _ _
  | some datum =>
    simp only
    split_ifs with hempty
    · simp only [ProtoGraphAdaptor.sinkPerformable, ProtoGraphAdaptor.setSinkData, hcont,
        Bool.false_eq_true, if_false, hdata]
      refine ⟨_, rfl, ?_, ?_⟩
      · intro e he
        exact hsub e (List.mem_of_mem_eraseP he)
      · intro i hi
        exact List.mem_cons_of_mem _ (h2 i hi)
    · refine ⟨_, rfl, ?_, ?_⟩
      · intro e he
        exact hsub e he
      · intro i hi
        simp only [RelevanceChoiceGenerator.addSinkTask, Bool.false_eq_true, if_false] at hi
        rcases List.mem_append.1 hi with hi | hi
        · exact List.mem_cons_of_mem _ (h2 i hi)
        · rw [List.mem_singleton.1 hi]; exact List.mem_cons_self _ _

theorem addSinkTasks_ok (g : NodeData) :
    ∀ (sink_nodes : List Nat) (a : ProtoGraphAdaptor) (seen : List Nat),
      (∀ e ∈ a.sink_tasks_, e.1 ∈ seen) → (∀ i ∈ a.chooser_.info_, i.task_ ∈ seen) →
      sink_nodes.Nodup → (∀ sink ∈ sink_nodes, sink ∉ seen) →
      (MemoryDistribution.addSinkTasks g a sink_nodes).isSome = true := by
  intro sink_nodes
  induction sink_nodes with
  | nil => intro a seen _ _ _ _; rfl
  | cons sink rest ih =>
    intro a seen h1 h2 hnd hnew
    obtain ⟨r, hr, r1, r2⟩ := addSinkTask_ok g.toProtoGraph a sink seen h1 h2
      (hnew sink (List.mem_cons_self _ _))
    simp only [MemoryDistribution.addSinkTasks, hr]
    refine ih r.2 (sink :: seen) r1 r2 (List.nodup_cons.1 hnd).2 fun s hs => ?_
    intro hmem
    rcases List.mem_cons.1 hmem with h | h
    · exact (List.nodup_cons.1 hnd).1 (h ▸ hs)
    · exact hnew s (List.mem_cons_of_mem _ hs) h

theorem addCacheNodes_ok (g : NodeData) :
    ∀ (cache_nodes : List NodeInformation) (a : ProtoGraphAdaptor),
      (∀ info ∈ cache_nodes, (g.cacheSizeFromBytes info.node info.byte_num).isSome = true) →
      (MemoryDistribution.addCacheNodes g a cache_nodes).isSome = true := by
  intro cache_nodes
  induction cache_nodes with
  | nil => intro a _; rfl
  | cons info rest ih =>
    intro a h
    have h0 := h info (List.mem_cons_self _ _)
    simp only [MemoryDistribution.addCacheNodes]
    cases hc : g.cacheSizeFromBytes info.node info.byte_num with
    | none => rw [hc] at h0; cases h0
    | some capacity => exact ih _ fun i hi => h i (List.mem_cons_of_mem _ hi)

/-- `generateAdaptor` returns for sinks that are distinct and byte numbers that
`cacheSizeFromBytes` accepts. -/
theorem generateAdaptor_ok (g : NodeData) (sink_nodes : List Nat)
    (cache_nodes : List NodeInformation) (non_cache_nodes : List Nat) (hnd : sink_nodes.Nodup)
    (hsize : ∀ info ∈ cache_nodes,
      (g.cacheSizeFromBytes info.node info.byte_num).isSome = true) :
    (MemoryDistribution.generateAdaptor g sink_nodes cache_nodes non_cache_nodes).isSome =
      true := by
  have h1 := addSinkTasks_ok g sink_nodes ProtoGraphAdaptor.new []
    (fun e he => by cases he) (fun i hi => by cases hi) hnd (fun _ _ h => by cases h)
  unfold MemoryDistribution.generateAdaptor
  cases ha : MemoryDistribution.addSinkTasks g ProtoGraphAdaptor.new sink_nodes with
  | none => rw [ha] at h1; cases h1
  | some a =>
    simp only
    have h2 := addCacheNodes_ok g cache_nodes a hsize
    cases hb : MemoryDistribution.addCacheNodes g a cache_nodes with
    | none => rw [hb] at h2; cases h2
    | some a1 => rfl

end ImageGraph


namespace ImageGraph

/-- After a proportional share no cache node holds more than its full size. -/
theorem shared_le_max (g : NodeData) (kind : Bool) (remaining0 bytes0 : Nat)
    {l l' : List NodeInformation}
    (h : List.Forall₂ (NodeInformation.Shared g kind remaining0 bytes0) l l')
    (hfresh : ∀ info ∈ l, info.Fresh g) :
    ∀ info ∈ l', info.byte_num ≤ g.fullByteNumber info.node := by
  intro info hi
  obtain ⟨a, ha, hb, hc, hd⟩ := forall2_mem_right h info hi
  obtain ⟨f1, f2, -⟩ := hfresh a ha
  have hnode : info.node = a.node := by rw [hb]
  rw [hnode, ← f2]
  by_cases hk : g.isCacheImportant a.node = kind
  · exact (hd hk).2
  · have hk' : g.isCacheImportant a.node = !kind := by
      revert hk
      cases g.isCacheImportant a.node <;> cases kind <;> decide
    rw [hc hk']
    cases kind
    · exact le_refl _
    · simp only [if_true]; omega

/-- No cache node of `generate_members` holds more than its full byte number, when the cache
nodes have a positive full byte number. -/
theorem generate_members_le_max (g : NodeData) (fuel memory_limit : Nat)
    (out_nodes sink_nodes : List Nat) (t : ArgumentTuple)
    (hpos : ∀ node ∈ out_nodes, g.isCache node = true → 0 < g.fullByteNumber node)
    (h : generate_members g fuel memory_limit out_nodes sink_nodes = some t) :
    ∀ info ∈ t.cache_nodes, info.byte_num ≤ g.fullByteNumber info.node := by
  obtain ⟨m, -, hs, -, -, -, -, a1, a2, a3, a4, -, -, a7, a8, a9⟩ :=
    generate_members_some g fuel memory_limit out_nodes sink_nodes t h
  have hfresh : ∀ info ∈ m.cache_nodes, info.Fresh g := fun info hi => (a7 info hi).1
  have hmax : ∀ info ∈ m.cache_nodes, 0 < info.max_byte_num := by
    intro info hi
    obtain ⟨⟨-, h2, h3⟩, h4⟩ := a7 info hi
    rw [h2]
    exact hpos _ h4 (by simpa [NodeData.isCache] using h3)
  by_cases he : m.amount = MemoryAmount.ENOUGH_FOR_ALL
  · unfold Members.assign at hs
    rw [if_pos he] at hs
    simp only [Option.some.injEq] at hs
    rw [← hs]
    intro info hi
    obtain ⟨a, ha, rfl⟩ := List.mem_map.1 hi
    simp only
    rw [(hfresh a ha).2.1]
  · by_cases hle : m.important_bytes ≤ m.memory_limit
    · have hrem : m.memory_limit - m.important_bytes ≤ m.unimportant_bytes := by
        have hc := amount_cases m
        cases hen : m.enough_bytes with
        | true =>
          have := (not_congr hc.2.1).1 he
          rw [hen] at this
          simp only [true_and, not_le] at this
          omega
        | false =>
          have := (not_congr a4).1 (by rw [hen]; simp)
          omega
      obtain ⟨l', h1, h2, -⟩ := assign_unimportant g m (a9.trans a2.symm) he hle hrem
        fun info hi _ => hmax info hi
      rw [hs] at h1
      cases h1
      exact shared_le_max g false _ _ h2 hfresh
    · obtain ⟨l', h1, h2, -⟩ := assign_important g m (a8.trans a1.symm) he (by omega)
        (fun info hi => (hfresh info hi).1) fun info hi _ => hmax info hi
      rw [hs] at h1
      cases h1
      exact shared_le_max g true _ _ h2 hfresh

end ImageGraph


namespace ImageGraph

theorem shareUnimportant_length (g : NodeData) :
    ∀ (l l' : List NodeInformation) (bytes remaining : Nat),
      shareUnimportant g l bytes remaining = some l' → l'.length = l.length := by
  intro l
  induction l with
  | nil =>
    intro l' bytes remaining h
    simp only [shareUnimportant, Option.some.injEq] at h
    rw [← h]
  | cons a l ih =>
    intro l' bytes remaining h
    simp only [shareUnimportant] at h
    split_ifs at h with h1 h2 h3
    · cases hr : shareUnimportant g l bytes remaining with
      | none => rw [hr] at h; cases h
      | some r =>
        rw [hr] at h
        simp only [Option.map_some', Option.some.injEq] at h
        rw [← h, List.length_cons, List.length_cons, ih r _ _ hr]
    · cases hr : shareUnimportant g l (bytes - a.max_byte_num)
          (remaining - ⌊(a.max_byte_num : ℚ) / (bytes : ℚ) * (remaining : ℚ)⌋₊) with
      | none => rw [hr] at h; cases h
      | some r =>
        rw [hr] at h
        simp only [Option.map_some', Option.some.injEq] at h
        rw [← h, List.length_cons, List.length_cons, ih r _ _ hr]

theorem shareImportant_length (g : NodeData) :
    ∀ (l l' : List NodeInformation) (bytes remaining : Nat),
      shareImportant g l bytes remaining = some l' → l'.length = l.length := by
  intro l
  induction l with
  | nil =>
    intro l' bytes remaining h
    simp only [shareImportant, Option.some.injEq] at h
    rw [← h]
  | cons a l ih =>
    intro l' bytes remaining h
    simp only [shareImportant] at h
    split_ifs at h with h1 h2 h3
    · cases hr : shareImportant g l (bytes - a.max_byte_num)
          (remaining - ⌊(a.max_byte_num : ℚ) / (bytes : ℚ) * (remaining : ℚ)⌋₊) with
      | none => rw [hr] at h; cases h
      | some r =>
        rw [hr] at h
        simp only [Option.map_some', Option.some.injEq] at h
        rw [← h, List.length_cons, List.length_cons, ih r _ _ hr]
    · cases hr : shareImportant g l bytes remaining with
      | none => rw [hr] at h; cases h
      | some r =>
        rw [hr] at h
        simp only [Option.map_some', Option.some.injEq] at h
        rw [← h, List.length_cons, List.length_cons, ih r _ _ hr]

/-- `generate_members` creates one cache node for each `ANY_MEMORY` node. -/
theorem generate_members_length (g : NodeData) (fuel memory_limit : Nat)
    (out_nodes sink_nodes : List Nat) (t : ArgumentTuple)
    (h : generate_members g fuel memory_limit out_nodes sink_nodes = some t) :
    t.cache_nodes.length = (out_nodes.filter g.isCache).length := by
  obtain ⟨m, -, hs, -, -, -, -, -, -, -, -, -, a6, -⟩ :=
    generate_members_some g fuel memory_limit out_nodes sink_nodes t h
  have hlen : m.cache_nodes.length = (out_nodes.filter g.isCache).length := by
    rw [← a6, List.length_map]
  rw [← hlen]
  unfold Members.assign at hs
  split_ifs at hs
  · simp only [Option.some.injEq] at hs
    rw [← hs, List.length_map]
  · exact shareUnimportant_length g _ _ _ _ hs
  · exact shareImportant_length g _ _ _ _ hs
  · simp only [Option.some.injEq] at hs
    rw [← hs]

/-- What the constructor of `MemoryDistribution` keeps of `generate_members`. -/
theorem new_some {G : Type} (g : NodeData) (rs : RandomSource G) (fuel memory_limit : Nat)
    (out_nodes sink_nodes : List Nat) (d : MemoryDistribution G)
    (h : MemoryDistribution.new g rs fuel memory_limit out_nodes sink_nodes = some d) :
    ∃ t, generate_members g fuel memory_limit out_nodes sink_nodes = some t ∧
      d.memory_limit_ = t.memory_limit ∧ d.sink_nodes_ = t.sink_nodes ∧
      d.cache_nodes_ = t.cache_nodes ∧ d.non_cache_nodes_ = t.non_cache_nodes ∧
      d.memory_amount_ = t.memory_amount := by
  unfold MemoryDistribution.new at h
  cases ht : generate_members g fuel memory_limit out_nodes sink_nodes with
  | none => rw [ht] at h; cases h
  | some t =>
    rw [ht] at h
    simp only [MemoryDistribution.ofMembers] at h
    cases ha : MemoryDistribution.generateAdaptor g t.sink_nodes t.cache_nodes
        t.non_cache_nodes with
    | none => rw [ha] at h; cases h
    | some a =>
      rw [ha] at h
      simp only [Option.some.injEq] at h
      subst h
      exact ⟨t, rfl, rfl, rfl, rfl, rfl, rfl⟩

/-- C19: for a graph with fewer than two `ANY_MEMORY` nodes (an empty graph too) and every
memory limit, `optimizeMemoryDistribution` returns what the constructor of `MemoryDistribution`
returns, whatever the setting of the annealer is (so no annealing step is performed): the
memory limit, byte numbers and classification of the distribution returned are those of
`generate_members`.  It returns whenever the change probabilities are probabilities, the nodes
are numbered after their inputs and below the fuel, the `ANY_MEMORY` nodes have a positive full
byte number, the sinks are distinct, and `cacheSizeFromBytes` accepts the byte numbers up to
the full byte number. -/
theorem degenerate_graph_is_not_annealed {G A : Type} (graph : NodeGraph)
    (e : AnnealerSetting G A) (memory_limit : Nat)
    (hfew : (graph.out_nodes_.filter graph.nodes.isCache).length < 2) :
    graph.optimizeMemoryDistribution e memory_limit =
      MemoryDistribution.new graph.nodes e.source e.fuel memory_limit graph.out_nodes_
        graph.sink_nodes_ ∧
    (∀ d, graph.optimizeMemoryDistribution e memory_limit = some d →
      ∃ t, generate_members graph.nodes e.fuel memory_limit graph.out_nodes_
          graph.sink_nodes_ = some t ∧
        d.memory_limit_ = t.memory_limit ∧ d.sink_nodes_ = t.sink_nodes ∧
        d.cache_nodes_ = t.cache_nodes ∧ d.non_cache_nodes_ = t.non_cache_nodes ∧
        d.memory_amount_ = t.memory_amount) ∧
    (graph.nodes.InputsLayered → graph.nodes.ValidProbabilities →
      (∀ node ∈ graph.out_nodes_, node < e.fuel) →
      (∀ node ∈ graph.out_nodes_, graph.nodes.isCache node = true →
        0 < graph.nodes.fullByteNumber node) →
      graph.sink_nodes_.Nodup →
      (∀ node byte_num, byte_num ≤ graph.nodes.fullByteNumber node →
        (graph.nodes.cacheSizeFromBytes node byte_num).isSome = true) →
      (graph.optimizeMemoryDistribution e memory_limit).isSome = true) := by
  have heq : graph.optimizeMemoryDistribution e memory_limit =
      MemoryDistribution.new graph.nodes e.source e.fuel memory_limit graph.out_nodes_
        graph.sink_nodes_ := by
    unfold NodeGraph.optimizeMemoryDistribution
    cases hd : MemoryDistribution.new graph.nodes e.source e.fuel memory_limit
        graph.out_nodes_ graph.sink_nodes_ with
    | none => rfl
    | some d =>
      obtain ⟨t, ht, -, -, hc, -, -⟩ := new_some _ _ _ _ _ _ d hd
      have hlen : d.cache_nodes_.length ≤ 1 := by
        rw [hc, generate_members_length _ _ _ _ _ t ht]
        omega
      simp only
      cases d.memory_amount_ with
      | ENOUGH_FOR_ALL => rfl
      | SUFFICIENT =>
        simp only
        split_ifs <;> rfl
      | TOO_LITTLE => rfl
  refine ⟨heq, fun d hd => new_some _ _ _ _ _ _ d (heq ▸ hd), ?_⟩
  intro hg hp hfuel hpos hnd hsize
  rw [heq]
  have hgm := generate_members_ok graph.nodes e.fuel memory_limit graph.out_nodes_
    graph.sink_nodes_ hg hp hfuel hpos
  unfold MemoryDistribution.new
  cases ht : generate_members graph.nodes e.fuel memory_limit graph.out_nodes_
      graph.sink_nodes_ with
  | none => rw [ht] at hgm; cases hgm
  | some t =>
    simp only [MemoryDistribution.ofMembers]
    have hsink : t.sink_nodes = graph.sink_nodes_ := by
      obtain ⟨m, -, -, -, h4, -⟩ := generate_members_some _ _ _ _ _ t ht
      exact h4
    have ha := generateAdaptor_ok graph.nodes t.sink_nodes t.cache_nodes t.non_cache_nodes
      (hsink ▸ hnd) fun info hi =>
        hsize _ _ (generate_members_le_max _ _ _ _ _ t hpos ht info hi)
    cases hadaptor : MemoryDistribution.generateAdaptor graph.nodes t.sink_nodes t.cache_nodes
        t.non_cache_nodes with
    | none => rw [hadaptor] at ha; cases ha
    | some a => rfl

theorem degenerate_graph_is_not_annealed_witness :
    ∃ d, (⟨memoryExample, [0, 1], [5]⟩ : NodeGraph).optimizeMemoryDistribution exampleSetting
        150 = some d ∧
      d.cache_nodes_ = [⟨1, 50, 100, 1 / 4, 7 / 16⟩] ∧
      d.memory_amount_ = MemoryAmount.SUFFICIENT ∧ d.memory_limit_ = 50 := by
  have h := degenerate_graph_is_not_annealed ⟨memoryExample, [0, 1], [5]⟩ exampleSetting 150
    (by decide)
  have hsome := h.2.2
    (by intro node input h; simp only [memoryExample] at h; split_ifs at h with h0
        · cases h
        · rw [List.mem_singleton.1 h]; omega)
    (fun _ => by simp only [memoryExample]; norm_num) (by decide) (by decide) (by decide)
    (fun _ _ _ => rfl)
  have ht : generate_members memoryExample 4 150 [0, 1] [5] =
      some ⟨50, [5], [⟨1, 50, 100, 1 / 4, 7 / 16⟩], [0], MemoryAmount.SUFFICIENT⟩ := by
    decide!
  cases hd : (⟨memoryExample, [0, 1], [5]⟩ : NodeGraph).optimizeMemoryDistribution
      exampleSetting 150 with
  | none => rw [hd] at hsome; cases hsome
  | some d =>
    obtain ⟨t, h1, h2, -, h4, -, h6⟩ := h.2.1 d hd
    have e : t = ⟨50, [5], [⟨1, 50, 100, 1 / 4, 7 / 16⟩], [0], MemoryAmount.SUFFICIENT⟩ := by
      have := h1.symm.trans ht
      exact Option.some.inj this
    rw [e] at h2 h4 h6
    exact ⟨d, rfl, h4, h6, h2⟩

end ImageGraph


namespace ImageGraph

/-! ## The rectangle algebra -/

theorem clamp_eq_max_min (v lo hi : Nat) (h : lo ≤ hi) : clamp v lo hi = max lo (min v hi) := by
  unfold clamp
  split_ifs <;> omega

theorem clip_fields (a b : Rectangle) :
    (a.clip b).left = max b.left (min a.left (b.left + b.width)) ∧
    (a.clip b).top = max b.top (min a.top (b.top + b.height)) ∧
    (a.clip b).width =
      max b.left (min (max b.left (min a.left (b.left + b.width)) + a.width)
        (b.left + b.width)) - max b.left (min a.left (b.left + b.width)) ∧
    (a.clip b).height =
      max b.top (min (max b.top (min a.top (b.top + b.height)) + a.height)
        (b.top + b.height)) - max b.top (min a.top (b.top + b.height)) := by
  refine ⟨?_, ?_, ?_, ?_⟩ <;>
    simp only [Rectangle.clip, clamp_eq_max_min _ _ _ (Nat.le_add_right _ _)]

theorem clip_edges (a b : Rectangle) :
    (a.clip b).left = max b.left (min a.left (b.left + b.width)) ∧
    (a.clip b).top = max b.top (min a.top (b.top + b.height)) ∧
    (a.clip b).width =
      max b.left (min ((a.clip b).left + a.width) (b.left + b.width)) - (a.clip b).left ∧
    (a.clip b).height =
      max b.top (min ((a.clip b).top + a.height) (b.top + b.height)) - (a.clip b).top := by
  obtain ⟨p1, p2, p3, p4⟩ := clip_fields a b
  rw [p3, p4, p1, p2]
  exact ⟨rfl, rfl, rfl, rfl⟩

theorem clipDimensions_fields (a : Rectangle) (d : RectangleDimensions) :
    (a.clipDimensions d).left = min a.left d.width ∧
    (a.clipDimensions d).top = min a.top d.height ∧
    (a.clipDimensions d).width = min (a.left + a.width) d.width - min a.left d.width ∧
    (a.clipDimensions d).height = min (a.top + a.height) d.height - min a.top d.height := by
  unfold Rectangle.clipDimensions
  by_cases h1 : a.left > d.width
  · by_cases h2 : a.top > d.height
    · simp only [h1, h2, if_true]
      refine ⟨?_, ?_, ?_, ?_⟩ <;> omega
    · by_cases h3 : a.top + a.height > d.height
      · simp only [h1, h2, h3, if_true, if_false]
        refine ⟨?_, ?_, ?_, ?_⟩ <;> omega
      · simp only [h1, h2, h3, if_true, if_false]
        refine ⟨?_, ?_, ?_, ?_⟩ <;> omega
  · by_cases h1b : a.left + a.width > d.width
    · by_cases h2 : a.top > d.height
      · simp only [h1, h1b, h2, if_true, if_false]
        refine ⟨?_, ?_, ?_, ?_⟩ <;> omega
      · by_cases h3 : a.top + a.height > d.height
        · simp only [h1, h1b, h2, h3, if_true, if_false]
          refine ⟨?_, ?_, ?_, ?_⟩ <;> omega
        · simp only [h1, h1b, h2, h3, if_true, if_false]
          refine ⟨?_, ?_, ?_, ?_⟩ <;> omega
    · by_cases h2 : a.top > d.height
      · simp only [h1, h1b, h2, if_true, if_false]
        refine ⟨?_, ?_, ?_, ?_⟩ <;> omega
      · by_cases h3 : a.top + a.height > d.height
        · simp only [h1, h1b, h2, h3, if_true, if_false]
          refine ⟨?_, ?_, ?_, ?_⟩ <;> omega
        · simp only [h1, h1b, h2, h3, if_true, if_false]
          refine ⟨?_, ?_, ?_, ?_⟩ <;> omega

theorem rectangle_eq (a b : Rectangle) (h1 : a.left = b.left) (h2 : a.top = b.top)
    (h3 : a.width = b.width) (h4 : a.height = b.height) : a = b := by
  cases a; cases b; simp only [Rectangle.mk.injEq]; exact ⟨h1, h2, h3, h4⟩

theorem clipDimensions_eq_clip (a : Rectangle) (d : RectangleDimensions) :
    a.clipDimensions d = a.clip (Rectangle.ofDimensions d) := by
  obtain ⟨h1, h2, h3, h4⟩ := clipDimensions_fields a d
  obtain ⟨k1, k2, k3, k4⟩ := clip_fields a (Rectangle.ofDimensions d)
  simp only [Rectangle.ofDimensions, Nat.zero_add, Nat.zero_le, max_eq_right] at k1 k2 k3 k4 ⊢
  refine rectangle_eq _ _ ?_ ?_ ?_ ?_
  · rw [h1, k1]
  · rw [h2, k2]
  · rw [h3, k3]; omega
  · rw [h4, k4]; omega

end ImageGraph


namespace ImageGraph

theorem clip_covers_clipper (a b : Rectangle) (x y : Nat) (h : (a.clip b).covers x y) :
    b.covers x y := by
  obtain ⟨p1, p2, p3, p4⟩ := clip_fields a b
  unfold Rectangle.covers at h ⊢
  omega

theorem clip_covers_iff (a b : Rectangle) (hl : b.left ≤ a.left) (ht : b.top ≤ a.top)
    (x y : Nat) : (a.clip b).covers x y ↔ a.covers x y ∧ b.covers x y := by
  obtain ⟨p1, p2, p3, p4⟩ := clip_fields a b
  unfold Rectangle.covers
  omega

theorem clip_clip_same (a b : Rectangle) : (a.clip b).clip b = a.clip b := by
  obtain ⟨p1, p2, p3, p4⟩ := clip_fields a b
  obtain ⟨q1, q2, q3, q4⟩ := clip_fields (a.clip b) b
  refine rectangle_eq _ _ ?_ ?_ ?_ ?_
  · clear p2 p4 q2 q3 q4; omega
  · clear p1 p3 q1 q3 q4; omega
  · clear p2 p4 q2 q4; omega
  · clear p1 p3 q1 q3; omega

theorem clipDimensions_clipDimensions_same (a : Rectangle) (d : RectangleDimensions) :
    (a.clipDimensions d).clipDimensions d = a.clipDimensions d := by
  obtain ⟨p1, p2, p3, p4⟩ := clipDimensions_fields a d
  obtain ⟨q1, q2, q3, q4⟩ := clipDimensions_fields (a.clipDimensions d) d
  refine rectangle_eq _ _ ?_ ?_ ?_ ?_
  · clear p2 p4 q2 q3 q4; omega
  · clear p1 p3 q1 q3 q4; omega
  · clear p2 p4 q2 q4; omega
  · clear p1 p3 q1 q3; omega

theorem clip_clip_one_axis (al aw bl bw cl cw l1 w1 l2 w2 l3 w3 l4 w4 : Nat) :
    cl ≤ bl → bl ≤ al →
    l1 = max bl (min al (bl + bw)) →
    w1 = max bl (min (l1 + aw) (bl + bw)) - l1 →
    l2 = max cl (min l1 (cl + cw)) →
    w2 = max cl (min (l2 + w1) (cl + cw)) - l2 →
    l3 = max cl (min bl (cl + cw)) →
    w3 = max cl (min (l3 + bw) (cl + cw)) - l3 →
    l4 = max l3 (min al (l3 + w3)) →
    w4 = max l3 (min (l4 + aw) (l3 + w3)) - l4 → l2 = l4 ∧ w2 = w4 := by
  intro h1 h2 p1
  have p1' : l1 = min al (bl + bw) := by omega
  clear p1
  intro p3
  have p3' : l1 + w1 = min (l1 + aw) (bl + bw) := by omega
  clear p3
  intro q1
  have q1' : l2 = min l1 (cl + cw) := by omega
  clear q1
  intro q3
  have q3' : l2 + w2 = min (l2 + w1) (cl + cw) := by omega
  clear q3
  intro r1
  have r1' : l3 = min bl (cl + cw) := by omega
  clear r1
  intro r3
  have r3' : l3 + w3 = min (l3 + bw) (cl + cw) := by omega
  clear r3
  intro s1
  have hx : l2 = l4 := by omega
  intro s3
  have s3' : l4 + w4 = max l3 (min (l4 + aw) (l3 + w3)) := by omega
  clear s1 s3
  subst hx
  refine ⟨rfl, ?_⟩
  omega

theorem clip_clip_of_ordered (a b c : Rectangle) (h1 : c.left ≤ b.left) (h2 : b.left ≤ a.left)
    (h3 : c.top ≤ b.top) (h4 : b.top ≤ a.top) : (a.clip b).clip c = a.clip (b.clip c) := by
  obtain ⟨p1, p2, p3, p4⟩ := clip_edges a b
  obtain ⟨q1, q2, q3, q4⟩ := clip_edges (a.clip b) c
  obtain ⟨r1, r2, r3, r4⟩ := clip_edges b c
  obtain ⟨s1, s2, s3, s4⟩ := clip_edges a (b.clip c)
  obtain ⟨hx, hw⟩ := clip_clip_one_axis _ _ _ _ _ _ _ _ _ _ _ _ _ _ h1 h2 p1 p3 q1 q3 r1 r3 s1 s3
  obtain ⟨hy, hh⟩ := clip_clip_one_axis _ _ _ _ _ _ _ _ _ _ _ _ _ _ h3 h4 p2 p4 q2 q4 r2 r4 s2 s4
  exact rectangle_eq _ _ hx hy hw hh

/-- C21 (a slip of the code): `a.clip(b)` moves the left and top edge of `a` into `b` and
then takes the new right and bottom edge from the moved edge plus the old width and height.
The result always lies in `b`.  It is the intersection of `a` and `b` (the edges are the
maxima and minima when these describe a non-empty area, the rectangle is empty when `a` and
`b` are disjoint, and it covers exactly the pixels that `a` and `b` both cover) where `a` does
not begin to the left of or above `b`, so `clip(dimensions)`, which is `clip` with the rectangle
`(0, 0, width, height)`, always is.  For `a = (0, 0, 2, 1)` and `b = (1, 0, 2, 1)` the result is
`b`, not `(1, 0, 1, 1)`, and for the disjoint `(0, 0, 1, 1)` and `(5, 0, 1, 1)` it is not
empty. -/
theorem clip_is_intersection_only_from_inside :
    (∀ a b : Rectangle,
      (a.clip b).left = clamp a.left b.left b.right ∧
      (a.clip b).top = clamp a.top b.top b.bottom ∧
      (a.clip b).right = clamp ((a.clip b).left + a.width) b.left b.right ∧
      (a.clip b).bottom = clamp ((a.clip b).top + a.height) b.top b.bottom ∧
      (∀ x y, (a.clip b).covers x y → b.covers x y)) ∧
    (∀ a b : Rectangle, b.left ≤ a.left → b.top ≤ a.top →
      (max a.left b.left < min a.right b.right → max a.top b.top < min a.bottom b.bottom →
        (a.clip b).left = max a.left b.left ∧ (a.clip b).top = max a.top b.top ∧
        (a.clip b).right = min a.right b.right ∧ (a.clip b).bottom = min a.bottom b.bottom) ∧
      (¬ (max a.left b.left < min a.right b.right ∧ max a.top b.top < min a.bottom b.bottom) →
        (a.clip b).empty = true) ∧
      (∀ x y, (a.clip b).covers x y ↔ a.covers x y ∧ b.covers x y)) ∧
    (∀ (a : Rectangle) (d : RectangleDimensions),
      a.clipDimensions d = a.clip (Rectangle.ofDimensions d) ∧
      ∀ x y, (a.clipDimensions d).covers x y ↔
        a.covers x y ∧ (Rectangle.ofDimensions d).covers x y) ∧
    ((⟨0, 0, 2, 1⟩ : Rectangle).clip ⟨1, 0, 2, 1⟩ = ⟨1, 0, 2, 1⟩ ∧
      ((⟨0, 0, 2, 1⟩ : Rectangle).clip ⟨1, 0, 2, 1⟩).covers 2 0 ∧
      ¬ (⟨0, 0, 2, 1⟩ : Rectangle).covers 2 0 ∧
      (⟨0, 0, 1, 1⟩ : Rectangle).clip ⟨5, 0, 1, 1⟩ = ⟨5, 0, 1, 1⟩ ∧
      (⟨0, 0, 1, 1⟩ : Rectangle).overlap ⟨5, 0, 1, 1⟩ = 0 ∧
      ((⟨0, 0, 1, 1⟩ : Rectangle).clip ⟨5, 0, 1, 1⟩).empty = false) := by
  refine ⟨?_, ?_, ?_, ?_⟩
  · intro a b
    obtain ⟨p1, p2, p3, p4⟩ := clip_fields a b
    refine ⟨?_, ?_, ?_, ?_, fun x y h => clip_covers_clipper a b x y h⟩
    · rw [p1, Rectangle.right, clamp_eq_max_min _ _ _ (Nat.le_add_right _ _)]
    · rw [p2, Rectangle.bottom, clamp_eq_max_min _ _ _ (Nat.le_add_right _ _)]
    · rw [Rectangle.right, Rectangle.right, clamp_eq_max_min _ _ _ (Nat.le_add_right _ _)]
      clear p2 p4; omega
    · rw [Rectangle.bottom, Rectangle.bottom, clamp_eq_max_min _ _ _ (Nat.le_add_right _ _)]
      clear p1 p3; omega
  · intro a b hl ht
    obtain ⟨p1, p2, p3, p4⟩ := clip_fields a b
    refine ⟨?_, ?_, fun x y => clip_covers_iff a b hl ht x y⟩
    · intro hx hy
      simp only [Rectangle.right, Rectangle.bottom] at hx hy ⊢
      refine ⟨?_, ?_, ?_, ?_⟩
      · clear p2 p4 hy; omega
      · clear p1 p3 hx; omega
      · clear p2 p4 hy; omega
      · clear p1 p3 hx; omega
    · intro hn
      simp only [Rectangle.right, Rectangle.bottom] at hn
      have hz : (a.clip b).width = 0 ∨ (a.clip b).height = 0 := by
        by_cases hx : max a.left b.left < min (a.left + a.width) (b.left + b.width)
        · right
          have hy : ¬ max a.top b.top < min (a.top + a.height) (b.top + b.height) :=
            fun hy => hn ⟨hx, hy⟩
          clear p1 p3 hx hn; omega
        · left
          clear p2 p4 hn; omega
      simp only [Rectangle.empty, RectangleDimensions.empty, RectangleDimensions.size,
        Rectangle.dimensions, beq_iff_eq, Nat.mul_eq_zero]
      exact hz
  · intro a d
    refine ⟨clipDimensions_eq_clip a d, fun x y => ?_⟩
    rw [clipDimensions_eq_clip]
    exact clip_covers_iff a _ (Nat.zero_le _) (Nat.zero_le _) x y
  · decide

theorem clip_is_intersection_only_from_inside_witness :
    ((⟨2, 3, 4, 5⟩ : Rectangle).clip ⟨1, 1, 3, 4⟩).left = max 2 1 ∧
    ((⟨2, 3, 4, 5⟩ : Rectangle).clip ⟨1, 1, 3, 4⟩).top = max 3 1 ∧
    ((⟨2, 3, 4, 5⟩ : Rectangle).clip ⟨1, 1, 3, 4⟩).right =
      min (⟨2, 3, 4, 5⟩ : Rectangle).right (⟨1, 1, 3, 4⟩ : Rectangle).right ∧
    ((⟨2, 3, 4, 5⟩ : Rectangle).clip ⟨1, 1, 3, 4⟩).bottom =
      min (⟨2, 3, 4, 5⟩ : Rectangle).bottom (⟨1, 1, 3, 4⟩ : Rectangle).bottom :=
  (clip_is_intersection_only_from_inside.2.1 ⟨2, 3, 4, 5⟩ ⟨1, 1, 3, 4⟩ (by decide)
    (by decide)).1 (by decide) (by decide)

/-- C26: `clip` is idempotent: `a.clip(b).clip(b) = a.clip(b)` for all rectangles, and
`a.clip(d).clip(d) = a.clip(d)` for all dimensions `d`. -/
theorem clip_idempotent :
    (∀ a b : Rectangle, (a.clip b).clip b = a.clip b) ∧
    (∀ (a : Rectangle) (d : RectangleDimensions),
      (a.clipDimensions d).clipDimensions d = a.clipDimensions d) :=
  ⟨clip_clip_same, clipDimensions_clipDimensions_same⟩

/-- C27 (a slip of the code): clipping `a` by `b` and then by `c` gives the same rectangle
as clipping `a` by `b` clipped by `c` where no clipped rectangle begins to the left of or above
its clipper (`c` begins no further right and no lower than `b`, and `b` than `a`); there
every `clip` is the intersection.  In general it does not: with `a = c = (1, 0, 2, 1)` and
`b = (0, 0, 2, 1)` the first is `(1, 0, 1, 1)`, the intersection of the three, and the second
is `(1, 0, 2, 1)`, because `b.clip(c)` is `c` and not `(1, 0, 1, 1)`. -/
theorem clip_associative_only_from_inside :
    (∀ a b c : Rectangle, c.left ≤ b.left → b.left ≤ a.left → c.top ≤ b.top → b.top ≤ a.top →
      (a.clip b).clip c = a.clip (b.clip c)) ∧
    (((⟨1, 0, 2, 1⟩ : Rectangle).clip ⟨0, 0, 2, 1⟩).clip ⟨1, 0, 2, 1⟩ = ⟨1, 0, 1, 1⟩ ∧
      (⟨0, 0, 2, 1⟩ : Rectangle).clip ⟨1, 0, 2, 1⟩ = ⟨1, 0, 2, 1⟩ ∧
      (⟨1, 0, 2, 1⟩ : Rectangle).clip ((⟨0, 0, 2, 1⟩ : Rectangle).clip ⟨1, 0, 2, 1⟩) =
        ⟨1, 0, 2, 1⟩) :=
  ⟨clip_clip_of_ordered, by decide⟩

theorem clip_associative_only_from_inside_witness :
    ((⟨4, 5, 6, 7⟩ : Rectangle).clip ⟨2, 3, 5, 5⟩).clip ⟨1, 1, 4, 6⟩ =
      (⟨4, 5, 6, 7⟩ : Rectangle).clip ((⟨2, 3, 5, 5⟩ : Rectangle).clip ⟨1, 1, 4, 6⟩) :=
  clip_associative_only_from_inside.1 ⟨4, 5, 6, 7⟩ ⟨2, 3, 5, 5⟩ ⟨1, 1, 4, 6⟩ (by decide)
    (by decide) (by decide) (by decide)

/-- C28 (a slip of the code): `bound(other)` ends in
`return {min_left, min_top, max_right - min_left, max_bottom - min_top};`, a list of four
scalars that no constructor of `Rectangle` takes, so that no call of `bound` compiles and the
member returns no rectangle.  The four scalars of the list are what the sentence describes:
taken as left, top, width and height they are the smallest rectangle that contains both
operands, and they are the same for `a.bound(b)` and `b.bound(a)`. -/
theorem bound_scalars_contain_both_operands (a b : Rectangle) :
    ∃ left top width height : Nat,
      a.bound b = [left, top, width, height] ∧
      a.subsetOf ⟨left, top, width, height⟩ = true ∧
      b.subsetOf ⟨left, top, width, height⟩ = true ∧
      a.bound b = b.bound a ∧
      ∀ c : Rectangle, a.subsetOf c = true → b.subsetOf c = true →
        (⟨left, top, width, height⟩ : Rectangle).subsetOf c = true := by
  refine ⟨_, _, _, _, rfl, ?_, ?_, ?_, ?_⟩
  · simp only [Rectangle.subsetOf, Bool.and_eq_true, decide_eq_true_eq]
    omega
  · simp only [Rectangle.subsetOf, Bool.and_eq_true, decide_eq_true_eq]
    omega
  · simp only [Rectangle.bound, List.cons.injEq, and_true]
    omega
  · intro c
    simp only [Rectangle.subsetOf, Bool.and_eq_true, decide_eq_true_eq]
    omega

end ImageGraph


namespace ImageGraph

/-! ## `OutNode`: the input region and the output node -/

/-- C29, the counterexample: after `addParent(7)` on a node without parents the parent stack
is not empty and holds no parent marked as output, and `outputNode()` throws instead of
returning the node itself; after `addParent(3)`, `setParentOutput(3)`, `addParent(7)` the
topmost parent marked as output is 3, and `outputNode()` throws as well. -/
theorem outputNode_throws_without_output_parent :
    ((⟨[], fun _ r => r, fun _ => none⟩ : OutNode).run [.addParent 7]).map
        (fun m => (m.parents_, m.topmostOutputParent, m.outputNode)) =
      some ([⟨7, false⟩], NodeRef.this, none) ∧
    ((⟨[], fun _ r => r, fun _ => none⟩ : OutNode).run
        [.addParent 3, .setParentOutput 3, .addParent 7]).map
        (fun m => (m.parents_, m.topmostOutputParent, m.outputNode)) =
      some ([⟨7, false⟩, ⟨3, true⟩], NodeRef.parent 3, none) := by
  constructor <;> rfl

/-- C29: `outputNode()` returns the node itself when its parent stack is empty and the
topmost parent when that is marked as output; when the stack is not empty and its topmost
parent is not marked as output it throws, whether or not a parent below is marked.  So
whenever `outputNode()` returns, it returns the topmost parent marked as output if there is
one and the node itself otherwise; and it returns exactly when the stack is empty or its
topmost parent is marked. -/
theorem outputNode_is_top_parent_or_throws (n : OutNode) :
    (n.parents_ = [] → n.outputNode = some NodeRef.this) ∧
    (∀ top rest, n.parents_ = top :: rest → top.is_output = true →
      n.outputNode = some (NodeRef.parent top.parent)) ∧
    (∀ top rest, n.parents_ = top :: rest → top.is_output = false → n.outputNode = none) ∧
    (∀ ref, n.outputNode = some ref → ref = n.topmostOutputParent) ∧
    (n.outputNode.isSome = true ↔
      n.parents_ = [] ∨ ∃ top rest, n.parents_ = top :: rest ∧ top.is_output = true) := by
  cases hp : n.parents_ with
  | nil =>
    refine ⟨fun _ => ?_, fun top rest h => (by cases h), fun top rest h => (by cases h), ?_, ?_⟩
    · simp only [OutNode.outputNode, hp]
    · intro ref h
      simp only [OutNode.outputNode, hp, Option.some.injEq] at h
      simp only [OutNode.topmostOutputParent, hp, List.find?_nil]
      exact h.symm
    · simp only [OutNode.outputNode, hp, Option.isSome_some, true_or]
  | cons t r =>
    refine ⟨fun h => (by cases h), ?_, ?_, ?_, ?_⟩
    · intro top rest h ho
      cases h
      simp only [OutNode.outputNode, hp, ho, if_true]
    · intro top rest h ho
      cases h
      simp only [OutNode.outputNode, hp, ho]
      rfl
    · intro ref h
      by_cases ho : t.is_output = true
      · simp only [OutNode.outputNode, hp, ho, if_true, Option.some.injEq] at h
        simp only [OutNode.topmostOutputParent, hp, List.find?_cons, ho]
        exact h.symm
      · simp only [OutNode.outputNode, hp, ho] at h
        cases h
    · by_cases ho : t.is_output = true
      · simp only [OutNode.outputNode, hp, ho, if_true, Option.isSome_some, true_iff]
        exact Or.inr ⟨t, r, rfl, ho⟩
      · simp only [OutNode.outputNode, hp, ho]
        constructor
        · intro h
          cases h
        · rintro (h | ⟨top, rest, h, ho1⟩)
          · cases h
          · cases h
            exact absurd ho1 ho

theorem outputNode_is_top_parent_or_throws_witness :
    (⟨[⟨3, true⟩, ⟨7, false⟩], fun _ r => r, fun _ => none⟩ : OutNode).outputNode =
      some (NodeRef.parent 3) :=
  (outputNode_is_top_parent_or_throws _).2.1 ⟨3, true⟩ [⟨7, false⟩] rfl rfl

end ImageGraph


namespace ImageGraph

/-! ## `Tile::copyOverlap` -/

/-- Every index of the buffer of a well-sized tile is the index of a pixel of its rectangle
and a channel. -/
theorem Tile_index_surj {α : Type} (t : Tile α) (hw : t.WellSized) (i : Nat)
    (hi : i < t.data_.length) :
    ∃ x y c, t.rectangle_.covers x y ∧ c < t.channels_ ∧ t.index x y c = i := by
  unfold Tile.WellSized Rectangle.size Rectangle.dimensions RectangleDimensions.size at hw
  simp only at hw
  rw [hw] at hi
  have hch : 0 < t.channels_ := by
    rcases Nat.eq_zero_or_pos t.channels_ with h | h
    · rw [h] at hi; simp at hi
    · exact h
  have hj : i / t.channels_ < t.rectangle_.width * t.rectangle_.height := by
    rw [Nat.div_lt_iff_lt_mul hch]
    exact hi
  have hwd : 0 < t.rectangle_.width := by
    rcases Nat.eq_zero_or_pos t.rectangle_.width with h | h
    · rw [h] at hj; simp at hj
    · exact h
  have hyy : i / t.channels_ / t.rectangle_.width < t.rectangle_.height := by
    rw [Nat.div_lt_iff_lt_mul hwd, Nat.mul_comm]
    exact hj
  have hxx : i / t.channels_ % t.rectangle_.width < t.rectangle_.width := Nat.mod_lt _ hwd
  have hcc : i % t.channels_ < t.channels_ := Nat.mod_lt _ hch
  have hcov : t.rectangle_.covers (t.rectangle_.left + i / t.channels_ % t.rectangle_.width)
      (t.rectangle_.top + i / t.channels_ / t.rectangle_.width) := by
    unfold Rectangle.covers
    exact ⟨Nat.le_add_right _ _, Nat.add_lt_add_left hxx _, Nat.le_add_right _ _,
      Nat.add_lt_add_left hyy _⟩
  refine ⟨_, _, i % t.channels_, hcov, hcc, ?_⟩
  rw [Tile_index_eq t _ _ _ hcov, Nat.add_sub_cancel_left, Nat.add_sub_cancel_left,
    Nat.div_add_mod, Nat.div_add_mod]

/-- C23: `Tile::copyOverlap` copies exactly the intersection.  For tiles `t` and `o` with
equal channel counts (and buffers of the size their constructors give them), `t.copyOverlap(o)`
ends without an access outside a buffer; afterwards `t` has its rectangle, channel count and
buffer size, `t(x - t.left, y - t.top, c) = o(x - o.left, y - o.top, c)` for every pixel
`(x, y)` in both rectangles and every channel `c`, and every element of the buffer of `t`
that is not the element of such a pixel and channel is unchanged.  The tile `o` is an argument
of the function and not part of its result. -/
theorem copyOverlap_copies_exactly_the_intersection {α : Type} (t o : Tile α)
    (hw : t.WellSized) (how : o.WellSized) (hch : t.channels_ = o.channels_) :
    ∃ t1, t.copyOverlap o = some t1 ∧ t1.rectangle_ = t.rectangle_ ∧
      t1.channels_ = t.channels_ ∧ t1.data_.length = t.data_.length ∧
      (∀ x y c, t.rectangle_.covers x y → o.rectangle_.covers x y → c < t.channels_ →
        t1.get (x - t.left) (y - t.top) c = o.get (x - o.left) (y - o.top) c ∧
        (o.get (x - o.left) (y - o.top) c).isSome = true) ∧
      (∀ x y c, t.rectangle_.covers x y → ¬ o.rectangle_.covers x y → c < t.channels_ →
        t1.get (x - t.left) (y - t.top) c = t.get (x - t.left) (y - t.top) c) ∧
      (∀ i, (∀ x y c, t.rectangle_.covers x y → o.rectangle_.covers x y → c < t.channels_ →
          t.index x y c ≠ i) → t1.data_[i]? = t.data_[i]?) := by
  obtain ⟨t1, h1, hr, hc, hlen, hcop⟩ := copyOverlap_spec t o hw how hch
  have hget : ∀ x y c, t.rectangle_.covers x y →
      t1.get (x - t.left) (y - t.top) c = t1.data_[t.index x y c]? := by
    intro x y c hcv
    have h := Tile_get_eq_index t1 x y c (by rw [hr]; exact hcv)
    rw [Tile_index_congr t t1 hr hc] at h
    have hl : t1.left = t.left := by unfold Tile.left; rw [hr]
    have ht : t1.top = t.top := by unfold Tile.top; rw [hr]
    rw [hl, ht] at h
    exact h
  refine ⟨t1, h1, hr, hc, hlen, ?_, ?_, ?_⟩
  · intro x y c hcv hov hcc
    rw [hget x y c hcv, ((hcop x y c hcv hcc).1 hov), Tile_get_eq_index o x y c hov]
    refine ⟨rfl, ?_⟩
    have hlt := Tile_index_lt o x y c how hov (by rw [← hch]; exact hcc)
    rw [List.getElem?_eq_getElem hlt]
    rfl
  · intro x y c hcv hov hcc
    rw [hget x y c hcv, ((hcop x y c hcv hcc).2 hov), Tile_get_eq_index t x y c hcv]
  · intro i hi
    by_cases hlt : i < t.data_.length
    · obtain ⟨x, y, c, hcv, hcc, hidx⟩ := Tile_index_surj t hw i hlt
      by_cases hov : o.rectangle_.covers x y
      · exact absurd hidx (hi x y c hcv hov hcc)
      · have h := (hcop x y c hcv hcc).2 hov
        rw [hidx] at h
        exact h
    · rw [List.getElem?_eq_none (by omega), List.getElem?_eq_none (by omega)]

theorem copyOverlap_copies_exactly_the_intersection_witness :
    ∃ t1, (⟨⟨0, 0, 2, 1⟩, 1, [10, 11]⟩ : Tile Nat).copyOverlap ⟨⟨1, 0, 2, 1⟩, 1, [20, 21]⟩ =
        some t1 ∧
      t1.rectangle_ = (⟨⟨0, 0, 2, 1⟩, 1, [10, 11]⟩ : Tile Nat).rectangle_ ∧
      t1.channels_ = (⟨⟨0, 0, 2, 1⟩, 1, [10, 11]⟩ : Tile Nat).channels_ ∧
      t1.data_.length = (⟨⟨0, 0, 2, 1⟩, 1, [10, 11]⟩ : Tile Nat).data_.length ∧
      (∀ x y c, (⟨⟨0, 0, 2, 1⟩, 1, [10, 11]⟩ : Tile Nat).rectangle_.covers x y →
        (⟨⟨1, 0, 2, 1⟩, 1, [20, 21]⟩ : Tile Nat).rectangle_.covers x y →
        c < (⟨⟨0, 0, 2, 1⟩, 1, [10, 11]⟩ : Tile Nat).channels_ →
        t1.get (x - (⟨⟨0, 0, 2, 1⟩, 1, [10, 11]⟩ : Tile Nat).left)
            (y - (⟨⟨0, 0, 2, 1⟩, 1, [10, 11]⟩ : Tile Nat).top) c =
          (⟨⟨1, 0, 2, 1⟩, 1, [20, 21]⟩ : Tile Nat).get
            (x - (⟨⟨1, 0, 2, 1⟩, 1, [20, 21]⟩ : Tile Nat).left)
            (y - (⟨⟨1, 0, 2, 1⟩, 1, [20, 21]⟩ : Tile Nat).top) c ∧
        ((⟨⟨1, 0, 2, 1⟩, 1, [20, 21]⟩ : Tile Nat).get
            (x - (⟨⟨1, 0, 2, 1⟩, 1, [20, 21]⟩ : Tile Nat).left)
            (y - (⟨⟨1, 0, 2, 1⟩, 1, [20, 21]⟩ : Tile Nat).top) c).isSome = true) ∧
      (∀ x y c, (⟨⟨0, 0, 2, 1⟩, 1, [10, 11]⟩ : Tile Nat).rectangle_.covers x y →
        ¬ (⟨⟨1, 0, 2, 1⟩, 1, [20, 21]⟩ : Tile Nat).rectangle_.covers x y →
        c < (⟨⟨0, 0, 2, 1⟩, 1, [10, 11]⟩ : Tile Nat).channels_ →
        t1.get (x - (⟨⟨0, 0, 2, 1⟩, 1, [10, 11]⟩ : Tile Nat).left)
            (y - (⟨⟨0, 0, 2, 1⟩, 1, [10, 11]⟩ : Tile Nat).top) c =
          (⟨⟨0, 0, 2, 1⟩, 1, [10, 11]⟩ : Tile Nat).get
            (x - (⟨⟨0, 0, 2, 1⟩, 1, [10, 11]⟩ : Tile Nat).left)
            (y - (⟨⟨0, 0, 2, 1⟩, 1, [10, 11]⟩ : Tile Nat).top) c) ∧
      (∀ i, (∀ x y c, (⟨⟨0, 0, 2, 1⟩, 1, [10, 11]⟩ : Tile Nat).rectangle_.covers x y →
          (⟨⟨1, 0, 2, 1⟩, 1, [20, 21]⟩ : Tile Nat).rectangle_.covers x y →
          c < (⟨⟨0, 0, 2, 1⟩, 1, [10, 11]⟩ : Tile Nat).channels_ →
          (⟨⟨0, 0, 2, 1⟩, 1, [10, 11]⟩ : Tile Nat).index x y c ≠ i) →
        t1.data_[i]? = (⟨⟨0, 0, 2, 1⟩, 1, [10, 11]⟩ : Tile Nat).data_[i]?) :=
  copyOverlap_copies_exactly_the_intersection _ _ rfl rfl rfl

end ImageGraph


namespace ImageGraph

/-! ## `Cache::resize` and `Cache::toProtoCache` -/

theorem recapacitate_values {K V : Type} [DecidableEq K] (m : LRUMap K V) (c : Nat)
    (h : m.size ≤ m.capacity) :
    (m.recapacitate c).capacity_ = c ∧
    (m.recapacitate c).values_ = m.values_.drop (m.values_.length - c) := by
  simp only [LRUMap.size, LRUMap.capacity] at h
  unfold LRUMap.recapacitate
  by_cases h1 : m.capacity_ = c
  · rw [if_pos h1]
    refine ⟨h1, ?_⟩
    rw [show m.values_.length - c = 0 by omega, List.drop_zero]
  · rw [if_neg h1]
    by_cases h2 : c = 0
    · rw [if_pos h2]
      refine ⟨rfl, ?_⟩
      rw [h2, Nat.sub_zero, List.drop_length]
    · rw [if_neg h2]
      exact ⟨rfl, remove_overList_eq_drop _ _⟩

/-- C24: `resize(c)` truncates by evicting the least recently used entries.  For every cache
reached from a new one by `put`, `get` and `resize` calls: afterwards `capacity() = c`; if
`c >= size` the entries and their recency order are unchanged; if `0 < c < size` exactly the
last `c` entries of the recency list remain, in the same order, and each of them was used
(put or returned by a `get`) later than every entry that was removed; if `c = 0` the cache is
empty. -/
theorem resize_truncates_least_recently_used (K V : Type) [DecidableEq K] (n : Nat)
    (ops : List (CacheOp K V)) (s : StampedCache K V) (c : Nat)
    (hr : StampedCache.run ⟨Cache.new n, 0, []⟩ ops = some s) :
    (s.cache.resize c).capacity = c ∧
    (s.cache.size ≤ c → (s.cache.resize c).data_.values_ = s.cache.data_.values_) ∧
    (0 < c → c < s.cache.size →
      (s.cache.resize c).data_.values_ = s.cache.data_.values_.drop (s.cache.size - c) ∧
      (s.cache.resize c).size = c ∧
      (s.cache.resize c).data_.values_.Sublist s.cache.data_.values_ ∧
      ∀ removed ∈ s.cache.data_.values_.take (s.cache.size - c),
        ∀ kept ∈ (s.cache.resize c).data_.values_, s.stamp removed.1 < s.stamp kept.1) ∧
    (c = 0 → (s.cache.resize c).size = 0 ∧ (s.cache.resize c).data_.values_ = []) := by
  have hord : s.Ordered :=
    StampedCache_run_ordered ops ⟨Cache.new n, 0, []⟩ s
      ⟨Nat.zero_le _, List.Pairwise.nil, fun e he => by cases he⟩ hr
  obtain ⟨hsz, hpw, _⟩ := hord
  obtain ⟨hcap, hval⟩ := recapacitate_values s.cache.data_ c hsz
  simp only [Cache.resize, Cache.capacity, Cache.size, LRUMap.capacity, LRUMap.size]
  refine ⟨hcap, ?_, ?_, ?_⟩
  · intro hle
    rw [hval, show s.cache.data_.values_.length - c = 0 by omega, List.drop_zero]
  · intro hpos hlt
    refine ⟨hval, ?_, ?_, ?_⟩
    · rw [hval, List.length_drop]; omega
    · rw [hval]; exact List.drop_sublist _ _
    · intro removed hrem kept hkept
      rw [hval] at hkept
      have hsplit := List.take_append_drop (s.cache.data_.values_.length - c)
        s.cache.data_.values_
      rw [← hsplit] at hpw
      exact (List.pairwise_append.1 hpw).2.2 removed hrem kept hkept
  · intro h0
    rw [hval, h0, Nat.sub_zero, List.drop_length]
    exact ⟨rfl, rfl⟩

theorem resize_truncates_least_recently_used_witness :
    ((⟨⟨⟨[(1, 6), (2, 7), (0, 5)], 3⟩⟩, 4, [(0, 4), (2, 3), (1, 2), (0, 1)]⟩ :
        StampedCache Nat Nat).cache.resize 2).capacity = 2 ∧
    ((⟨⟨⟨[(1, 6), (2, 7), (0, 5)], 3⟩⟩, 4, [(0, 4), (2, 3), (1, 2), (0, 1)]⟩ :
        StampedCache Nat Nat).cache.resize 2).data_.values_ = [(2, 7), (0, 5)] :=
  have h := resize_truncates_least_recently_used Nat Nat 3
    [.put 0 5, .put 1 6, .put 2 7, .get 0]
    ⟨⟨⟨[(1, 6), (2, 7), (0, 5)], 3⟩⟩, 4, [(0, 4), (2, 3), (1, 2), (0, 1)]⟩ 2 (by decide)
  ⟨h.1, (h.2.2.1 (by decide) (by decide)).1⟩

theorem foldlM_put_keys {K V : Type} [DecidableEq K] (cap : Nat) :
    ∀ (l : List (K × V)) (vs : List K),
      (l.map Prod.fst).Nodup → (∀ e ∈ l, e.1 ∉ vs) → vs.length + l.length ≤ cap →
      l.foldlM (fun (proto_cache : OrderedMapProtoCache K) e => proto_cache.put e.1)
          ⟨⟨vs, cap⟩⟩ = some ⟨⟨vs ++ l.map Prod.fst, cap⟩⟩ := by
  intro l
  induction l with
  | nil =>
    intro vs _ _ _
    simp only [List.foldlM_nil, List.map_nil, List.append_nil]
    rfl
  | cons e rest ih =>
    intro vs hnd hdis hlen
    simp only [List.map_cons, List.nodup_cons] at hnd
    simp only [List.length_cons] at hlen
    have hnot : e.1 ∉ vs := hdis e (List.mem_cons_self _ _)
    have hfound : (⟨vs, cap⟩ : LRUSet K).found e.1 = false :=
      (LRUSet_found_eq_false_iff _ _).2 hnot
    have hput : (⟨⟨vs, cap⟩⟩ : OrderedMapProtoCache K).put e.1 =
        some ⟨⟨vs ++ [e.1], cap⟩⟩ := by
      simp only [OrderedMapProtoCache.put, LRUSet.insert, hfound, Bool.false_eq_true, if_false,
        show ¬ cap = 0 by omega, LRUSet.remove_over,
        remove_overList_of_le vs (cap - 1) (by omega)]
      rfl
    rw [List.foldlM_cons, hput]
    simp only [Option.some_bind, Option.bind_eq_bind]
    rw [ih (vs ++ [e.1]) hnd.2 ?_ ?_]
    · simp only [List.map_cons, List.append_assoc, List.singleton_append]
    · intro x hx hmem
      rw [List.mem_append, List.mem_singleton] at hmem
      rcases hmem with hmem | hmem
      · exact hdis x (List.mem_cons_of_mem _ hx) hmem
      · exact hnd.1 (hmem ▸ List.mem_map_of_mem Prod.fst hx)
    · simp only [List.length_append, List.length_singleton]; omega

theorem run_exists_stamped {K V : Type} [DecidableEq K] (ops : List (CacheOp K V))
    (s0 : StampedCache K V) (c : Cache K V) (hr : s0.cache.run ops = some c) :
    ∃ s, s0.run ops = some s ∧ s.cache = c := by
  have h := StampedCache_run_cache ops s0
  rw [hr] at h
  cases hs : s0.run ops with
  | none => rw [hs] at h; cases h
  | some s =>
    rw [hs] at h
    exact ⟨s, rfl, Option.some.inj h⟩

/-- C25: `toProtoCache` yields a proto-cache with the capacity and exactly the keys of the
cache.  For every cache reached from a new one by `put`, `get` and `resize` calls,
`toProtoCache()` returns a proto-cache (no assertion of the insertion fails) of the capacity
of the cache that contains a key `k` iff the cache holds `k`; it holds the keys from the most
to the least recently used one.  The cache is read only. -/
theorem toProtoCache_has_the_keys_of_the_cache (K V : Type) [DecidableEq K] (n : Nat)
    (ops : List (CacheOp K V)) (c : Cache K V) (hr : (Cache.new n).run ops = some c) :
    ∃ p, c.toProtoCache = some p ∧ p.capacity = c.capacity ∧
      p.set_.values_ = (c.data_.values_.map Prod.fst).reverse ∧
      (∀ k, (p.contains k).1 = c.data_.found k) ∧
      (∀ k, (p.contains k).1 = true ↔ ((c.get k).1).isSome = true) := by
  obtain ⟨s, hs, hsc⟩ := run_exists_stamped ops ⟨Cache.new n, 0, []⟩ c hr
  have hord : s.Ordered :=
    StampedCache_run_ordered ops ⟨Cache.new n, 0, []⟩ s
      ⟨Nat.zero_le _, List.Pairwise.nil, fun e he => by cases he⟩ hs
  obtain ⟨hsz, hpw, _⟩ := hord
  rw [hsc] at hsz hpw
  have hnd := keys_nodup_of_stamp_pairwise s.stamp _ hpw
  have hnd2 : ((c.data_.values_.reverse).map Prod.fst).Nodup := by
    rw [List.map_reverse]; exact List.nodup_reverse.2 hnd
  have hfold := foldlM_put_keys c.data_.capacity_ c.data_.values_.reverse [] hnd2
    (fun e _ h => by cases h) (by simp only [List.length_nil, List.length_reverse]; omega)
  have hfound : ∀ k, ((⟨⟨(c.data_.values_.map Prod.fst).reverse, c.data_.capacity_⟩⟩ :
      OrderedMapProtoCache K).contains k).1 = c.data_.found k := by
    intro k
    simp only [OrderedMapProtoCache.contains, LRUSet.exists_, LRUSet.found, LRUMap.found]
    have e : ((c.data_.values_.map Prod.fst).reverse.any fun e => decide (e = k)) =
        c.data_.values_.any fun e => decide (e.1 = k) := by
      rw [List.any_reverse]
      induction c.data_.values_ with
      | nil => rfl
      | cons x xs ih => simp only [List.map_cons, List.any_cons, ih]
    rw [e]
    split_ifs with h
    · exact h.symm
    · simp only [Bool.not_eq_true] at h; exact h.symm
  refine ⟨⟨⟨(c.data_.values_.map Prod.fst).reverse, c.data_.capacity_⟩⟩, ?_, rfl, rfl, hfound,
    ?_⟩
  · simp only [Cache.toProtoCache, OrderedMapProtoCache.new, LRUSet.new, Cache.capacity,
      LRUMap.capacity]
    rw [hfold, List.nil_append, List.map_reverse]
  · intro k
    rw [hfound k, Cache_get_fst]
    simp only [LRUMap.found, List.any_eq_true, Option.isSome_map', List.find?_isSome]

theorem toProtoCache_has_the_keys_of_the_cache_witness :
    ∃ p, (⟨⟨[(1, 6), (2, 7)], 3⟩⟩ : Cache Nat Nat).toProtoCache = some p ∧
      p.capacity = (⟨⟨[(1, 6), (2, 7)], 3⟩⟩ : Cache Nat Nat).capacity ∧
      p.set_.values_ = ((⟨⟨[(1, 6), (2, 7)], 3⟩⟩ : Cache Nat Nat).data_.values_.map
        Prod.fst).reverse ∧
      (∀ k, (p.contains k).1 = (⟨⟨[(1, 6), (2, 7)], 3⟩⟩ : Cache Nat Nat).data_.found k) ∧
      (∀ k, (p.contains k).1 = true ↔
        (((⟨⟨[(1, 6), (2, 7)], 3⟩⟩ : Cache Nat Nat).get k).1).isSome = true) :=
  toProtoCache_has_the_keys_of_the_cache Nat Nat 1
    [.put 0 5, .put 1 6, .get 1, .resize 3, .put 2 7] _ (by decide)

end ImageGraph


namespace ImageGraph

open boost_geometry

/-! ## `clipRing`: the loops as clips against half-planes -/

section
variable {T : Type} [LinearOrderedField T]

end

end ImageGraph


namespace ImageGraph

open boost_geometry

section
variable {T : Type} [LinearOrderedField T]

/-! ### Points on a segment -/

end

end ImageGraph


namespace ImageGraph

open boost_geometry

/-! ### Lists of points and their segments -/

theorem lastFrom_cons {T : Type} (last x : point_t T) (l : List (point_t T)) :
    lastFrom last (x :: l) = lastFrom x l := by
  simp only [lastFrom, List.getLastD_cons]

theorem getLast?_eq_lastFrom {T : Type} (x : point_t T) (l : List (point_t T)) (hl : l ≠ []) :
    l.getLast? = some (lastFrom x l) := by
  induction l generalizing x with
  | nil => exact absurd rfl hl
  | cons y l ih =>
    rw [lastFrom_cons]
    cases l with
    | nil => rfl
    | cons z l =>
      rw [List.getLast?_cons_cons]
      exact ih y (by simp)

theorem lastFrom_of_getLast? {T : Type} (x p : point_t T) (l : List (point_t T))
    (h : l.getLast? = some p) : lastFrom x l = p := by
  have hl : l ≠ [] := by
    intro h0; rw [h0] at h; cases h
  have := getLast?_eq_lastFrom x l hl
  rw [h] at this
  exact (Option.some.inj this).symm

theorem edgesFrom_append {T : Type} (last : point_t T) (l1 l2 : List (point_t T)) :
    edgesFrom last (l1 ++ l2) = edgesFrom last l1 ++ edgesFrom (lastFrom last l1) l2 := by
  induction l1 generalizing last with
  | nil => rfl
  | cons x l1 ih =>
    rw [List.cons_append, edgesFrom, edgesFrom, ih, lastFrom_cons, List.cons_append]

theorem mem_edgesFrom_snd {T : Type} (prev : point_t T) (l : List (point_t T)) (p : point_t T)
    (hp : p ∈ l) : ∃ a, (a, p) ∈ edgesFrom prev l := by
  induction l generalizing prev with
  | nil => cases hp
  | cons x l ih =>
    rw [List.mem_cons] at hp
    rcases hp with hp | hp
    · subst hp
      exact ⟨prev, List.mem_cons_self _ _⟩
    · obtain ⟨a, ha⟩ := ih x hp
      exact ⟨a, List.mem_cons_of_mem _ ha⟩

section
variable {T : Type} [LinearOrderedField T]

theorem sumOver_cons (f : point_t T → point_t T → T) (e : point_t T × point_t T)
    (l : List (point_t T × point_t T)) : sumOver f (e :: l) = f e.1 e.2 + sumOver f l := by
  simp only [sumOver, List.map_cons, List.sum_cons]

theorem sumOver_nil (f : point_t T → point_t T → T) : sumOver f [] = 0 := rfl

theorem sumOver_le (f f1 : point_t T → point_t T → T) (l : List (point_t T × point_t T))
    (h : ∀ e ∈ l, f e.1 e.2 ≤ f1 e.1 e.2) : sumOver f l ≤ sumOver f1 l := by
  induction l with
  | nil => exact le_refl _
  | cons e l ih =>
    rw [sumOver_cons, sumOver_cons]
    exact add_le_add (h e (List.mem_cons_self _ _))
      (ih fun e1 he1 => h e1 (List.mem_cons_of_mem _ he1))

/-- A sum of differences over the segments from `prev` through `l` telescopes. -/
theorem sumOver_telescope (ψ : point_t T → T) (prev : point_t T) (l : List (point_t T)) :
    sumOver (fun u v => ψ u - ψ v) (edgesFrom prev l) = ψ prev - ψ (lastFrom prev l) := by
  induction l generalizing prev with
  | nil => simp [edgesFrom, sumOver_nil, lastFrom]
  | cons x l ih =>
    rw [edgesFrom, sumOver_cons, ih, lastFrom_cons]
    ring

theorem sumOver_add (f f1 : point_t T → point_t T → T) (l : List (point_t T × point_t T)) :
    sumOver (fun u v => f u v + f1 u v) l = sumOver f l + sumOver f1 l := by
  induction l with
  | nil => simp [sumOver_nil]
  | cons e l ih =>
    rw [sumOver_cons, sumOver_cons, sumOver_cons, ih]
    ring

/-- Over the segments of a cyclic list, a sum of differences is 0. -/
theorem sumOver_cyclic_telescope (ψ : point_t T → T) (l : List (point_t T)) :
    sumOver (fun u v => ψ u - ψ v) (cyclicSegments l) = 0 := by
  unfold cyclicSegments
  cases h : l.getLast? with
  | none => rfl
  | some prev =>
    simp only
    rw [sumOver_telescope, lastFrom_of_getLast? prev prev l h, sub_self]

/-! ### The pushes for one segment -/

end

end ImageGraph


namespace ImageGraph

open boost_geometry

theorem cyclicSegments_eq {T : Type} (l : List (point_t T)) (prev : point_t T)
    (hl : l.getLast? = some prev) : cyclicSegments l = edgesFrom prev l := by
  simp only [cyclicSegments, hl]

section
variable {T : Type} [LinearOrderedField T]

/-! ### The points and the segments of a clipped convex list -/

end

end ImageGraph


namespace ImageGraph

open boost_geometry

section
variable {T : Type} [LinearOrderedField T]

/-! ### The area of a clipped convex list -/

theorem sumOver_congr (f f1 : point_t T → point_t T → T) (l : List (point_t T × point_t T))
    (h : ∀ e ∈ l, f e.1 e.2 = f1 e.1 e.2) : sumOver f l = sumOver f1 l :=
  le_antisymm (sumOver_le f f1 l fun e he => le_of_eq (h e he))
    (sumOver_le f1 f l fun e he => le_of_eq (h e he).symm)

end

end ImageGraph


namespace ImageGraph

open boost_geometry

section
variable {T : Type} [LinearOrderedField T]

/-! ### Rings that go round once -/

end

end ImageGraph


namespace ImageGraph

open boost_geometry

theorem mem_closeRing {T : Type} (l : List (point_t T)) (p : point_t T) (hp : p ∈ closeRing l) :
    p ∈ l := by
  unfold closeRing at hp
  split at hp
  · rw [List.mem_append, List.mem_singleton] at hp
    rcases hp with hp | hp
    · exact hp
    · rw [hp]; exact List.mem_cons_self _ _
  · exact hp

theorem mem_segments_closeRing {T : Type} (l : List (point_t T)) (e : point_t T × point_t T)
    (he : e ∈ segments (closeRing l)) : e ∈ cyclicSegments l := by
  match l with
  | [] => cases he
  | [o] => cases he
  | front :: second :: rest =>
    have hlast := getLast?_eq_lastFrom front (front :: second :: rest) (by simp)
    rw [cyclicSegments_eq _ _ hlast]
    simp only [closeRing, segments, List.cons_append] at he
    rw [show second :: (rest ++ [front]) = (second :: rest) ++ [front] from rfl,
      edgesFrom_append, List.mem_append] at he
    rw [edgesFrom.eq_2 (lastFrom front (front :: second :: rest)), List.mem_cons]
    rcases he with he | he
    · exact Or.inr he
    · simp only [edgesFrom, List.mem_singleton] at he
      rw [lastFrom_cons]
      exact Or.inl he

section
variable {T : Type} [LinearOrderedField T]

/-! ### `clipRing` on a convex ring -/

theorem closeRing_convex (l : List (point_t T)) (hc : ConvexCyclic l) :
    ConvexClockwise (closeRing l) := by
  intro c hcm e he
  exact hc c (mem_closeRing l c hcm) e (mem_segments_closeRing l e he)

theorem stride_self (sign s t : T) (o : point_t T) : stride sign s t o o = 0 := by
  simp only [stride, sub_self, mul_zero, max_self]

end

end ImageGraph


namespace ImageGraph

/-! ## The curve and the spiral as enumerations of a grid -/

theorem inSpan_finset (x k : Int) :
    ∃ s : Finset Int, s.card = k.natAbs ∧ ∀ v, v ∈ s ↔ inSpan (v - x) k := by
  by_cases h : 0 < k
  · refine ⟨Finset.Ico x (x + k), ?_, fun v => ?_⟩
    · rw [Int.card_Ico]; omega
    · rw [Finset.mem_Ico]; unfold inSpan; omega
  · refine ⟨Finset.Ioc (x + k) x, ?_, fun v => ?_⟩
    · rw [Int.card_Ioc]; omega
    · rw [Finset.mem_Ioc]; unfold inSpan; omega

theorem enumerates_box_length (l : List Point) (x y w h : Int)
    (hE : Enumerates l (fun p => inSpan (p.1 - x) w ∧ inSpan (p.2 - y) h)) :
    l.length = w.natAbs * h.natAbs := by
  obtain ⟨s1, hc1, hm1⟩ := inSpan_finset x w
  obtain ⟨s2, hc2, hm2⟩ := inSpan_finset y h
  have e : l.toFinset = s1 ×ˢ s2 := by
    ext p
    rw [List.mem_toFinset, hE.2 p, Finset.mem_product, hm1, hm2]
  rw [← List.toFinset_card_of_nodup hE.1, e, Finset.card_product, hc1, hc2]

theorem enumerates_range_length (l : List Point) (x_min y_min x_max y_max : Int)
    (hE : Enumerates l (fun p => x_min ≤ p.1 ∧ p.1 ≤ x_max ∧ y_min ≤ p.2 ∧ p.2 ≤ y_max)) :
    l.length = (x_max + 1 - x_min).toNat * (y_max + 1 - y_min).toNat := by
  have e : l.toFinset = Finset.Icc x_min x_max ×ˢ Finset.Icc y_min y_max := by
    ext p
    rw [List.mem_toFinset, hE.2 p, Finset.mem_product, Finset.mem_Icc, Finset.mem_Icc]
    constructor
    · rintro ⟨a, b, c, d⟩; exact ⟨⟨a, b⟩, c, d⟩
    · rintro ⟨⟨a, b⟩, c, d⟩; exact ⟨a, b, c, d⟩
  rw [← List.toFinset_card_of_nodup hE.1, e, Finset.card_product, Int.card_Icc, Int.card_Icc]

/-- C34: `gilbert2d` is a total enumeration of the grid.  For every start `(x, y)`, every
width and height with `|width| >= 1` and `|height| >= 1`, of either sign, and either major
direction (or none given), the recursion ends: there is one list of points that `gilbert2d`
passes to the functor for every recursion bound from `|width| + |height|` on.  The functor is
called `|width| * |height|` times, no cell is passed twice, and the cells passed are exactly
the cells of the rectangle spanned from `(x, y)` in the directions of the signs. -/
theorem gilbert2d_enumerates_the_grid (x y width height : Int) (direction : Option Direction)
    (hw : 1 ≤ width.natAbs) (hh : 1 ≤ height.natAbs) :
    ∃ cells,
      (∀ fuel, width.natAbs + height.natAbs ≤ fuel →
        gilbert2d fuel x y width height direction = some cells) ∧
      cells.length = width.natAbs * height.natAbs ∧ cells.Nodup ∧
      (∀ p, p ∈ cells ↔ inSpan (p.1 - x) width ∧ inSpan (p.2 - y) height) := by
  obtain ⟨l, hl, hE⟩ := gilbert2d_spec (width.natAbs + height.natAbs) x y width height direction
    (by omega) (by omega) (le_refl _)
  refine ⟨l, ?_, enumerates_box_length l x y width height hE, hE.1, hE.2⟩
  intro fuel hf
  obtain ⟨extra, rfl⟩ := Nat.exists_eq_add_of_le hf
  exact gilbert2d_fuel_mono _ extra x y width height direction l hl

theorem gilbert2d_enumerates_the_grid_witness :
    ∃ cells,
      (∀ fuel, (4 : Int).natAbs + (4 : Int).natAbs ≤ fuel →
        gilbert2d fuel 0 0 4 4 none = some cells) ∧
      cells.length = (4 : Int).natAbs * (4 : Int).natAbs ∧ cells.Nodup ∧
      (∀ p, p ∈ cells ↔ inSpan (p.1 - 0) 4 ∧ inSpan (p.2 - 0) 4) :=
  gilbert2d_enumerates_the_grid 0 0 4 4 none (by decide) (by decide)

/-- C35: the spiral enumerates every cell exactly once.  For `x_min <= x_start <= x_max` and
`y_min <= y_start <= y_max`, `simple_spiral` ends, passes `(x_start, y_start)` first and
passes each cell of `[x_min, x_max] x [y_min, y_max]` exactly once; and `gilbert_spiral` with
tile sizes of at least 1 ends (with one result for every recursion bound from
`tile_width + tile_height` on) and passes each cell of that range exactly once, which makes
`(x_max - x_min + 1) * (y_max - y_min + 1)` calls of the functor. -/
theorem spiral_enumerates_every_cell (x_start y_start x_min y_min x_max y_max : Int)
    (hx1 : x_min ≤ x_start) (hx2 : x_start ≤ x_max) (hy1 : y_min ≤ y_start)
    (hy2 : y_start ≤ y_max) :
    (∃ rest,
      simple_spiral x_start y_start x_min y_min x_max y_max =
        some (⟨.TOP, x_start, y_start⟩ :: rest) ∧
      ((⟨.TOP, x_start, y_start⟩ :: rest : List SpiralInfo).map SpiralInfo.cell).Nodup ∧
      (∀ p, p ∈ (⟨.TOP, x_start, y_start⟩ :: rest : List SpiralInfo).map SpiralInfo.cell ↔
        x_min ≤ p.1 ∧ p.1 ≤ x_max ∧ y_min ≤ p.2 ∧ p.2 ≤ y_max)) ∧
    (∀ tile_width tile_height : Nat, 1 ≤ tile_width → 1 ≤ tile_height →
      ∃ cells,
        (∀ fuel, tile_width + tile_height ≤ fuel →
          gilbert_spiral fuel x_start y_start x_min y_min x_max y_max tile_width tile_height =
            some cells) ∧
        cells.Nodup ∧
        (∀ p, p ∈ cells ↔ x_min ≤ p.1 ∧ p.1 ≤ x_max ∧ y_min ≤ p.2 ∧ p.2 ≤ y_max) ∧
        cells.length = (x_max + 1 - x_min).toNat * (y_max + 1 - y_min).toNat) := by
  constructor
  · obtain ⟨rest, hrest, hE⟩ :=
      simple_spiral_spec x_start y_start x_min y_min x_max y_max hx1 hx2 hy1 hy2
    exact ⟨rest, hrest, hE.1, hE.2⟩
  · intro tw th htw hth
    obtain ⟨l, hl, hE⟩ := gilbert_spiral_spec (tw + th) x_start y_start x_min y_min x_max y_max
      tw th hx1 hx2 hy1 hy2 htw hth (le_refl _)
    refine ⟨l, ?_, hE.1, hE.2, enumerates_range_length l x_min y_min x_max y_max hE⟩
    intro fuel hf
    obtain ⟨extra, rfl⟩ := Nat.exists_eq_add_of_le hf
    exact gilbert_spiral_fuel_mono _ extra x_start y_start x_min y_min x_max y_max tw th l hl

theorem spiral_enumerates_every_cell_witness :
    ∃ cells,
      (∀ fuel, 4 + 4 ≤ fuel → gilbert_spiral fuel 4 4 0 0 11 11 4 4 = some cells) ∧
      cells.Nodup ∧
      (∀ p, p ∈ cells ↔ (0 : Int) ≤ p.1 ∧ p.1 ≤ 11 ∧ (0 : Int) ≤ p.2 ∧ p.2 ≤ 11) ∧
      cells.length = ((11 : Int) + 1 - 0).toNat * ((11 : Int) + 1 - 0).toNat :=
  (spiral_enumerates_every_cell 4 4 0 0 11 11 (by decide) (by decide) (by decide)
    (by decide)).2 4 4 (by decide) (by decide)

end ImageGraph


namespace ImageGraph

/-! ## The spread of the generations over the sinks -/

theorem sum_map_set {β : Type} (f : β → Nat) (e1 : β) :
    ∀ (l : List β) (k : Nat) (e : β), l[k]? = some e →
      ((l.set k e1).map f).sum + f e = (l.map f).sum + f e1 := by
  intro l
  induction l with
  | nil => intro k e h; simp at h
  | cons a rest ih =>
    intro k e h
    cases k with
    | zero =>
      simp only [List.getElem?_cons_zero, Option.some.injEq] at h
      subst h
      simp only [List.set_cons_zero, List.map_cons, List.sum_cons]
      omega
    | succ k =>
      rw [List.getElem?_cons_succ] at h
      have := ih k e h
      simp only [List.set_cons_succ, List.map_cons, List.sum_cons]
      omega

theorem map_set_same {β γ : Type} (f : β → γ) (e1 : β) :
    ∀ (l : List β) (k : Nat) (e : β), l[k]? = some e → f e1 = f e →
      (l.set k e1).map f = l.map f := by
  intro l
  induction l with
  | nil => intro k e h; simp at h
  | cons a rest ih =>
    intro k e h hf
    cases k with
    | zero =>
      simp only [List.getElem?_cons_zero, Option.some.injEq] at h
      subst h
      simp only [List.set_cons_zero, List.map_cons, hf]
    | succ k =>
      rw [List.getElem?_cons_succ] at h
      simp only [List.set_cons_succ, List.map_cons, ih k e h hf]

end ImageGraph


namespace ImageGraph

/-! ## The requests of the tasks and of the proto tasks -/

theorem HilbertRegion_perform_eq (fuel : Nat) (rect : Rectangle) (node tile : RectangleDimensions) :
    HilbertRegion.perform fuel rect node tile =
      (HilbertRegion.generateGenerator fuel rect tile).map fun ps => ps.map (tileAt node tile) := by
  unfold HilbertRegion.perform HilbertRegion.generateGenerator
  split_ifs <;> rfl

theorem HilbertRegion_generateGenerator_total (fuel : Nat) (rect : Rectangle)
    (tile : RectangleDimensions) (hf : HilbertRegion.fuelBound rect tile ≤ fuel) :
    ∃ ps, HilbertRegion.generateGenerator fuel rect tile = some ps := by
  by_cases he : rect.empty = true ∨ tile.empty = true
  · refine ⟨[], ?_⟩
    unfold HilbertRegion.generateGenerator
    rw [if_pos he]
  · have hr : rect.empty = false := by
      cases hre : rect.empty
      · rfl
      · exact absurd (Or.inl hre) he
    have ht : tile.empty = false := by
      cases hte : tile.empty
      · rfl
      · exact absurd (Or.inr hte) he
    obtain ⟨ps, hps, _⟩ := HilbertRegion_generateGenerator_spec fuel rect tile hr ht hf
    exact ⟨ps, hps⟩

theorem Tiler_drain_of_le :
    ∀ (calls : Nat) (t : HilbertRegion.Tiler), t.curve_.length ≤ calls →
      t.drain calls = some (t.curve_.map (tileAt t.node_ t.tile_)) := by
  intro calls
  induction calls with
  | zero =>
    intro t h
    obtain ⟨r, n, tl, c⟩ := t
    cases c with
    | nil => rfl
    | cons p rest => simp at h
  | succ calls ih =>
    intro t h
    obtain ⟨r, n, tl, c⟩ := t
    cases c with
    | nil => rfl
    | cons p rest =>
      simp only [List.length_cons, Nat.add_le_add_iff_right] at h
      have := ih ⟨r, n, tl, rest⟩ h
      simp only [HilbertRegion.Tiler.drain, HilbertRegion.Tiler.remaining,
        HilbertRegion.Tiler.next, List.isEmpty_cons, Bool.not_false, if_true, this,
        Option.map_some', List.map_cons]

theorem Tiler_drain_sound :
    ∀ (calls : Nat) (t : HilbertRegion.Tiler) (rs : List Rectangle), t.drain calls = some rs →
      rs = t.curve_.map (tileAt t.node_ t.tile_) := by
  intro calls
  induction calls with
  | zero =>
    intro t rs h
    obtain ⟨r, n, tl, c⟩ := t
    cases c with
    | nil =>
      simp only [HilbertRegion.Tiler.drain, HilbertRegion.Tiler.remaining, List.isEmpty_nil,
        Bool.not_true, Bool.false_eq_true, if_false, Option.some.injEq] at h
      rw [← h]; rfl
    | cons p rest =>
      simp [HilbertRegion.Tiler.drain, HilbertRegion.Tiler.remaining] at h
  | succ calls ih =>
    intro t rs h
    obtain ⟨r, n, tl, c⟩ := t
    cases c with
    | nil =>
      simp only [HilbertRegion.Tiler.drain, HilbertRegion.Tiler.remaining, List.isEmpty_nil,
        Bool.not_true, Bool.false_eq_true, if_false, Option.some.injEq] at h
      rw [← h]; rfl
    | cons p rest =>
      simp only [HilbertRegion.Tiler.drain, HilbertRegion.Tiler.remaining,
        HilbertRegion.Tiler.next, List.isEmpty_cons, Bool.not_false, if_true,
        Option.map_eq_some'] at h
      obtain ⟨rest1, h1, rfl⟩ := h
      rw [ih ⟨r, n, tl, rest⟩ rest1 h1]
      rfl

theorem TilingTask_requests_of_le :
    ∀ (calls : Nat) (t : TilingTask), t.tiler_.curve_.length ≤ calls →
      requiredTasks TilingTask.allGenerated TilingTask.generateRequiredTaskImpl calls t =
        some (t.tiler_.curve_.map fun p => (t.node_.self, tileAt t.tiler_.node_ t.tiler_.tile_ p)) := by
  intro calls
  induction calls with
  | zero =>
    intro t h
    obtain ⟨node, r, n, tl, c⟩ := t
    cases c with
    | nil => rfl
    | cons p rest => simp at h
  | succ calls ih =>
    intro t h
    obtain ⟨node, r, n, tl, c⟩ := t
    cases c with
    | nil => rfl
    | cons p rest =>
      simp only [List.length_cons, Nat.add_le_add_iff_right] at h
      have := ih ⟨node, r, n, tl, rest⟩ h
      simp only [requiredTasks, TilingTask.allGenerated, TilingTask.generateRequiredTaskImpl,
        HilbertRegion.Tiler.remaining, HilbertRegion.Tiler.next, List.isEmpty_cons,
        Bool.not_false, Bool.not_true, this, Option.map_some', List.map_cons]

theorem TilingTask_requests_sound :
    ∀ (calls : Nat) (t : TilingTask) (rs : List Request),
      requiredTasks TilingTask.allGenerated TilingTask.generateRequiredTaskImpl calls t = some rs →
      rs = t.tiler_.curve_.map fun p =>
        (t.node_.self, tileAt t.tiler_.node_ t.tiler_.tile_ p) := by
  intro calls
  induction calls with
  | zero =>
    intro t rs h
    obtain ⟨node, r, n, tl, c⟩ := t
    cases c with
    | nil =>
      simp only [requiredTasks, TilingTask.allGenerated, HilbertRegion.Tiler.remaining,
        List.isEmpty_nil, Bool.not_true, Bool.not_false, Option.some.injEq] at h
      rw [← h]; rfl
    | cons p rest =>
      simp [requiredTasks, TilingTask.allGenerated, HilbertRegion.Tiler.remaining] at h
  | succ calls ih =>
    intro t rs h
    obtain ⟨node, r, n, tl, c⟩ := t
    cases c with
    | nil =>
      simp only [requiredTasks, TilingTask.allGenerated, HilbertRegion.Tiler.remaining,
        List.isEmpty_nil, Bool.not_true, Bool.not_false, Option.some.injEq] at h
      rw [← h]; rfl
    | cons p rest =>
      simp only [requiredTasks, TilingTask.allGenerated, TilingTask.generateRequiredTaskImpl,
        HilbertRegion.Tiler.remaining, HilbertRegion.Tiler.next, List.isEmpty_cons,
        Bool.not_false, Bool.not_true, Option.map_eq_some'] at h
      obtain ⟨rest1, h1, rfl⟩ := h
      rw [ih ⟨node, r, n, tl, rest⟩ rest1 h1]
      rfl

theorem requiredTasks_succ {σ : Type} (allGenerated : σ → Option Bool)
    (generateRequiredTaskImpl : σ → Option (Request × σ)) :
    ∀ (fuel : Nat) (t : σ) (rs : List Request),
      requiredTasks allGenerated generateRequiredTaskImpl fuel t = some rs →
      requiredTasks allGenerated generateRequiredTaskImpl (fuel + 1) t = some rs := by
  intro fuel
  induction fuel with
  | zero =>
    intro t rs h
    simp only [requiredTasks] at h ⊢
    cases ha : allGenerated t with
    | none => rw [ha] at h; cases h
    | some b =>
      rw [ha] at h
      cases b with
      | true => exact h
      | false => cases h
  | succ fuel ih =>
    intro t rs h
    rw [requiredTasks] at h ⊢
    cases ha : allGenerated t with
    | none => rw [ha] at h; cases h
    | some b =>
      rw [ha] at h
      cases b with
      | true => exact h
      | false =>
        simp only [] at h ⊢
        cases hg : generateRequiredTaskImpl t with
        | none => rw [hg] at h; cases h
        | some x =>
          obtain ⟨request, t1⟩ := x
          rw [hg] at h
          simp only [Option.map_eq_some'] at h ⊢
          obtain ⟨rest, h1, rfl⟩ := h
          exact ⟨rest, ih t1 rest h1, rfl⟩

theorem requiredTasks_mono {σ : Type} (allGenerated : σ → Option Bool)
    (generateRequiredTaskImpl : σ → Option (Request × σ)) (fuel extra : Nat) (t : σ)
    (rs : List Request)
    (h : requiredTasks allGenerated generateRequiredTaskImpl fuel t = some rs) :
    requiredTasks allGenerated generateRequiredTaskImpl (fuel + extra) t = some rs := by
  induction extra with
  | zero => exact h
  | succ k ih => exact requiredTasks_succ _ _ (fuel + k) t rs ih

theorem ComputeTileTask_requests_of_le (node : InputOutputNode) (region : Rectangle) :
    ∀ (n c fuel : Nat), c + n = node.inputCount → n ≤ fuel →
      requiredTasks ComputeTileTask.allGenerated ComputeTileTask.generateRequiredTaskImpl fuel
        ⟨node, region, c⟩ = ComputeTileProtoTask.loop node region c n := by
  intro n
  induction n with
  | zero =>
    intro c fuel hc _
    have hcn : c = node.inputCount := by omega
    cases fuel <;>
      simp [requiredTasks, ComputeTileTask.allGenerated, ComputeTileProtoTask.loop, hcn]
  | succ n ih =>
    intro c fuel hc hf
    obtain ⟨fuel, rfl⟩ : ∃ f, fuel = f + 1 := ⟨fuel - 1, by omega⟩
    have hlt : c < node.inputCount := by omega
    have hle : c ≤ node.inputCount := by omega
    have hb : (c == node.inputCount) = false := by
      rw [beq_eq_false_iff_ne]; omega
    simp only [requiredTasks, ComputeTileTask.allGenerated, if_pos hle, hb,
      ComputeTileTask.generateRequiredTaskImpl, if_pos hlt,
      ComputeTileProtoTask.loop, InputOutputNode.typedInputNode, InputOutputNode.inputNode]
    cases h1 : node.inputs_[c]? with
    | none => rfl
    | some input =>
      cases h2 : node.inputRegion c region with
      | none => rfl
      | some r =>
        simp only []
        rw [ih (c + 1) fuel (by omega) (by omega)]

theorem ComputeTileProtoTask_loop_spec (node : InputOutputNode) (region : Rectangle) :
    ∀ (n c : Nat) (rs : List Request), ComputeTileProtoTask.loop node region c n = some rs →
      rs.length = n ∧
      ∀ i, i < n → ∃ input r, node.inputNode (c + i) = some input ∧
        node.inputRegion (c + i) region = some r ∧ rs[i]? = some (input, r) := by
  intro n
  induction n with
  | zero =>
    intro c rs h
    simp only [ComputeTileProtoTask.loop, Option.some.injEq] at h
    subst h
    exact ⟨rfl, fun i hi => absurd hi (Nat.not_lt_zero i)⟩
  | succ n ih =>
    intro c rs h
    rw [ComputeTileProtoTask.loop] at h
    cases h1 : node.inputNode c with
    | none => rw [h1] at h; cases h
    | some input =>
      cases h2 : node.inputRegion c region with
      | none => rw [h1, h2] at h; cases h
      | some r =>
        rw [h1, h2] at h
        simp only [Option.map_eq_some'] at h
        obtain ⟨rest, hrest, rfl⟩ := h
        obtain ⟨hlen, hget⟩ := ih (c + 1) rest hrest
        refine ⟨by rw [List.length_cons, hlen], ?_⟩
        intro i hi
        cases i with
        | zero => exact ⟨input, r, h1, h2, List.getElem?_cons_zero⟩
        | succ i =>
          obtain ⟨input1, r1, k1, k2, k3⟩ := hget i (by omega)
          refine ⟨input1, r1, ?_, ?_, ?_⟩
          · rw [← k1]; congr 1; omega
          · rw [← k2]; congr 1; omega
          · rw [List.getElem?_cons_succ]; exact k3

theorem ComputeTileProtoTask_loop_total (node : InputOutputNode) (region : Rectangle) :
    ∀ (n c : Nat), c + n = node.inputCount →
      (∀ i, i < node.inputCount → (node.inputDimensions i).isSome = true) →
      ∃ rs, ComputeTileProtoTask.loop node region c n = some rs := by
  intro n
  induction n with
  | zero => intro c _ _; exact ⟨[], rfl⟩
  | succ n ih =>
    intro c hc hd
    have hlt : c < node.inputCount := by omega
    obtain ⟨rest, hrest⟩ := ih (c + 1) (by omega) hd
    obtain ⟨d, hdd⟩ := Option.isSome_iff_exists.1 (hd c hlt)
    have h1 : node.inputNode c = some (node.inputs_[c]) := by
      unfold InputOutputNode.inputNode
      exact List.getElem?_eq_getElem hlt
    have h2 : node.inputRegion c region =
        some ((node.rawInputRegion c region).clipDimensions d) := by
      unfold OutNode.inputRegion
      rw [hdd]
    refine ⟨(node.inputs_[c], (node.rawInputRegion c region).clipDimensions d) :: rest, ?_⟩
    rw [ComputeTileProtoTask.loop, h1, h2]
    simp only [hrest, Option.map_some']

/-- C32: the simulator enumerates the same dependencies as the real task.  For every
rectangle, node dimensions and tile dimensions, `HilbertRegion::perform` (used by
`TilingProtoTask`) returns, and it calls its functor on exactly the sequence of rectangles
that successive `next()` calls on a `HilbertRegion` built from the same arguments return while
`remaining()` is true (used by `TilingTask`); so the requests of a `TilingProtoTask` are the
requests of the `TilingTask`, in order.  And `ComputeTileProtoTask` requests
`inputRegion(i, region)` of `inputNode(i)` for `i = 0, ..., inputCount - 1`, in the order in
which `ComputeTileTask` requests them; it returns when the input nodes exist. -/
theorem simulator_enumerates_the_same_dependencies :
    (∀ (fuel : Nat) (rect : Rectangle) (node tile : RectangleDimensions),
      HilbertRegion.fuelBound rect tile ≤ fuel →
      ∃ rs t, HilbertRegion.perform fuel rect node tile = some rs ∧
        HilbertRegion.Tiler.new fuel rect node tile = some t ∧
        ∀ calls, rs.length ≤ calls → t.drain calls = some rs) ∧
    (∀ (fuel calls : Nat) (rect : Rectangle) (node tile : RectangleDimensions)
      (t : HilbertRegion.Tiler) (rs : List Rectangle),
      HilbertRegion.Tiler.new fuel rect node tile = some t → t.drain calls = some rs →
      HilbertRegion.perform fuel rect node tile = some rs) ∧
    (∀ (fuel : Nat) (node : InputOutputNode) (region : Rectangle) (tile : RectangleDimensions),
      HilbertRegion.fuelBound region tile ≤ fuel →
      ∃ rs, TilingProtoTask.performRequiredTasks fuel node region tile = some rs ∧
        ∀ calls, rs.length ≤ calls →
          TilingTask.requests fuel calls node region tile = some rs) ∧
    (∀ (fuel calls : Nat) (node : InputOutputNode) (region : Rectangle)
      (tile : RectangleDimensions) (rs : List Request),
      TilingTask.requests fuel calls node region tile = some rs →
      TilingProtoTask.performRequiredTasks fuel node region tile = some rs) ∧
    (∀ (node : InputOutputNode) (region : Rectangle) (fuel : Nat), node.inputCount ≤ fuel →
      ComputeTileTask.requests fuel node region =
        ComputeTileProtoTask.performRequiredTasks node region) ∧
    (∀ (node : InputOutputNode) (region : Rectangle) (fuel : Nat) (rs : List Request),
      ComputeTileTask.requests fuel node region = some rs →
      ComputeTileProtoTask.performRequiredTasks node region = some rs) ∧
    (∀ (node : InputOutputNode) (region : Rectangle),
      (∀ i, i < node.inputCount → (node.inputDimensions i).isSome = true) →
      ∃ rs, ComputeTileProtoTask.performRequiredTasks node region = some rs) ∧
    (∀ (node : InputOutputNode) (region : Rectangle) (rs : List Request),
      ComputeTileProtoTask.performRequiredTasks node region = some rs →
      rs.length = node.inputCount ∧
      ∀ i, i < node.inputCount → ∃ input r, node.inputNode i = some input ∧
        node.inputRegion i region = some r ∧ rs[i]? = some (input, r)) := by
  refine ⟨?_, ?_, ?_, ?_, ?_, ?_, ?_, ?_⟩
  · intro fuel rect node tile hf
    obtain ⟨ps, hps⟩ := HilbertRegion_generateGenerator_total fuel rect tile hf
    refine ⟨ps.map (tileAt node tile), ⟨rect, node, tile, ps⟩, ?_, ?_, ?_⟩
    · rw [HilbertRegion_perform_eq, hps]; rfl
    · unfold HilbertRegion.Tiler.new; rw [hps]; rfl
    · intro calls hc
      rw [List.length_map] at hc
      exact Tiler_drain_of_le calls ⟨rect, node, tile, ps⟩ hc
  · intro fuel calls rect node tile t rs hnew hdrain
    unfold HilbertRegion.Tiler.new at hnew
    simp only [Option.map_eq_some'] at hnew
    obtain ⟨ps, hps, rfl⟩ := hnew
    rw [HilbertRegion_perform_eq, hps, Tiler_drain_sound calls _ rs hdrain]
    rfl
  · intro fuel node region tile hf
    obtain ⟨ps, hps⟩ := HilbertRegion_generateGenerator_total fuel region tile hf
    refine ⟨ps.map fun p => (node.self, tileAt node.dimensions tile p), ?_, ?_⟩
    · unfold TilingProtoTask.performRequiredTasks
      rw [HilbertRegion_perform_eq, hps]
      simp only [Option.map_some', List.map_map]
      rfl
    · intro calls hc
      rw [List.length_map] at hc
      unfold TilingTask.requests TilingTask.new HilbertRegion.Tiler.new
      rw [hps]
      exact TilingTask_requests_of_le calls ⟨node, region, node.dimensions, tile, ps⟩ hc
  · intro fuel calls node region tile rs h
    unfold TilingTask.requests TilingTask.new HilbertRegion.Tiler.new at h
    cases hps : HilbertRegion.generateGenerator fuel region tile with
    | none => rw [hps] at h; cases h
    | some ps =>
      rw [hps] at h
      have := TilingTask_requests_sound calls _ rs h
      unfold TilingProtoTask.performRequiredTasks
      rw [HilbertRegion_perform_eq, hps, this]
      simp only [Option.map_some', List.map_map]
      rfl
  · intro node region fuel hf
    exact ComputeTileTask_requests_of_le node region node.inputCount 0 fuel (Nat.zero_add _) hf
  · intro node region fuel rs h
    have := requiredTasks_mono _ _ fuel node.inputCount _ rs h
    rw [← this]
    exact (ComputeTileTask_requests_of_le node region node.inputCount 0 (fuel + node.inputCount)
      (Nat.zero_add _) (Nat.le_add_left _ _)).symm
  · intro node region hd
    exact ComputeTileProtoTask_loop_total node region node.inputCount 0 (Nat.zero_add _) hd
  · intro node region rs h
    obtain ⟨hlen, hget⟩ := ComputeTileProtoTask_loop_spec node region node.inputCount 0 rs h
    refine ⟨hlen, fun i hi => ?_⟩
    obtain ⟨input, r, h1, h2, h3⟩ := hget i hi
    rw [Nat.zero_add] at h1 h2
    exact ⟨input, r, h1, h2, h3⟩

theorem simulator_enumerates_the_same_dependencies_witness :
    ∃ rs t, HilbertRegion.perform 4 ⟨0, 0, 64, 64⟩ ⟨64, 64⟩ ⟨32, 32⟩ = some rs ∧
      HilbertRegion.Tiler.new 4 ⟨0, 0, 64, 64⟩ ⟨64, 64⟩ ⟨32, 32⟩ = some t ∧
      ∀ calls, rs.length ≤ calls → t.drain calls = some rs :=
  simulator_enumerates_the_same_dependencies.1 4 ⟨0, 0, 64, 64⟩ ⟨64, 64⟩ ⟨32, 32⟩ (by decide)

end ImageGraph


namespace ImageGraph

/-! ## The rectangles of a tiling task are tiles -/

/-- The tile of a point of the tile grid whose corner lies in the node: it starts at that
corner, it is not empty and `isTile` holds for it. -/
theorem tileAt_isTile (node : RectangleDimensions) (a b : Nat)
    (ha : a * 32 < node.width) (hb : b * 32 < node.height) :
    (tileAt node TiledOutputNode.tileDimensions ((a : Int), (b : Int))).left = a * 32 ∧
    (tileAt node TiledOutputNode.tileDimensions ((a : Int), (b : Int))).top = b * 32 ∧
    0 < (tileAt node TiledOutputNode.tileDimensions ((a : Int), (b : Int))).width ∧
    0 < (tileAt node TiledOutputNode.tileDimensions ((a : Int), (b : Int))).height ∧
    TiledOutputNode.isTile node
      (tileAt node TiledOutputNode.tileDimensions ((a : Int), (b : Int))) = true := by
  have e1 : ((a : Int) * ((32 : Nat) : Int)).toNat = a * 32 := by
    rw [← Int.natCast_mul]; exact Int.toNat_natCast _
  have e2 : ((b : Int) * ((32 : Nat) : Int)).toNat = b * 32 := by
    rw [← Int.natCast_mul]; exact Int.toNat_natCast _
  have hl : (tileAt node TiledOutputNode.tileDimensions ((a : Int), (b : Int))).left = a * 32 := by
    simp only [tileAt, TiledOutputNode.tileDimensions, e1, e2, Rectangle.ofPoint,
      Rectangle.clipDimensions]
    split_ifs <;> dsimp only at * <;> omega
  have ht : (tileAt node TiledOutputNode.tileDimensions ((a : Int), (b : Int))).top = b * 32 := by
    simp only [tileAt, TiledOutputNode.tileDimensions, e1, e2, Rectangle.ofPoint,
      Rectangle.clipDimensions]
    split_ifs <;> dsimp only at * <;> omega
  refine ⟨hl, ht, ?_, ?_, ?_⟩
  · simp only [tileAt, TiledOutputNode.tileDimensions, e1, e2, Rectangle.ofPoint,
      Rectangle.clipDimensions]
    split_ifs <;> dsimp only at * <;> omega
  · simp only [tileAt, TiledOutputNode.tileDimensions, e1, e2, Rectangle.ofPoint,
      Rectangle.clipDimensions]
    split_ifs <;> dsimp only at * <;> omega
  · unfold TiledOutputNode.isTile
    rw [hl, ht]
    have h32w : TiledOutputNode.tileDimensions.width = 32 := rfl
    have h32h : TiledOutputNode.tileDimensions.height = 32 := rfl
    rw [h32w, h32h, if_neg (by omega)]
    rw [decide_eq_true_eq]
    simp only [tileAt, e1, e2, h32w, h32h]

theorem HilbertRegion_generateGenerator_mono (fuel extra : Nat) (rect : Rectangle)
    (tile : RectangleDimensions) (ps : List Point)
    (h : HilbertRegion.generateGenerator fuel rect tile = some ps) :
    HilbertRegion.generateGenerator (fuel + extra) rect tile = some ps := by
  unfold HilbertRegion.generateGenerator at h ⊢
  split_ifs at h ⊢
  · exact h
  · exact gilbert2d_fuel_mono fuel extra _ _ _ _ _ ps h

/-- C36: a tiling task only requests canonical tiles.  For every non-empty rectangle `r`
contained in the dimensions of a node, `HilbertRegion(r, node dimensions, tile dimensions)`
with the tile dimensions of the node produces its rectangles (one sequence for every recursion
bound from that of its grid on); each of them satisfies `isTile` and is not empty, so that
`typedTask` and `protoTask` make a compute task of it and not another tiling task; and every
pixel of `r` lies in one of them. -/
theorem tiling_task_requests_canonical_tiles (node : RectangleDimensions) (r : Rectangle)
    (hne : r.empty = false) (hin : r.within node) :
    ∃ rs,
      (∀ fuel, HilbertRegion.fuelBound r TiledOutputNode.tileDimensions ≤ fuel →
        HilbertRegion.next fuel r node TiledOutputNode.tileDimensions = some rs) ∧
      (∀ t ∈ rs, TiledOutputNode.isTile node t = true ∧ t.empty = false ∧
        TiledInputOutputNode.typedTask node t = TaskKind.ComputeTile t ∧
        TiledInputOutputNode.protoTask node t = TaskKind.ComputeTile t) ∧
      (∀ x y, r.covers x y → ∃ t ∈ rs, t.covers x y) := by
  obtain ⟨hrw, hrh⟩ := rectangle_nonempty r hne
  obtain ⟨hin1, hin2⟩ := hin
  obtain ⟨ps, hps, hnd, hmem⟩ := HilbertRegion_generateGenerator_spec
    (HilbertRegion.fuelBound r TiledOutputNode.tileDimensions) r TiledOutputNode.tileDimensions
    hne (by decide) (le_refl _)
  have h32w : TiledOutputNode.tileDimensions.width = 32 := rfl
  have h32h : TiledOutputNode.tileDimensions.height = 32 := rfl
  rw [h32w, h32h] at hmem
  have hX := Nat.div_mul_le_self (r.left + r.width - 1) 32
  have hY := Nat.div_mul_le_self (r.top + r.height - 1) 32
  refine ⟨ps.map (tileAt node TiledOutputNode.tileDimensions), ?_, ?_, ?_⟩
  · intro fuel hf
    obtain ⟨extra, rfl⟩ := Nat.exists_eq_add_of_le hf
    unfold HilbertRegion.next
    rw [HilbertRegion_generateGenerator_mono _ extra r _ ps hps]
    rfl
  · intro t ht
    obtain ⟨p, hp, rfl⟩ := List.mem_map.1 ht
    have hp1 := (hmem p).1 hp
    have ep : p = ((p.1.toNat : Int), (p.2.toNat : Int)) := by
      apply Prod.ext <;> simp only <;> omega
    rw [ep]
    have ha : p.1.toNat * 32 < node.width := by
      have : p.1.toNat ≤ (r.left + r.width - 1) / 32 := by omega
      have := Nat.mul_le_mul_right 32 this
      omega
    have hb : p.2.toNat * 32 < node.height := by
      have : p.2.toNat ≤ (r.top + r.height - 1) / 32 := by omega
      have := Nat.mul_le_mul_right 32 this
      omega
    obtain ⟨_, _, hw, hh, hT⟩ := tileAt_isTile node p.1.toNat p.2.toNat ha hb
    refine ⟨hT, ?_, ?_, ?_⟩
    · simp only [Rectangle.empty, Rectangle.dimensions, RectangleDimensions.empty,
        RectangleDimensions.size, beq_eq_false_iff_ne, ne_eq, Nat.mul_eq_zero, not_or]
      omega
    · unfold TiledInputOutputNode.typedTask
      rw [hT, if_pos rfl]
    · unfold TiledInputOutputNode.protoTask
      rw [hT, if_pos rfl]
  · intro x y hc
    obtain ⟨c1, c2, c3, c4⟩ := hc
    have hx1 : r.left / 32 ≤ x / 32 := Nat.div_le_div_right c1
    have hx2 : x / 32 ≤ (r.left + r.width - 1) / 32 := Nat.div_le_div_right (by omega)
    have hy1 : r.top / 32 ≤ y / 32 := Nat.div_le_div_right c3
    have hy2 : y / 32 ≤ (r.top + r.height - 1) / 32 := Nat.div_le_div_right (by omega)
    have hp : (((x / 32 : Nat) : Int), ((y / 32 : Nat) : Int)) ∈ ps := by
      rw [hmem]
      simp only
      omega
    refine ⟨tileAt node TiledOutputNode.tileDimensions (((x / 32 : Nat) : Int), ((y / 32 : Nat) : Int)),
      List.mem_map_of_mem _ hp, ?_⟩
    rw [tileAt_covers node TiledOutputNode.tileDimensions (x / 32) (y / 32) x y (by decide)
      (by decide)]
    rw [h32w, h32h]
    omega

theorem tiling_task_requests_canonical_tiles_witness :
    ∃ rs,
      (∀ fuel, HilbertRegion.fuelBound ⟨16, 16, 64, 40⟩ TiledOutputNode.tileDimensions ≤ fuel →
        HilbertRegion.next fuel ⟨16, 16, 64, 40⟩ ⟨100, 70⟩ TiledOutputNode.tileDimensions =
          some rs) ∧
      (∀ t ∈ rs, TiledOutputNode.isTile ⟨100, 70⟩ t = true ∧ t.empty = false ∧
        TiledInputOutputNode.typedTask ⟨100, 70⟩ t = TaskKind.ComputeTile t ∧
        TiledInputOutputNode.protoTask ⟨100, 70⟩ t = TaskKind.ComputeTile t) ∧
      (∀ x y, (⟨16, 16, 64, 40⟩ : Rectangle).covers x y → ∃ t ∈ rs, t.covers x y) :=
  tiling_task_requests_canonical_tiles ⟨100, 70⟩ ⟨16, 16, 64, 40⟩ (by decide)
    (by unfold Rectangle.within; decide)

end ImageGraph


namespace ImageGraph

/-! ## The cache size for the full byte number -/

theorem fullCacheSize_of_whole_tiles (nx ny ch eb : Nat) (hch : 1 ≤ ch) (heb : 1 ≤ eb) :
    TiledCachedOutputNode.fullCacheSize ⟨32 * nx, 32 * ny⟩ ch eb = some (nx * ny) ∧
    TiledOutputNode.tileNumber ⟨32 * nx, 32 * ny⟩ = nx * ny := by
  have hpos : 0 < eb * ch * (32 * 32) := by positivity
  have e : eb * (32 * nx * (32 * ny)) * ch = nx * ny * (eb * ch * (32 * 32)) := by ring
  constructor
  · simp only [TiledCachedOutputNode.fullCacheSize, TiledCachedOutputNode.fullByteNumber,
      TiledCachedOutputNode.cacheSizeFromBytes, TiledOutputNode.tileDimensions,
      RectangleDimensions.size, Nat.mul_div_cancel_left _ (by decide : 0 < 32)]
    rw [e, if_pos (le_refl _), sizeDiv_of_pos hpos, Nat.mul_div_cancel _ hpos]
  · simp only [TiledOutputNode.tileNumber, TiledOutputNode.tileDimensions]
    have h1 : (32 * nx + (32 - 1)) / 32 = nx := by omega
    have h2 : (32 * ny + (32 - 1)) / 32 = ny := by omega
    rw [h1, h2]

theorem fullCacheSize_of_small_node (wd ht ch eb : Nat) (hw : 0 < wd) (hw1 : wd < 32)
    (hh : 0 < ht) (hh1 : ht < 32) (hch : 1 ≤ ch) (heb : 1 ≤ eb) :
    TiledCachedOutputNode.fullCacheSize ⟨wd, ht⟩ ch eb = none := by
  have hfull : 0 < eb * (wd * ht) * ch := by positivity
  have hw0 : wd / 32 = 0 := Nat.div_eq_of_lt hw1
  have hh0 : ht / 32 = 0 := Nat.div_eq_of_lt hh1
  have hwm : wd % 32 = wd := Nat.mod_eq_of_lt hw1
  have hhm : ht % 32 = ht := Nat.mod_eq_of_lt hh1
  have e1 : wd * ht * (eb * ch) = eb * (wd * ht) * ch := by ring
  have e2 : ht * wd * (eb * ch) = eb * (wd * ht) * ch := by ring
  simp only [TiledCachedOutputNode.fullCacheSize, TiledCachedOutputNode.fullByteNumber,
    TiledCachedOutputNode.cacheSizeFromBytes, TiledOutputNode.tileDimensions,
    RectangleDimensions.size, hw0, hh0, hwm, hhm, Nat.zero_mul, Nat.mul_zero, Nat.le_zero,
    Nat.sub_zero, Nat.zero_add]
  rw [if_neg (by omega)]
  by_cases hc : wd ≥ ht
  · simp only [if_pos hc, Nat.zero_mul, Nat.mul_zero, Nat.le_zero, Nat.sub_zero, Nat.zero_add,
      Nat.add_zero, e1]
    rw [if_neg (by omega), if_neg (by omega)]
  · simp only [if_neg hc, Nat.zero_mul, Nat.mul_zero, Nat.le_zero, Nat.sub_zero, Nat.zero_add,
      Nat.add_zero, e2]
    rw [if_neg (by omega), if_neg (by omega)]

/-- C39 (a slip of the code): a node given its full byte number can cache every tile when its
width and height are multiples of 32: `cacheSizeFromBytes(fullByteNumber())` is then
`ceil(W / 32) * ceil(H / 32)`, the number of its tiles.  It is not so in general: for a node
smaller than a tile in both directions the full byte number fails the assertion of
`cacheSizeFromBytes` (the node has one tile); a node of 70x70 pixels gets 5 of its 9 tiles and
a node of 40x40 pixels 2 of its 4, since a tile of the strip beside the whole tiles is
charged with the bytes of the whole strip. -/
theorem full_byte_number_caches_every_tile_of_whole_tiles :
    (∀ nx ny ch eb : Nat, 1 ≤ ch → 1 ≤ eb →
      TiledCachedOutputNode.fullCacheSize ⟨32 * nx, 32 * ny⟩ ch eb =
        some (TiledOutputNode.tileNumber ⟨32 * nx, 32 * ny⟩)) ∧
    (∀ wd ht ch eb : Nat, 0 < wd → wd < 32 → 0 < ht → ht < 32 → 1 ≤ ch → 1 ≤ eb →
      TiledCachedOutputNode.fullCacheSize ⟨wd, ht⟩ ch eb = none ∧
      TiledOutputNode.tileNumber ⟨wd, ht⟩ = 1) ∧
    (TiledCachedOutputNode.fullByteNumber ⟨70, 70⟩ 1 1 = 4900 ∧
      TiledCachedOutputNode.cacheSizeFromBytes ⟨70, 70⟩ 1 1 4900 = some 5 ∧
      TiledOutputNode.tileNumber ⟨70, 70⟩ = 9 ∧
      TiledCachedOutputNode.fullCacheSize ⟨40, 40⟩ 1 1 = some 2 ∧
      TiledOutputNode.tileNumber ⟨40, 40⟩ = 4 ∧
      TiledCachedOutputNode.fullCacheSize ⟨16, 16⟩ 1 1 = none ∧
      TiledOutputNode.tileNumber ⟨16, 16⟩ = 1) := by
  refine ⟨?_, ?_, by decide⟩
  · intro nx ny ch eb hch heb
    obtain ⟨h1, h2⟩ := fullCacheSize_of_whole_tiles nx ny ch eb hch heb
    rw [h1, h2]
  · intro wd ht ch eb hw hw1 hh hh1 hch heb
    refine ⟨fullCacheSize_of_small_node wd ht ch eb hw hw1 hh hh1 hch heb, ?_⟩
    simp only [TiledOutputNode.tileNumber, TiledOutputNode.tileDimensions]
    have h1 : (wd + (32 - 1)) / 32 = 1 := by omega
    have h2 : (ht + (32 - 1)) / 32 = 1 := by omega
    rw [h1, h2]

theorem full_byte_number_caches_every_tile_of_whole_tiles_witness :
    TiledCachedOutputNode.fullCacheSize ⟨32 * 2, 32 * 3⟩ 3 4 =
      some (TiledOutputNode.tileNumber ⟨32 * 2, 32 * 3⟩) :=
  full_byte_number_caches_every_tile_of_whole_tiles.1 2 3 3 4 (by decide) (by decide)

end ImageGraph


namespace ImageGraph

/-! ## The proto-cache of a cache under later calls -/

theorem map_eraseP_key {K V : Type} [DecidableEq K] (k : K) (l : List (K × V)) :
    (l.eraseP fun e => decide (e.1 = k)).map Prod.fst = (l.map Prod.fst).erase k := by
  induction l with
  | nil => rfl
  | cons x xs ih =>
    by_cases h : x.1 = k
    · rw [List.eraseP_cons_of_pos (by simpa using h), List.map_cons, h, List.erase_cons_head]
    · rw [List.eraseP_cons_of_neg (by simpa using h), List.map_cons, List.map_cons, ih,
        List.erase_cons_tail (by simpa using h)]

theorem remove_overList_map {α β : Type} (f : α → β) (l : List α) (n : Nat) :
    (remove_overList l n).map f = remove_overList (l.map f) n := by
  rw [remove_overList_eq_drop, remove_overList_eq_drop, List.map_drop, List.length_map]

theorem found_keys {K V : Type} [DecidableEq K] (c : Cache K V) (k : K) :
    c.keys.set_.found k = c.data_.found k := by
  simp only [Cache.keys, LRUSet.found, LRUMap.found]
  induction c.data_.values_ with
  | nil => rfl
  | cons x xs ih => simp only [List.map_cons, List.any_cons, ih]

theorem keys_contains {K V : Type} [DecidableEq K] (c : Cache K V) (k : K) :
    c.keys.contains k = ((c.get k).1.isSome, (c.get k).2.keys) := by
  have hf := found_keys c k
  simp only [OrderedMapProtoCache.contains, LRUSet.exists_, Cache.get, LRUMap.at_, hf]
  cases hfind : c.data_.values_.find? fun e => decide (e.1 = k) with
  | none =>
    have hnf : c.data_.found k = false := by
      rw [LRUMap_found_eq_false_iff]
      intro e he hek
      have := List.find?_eq_none.1 hfind e he
      simp only [decide_eq_true_eq] at this
      exact this hek
    simp only [hnf, Bool.false_eq_true, if_false, Option.isSome_none]
  | some e =>
    have hek : e.1 = k := by
      have := List.find?_some hfind
      simpa using this
    have hfd : c.data_.found k = true := by
      simp only [LRUMap.found, List.any_eq_true, decide_eq_true_eq]
      exact ⟨e, List.mem_of_find?_eq_some hfind, hek⟩
    simp only [hfd, if_true, Option.isSome_some, Cache.keys, List.map_append, List.map_cons,
      List.map_nil, map_eraseP_key, hek]

theorem keys_put {K V : Type} [DecidableEq K] (c : Cache K V) (k : K) (v : V) :
    c.keys.put k = (c.put k v).map Cache.keys := by
  have hf := found_keys c k
  simp only [OrderedMapProtoCache.put, LRUSet.insert, Cache.put, LRUMap.insert, hf]
  by_cases h1 : c.data_.found k = true
  · simp only [h1, if_true, Option.map_none']
  · simp only [h1, Bool.false_eq_true, if_false]
    have hcap : c.keys.set_.capacity_ = c.data_.capacity_ := rfl
    rw [hcap]
    by_cases h2 : c.data_.capacity_ = 0
    · simp only [h2, if_true]
      have he : c.keys.set_.values_.isEmpty = c.data_.values_.isEmpty := by
        simp only [Cache.keys, List.isEmpty_eq_true, List.map_eq_nil_iff, List.isEmpty_iff]
        cases c.data_.values_ <;> rfl
      rw [he]
      by_cases h3 : c.data_.values_.isEmpty = true
      · simp only [h3, if_true, Option.map_some']
      · simp only [h3, Bool.false_eq_true, if_false, Option.map_none']
    · simp only [h2, if_false, Option.map_some', LRUSet.remove_over, LRUMap.remove_over,
        Cache.keys, List.map_append, List.map_cons, List.map_nil, remove_overList_map]

theorem keys_resize {K V : Type} [DecidableEq K] (c : Cache K V) (n : Nat) :
    c.keys.resize n = (c.resize n).keys := by
  simp only [OrderedMapProtoCache.resize, LRUSet.recapacitate, Cache.resize,
    LRUMap.recapacitate]
  have hcap : c.keys.set_.capacity_ = c.data_.capacity_ := rfl
  rw [hcap]
  by_cases h1 : c.data_.capacity_ = n
  · simp only [h1, if_true]
  · simp only [h1, if_false]
    by_cases h2 : n = 0
    · simp only [h2, if_true, Cache.keys, List.map_nil]
    · simp only [h2, if_false, LRUSet.remove_over, LRUMap.remove_over, Cache.keys,
        remove_overList_map]

/-- A proto-cache that holds the keys of a cache in the recency order of the cache answers
every later sequence of calls as the cache does. -/
theorem keys_runContains {K V : Type} [DecidableEq K] (ops : List (CacheOp K V)) :
    ∀ c : Cache K V, c.keys.runContains (ops.map CacheOp.toProto) = c.runHits ops := by
  induction ops with
  | nil => intro c; rfl
  | cons op ops ih =>
    intro c
    cases op with
    | put k v =>
      simp only [List.map_cons, CacheOp.toProto, OrderedMapProtoCache.runContains,
        Cache.runHits, Cache.runGets, Cache.step, keys_put c k v]
      cases c.put k v with
      | none => rfl
      | some c1 => exact ih c1
    | get k =>
      simp only [List.map_cons, CacheOp.toProto, OrderedMapProtoCache.runContains,
        Cache.runHits, Cache.runGets, keys_contains, ih, Option.map_map]
      cases (c.get k).2.runGets ops <;> rfl
    | resize n =>
      simp only [List.map_cons, CacheOp.toProto, OrderedMapProtoCache.runContains,
        Cache.runHits, Cache.runGets, Cache.step, keys_resize]
      exact ih (c.resize n)

/-- The proto-cache that `toProtoCache` makes of a cache reached from a new one holds the keys
of the cache in the reverse of its recency order. -/
theorem toProtoCache_eq_keys_reversed {K V : Type} [DecidableEq K] (n : Nat)
    (ops : List (CacheOp K V)) (c : Cache K V) (hr : (Cache.new n).run ops = some c) :
    c.toProtoCache = some c.reversed.keys := by
  obtain ⟨s, hs, hsc⟩ := run_exists_stamped ops ⟨Cache.new n, 0, []⟩ c hr
  have hord : s.Ordered :=
    StampedCache_run_ordered ops ⟨Cache.new n, 0, []⟩ s
      ⟨Nat.zero_le _, List.Pairwise.nil, fun e he => by cases he⟩ hs
  obtain ⟨hsz, hpw, _⟩ := hord
  rw [hsc] at hsz hpw
  have hnd := keys_nodup_of_stamp_pairwise s.stamp _ hpw
  have hnd2 : ((c.data_.values_.reverse).map Prod.fst).Nodup := by
    rw [List.map_reverse]; exact List.nodup_reverse.2 hnd
  have hfold := foldlM_put_keys c.data_.capacity_ c.data_.values_.reverse [] hnd2
    (fun e _ h => by cases h) (by simp only [List.length_nil, List.length_reverse]; omega)
  simp only [Cache.toProtoCache, OrderedMapProtoCache.new, LRUSet.new, Cache.capacity,
    LRUMap.capacity]
  rw [hfold, List.nil_append]
  rfl

theorem reversed_of_size_le_one {K V : Type} [DecidableEq K] (c : Cache K V)
    (h : c.size ≤ 1) : c.reversed = c := by
  obtain ⟨⟨values, cap⟩⟩ := c
  simp only [Cache.size, LRUMap.size] at h
  simp only [Cache.reversed]
  match values, h with
  | [], _ => rfl
  | [_], _ => rfl

/-- C40 (a slip of the code): `toProtoCache` puts the keys into the proto-cache from the most
to the least recently used one, so that the proto-cache holds them in the reverse of the
recency order of the cache: under every later sequence of calls it hits exactly when the cache
with the reversed order would.  It hits exactly when the cache itself does as long as the
cache holds at most one entry.  A cache of capacity 2 that holds the keys 1 and 2, put in
this order, evicts key 1 when key 3 is inserted, its proto-cache evicts key 2: the lookup of
key 1 after the insertion misses in the cache and hits in the proto-cache. -/
theorem toProtoCache_reverses_the_recency_order :
    (∀ (K V : Type) [DecidableEq K] (n : Nat) (ops : List (CacheOp K V)) (c : Cache K V),
      (Cache.new n).run ops = some c →
      ∃ p, c.toProtoCache = some p ∧
        p.set_.values_ = (c.data_.values_.map Prod.fst).reverse ∧
        (∀ later : List (CacheOp K V),
          p.runContains (later.map CacheOp.toProto) = c.reversed.runHits later) ∧
        (c.size ≤ 1 → ∀ later : List (CacheOp K V),
          p.runContains (later.map CacheOp.toProto) = c.runHits later)) ∧
    ((Cache.new 2 : Cache Nat Nat).run [.put 1 10, .put 2 20] =
        some ⟨⟨[(1, 10), (2, 20)], 2⟩⟩ ∧
      (⟨⟨[(1, 10), (2, 20)], 2⟩⟩ : Cache Nat Nat).toProtoCache = some ⟨⟨[2, 1], 2⟩⟩ ∧
      (⟨⟨[(1, 10), (2, 20)], 2⟩⟩ : Cache Nat Nat).run [.put 3 30] =
        some ⟨⟨[(2, 20), (3, 30)], 2⟩⟩ ∧
      (⟨⟨[2, 1], 2⟩⟩ : OrderedMapProtoCache Nat).run [.put 3] = some ⟨⟨[1, 3], 2⟩⟩ ∧
      (⟨⟨[(1, 10), (2, 20)], 2⟩⟩ : Cache Nat Nat).runHits [.put 3 30, .get 1] =
        some [false] ∧
      (⟨⟨[2, 1], 2⟩⟩ : OrderedMapProtoCache Nat).runContains
        ([CacheOp.put 3 30, CacheOp.get 1].map CacheOp.toProto) = some [true]) := by
  refine ⟨?_, by decide⟩
  intro K V _ n ops c hr
  have h1 := toProtoCache_eq_keys_reversed n ops c hr
  refine ⟨c.reversed.keys, h1, ?_, fun later => keys_runContains later c.reversed, ?_⟩
  · simp only [Cache.keys, Cache.reversed, List.map_reverse]
  · intro hsize later
    have := keys_runContains later c.reversed
    rw [reversed_of_size_le_one c hsize] at this ⊢
    exact this

theorem toProtoCache_reverses_the_recency_order_witness :
    ∃ p, (⟨⟨[(2, 20)], 1⟩⟩ : Cache Nat Nat).toProtoCache = some p ∧
      p.set_.values_ = ((⟨⟨[(2, 20)], 1⟩⟩ : Cache Nat Nat).data_.values_.map Prod.fst).reverse ∧
      (∀ later : List (CacheOp Nat Nat),
        p.runContains (later.map CacheOp.toProto) =
          (⟨⟨[(2, 20)], 1⟩⟩ : Cache Nat Nat).reversed.runHits later) ∧
      ((⟨⟨[(2, 20)], 1⟩⟩ : Cache Nat Nat).size ≤ 1 → ∀ later : List (CacheOp Nat Nat),
        p.runContains (later.map CacheOp.toProto) =
          (⟨⟨[(2, 20)], 1⟩⟩ : Cache Nat Nat).runHits later) :=
  toProtoCache_reverses_the_recency_order.1 Nat Nat 1 [.put 1 10, .put 2 20]
    ⟨⟨[(2, 20)], 1⟩⟩ (by decide)

end ImageGraph


namespace ImageGraph

/-! ## The initial distribution fits the budget -/

theorem byte_num_sum_split (g : NodeData) (l : List NodeInformation) :
    (l.map fun info => info.byte_num).sum = byteNumSum g true l + byteNumSum g false l := by
  induction l with
  | nil => rfl
  | cons a l ih =>
    rw [byteNumSum_cons, byteNumSum_cons, List.map_cons, List.sum_cons, ih]
    cases g.isCacheImportant a.node <;> simp <;> omega

theorem max_sum_split (g : NodeData) (l : List NodeInformation) :
    (l.map fun info => info.max_byte_num).sum = maxSum g true l + maxSum g false l := by
  induction l with
  | nil => rfl
  | cons a l ih =>
    rw [maxSum_cons, maxSum_cons, List.map_cons, List.sum_cons, ih]
    cases g.isCacheImportant a.node <;> simp <;> omega

theorem shared_false_important_sum (g : NodeData) (remaining0 bytes0 : Nat) :
    ∀ {l l' : List NodeInformation},
      List.Forall₂ (NodeInformation.Shared g false remaining0 bytes0) l l' →
      byteNumSum g true l' = maxSum g true l := by
  intro l l' h
  induction h with
  | nil => rfl
  | @cons a b l l' hab _ ih =>
    rw [byteNumSum_cons, maxSum_cons, ih]
    obtain ⟨hb, hc, _⟩ := hab
    have hnode : b.node = a.node := by rw [hb]
    rw [hnode]
    by_cases himp : g.isCacheImportant a.node = true
    · rw [if_pos himp, if_pos himp]
      have := hc (by rw [himp]; rfl)
      simp only [Bool.false_eq_true, if_false] at this
      rw [this]
    · rw [if_neg himp, if_neg himp]

theorem shared_true_unimportant_sum (g : NodeData) (remaining0 bytes0 : Nat) :
    ∀ {l l' : List NodeInformation},
      List.Forall₂ (NodeInformation.Shared g true remaining0 bytes0) l l' →
      byteNumSum g false l' = byteNumSum g false l := by
  intro l l' h
  induction h with
  | nil => rfl
  | @cons a b l l' hab _ ih =>
    rw [byteNumSum_cons, byteNumSum_cons, ih]
    obtain ⟨hb, hc, _⟩ := hab
    have hnode : b.node = a.node := by rw [hb]
    rw [hnode]
    by_cases himp : g.isCacheImportant a.node = false
    · rw [if_pos himp, if_pos himp]
      have := hc (by rw [himp]; rfl)
      simp only [if_true] at this
      rw [this]
    · rw [if_neg himp, if_neg himp]

theorem shared_assign_le_max (g : NodeData) (kind : Bool) (remaining0 bytes0 : Nat)
    {l l' : List NodeInformation}
    (h : List.Forall₂ (NodeInformation.Shared g kind remaining0 bytes0) l l')
    (hle : ∀ a ∈ l, a.byte_num ≤ a.max_byte_num) (hf : ∀ a ∈ l, a.max_byte_num =
      g.fullByteNumber a.node) :
    ∀ b ∈ l', b.byte_num ≤ b.max_byte_num ∧ b.max_byte_num = g.fullByteNumber b.node := by
  intro b hb
  obtain ⟨a, ha, hab, hc, hd⟩ := forall2_mem_right h b hb
  have hnode : b.node = a.node := by rw [hab]
  have hmax : b.max_byte_num = a.max_byte_num := by rw [hab]
  refine ⟨?_, by rw [hmax, hnode]; exact hf a ha⟩
  rw [hmax]
  by_cases himp : g.isCacheImportant a.node = kind
  · exact (hd himp).2
  · have hnk : g.isCacheImportant a.node = !kind := by
      cases hi : g.isCacheImportant a.node
      · cases hk : kind
        · rw [hi, hk] at himp; exact absurd rfl himp
        · rfl
      · cases hk : kind
        · rfl
        · rw [hi, hk] at himp; exact absurd rfl himp
    have := hc hnk
    cases kind
    · simp only [Bool.false_eq_true, if_false] at this
      omega
    · simp only [if_true] at this
      rw [this]
      exact hle a ha

/-- With the portions computed exactly the initial distribution is feasible when every
`ANY_MEMORY` node has a positive full byte count.  For every memory limit and every such set
of nodes (numbered after their inputs and below the recursion bound, with change probabilities
that are probabilities), `generate_members` returns, so that no assertion
`byte_num <= remaining` fails; it assigns each `ANY_MEMORY` node
`byte_num <= max_byte_num`, with `max_byte_num` the full byte count of the node, and the sum
of all assigned `byte_num` is at most the budget that remains after the `FULL_MEMORY` nodes
have been reserved (0 when they do not fit). -/
theorem exact_portions_are_feasible (g : NodeData) (fuel memory_limit : Nat)
    (out_nodes sink_nodes : List Nat) (hg : g.InputsLayered) (hp : g.ValidProbabilities)
    (hfuel : ∀ node ∈ out_nodes, node < fuel)
    (hpos : ∀ node ∈ out_nodes, g.isCache node = true → 0 < g.fullByteNumber node) :
    ∃ t, generate_members g fuel memory_limit out_nodes sink_nodes = some t ∧
      t.cache_nodes.map NodeInformation.node = out_nodes.filter g.isCache ∧
      (∀ info ∈ t.cache_nodes, info.byte_num ≤ info.max_byte_num ∧
        info.max_byte_num = g.fullByteNumber info.node) ∧
      t.memory_limit = memory_limit - g.fullBytes out_nodes ∧
      (t.cache_nodes.map fun info => info.byte_num).sum ≤
        memory_limit - g.fullBytes out_nodes := by
  have hsome := generate_members_ok g fuel memory_limit out_nodes sink_nodes hg hp hfuel hpos
  obtain ⟨t, ht⟩ := Option.isSome_iff_exists.1 hsome
  obtain ⟨m, hm, hs, h1, -, -, -, h3, h4, h5, h6, -, h8, h9, h10, h11⟩ :=
    generate_members_some g fuel memory_limit out_nodes sink_nodes t ht
  have hzero : ∀ info ∈ m.cache_nodes, info.byte_num = 0 := fun info hi => (h9 info hi).1.1
  have hle0 : ∀ info ∈ m.cache_nodes, info.byte_num ≤ info.max_byte_num := by
    intro info hi; rw [hzero info hi]; exact Nat.zero_le _
  have hfull : ∀ info ∈ m.cache_nodes, info.max_byte_num = g.fullByteNumber info.node :=
    fun info hi => (h9 info hi).1.2.1
  have hmax : ∀ info ∈ m.cache_nodes, 0 < info.max_byte_num := by
    intro info hi
    obtain ⟨⟨-, f2, f3⟩, f4⟩ := h9 info hi
    rw [f2]
    exact hpos _ f4 (by simpa [NodeData.isCache] using f3)
  refine ⟨t, ht, ?_, ?_, by rw [h1, h5], ?_⟩
  · by_cases he : m.amount = MemoryAmount.ENOUGH_FOR_ALL
    · unfold Members.assign at hs
      rw [if_pos he] at hs
      simp only [Option.some.injEq] at hs
      rw [← hs, List.map_map, ← h8]
      rfl
    · by_cases hle : m.important_bytes ≤ m.memory_limit
      · have hrem : m.memory_limit - m.important_bytes ≤ m.unimportant_bytes := by
          have hc := amount_cases m
          cases hen : m.enough_bytes with
          | true =>
            have := (not_congr hc.2.1).1 he
            rw [hen] at this
            simp only [true_and, not_le] at this
            omega
          | false =>
            have := (not_congr h6).1 (by rw [hen]; simp)
            omega
        obtain ⟨l', k1, k2, -⟩ := assign_unimportant g m (h11.trans h4.symm) he hle hrem
          fun info hi _ => hmax info hi
        rw [hs] at k1
        cases k1
        exact (shared_map_node g _ _ _ k2).trans h8
      · obtain ⟨l', k1, k2, -⟩ := assign_important g m (h10.trans h3.symm) he (by omega) hzero
          fun info hi _ => hmax info hi
        rw [hs] at k1
        cases k1
        exact (shared_map_node g _ _ _ k2).trans h8
  · by_cases he : m.amount = MemoryAmount.ENOUGH_FOR_ALL
    · unfold Members.assign at hs
      rw [if_pos he] at hs
      simp only [Option.some.injEq] at hs
      rw [← hs]
      intro info hi
      obtain ⟨a, ha, rfl⟩ := List.mem_map.1 hi
      exact ⟨le_refl _, hfull a ha⟩
    · by_cases hle : m.important_bytes ≤ m.memory_limit
      · have hrem : m.memory_limit - m.important_bytes ≤ m.unimportant_bytes := by
          have hc := amount_cases m
          cases hen : m.enough_bytes with
          | true =>
            have := (not_congr hc.2.1).1 he
            rw [hen] at this
            simp only [true_and, not_le] at this
            omega
          | false =>
            have := (not_congr h6).1 (by rw [hen]; simp)
            omega
        obtain ⟨l', k1, k2, -⟩ := assign_unimportant g m (h11.trans h4.symm) he hle hrem
          fun info hi _ => hmax info hi
        rw [hs] at k1
        cases k1
        exact shared_assign_le_max g _ _ _ k2 hle0 hfull
      · obtain ⟨l', k1, k2, -⟩ := assign_important g m (h10.trans h3.symm) he (by omega) hzero
          fun info hi _ => hmax info hi
        rw [hs] at k1
        cases k1
        exact shared_assign_le_max g _ _ _ k2 hle0 hfull
  · rw [← h5, byte_num_sum_split g]
    by_cases he : m.amount = MemoryAmount.ENOUGH_FOR_ALL
    · have hfit := ((amount_cases m).2.1.1 he).2
      unfold Members.assign at hs
      rw [if_pos he] at hs
      simp only [Option.some.injEq] at hs
      rw [← byte_num_sum_split g, ← hs, List.map_map]
      have : (m.cache_nodes.map ((fun info : NodeInformation => info.byte_num) ∘
          fun information => { information with byte_num := information.max_byte_num })) =
          m.cache_nodes.map fun info => info.max_byte_num := rfl
      rw [this, max_sum_split g, h10, h11, ← h3, ← h4]
      exact hfit
    · by_cases hle : m.important_bytes ≤ m.memory_limit
      · have hrem : m.memory_limit - m.important_bytes ≤ m.unimportant_bytes := by
          have hc := amount_cases m
          cases hen : m.enough_bytes with
          | true =>
            have := (not_congr hc.2.1).1 he
            rw [hen] at this
            simp only [true_and, not_le] at this
            omega
          | false =>
            have := (not_congr h6).1 (by rw [hen]; simp)
            omega
        obtain ⟨l', k1, k2, k3⟩ := assign_unimportant g m (h11.trans h4.symm) he hle hrem
          fun info hi _ => hmax info hi
        rw [hs] at k1
        cases k1
        rw [k3, shared_false_important_sum g _ _ k2, h10, ← h3]
        omega
      · obtain ⟨l', k1, k2, k3⟩ := assign_important g m (h10.trans h3.symm) he (by omega) hzero
          fun info hi _ => hmax info hi
        rw [hs] at k1
        cases k1
        rw [k3, shared_true_unimportant_sum g _ _ k2, byteNumSum_zero g false _ hzero]
        omega

end ImageGraph


namespace ImageGraph

/-! ## The donor and the receiver of `random_neighbour` -/

theorem donorProb_nonneg (info : NodeInformation) (out_datum : OutData) :
    0 ≤ MemoryDistribution.donorProb info out_datum := by
  unfold MemoryDistribution.donorProb
  positivity

theorem receiverProb_nonneg (info : NodeInformation) (out_datum : OutData) :
    0 ≤ MemoryDistribution.receiverProb info out_datum := by
  unfold MemoryDistribution.receiverProb
  positivity

theorem donorProb_pos (info : NodeInformation) (out_datum : OutData)
    (h1 : 0 < info.byte_num) (h2 : 0 < info.max_byte_num) :
    MemoryDistribution.donorProb info out_datum ≠ 0 := by
  unfold MemoryDistribution.donorProb
  have a : (0 : ℚ) < (info.byte_num : ℚ) / (info.max_byte_num : ℚ) :=
    div_pos (by exact_mod_cast h1) (by exact_mod_cast h2)
  have b : (0 : ℚ) ≤ (out_datum.computations : ℚ) / (out_datum.requests : ℚ) := by positivity
  have c : (0 : ℚ) < 1 / 100 + (1 - 1 / 100) * ((out_datum.computations : ℚ) /
      (out_datum.requests : ℚ)) := by
    have : (0 : ℚ) ≤ (1 - 1 / 100) * ((out_datum.computations : ℚ) /
        (out_datum.requests : ℚ)) := mul_nonneg (by norm_num) b
    linarith
  exact ne_of_gt (mul_pos a c)

theorem receiverProb_pos (info : NodeInformation) (out_datum : OutData)
    (h1 : info.byte_num < info.max_byte_num) :
    MemoryDistribution.receiverProb info out_datum ≠ 0 := by
  unfold MemoryDistribution.receiverProb
  have h2 : 0 < info.max_byte_num - info.byte_num := by omega
  have h3 : 0 < info.max_byte_num := by omega
  have a : (0 : ℚ) < ((info.max_byte_num - info.byte_num : Nat) : ℚ) /
      (info.max_byte_num : ℚ) :=
    div_pos (by exact_mod_cast h2) (by exact_mod_cast h3)
  have b : (0 : ℚ) ≤ ((out_datum.requests - out_datum.computations : Nat) : ℚ) /
      (out_datum.requests : ℚ) := by positivity
  have c : (0 : ℚ) < 1 / 100 + (1 - 1 / 100) *
      (((out_datum.requests - out_datum.computations : Nat) : ℚ) /
        (out_datum.requests : ℚ)) := by
    have : (0 : ℚ) ≤ (1 - 1 / 100) *
        (((out_datum.requests - out_datum.computations : Nat) : ℚ) /
          (out_datum.requests : ℚ)) := mul_nonneg (by norm_num) b
    linarith
  exact ne_of_gt (mul_pos a c)

/-- A loop of `random_neighbour` over cache nodes that were all requested returns; if a node
that is not skipped has a probability other than 0, the last choice carries `cumulative`,
which has grown; otherwise nothing is added. -/
theorem choicesLoop_complete (out_data : Nat → Option OutData)
    (prob : NodeInformation → OutData → ℚ) (skip : Option Nat)
    (hprob : ∀ info out_datum, 0 ≤ prob info out_datum) :
    ∀ (l : List NodeInformation) (i : Nat) (cumulative : ℚ) (choices : List NodeProbability),
      (∀ info ∈ l, info.byte_num ≤ info.max_byte_num ∧ 0 < info.max_byte_num ∧
        ∃ out_datum, out_data info.node = some out_datum ∧ 0 < out_datum.requests ∧
          out_datum.computations ≤ out_datum.requests) →
      ∃ cum ch,
        MemoryDistribution.choicesLoop out_data prob skip i l cumulative choices =
          some (cum, ch) ∧
        ((∃ k info out_datum, l[k]? = some info ∧ skip ≠ some (i + k) ∧
            out_data info.node = some out_datum ∧ prob info out_datum ≠ 0) →
          cumulative < cum ∧ ∃ np ∈ ch, np.probability = cum) ∧
        ((¬ ∃ k info out_datum, l[k]? = some info ∧ skip ≠ some (i + k) ∧
            out_data info.node = some out_datum ∧ prob info out_datum ≠ 0) →
          cum = cumulative ∧ ch = choices) ∧
        cumulative ≤ cum ∧ (∀ np ∈ choices, np ∈ ch) := by
  intro l
  induction l with
  | nil =>
    intro i cumulative choices _
    refine ⟨cumulative, choices, rfl, ?_, fun _ => ⟨rfl, rfl⟩, le_refl _, fun np h => h⟩
    rintro ⟨k, info, out_datum, hk, -⟩
    simp at hk
  | cons info rest ih =>
    intro i cumulative choices hwf
    obtain ⟨hle, hmax, out_datum, hod, hreq, hcomp⟩ := hwf info (List.mem_cons_self _ _)
    have hwf' := fun a (ha : a ∈ rest) => hwf a (List.mem_cons_of_mem _ ha)
    -- the head adds nothing
    have same : MemoryDistribution.choicesLoop out_data prob skip i (info :: rest) cumulative
          choices =
        MemoryDistribution.choicesLoop out_data prob skip (i + 1) rest cumulative choices →
        (skip = some i ∨ prob info out_datum = 0) →
        ∃ cum ch,
          MemoryDistribution.choicesLoop out_data prob skip i (info :: rest) cumulative
            choices = some (cum, ch) ∧
          ((∃ k info' out_datum', (info :: rest)[k]? = some info' ∧ skip ≠ some (i + k) ∧
              out_data info'.node = some out_datum' ∧ prob info' out_datum' ≠ 0) →
            cumulative < cum ∧ ∃ np ∈ ch, np.probability = cum) ∧
          ((¬ ∃ k info' out_datum', (info :: rest)[k]? = some info' ∧ skip ≠ some (i + k) ∧
              out_data info'.node = some out_datum' ∧ prob info' out_datum' ≠ 0) →
            cum = cumulative ∧ ch = choices) ∧
          cumulative ≤ cum ∧ (∀ np ∈ choices, np ∈ ch) := by
      intro heq hno
      obtain ⟨cum, ch, h1, h2, h3, h4, h5⟩ := ih (i + 1) cumulative choices hwf'
      refine ⟨cum, ch, heq.trans h1, ?_, ?_, h4, h5⟩
      · rintro ⟨k, info', out_datum', e1, e2, e3, e4⟩
        cases k with
        | zero =>
          simp only [List.getElem?_cons_zero, Option.some.injEq] at e1
          subst e1
          rw [hod] at e3
          cases e3
          rcases hno with h0 | h0
          · exact absurd h0 e2
          · exact absurd h0 e4
        | succ k =>
          rw [List.getElem?_cons_succ] at e1
          exact h2 ⟨k, info', out_datum', e1,
            by rw [Nat.add_assoc, Nat.add_comm 1 k]; exact e2, e3, e4⟩
      · intro hnot
        apply h3
        rintro ⟨k, info', out_datum', e1, e2, e3, e4⟩
        exact hnot ⟨k + 1, info', out_datum', by rw [List.getElem?_cons_succ]; exact e1,
          by rw [← Nat.add_assoc, Nat.add_right_comm]; exact e2, e3, e4⟩
    by_cases hs : skip = some i
    · apply same _ (Or.inl hs)
      simp only [MemoryDistribution.choicesLoop, if_pos hs]
    · by_cases hp : prob info out_datum ≠ 0
      · obtain ⟨cum, ch, h1, h2, h3, h4, h5⟩ := ih (i + 1) (cumulative + prob info out_datum)
          (choices ++ [⟨cumulative + prob info out_datum, i⟩]) hwf'
        have hpos : 0 < prob info out_datum := lt_of_le_of_ne (hprob _ _) (Ne.symm hp)
        refine ⟨cum, ch, ?_, ?_, ?_, by linarith, fun np hnp => h5 np
          (List.mem_append_left _ hnp)⟩
        · simp only [MemoryDistribution.choicesLoop, if_neg hs, if_neg (not_lt.2 hle), hod,
            if_neg (not_lt.2 hcomp), if_neg (Nat.pos_iff_ne_zero.1 hreq),
            if_neg (Nat.pos_iff_ne_zero.1 hmax), if_pos hp, h1]
        · intro _
          refine ⟨by linarith, ?_⟩
          by_cases hex : ∃ k info' out_datum', rest[k]? = some info' ∧
              skip ≠ some (i + 1 + k) ∧ out_data info'.node = some out_datum' ∧
              prob info' out_datum' ≠ 0
          · exact (h2 hex).2
          · obtain ⟨e1, e2⟩ := h3 hex
            refine ⟨⟨cumulative + prob info out_datum, i⟩, ?_, ?_⟩
            · rw [e2]; exact List.mem_append_right _ (List.mem_singleton_self _)
            · rw [e1]
        · intro hnot
          exact absurd ⟨0, info, out_datum, by simp, hs, hod, hp⟩ hnot
      · apply same _ (Or.inr (not_not.1 hp))
        simp only [MemoryDistribution.choicesLoop, if_neg hs, if_neg (not_lt.2 hle), hod,
          if_neg (not_lt.2 hcomp), if_neg (Nat.pos_iff_ne_zero.1 hreq),
          if_neg (Nat.pos_iff_ne_zero.1 hmax), if_neg hp]

theorem upperBound_of_last {choices : List NodeProbability} {p : ℚ} {np : NodeProbability}
    (hnp : np ∈ choices) (hp : p < np.probability) :
    ∃ found, MemoryDistribution.upperBound choices p = some found := by
  unfold MemoryDistribution.upperBound
  cases h : choices.find? fun np => decide (p < np.probability) with
  | some found => exact ⟨found, rfl⟩
  | none =>
    have := List.find?_eq_none.1 h np hnp
    simp only [decide_eq_true_eq] at this
    exact absurd hp this

/-- C38 (a slip of the code): `random_neighbour` finds a donor whenever a cache node holds a
byte, but it finds a receiver only when a cache node other than the donor has free bytes.  On
a distribution whose cache nodes were all requested (with `random_real` drawing from
`[min, max)`): the first loop returns and the draw picks a donor that holds at least one
byte; the second loop returns for every donor; when a node other than the donor has free
bytes the draw picks a receiver with at least one free byte; when no other node has free
bytes the list of receivers is empty, `upper_bound` returns `choices.end()` and the assertion
`to_it != choices.end()` fails.  So it is in the initial distribution of `pairExample` with a
budget of 150 bytes, where both nodes were requested and hold 100 of 100 and 50 of 200
bytes: when the node with 50 bytes is drawn as donor, the only other node is full. -/
theorem random_neighbour_finds_receiver_beside_donor :
    (∀ (G : Type) (g : NodeData) (rs : RandomSource G) (d : MemoryDistribution G),
      d.AllRequested → rs.InRange →
      ((∃ info ∈ d.cache_nodes_, 0 < info.byte_num) →
        ∃ cumulative choices donor from_info,
          MemoryDistribution.choicesLoop d.adaptor_.out_data_ MemoryDistribution.donorProb none
            0 d.cache_nodes_ 0 [] = some (cumulative, choices) ∧
          MemoryDistribution.upperBound choices
            (rs.random_real d.generator_ 0 cumulative).1 = some donor ∧
          d.cache_nodes_[donor.index]? = some from_info ∧ 1 ≤ from_info.byte_num) ∧
      (∀ donor : Nat, ∃ cumulative2 choices2,
        MemoryDistribution.choicesLoop d.adaptor_.out_data_ MemoryDistribution.receiverProb
          (some donor) 0 d.cache_nodes_ 0 [] = some (cumulative2, choices2) ∧
        ((∃ k info, d.cache_nodes_[k]? = some info ∧ k ≠ donor ∧
            info.byte_num < info.max_byte_num) →
          ∀ generator, ∃ receiver to_info,
            MemoryDistribution.upperBound choices2
              (rs.random_real generator 0 cumulative2).1 = some receiver ∧
            receiver.index ≠ donor ∧ d.cache_nodes_[receiver.index]? = some to_info ∧
            1 ≤ to_info.max_byte_num - to_info.byte_num) ∧
        ((¬ ∃ k info, d.cache_nodes_[k]? = some info ∧ k ≠ donor ∧
            info.byte_num < info.max_byte_num) →
          choices2 = [] ∧ ∀ p, MemoryDistribution.upperBound choices2 p = none)) ∧
      (∀ cumulative choices donor,
        MemoryDistribution.choicesLoop d.adaptor_.out_data_ MemoryDistribution.donorProb none
          0 d.cache_nodes_ 0 [] = some (cumulative, choices) →
        MemoryDistribution.upperBound choices
          (rs.random_real d.generator_ 0 cumulative).1 = some donor →
        (¬ ∃ k info, d.cache_nodes_[k]? = some info ∧ k ≠ donor.index ∧
          info.byte_num < info.max_byte_num) →
        d.random_neighbour g rs = none)) ∧
    (((MemoryDistribution.new pairExample highSource 2 150 [0, 1] [5]).bind fun d =>
        (d.cost pairExample 5 3).map fun r =>
          (r.2.cache_nodes_.map (fun info => (info.node, info.byte_num, info.max_byte_num)),
            r.2.cache_nodes_.map (fun info =>
              (r.2.adaptor_.out_data_ info.node).map fun datum =>
                (datum.requests, datum.computations)))) =
        some ([(0, 100, 100), (1, 50, 200)], [some (1, 1), some (1, 1)]) ∧
      ((MemoryDistribution.new pairExample highSource 2 150 [0, 1] [5]).bind fun d =>
        (d.cost pairExample 5 3).map fun r => (r.2.adaptor_.empty, r.2.memory_amount_)) =
        some (true, MemoryAmount.SUFFICIENT) ∧
      ((MemoryDistribution.new pairExample highSource 2 150 [0, 1] [5]).bind fun d =>
        (d.cost pairExample 5 3).bind fun r =>
          (MemoryDistribution.choicesLoop r.2.adaptor_.out_data_ MemoryDistribution.donorProb
            none 0 r.2.cache_nodes_ 0 []).map fun c =>
              (c.2.map fun np => np.index,
                (MemoryDistribution.upperBound c.2
                  (highSource.random_real r.2.generator_ 0 c.1).1).map fun np => np.index)) =
        some ([0, 1], some 1) ∧
      ((MemoryDistribution.new pairExample highSource 2 150 [0, 1] [5]).bind fun d =>
        (d.cost pairExample 5 3).bind fun r =>
          (MemoryDistribution.choicesLoop r.2.adaptor_.out_data_
            MemoryDistribution.receiverProb (some 1) 0 r.2.cache_nodes_ 0 []).map fun c =>
              c.2.map fun np => np.index) = some [] ∧
      ((MemoryDistribution.new pairExample highSource 2 150 [0, 1] [5]).bind fun d =>
        (d.cost pairExample 5 3).map fun r =>
          ((r.2.random_neighbour pairExample highSource).isSome,
            (r.2.random_neighbour pairExample middleSource).isSome)) = some (false, true)) := by
  refine ⟨?_, by decide!, by decide!, by decide!, by decide!, by decide!⟩
  intro G g rs d hreq hrs
  obtain ⟨hempty, hwf⟩ := hreq
  have hdonor_loop := choicesLoop_complete d.adaptor_.out_data_ MemoryDistribution.donorProb
    none donorProb_nonneg d.cache_nodes_ 0 0 [] hwf
  have hreceiver_loop := fun donor : Nat =>
    choicesLoop_complete d.adaptor_.out_data_ MemoryDistribution.receiverProb
      (some donor) receiverProb_nonneg d.cache_nodes_ 0 0 [] hwf
  have hnone : ∀ donor : Nat,
      (¬ ∃ k info, d.cache_nodes_[k]? = some info ∧ k ≠ donor ∧
        info.byte_num < info.max_byte_num) →
      ¬ ∃ k info out_datum, d.cache_nodes_[k]? = some info ∧ some donor ≠ some (0 + k) ∧
        d.adaptor_.out_data_ info.node = some out_datum ∧
        MemoryDistribution.receiverProb info out_datum ≠ 0 := by
    intro donor hno
    rintro ⟨k, info, out_datum, e1, e2, -, e4⟩
    apply hno
    refine ⟨k, info, e1, ?_, ?_⟩
    · intro hk
      apply e2
      rw [Nat.zero_add, hk]
    · have := receiverProb_ne_zero e4
      omega
  refine ⟨?_, ?_, ?_⟩
  · rintro ⟨info, hi, hb⟩
    obtain ⟨cum, ch, h1, h2, -, -, -⟩ := hdonor_loop
    obtain ⟨k, hk⟩ := List.getElem?_of_mem hi
    obtain ⟨-, hmax, out_datum, hod, -, -⟩ := hwf info hi
    obtain ⟨hpos, np, hnp, hprob⟩ := h2 ⟨k, info, out_datum, hk, by simp, hod,
      donorProb_pos info out_datum hb hmax⟩
    have hdraw := (hrs d.generator_ 0 cum hpos).2
    obtain ⟨donor, hfound⟩ := upperBound_of_last hnp (by rw [hprob]; exact hdraw)
    obtain ⟨-, a2⟩ := choicesLoop_spec _ _ _ _ _ _ _ _ h1
    rcases a2 donor (upperBound_mem hfound).1 with h | ⟨k1, info1, out_datum1, e1, e2, -, -, e5⟩
    · cases h
    rw [Nat.zero_add] at e1
    exact ⟨cum, ch, donor, info1, h1, hfound, by rw [e1]; exact e2, donorProb_ne_zero e5⟩
  · intro donor
    obtain ⟨cum, ch, h1, h2, h3, -, -⟩ := hreceiver_loop donor
    refine ⟨cum, ch, h1, ?_, ?_⟩
    · rintro ⟨k, info, hk, hne, hfree⟩ generator
      obtain ⟨-, hmax, out_datum, hod, -, -⟩ := hwf info (mem_of_getElem?_eq_some _ _ _ hk)
      obtain ⟨hpos, np, hnp, hprob⟩ := h2 ⟨k, info, out_datum, hk,
        by rw [Nat.zero_add]; intro h; exact hne (Option.some.inj h).symm, hod,
        receiverProb_pos info out_datum hfree⟩
      have hdraw := (hrs generator 0 cum hpos).2
      obtain ⟨receiver, hfound⟩ := upperBound_of_last hnp (by rw [hprob]; exact hdraw)
      obtain ⟨-, a2⟩ := choicesLoop_spec _ _ _ _ _ _ _ _ h1
      rcases a2 receiver (upperBound_mem hfound).1 with
        h | ⟨k1, info1, out_datum1, e1, e2, e3, -, e5⟩
      · cases h
      rw [Nat.zero_add] at e1 e3
      refine ⟨receiver, info1, hfound, ?_, by rw [e1]; exact e2, receiverProb_ne_zero e5⟩
      intro h
      apply e3
      rw [← h, e1]
    · intro hno
      obtain ⟨-, e2⟩ := h3 (hnone donor hno)
      refine ⟨e2, fun p => ?_⟩
      rw [e2]
      rfl
  · intro cumulative choices donor hloop hfound hno
    obtain ⟨cum, ch, h1, -, h3, -, -⟩ := hreceiver_loop donor.index
    obtain ⟨-, e2⟩ := h3 (hnone donor.index hno)
    subst e2
    unfold MemoryDistribution.random_neighbour
    rw [if_neg (by rw [hempty]; decide)]
    simp only [hloop, hfound, h1]
    rfl

theorem middleSource_inRange : middleSource.InRange := by
  intro generator min max h
  simp only [middleSource]
  constructor <;> linarith

theorem requestedPair_allRequested : requestedPair.AllRequested := by
  refine ⟨rfl, ?_⟩
  intro info hi
  simp only [requestedPair, List.mem_cons, List.mem_singleton, List.not_mem_nil, or_false] at hi
  rcases hi with rfl | rfl
  · exact ⟨by decide, by decide, _, rfl, by decide, by decide⟩
  · exact ⟨by decide, by decide, _, rfl, by decide, by decide⟩

theorem random_neighbour_finds_receiver_beside_donor_witness :
    ∃ cumulative choices donor from_info,
      MemoryDistribution.choicesLoop requestedPair.adaptor_.out_data_
        MemoryDistribution.donorProb none 0 requestedPair.cache_nodes_ 0 [] =
          some (cumulative, choices) ∧
      MemoryDistribution.upperBound choices
        (middleSource.random_real requestedPair.generator_ 0 cumulative).1 = some donor ∧
      requestedPair.cache_nodes_[donor.index]? = some from_info ∧ 1 ≤ from_info.byte_num :=
  (random_neighbour_finds_receiver_beside_donor.1 Nat pairExample middleSource requestedPair
    requestedPair_allRequested middleSource_inRange).1
    ⟨⟨0, 100, 100, 1 / 4, 1 / 4⟩, List.mem_cons_self _ _, by decide⟩

end ImageGraph


namespace ImageGraph

namespace NodeGraph

theorem mem_runStates (r : RunState) : r ∈ runStates := by
  cases r <;> decide

theorem mem_computePlaces (p : ComputePlace) : p ∈ computePlaces := by
  cases p <;> decide

theorem mem_finishPlaces (p : FinishPlace) : p ∈ finishPlaces := by
  cases p <;> decide

theorem mem_finisherPlaces (p : FinisherPlace) : p ∈ finisherPlaces := by
  unfold finisherPlaces
  cases p with
  | finish q => exact List.mem_append_left _ (List.mem_map_of_mem _ (mem_finishPlaces q))
  | compute q => exact List.mem_append_right _ (List.mem_map_of_mem _ (mem_computePlaces q))

theorem mem_runs (c : Run) : c ∈ runs := by
  obtain ⟨r, m, f⟩ := c
  unfold runs
  rw [List.mem_flatMap]
  refine ⟨r, mem_runStates r, ?_⟩
  rw [List.mem_flatMap]
  refine ⟨m, mem_computePlaces m, ?_⟩
  exact List.mem_map_of_mem _ (mem_finisherPlaces f)

theorem mem_threadEvents (ev : ThreadEvent) : ev ∈ threadEvents := by
  cases ev with
  | main a => cases a <;> decide
  | finisher a => cases a <;> decide
  | spurious => decide

set_option maxRecDepth 100000 in
theorem runs_keep :
    (runs.all fun c => !c.Stopped || (stateKeeps c && threadEvents.all fun ev => stepKeeps c ev))
      = true := by
  decide

theorem stopped_keeps (c : Run) (h : c.Stopped = true) :
    stateKeeps c = true ∧ ∀ ev, stepKeeps c ev = true := by
  have h1 := List.all_eq_true.mp runs_keep c (mem_runs c)
  rw [h] at h1
  simp only [Bool.not_true, Bool.false_or, Bool.and_eq_true] at h1
  exact ⟨h1.1, fun ev => List.all_eq_true.mp h1.2 ev (mem_threadEvents ev)⟩

theorem after_step (history1 : List RunState) (begun1 : Nat) (s : Traced) (ev : ThreadEvent)
    (h : s.After history1 begun1) :
    ∃ s1, s.step ev = some s1 ∧ s1.After history1 begun1 ∧
      s1.main.rank ≤ s.main.rank - mainSteps [ev] := by
  obtain ⟨hs, hh, hb⟩ := h
  have hk := (stopped_keeps s.toRun hs).2 ev
  unfold stepKeeps at hk
  cases hc : s.toRun.step ev with
  | none =>
    rw [hc] at hk
    exact absurd hk Bool.false_ne_true
  | some c1 =>
    rw [hc] at hk
    simp only [Bool.and_eq_true, decide_eq_true_eq, Bool.not_eq_true', Bool.and_eq_false_imp,
      Bool.not_eq_false', Bool.or_eq_true] at hk
    obtain ⟨⟨⟨hk1, hk2⟩, hk3⟩, hk4⟩ := hk
    refine ⟨⟨c1, s.history ++ (if c1.run_ = s.run_ then [] else [c1.run_]),
      s.begun + (if c1.main.isBody && !s.main.isBody then 1 else 0)⟩, ?_, ⟨hk1, ?_, ?_⟩, ?_⟩
    · unfold Traced.step
      rw [hc]
      rfl
    · show s.history ++ _ = history1 ++ c1.later
      rw [hh, hk2, List.append_assoc]
    · show s.begun + _ = begun1
      have : (c1.main.isBody && !s.main.isBody) = false := by
        cases h1 : c1.main.isBody
        · rfl
        · rw [hk3 h1]
          rfl
      rw [this, hb]
      rfl
    · show c1.main.rank ≤ s.main.rank - mainSteps [ev]
      cases ev with
      | main a =>
        have : mainSteps [ThreadEvent.main a] = 1 := rfl
        rw [this]
        simp only [Bool.or_eq_true, Bool.and_eq_true, decide_eq_true_eq] at hk4
        rcases hk4 with h1 | ⟨_, h2⟩
        · omega
        · rw [h2]
          exact Nat.zero_le _
      | finisher a =>
        have : mainSteps [ThreadEvent.finisher a] = 0 := rfl
        simp only [decide_eq_true_eq] at hk4
        rw [this, hk4]
        exact Nat.le_refl _
      | spurious =>
        have : mainSteps [ThreadEvent.spurious] = 0 := rfl
        simp only [decide_eq_true_eq] at hk4
        rw [this, hk4]
        exact Nat.le_refl _

theorem mainSteps_cons (ev : ThreadEvent) (evs : List ThreadEvent) :
    mainSteps (ev :: evs) = mainSteps [ev] + mainSteps evs := by
  unfold mainSteps
  rw [List.countP_cons, List.countP_cons, List.countP_nil]
  omega

theorem after_run (history1 : List RunState) (begun1 : Nat) (evs : List ThreadEvent) :
    ∀ s : Traced, s.After history1 begun1 →
      ∃ s1, s.run evs = some s1 ∧ s1.After history1 begun1 ∧
        s1.main.rank ≤ s.main.rank - mainSteps evs := by
  induction evs with
  | nil =>
    intro s h
    exact ⟨s, rfl, h, Nat.le_refl _⟩
  | cons ev evs ih =>
    intro s h
    obtain ⟨s1, h1, h2, h3⟩ := after_step history1 begun1 s ev h
    obtain ⟨s2, h4, h5, h6⟩ := ih s1 h2
    refine ⟨s2, ?_, h5, ?_⟩
    · show (match s.step ev with
        | none => none
        | some s1 => Traced.run s1 evs) = some s2
      rw [h1]
      exact h4
    · rw [mainSteps_cons]
      omega

theorem stop_step (s0 : Traced) (answer : Bool) (hrun : s0.run_ = RunState.RUNNING)
    (hmain : s0.main.isActive = true)
    (hfinish : s0.finisher = FinisherPlace.finish FinishPlace.entry) :
    s0.step (.finisher answer) =
      some ⟨⟨.STOP_RUNNING, s0.main, .finish .waiting⟩, s0.history ++ [.STOP_RUNNING],
        s0.begun⟩ := by
  obtain ⟨⟨r, m, f⟩, h, b⟩ := s0
  simp only at hrun hmain hfinish
  subst hrun
  subst hfinish
  cases m <;> first | exact absurd hmain (by decide) | rfl

theorem rank_of_active (p : ComputePlace) (h : p.isActive = true) : p.rank ≤ 8 := by
  cases p <;> first | exact absurd h (by decide) | decide

theorem returned_of_rank (p : ComputePlace) (h : p.rank = 0) : p = .returned := by
  cases p <;> first | rfl | exact absurd h (by decide)

theorem step_of_core (s : Traced) (ev : ThreadEvent) (c1 : Run)
    (h : s.toRun.step ev = some c1) :
    ∃ s2, s.step ev = some s2 ∧ s2.toRun = c1 := by
  refine ⟨⟨c1, s.history ++ (if c1.run_ = s.run_ then [] else [c1.run_]),
    s.begun + (if c1.main.isBody && !s.main.isBody then 1 else 0)⟩, ?_, rfl⟩
  unfold Traced.step
  rw [h]
  rfl

theorem leaves_of_core (s : Traced) (h : finisherLeaves s.toRun = true) (answer : Bool) :
    ∃ s2, s.step (.finisher answer) = some s2 ∧
      (s2.finisher = .finish .returned ∨ s2.finisher = .compute .entry) := by
  unfold finisherLeaves at h
  have h1 := List.all_eq_true.mp h answer (by cases answer <;> decide)
  cases hc : s.toRun.step (.finisher answer) with
  | none =>
    rw [hc] at h1
    exact absurd h1 Bool.false_ne_true
  | some c1 =>
    rw [hc] at h1
    simp only [Bool.or_eq_true, decide_eq_true_eq] at h1
    obtain ⟨s2, h2, h3⟩ := step_of_core s _ c1 hc
    refine ⟨s2, h2, ?_⟩
    have : s2.finisher = c1.finisher := by rw [← h3]
    rw [this]
    exact h1

theorem enters_of_core (s : Traced) (h : finisherEnters s.toRun = true) (answer : Bool) :
    ∃ s2, s.step (.finisher answer) = some s2 ∧ s2.run_ = .RUNNING ∧
      s2.finisher = .compute .outerCondition ∧ s2.main = s.main := by
  unfold finisherEnters at h
  have h1 := List.all_eq_true.mp h answer (by cases answer <;> decide)
  cases hc : s.toRun.step (.finisher answer) with
  | none =>
    rw [hc] at h1
    exact absurd h1 Bool.false_ne_true
  | some c1 =>
    rw [hc] at h1
    simp only [Bool.and_eq_true, decide_eq_true_eq] at h1
    obtain ⟨s2, h2, h3⟩ := step_of_core s _ c1 hc
    refine ⟨s2, h2, ?_⟩
    have e1 : s2.finisher = c1.finisher := by rw [← h3]
    have e2 : s2.run_ = c1.run_ := by rw [← h3]
    have e3 : s2.main = c1.main := by rw [← h3]
    rw [e1, e2, e3]
    exact ⟨h1.1.1, h1.1.2, h1.2⟩

/-- C31: cancellation leaves the graph reusable.  A thread is inside `compute()` with the run
state `RUNNING`, and a second thread has called `finish()` and takes the mutex.  Then
`finish()` sets `STOP_RUNNING` and waits, and for every sequence of steps of the two threads
after that, whatever the adaptor answers and with spurious wake-ups: no `assert` fails; the
values of `run_` after `STOP_RUNNING` are `NOT_RUNNING` and then, only once `finish()` has
returned and the second thread has entered `compute()`, `RUNNING` and `NOT_RUNNING` again;
the first `compute()` begins no further body of its loops and has returned after at most
eight of its own steps; `finish()` has returned only with `NOT_RUNNING`, it does not wait once
the first `compute()` has returned, and its next step then leaves it; the entry of the
following `compute()` finds `NOT_RUNNING`, passes and sets `RUNNING`, and while that
`compute()` is in its loop the state stays `RUNNING`. -/
theorem finish_stops_compute_and_graph_stays_usable (s0 : Traced) (answer : Bool)
    (evs : List ThreadEvent) (hrun : s0.run_ = RunState.RUNNING)
    (hmain : s0.main.isActive = true)
    (hfinish : s0.finisher = FinisherPlace.finish FinishPlace.entry) :
    ∃ s1 s : Traced,
      s0.step (.finisher answer) = some s1 ∧ s1.run_ = .STOP_RUNNING ∧
      s1.finisher = .finish .waiting ∧ s1.main = s0.main ∧
      s1.run evs = some s ∧
      (∃ later, later <+: [.NOT_RUNNING, .RUNNING, .NOT_RUNNING] ∧
        s.history = s0.history ++ .STOP_RUNNING :: later ∧
        ((∃ place, s.finisher = .finish place) → later <+: [.NOT_RUNNING])) ∧
      s.history.getLast? = some s.run_ ∧
      s.begun = s0.begun ∧
      s.main.rank ≤ s0.main.rank - mainSteps evs ∧ s0.main.rank ≤ 8 ∧
      (8 ≤ mainSteps evs → s.main = .returned) ∧
      (s.run_ = .STOP_RUNNING → s.main.isActive = true) ∧
      (s.finisher = .finish .returned → s.run_ = .NOT_RUNNING) ∧
      (s.main = .returned → s.finisher ≠ .finish .waiting ∧
        ((∃ place, s.finisher = .finish place) → ∀ a, ∃ s2, s.step (.finisher a) = some s2 ∧
          (s2.finisher = .finish .returned ∨ s2.finisher = .compute .entry))) ∧
      (s.finisher = .compute .entry → s.run_ = .NOT_RUNNING ∧
        ∀ a, ∃ s2, s.step (.finisher a) = some s2 ∧ s2.run_ = .RUNNING ∧
          s2.finisher = .compute .outerCondition ∧ s2.main = s.main) ∧
      (∀ place, s.finisher = .compute place → place.isActive = true → s.run_ = .RUNNING) := by
  have h1 := stop_step s0 answer hrun hmain hfinish
  have hafter : Traced.After (s0.history ++ [.STOP_RUNNING]) s0.begun
      ⟨⟨.STOP_RUNNING, s0.main, .finish .waiting⟩, s0.history ++ [.STOP_RUNNING], s0.begun⟩ := by
    refine ⟨?_, ?_, rfl⟩
    · show (s0.main.isActive &&
        (decide (FinishPlace.waiting = .waiting) || decide (FinishPlace.waiting = .woken))) = true
      rw [hmain]
      rfl
    · show s0.history ++ [RunState.STOP_RUNNING] = (s0.history ++ [.STOP_RUNNING]) ++ []
      rw [List.append_nil]
  obtain ⟨s, h2, ⟨hs, hh, hb⟩, hr⟩ := after_run _ _ evs _ hafter
  have h8 := rank_of_active s0.main hmain
  have hk := (stopped_keeps s.toRun hs).1
  unfold stateKeeps at hk
  simp only [Bool.and_eq_true, decide_eq_true_eq, Bool.decide_eq_true, Bool.not_eq_true',
    decide_eq_false_iff_not] at hk
  obtain ⟨⟨⟨⟨⟨⟨⟨⟨⟨k1, k2⟩, k3⟩, k4⟩, _⟩, k6⟩, k7⟩, k8⟩, k9⟩, k10⟩ := hk
  have hhist : s.history = s0.history ++ .STOP_RUNNING :: s.toRun.later := by
    rw [hh, List.append_assoc]
    rfl
  refine ⟨_, s, h1, rfl, rfl, rfl, h2, ⟨s.toRun.later, k1, hhist, ?_⟩, ?_, hb, hr, h8, ?_, k9, k6,
    ?_, ?_, ?_⟩
  · rintro ⟨place, hp⟩
    have hp1 : s.toRun.finisher = .finish place := hp
    rw [hp1] at k4
    simp only [Bool.and_eq_true, decide_eq_true_eq] at k4
    exact k4.1
  · rw [hhist, List.getLast?_append, k2]
    rfl
  · intro hm
    apply returned_of_rank
    have : s.main.rank ≤ s0.main.rank - mainSteps evs := hr
    omega
  · intro hm
    refine ⟨k8 hm, ?_⟩
    rintro ⟨place, hp⟩ a
    have hp1 : s.toRun.finisher = .finish place := hp
    rw [hp1] at k4
    simp only [Bool.and_eq_true, decide_eq_true_eq] at k4
    exact leaves_of_core s (k4.2 hm) a
  · intro he
    exact ⟨k7 he, fun a => enters_of_core s (k3 he) a⟩
  · intro place hp ha
    have hp1 : s.toRun.finisher = .compute place := hp
    rw [hp1] at k10
    simp only [decide_eq_true_eq] at k10
    exact k10 ha

set_option maxRecDepth 100000 in
theorem finish_stops_compute_and_graph_stays_usable_witness :
    stopExample.run_ = RunState.RUNNING ∧ stopExample.main.isActive = true ∧
      stopExample.finisher = FinisherPlace.finish FinishPlace.entry ∧
      Traced.run stopExample (.finisher false :: stopSchedule) =
        some ⟨⟨.RUNNING, .returned, .compute .firstBody⟩,
          [.NOT_RUNNING, .RUNNING, .STOP_RUNNING, .NOT_RUNNING, .RUNNING], 1⟩ ∧
      ∃ s1 s : Traced,
        stopExample.step (.finisher false) = some s1 ∧ s1.run_ = .STOP_RUNNING ∧
        s1.run stopSchedule = some s ∧ s.begun = stopExample.begun ∧ s.main = .returned :=
  ⟨rfl, rfl, rfl, by decide,
    match finish_stops_compute_and_graph_stays_usable stopExample false stopSchedule rfl rfl
      rfl with
    | ⟨s1, s, h1, h2, _, _, h5, _, _, h8, _, _, h11, _⟩ => ⟨s1, s, h1, h2, h5, h8, h11 (by decide)⟩⟩

end NodeGraph

end ImageGraph


namespace ImageGraph

theorem log2Floor_spec : ∀ fuel n : Nat, 1 ≤ n → n ≤ fuel →
    2 ^ log2Floor fuel n ≤ n ∧ n < 2 ^ (log2Floor fuel n + 1) := by
  intro fuel
  induction fuel with
  | zero => intro n h1 h2; omega
  | succ fuel ih =>
    intro n h1 h2
    unfold log2Floor
    split_ifs with h
    · obtain ⟨i1, i2⟩ := ih (n / 2) (by omega) (by omega)
      constructor
      · rw [pow_succ]
        omega
      · rw [pow_succ]
        omega
    · simp only [pow_zero, zero_add, pow_one]
      omega

theorem bitLog_spec (n : Nat) (h : 1 ≤ n) : 2 ^ bitLog n ≤ n ∧ n < 2 ^ (bitLog n + 1) :=
  log2Floor_spec n n h (Nat.le_refl n)

theorem pow2_eq (k : Int) : pow2 k = (2 : ℚ) ^ k := by
  unfold pow2
  split_ifs with h
  · obtain ⟨n, rfl⟩ := Int.eq_ofNat_of_zero_le h
    simp
  · obtain ⟨n, hn⟩ := Int.exists_eq_neg_ofNat (by omega : k ≤ 0)
    subst hn
    simp

theorem pow2_pos (k : Int) : 0 < pow2 k := by
  rw [pow2_eq]
  positivity

theorem pow2_mono {a b : Int} (h : a ≤ b) : pow2 a ≤ pow2 b := by
  rw [pow2_eq, pow2_eq]
  exact zpow_le_zpow_right₀ (by norm_num) h

theorem pow2_lt_iff {a b : Int} : pow2 a < pow2 b ↔ a < b := by
  rw [pow2_eq, pow2_eq]
  exact zpow_lt_zpow_iff_right₀ (by norm_num)

theorem pow2_add (a b : Int) : pow2 (a + b) = pow2 a * pow2 b := by
  rw [pow2_eq, pow2_eq, pow2_eq]
  exact zpow_add₀ (by norm_num) a b

theorem pow2_natCast (n : Nat) : pow2 n = ((2 ^ n : Nat) : ℚ) := by
  rw [pow2_eq]
  simp

/-- `ilog2 q` is `⌊log₂ q⌋`. -/
theorem ilog2_spec (q : ℚ) (hq : 0 < q) : pow2 (ilog2 q) ≤ q ∧ q < pow2 (ilog2 q + 1) := by
  have hnum : 0 < q.num := Rat.num_pos.2 hq
  have ha : 1 ≤ q.num.natAbs := by omega
  have hb : 1 ≤ q.den := q.den_pos
  obtain ⟨a1, a2⟩ := bitLog_spec q.num.natAbs ha
  obtain ⟨b1, b2⟩ := bitLog_spec q.den hb
  have hqe : q = (q.num.natAbs : ℚ) / (q.den : ℚ) := by
    have h1 : ((q.num.natAbs : Int) : ℚ) = (q.num : ℚ) := by
      congr 1
      exact Int.natAbs_of_nonneg hnum.le
    have h2 : ((q.num.natAbs : Nat) : ℚ) = ((q.num.natAbs : Int) : ℚ) :=
      (Int.cast_natCast q.num.natAbs).symm
    rw [h2, h1]
    exact (Rat.num_div_den q).symm
  have hden : (0 : ℚ) < (q.den : ℚ) := by exact_mod_cast hb
  have A1 : pow2 (bitLog q.num.natAbs) ≤ (q.num.natAbs : ℚ) := by
    rw [pow2_natCast]; exact_mod_cast a1
  have A2 : (q.num.natAbs : ℚ) < pow2 ((bitLog q.num.natAbs : Int) + 1) := by
    have : ((bitLog q.num.natAbs : Int) + 1) = ((bitLog q.num.natAbs + 1 : Nat) : Int) := by
      push_cast; ring
    rw [this, pow2_natCast]; exact_mod_cast a2
  have B1 : pow2 (bitLog q.den) ≤ (q.den : ℚ) := by
    rw [pow2_natCast]; exact_mod_cast b1
  have B2 : (q.den : ℚ) < pow2 ((bitLog q.den : Int) + 1) := by
    have : ((bitLog q.den : Int) + 1) = ((bitLog q.den + 1 : Nat) : Int) := by
      push_cast; ring
    rw [this, pow2_natCast]; exact_mod_cast b2
  -- the two bounds on `q`
  have hup : q < pow2 ((bitLog q.num.natAbs : Int) - (bitLog q.den : Int) + 1) := by
    have e : pow2 ((bitLog q.num.natAbs : Int) + 1)
        = pow2 ((bitLog q.num.natAbs : Int) - (bitLog q.den : Int) + 1) * pow2 (bitLog q.den) := by
      rw [← pow2_add]; congr 1; ring
    rw [e] at A2
    have hp := pow2_pos ((bitLog q.num.natAbs : Int) - (bitLog q.den : Int) + 1)
    have : (q.num.natAbs : ℚ)
        < pow2 ((bitLog q.num.natAbs : Int) - (bitLog q.den : Int) + 1) * (q.den : ℚ) :=
      lt_of_lt_of_le A2 (mul_le_mul_of_nonneg_left B1 hp.le)
    have h3 : q * (q.den : ℚ) = (q.num.natAbs : ℚ) := by
      rw [eq_div_iff hden.ne'] at hqe
      exact hqe
    rw [← div_lt_iff₀ hden, ← h3, mul_div_assoc, div_self hden.ne', mul_one] at this
    exact this
  have hlow : pow2 ((bitLog q.num.natAbs : Int) - (bitLog q.den : Int) - 1) < q := by
    have e : pow2 (bitLog q.num.natAbs)
        = pow2 ((bitLog q.num.natAbs : Int) - (bitLog q.den : Int) - 1)
          * pow2 ((bitLog q.den : Int) + 1) := by
      rw [← pow2_add]; congr 1; ring
    rw [e] at A1
    have hp := pow2_pos ((bitLog q.num.natAbs : Int) - (bitLog q.den : Int) - 1)
    have : pow2 ((bitLog q.num.natAbs : Int) - (bitLog q.den : Int) - 1) * (q.den : ℚ)
        < (q.num.natAbs : ℚ) :=
      lt_of_lt_of_le (mul_lt_mul_of_pos_left B2 hp) A1
    have h3 : q * (q.den : ℚ) = (q.num.natAbs : ℚ) := by
      rw [eq_div_iff hden.ne'] at hqe
      exact hqe
    rw [← h3] at this
    exact lt_of_mul_lt_mul_right this hden.le
  unfold ilog2
  simp only
  split_ifs with h
  · exact ⟨h, hup⟩
  · refine ⟨hlow.le, ?_⟩
    have : (bitLog q.num.natAbs : Int) - (bitLog q.den : Int) - 1 + 1
        = (bitLog q.num.natAbs : Int) - (bitLog q.den : Int) := by ring
    rw [this]
    exact lt_of_not_le h

theorem ilog2_mono {q1 q2 : ℚ} (h1 : 0 < q1) (h : q1 ≤ q2) : ilog2 q1 ≤ ilog2 q2 := by
  obtain ⟨a1, _⟩ := ilog2_spec q1 h1
  obtain ⟨_, b2⟩ := ilog2_spec q2 (lt_of_lt_of_le h1 h)
  have : pow2 (ilog2 q1) < pow2 (ilog2 q2 + 1) := lt_of_le_of_lt (a1.trans h) b2
  have := pow2_lt_iff.1 this
  omega

theorem roundHalfEven_bounds (x : ℚ) : ⌊x⌋ ≤ roundHalfEven x ∧ roundHalfEven x ≤ ⌊x⌋ + 1 := by
  unfold roundHalfEven
  simp only
  split_ifs <;> constructor <;> omega

theorem roundHalfEven_le (x : ℚ) (n : Int) (h : x ≤ n) : roundHalfEven x ≤ n := by
  rcases eq_or_lt_of_le h with h1 | h1
  · unfold roundHalfEven
    simp only
    rw [h1, Int.floor_intCast, sub_self, if_pos (by norm_num)]
  · have : ⌊x⌋ < n := Int.floor_lt.2 h1
    have := (roundHalfEven_bounds x).2
    omega

theorem le_roundHalfEven (x : ℚ) (n : Int) (h : (n : ℚ) ≤ x) : n ≤ roundHalfEven x := by
  have : n ≤ ⌊x⌋ := Int.le_floor.2 h
  have := (roundHalfEven_bounds x).1
  omega

theorem roundHalfEven_mono {x y : ℚ} (h : x ≤ y) : roundHalfEven x ≤ roundHalfEven y := by
  have hf : ⌊x⌋ ≤ ⌊y⌋ := Int.floor_mono h
  rcases eq_or_lt_of_le hf with he | hl
  · have hfr : x - ⌊x⌋ ≤ y - ⌊y⌋ := by rw [he]; linarith
    unfold roundHalfEven
    simp only
    rw [← he]
    split_ifs <;> first | omega | (exfalso; linarith)
  · have := (roundHalfEven_bounds x).2
    have := (roundHalfEven_bounds y).1
    omega

theorem pow2_intCast (n : Nat) : (((2 : Int) ^ n : Int) : ℚ) = pow2 n := by
  rw [pow2_eq]
  simp

theorem exponent_mono (f : BinaryFormat) {q1 q2 : ℚ} (h1 : 0 < q1) (h : q1 ≤ q2) :
    f.exponent q1 ≤ f.exponent q2 := by
  unfold BinaryFormat.exponent
  rw [abs_of_pos h1, abs_of_pos (lt_of_lt_of_le h1 h)]
  have := ilog2_mono h1 h
  omega

theorem nearest_nonneg (f : BinaryFormat) {q : ℚ} (h : 0 ≤ q) : 0 ≤ f.nearest q := by
  unfold BinaryFormat.nearest
  split_ifs with h0
  · exact le_refl 0
  · have hp := pow2_pos (f.exponent q)
    have : (0 : Int) ≤ roundHalfEven (q / pow2 (f.exponent q)) :=
      le_roundHalfEven _ 0 (by simpa using div_nonneg h hp.le)
    have : (0 : ℚ) ≤ (roundHalfEven (q / pow2 (f.exponent q)) : ℚ) := by exact_mod_cast this
    exact mul_nonneg this hp.le

/-- Rounding to the nearest value keeps the order. -/
theorem nearest_mono (f : BinaryFormat) {q1 q2 : ℚ} (h0 : 0 ≤ q1) (h : q1 ≤ q2) :
    f.nearest q1 ≤ f.nearest q2 := by
  rcases eq_or_lt_of_le h0 with h1 | h1
  · rw [← h1]
    have : f.nearest 0 = 0 := by unfold BinaryFormat.nearest; rw [if_pos rfl]
    rw [this]
    exact nearest_nonneg f (h0.trans h)
  · have h2 : 0 < q2 := lt_of_lt_of_le h1 h
    have he := exponent_mono f h1 h
    unfold BinaryFormat.nearest
    rw [if_neg h1.ne', if_neg h2.ne']
    have hp1 := pow2_pos (f.exponent q1)
    have hp2 := pow2_pos (f.exponent q2)
    rcases eq_or_lt_of_le he with heq | hlt
    · rw [← heq]
      have : roundHalfEven (q1 / pow2 (f.exponent q1)) ≤ roundHalfEven (q2 / pow2 (f.exponent q1)) :=
        roundHalfEven_mono (div_le_div_of_nonneg_right h hp1.le)
      have : (roundHalfEven (q1 / pow2 (f.exponent q1)) : ℚ)
          ≤ (roundHalfEven (q2 / pow2 (f.exponent q1)) : ℚ) := by exact_mod_cast this
      exact mul_le_mul_of_nonneg_right this hp1.le
    · obtain ⟨-, s1⟩ := ilog2_spec q1 h1
      obtain ⟨s2, -⟩ := ilog2_spec q2 h2
      have hd1 : f.exponent q1 = max (ilog2 q1 - (f.precision - 1 : Nat)) f.emin := by
        unfold BinaryFormat.exponent; rw [abs_of_pos h1]
      have hd2 : f.exponent q2 = max (ilog2 q2 - (f.precision - 1 : Nat)) f.emin := by
        unfold BinaryFormat.exponent; rw [abs_of_pos h2]
      -- the first value is at most `2^(p + e1)`
      have b1 : q1 / pow2 (f.exponent q1) ≤ pow2 ((f.precision - 1 : Nat) + 1) := by
        rw [div_le_iff₀ hp1, ← pow2_add]
        have : ilog2 q1 + 1 ≤ ((f.precision - 1 : Nat) : Int) + 1 + f.exponent q1 := by
          rw [hd1]; omega
        exact s1.le.trans (pow2_mono this)
      have c1 : roundHalfEven (q1 / pow2 (f.exponent q1)) ≤ (2 : Int) ^ ((f.precision - 1) + 1) := by
        apply roundHalfEven_le
        rw [pow2_intCast]
        push_cast
        exact b1
      have d1 : (roundHalfEven (q1 / pow2 (f.exponent q1)) : ℚ) * pow2 (f.exponent q1)
          ≤ pow2 (((f.precision - 1 : Nat) : Int) + 1 + f.exponent q1) := by
        rw [pow2_add]
        have : (roundHalfEven (q1 / pow2 (f.exponent q1)) : ℚ)
            ≤ pow2 (((f.precision - 1 : Nat) : Int) + 1) := by
          have := (Int.cast_le (R := ℚ)).2 c1
          rw [pow2_intCast] at this
          push_cast at this
          exact this
        exact mul_le_mul_of_nonneg_right this hp1.le
      -- the second value is at least `2^(p - 1 + e2)`
      have e2 : f.exponent q2 = ilog2 q2 - (f.precision - 1 : Nat) := by
        have : f.emin ≤ f.exponent q1 := by rw [hd1]; exact le_max_right _ _
        rw [hd2] at hlt ⊢
        omega
      have b2 : pow2 ((f.precision - 1 : Nat)) ≤ q2 / pow2 (f.exponent q2) := by
        rw [le_div_iff₀ hp2, ← pow2_add]
        have : ((f.precision - 1 : Nat) : Int) + f.exponent q2 = ilog2 q2 := by rw [e2]; ring
        rw [this]
        exact s2
      have c2 : (2 : Int) ^ (f.precision - 1) ≤ roundHalfEven (q2 / pow2 (f.exponent q2)) := by
        apply le_roundHalfEven
        rw [pow2_intCast]
        exact b2
      have d2 : pow2 (((f.precision - 1 : Nat) : Int) + f.exponent q2)
          ≤ (roundHalfEven (q2 / pow2 (f.exponent q2)) : ℚ) * pow2 (f.exponent q2) := by
        rw [pow2_add]
        have : pow2 ((f.precision - 1 : Nat)) ≤ (roundHalfEven (q2 / pow2 (f.exponent q2)) : ℚ) := by
          have := (Int.cast_le (R := ℚ)).2 c2
          rw [pow2_intCast] at this
          exact this
        exact mul_le_mul_of_nonneg_right this hp2.le
      have hmid : pow2 (((f.precision - 1 : Nat) : Int) + 1 + f.exponent q1)
          ≤ pow2 (((f.precision - 1 : Nat) : Int) + f.exponent q2) := pow2_mono (by omega)
      exact d1.trans (hmid.trans d2)

theorem FloatValue.le_refl_finite (q : ℚ) : (FloatValue.finite q).le (FloatValue.finite q) = true := by
  simp [FloatValue.le, FloatValue.eq]

theorem FloatValue.le_finite_iff (a b : ℚ) :
    (FloatValue.finite a).le (FloatValue.finite b) = true ↔ a ≤ b := by
  simp [FloatValue.le, FloatValue.lt, FloatValue.eq, le_iff_lt_or_eq]

/-- The rounding of a non-negative result is a non-negative value or the positive infinity. -/
theorem round_of_nonneg (f : BinaryFormat) {q : ℚ} (h : 0 ≤ q) :
    (f.round q = FloatValue.posInf ∧ pow2 (f.emax + 1) ≤ f.nearest q) ∨
      (f.round q = FloatValue.finite (f.nearest q) ∧ 0 ≤ f.nearest q ∧
        f.nearest q < pow2 (f.emax + 1)) := by
  have hn := nearest_nonneg f h
  have hp := pow2_pos (f.emax + 1)
  unfold BinaryFormat.round
  split_ifs with h1 h2
  · exact Or.inl ⟨rfl, h1⟩
  · exfalso; linarith
  · exact Or.inr ⟨rfl, hn, lt_of_not_le h1⟩

/-- Rounding keeps the order of non-negative results. -/
theorem round_mono (f : BinaryFormat) {q1 q2 : ℚ} (h0 : 0 ≤ q1) (h : q1 ≤ q2) :
    (f.round q1).le (f.round q2) = true := by
  have hm := nearest_mono f h0 h
  rcases round_of_nonneg f h0 with ⟨r1, t1⟩ | ⟨r1, -, t1⟩ <;>
    rcases round_of_nonneg f (h0.trans h) with ⟨r2, t2⟩ | ⟨r2, -, t2⟩
  · rw [r1, r2]; rfl
  · exfalso; linarith
  · rw [r1, r2]; rfl
  · rw [r1, r2]; exact (FloatValue.le_finite_iff _ _).2 hm

end ImageGraph


namespace ImageGraph

/-! ## The order of the floating-point values -/

namespace FloatValue

theorem lt_irrefl_bool (a : FloatValue) : a.lt a = false := by
  cases a <;> simp [FloatValue.lt]

theorem lt_trans_bool {a b c : FloatValue} (h1 : a.lt b = true) (h2 : b.lt c = true) :
    a.lt c = true := by
  cases a <;> cases b <;> cases c <;> simp [FloatValue.lt] at h1 h2 ⊢
  exact lt_trans h1 h2

theorem lt_asymm_bool {a b : FloatValue} (h : a.lt b = true) : b.lt a = false := by
  cases a <;> cases b <;> simp [FloatValue.lt] at h ⊢
  exact le_of_lt h

theorem eq_iff {a b : FloatValue} : a.eq b = true ↔ a = b ∧ a ≠ FloatValue.nan := by
  cases a <;> cases b <;> simp [FloatValue.eq]

theorem lt_of_eq_of_lt {a b c : FloatValue} (h1 : a.eq b = true) (h2 : b.lt c = true) :
    a.lt c = true := by
  rw [(eq_iff.1 h1).1]
  exact h2

theorem lt_of_lt_of_eq {a b c : FloatValue} (h1 : a.lt b = true) (h2 : b.eq c = true) :
    a.lt c = true := by
  rw [← (eq_iff.1 h2).1]
  exact h1

theorem eq_lt_false {a b : FloatValue} (h : a.eq b = true) : a.lt b = false := by
  rw [(eq_iff.1 h).1]
  exact lt_irrefl_bool b

theorem trichotomy {a b : FloatValue} (ha : a ≠ FloatValue.nan) (hb : b ≠ FloatValue.nan) :
    a.lt b = true ∨ a.eq b = true ∨ b.lt a = true := by
  cases a <;> cases b <;> simp [FloatValue.lt, FloatValue.eq] at ha hb ⊢
  exact lt_trichotomy _ _

theorem le_iff {a b : FloatValue} : a.le b = true ↔ a.lt b = true ∨ a.eq b = true := by
  simp [FloatValue.le]

theorem le_of_not_lt {a b : FloatValue} (ha : a ≠ FloatValue.nan) (hb : b ≠ FloatValue.nan)
    (h : b.lt a = false) : a.le b = true := by
  rcases trichotomy ha hb with h1 | h1 | h1
  · exact le_iff.2 (Or.inl h1)
  · exact le_iff.2 (Or.inr h1)
  · rw [h1] at h; cases h

theorem le_trans_bool {a b c : FloatValue} (h1 : a.le b = true) (h2 : b.le c = true) :
    a.le c = true := by
  rcases le_iff.1 h1 with h1 | h1 <;> rcases le_iff.1 h2 with h2 | h2
  · exact le_iff.2 (Or.inl (lt_trans_bool h1 h2))
  · exact le_iff.2 (Or.inl (lt_of_lt_of_eq h1 h2))
  · exact le_iff.2 (Or.inl (lt_of_eq_of_lt h1 h2))
  · refine le_iff.2 (Or.inr ?_)
    rw [(eq_iff.1 h1).1]
    exact h2

theorem le_antisymm_bool {a b : FloatValue} (h1 : a.le b = true) (h2 : b.le a = true) :
    a = b := by
  rcases le_iff.1 h1 with h1 | h1
  · rcases le_iff.1 h2 with h2 | h2
    · rw [lt_asymm_bool h1] at h2; cases h2
    · exact (eq_iff.1 h2).1.symm
  · exact (eq_iff.1 h1).1

theorem le_nan {a b : FloatValue} (h : a.le b = true) : a ≠ FloatValue.nan ∧ b ≠ FloatValue.nan := by
  cases a <;> cases b <;> simp [FloatValue.le, FloatValue.lt, FloatValue.eq] at h ⊢

end FloatValue

theorem round_ne_nan (f : BinaryFormat) (q : ℚ) : f.round q ≠ FloatValue.nan := by
  unfold BinaryFormat.round
  split_ifs <;> simp

theorem nearest_zero (f : BinaryFormat) : f.nearest 0 = 0 := by
  unfold BinaryFormat.nearest
  rw [if_pos rfl]

theorem round_zero (f : BinaryFormat) : f.round 0 = FloatValue.finite 0 := by
  have hp := pow2_pos (f.emax + 1)
  unfold BinaryFormat.round
  rw [nearest_zero, if_neg (by linarith), if_neg (by linarith)]

theorem roundHalfEven_intCast (n : Int) : roundHalfEven (n : ℚ) = n := by
  unfold roundHalfEven
  simp only
  rw [Int.floor_intCast, sub_self, if_pos (by norm_num)]

/-- A natural number below `2^p` is a value of the format: its conversion is exact. -/
theorem ofNat_exact (f : BinaryFormat) (n : Nat) (h : n < 2 ^ f.precision) (hp : 1 ≤ f.precision)
    (hmin : f.emin ≤ 0) (hmax : (f.precision : Int) ≤ f.emax + 1) :
    f.ofNat n = FloatValue.finite n := by
  unfold BinaryFormat.ofNat
  rcases Nat.eq_zero_or_pos n with h0 | h0
  · subst h0
    simp only [Nat.cast_zero]
    exact round_zero f
  · have hq : (0 : ℚ) < (n : ℚ) := by exact_mod_cast h0
    obtain ⟨s1, s2⟩ := ilog2_spec (n : ℚ) hq
    -- the exponent is not positive
    have hlog : ilog2 (n : ℚ) < f.precision := by
      have : (n : ℚ) < pow2 f.precision := by
        rw [pow2_natCast]; exact_mod_cast h
      exact pow2_lt_iff.1 (lt_of_le_of_lt s1 this)
    have he : f.exponent (n : ℚ) ≤ 0 := by
      unfold BinaryFormat.exponent
      rw [abs_of_pos hq]
      have : (((f.precision - 1 : Nat) : Int)) = (f.precision : Int) - 1 := by omega
      omega
    obtain ⟨k, hk⟩ := Int.exists_eq_neg_ofNat he
    have hne : f.nearest (n : ℚ) = n := by
      unfold BinaryFormat.nearest
      rw [if_neg hq.ne', hk]
      have e1 : (n : ℚ) / pow2 (-(k : Int)) = (((n * 2 ^ k : Nat) : Int) : ℚ) := by
        have : pow2 (-(k : Int)) * pow2 k = 1 := by
          rw [← pow2_add]; simp [pow2]
        have hp2 := pow2_pos (-(k : Int))
        rw [div_eq_iff hp2.ne']
        push_cast
        have e2 : ((2 : ℚ) ^ k) = pow2 k := by
          rw [pow2_eq]; simp
        rw [e2, mul_assoc, mul_comm (pow2 k), this, mul_one]
      rw [e1, roundHalfEven_intCast, ← e1, div_mul_cancel₀ _ (pow2_pos _).ne']
    have hlt : (n : ℚ) < pow2 (f.emax + 1) := by
      have : (n : ℚ) < pow2 f.precision := by
        rw [pow2_natCast]; exact_mod_cast h
      exact lt_of_lt_of_le this (pow2_mono hmax)
    unfold BinaryFormat.round
    rw [hne, if_neg (not_le.2 hlt), if_neg]
    have := pow2_pos (f.emax + 1)
    linarith

namespace Machine

/-! ## The relevance chooser with `float` quotients -/

theorem floatQuotient_of_pos (n : Nat) (r : ℚ) (hr : 0 < r) :
    (∃ x, 0 ≤ x ∧ float32.ofNat n = FloatValue.finite x ∧
      OutputInfo.floatQuotient n r = float32.round (x / r)) ∨
    (float32.ofNat n = FloatValue.posInf ∧ OutputInfo.floatQuotient n r = FloatValue.posInf) := by
  unfold OutputInfo.floatQuotient BinaryFormat.ofNat
  rcases round_of_nonneg float32 (Nat.cast_nonneg n : (0 : ℚ) ≤ n) with ⟨h1, -⟩ | ⟨h1, h2, -⟩
  · right
    rw [h1]
    exact ⟨rfl, by simp [BinaryFormat.div, hr.le]⟩
  · left
    rw [h1]
    exact ⟨_, h2, rfl, by simp [BinaryFormat.div, hr.ne']⟩

theorem floatQuotient_ne_nan (n : Nat) (r : ℚ) (hr : 0 < r) :
    OutputInfo.floatQuotient n r ≠ FloatValue.nan := by
  rcases floatQuotient_of_pos n r hr with ⟨x, -, -, h⟩ | ⟨-, h⟩
  · rw [h]; exact round_ne_nan _ _
  · rw [h]; simp

theorem floatQuotient_zero (r : ℚ) (hr : 0 < r) :
    OutputInfo.floatQuotient 0 r = FloatValue.finite 0 := by
  unfold OutputInfo.floatQuotient BinaryFormat.ofNat
  simp only [Nat.cast_zero]
  rw [round_zero]
  simp only [BinaryFormat.div, hr.ne', if_false, zero_div]
  exact round_zero _

/-- For a positive relevance the `float` quotient does not fall when the count rises. -/
theorem floatQuotient_mono {n m : Nat} (r : ℚ) (hr : 0 < r) (h : n ≤ m) :
    (OutputInfo.floatQuotient n r).le (OutputInfo.floatQuotient m r) = true := by
  have hc : ((n : ℚ)) ≤ m := by exact_mod_cast h
  have hle := round_mono float32 (Nat.cast_nonneg n) hc
  rcases floatQuotient_of_pos n r hr with ⟨x, hx, e1, q1⟩ | ⟨e1, q1⟩ <;>
    rcases floatQuotient_of_pos m r hr with ⟨y, hy, e2, q2⟩ | ⟨e2, q2⟩
  · rw [q1, q2]
    have : x ≤ y := by
      unfold BinaryFormat.ofNat at e1 e2
      rw [e1, e2] at hle
      exact (FloatValue.le_finite_iff _ _).1 hle
    exact round_mono float32 (div_nonneg hx hr.le) (div_le_div_of_nonneg_right this hr.le)
  · rw [q1, q2]
    have := round_ne_nan float32 (x / r)
    rcases round_of_nonneg float32 (div_nonneg hx hr.le) with ⟨h1, -⟩ | ⟨h1, -⟩ <;>
      rw [h1] <;> rfl
  · unfold BinaryFormat.ofNat at e1 e2
    rw [e1, e2] at hle
    simp [FloatValue.le, FloatValue.lt, FloatValue.eq] at hle
  · rw [q1, q2]
    rfl

/-- Below `2^24` the `float` quotient is the exact quotient rounded once. -/
theorem floatQuotient_exact (n : Nat) (r : ℚ) (hr : 0 < r) (hn : n < 2 ^ 24) :
    OutputInfo.floatQuotient n r = float32.round ((n : ℚ) / r) := by
  unfold OutputInfo.floatQuotient
  rw [ofNat_exact float32 n hn (by decide) (by decide) (by decide)]
  simp [BinaryFormat.div, hr.ne']

end Machine

end ImageGraph


namespace ImageGraph

namespace Machine

theorem float_lt_iff {T : Type} (a b : OutputInfo T) :
    a.lt b = true ↔ a.relative_count.lt b.relative_count = true ∨
      (a.relative_count.eq b.relative_count = true ∧ a.relevance < b.relevance) := by
  simp [OutputInfo.lt]

theorem float_lt_asymm {T : Type} (a b : OutputInfo T) (h : a.lt b = true) : b.lt a = false := by
  rw [Bool.eq_false_iff]
  intro h2
  rw [float_lt_iff] at h h2
  rcases h with h | ⟨h, hr⟩ <;> rcases h2 with h2 | ⟨h2, hr2⟩
  · rw [FloatValue.lt_asymm_bool h] at h2; cases h2
  · rw [(FloatValue.eq_iff.1 h2).1, FloatValue.lt_irrefl_bool] at h; cases h
  · rw [(FloatValue.eq_iff.1 h).1, FloatValue.lt_irrefl_bool] at h2; cases h2
  · exact lt_asymm hr hr2

theorem float_not_lt_trans {T : Type} (a b c : OutputInfo T)
    (ha : a.relative_count ≠ FloatValue.nan) (hb : b.relative_count ≠ FloatValue.nan)
    (hc : c.relative_count ≠ FloatValue.nan) (h1 : b.lt a = false) (h2 : c.lt b = false) :
    c.lt a = false := by
  rw [Bool.eq_false_iff] at h1 h2 ⊢
  rw [Ne, float_lt_iff] at h1 h2 ⊢
  push_neg at h1 h2 ⊢
  obtain ⟨h1a, h1b⟩ := h1
  obtain ⟨h2a, h2b⟩ := h2
  have l1 : a.relative_count.le b.relative_count = true :=
    FloatValue.le_of_not_lt ha hb (by simpa using h1a)
  have l2 : b.relative_count.le c.relative_count = true :=
    FloatValue.le_of_not_lt hb hc (by simpa using h2a)
  have l3 := FloatValue.le_trans_bool l1 l2
  constructor
  · intro h
    rcases FloatValue.le_iff.1 l3 with h3 | h3
    · rw [FloatValue.lt_asymm_bool h3] at h; cases h
    · rw [(FloatValue.eq_iff.1 h3).1, FloatValue.lt_irrefl_bool] at h; cases h
  · intro heq
    have e3 := (FloatValue.eq_iff.1 heq).1
    have e1 : b.relative_count = a.relative_count := by
      apply FloatValue.le_antisymm_bool _ l1
      rw [← e3]; exact l2
    have e2 : c.relative_count = b.relative_count := e3.trans e1.symm
    have k1 := h1b (FloatValue.eq_iff.2 ⟨e1, hb⟩)
    have k2 := h2b (FloatValue.eq_iff.2 ⟨e2, hc⟩)
    exact le_trans k1 k2

/-- `std::min_element` returns an element that no element of the range is smaller than, when
no `relative_count` is NaN. -/
theorem float_minElementFrom_spec {T : Type} (rest : List (OutputInfo T)) :
    ∀ (best : Nat) (smallest : OutputInfo T) (idx : Nat),
      smallest.relative_count ≠ FloatValue.nan →
      (∀ r ∈ rest, r.relative_count ≠ FloatValue.nan) →
      smallest.lt (minElementFrom best smallest idx rest).2 = false ∧
      (∀ r ∈ rest, r.lt (minElementFrom best smallest idx rest).2 = false) ∧
      (minElementFrom best smallest idx rest).2.relative_count ≠ FloatValue.nan ∧
      ((minElementFrom best smallest idx rest = (best, smallest)) ∨
        ∃ j, rest[j]? = some (minElementFrom best smallest idx rest).2 ∧
          (minElementFrom best smallest idx rest).1 = idx + j) := by
  induction rest with
  | nil =>
    intro best smallest idx hs _
    refine ⟨?_, fun r hr => absurd hr (List.not_mem_nil r), hs, Or.inl rfl⟩
    simp only [minElementFrom]
    rw [Bool.eq_false_iff]
    intro h
    rw [float_lt_asymm _ _ h] at h
    cases h
  | cons e rest ih =>
    intro best smallest idx hs hrest
    have he0 := hrest e (List.mem_cons_self _ _)
    have hrest1 : ∀ r ∈ rest, r.relative_count ≠ FloatValue.nan :=
      fun r hr => hrest r (List.mem_cons_of_mem _ hr)
    simp only [minElementFrom]
    by_cases he : e.lt smallest = true
    · rw [if_pos he]
      obtain ⟨h1, h2, hn, h3⟩ := ih idx e (idx + 1) he0 hrest1
      refine ⟨?_, ?_, hn, ?_⟩
      · exact float_not_lt_trans _ _ _ hn he0 hs h1 (float_lt_asymm _ _ he)
      · intro r hr
        rcases List.mem_cons.1 hr with rfl | hr
        · exact h1
        · exact h2 r hr
      · right
        rcases h3 with h3 | ⟨j, hj, hk⟩
        · exact ⟨0, by rw [h3]; simp, by rw [h3]; simp⟩
        · exact ⟨j + 1, by rw [List.getElem?_cons_succ]; exact hj, by rw [hk]; omega⟩
    · rw [if_neg he]
      have he' : e.lt smallest = false := by simpa using he
      obtain ⟨h1, h2, hn, h3⟩ := ih best smallest (idx + 1) hs hrest1
      refine ⟨h1, ?_, hn, ?_⟩
      · intro r hr
        rcases List.mem_cons.1 hr with rfl | hr
        · exact float_not_lt_trans _ _ _ hn hs he0 h1 he'
        · exact h2 r hr
      · rcases h3 with h3 | ⟨j, hj, hk⟩
        · exact Or.inl h3
        · exact Or.inr ⟨j + 1, by rw [List.getElem?_cons_succ]; exact hj, by rw [hk]; omega⟩

theorem float_minElement_spec {T : Type} (l : List (OutputInfo T)) (hne : l ≠ [])
    (hl : ∀ r ∈ l, r.relative_count ≠ FloatValue.nan) :
    ∃ k e, minElement l = some (k, e) ∧ l[k]? = some e ∧ ∀ r ∈ l, r.lt e = false := by
  cases l with
  | nil => exact absurd rfl hne
  | cons a rest =>
    obtain ⟨h1, h2, -, h3⟩ := float_minElementFrom_spec rest 0 a 1
      (hl a (List.mem_cons_self _ _)) (fun r hr => hl r (List.mem_cons_of_mem _ hr))
    refine ⟨(minElementFrom 0 a 1 rest).1, (minElementFrom 0 a 1 rest).2, rfl, ?_, ?_⟩
    · rcases h3 with h3 | ⟨j, hj, hk⟩
      · rw [h3]; simp
      · rw [hk, Nat.add_comm, List.getElem?_cons_succ]; exact hj
    · intro r hr
      rcases List.mem_cons.1 hr with rfl | hr
      · exact h1
      · exact h2 r hr

/-- In a generator reached with positive relevances every entry has a positive relevance and
its `relative_count` is the `float` quotient of its `generations` and its relevance. -/
theorem float_chooser_invariant {T : Type} [DecidableEq T] (ops : List (ChooserOp T)) :
    ∀ (g g1 : RelevanceChoiceGenerator T),
      (∀ i ∈ g.info_, 0 < i.relevance ∧
        i.relative_count = OutputInfo.floatQuotient i.generations i.relevance) →
      (∀ op ∈ ops, op.PositiveRelevance) → g.run ops = some g1 →
      ∀ i ∈ g1.info_, 0 < i.relevance ∧
        i.relative_count = OutputInfo.floatQuotient i.generations i.relevance := by
  induction ops with
  | nil =>
    intro g g1 hinv _ hr
    simp only [RelevanceChoiceGenerator.run, Option.some.injEq] at hr
    subst hr; exact hinv
  | cons op ops ih =>
    intro g g1 hinv hpos hr
    simp only [RelevanceChoiceGenerator.run] at hr
    split at hr
    · cases hr
    · rename_i g2 hstep
      refine ih g2 g1 ?_ (fun o ho => hpos o (List.mem_cons_of_mem _ ho)) hr
      have hp := hpos op (List.mem_cons_self _ _)
      cases op with
      | addSinkTask task relevance allGenerated =>
        simp only [RelevanceChoiceGenerator.step, RelevanceChoiceGenerator.addSinkTask,
          Option.some.injEq] at hstep
        subst hstep
        split
        · exact hinv
        · intro i hi
          rcases List.mem_append.1 hi with hi | hi
          · exact hinv i hi
          · rw [List.mem_singleton] at hi
            subst hi
            exact ⟨hp, (floatQuotient_zero relevance hp).symm⟩
      | eraseSinkTask task =>
        simp only [RelevanceChoiceGenerator.step, RelevanceChoiceGenerator.eraseSinkTask] at hstep
        split at hstep
        · cases hstep
          intro i hi
          exact hinv i ((List.eraseP_sublist _).subset hi)
        · cases hstep
      | generate allGenerated =>
        simp only [RelevanceChoiceGenerator.step, RelevanceChoiceGenerator.generate,
          Option.map_eq_some'] at hstep
        obtain ⟨⟨t, g3⟩, hgen, rfl⟩ := hstep
        split at hgen
        · cases hgen
        · split at hgen
          · cases hgen
          · rename_i k info hmin
            cases hgen
            intro i hi
            rcases List.mem_or_eq_of_mem_set hi with hi | hi
            · exact hinv i hi
            · subst hi
              have hne : g.info_ ≠ [] := by
                intro h; rw [h] at hmin; cases hmin
              obtain ⟨k1, e1, hm, hget, _⟩ := float_minElement_spec g.info_ hne
                (fun r hr => by
                  rw [(hinv r hr).2]
                  exact floatQuotient_ne_nan _ _ (hinv r hr).1)
              rw [hm] at hmin
              cases hmin
              have hmem : info ∈ g.info_ := mem_of_getElem?_eq_some _ _ _ hget
              exact ⟨(hinv info hmem).1, rfl⟩

/-- C8, the counterexample: with two sinks of relevances `0.1f` and `0.3f` the chooser has,
after four `generate()` calls, generated once for sink 1 and three times for sink 2.  Both
`float` quotients are 10, so the fifth call picks sink 1, the one of smaller relevance, though
its ratio `generations / relevance` is larger than that of sink 2. -/
theorem generate_picks_larger_ratio :
    (RelevanceChoiceGenerator.new.run (tenthsCalls 4)).map
        (fun g => (g.info_.map (fun i => (i.task_, i.relevance, i.generations, i.relative_count)),
          (g.generate fun _ => false).map Prod.fst)) =
      some ([(1, tenth, 1, FloatValue.finite 10), (2, threeTenths, 3, FloatValue.finite 10)],
        some 1) ∧
    (3 : ℚ) / threeTenths < 1 / tenth ∧
    float32.round (1 / 10) = FloatValue.finite tenth ∧
    float32.round (3 / 10) = FloatValue.finite threeTenths := by
  refine ⟨by decide!, by decide!, by decide!, by decide!⟩

/-- C8, amended: `RelevanceChoiceGenerator::generate`, on a generator reached with positive
relevances that holds a sink and no sink that has generated everything.  Every entry holds in
`relative_count` the quotient of its `generations` and its relevance as `float` computes it.
`generate` returns the task of an entry `chosen` whose `float` quotient is smallest over all
entries, with the smallest relevance among the entries of that `float` quotient, and it
increments the generation count of exactly that entry by one.  While the counts are below
`2^24`, the exact ratio `generations / relevance` of `chosen` is smallest too, but for entries
whose ratio is rounded to the same `float` as that of `chosen`. -/
theorem generate_picks_smallest_float_quotient (T : Type) [DecidableEq T]
    (ops : List (ChooserOp T)) (g : RelevanceChoiceGenerator T) (allGenerated : T → Bool)
    (hpos : ∀ op ∈ ops, op.PositiveRelevance)
    (hrun : RelevanceChoiceGenerator.new.run ops = some g)
    (hne : g.info_ ≠ []) (hgen : ∀ i ∈ g.info_, allGenerated i.task_ = false) :
    ∃ (k : Nat) (chosen : OutputInfo T) (g1 : RelevanceChoiceGenerator T),
      g.info_[k]? = some chosen ∧
      g.generate allGenerated = some (chosen.task_, g1) ∧
      (∀ j ∈ g.info_,
        j.relative_count = float32.div (float32.ofNat j.generations) (FloatValue.finite j.relevance)) ∧
      (∀ j ∈ g.info_, chosen.relative_count.lt j.relative_count = true ∨
        (chosen.relative_count.eq j.relative_count = true ∧ chosen.relevance ≤ j.relevance)) ∧
      (∀ j ∈ g.info_, chosen.generations < 2 ^ 24 → j.generations < 2 ^ 24 →
        chosen.quotient ≤ j.quotient ∨
          float32.round chosen.quotient = float32.round j.quotient) ∧
      g1.info_ = g.info_.set k chosen.increment ∧
      chosen.increment.generations = chosen.generations + 1 ∧
      chosen.increment.task_ = chosen.task_ ∧
      chosen.increment.relevance = chosen.relevance := by
  have hinv := float_chooser_invariant ops RelevanceChoiceGenerator.new g
    (fun i hi => absurd hi (List.not_mem_nil i)) hpos hrun
  have hnan : ∀ r ∈ g.info_, r.relative_count ≠ FloatValue.nan := fun r hr => by
    rw [(hinv r hr).2]
    exact floatQuotient_ne_nan _ _ (hinv r hr).1
  obtain ⟨k, e, hm, hget, hmin⟩ := float_minElement_spec g.info_ hne hnan
  have hany : (g.info_.any fun i => allGenerated i.task_) = false := by
    rw [List.any_eq_false]
    intro i hi
    rw [hgen i hi]; exact Bool.false_ne_true
  have hmem : e ∈ g.info_ := mem_of_getElem?_eq_some _ _ _ hget
  have hleast : ∀ j ∈ g.info_, e.relative_count.lt j.relative_count = true ∨
      (e.relative_count.eq j.relative_count = true ∧ e.relevance ≤ j.relevance) := by
    intro j hj
    have hnlt := hmin j hj
    rw [Bool.eq_false_iff, Ne, float_lt_iff] at hnlt
    push_neg at hnlt
    rcases FloatValue.trichotomy (hnan e hmem) (hnan j hj) with h | h | h
    · exact Or.inl h
    · refine Or.inr ⟨h, hnlt.2 ?_⟩
      exact FloatValue.eq_iff.2 ⟨(FloatValue.eq_iff.1 h).1.symm, hnan j hj⟩
    · exact absurd h hnlt.1
  refine ⟨k, e, ⟨g.info_.set k e.increment⟩, hget, ?_, fun j hj => (hinv j hj).2, hleast, ?_,
    rfl, rfl, rfl, rfl⟩
  · simp only [RelevanceChoiceGenerator.generate, hany, hm]
    rfl
  · intro j hj he hjn
    by_cases hq : e.quotient ≤ j.quotient
    · exact Or.inl hq
    · right
      have hre := (hinv e hmem).1
      have hrj := (hinv j hj).1
      have q1 : e.relative_count = float32.round e.quotient := by
        rw [(hinv e hmem).2]; exact floatQuotient_exact _ _ hre he
      have q2 : j.relative_count = float32.round j.quotient := by
        rw [(hinv j hj).2]; exact floatQuotient_exact _ _ hrj hjn
      have hjnn : 0 ≤ j.quotient := div_nonneg (Nat.cast_nonneg _) hrj.le
      have l1 : (float32.round j.quotient).le (float32.round e.quotient) = true :=
        round_mono float32 hjnn (le_of_lt (not_le.1 hq))
      have l2 : (float32.round e.quotient).le (float32.round j.quotient) = true := by
        rw [← q1, ← q2]
        exact FloatValue.le_iff.2 ((hleast j hj).imp id fun h => h.1)
      exact FloatValue.le_antisymm_bool l2 l1

theorem generate_picks_smallest_float_quotient_witness :
    ∃ (k : Nat) (chosen : OutputInfo Nat) (g1 : RelevanceChoiceGenerator Nat),
      (⟨[⟨1, tenth, 1, FloatValue.finite 10⟩,
          ⟨2, threeTenths, 3, FloatValue.finite 10⟩]⟩ : RelevanceChoiceGenerator Nat).info_[k]?
        = some chosen ∧
      (⟨[⟨1, tenth, 1, FloatValue.finite 10⟩,
          ⟨2, threeTenths, 3, FloatValue.finite 10⟩]⟩ : RelevanceChoiceGenerator Nat).generate
        (fun _ => false) = some (chosen.task_, g1) ∧
      chosen.increment.generations = chosen.generations + 1 :=
  match generate_picks_smallest_float_quotient Nat (tenthsCalls 4)
      ⟨[⟨1, tenth, 1, FloatValue.finite 10⟩, ⟨2, threeTenths, 3, FloatValue.finite 10⟩]⟩
      (fun _ => false)
      (by
        intro op hop
        simp only [tenthsCalls, List.replicate, List.cons_append, List.nil_append, List.mem_cons,
          List.mem_singleton, List.not_mem_nil, or_false] at hop
        rcases hop with rfl | rfl | rfl | rfl | rfl | rfl <;>
          simp [ChooserOp.PositiveRelevance, tenth, threeTenths])
      (by decide!) (by simp) (by simp) with
  | ⟨k, chosen, g1, h1, h2, _, _, _, _, h7, _⟩ => ⟨k, chosen, g1, h1, h2, h7⟩

end Machine

end ImageGraph


namespace ImageGraph

namespace Machine

theorem float_run_append {T : Type} [DecidableEq T] (ops1 ops2 : List (ChooserOp T)) :
    ∀ g : RelevanceChoiceGenerator T,
      g.run (ops1 ++ ops2) = (g.run ops1).bind fun g1 => g1.run ops2 := by
  induction ops1 with
  | nil => intro g; rfl
  | cons op ops ih =>
    intro g
    simp only [List.cons_append, RelevanceChoiceGenerator.run]
    cases g.step op with
    | none => rfl
    | some g1 => exact ih g1

/-- After the sinks have been added, the generator holds the sinks that had something to
generate, in their order, each with no generation. -/
theorem float_run_adds {T : Type} [DecidableEq T] (sinks : List (T × ℚ × Bool)) :
    ∀ g : RelevanceChoiceGenerator T,
      g.run (sinks.map fun s => ChooserOp.addSinkTask s.1 s.2.1 s.2.2) =
        some ⟨g.info_ ++ (sinks.filter fun s => !s.2.2).map
          fun s => OutputInfo.new s.1 s.2.1⟩ := by
  induction sinks with
  | nil => intro g; simp [RelevanceChoiceGenerator.run]
  | cons s rest ih =>
    intro g
    simp only [List.map_cons, RelevanceChoiceGenerator.run, RelevanceChoiceGenerator.step]
    rw [ih]
    cases hs : s.2.2
    · simp [RelevanceChoiceGenerator.addSinkTask, hs, List.filter_cons]
    · simp [RelevanceChoiceGenerator.addSinkTask, hs, List.filter_cons]

/-- The state of the entries that `generate()` keeps: positive relevances, the `float`
quotients, and no entry was a generation ago ahead of another in its `float` quotient. -/
theorem float_spread_generate {T : Type} [DecidableEq T] (g g1 : RelevanceChoiceGenerator T)
    (allGenerated : T → Bool)
    (hinv : ∀ i ∈ g.info_, 0 < i.relevance ∧
      i.relative_count = OutputInfo.floatQuotient i.generations i.relevance)
    (hfair : ∀ i ∈ g.info_, ∀ j ∈ g.info_, 1 ≤ i.generations →
      (OutputInfo.floatQuotient (i.generations - 1) i.relevance).le j.relative_count = true)
    (hstep : g.step (.generate allGenerated) = some g1) :
    (∀ i ∈ g1.info_, 0 < i.relevance ∧
      i.relative_count = OutputInfo.floatQuotient i.generations i.relevance) ∧
    (∀ i ∈ g1.info_, ∀ j ∈ g1.info_, 1 ≤ i.generations →
      (OutputInfo.floatQuotient (i.generations - 1) i.relevance).le j.relative_count = true) ∧
    g1.info_.map (fun i => (i.task_, i.relevance)) =
      g.info_.map (fun i => (i.task_, i.relevance)) ∧
    (g1.info_.map fun i => i.generations).sum = (g.info_.map fun i => i.generations).sum + 1 := by
  have hnan : ∀ r ∈ g.info_, r.relative_count ≠ FloatValue.nan := fun r hr => by
    rw [(hinv r hr).2]
    exact floatQuotient_ne_nan _ _ (hinv r hr).1
  simp only [RelevanceChoiceGenerator.step, RelevanceChoiceGenerator.generate,
    Option.map_eq_some'] at hstep
  obtain ⟨⟨t, g3⟩, hgen, rfl⟩ := hstep
  split at hgen
  · cases hgen
  · split at hgen
    · cases hgen
    · rename_i k info hmin
      cases hgen
      have hne : g.info_ ≠ [] := by
        intro h; rw [h] at hmin; cases hmin
      obtain ⟨k1, e1, hm, hget, hleast⟩ := float_minElement_spec g.info_ hne hnan
      rw [hm] at hmin
      cases hmin
      have hmem : info ∈ g.info_ := mem_of_getElem?_eq_some _ _ _ hget
      have hr : 0 < info.relevance := (hinv info hmem).1
      have hle : ∀ j ∈ g.info_, info.relative_count.le j.relative_count = true := by
        intro j hj
        have hnlt := hleast j hj
        rw [Bool.eq_false_iff, Ne, float_lt_iff] at hnlt
        push_neg at hnlt
        exact FloatValue.le_of_not_lt (hnan info hmem) (hnan j hj) (by simpa using hnlt.1)
      have hup : info.relative_count.le info.increment.relative_count = true := by
        rw [(hinv info hmem).2]
        exact floatQuotient_mono info.relevance hr (Nat.le_succ _)
      have hself : OutputInfo.floatQuotient (info.increment.generations - 1)
          info.increment.relevance = info.relative_count := by
        rw [(hinv info hmem).2]
        rfl
      refine ⟨?_, ?_, ?_, ?_⟩
      · intro i hi
        rcases List.mem_or_eq_of_mem_set hi with hi | hi
        · exact hinv i hi
        · subst hi
          exact ⟨hr, rfl⟩
      · intro i hi j hj hgi
        rcases List.mem_or_eq_of_mem_set hi with hi | hi
        · rcases List.mem_or_eq_of_mem_set hj with hj | hj
          · exact hfair i hi j hj hgi
          · subst hj
            exact FloatValue.le_trans_bool (hfair i hi info hmem hgi) hup
        · subst hi
          rw [hself]
          rcases List.mem_or_eq_of_mem_set hj with hj | hj
          · exact hle j hj
          · subst hj
            exact hup
      · exact map_set_same _ _ _ _ _ hget rfl
      · have := sum_map_set (fun i : OutputInfo T => i.generations) info.increment
          g.info_ k info hget
        simp only [OutputInfo.increment] at this ⊢
        omega

theorem float_spread_generates {T : Type} [DecidableEq T] (calls : List (T → Bool)) :
    ∀ (g g1 : RelevanceChoiceGenerator T),
      (∀ i ∈ g.info_, 0 < i.relevance ∧
        i.relative_count = OutputInfo.floatQuotient i.generations i.relevance) →
      (∀ i ∈ g.info_, ∀ j ∈ g.info_, 1 ≤ i.generations →
        (OutputInfo.floatQuotient (i.generations - 1) i.relevance).le j.relative_count = true) →
      g.run (calls.map ChooserOp.generate) = some g1 →
      (∀ i ∈ g1.info_, 0 < i.relevance ∧
        i.relative_count = OutputInfo.floatQuotient i.generations i.relevance) ∧
      (∀ i ∈ g1.info_, ∀ j ∈ g1.info_, 1 ≤ i.generations →
        (OutputInfo.floatQuotient (i.generations - 1) i.relevance).le j.relative_count = true) ∧
      g1.info_.map (fun i => (i.task_, i.relevance)) =
        g.info_.map (fun i => (i.task_, i.relevance)) ∧
      (g1.info_.map fun i => i.generations).sum =
        (g.info_.map fun i => i.generations).sum + calls.length := by
  induction calls with
  | nil =>
    intro g g1 hinv hfair hr
    simp only [List.map_nil, RelevanceChoiceGenerator.run, Option.some.injEq] at hr
    subst hr
    exact ⟨hinv, hfair, rfl, rfl⟩
  | cons c rest ih =>
    intro g g1 hinv hfair hr
    simp only [List.map_cons, RelevanceChoiceGenerator.run] at hr
    split at hr
    · cases hr
    · rename_i g2 hstep
      obtain ⟨h1, h2, h3, h4⟩ := float_spread_generate g g2 c hinv hfair hstep
      obtain ⟨k0, k1, k2, k3⟩ := ih g2 g1 h1 h2 hr
      refine ⟨k0, k1, k2.trans h3, ?_⟩
      rw [k3, h4, List.length_cons]
      omega

/-- C33, the counterexample: with two sinks of relevances `0.1f` and `0.3f` the chooser has,
after five `generate()` calls, generated twice for sink 1 and three times for sink 2, and
`2 / 0.1f` is more than `3 / 0.3f + 1 / 0.1f`. -/
theorem effort_spread_breaks_for_tenths :
    (RelevanceChoiceGenerator.new.run (tenthsCalls 5)).map
        (fun g => g.info_.map (fun i => (i.task_, i.relevance, i.generations))) =
      some [(1, tenth, 2), (2, threeTenths, 3)] ∧
    ¬ ((2 : ℚ) / tenth ≤ 3 / threeTenths + 1 / tenth) := by
  refine ⟨by decide!, by decide!⟩

/-- C33, amended: effort is spread in proportion to relevance, as far as `float` tells.  In
every state reached by `generate()` calls on a fixed set of sinks added with positive
relevances, none removed, any two sinks `i` and `j` of the generator, `i` with a generation,
satisfy `fl((generations_i - 1) / relevance_i) <= fl(generations_j / relevance_j)`, with `fl`
the quotient as `float` computes it.  While the counts are below `2^24` this is
`generations_i / relevance_i <= generations_j / relevance_j + 1 / relevance_i`, but for sinks
whose quotients `(generations_i - 1) / relevance_i` and `generations_j / relevance_j` are
rounded to the same `float`.  The sinks of the generator and their relevances are those that
were added (with something to generate), and their generations add up to the number of
`generate()` calls. -/
theorem effort_spread_with_float_quotients (T : Type) [DecidableEq T]
    (sinks : List (T × ℚ × Bool)) (calls : List (T → Bool)) (g : RelevanceChoiceGenerator T)
    (hpos : ∀ s ∈ sinks, 0 < s.2.1)
    (hrun : RelevanceChoiceGenerator.new.run
      ((sinks.map fun s => ChooserOp.addSinkTask s.1 s.2.1 s.2.2) ++
        calls.map ChooserOp.generate) = some g) :
    (∀ i ∈ g.info_, ∀ j ∈ g.info_, 1 ≤ i.generations →
      (float32.div (float32.ofNat (i.generations - 1)) (FloatValue.finite i.relevance)).le
        (float32.div (float32.ofNat j.generations) (FloatValue.finite j.relevance)) = true) ∧
    (∀ i ∈ g.info_, ∀ j ∈ g.info_, i.generations < 2 ^ 24 → j.generations < 2 ^ 24 →
      (i.generations : ℚ) / i.relevance ≤
          (j.generations : ℚ) / j.relevance + 1 / i.relevance ∨
        float32.round (((i.generations : ℚ) - 1) / i.relevance) =
          float32.round ((j.generations : ℚ) / j.relevance)) ∧
    g.info_.map (fun i => (i.task_, i.relevance)) =
      (sinks.filter fun s => !s.2.2).map (fun s => (s.1, s.2.1)) ∧
    (g.info_.map fun i => i.generations).sum = calls.length := by
  rw [float_run_append, float_run_adds] at hrun
  simp only [Option.some_bind, RelevanceChoiceGenerator.new, List.nil_append] at hrun
  have hnew : ∀ i ∈ (sinks.filter fun s => !s.2.2).map (fun s => OutputInfo.new s.1 s.2.1),
      0 < i.relevance ∧
        i.relative_count = OutputInfo.floatQuotient i.generations i.relevance ∧
        i.generations = 0 := by
    intro i hi
    obtain ⟨s, hs, rfl⟩ := List.mem_map.1 hi
    have hr := hpos s (List.mem_filter.1 hs).1
    exact ⟨hr, (floatQuotient_zero _ hr).symm, rfl⟩
  obtain ⟨h0, h1, h2, h3⟩ := float_spread_generates calls _ g
    (fun i hi => ⟨(hnew i hi).1, (hnew i hi).2.1⟩)
    (fun i hi j hj hgi => by
      have := (hnew i hi).2.2
      omega)
    hrun
  have hfair : ∀ i ∈ g.info_, ∀ j ∈ g.info_, 1 ≤ i.generations →
      (OutputInfo.floatQuotient (i.generations - 1) i.relevance).le
        (OutputInfo.floatQuotient j.generations j.relevance) = true := by
    intro i hi j hj hgi
    rw [← (h0 j hj).2]
    exact h1 i hi j hj hgi
  refine ⟨hfair, ?_, ?_, ?_⟩
  · intro i hi j hj hin hjn
    have hri := (h0 i hi).1
    have hrj := (h0 j hj).1
    rcases Nat.eq_zero_or_pos i.generations with hz | hz
    · left
      rw [hz, Nat.cast_zero, zero_div]
      have : 0 ≤ (j.generations : ℚ) / j.relevance := div_nonneg (Nat.cast_nonneg _) hrj.le
      have : 0 < 1 / i.relevance := one_div_pos.2 hri
      linarith
    · have hc : (((i.generations - 1 : Nat) : ℚ)) = (i.generations : ℚ) - 1 := by
        rw [Nat.cast_sub hz, Nat.cast_one]
      have hf := hfair i hi j hj hz
      rw [floatQuotient_exact _ _ hri (by omega), floatQuotient_exact _ _ hrj hjn, hc] at hf
      by_cases hq : ((i.generations : ℚ) - 1) / i.relevance ≤ (j.generations : ℚ) / j.relevance
      · left
        have : (i.generations : ℚ) / i.relevance
            = ((i.generations : ℚ) - 1) / i.relevance + 1 / i.relevance := by
          field_simp
        rw [this]
        linarith
      · right
        have hjnn : 0 ≤ (j.generations : ℚ) / j.relevance :=
          div_nonneg (Nat.cast_nonneg _) hrj.le
        exact FloatValue.le_antisymm_bool hf
          (round_mono float32 hjnn (le_of_lt (not_le.1 hq)))
  · rw [h2, List.map_map]
    rfl
  · rw [h3, List.map_map]
    have : ((sinks.filter fun s => !s.2.2).map
        ((fun i : OutputInfo T => i.generations) ∘ fun s => OutputInfo.new s.1 s.2.1)).sum = 0 := by
      apply List.sum_eq_zero
      intro x hx
      obtain ⟨s, _, rfl⟩ := List.mem_map.1 hx
      rfl
    rw [this, Nat.zero_add]

theorem effort_spread_with_float_quotients_witness :
    (float32.div (float32.ofNat (2 - 1)) (FloatValue.finite tenth)).le
        (float32.div (float32.ofNat 3) (FloatValue.finite threeTenths)) = true ∧
      ((2 : ℚ) / tenth ≤ (3 : ℚ) / threeTenths + 1 / tenth ∨
        float32.round (((2 : ℚ) - 1) / tenth) = float32.round ((3 : ℚ) / threeTenths)) :=
  have h := effort_spread_with_float_quotients Nat [(1, tenth, false), (2, threeTenths, false)]
    (List.replicate 5 fun _ => false)
    ⟨[⟨1, tenth, 2, FloatValue.finite 20⟩, ⟨2, threeTenths, 3, FloatValue.finite 10⟩]⟩
    (by
      intro s hs
      simp only [List.mem_cons, List.mem_singleton, List.not_mem_nil, or_false] at hs
      rcases hs with rfl | rfl <;> simp [tenth, threeTenths])
    (by decide!)
  ⟨h.1 ⟨1, tenth, 2, FloatValue.finite 20⟩ (by simp)
      ⟨2, threeTenths, 3, FloatValue.finite 10⟩ (by simp) (by decide),
    by
      have := h.2.1 ⟨1, tenth, 2, FloatValue.finite 20⟩ (by simp)
        ⟨2, threeTenths, 3, FloatValue.finite 10⟩ (by simp) (by decide) (by decide)
      simpa using this⟩

end Machine

end ImageGraph


namespace ImageGraph

/-- C12 (a slip of the code): with the portions computed exactly, as the sentence has it, every
important node gets its full byte count, the bytes of the unimportant nodes sum to `R - I`
and each unimportant node `u` gets at least `floor((R - I) * max_u / U)` and at most `max_u`
bytes.  The code computes the portions in `long double`, and the product
`portion * remaining` falls below a whole number that the exact product reaches: two
unimportant nodes of 20 and 8 bytes with a budget of 21 bytes get 14 and 7 bytes, where
`floor(21 * 20 / 28) = 15` (and exact portions give 15 and 6); three unimportant nodes of 1,
15 and 6 bytes with a budget of 21 bytes get 0, 14 and 7 bytes, the last one more than its
6 bytes (exact portions give 0, 15 and 6). -/
theorem unimportant_share_misses_floor_and_max (g : NodeData) (fuel memory_limit : Nat)
    (out_nodes sink_nodes : List Nat)
    (hlo : g.importantBytes out_nodes ≤ memory_limit - g.fullBytes out_nodes)
    (hhi : memory_limit - g.fullBytes out_nodes <
      g.importantBytes out_nodes + g.unimportantBytes out_nodes)
    (hpos : ∀ node ∈ out_nodes, g.isUnimportantCache node = true → 0 < g.fullByteNumber node) :
    ((∀ t, generate_members g fuel memory_limit out_nodes sink_nodes = some t →
      t.cache_nodes.map NodeInformation.node = out_nodes.filter g.isCache ∧
      (∀ info ∈ t.cache_nodes, info.max_byte_num = g.fullByteNumber info.node ∧
        (g.isCacheImportant info.node = true → info.byte_num = g.fullByteNumber info.node) ∧
        (g.isCacheImportant info.node = false →
          (memory_limit - g.fullBytes out_nodes - g.importantBytes out_nodes) *
              g.fullByteNumber info.node / g.unimportantBytes out_nodes ≤ info.byte_num ∧
            info.byte_num ≤ g.fullByteNumber info.node)) ∧
      byteNumSum g false t.cache_nodes =
        memory_limit - g.fullBytes out_nodes - g.importantBytes out_nodes) ∧
    (g.InputsLayered → g.ValidProbabilities → (∀ node ∈ out_nodes, node < fuel) →
      (generate_members g fuel memory_limit out_nodes sink_nodes).isSome = true)) ∧
    ((Machine.generate_members twoSources 2 21 [0, 1] []).map
        (fun t => (t.memory_amount,
          t.cache_nodes.map fun info => (info.node, info.byte_num, info.max_byte_num))) =
      some (MemoryAmount.SUFFICIENT, [(0, 14, 20), (1, 7, 8)]) ∧
    (21 - twoSources.fullBytes [0, 1] - twoSources.importantBytes [0, 1]) *
        twoSources.fullByteNumber 0 / twoSources.unimportantBytes [0, 1] = 15 ∧
    (generate_members twoSources 2 21 [0, 1] []).map
        (fun t => t.cache_nodes.map fun info => (info.node, info.byte_num, info.max_byte_num)) =
      some [(0, 15, 20), (1, 6, 8)] ∧
    (Machine.generate_members threeSources 3 21 [0, 1, 2] []).map
        (fun t => (t.memory_amount,
          t.cache_nodes.map fun info => (info.node, info.byte_num, info.max_byte_num))) =
      some (MemoryAmount.SUFFICIENT, [(0, 0, 1), (1, 14, 15), (2, 7, 6)]) ∧
    (generate_members threeSources 3 21 [0, 1, 2] []).map
        (fun t => t.cache_nodes.map fun info => (info.node, info.byte_num, info.max_byte_num)) =
      some [(0, 0, 1), (1, 15, 15), (2, 6, 6)] ∧
    Machine.byteShare 20 28 21 = some 14 ∧ Machine.byteShare 15 21 21 = some 14 ∧
    longDouble.div (longDouble.ofNat 15) (longDouble.ofNat 21) =
      FloatValue.finite (13176245766935394011 / 18446744073709551616) ∧
    (13176245766935394011 : ℚ) / 18446744073709551616 < 15 / 21) := by
  refine ⟨exact_portions_share_remainder g fuel memory_limit out_nodes sink_nodes hlo hhi hpos,
    by decide!, by decide!, by decide!, by decide!, by decide!, by decide!, by decide!,
    by decide!, by decide!⟩

theorem unimportant_share_misses_floor_and_max_witness :
    ∃ t, generate_members memoryExample 4 350 [0, 1, 2, 3] [] = some t ∧
      byteNumSum memoryExample false t.cache_nodes = 350 - 100 - 100 ∧
      Machine.byteShare 20 28 21 = some 14 := by
  have h := unimportant_share_misses_floor_and_max memoryExample 4 350 [0, 1, 2, 3] []
    (by decide) (by decide) (by decide)
  have hsome := h.1.2
    (by intro node input h; simp only [memoryExample] at h; split_ifs at h with h0
        · cases h
        · rw [List.mem_singleton.1 h]; omega)
    (fun _ => by simp only [memoryExample]; norm_num) (by decide)
  cases ht : generate_members memoryExample 4 350 [0, 1, 2, 3] [] with
  | none => rw [ht] at hsome; cases hsome
  | some t => exact ⟨t, rfl, (h.1.1 t ht).2.2, h.2.2.2.2.2.2.1⟩

/-- C37 (a slip of the code): with the portions computed exactly and every `ANY_MEMORY` node of
positive full byte count the initial distribution is feasible: `generate_members` returns,
each node gets `byte_num <= max_byte_num`, and the bytes sum to at most the budget left by the
`FULL_MEMORY` nodes.  The code computes the portions in `long double`: three unimportant
nodes of 1, 15 and 6 bytes with a budget of 21 bytes get 0, 14 and 7 bytes, so that the last
node holds more than its 6 bytes and `assert(info.byte_num <= info.max_byte_num)` does not
hold for the distribution.  And for a node of 0 bytes whose turn comes when the bytes of its
class are used up, the portion is `0 / 0`, a NaN, whose conversion to `std::size_t` is
undefined: `generate_members` has no `byte_num` that `assert(byte_num <= remaining)` could
hold for. -/
theorem initial_distribution_exceeds_max_byte_num (g : NodeData) (fuel memory_limit : Nat)
    (out_nodes sink_nodes : List Nat) (hg : g.InputsLayered) (hp : g.ValidProbabilities)
    (hfuel : ∀ node ∈ out_nodes, node < fuel)
    (hpos : ∀ node ∈ out_nodes, g.isCache node = true → 0 < g.fullByteNumber node) :
    (∃ t, generate_members g fuel memory_limit out_nodes sink_nodes = some t ∧
      t.cache_nodes.map NodeInformation.node = out_nodes.filter g.isCache ∧
      (∀ info ∈ t.cache_nodes, info.byte_num ≤ info.max_byte_num ∧
        info.max_byte_num = g.fullByteNumber info.node) ∧
      t.memory_limit = memory_limit - g.fullBytes out_nodes ∧
      (t.cache_nodes.map fun info => info.byte_num).sum ≤
        memory_limit - g.fullBytes out_nodes) ∧
    ((Machine.generate_members threeSources 3 21 [0, 1, 2] []).map
        (fun t => (t.memory_amount,
          t.cache_nodes.map fun info => (info.node, info.byte_num, info.max_byte_num))) =
      some (MemoryAmount.SUFFICIENT, [(0, 0, 1), (1, 14, 15), (2, 7, 6)]) ∧
    (Machine.generate_members threeSources 3 21 [0, 1, 2] []).map
        (fun t => (t.memory_limit, Machine.WithinMax t.cache_nodes)) = some (21, false) ∧
    Machine.byteShare 1 22 21 = some 0 ∧ Machine.byteShare 15 21 21 = some 14 ∧
    Machine.byteShare 6 6 7 = some 7 ∧
    Machine.generate_members emptyNodeExample 4 250 [0, 1, 2, 3] [] = none ∧
    emptyNodeExample.memoryMode 3 = MemoryMode.ANY_MEMORY ∧
    emptyNodeExample.fullByteNumber 3 = 0 ∧
    Machine.byteShare 200 200 50 = some 50 ∧
    longDouble.div (longDouble.ofNat 0) (longDouble.ofNat (200 - 200)) = FloatValue.nan ∧
    Machine.byteShare 0 (200 - 200) (50 - 50) = none ∧
    generate_members emptyNodeExample 4 250 [0, 1, 2, 3] [] = none) := by
  refine ⟨exact_portions_are_feasible g fuel memory_limit out_nodes sink_nodes hg hp hfuel hpos,
    by decide!, by decide!, by decide!, by decide!, by decide!, by decide!, by decide!,
    by decide!, by decide!, by decide!, by decide!, by decide!⟩

theorem initial_distribution_exceeds_max_byte_num_witness :
    (∃ t, generate_members memoryExample 4 350 [0, 1, 2, 3] [] = some t ∧
      (∀ info ∈ t.cache_nodes, info.byte_num ≤ info.max_byte_num ∧
        info.max_byte_num = memoryExample.fullByteNumber info.node)) ∧
    Machine.byteShare 6 6 7 = some 7 :=
  have h := initial_distribution_exceeds_max_byte_num memoryExample 4 350 [0, 1, 2, 3] []
    (by intro node input h; simp only [memoryExample] at h; split_ifs at h with h0
        · cases h
        · rw [List.mem_singleton.1 h]; omega)
    (fun _ => by simp only [memoryExample]; norm_num) (by decide) (by decide)
  ⟨match h.1 with
    | ⟨t, h1, _, h3, _⟩ => ⟨t, h1, h3⟩, h.2.2.2.2.2.1⟩

end ImageGraph


namespace ImageGraph

namespace Machine

theorem sizeAdd_of_lt (a b : Nat) (h : a + b < 2 ^ 64) : sizeAdd a b = a + b :=
  Nat.mod_eq_of_lt h

/-- Where no edge wraps, `clip(RectangleDimensions)` of `std::size_t` is the member with sums
that do not wrap. -/
theorem clipDimensions_of_no_wrap (r : Rectangle) (d : RectangleDimensions)
    (hx : r.left + r.width < 2 ^ 64) (hy : r.top + r.height < 2 ^ 64) :
    clipDimensions r d = r.clipDimensions d := by
  unfold clipDimensions Rectangle.clipDimensions
  rw [sizeAdd_of_lt _ _ hx]
  have e : ∀ r1 : Rectangle, r1.top = r.top → r1.height = r.height →
      sizeAdd r1.top r1.height = r1.top + r1.height := by
    intro r1 h1 h2
    rw [h1, h2]
    exact sizeAdd_of_lt _ _ hy
  simp only
  split_ifs <;> first | rfl | (simp only [e _ rfl rfl] at *; first | rfl | omega)

theorem clipDimensions_covers (r : Rectangle) (d : RectangleDimensions) (x y : Nat) :
    (r.clipDimensions d).covers x y ↔ r.covers x y ∧ x < d.width ∧ y < d.height := by
  obtain ⟨p1, p2, p3, p4⟩ := clipDimensions_fields r d
  unfold Rectangle.covers
  rw [p1, p2, p3, p4]
  omega

end Machine

/-- C22 (a slip of the code): `inputRegion` returns `rawInputRegion` clipped to the
dimensions of the input as long as no edge of the raw rectangle wraps: for a raw rectangle
of `std::size_t` with `left + width < 2^64` and `top + height < 2^64` the rectangle returned
has `left + width` at most the width and `top + height` at most the height of
`inputNode(i)`, and it holds exactly the pixels of the raw rectangle that lie in the input.
`clip(RectangleDimensions)` adds `left() + width()` in `std::size_t`, and where the sum wraps
it does not cut: for an input of 10x10 pixels the raw rectangle at `(5, 0)` of width
`2^64 - 1` and height 1 is returned as it is, since `5 + (2^64 - 1)` wraps to 4. -/
theorem inputRegion_clips_unless_an_edge_wraps (n : OutNode) (i : Nat) (r : Rectangle)
    (d : RectangleDimensions) (hd : n.inputDimensions i = some d) :
    (∃ region, Machine.inputRegion n i r = some region ∧
      ((n.rawInputRegion i r).left + (n.rawInputRegion i r).width < 2 ^ 64 →
        (n.rawInputRegion i r).top + (n.rawInputRegion i r).height < 2 ^ 64 →
        region.left + region.width ≤ d.width ∧ region.top + region.height ≤ d.height ∧
        region.left = min (n.rawInputRegion i r).left d.width ∧
        region.top = min (n.rawInputRegion i r).top d.height ∧
        ∀ x y, region.covers x y ↔
          (n.rawInputRegion i r).covers x y ∧ x < d.width ∧ y < d.height)) ∧
    (Machine.inputRegion wideRegionNode 0 ⟨0, 0, 1, 1⟩ = some ⟨5, 0, 2 ^ 64 - 1, 1⟩ ∧
      wideRegionNode.inputDimensions 0 = some ⟨10, 10⟩ ∧
      Machine.IsSize (wideRegionNode.rawInputRegion 0 ⟨0, 0, 1, 1⟩) ∧
      ¬ (5 + (2 ^ 64 - 1) ≤ 10) ∧ Machine.sizeAdd 5 (2 ^ 64 - 1) = 4) := by
  refine ⟨⟨Machine.clipDimensions (n.rawInputRegion i r) d, ?_, ?_⟩, ?_⟩
  · simp only [Machine.inputRegion, hd]
  · intro hx hy
    rw [Machine.clipDimensions_of_no_wrap _ _ hx hy]
    obtain ⟨p1, p2, p3, p4⟩ := clipDimensions_fields (n.rawInputRegion i r) d
    refine ⟨by omega, by omega, p1, p2, fun x y => Machine.clipDimensions_covers _ _ x y⟩
  · refine ⟨by decide, rfl, ?_, by decide, by decide⟩
    unfold Machine.IsSize wideRegionNode
    simp only
    refine ⟨by decide, by decide, by decide, by decide⟩

theorem inputRegion_clips_unless_an_edge_wraps_witness :
    ∃ region,
      Machine.inputRegion
          (⟨[], fun _ r => ⟨r.left, r.top, r.width + 4, r.height + 4⟩, fun _ => some ⟨100, 50⟩⟩ :
            OutNode) 0 ⟨96, 32, 32, 32⟩ = some region ∧
        region.left + region.width ≤ 100 ∧ region.top + region.height ≤ 50 :=
  match (inputRegion_clips_unless_an_edge_wraps
      (⟨[], fun _ r => ⟨r.left, r.top, r.width + 4, r.height + 4⟩, fun _ => some ⟨100, 50⟩⟩ :
        OutNode) 0 ⟨96, 32, 32, 32⟩ ⟨100, 50⟩ rfl).1 with
  | ⟨region, h1, h2⟩ =>
    ⟨region, h1, (h2 (by decide) (by decide)).1, (h2 (by decide) (by decide)).2.1⟩

end ImageGraph


namespace ImageGraph

/-! ## Requests in a graph whose requests are well-founded -/

theorem found_eq_true_iff (s : LRUSet Rectangle) (k : Rectangle) :
    s.found k = true ↔ k ∈ s.values_ := by
  rw [← not_iff_not, Bool.not_eq_true, LRUSet_found_eq_false_iff]

theorem contains_fst_eq_found (c : OrderedMapProtoCache Rectangle) (region : Rectangle) :
    (c.contains region).1 = c.set_.found region := by
  simp only [OrderedMapProtoCache.contains, LRUSet.exists_]
  split_ifs with h
  · exact h.symm
  · simp only [Bool.not_eq_true] at h
    exact h.symm

/-- The touch of `contains` keeps the regions of the cache. -/
theorem contains_snd_found (c : OrderedMapProtoCache Rectangle) (region x : Rectangle) :
    (c.contains region).2.set_.found x = c.set_.found x := by
  simp only [OrderedMapProtoCache.contains, LRUSet.exists_]
  split_ifs with h
  · rw [Bool.eq_iff_iff, found_eq_true_iff, found_eq_true_iff]
    rw [found_eq_true_iff] at h
    simp only [List.mem_append, List.mem_singleton]
    constructor
    · rintro (h1 | h1)
      · exact List.mem_of_mem_erase h1
      · rw [h1]; exact h
    · intro h1
      by_cases hx : x = region
      · exact Or.inr hx
      · exact Or.inl ((List.mem_erase_of_ne hx).2 h1)
  · rfl

/-- What `put` leaves in the cache was there, or is the region that was put. -/
theorem put_found (c cache : OrderedMapProtoCache Rectangle) (region x : Rectangle)
    (hp : c.put region = some cache) (hx : cache.set_.found x = true) :
    x = region ∨ c.set_.found x = true := by
  simp only [OrderedMapProtoCache.put, LRUSet.insert, Option.map_eq_some'] at hp
  obtain ⟨s, hs, rfl⟩ := hp
  rw [found_eq_true_iff] at hx ⊢
  split_ifs at hs with h1 h2 h3
  · cases hs; exact Or.inr hx
  · cases hs
    simp only [List.mem_append, List.mem_singleton] at hx
    rcases hx with h | h
    · exact Or.inr ((remove_overList_sublist _ _).subset h)
    · exact Or.inl h

theorem keysBelow_refl (rank : Nat → Rectangle → Nat) (bound : Nat) (a : ProtoGraphAdaptor) :
    ProtoGraphAdaptor.KeysBelow rank bound a a :=
  fun _ _ db _ hdb hf => ⟨db, hdb, hf⟩

theorem keysBelow_trans {rank : Nat → Rectangle → Nat} {bound : Nat} {a b c : ProtoGraphAdaptor}
    (h1 : ProtoGraphAdaptor.KeysBelow rank bound a b)
    (h2 : ProtoGraphAdaptor.KeysBelow rank bound b c) :
    ProtoGraphAdaptor.KeysBelow rank bound a c := by
  intro node region dc hr hdc hf
  obtain ⟨db, hdb, hfb⟩ := h2 node region dc hr hdc hf
  exact h1 node region db hr hdb hfb

theorem keysBelow_mono {rank : Nat → Rectangle → Nat} {k l : Nat} {a b : ProtoGraphAdaptor}
    (hkl : k ≤ l) (h : ProtoGraphAdaptor.KeysBelow rank k a b) :
    ProtoGraphAdaptor.KeysBelow rank l a b :=
  fun node region db hr hdb hf => h node region db (le_trans hkl hr) hdb hf

theorem keysBelow_setOutData (rank : Nat → Rectangle → Nat) (bound : Nat)
    (a : ProtoGraphAdaptor) (node : Nat) (data d : OutData)
    (hdata : a.out_data_ node = some data)
    (h : ∀ region, bound ≤ rank node region → d.cache.set_.found region = true →
      data.cache.set_.found region = true) :
    ProtoGraphAdaptor.KeysBelow rank bound a (a.setOutData node d) := by
  intro n region db hr hdb hf
  rw [setOutData_out] at hdb
  split_ifs at hdb with hn
  · cases hdb
    subst hn
    exact ⟨data, hdata, h region hr hf⟩
  · exact ⟨db, hdb, hf⟩

/-- What the recursion of `request` has to provide for the requests of rank below `bound`. -/
theorem request_ok (g : ProtoGraph) (rank : Nat → Rectangle → Nat)
    (recur : Nat → Rectangle → ProtoGraphAdaptor → Option (ℚ × ProtoGraphAdaptor)) (bound : Nat)
    (hrec : ∀ node region a data, rank node region < bound → a.ReadyUpTo node →
      a.out_data_ node = some data →
      (g.memoryMode node = MemoryMode.ANY_MEMORY → data.cache.set_.found region = false) →
      ∃ t b, recur node region a = some (t, b) ∧ ProtoGraphAdaptor.FrameBelow (node + 1) a b ∧
        ProtoGraphAdaptor.KeysBelow rank (rank node region + 1) a b)
    (node : Nat) (region : Rectangle) (a : ProtoGraphAdaptor) (hn : rank node region < bound)
    (ha : a.ReadyUpTo node) :
    ∃ t b, ProtoGraphAdaptor.request g recur node region a = some (t, b) ∧
      ProtoGraphAdaptor.FrameBelow (node + 1) a b ∧
      ProtoGraphAdaptor.KeysBelow rank (rank node region + 1) a b := by
  obtain ⟨data, hdata, hok⟩ := ha node le_rfl
  simp only [ProtoGraphAdaptor.request, hdata]
  split_ifs with hmiss
  · have hf1 := frameBelow_setOutData a node
      { data with requests := data.requests + 1, computations := data.computations + 1 } hok
    have hk1 : ProtoGraphAdaptor.KeysBelow rank (rank node region + 1) a
        (a.setOutData node
          { data with requests := data.requests + 1, computations := data.computations + 1 }) :=
      keysBelow_setOutData rank _ a node data _ hdata (fun _ _ h => h)
    obtain ⟨t, b, hb, hfr, hkb⟩ := hrec node region _ _ hn (hf1.2.1 node ha)
      (by rw [setOutData_out, if_pos rfl])
      (fun hm => by
        rcases hmiss with h | h
        · exact absurd hm h
        · rw [contains_fst_eq_found] at h; exact h)
    exact ⟨t, b, hb, frameBelow_trans hf1 hfr, keysBelow_trans hk1 hkb⟩
  · exact ⟨0, _, rfl, frameBelow_setOutData a node _
      (contains_snd_cacheOk data region hok _ rfl),
      keysBelow_setOutData rank _ a node data _ hdata
        (fun x _ h => by rw [← contains_snd_found data.cache region x]; exact h)⟩

theorem performRequiredTasks_ok (g : ProtoGraph) (rank : Nat → Rectangle → Nat)
    (recur : Nat → Rectangle → ProtoGraphAdaptor → Option (ℚ × ProtoGraphAdaptor)) (bound : Nat)
    (hrec : ∀ node region a data, rank node region < bound → a.ReadyUpTo node →
      a.out_data_ node = some data →
      (g.memoryMode node = MemoryMode.ANY_MEMORY → data.cache.set_.found region = false) →
      ∃ t b, recur node region a = some (t, b) ∧ ProtoGraphAdaptor.FrameBelow (node + 1) a b ∧
        ProtoGraphAdaptor.KeysBelow rank (rank node region + 1) a b)
    (single_time : ℚ) (k top : Nat) (htop : top ≤ bound) :
    ∀ (tasks : List (Nat × Rectangle)) (a : ProtoGraphAdaptor) (own_time dep_time : ℚ),
      (∀ p, p ∈ tasks → p.1 ≤ k ∧ rank p.1 p.2 < top) → a.ReadyUpTo k →
      ∃ dep b, ProtoGraphAdaptor.performRequiredTasks g recur single_time tasks a own_time dep_time
          = some (own_time + tasks.length * single_time, dep, b) ∧
        ProtoGraphAdaptor.FrameBelow (k + 1) a b ∧ ProtoGraphAdaptor.KeysBelow rank top a b := by
  intro tasks
  induction tasks with
  | nil =>
    intro a own_time dep_time _ _
    exact ⟨dep_time, a, by simp [ProtoGraphAdaptor.performRequiredTasks], frameBelow_refl _ a,
      keysBelow_refl rank top a⟩
  | cons p rest ih =>
    intro a own_time dep_time hp ha
    obtain ⟨node, region⟩ := p
    have hlt := hp (node, region) (List.mem_cons_self _ _)
    simp only at hlt
    obtain ⟨t, a1, h1, hf1, hk1⟩ := request_ok g rank recur bound hrec node region a (by omega)
      (fun n hn => ha n (by omega))
    obtain ⟨dep, b, h2, hf2, hk2⟩ := ih a1 (own_time + single_time) (dep_time + t)
      (fun q hq => hp q (List.mem_cons_of_mem _ hq)) (hf1.2.1 k ha)
    refine ⟨dep, b, ?_, frameBelow_trans (frameBelow_mono (by omega) hf1) hf2,
      keysBelow_trans (keysBelow_mono (by omega) hk1) hk2⟩
    simp only [ProtoGraphAdaptor.performRequiredTasks, h1, h2, List.length_cons]
    congr 2
    push_cast
    ring

/-- With enough fuel, `outRequest` of a region that the node's cache does not hold returns. -/
theorem outRequest_ok (g : ProtoGraph) (rank : Nat → Rectangle → Nat) (hg : g.Ranked rank) :
    ∀ fuel node region a data, rank node region < fuel → a.ReadyUpTo node →
      a.out_data_ node = some data →
      (g.memoryMode node = MemoryMode.ANY_MEMORY → data.cache.set_.found region = false) →
      ∃ t b, ProtoGraphAdaptor.outRequest g fuel node region a = some (t, b) ∧
        ProtoGraphAdaptor.FrameBelow (node + 1) a b ∧
        ProtoGraphAdaptor.KeysBelow rank (rank node region + 1) a b := by
  intro fuel
  induction fuel with
  | zero => intro node _ _ _ h; omega
  | succ fuel ih =>
    intro node region a data hn ha hdata hfound
    obtain ⟨dep, a1, h1, hf1, hk1⟩ := performRequiredTasks_ok g rank
      (ProtoGraphAdaptor.outRequest g fuel) fuel ih (g.singleTime node region) node
      (rank node region) (by omega) (g.requiredTasks node region) a 0 0 (hg node region) ha
    obtain ⟨data1, hd1, hok1⟩ := hf1.2.1 node ha node le_rfl
    simp only [ProtoGraphAdaptor.outRequest, h1, hd1]
    by_cases hc : g.memoryMode node = MemoryMode.ANY_MEMORY ∧ g.isCacheable node region = true
    · have hnot : data1.cache.set_.found region = false := by
        by_contra hf
        rw [Bool.not_eq_false] at hf
        obtain ⟨da, hda, hfa⟩ := hk1 node region data1 le_rfl hd1 hf
        rw [hdata] at hda
        cases hda
        rw [hfound hc.1] at hfa
        cases hfa
      obtain ⟨cache, hput⟩ := put_isSome data1 region hok1
        (by rw [contains_fst_eq_found]; exact hnot)
      simp only [if_pos hc, hput]
      refine ⟨_, _, rfl, frameBelow_trans hf1
        (frameBelow_setOutData a1 node _ (put_cacheOk data1 region cache hok1 hput _ rfl)),
        keysBelow_trans (keysBelow_mono (by omega) hk1)
          (keysBelow_setOutData rank _ a1 node data1 _ hd1 (fun x hx hfx => ?_))⟩
      rcases put_found data1.cache cache region x hput hfx with h | h
      · rw [h] at hx; omega
      · exact h
    · simp only [if_neg hc]
      exact ⟨_, _, rfl, frameBelow_trans hf1 (frameBelow_setOutData a1 node _ hok1),
        keysBelow_trans (keysBelow_mono (by omega) hk1)
          (keysBelow_setOutData rank _ a1 node data1 _ hd1 (fun _ _ h => h))⟩

/-- A miss: the request is counted, the dependencies are simulated from the counted state,
and the region is put into the cache of the node as the dependencies left it. -/
theorem request_miss (g : ProtoGraph) (rank : Nat → Rectangle → Nat) (hg : g.Ranked rank)
    (fuel node : Nat) (region : Rectangle) (a : ProtoGraphAdaptor) (data : OutData)
    (hfuel : rank node region ≤ fuel) (ha : a.ReadyUpTo node)
    (hdata : a.out_data_ node = some data)
    (hmiss : g.memoryMode node ≠ MemoryMode.ANY_MEMORY ∨ (data.cache.contains region).1 = false) :
    ∃ (dep : ℚ) (a1 : ProtoGraphAdaptor) (data1 : OutData)
      (cache : OrderedMapProtoCache Rectangle),
      ProtoGraphAdaptor.performRequiredTasks g (ProtoGraphAdaptor.outRequest g fuel)
        (g.singleTime node region) (g.requiredTasks node region)
        (a.setOutData node
          ⟨data.cache, data.computations + 1, data.requests + 1, data.duration⟩) 0 0 =
        some ((g.requiredTasks node region).length * g.singleTime node region, dep, a1) ∧
      a1.out_data_ node = some data1 ∧
      ((∀ p, p ∈ g.requiredTasks node region → p.1 < node) →
        data1 = ⟨data.cache, data.computations + 1, data.requests + 1, data.duration⟩) ∧
      (if g.memoryMode node = MemoryMode.ANY_MEMORY ∧ g.isCacheable node region = true
        then data1.cache.put region = some cache else cache = data1.cache) ∧
      ProtoGraphAdaptor.request g (ProtoGraphAdaptor.outRequest g (fuel + 1)) node region a =
        some ((g.requiredTasks node region).length * g.singleTime node region
            + g.fullTime node region + dep,
          a1.setOutData node
            ⟨cache, data1.computations, data1.requests,
              data1.duration + ((g.requiredTasks node region).length * g.singleTime node region
                + g.fullTime node region)⟩) := by
  obtain ⟨d0, hd0, hok⟩ := ha node le_rfl
  rw [hdata] at hd0
  cases hd0
  have hf0 := frameBelow_setOutData a node
    ⟨data.cache, data.computations + 1, data.requests + 1, data.duration⟩ hok
  have ha0 := hf0.2.1 node ha
  have hd0 : (a.setOutData node
      ⟨data.cache, data.computations + 1, data.requests + 1, data.duration⟩).out_data_ node
      = some ⟨data.cache, data.computations + 1, data.requests + 1, data.duration⟩ := by
    rw [setOutData_out, if_pos rfl]
  obtain ⟨dep, a1, h1, hf1, hk1⟩ := performRequiredTasks_ok g rank
    (ProtoGraphAdaptor.outRequest g fuel) fuel (outRequest_ok g rank hg fuel)
    (g.singleTime node region) node (rank node region) hfuel (g.requiredTasks node region) _ 0 0
    (hg node region) ha0
  rw [zero_add] at h1
  obtain ⟨data1, hd1, hok1⟩ := hf1.2.1 node ha0 node le_rfl
  have hlow : (∀ p, p ∈ g.requiredTasks node region → p.1 < node) →
      data1 = ⟨data.cache, data.computations + 1, data.requests + 1, data.duration⟩ := by
    intro hp
    cases node with
    | zero =>
      have hnil : g.requiredTasks 0 region = [] := by
        cases hl : g.requiredTasks 0 region with
        | nil => rfl
        | cons p rest =>
          have := hp p (by rw [hl]; exact List.mem_cons_self _ _)
          omega
      rw [hnil] at h1
      simp only [ProtoGraphAdaptor.performRequiredTasks, Option.some.injEq, Prod.mk.injEq] at h1
      rw [← h1.2.2, hd0] at hd1
      cases hd1
      rfl
    | succ n =>
      obtain ⟨dep2, a2, h2, hf2, _⟩ := performRequiredTasks_ok g rank
        (ProtoGraphAdaptor.outRequest g fuel) fuel (outRequest_ok g rank hg fuel)
        (g.singleTime (n + 1) region) n (rank (n + 1) region) hfuel
        (g.requiredTasks (n + 1) region) _ 0 0
        (fun p hpm => ⟨by have := hp p hpm; omega, (hg (n + 1) region p hpm).2⟩)
        (fun m hm => ha0 m (by omega))
      rw [zero_add, h1] at h2
      simp only [Option.some.injEq, Prod.mk.injEq] at h2
      rw [← h2.2.2] at hf2
      rw [hf2.1 (n + 1) le_rfl, hd0] at hd1
      cases hd1
      rfl
  by_cases hc : g.memoryMode node = MemoryMode.ANY_MEMORY ∧ g.isCacheable node region = true
  · have hfound : data.cache.set_.found region = false := by
      rcases hmiss with h | h
      · exact absurd hc.1 h
      · rw [contains_fst_eq_found] at h; exact h
    have hnot : data1.cache.set_.found region = false := by
      by_contra hf
      rw [Bool.not_eq_false] at hf
      obtain ⟨da, hda, hfa⟩ := hk1 node region data1 le_rfl hd1 hf
      rw [hd0] at hda
      cases hda
      rw [hfound] at hfa
      cases hfa
    obtain ⟨cache, hput⟩ := put_isSome data1 region hok1
      (by rw [contains_fst_eq_found]; exact hnot)
    refine ⟨dep, a1, data1, cache, h1, hd1, hlow, by rw [if_pos hc]; exact hput, ?_⟩
    simp only [ProtoGraphAdaptor.request, hdata, if_pos hmiss, ProtoGraphAdaptor.outRequest, h1,
      hd1, if_pos hc, hput]
  · refine ⟨dep, a1, data1, data1.cache, h1, hd1, hlow, by rw [if_neg hc], ?_⟩
    simp only [ProtoGraphAdaptor.request, hdata, if_pos hmiss, ProtoGraphAdaptor.outRequest, h1,
      hd1, if_neg hc]

end ImageGraph


namespace ImageGraph

theorem tiledExample_ranked : tiledExample.Ranked tiledRank := by
  intro node region p hp
  simp only [tiledExample] at hp
  split_ifs at hp with h1 h2
  · rw [List.mem_singleton] at hp
    subst hp h1
    simp [tiledRank, h2]
  · rw [List.mem_map] at hp
    obtain ⟨tile, htile, rfl⟩ := hp
    subst h1
    simp [tiledRank, h2, htile]
  · exact absurd hp (List.not_mem_nil p)

/-- C9: in the simulator a request of `(node, region)` (the statements shared by `sinkRequest`
and the performer of `outRequest`) counts one request of the node.  On a hit (the node is
`ANY_MEMORY` and its proto-cache contains the region) nothing else changes but the recency of
the cache entry: the time returned is 0 and `outRequest` is not called.  On a miss, when the
requests of the tasks are well-founded (a task requests regions of lower-numbered nodes or, as
the tiling task of a tiled node does, of its own node, each of a lower rank) and the fuel
covers the rank, the call returns: it counts one request and one computation, simulates the
dependencies from the counted state, and then, on the data `data1` of the node as the
dependencies left them (the counted data themselves when no dependency is a region of the
node), puts the region into the proto-cache exactly when the node is `ANY_MEMORY` and
`isCacheable(region)`, and adds the own time to the node's duration.  In every state reached
from the empty adaptor by calls that return, `computations ≤ requests` for every node. -/
theorem simulator_request_counts (g : ProtoGraph) :
    (∀ (recur : Nat → Rectangle → ProtoGraphAdaptor → Option (ℚ × ProtoGraphAdaptor))
        (node : Nat) (region : Rectangle) (a : ProtoGraphAdaptor) (data : OutData),
        a.out_data_ node = some data → g.memoryMode node = MemoryMode.ANY_MEMORY →
        (data.cache.contains region).1 = true →
        ProtoGraphAdaptor.request g recur node region a =
          some (0, a.setOutData node
            ⟨(data.cache.contains region).2, data.computations, data.requests + 1,
              data.duration⟩)) ∧
    (∀ (rank : Nat → Rectangle → Nat), g.Ranked rank →
        ∀ (fuel node : Nat) (region : Rectangle) (a : ProtoGraphAdaptor) (data : OutData),
        rank node region ≤ fuel → a.ReadyUpTo node → a.out_data_ node = some data →
        (g.memoryMode node ≠ MemoryMode.ANY_MEMORY ∨ (data.cache.contains region).1 = false) →
        ∃ (dep : ℚ) (a1 : ProtoGraphAdaptor) (data1 : OutData)
          (cache : OrderedMapProtoCache Rectangle),
          ProtoGraphAdaptor.performRequiredTasks g (ProtoGraphAdaptor.outRequest g fuel)
            (g.singleTime node region) (g.requiredTasks node region)
            (a.setOutData node
              ⟨data.cache, data.computations + 1, data.requests + 1, data.duration⟩) 0 0 =
            some ((g.requiredTasks node region).length * g.singleTime node region, dep, a1) ∧
          a1.out_data_ node = some data1 ∧
          ((∀ p, p ∈ g.requiredTasks node region → p.1 < node) →
            data1 = ⟨data.cache, data.computations + 1, data.requests + 1, data.duration⟩) ∧
          (if g.memoryMode node = MemoryMode.ANY_MEMORY ∧ g.isCacheable node region = true
            then data1.cache.put region = some cache else cache = data1.cache) ∧
          ProtoGraphAdaptor.request g (ProtoGraphAdaptor.outRequest g (fuel + 1)) node region a =
            some ((g.requiredTasks node region).length * g.singleTime node region
                + g.fullTime node region + dep,
              a1.setOutData node
                ⟨cache, data1.computations, data1.requests,
                  data1.duration + ((g.requiredTasks node region).length * g.singleTime node region
                    + g.fullTime node region)⟩)) ∧
    (∀ (ops : List SimulatorOp) (a : ProtoGraphAdaptor),
        ProtoGraphAdaptor.run g ProtoGraphAdaptor.new ops = some a → a.CountsOrdered) := by
  refine ⟨?_, ?_, ?_⟩
  · intro recur node region a data hdata hmode hhit
    exact request_hit g recur node region a data hdata hmode hhit
  · intro rank hg fuel node region a data hfuel ha hdata hmiss
    exact request_miss g rank hg fuel node region a data hfuel ha hdata hmiss
  · intro ops a h
    refine run_countsOrdered g ops ProtoGraphAdaptor.new a ?_ h
    intro n d hn
    cases hn

theorem simulator_request_counts_witness :
    ProtoGraphAdaptor.request (sharedExample 1 1) (fun _ _ _ => none) 1 ⟨0, 0, 32, 32⟩
        (ProtoGraphAdaptor.new.setOutData 1 ⟨⟨⟨[⟨0, 0, 32, 32⟩], 1⟩⟩, 1, 1, 3⟩) =
      some (0, (ProtoGraphAdaptor.new.setOutData 1 ⟨⟨⟨[⟨0, 0, 32, 32⟩], 1⟩⟩, 1, 1, 3⟩).setOutData 1
        ⟨((⟨⟨[⟨0, 0, 32, 32⟩], 1⟩⟩ : OrderedMapProtoCache Rectangle).contains ⟨0, 0, 32, 32⟩).2,
          1, 2, 3⟩) ∧
    (∃ (dep : ℚ) (a1 : ProtoGraphAdaptor) (data1 : OutData)
        (cache : OrderedMapProtoCache Rectangle),
      ProtoGraphAdaptor.performRequiredTasks tiledExample
        (ProtoGraphAdaptor.outRequest tiledExample 2)
        (tiledExample.singleTime 1 ⟨0, 0, 64, 64⟩) (tiledExample.requiredTasks 1 ⟨0, 0, 64, 64⟩)
        (tiledAdaptor.setOutData 1 ⟨⟨⟨[], 4⟩⟩, 0 + 1, 0 + 1, 0⟩) 0 0 =
        some ((tiledExample.requiredTasks 1 ⟨0, 0, 64, 64⟩).length
          * tiledExample.singleTime 1 ⟨0, 0, 64, 64⟩, dep, a1) ∧
      a1.out_data_ 1 = some data1 ∧
      ((∀ p, p ∈ tiledExample.requiredTasks 1 ⟨0, 0, 64, 64⟩ → p.1 < 1) →
        data1 = ⟨⟨⟨[], 4⟩⟩, 0 + 1, 0 + 1, 0⟩) ∧
      (if tiledExample.memoryMode 1 = MemoryMode.ANY_MEMORY ∧
          tiledExample.isCacheable 1 ⟨0, 0, 64, 64⟩ = true
        then data1.cache.put ⟨0, 0, 64, 64⟩ = some cache else cache = data1.cache) ∧
      ProtoGraphAdaptor.request tiledExample (ProtoGraphAdaptor.outRequest tiledExample (2 + 1))
        1 ⟨0, 0, 64, 64⟩ tiledAdaptor =
        some ((tiledExample.requiredTasks 1 ⟨0, 0, 64, 64⟩).length
            * tiledExample.singleTime 1 ⟨0, 0, 64, 64⟩
            + tiledExample.fullTime 1 ⟨0, 0, 64, 64⟩ + dep,
          a1.setOutData 1
            ⟨cache, data1.computations, data1.requests,
              data1.duration + ((tiledExample.requiredTasks 1 ⟨0, 0, 64, 64⟩).length
                * tiledExample.singleTime 1 ⟨0, 0, 64, 64⟩
                + tiledExample.fullTime 1 ⟨0, 0, 64, 64⟩)⟩)) ∧
    (∃ a, ProtoGraphAdaptor.run (sharedExample 1 2) ProtoGraphAdaptor.new
        (computationCalls [1, 2] [(0, 1), (1, 1)] 2 8) = some a ∧ a.CountsOrdered) ∧
    (ProtoGraphAdaptor.request tiledExample (ProtoGraphAdaptor.outRequest tiledExample 3)
        1 ⟨0, 0, 64, 64⟩ tiledAdaptor).map
        (fun p => (p.2.out_data_ 1).map fun d =>
          (d.requests, d.computations, d.cache.set_.values_.length))
      = some (some (5, 5, 4)) := by
  refine ⟨?_, ?_, ?_, ?_⟩
  · exact (simulator_request_counts (sharedExample 1 1)).1 (fun _ _ _ => none) 1 ⟨0, 0, 32, 32⟩
      (ProtoGraphAdaptor.new.setOutData 1 ⟨⟨⟨[⟨0, 0, 32, 32⟩], 1⟩⟩, 1, 1, 3⟩)
      ⟨⟨⟨[⟨0, 0, 32, 32⟩], 1⟩⟩, 1, 1, 3⟩ rfl rfl (by decide)
  · exact (simulator_request_counts tiledExample).2.1 tiledRank tiledExample_ranked 2 1
      ⟨0, 0, 64, 64⟩ tiledAdaptor ⟨⟨⟨[], 4⟩⟩, 0, 0, 0⟩ (by decide)
      (by
        intro n hn
        interval_cases n
        · exact ⟨_, rfl, fun _ => rfl⟩
        · exact ⟨_, rfl, fun h => absurd h (by decide)⟩)
      rfl (Or.inr (by decide))
  · have hsome : (ProtoGraphAdaptor.run (sharedExample 1 2) ProtoGraphAdaptor.new
        (computationCalls [1, 2] [(0, 1), (1, 1)] 2 8)).isSome = true := by
      with_unfolding_all decide
    cases hrun : ProtoGraphAdaptor.run (sharedExample 1 2) ProtoGraphAdaptor.new
        (computationCalls [1, 2] [(0, 1), (1, 1)] 2 8) with
    | none => rw [hrun] at hsome; cases hsome
    | some a => exact ⟨a, rfl, (simulator_request_counts (sharedExample 1 2)).2.2 _ a hrun⟩
  · with_unfolding_all decide

end ImageGraph


namespace ImageGraph

/-! ## The simulator with the chooser of `float` quotients: requests of out nodes -/

namespace Machine

end Machine

end ImageGraph


namespace ImageGraph

/-! ## Quotients that rounding keeps apart -/

theorem FloatValue.lt_of_le_of_lt {a b c : FloatValue} (h1 : a.le b = true)
    (h2 : b.lt c = true) : a.lt c = true := by
  rcases FloatValue.le_iff.1 h1 with h | h
  · exact FloatValue.lt_trans_bool h h2
  · exact FloatValue.lt_of_eq_of_lt h h2

namespace Machine

end Machine

end ImageGraph


namespace ImageGraph

namespace Machine

/-! ## Two sinks over a shared node, with the chooser of `float` quotients -/

end Machine

end ImageGraph


namespace ImageGraph

namespace Machine

end Machine

end ImageGraph


namespace ImageGraph

open boost_geometry

section
variable {T : Type} [LinearOrderedField T]

/-! ### The sum over the segments of a clipped list -/

theorem additive_self (F : point_t T → point_t T → T) (hF : Additive F) (u : point_t T) :
    F u u = 0 := by
  have h := hF.1 u u
  have h2 : F u u + F u u = 0 := by linarith
  have h3 : (2 : T) * F u u = 0 := by linarith
  rcases mul_eq_zero.1 h3 with h4 | h4
  · exact absurd h4 (by norm_num)
  · exact h4

theorem cross3_rotate (a b c : point_t T) : cross3 b c a = cross3 a b c := by
  simp only [cross3]; ring

theorem cross3_cut_end (h : HalfPlane T) (a b : point_t T) :
    cross3 a (h.cut a b) b = 0 := by
  simp only [HalfPlane.cut, cross3, lerp]; ring

end

end ImageGraph


namespace ImageGraph

open boost_geometry

section
variable {T : Type} [LinearOrderedField T]

/-! ### `clipRing` on a ring that is put together from convex pieces -/

theorem pieceSum_nil (F : point_t T → point_t T → T) : pieceSum F [] = 0 := rfl

theorem pieceSum_cons (F : point_t T → point_t T → T) (l : List (point_t T))
    (pieces : List (List (point_t T))) :
    pieceSum F (l :: pieces) = sumOver F (cyclicSegments l) + pieceSum F pieces := by
  simp only [pieceSum, List.map_cons, List.sum_cons]

/-- A closed ring is put together from its own points, as one piece; the piece is convex and
clockwise when the ring is. -/
theorem closed_dissected (p : point_t T) (inner : List (point_t T))
    (hlast : inner.getLast? = some p) :
    Dissected (p :: inner) [inner] ∧
      (ConvexClockwise (p :: inner) → ∀ l ∈ [inner], ConvexCyclic l) := by
  have hseg : segments (p :: inner) = cyclicSegments inner := by
    simp only [segments, cyclicSegments, hlast]
  refine ⟨fun F _ => ?_, fun hc l hl c hcl => ?_⟩
  · rw [pieceSum_cons, pieceSum_nil, add_zero, hseg]
  · rw [List.mem_singleton] at hl
    subst hl
    have := hc c (List.mem_cons_of_mem _ hcl)
    rw [hseg] at this
    exact this

theorem pieceSum_fan (F : point_t T → point_t T → T) (c : point_t T) :
    ∀ l : List (point_t T × point_t T),
      pieceSum F (l.map fun e => [c, e.1, e.2]) =
        sumOver (fun u v => F u v + (F v c + F c u)) l := by
  intro l
  induction l with
  | nil => rfl
  | cons e rest ih =>
    rw [List.map_cons, pieceSum_cons, ih, sumOver_cons]
    simp only [cyclicSegments, List.getLast?_cons_cons, List.getLast?_singleton, edgesFrom,
      sumOver_cons, sumOver_nil]
    ring

/-- A closed ring is put together from the triangles that its segments span with a point. -/
theorem fan_dissected (c : point_t T) (ring : ring_t T) (hclosed : Closed ring) :
    Dissected ring (fan c ring) := by
  obtain ⟨p, inner, rfl, hlast⟩ := hclosed
  have hseg : segments (p :: inner) = cyclicSegments inner := by
    simp only [segments, cyclicSegments, hlast]
  intro F hF
  have e1 : sumOver (fun u v => F u v + (F v c + F c u)) (segments (p :: inner)) =
      sumOver (fun u v => F u v + (F c u - F c v)) (segments (p :: inner)) := by
    apply sumOver_congr
    intro e _
    rw [hF.1 c e.2]
    ring
  rw [fan, pieceSum_fan, e1, sumOver_add, hseg, sumOver_cyclic_telescope (fun u => F c u) inner,
    add_zero]

/-- The triangles that the segments of a ring span with a point on or to the right of all of
them are convex and clockwise. -/
theorem fan_convex (c : point_t T) (ring : ring_t T) (hc : RightOfAll (segments ring) c) :
    ∀ l ∈ fan c ring, ConvexCyclic l := by
  intro l hl
  rw [fan, List.mem_map] at hl
  obtain ⟨e, he, rfl⟩ := hl
  have h := hc e he
  intro q hq s hs
  simp only [cyclicSegments, List.getLast?_cons_cons, List.getLast?_singleton, edgesFrom,
    List.mem_cons, List.mem_singleton, List.not_mem_nil, or_false] at hq hs
  unfold cross3 at h ⊢
  rcases hq with rfl | rfl | rfl <;> rcases hs with rfl | rfl | rfl <;> simp only <;> linarith

end

end ImageGraph


namespace ImageGraph

open boost_geometry

/-! ### The star and the slant triangle -/

end ImageGraph

